import Mathlib

/-!
# Hazard-pointer reclamation engine (`cpp_utils/concurrency/hazard_ptr.h`)

A shallow embedding of the single-threaded behaviour of
`alp_utils::hazp`: the slot directory, the thread-local cache, the hazard
handle, the sharded registry of retired records and the reclamation loop.

Conventions of the embedding.

* A pointer to a `detail::holder` is the natural number of its address; a
  possibly-null pointer is an `Option Nat`.  An intrusive chain (through
  `m_next_` or `next_`) is the list of the addresses it links, head first.
* The atomic word `holder::ptr` of the slot at address `a` is
  `holder_ptr a`.
* A retired record is a value `retire_node.mk raw addr retires`: `raw` is
  what `raw_ptr()` returns, `addr` is the address of the record itself and
  `retires` lists the records that the user deleter hands to `retire` while
  it runs (the deleter of the test `destruction_test` retires one record,
  the deleter of a plain `Node` retires none).  A deleter does nothing else
  to the domain.
* `new detail::holder()` returns the address `heap_next`, which then
  advances, so a new slot has an address no other slot has.
* The counter `count_` and the `int` counters of `linked_list` are integers
  without wrap-around; the unsigned counters wrap as in the source.
* `steady_clock::now()` is an oracle `clock : Nat → Nat`; the state counts
  the readings taken so far.
* Loops that may spin forever take fuel and return `none` when it runs out.
-/

namespace hazp

/-- The word `holder::NOUSE`. -/
def NOUSE : Nat := 1

/-- The word `holder::INUSE`. -/
def INUSE : Nat := 0

/-- The constant `reclaimer::kNumShards`. -/
def kNumShards : Nat := 8

/-- The constant `reclaimer::kShardMask`. -/
def kShardMask : Nat := kNumShards - 1

/-- The constant `reclaimer::kReclaimThreshold`. -/
def kReclaimThreshold : Int := 1000

/-- The constant `reclaimer::kSyncTimePeriod`, in nanoseconds. -/
def kSyncTimePeriod : Nat := 2000000000

/-- A retired record (`reclaimer::retire_node` with its `retire_node_impl`).
`raw` is the retired pointer, `addr` the address of the record, `retires` the
records its deleter retires when it runs. -/
inductive retire_node where
  | mk (raw : Nat) (addr : Nat) (retires : List retire_node) : retire_node

/-- The accessor `retire_node::raw_ptr()`. -/
def retire_node.raw_ptr : retire_node → Nat
  | .mk raw _ _ => raw

/-- The address of the record, which `push_list` hashes. -/
def retire_node.address : retire_node → Nat
  | .mk _ addr _ => addr

/-- The calls to `retire` made while the record is destroyed: the destructor
of its `std::unique_ptr` runs the user deleter only on a non-null pointer. -/
def retire_node.deleter : retire_node → List retire_node
  | .mk raw _ retires => if raw = 0 then [] else retires

/-- The class `detail::linked_list<retire_node>`: the chain from `head_` to
`tail_` and the counter `size_`. -/
structure linked_list where
  chain : List retire_node
  size_ : Int

/-- The default constructor of `linked_list`. -/
def linked_list.init : linked_list := { chain := [], size_ := 0 }

/-- The method `linked_list::empty`. -/
def linked_list.empty (l : linked_list) : Bool := l.chain.isEmpty

/-- The method `linked_list::push`: append at the tail. -/
def linked_list.push (l : linked_list) (node : retire_node) : linked_list :=
  { chain := l.chain ++ [node], size_ := l.size_ + 1 }

/-- The method `linked_list::splice` (the state of `this` afterwards; the
argument list is cleared by the source and not used again). -/
def linked_list.splice (l list : linked_list) : linked_list :=
  if list.empty then l
  else if l.chain.isEmpty then { chain := list.chain, size_ := list.size_ }
  else { chain := l.chain ++ list.chain, size_ := l.size_ + list.size_ }

/-- The state of the domain (`class reclaimer`) together with the memory of
the slots it manages. -/
structure reclaimer where
  /-- The directory `holder_list_`: chain through `next_`, head first. -/
  holder_list_ : List Nat
  /-- The counter `holder_list_.size_` (32 bits). -/
  holder_list_size_ : Nat
  /-- The global free list `free_list_`: chain through `m_next_`. -/
  free_list_ : List Nat
  /-- The word `ptr` of the slot at each address. -/
  holder_ptr : Nat → Nat
  /-- The retired-count `count_`. -/
  count_ : Int
  /-- The due-time `due_time_` (64 bits). -/
  due_time_ : Nat
  /-- The shards `retired_list_[0..7]`, each a chain head first. -/
  retired_list_ : Nat → List retire_node
  /-- The counter `num_bulk_reclaims_` (16 bits). -/
  num_bulk_reclaims_ : Nat
  /-- The address that the next `new detail::holder()` returns. -/
  heap_next : Nat
  /-- The records destroyed by `delete` so far (destroying a record runs its
  deleter), most recent first. -/
  deleted : List retire_node
  /-- The number of readings of the steady clock taken so far. -/
  clock_reads : Nat

/-- A freshly constructed domain: every member at its default initialiser. -/
def reclaimer.init : reclaimer :=
  { holder_list_ := [], holder_list_size_ := 0, free_list_ := [],
    holder_ptr := fun _ => INUSE, count_ := 0, due_time_ := 0,
    retired_list_ := fun _ => [], num_bulk_reclaims_ := 0, heap_next := 1,
    deleted := [], clock_reads := 0 }

/-- The method `reclaimer::add_count` (the state afterwards). -/
def add_count (s : reclaimer) (rcount : Int) : reclaimer :=
  { s with count_ := s.count_ + rcount }

/-- The method `reclaimer::inc_num_bulk_reclaims`. -/
def inc_num_bulk_reclaims (s : reclaimer) : reclaimer :=
  { s with num_bulk_reclaims_ := (s.num_bulk_reclaims_ + 1) % 65536 }

/-- The method `reclaimer::dec_num_bulk_reclaims`: a 16-bit decrement, which
wraps from 0 to 65535. -/
def dec_num_bulk_reclaims (s : reclaimer) : reclaimer :=
  { s with num_bulk_reclaims_ :=
      if s.num_bulk_reclaims_ = 0 then 65535 else s.num_bulk_reclaims_ - 1 }

/-- The method `reclaimer::check_count_threshold`: with one thread the
compare-and-swap succeeds as soon as it is not spuriously failed. -/
def check_count_threshold (s : reclaimer) : Int × reclaimer :=
  if s.count_ ≥ kReclaimThreshold then (s.count_, { s with count_ := 0 })
  else (0, s)

/-- The method `reclaimer::check_due_time`, reading the clock once. -/
def check_due_time (clock : Nat → Nat) (s : reclaimer) : Int × reclaimer :=
  let time := clock s.clock_reads
  let s1 := { s with clock_reads := s.clock_reads + 1 }
  if time < s1.due_time_ then (0, s1)
  else
    let s2 := { s1 with due_time_ := (time + kSyncTimePeriod) % 18446744073709551616 }
    let rcount := s2.count_
    let s3 := { s2 with count_ := 0 }
    if rcount < 0 then (0, add_count s3 rcount) else (rcount, s3)

/-- The method `reclaimer::load_hazptr_vals`: the words of the directory that
are neither `NOUSE` nor `INUSE`, collected in a set (of which only membership
is observed). -/
def load_hazptr_vals (s : reclaimer) : List Nat :=
  s.holder_list_.foldl
    (fun protected_ptrs head =>
      let ptr := s.holder_ptr head
      if ptr = NOUSE ∨ ptr = INUSE then protected_ptrs else ptr :: protected_ptrs)
    []

/-- The method `reclaimer::extract_retired_objects`: the eight drained
chains, the state with every shard emptied, and the returned flag. -/
def extract_retired_objects (s : reclaimer) : List (List retire_node) × reclaimer × Bool :=
  let list := (List.range kNumShards).map s.retired_list_
  let s1 := { s with retired_list_ := fun i => if i < kNumShards then [] else s.retired_list_ i }
  (list, s1, list.any (fun l => !l.isEmpty))

/-- The method `reclaimer::retired_list_empty`. -/
def retired_list_empty (s : reclaimer) : Bool :=
  (List.range kNumShards).all (fun i => (s.retired_list_ i).isEmpty)

/-- The method `reclaimer::list_match_condition`. -/
def list_match_condition (cond : retire_node → Bool) :
    List retire_node → linked_list → linked_list → linked_list × linked_list
  | [], match_, nomatch_ => (match_, nomatch_)
  | obj :: next, match_, nomatch_ =>
    if cond obj then list_match_condition cond next (match_.push obj) nomatch_
    else list_match_condition cond next match_ (nomatch_.push obj)

/-- The method `shared_head_only_list::push` on shard `i`. -/
def retired_list_push (s : reclaimer) (i : Nat) (node : retire_node) : reclaimer :=
  { s with retired_list_ := fun j => if j = i then node :: s.retired_list_ i else s.retired_list_ j }

/-- The method `shared_head_only_list::push_list` on shard `i`. -/
def retired_list_push_list (s : reclaimer) (i : Nat) (list : List retire_node) : reclaimer :=
  if list.isEmpty then s
  else { s with retired_list_ := fun j => if j = i then list ++ s.retired_list_ i else s.retired_list_ j }

/-- The method `reclaimer::check_threshold_and_reclaim`; `rec` is
`do_reclamation`. -/
def check_threshold_and_reclaim (rec : reclaimer → Int → Option reclaimer)
    (clock : Nat → Nat) (s : reclaimer) : Option reclaimer :=
  let (rcount, s1) := check_count_threshold s
  if rcount = 0 then
    let (rcount2, s2) := check_due_time clock s1
    if rcount2 = 0 then some s2
    else rec (inc_num_bulk_reclaims s2) rcount2
  else rec (inc_num_bulk_reclaims s1) rcount

/-- The method `reclaimer::push_list`: hash the address of the record, push
it on its shard, count it, evaluate the trigger. -/
def push_list (rec : reclaimer → Int → Option reclaimer) (clock : Nat → Nat)
    (node : retire_node) (s : reclaimer) : Option reclaimer :=
  let hash := node.address >>> 8
  let s1 := retired_list_push s (hash &&& kShardMask) node
  let s2 := add_count s1 1
  check_threshold_and_reclaim rec clock s2

/-- The calls to `retire` that a running deleter makes, in order. -/
def run_deleter (rec : reclaimer → Int → Option reclaimer) (clock : Nat → Nat) :
    List retire_node → reclaimer → Option reclaimer
  | [], s => some s
  | node :: rest, s =>
    match push_list rec clock node s with
    | none => none
    | some s1 => run_deleter rec clock rest s1

/-- The method `reclaimer::reclaim_obj`: `delete` every record of the chain;
deleting a record runs its deleter. -/
def reclaim_obj (rec : reclaimer → Int → Option reclaimer) (clock : Nat → Nat) :
    List retire_node → reclaimer → Option reclaimer
  | [], s => some s
  | obj :: next, s =>
    match run_deleter rec clock obj.deleter { s with deleted := obj :: s.deleted } with
    | none => none
    | some s1 => reclaim_obj rec clock next s1

/-- The loop of `reclaimer::match_reclaim` over the drained chains, carrying
`not_reclaimed`, `count` and `done`. -/
def match_reclaim_loop (rec : reclaimer → Int → Option reclaimer) (clock : Nat → Nat)
    (hash_set : List Nat) :
    List (List retire_node) → linked_list → Int → Bool → reclaimer →
      Option (linked_list × Int × Bool × reclaimer)
  | [], not_reclaimed, count, done, s => some (not_reclaimed, count, done, s)
  | retire_nodes :: rest, not_reclaimed, count, done, s =>
    let (match_, nomatch_) :=
      list_match_condition (fun obj => decide (obj.raw_ptr ∈ hash_set)) retire_nodes
        linked_list.init linked_list.init
    let count1 := count + nomatch_.size_
    match reclaim_obj rec clock nomatch_.chain s with
    | none => none
    | some s1 =>
      let done1 := if retired_list_empty s1 then done else false
      match_reclaim_loop rec clock hash_set rest (not_reclaimed.splice match_) count1 done1 s1

/-- The method `reclaimer::match_reclaim`: returns `count`, `done` and the
state afterwards. -/
def match_reclaim (rec : reclaimer → Int → Option reclaimer) (clock : Nat → Nat)
    (retired : List (List retire_node)) (hash_set : List Nat) (s : reclaimer) :
    Option (Int × Bool × reclaimer) :=
  match match_reclaim_loop rec clock hash_set retired linked_list.init 0 true s with
  | none => none
  | some (not_reclaimed, count, done, s1) =>
    some (count, done, retired_list_push_list s1 0 not_reclaimed.chain)

/-- One iteration of the loop of `reclaimer::do_reclamation`; `rec` stands
both for the next iteration and for the passes that deleters start. -/
def do_reclamation_iter (rec : reclaimer → Int → Option reclaimer) (clock : Nat → Nat)
    (s : reclaimer) (rcount : Int) : Option reclaimer :=
  let (retired, s1, nonempty) := extract_retired_objects s
  let r :=
    if nonempty then
      let hash_set := load_hazptr_vals s1
      match match_reclaim rec clock retired hash_set s1 with
      | none => none
      | some (count, done, s2) => some (rcount - count, done, s2)
    else some (rcount, true, s1)
  match r with
  | none => none
  | some (rcount1, done, s2) =>
    let s3 := if rcount1 ≠ 0 then add_count s2 rcount1 else s2
    let (rcount2, s4) := check_count_threshold s3
    if rcount2 = 0 ∧ done then some (dec_num_bulk_reclaims s4)
    else rec s4 rcount2

/-- The method `reclaimer::do_reclamation`, with fuel for its loop and for
the passes nested in it. -/
def do_reclamation (clock : Nat → Nat) : Nat → reclaimer → Int → Option reclaimer
  | 0 => fun _ _ => none
  | fuel + 1 => do_reclamation_iter (do_reclamation clock fuel) clock

/-- The method `reclaimer::retire`. -/
def retire (clock : Nat → Nat) (fuel : Nat) (node : retire_node) (s : reclaimer) :
    Option reclaimer :=
  push_list (do_reclamation clock fuel) clock node s

/-- The method `reclaimer::reclaim`: `wait_for_zero_bulk_reclaims` spins for
ever when the counter is not zero and no other thread runs. -/
def reclaim (clock : Nat → Nat) (fuel : Nat) (s : reclaimer) : Option reclaimer :=
  match do_reclamation clock fuel (inc_num_bulk_reclaims s) 0 with
  | none => none
  | some s1 => if s1.num_bulk_reclaims_ > 0 then none else some s1

/-! ## The thread-local cache and the hazard handle -/

/-- The struct `detail::forward_list<holder>`: the counter `size_` (32 bits)
and the chain that starts at `head_`. -/
structure forward_list where
  size_ : Nat
  head_ : List Nat

/-- The method `forward_list::push`. -/
def forward_list.push (l : forward_list) (node : Nat) : forward_list :=
  { size_ := (l.size_ + 1) % 4294967296, head_ := node :: l.head_ }

/-- The method `forward_list::pop`: the popped pointer (null on an empty
chain) and the list afterwards; the 32-bit `size_--` wraps from 0. -/
def forward_list.pop (l : forward_list) : Option Nat × forward_list :=
  match l.head_ with
  | [] => (none, l)
  | node :: next =>
    (some node, { size_ := if l.size_ = 0 then 4294967295 else l.size_ - 1, head_ := next })

/-- The method `forward_list::clear`. -/
def forward_list.clear (l : forward_list) : forward_list :=
  { l with head_ := [] }

/-- The method `forward_list::empty`. -/
def forward_list.empty (l : forward_list) : Bool := l.head_.isEmpty

/-- The method `forward_list::size`. -/
def forward_list.size (l : forward_list) : Nat := l.size_

/-- The class `reclaimer::local_holder`: the cache of one thread. -/
structure local_holder where
  free_list : forward_list
  holder_storage : List Nat

/-- A freshly constructed thread cache. -/
def local_holder.init : local_holder :=
  { free_list := { size_ := 0, head_ := [] }, holder_storage := [] }

/-- The domain, the cache of the calling thread and the handles of that
thread: `handles h` is the member `holder_` of the `hazard_ptr` object at
address `h` (`none` is the null pointer of an empty handle). -/
structure world where
  dom : reclaimer
  tc : local_holder
  handles : Nat → Option Nat

/-- The state at program start: fresh domain, fresh cache, no handle. -/
def world.init : world :=
  { dom := reclaimer.init, tc := local_holder.init, handles := fun _ => none }

/-- A release store into the word `ptr` of the slot at address `a`. -/
def store_ptr (s : reclaimer) (a : Nat) (v : Nat) : reclaimer :=
  { s with holder_ptr := fun b => if b = a then v else s.holder_ptr b }

/-- The method `reclaimer::make_new_holder`: allocate a slot (its word is
initialised to `INUSE`) and push it on the directory. -/
def make_new_holder (s : reclaimer) : Nat × reclaimer :=
  let holder := s.heap_next
  let s1 := store_ptr { s with heap_next := s.heap_next + 1 } holder INUSE
  (holder, { s1 with holder_list_size_ := (s1.holder_list_size_ + 1) % 4294967296,
                     holder_list_ := holder :: s1.holder_list_ })

/-- The method `reclaimer::make_holder`. -/
def make_holder (s : reclaimer) : Nat × reclaimer :=
  match s.free_list_ with
  | holder :: next => (holder, { s with free_list_ := next })
  | [] => make_new_holder s

/-- The method `reclaimer::reuse`: push on the global free list. -/
def reclaimer.reuse (s : reclaimer) (holder : Nat) : reclaimer :=
  { s with free_list_ := holder :: s.free_list_ }

/-- The method `local_holder::reuse`: push on the free list of the thread. -/
def local_holder.reuse (t : local_holder) (holder : Nat) : local_holder :=
  { t with free_list := t.free_list.push holder }

/-- The method `local_holder::get_hazard_ptr`: the member `holder_` of the
returned handle and the state afterwards. -/
def get_hazard_ptr (w : world) : Option Nat × world :=
  if w.tc.free_list.empty then
    let (new_holder, d) := make_holder w.dom
    (some new_holder,
      { w with dom := d, tc := { w.tc with holder_storage := w.tc.holder_storage.insert new_holder } })
  else
    let (hzard_ptr, fl) := w.tc.free_list.pop
    (hzard_ptr, { w with tc := { w.tc with free_list := fl } })

/-- The loop of `local_holder::reserve_hazp`, for `i` from `old_size` up to
`size`; `n` is the number of iterations left. -/
def reserve_hazp_loop : Nat → world → world
  | 0, w => w
  | n + 1, w =>
    let (new_holder, d) := make_holder w.dom
    reserve_hazp_loop n
      { w with dom := d,
               tc := { free_list := w.tc.free_list.push new_holder,
                       holder_storage := w.tc.holder_storage.insert new_holder } }

/-- The method `local_holder::reserve_hazp`. -/
def reserve_hazp (size : Nat) (w : world) : world :=
  let old_size := w.tc.free_list.size
  if old_size ≥ size then w
  else reserve_hazp_loop (size - old_size) w

/-- The loop of `local_holder::get_hazard_ptrs` that pops `n` times. -/
def get_hazard_ptrs_loop : Nat → forward_list → List (Option Nat) × forward_list
  | 0, fl => ([], fl)
  | n + 1, fl =>
    let (node, fl1) := fl.pop
    let (rest, fl2) := get_hazard_ptrs_loop n fl1
    (node :: rest, fl2)

/-- The method `local_holder::get_hazard_ptrs<size>`: the members `holder_`
of the handles of the returned array, in order, and the state afterwards. -/
def get_hazard_ptrs (size : Nat) (w : world) : List (Option Nat) × world :=
  let w1 := if w.tc.free_list.size < size then reserve_hazp size w else w
  let (hazard_ptrs, fl) := get_hazard_ptrs_loop size w1.tc.free_list
  (hazard_ptrs, { w1 with tc := { w1.tc with free_list := fl } })

/-- The loop of `local_holder::evict_hazard_ptr` along the chain of the
free list of the thread. -/
def evict_hazard_ptr_loop : List Nat → reclaimer → List Nat → reclaimer × List Nat
  | [], d, holder_storage => (d, holder_storage)
  | head :: next, d, holder_storage =>
    evict_hazard_ptr_loop next ((store_ptr d head INUSE).reuse head) (holder_storage.erase head)

/-- The method `local_holder::evict_hazard_ptr`. -/
def evict_hazard_ptr (w : world) : world :=
  let (d, holder_storage) := evict_hazard_ptr_loop w.tc.free_list.head_ w.dom w.tc.holder_storage
  { w with dom := d, tc := { free_list := w.tc.free_list.clear, holder_storage := holder_storage } }

/-- The factory `make_hazard_ptr()`, constructing the handle at address `h`. -/
def make_hazard_ptr (h : Nat) (w : world) : world :=
  let (holder, w1) := get_hazard_ptr w
  { w1 with handles := fun k => if k = h then holder else w1.handles k }

/-- The factory `make_hazard_ptr<size>()`, constructing the array whose
elements are the handles at addresses `h`, `h + 1`, ... -/
def make_hazard_ptr_array (size : Nat) (h : Nat) (w : world) : world :=
  let (holders, w1) := get_hazard_ptrs size w
  { w1 with handles := fun k =>
      if h ≤ k ∧ k < h + size then holders.getD (k - h) none else w1.handles k }

/-- The method `hazard_ptr::try_protect` on the handle at address `h`, the
atomic cell holding `plain_ptr`; `none` when the handle is empty (the source
dereferences a null `holder_`). -/
def try_protect (h : Nat) (plain_ptr : Nat) (w : world) : Option (Nat × world) :=
  match w.handles h with
  | none => none
  | some holder => some (plain_ptr, { w with dom := store_ptr w.dom holder plain_ptr })

/-- The method `hazard_ptr::protect`; `cell k` is what the `k`-th load of the
atomic cell during the call returns, `k` counts the loads made so far and the
fuel bounds the iterations of the loop. -/
def protect (h : Nat) (cell : Nat → Nat) : Nat → Nat → world → Option (Nat × world)
  | 0, _, _ => none
  | fuel + 1, k, w =>
    match try_protect h (cell k) w with
    | none => none
    | some (plain_ptr, w1) =>
      let ptr_val := cell (k + 1)
      if plain_ptr = ptr_val then some (plain_ptr, w1)
      else protect h cell fuel (k + 2) w1

/-- The method `hazard_ptr::reset` (that is `unmark`) on the handle at `h`. -/
def hazard_ptr_reset (h : Nat) (w : world) : Option world :=
  match w.handles h with
  | none => none
  | some holder => some { w with dom := store_ptr w.dom holder INUSE }

/-- The move constructor `hazard_ptr(hazard_ptr &&other)`: the new handle at
address `h`, the source handle at address `other`. -/
def hazard_ptr_move_ctor (h other : Nat) (w : world) : world :=
  let holder := w.handles other
  { w with handles := fun k => if k = h then holder else if k = other then none else w.handles k }

/-- The move assignment `hazard_ptr::operator=(hazard_ptr &&other)` on the
handle at address `h`. -/
def hazard_ptr_move_assign (h other : Nat) (w : world) : world :=
  if h = other then w
  else
    let w1 :=
      match w.handles h with
      | some holder =>
        { w with dom := store_ptr w.dom holder INUSE,
                 tc := w.tc.reuse holder,
                 handles := fun k => if k = h then none else w.handles k }
      | none => w
    let a := w1.handles h
    let b := w1.handles other
    { w1 with handles := fun k => if k = h then b else if k = other then a else w1.handles k }

/-- The destructor `hazard_ptr::~hazard_ptr` of the handle at address `h`. -/
def hazard_ptr_dtor (h : Nat) (w : world) : world :=
  match w.handles h with
  | none => w
  | some holder =>
    { w with dom := store_ptr w.dom holder INUSE,
             tc := w.tc.reuse holder,
             handles := fun k => if k = h then none else w.handles k }

/-! ## Observations used to state the properties -/

/-- Every record held in one of the eight shards, shard 0 first. -/
def shards_all (s : reclaimer) : List retire_node :=
  (List.range kNumShards).flatMap s.retired_list_

mutual
/-- A record together with every record that running deleters will retire
on its behalf: itself, then the closures of the records its deleter retires
(none when the retired pointer is null, see `retire_node.deleter`). -/
def retire_node.closure : retire_node → List retire_node
  | .mk raw addr retires =>
    .mk raw addr retires :: (if raw = 0 then [] else closure_list retires)
/-- The closures of the records of a list, concatenated. -/
def closure_list : List retire_node → List retire_node
  | [] => []
  | r :: rs => r.closure ++ closure_list rs
end

/-- The slot side of the domain is the same in both states: directory, size
counter, global free list, slot words and allocator. -/
def same_slots (s s' : reclaimer) : Prop :=
  s'.holder_list_ = s.holder_list_ ∧ s'.holder_list_size_ = s.holder_list_size_ ∧
  s'.free_list_ = s.free_list_ ∧ s'.holder_ptr = s.holder_ptr ∧ s'.heap_next = s.heap_next

/-- What a piece of the reclamation machinery guarantees when it takes the
domain from `s` to `s'` after being handed the records `extra`: the slots are
untouched; the deleters that ran (`run`) belong to records that no slot
publishes; every record that was in a shard or was handed in is in a shard or
has been destroyed; and, counting the records that deleters still have to
retire, nothing is lost or duplicated. -/
def pass_inv (extra : List retire_node) (s s' : reclaimer) : Prop :=
  same_slots s s' ∧ ∃ run, s'.deleted = run ++ s.deleted ∧
    (∀ r ∈ run, r.raw_ptr ∉ load_hazptr_vals s) ∧
    (∀ r, r ∈ shards_all s ∨ r ∈ extra → r ∈ shards_all s' ∨ r ∈ run) ∧
    (run ++ closure_list (shards_all s')).Perm (closure_list (shards_all s ++ extra))

/-- The shape of the domain when a pass that started in `s` has ended in
`s'`: shards 1 to 7 are empty, shard 0 holds only records published in the
directory, and the retired-count is below the threshold. -/
def pass_final (s s' : reclaimer) : Prop :=
  (∀ i, 0 < i → i < kNumShards → s'.retired_list_ i = []) ∧
  (∀ r ∈ s'.retired_list_ 0, r.raw_ptr ∈ load_hazptr_vals s) ∧
  s'.count_ < kReclaimThreshold

/-- The guarantee assumed of the function that stands for `do_reclamation`. -/
def rec_ok (rec : reclaimer → Int → Option reclaimer) : Prop :=
  ∀ s rc s', rec s rc = some s' → pass_inv [] s s' ∧ pass_final s s'

/-- The records held in the shards whose pointer some slot of the directory
publishes, in shard order. -/
def protected_records (s : reclaimer) : List retire_node :=
  (shards_all s).filter (fun x => decide (x.raw_ptr ∈ load_hazptr_vals s))

/-- The records held in the shards whose pointer no slot of the directory
publishes, in shard order. -/
def unprotected_records (s : reclaimer) : List retire_node :=
  (shards_all s).filter (fun x => !decide (x.raw_ptr ∈ load_hazptr_vals s))

/-- The number of `retire` calls that the deleters of the records of a list
can still make: the records their deleters retire, with the closures of
those. -/
def pending_list (l : List retire_node) : Nat :=
  (l.map (fun r => (closure_list r.deleter).length)).sum

/-- The retired-count minus the number of records held in the shards. -/
def excess (s : reclaimer) : Int :=
  s.count_ - ((shards_all s).length : Int)

/-- The accounting of a piece of the reclamation machinery that takes the
domain from `s` to `s'`: the excess moves by `delta`, at least `k` records
have been destroyed, and the counter of passes in progress is restored. -/
def pass_count (delta : Int) (k : Nat) (s s' : reclaimer) : Prop :=
  excess s' = excess s + delta ∧ s.deleted.length + k ≤ s'.deleted.length ∧
  (s.num_bulk_reclaims_ < 65536 → s'.num_bulk_reclaims_ = s.num_bulk_reclaims_)

/-- The accounting assumed of the function that stands for `do_reclamation`
called with `rc`: it adds `rc` to the excess and decrements the counter of
passes in progress. -/
def rec_count (rec : reclaimer → Int → Option reclaimer) : Prop :=
  ∀ s rc s', rec s rc = some s' →
    excess s' = excess s + rc ∧ s.deleted.length ≤ s'.deleted.length ∧
    (s.num_bulk_reclaims_ < 65536 →
      s'.num_bulk_reclaims_ = (dec_num_bulk_reclaims s).num_bulk_reclaims_)

/-- The function that stands for `do_reclamation` returns on every domain
whose held records, with all that deleters can still retire, are fewer than
`m`, when called with `rc ≥ 0` such that the retired-count, `rc` and the
pending `retire` calls together stay below the threshold. -/
def rec_total (m : Nat) (rec : reclaimer → Int → Option reclaimer) : Prop :=
  ∀ t rc, 0 ≤ rc → (closure_list (shards_all t)).length < m →
    t.count_ + rc + (pending_list (shards_all t) : Int) < kReclaimThreshold →
    ∃ t', rec t rc = some t'

/-- The domain of the test `basic_protection_test` after `retire(obj)`: one
slot publishes the address 4096 and the record that retires 4096 sits in
shard 0, where the pass started by that first `retire` left it. -/
def basic_protection_state : reclaimer :=
  { reclaimer.init with
      holder_list_ := [1], holder_list_size_ := 1, heap_next := 2,
      holder_ptr := fun a => if a = 1 then 4096 else INUSE,
      retired_list_ := fun i => if i = 0 then [retire_node.mk 4096 768 []] else [],
      count_ := 1, due_time_ := kSyncTimePeriod }

/-- A domain like that of the test `destruction_test` next to a protected
record: shard 0 holds the record that retires the published address 4096,
shard 1 holds a record whose deleter retires a second record, whose deleter
retires a third. -/
def destruction_state : reclaimer :=
  { basic_protection_state with
      retired_list_ := fun i =>
        if i = 0 then [retire_node.mk 4096 768 []]
        else if i = 1 then
          [retire_node.mk 8192 256 [retire_node.mk 8224 512 [retire_node.mk 8256 1024 []]]]
        else [],
      count_ := 2 }

/-- A sequence of `retire` calls made one after the other by the user. -/
def retire_all (clock : Nat → Nat) (fuel : Nat) : List retire_node → reclaimer → Option reclaimer
  | [], s => some s
  | node :: rest, s =>
    match retire clock fuel node s with
    | none => none
    | some s1 => retire_all clock fuel rest s1

/-- A domain at rest in which no slot publishes anything: no pass is in
progress, the retired-count is the number of records held in the shards and
is below the threshold, and the deleters of the held records retire nothing. -/
def plain_quiescent (s : reclaimer) : Prop :=
  load_hazptr_vals s = [] ∧ s.num_bulk_reclaims_ = 0 ∧
  s.count_ = ((shards_all s).length : Int) ∧ s.count_ < kReclaimThreshold ∧
  ∀ r ∈ shards_all s, r.deleter = []

/-- The records of the test `cleanup_test`: 1026 plain nodes, each with its
own address. -/
def cleanup_nodes : List retire_node :=
  (List.range 1026).map (fun i => retire_node.mk (8192 + 32 * i) (65536 + 64 * i) [])

/-- The thread of the test `move_test`, with a second handle: the handle at
address 0 owns slot 1 and has published the address 4096 through `protect`,
the handle at address 1 owns slot 2. -/
def move_test_world : world :=
  match try_protect 0 4096 (make_hazard_ptr 1 (make_hazard_ptr 0 world.init)) with
  | some (_, w) => w
  | none => world.init

/-- The thread after `{ auto h = make_hazard_ptr(); }`: one slot, cached in
the free list of the thread. -/
def one_cached_world : world :=
  hazard_ptr_dtor 0 (make_hazard_ptr 0 world.init)

/-- The function that stands for `do_reclamation` returns on every domain in
which no slot publishes anything and whose held records, with all that
deleters can still retire, are fewer than `m`, when the retired-count is below
the threshold and stays below it once `rc` is added and the held records are
subtracted. -/
def rec_free (m : Nat) (rec : reclaimer → Int → Option reclaimer) : Prop :=
  ∀ t rc, load_hazptr_vals t = [] → (closure_list (shards_all t)).length < m →
    t.count_ < kReclaimThreshold → excess t + rc < kReclaimThreshold →
    ∃ t', rec t rc = some t'

/-- The records of the test `destruction_test`: `Thing` number `k` sits at
`raw k`, its retired record at `addr k`, and its destructor retires `Thing`
number `k - 1`; `Thing` number 0 has a null `next` and retires nothing. -/
def thing_chain (raw addr : Nat → Nat) : Nat → retire_node
  | 0 => retire_node.mk (raw 0) (addr 0) []
  | k + 1 => retire_node.mk (raw (k + 1)) (addr (k + 1)) [thing_chain raw addr k]

/-- One iteration of the loop of `reclaimer::do_reclamation`, as
`do_reclamation_iter`, with the two uses of `rec` told apart: `nested` is the
pass that a `retire` made by a running deleter starts, `next` is the next
iteration of the loop. -/
def do_reclamation_iter_in (nested next : reclaimer → Int → Option reclaimer)
    (clock : Nat → Nat) (s : reclaimer) (rcount : Int) : Option reclaimer :=
  let (retired, s1, nonempty) := extract_retired_objects s
  let r :=
    if nonempty then
      let hash_set := load_hazptr_vals s1
      match match_reclaim nested clock retired hash_set s1 with
      | none => none
      | some (count, done, s2) => some (rcount - count, done, s2)
    else some (rcount, true, s1)
  match r with
  | none => none
  | some (rcount1, done, s2) =>
    let s3 := if rcount1 ≠ 0 then add_count s2 rcount1 else s2
    let (rcount2, s4) := check_count_threshold s3
    if rcount2 = 0 ∧ done then some (dec_num_bulk_reclaims s4)
    else next s4 rcount2

/-- The method `reclaimer::do_reclamation` run on the condition that no
deleter starts a pass of its own: the loop iterates as in `do_reclamation`,
and the run is abandoned (`none`) as soon as a `retire` made by a deleter
would call `do_reclamation`. -/
def do_reclamation_no_nesting (clock : Nat → Nat) : Nat → reclaimer → Int → Option reclaimer
  | 0 => fun _ _ => none
  | fuel + 1 =>
    do_reclamation_iter_in (fun _ _ => none) (do_reclamation_no_nesting clock fuel) clock

/-- The method `reclaimer::retire` on the condition of `do_reclamation_no_nesting`. -/
def retire_no_nesting (clock : Nat → Nat) (fuel : Nat) (node : retire_node) (s : reclaimer) :
    Option reclaimer :=
  push_list (do_reclamation_no_nesting clock fuel) clock node s

/-- The method `reclaimer::reclaim` on the condition of `do_reclamation_no_nesting`. -/
def reclaim_no_nesting (clock : Nat → Nat) (fuel : Nat) (s : reclaimer) : Option reclaimer :=
  match do_reclamation_no_nesting clock fuel (inc_num_bulk_reclaims s) 0 with
  | none => none
  | some s1 => if s1.num_bulk_reclaims_ > 0 then none else some s1

/-- The deleter of every record of the list, and of every record that those
deleters can come to retire, retires at most one record. -/
def retires_at_most_one (l : List retire_node) : Prop :=
  ∀ x ∈ closure_list l, x.deleter.length ≤ 1

/-- From the reading that the domain takes next, the clock stays before the
due-time of the domain. -/
def never_due (clock : Nat → Nat) (s : reclaimer) : Prop :=
  ∀ k, s.clock_reads ≤ k → clock k < s.due_time_

/-- The function `f` returns whatever `g` returns. -/
def rec_le (f g : reclaimer → Int → Option reclaimer) : Prop :=
  ∀ s rc s', f s rc = some s' → g s rc = some s'

/-- The function that stands for the next iteration of `do_reclamation`
returns, leaving the clock before the due-time and the retired-count with the
held records below the threshold, on every domain in which no slot publishes
anything, the clock stays before the due-time, every deleter retires at most
one record, and the held records with all that deleters can still retire are
fewer than `m`. -/
def rec_quiet (clock : Nat → Nat) (m : Nat) (next : reclaimer → Int → Option reclaimer) : Prop :=
  ∀ t rc, load_hazptr_vals t = [] → never_due clock t → retires_at_most_one (shards_all t) →
    0 ≤ rc → (closure_list (shards_all t)).length < m →
    t.count_ + rc + ((shards_all t).length : Int) < kReclaimThreshold →
    ∃ t', next t rc = some t' ∧ never_due clock t' ∧
      t'.count_ + ((shards_all t').length : Int) < kReclaimThreshold

/-- The method `shared_head_only_list::pop_all` on shard `i`: the chain that
was held and the state with the shard emptied. -/
def retired_list_pop_all (s : reclaimer) (i : Nat) : List retire_node × reclaimer :=
  (s.retired_list_ i,
    { s with retired_list_ := fun j => if j = i then [] else s.retired_list_ j })

/-- The loop of `reclaimer::reclaim_all_objects` over the shards listed. -/
def reclaim_all_objects_loop (rec : reclaimer → Int → Option reclaimer) (clock : Nat → Nat) :
    List Nat → reclaimer → Option reclaimer
  | [], s => some s
  | i :: rest, s =>
    let (head, s1) := retired_list_pop_all s i
    match reclaim_obj rec clock head s1 with
    | none => none
    | some s2 => reclaim_all_objects_loop rec clock rest s2

/-- The method `reclaimer::reclaim_all_objects`, the whole body of the
destructor `reclaimer::~reclaimer`: one sweep over the shards in index
order.  The fuel is for the passes that deleters start. -/
def reclaim_all_objects (clock : Nat → Nat) (fuel : Nat) (s : reclaimer) : Option reclaimer :=
  reclaim_all_objects_loop (do_reclamation clock fuel) clock (List.range kNumShards) s

/-- A domain about to be destroyed less than two seconds after its last pass
(the clock reads 5, the due-time is 5 + `kSyncTimePeriod`): shard 0 holds one
record, whose deleter retires a second record that also hashes to shard 0, as
the `Thing` of the test `destruction_test` does. -/
def teardown_state : reclaimer :=
  { reclaimer.init with
      retired_list_ := fun i =>
        if i = 0 then [retire_node.mk 8192 2048 [retire_node.mk 8224 4096 []]] else [],
      count_ := 1, due_time_ := 2000000005, clock_reads := 1 }

/-- The method `free_list::pop_all`: the chain that was on the global free
list and the state with that list emptied. -/
def free_list_pop_all (s : reclaimer) : List Nat × reclaimer :=
  (s.free_list_, { s with free_list_ := [] })

/-- The first loop of `holder_list::compact`: the slots of the chain
`compacted_list` are inserted in the `std::unordered_set` one by one. -/
def compact_collect : List Nat → List Nat → List Nat
  | [], set => set
  | compacted_list :: next, set => compact_collect next (set.insert compacted_list)

/-- The second loop of `holder_list::compact`: walk the directory from `head`
up to the first slot that is not in `set`; the result is `new_head`, `size`
and the rest of the chain, from which the next loop goes on. -/
def compact_find_head (set : List Nat) : List Nat → Option Nat × Nat × List Nat
  | [] => (none, 0, [])
  | head :: main_next =>
    if ¬ set.contains head then (some head, 1, main_next)
    else compact_find_head set main_next

/-- The third loop of `holder_list::compact`: every slot of the rest of the
directory that is not in `set` is linked behind `tmp` and counted; `chain` is
the new chain from `new_head` to `tmp`, and `size` a 32-bit counter. -/
def compact_relink (set : List Nat) : List Nat → List Nat → Nat → List Nat × Nat
  | [], chain, size => (chain, size)
  | head :: main_next, chain, size =>
    if ¬ set.contains head then
      compact_relink set main_next (chain ++ [head]) ((size + 1) % 4294967296)
    else compact_relink set main_next chain size

/-- The method `holder_list::compact`: the state afterwards and the slots
given to `delete`, in the order in which the set yields them. -/
def compact (s : reclaimer) (compacted_list : List Nat) : reclaimer × List Nat :=
  let set := compact_collect compacted_list []
  let (new_head, size, head) := compact_find_head set s.holder_list_
  let (chain, size1) :=
    match new_head with
    | none => (([] : List Nat), size)
    | some tmp => compact_relink set head [tmp] size
  ({ s with holder_list_ := chain, holder_list_size_ := size1 }, set)

/-- The method `reclaimer::delete_hazard_ptr`: the state afterwards and the
slots destroyed. -/
def delete_hazard_ptr (s : reclaimer) : reclaimer × List Nat :=
  let (list, s1) := free_list_pop_all s
  compact s1 list

/-- The domain of a thread that made three handles, dropped the second and
the third, and flushed its cache with `evict_hazard_ptr`: the directory links
the slots 3, 2 and 1, and the global free list holds the slots 2 and 3. -/
def two_flushed_state : reclaimer :=
  (evict_hazard_ptr (hazard_ptr_dtor 2 (hazard_ptr_dtor 1
    (make_hazard_ptr 2 (make_hazard_ptr 1 (make_hazard_ptr 0 world.init)))))).dom

/-! ## Observations for the exit condition of a pass and for the directory -/

/-- One iteration of the loop of `reclaimer::do_reclamation` up to the point
where the exit condition is evaluated: the chain of the matched records
(`not_reclaimed` of `match_reclaim`, empty when no shard held a record), the
flag `done`, and the state once `add_count(rcount)` has refreshed the
retired-count. -/
def iteration_outcome (rec : reclaimer → Int → Option reclaimer) (clock : Nat → Nat)
    (s : reclaimer) (rcount : Int) : Option (List retire_node × Bool × reclaimer) :=
  let (retired, s1, nonempty) := extract_retired_objects s
  let r :=
    if nonempty then
      let hash_set := load_hazptr_vals s1
      match match_reclaim_loop rec clock hash_set retired linked_list.init 0 true s1 with
      | none => none
      | some (not_reclaimed, count, done, s2) =>
        some (not_reclaimed.chain, rcount - count, done,
          retired_list_push_list s2 0 not_reclaimed.chain)
    else some ([], rcount, true, s1)
  match r with
  | none => none
  | some (matched, rcount1, done, s2) =>
    some (matched, done, if rcount1 ≠ 0 then add_count s2 rcount1 else s2)

/-- The calls that create slots, hand them back, and compact the directory,
as made by one thread. -/
inductive dir_op where
  | make_hazard_ptr (h : Nat) : dir_op
  | make_hazard_ptr_array (size h : Nat) : dir_op
  | reserve_hazp (size : Nat) : dir_op
  | hazard_ptr_dtor (h : Nat) : dir_op
  | evict_hazard_ptr : dir_op
  | delete_hazard_ptr : dir_op

/-- The state after one call. -/
def dir_op.run : dir_op → world → world
  | .make_hazard_ptr h, w => hazp.make_hazard_ptr h w
  | .make_hazard_ptr_array size h, w => hazp.make_hazard_ptr_array size h w
  | .reserve_hazp size, w => hazp.reserve_hazp size w
  | .hazard_ptr_dtor h, w => hazp.hazard_ptr_dtor h w
  | .evict_hazard_ptr, w => hazp.evict_hazard_ptr w
  | .delete_hazard_ptr, w => { w with dom := (hazp.delete_hazard_ptr w.dom).1 }

/-- The state after a sequence of calls, first call first. -/
def dir_run : List dir_op → world → world
  | [], w => w
  | op :: rest, w => dir_run rest (op.run w)

/-- The size counter of the directory is the number of slots linked in it, in
the 32 bits of the counter. -/
def dir_size_ok (s : reclaimer) : Prop :=
  s.holder_list_size_ = s.holder_list_.length % 4294967296

/-! ## The lock of the directory -/

/-- The constant `read_write_lock::WRITE_LOCK_MASK`. -/
def WRITE_LOCK_MASK : Nat := 2147483648

/-- The struct `detail::read_write_lock`: the 32-bit word `state`. -/
structure read_write_lock where
  state : Nat

/-- A freshly constructed lock. -/
def read_write_lock.init : read_write_lock := { state := 0 }

/-- The method `read_write_lock::try_lock_shared`; `expected` is what the
relaxed load at its start returns, which is the word itself when no other
thread stores between that load and the compare-and-swap. -/
def read_write_lock.try_lock_shared (l : read_write_lock) (expected : Nat) :
    Bool × read_write_lock :=
  if expected &&& WRITE_LOCK_MASK = 0 then
    let desired := (expected + 1) % 4294967296
    if l.state = expected then (true, { state := desired }) else (false, l)
  else (false, l)

/-- The method `read_write_lock::try_lock`. -/
def read_write_lock.try_lock (l : read_write_lock) : Bool × read_write_lock :=
  if l.state = 0 then (true, { state := WRITE_LOCK_MASK }) else (false, l)

/-- The method `read_write_lock::lock_shared` at the compare-and-swap that
ends its loop: the word has the high bit clear and is incremented.  While the
high bit is set the call does not return (`none`). -/
def read_write_lock.lock_shared (l : read_write_lock) : Option read_write_lock :=
  if l.state &&& WRITE_LOCK_MASK = 0 then some { state := (l.state + 1) % 4294967296 }
  else none

/-- The method `read_write_lock::unlock_shared`: a 32-bit `fetch_sub(1)`. -/
def read_write_lock.unlock_shared (l : read_write_lock) : read_write_lock :=
  { state := if l.state = 0 then 4294967295 else l.state - 1 }

/-- The method `read_write_lock::lock` at the compare-and-swap that ends its
loop: the word is 0 and becomes the mask.  While the word is not 0 the call
does not return (`none`). -/
def read_write_lock.lock (l : read_write_lock) : Option read_write_lock :=
  if l.state = 0 then some { state := WRITE_LOCK_MASK } else none

/-- The method `read_write_lock::unlock`. -/
def read_write_lock.unlock (_l : read_write_lock) : read_write_lock := { state := 0 }

/-- A call on the lock by one of the threads. -/
inductive lock_call where
  | try_lock_shared (expected : Nat) : lock_call
  | lock_shared : lock_call
  | unlock_shared : lock_call
  | try_lock : lock_call
  | lock : lock_call
  | unlock : lock_call

/-- The lock together with the threads that hold it: how many hold it shared
and how many hold it exclusively. -/
structure lock_world where
  rw_lock_ : read_write_lock
  shared_holders : Nat
  writers : Nat

/-- The lock at its construction, held by nobody. -/
def lock_world.init : lock_world :=
  { rw_lock_ := read_write_lock.init, shared_holders := 0, writers := 0 }

/-- One call that has returned: a thread that acquires the lock becomes a
holder; `unlock_shared` is called by a thread that holds the lock shared and
`unlock` by one that holds it exclusively (`none` otherwise, and for a call
that does not return). -/
def lock_call.run : lock_call → lock_world → Option lock_world
  | .try_lock_shared expected, w =>
    let (ok, l) := w.rw_lock_.try_lock_shared expected
    some { w with rw_lock_ := l,
                  shared_holders := if ok then w.shared_holders + 1 else w.shared_holders }
  | .lock_shared, w =>
    match w.rw_lock_.lock_shared with
    | none => none
    | some l => some { w with rw_lock_ := l, shared_holders := w.shared_holders + 1 }
  | .unlock_shared, w =>
    if w.shared_holders = 0 then none
    else some { w with rw_lock_ := w.rw_lock_.unlock_shared,
                       shared_holders := w.shared_holders - 1 }
  | .try_lock, w =>
    let (ok, l) := w.rw_lock_.try_lock
    some { w with rw_lock_ := l, writers := if ok then w.writers + 1 else w.writers }
  | .lock, w =>
    match w.rw_lock_.lock with
    | none => none
    | some l => some { w with rw_lock_ := l, writers := w.writers + 1 }
  | .unlock, w =>
    if w.writers = 0 then none
    else some { w with rw_lock_ := w.rw_lock_.unlock, writers := w.writers - 1 }

/-- A sequence of calls that have returned, in the order in which they took
effect on the word. -/
def lock_run : List lock_call → lock_world → Option lock_world
  | [], w => some w
  | c :: rest, w =>
    match c.run w with
    | none => none
    | some w1 => lock_run rest w1

/-- The word of the lock agrees with its holders: with no writer it is the
number of shared holders; with one writer, who excludes the shared holders,
it is the mask. -/
def lock_inv (w : lock_world) : Prop :=
  (w.writers = 0 ∧ w.rw_lock_.state = w.shared_holders) ∨
  (w.writers = 1 ∧ w.shared_holders = 0 ∧ w.rw_lock_.state = WRITE_LOCK_MASK)

/-! ## Thread exit, the teardown of the directory, and the calls on slots -/

/-- The destructor `local_holder::~local_holder`, run when the thread exits:
the word of every slot of `holder_storage` is set to `NOUSE`, then the free
list and the set of the thread are cleared. -/
def local_holder_dtor (w : world) : world :=
  { w with dom := w.tc.holder_storage.foldl (fun d node => store_ptr d node NOUSE) w.dom,
           tc := { free_list := w.tc.free_list.clear, holder_storage := [] } }

/-- How the destructor `holder_list::~holder_list` ends when no other thread
runs: it returns having given the slots listed to `delete` (most recent
first), or it dereferences the null `head_`, or it waits for ever for the
word of `node` to become `NOUSE`. -/
inductive teardown where
  | returned (destroyed : List Nat) : teardown
  | null_dereference : teardown
  | waits_for_ever (node : Nat) (destroyed : List Nat) : teardown

/-- The loop of `holder_list::~holder_list` from `node` on: the inner loop
`while (node->ptr.load() != NOUSE) yield();` then `delete node`. -/
def holder_list_dtor_loop (holder_ptr : Nat → Nat) : List Nat → List Nat → teardown
  | [], destroyed => teardown.returned destroyed
  | node :: next, destroyed =>
    if holder_ptr node ≠ NOUSE then teardown.waits_for_ever node destroyed
    else holder_list_dtor_loop holder_ptr next (node :: destroyed)

/-- The destructor `holder_list::~holder_list`: the loop starts at
`head_.load()->next_`, and `head_.load()` is deleted last. -/
def holder_list_dtor (s : reclaimer) : teardown :=
  match s.holder_list_ with
  | [] => teardown.null_dereference
  | head :: node =>
    match holder_list_dtor_loop s.holder_ptr node [] with
    | teardown.returned destroyed => teardown.returned (head :: destroyed)
    | teardown.null_dereference => teardown.null_dereference
    | teardown.waits_for_ever n destroyed => teardown.waits_for_ever n destroyed

/-- A call of the public interface that concerns slots, made by the one
thread: the factories, `reserve_hazp`, the moves and the destructor of a
handle, `try_protect` and `reset`, `evict_hazard_ptr`, `delete_hazard_ptr`. -/
inductive slot_op where
  | make_hazard_ptr (h : Nat) : slot_op
  | make_hazard_ptr_array (size h : Nat) : slot_op
  | reserve_hazp (size : Nat) : slot_op
  | move_ctor (h other : Nat) : slot_op
  | move_assign (h other : Nat) : slot_op
  | hazard_ptr_dtor (h : Nat) : slot_op
  | try_protect (h plain_ptr : Nat) : slot_op
  | reset (h : Nat) : slot_op
  | evict_hazard_ptr : slot_op
  | delete_hazard_ptr : slot_op

/-- The state after one call; `none` when the call dereferences the null
`holder_` of an empty handle. -/
def slot_op.run : slot_op → world → Option world
  | .make_hazard_ptr h, w => some (hazp.make_hazard_ptr h w)
  | .make_hazard_ptr_array size h, w => some (hazp.make_hazard_ptr_array size h w)
  | .reserve_hazp size, w => some (hazp.reserve_hazp size w)
  | .move_ctor h other, w => some (hazp.hazard_ptr_move_ctor h other w)
  | .move_assign h other, w => some (hazp.hazard_ptr_move_assign h other w)
  | .hazard_ptr_dtor h, w => some (hazp.hazard_ptr_dtor h w)
  | .try_protect h plain_ptr, w =>
    match hazp.try_protect h plain_ptr w with
    | none => none
    | some (_, w1) => some w1
  | .reset h, w => hazp.hazard_ptr_reset h w
  | .evict_hazard_ptr, w => some (hazp.evict_hazard_ptr w)
  | .delete_hazard_ptr, w => some { w with dom := (hazp.delete_hazard_ptr w.dom).1 }

/-- The state after a sequence of calls, first call first. -/
def slot_run : List slot_op → world → Option world
  | [], w => some w
  | op :: rest, w =>
    match op.run w with
    | none => none
    | some w1 => slot_run rest w1

/-- The call constructs its handles in storage that holds no live handle, as
every constructor call of a C++ program does. -/
def slot_op.on_free_storage : slot_op → world → Prop
  | .make_hazard_ptr h, w => w.handles h = none
  | .make_hazard_ptr_array size h, w => ∀ k, h ≤ k → k < h + size → w.handles k = none
  | .move_ctor h _, w => w.handles h = none
  | _, _ => True

/-- Every call of the sequence constructs its handles in storage that holds
no live handle. -/
def slots_on_free_storage : List slot_op → world → Prop
  | [], _ => True
  | op :: rest, w =>
    op.on_free_storage w ∧
      match op.run w with
      | none => True
      | some w1 => slots_on_free_storage rest w1

/-- The slots of the directory that publish a pointer: their word is neither
`NOUSE` nor `INUSE`. -/
def publishing (s : reclaimer) : List Nat :=
  s.holder_list_.filter (fun a => decide (¬ (s.holder_ptr a = NOUSE ∨ s.holder_ptr a = INUSE)))

/-- The slots are where they belong, for a directory `D`, an allocator at
`N`, the free list `C` of the thread, the global free list `G` and the
handles `H`: the directory links each slot once and only allocated slots;
both free lists hold slots of the directory, each once, and no slot is on
both; a slot owned by a handle is linked in the directory and is on neither
free list; and no two handles own the same slot. -/
def slot_ok (D : List Nat) (N : Nat) (C G : List Nat) (H : Nat → Option Nat) : Prop :=
  D.Nodup ∧ (∀ a ∈ D, a < N) ∧ C.Nodup ∧ G.Nodup ∧
  (∀ a ∈ C, a ∈ D ∧ a ∉ G) ∧ (∀ a ∈ G, a ∈ D) ∧
  (∀ h a, H h = some a → a ∈ D ∧ a ∉ C ∧ a ∉ G) ∧
  (∀ h k a, H h = some a → H k = some a → h = k)

/-- The slots of the state are where they belong. -/
def slot_inv (w : world) : Prop :=
  slot_ok w.dom.holder_list_ w.dom.heap_next w.tc.free_list.head_ w.dom.free_list_ w.handles

/-- Every slot of the directory `D` is on the free list `C` of the thread, on
the global free list `G`, or owned by a handle. -/
def cover_ok (D C G : List Nat) (H : Nat → Option Nat) : Prop :=
  ∀ a ∈ D, a ∈ C ∨ a ∈ G ∨ ∃ h, H h = some a

/-- Every slot of the directory of the state is on a free list or owned by a
handle. -/
def slot_cover (w : world) : Prop :=
  cover_ok w.dom.holder_list_ w.tc.free_list.head_ w.dom.free_list_ w.handles

/-! ## Calls on the registry of retired records, and a crowd of hazards -/

/-- A call of the public interface made by the one thread: a call that
concerns slots, `retire` of a record, or `reclaim`. -/
inductive domain_call where
  | slot (op : slot_op) : domain_call
  | retire (node : retire_node) : domain_call
  | reclaim : domain_call

/-- The state after one call that has returned; `none` when the call does not
return within the fuel or dereferences a null pointer. -/
def domain_call.run (clock : Nat → Nat) (fuel : Nat) : domain_call → world → Option world
  | .slot op, w => op.run w
  | .retire node, w =>
    match hazp.retire clock fuel node w.dom with
    | none => none
    | some d => some { w with dom := d }
  | .reclaim, w =>
    match hazp.reclaim clock fuel w.dom with
    | none => none
    | some d => some { w with dom := d }

/-- The state after a sequence of calls, each of which has returned before
the next is made. -/
def domain_run (clock : Nat → Nat) (fuel : Nat) : List domain_call → world → Option world
  | [], w => some w
  | c :: rest, w =>
    match c.run clock fuel w with
    | none => none
    | some w1 => domain_run clock fuel rest w1

/-- The thread after `n` times `auto h = make_hazard_ptr(); h.try_protect(p);`
with handles that stay alive: the handle at address `k` publishes the address
`4096 * (k + 1)`. -/
def publish_all : Nat → world → Option world
  | 0, w => some w
  | n + 1, w =>
    match publish_all n w with
    | none => none
    | some w1 =>
      match try_protect n (4096 * (n + 1)) (make_hazard_ptr n w1) with
      | none => none
      | some (_, w2) => some w2

/-- The records that retire the objects at the addresses `4096 * (k + 1)`
for `k < n`; their deleters retire nothing. -/
def published_nodes (n : Nat) : List retire_node :=
  (List.range n).map (fun k => retire_node.mk (4096 * (k + 1)) (65536 + 64 * k) [])

end hazp

/-!
# Sequence lock (`cpp_utils/concurrency/sequence_lock.h`)

A shallow embedding of `alp_utils::seq_lock<T>`, the shared-pointer
sequence lock, as one thread sees it.

* A `std::shared_ptr<T>` is `none` when null and otherwise `some (a, v)`: the
  address `a` of the object it points to and the value `v` stored there.
  `std::make_shared` returns the address `heap_next`, which then advances.
* The counter `seq_` and the word of the `atomic_lock` are 32-bit unsigned.
* A call that would block for ever when no other thread runs (`lock()` on a
  held lock, `load_shared()` while the counter is odd) returns `none`, and so
  does a call that dereferences a null `value_`.
* The bounded read `load_shared(int)` takes what its successive atomic loads
  observe as a parameter, so that stores of a writer may fall between them;
  with one thread every load observes the same state.
-/

namespace alp_utils

/-- The class `seq_lock<T>`: the cell `value_`, the counter `seq_`, the word
`lock_.lock_` of its `atomic_lock<uint32_t>`, and the allocator. -/
structure seq_lock (T : Type) where
  value_ : Option (Nat × T)
  seq_ : Nat
  lock_ : Nat
  heap_next : Nat

/-- The constant `atomic_lock::LOCKED`. -/
def LOCKED : Nat := 1

/-- The constant `atomic_lock::UNLOCK`. -/
def UNLOCK : Nat := 0

/-- The constructor `seq_lock(Args &&... args)`: `value_` is a fresh object
holding the argument, the counter and the lock word are 0. -/
def seq_lock.init {T : Type} (arg : T) : seq_lock T :=
  { value_ := some (1, arg), seq_ := 0, lock_ := UNLOCK, heap_next := 2 }

/-- The method `atomic_lock::try_lock`: whether the compare-and-swap from 0
succeeded, and the lock word afterwards. -/
def atomic_lock_try_lock (lock_ : Nat) : Bool × Nat :=
  if lock_ = 0 then (true, LOCKED) else (false, lock_)

/-- The method `atomic_lock::lock_impl`: with the bit `LOCKED` set it waits on
the word, which no other thread changes; otherwise `fetch_or` sets the bit. -/
def atomic_lock_lock_impl (lock_ : Nat) : Option Nat :=
  if lock_ &&& LOCKED ≠ 0 then none else some (lock_ ||| LOCKED)

/-- The method `atomic_lock::lock`. -/
def atomic_lock_lock (lock_ : Nat) : Option Nat :=
  let (ok, lock1) := atomic_lock_try_lock lock_
  if ok then some lock1 else atomic_lock_lock_impl lock1

/-- The method `atomic_lock::unlock`. -/
def atomic_lock_unlock (_lock_ : Nat) : Nat := UNLOCK

/-- The method `seq_lock::lock`: take the lock, then increment the counter. -/
def seq_lock.lock {T : Type} (s : seq_lock T) : Option (seq_lock T) :=
  match atomic_lock_lock s.lock_ with
  | none => none
  | some lock1 => some { s with lock_ := lock1, seq_ := (s.seq_ + 1) % 4294967296 }

/-- The method `seq_lock::store(Args &&... args)`: `value_` becomes a fresh
object holding the argument. -/
def seq_lock.store {T : Type} (s : seq_lock T) (v : T) : seq_lock T :=
  { s with value_ := some (s.heap_next, v), heap_next := s.heap_next + 1 }

/-- The method `seq_lock::unlock`: `value_` becomes a fresh copy of the object
it points to, the counter is incremented, the lock is released. -/
def seq_lock.unlock {T : Type} (s : seq_lock T) : Option (seq_lock T) :=
  match s.value_ with
  | none => none
  | some (_, v) =>
    some { value_ := some (s.heap_next, v), heap_next := s.heap_next + 1,
           seq_ := (s.seq_ + 1) % 4294967296, lock_ := atomic_lock_unlock s.lock_ }

/-- The method `seq_lock::load_shared()`: with the counter odd, or changed
between its two loads, it waits on `value_`, which no other thread changes. -/
def seq_lock.load_shared {T : Type} (s : seq_lock T) : Option (Option (Nat × T)) :=
  let seq1 := s.seq_
  let data := s.value_
  let seq2 := s.seq_
  if (seq1 &&& 1) ≠ 0 ∨ seq1 ≠ seq2 then none else some data

/-- The loop of `seq_lock::load_shared(int retry)` from attempt `i`, with `n`
attempts left: attempt `i` loads the counter from `obs (3 * i)`, the value
from `obs (3 * i + 1)` and the counter again from `obs (3 * i + 2)`.  The
result is the returned pointer and the number of attempts made. -/
def load_shared_loop {T : Type} (obs : Nat → seq_lock T) :
    Nat → Nat → Option (Nat × T) × Nat
  | 0, i => (none, i)
  | n + 1, i =>
    let seq1 := (obs (3 * i)).seq_
    let data := (obs (3 * i + 1)).value_
    let seq2 := (obs (3 * i + 2)).seq_
    if (seq1 &&& 1) = 0 ∧ seq1 = seq2 then (data, i + 1)
    else load_shared_loop obs n (i + 1)

/-- The method `seq_lock::load_shared(int retry)` when its `k`-th atomic load
observes the state `obs k`. -/
def load_shared_retry {T : Type} (obs : Nat → seq_lock T) (retry : Int) :
    Option (Nat × T) × Nat :=
  if retry ≤ 0 then (none, 0) else load_shared_loop obs retry.toNat 0

/-- The method `seq_lock::load_shared(int retry)` called by the only thread:
the returned pointer. -/
def seq_lock.load_shared_n {T : Type} (s : seq_lock T) (retry : Int) : Option (Nat × T) :=
  (load_shared_retry (fun _ => s) retry).1

/-- A call made by the writing thread. -/
inductive seq_op (T : Type) where
  | lock : seq_op T
  | store (v : T) : seq_op T
  | unlock : seq_op T

/-- The calls of a list made one after the other. -/
def seq_lock.run {T : Type} : List (seq_op T) → seq_lock T → Option (seq_lock T)
  | [], s => some s
  | seq_op.lock :: rest, s =>
    match s.lock with
    | none => none
    | some s1 => seq_lock.run rest s1
  | seq_op.store v :: rest, s => seq_lock.run rest (s.store v)
  | seq_op.unlock :: rest, s =>
    match s.unlock with
    | none => none
    | some s1 => seq_lock.run rest s1

/-- The calls of the list are properly paired: every `unlock()` follows a
`lock()` that no `unlock()` has answered yet, and no `lock()` is made while
one is unanswered; `inside` tells whether a `lock()` is unanswered at the
start.  The list may end between a `lock()` and its `unlock()`. -/
def paired {T : Type} : List (seq_op T) → Bool → Bool
  | [], _ => true
  | seq_op.lock :: rest, inside => !inside && paired rest true
  | seq_op.store _ :: rest, inside => paired rest inside
  | seq_op.unlock :: rest, inside => inside && paired rest false

/-- Whether the writer is between `lock()` and `unlock()` after the calls. -/
def writer_inside {T : Type} : List (seq_op T) → Bool → Bool
  | [], inside => inside
  | seq_op.lock :: rest, _ => writer_inside rest true
  | seq_op.store _ :: rest, inside => writer_inside rest inside
  | seq_op.unlock :: rest, _ => writer_inside rest false

/-- The number of `unlock()` calls of the list: the writes completed. -/
def completed_writes {T : Type} : List (seq_op T) → Nat
  | [] => 0
  | seq_op.unlock :: rest => completed_writes rest + 1
  | _ :: rest => completed_writes rest

/-- The value written last: the argument of the last `store`, or `arg` when
there is none. -/
def last_written {T : Type} (arg : T) : List (seq_op T) → T
  | [] => arg
  | seq_op.store v :: rest => last_written v rest
  | _ :: rest => last_written arg rest

/-! ## The d-ary heap `nd_heap` with the default arity

The vector `data_` is a list; an index is a natural number.  A vector of
`int` holds fewer than 2^61 elements (`max_size()`), so `d * i + k + 1` does
not wrap in `size_t` for an index `i` inside it, and `child_index` is embedded
without a modulus; `parent_index` keeps the wrap of `0 - 1`.  An access
outside the vector, which the source leaves undefined, gives `none`. -/

/-- The class `nd_heap<T, 4, Compare>`: the comparator `cmp_` and the vector
`data_`. -/
structure nd_heap (T : Type) where
  cmp_ : T → T → Bool
  data_ : List T

/-- The template argument `d` at its default. -/
def nd_heap.d : Nat := 4

/-- The constructor `nd_heap(const Compare &comp)`; the default constructor
is the case of a default-constructed comparator. -/
def nd_heap.init {T : Type} (comp : T → T → Bool) : nd_heap T :=
  { cmp_ := comp, data_ := [] }

/-- The method `nd_heap::parent_index` for a power of two: `(i - 1) / d` in
`size_t`, where `0 - 1` wraps to `2^64 - 1`. -/
def parent_index (i : Nat) : Nat :=
  if i = 0 then 18446744073709551615 / nd_heap.d else (i - 1) / nd_heap.d

/-- The method `nd_heap::child_index` for a power of two. -/
def child_index (i k : Nat) : Nat := nd_heap.d * i + k + 1

/-- The loop of `nd_heap::swim`: `data_` and `index` when the loop is left.
The index decreases with every iteration, which the fuel counts. -/
def swim_loop {T : Type} (cmp_ : T → T → Bool) (current : T) :
    Nat → List T → Nat → Option (List T × Nat)
  | 0, _, _ => none
  | fuel + 1, data_, index =>
    if index > 0 then
      match data_[parent_index index]? with
      | none => none
      | some p =>
        if cmp_ p current then
          if index < data_.length then
            swim_loop cmp_ current fuel (data_.set index p) (parent_index index)
          else none
        else some (data_, index)
    else some (data_, index)

/-- The method `nd_heap::swim`; an access outside the vector gives `none`. -/
def nd_heap.swim {T : Type} (h : nd_heap T) (index : Nat) : Option (nd_heap T) :=
  match h.data_[index]? with
  | none => none
  | some current =>
    match swim_loop h.cmp_ current (index + 1) h.data_ index with
    | none => none
    | some (data_, index1) =>
      if index1 < data_.length then some { h with data_ := data_.set index1 current }
      else none

/-- The method `nd_heap::emplace`. -/
def nd_heap.emplace {T : Type} (h : nd_heap T) (val : T) : Option (nd_heap T) :=
  nd_heap.swim { h with data_ := h.data_ ++ [val] } ((h.data_ ++ [val]).length - 1)

/-- The method `nd_heap::push`. -/
def nd_heap.push {T : Type} (h : nd_heap T) (val : T) : Option (nd_heap T) :=
  h.emplace val

/-- The lambda `update_extreme` of `find_extreme_child_impl`, instantiated at
`I`: the new value of `extreme_child`. -/
def update_extreme {T : Type} (cmp_ : T → T → Bool) (data_ : List T) (I : Nat)
    (index size extreme_child : Nat) : Option Nat :=
  let child_idx := child_index index (I + 1)
  if child_idx < size then
    match data_[extreme_child]?, data_[child_idx]? with
    | some a, some b => some (if cmp_ a b then child_idx else extreme_child)
    | _, _ => none
  else some extreme_child

/-- The method `nd_heap::find_extreme_child_impl` over the index sequence
`0, 1, 2` (that is `d - 1` instances of `update_extreme`). -/
def find_extreme_child_impl {T : Type} (cmp_ : T → T → Bool) (data_ : List T)
    (index size : Nat) : Option Nat :=
  match update_extreme cmp_ data_ 0 index size (child_index index 0) with
  | none => none
  | some e0 =>
    match update_extreme cmp_ data_ 1 index size e0 with
    | none => none
    | some e1 => update_extreme cmp_ data_ 2 index size e1

/-- The loop of `nd_heap::sink` in the branch taken for `d = 4`: `data_` and
`index` when the loop is left.  The index grows with every iteration, which
the fuel counts. -/
def sink_loop {T : Type} (cmp_ : T → T → Bool) (current : T) (size : Nat) :
    Nat → List T → Nat → Option (List T × Nat)
  | 0, _, _ => none
  | fuel + 1, data_, index =>
    match find_extreme_child_impl cmp_ data_ index size with
    | none => none
    | some extreme_child =>
      if extreme_child ≥ size then some (data_, index)
      else
        match data_[extreme_child]? with
        | none => none
        | some c =>
          if !cmp_ current c then some (data_, index)
          else if index < data_.length then
            sink_loop cmp_ current size fuel (data_.set index c) extreme_child
          else none

/-- The method `nd_heap::sink`; an access outside the vector gives `none`. -/
def nd_heap.sink {T : Type} (h : nd_heap T) (index : Nat) : Option (nd_heap T) :=
  let size := h.data_.length
  match h.data_[index]? with
  | none => none
  | some current =>
    match sink_loop h.cmp_ current size (size + 1) h.data_ index with
    | none => none
    | some (data_, index1) =>
      if index1 < data_.length then some { h with data_ := data_.set index1 current }
      else none

/-- The method `nd_heap::pop`; `none` when the assertion `!data_.empty()`
fails. -/
def nd_heap.pop {T : Type} (h : nd_heap T) : Option (nd_heap T) :=
  if h.data_.isEmpty then none
  else if h.data_.length = 1 then some { h with data_ := h.data_.dropLast }
  else
    match h.data_[0]?, h.data_[h.data_.length - 1]? with
    | some first, some back =>
      nd_heap.sink
        { h with data_ := ((h.data_.set 0 back).set (h.data_.length - 1) first).dropLast } 0
    | _, _ => none

/-- The method `nd_heap::top`; `none` when the vector is empty. -/
def nd_heap.top {T : Type} (h : nd_heap T) : Option T := h.data_[0]?

/-- The method `nd_heap::empty`. -/
def nd_heap.empty {T : Type} (h : nd_heap T) : Bool := h.data_.isEmpty

/-- The method `nd_heap::size`. -/
def nd_heap.size {T : Type} (h : nd_heap T) : Nat := h.data_.length

/-- A call made on a heap by the tests. -/
inductive heap_op (T : Type) where
  | push (val : T) : heap_op T
  | pop : heap_op T

/-- The heap after a sequence of calls, first call first. -/
def nd_heap.run {T : Type} : List (heap_op T) → nd_heap T → Option (nd_heap T)
  | [], h => some h
  | heap_op.push val :: rest, h =>
    match h.push val with
    | none => none
    | some h1 => nd_heap.run rest h1
  | heap_op.pop :: rest, h =>
    match h.pop with
    | none => none
    | some h1 => nd_heap.run rest h1

/-- No call of the sequence is a `pop` on an empty heap, `n` being the number
of values held at the start. -/
def pops_allowed {T : Type} : List (heap_op T) → Nat → Bool
  | [], _ => true
  | heap_op.push _ :: rest, n => pops_allowed rest (n + 1)
  | heap_op.pop :: rest, n => decide (0 < n) && pops_allowed rest (n - 1)

/-- The number of `push` calls of a sequence. -/
def count_push {T : Type} : List (heap_op T) → Nat
  | [] => 0
  | heap_op.push _ :: rest => count_push rest + 1
  | heap_op.pop :: rest => count_push rest

/-- The number of `pop` calls of a sequence. -/
def count_pop {T : Type} : List (heap_op T) → Nat
  | [] => 0
  | heap_op.push _ :: rest => count_pop rest
  | heap_op.pop :: rest => count_pop rest + 1

/-- A strict weak order given as a Boolean comparator: irreflexive,
transitive, and with a transitive incomparability. -/
def strict_weak_order {T : Type} (cmp : T → T → Bool) : Prop :=
  (∀ a, cmp a a = false) ∧
  (∀ a b c, cmp a b = true → cmp b c = true → cmp a c = true) ∧
  (∀ a b c, cmp a b = false → cmp b a = false → cmp b c = false → cmp c b = false →
    cmp a c = false ∧ cmp c a = false)

/-- The heap order of a vector: no element is ranked above its parent. -/
def heap_ordered {T : Type} (cmp : T → T → Bool) (data : List T) : Prop :=
  ∀ i, 0 < i → i < data.length → ∀ a b, data[parent_index i]? = some a → data[i]? = some b →
    cmp a b = false

/-- The first loop of the test `RandomTest`: push every value. -/
def push_all : List Int → nd_heap Int → Option (nd_heap Int)
  | [], h => some h
  | v :: rest, h =>
    match h.push v with
    | none => none
    | some h1 => push_all rest h1

/-- The second loop of the test `RandomTest`, `n` times: read `top()`, then
`pop()`; the values read, in order, and the heap afterwards. -/
def drain : Nat → nd_heap Int → Option (List Int × nd_heap Int)
  | 0, h => some ([], h)
  | n + 1, h =>
    match h.top with
    | none => none
    | some v =>
      match h.pop with
      | none => none
      | some h1 =>
        match drain n h1 with
        | none => none
        | some (out, h2) => some (v :: out, h2)

/-- The comparator `std::less<int>`. -/
def less_int (a b : Int) : Bool := decide (a < b)

/-- The comparator of the test `CustomComparator`. -/
def greater_int (a b : Int) : Bool := decide (a > b)

/-- The state of the loop of `swim` with the value `current` written at
`index`: every element but the one at `index` is ranked not above its parent,
and the children of `index` are ranked not above the parent of `index`. -/
def swim_inv {T : Type} (cmp : T → T → Bool) (D : List T) (index : Nat) : Prop :=
  (∀ i, 0 < i → i < D.length → i ≠ index → ∀ a b,
    D[parent_index i]? = some a → D[i]? = some b → cmp a b = false) ∧
  (0 < index → ∀ j, 0 < j → j < D.length → parent_index j = index → ∀ a b,
    D[parent_index index]? = some a → D[j]? = some b → cmp a b = false)

/-- The state of the loop of `sink` with the value `current` written at
`index`: every element but the children of `index` is ranked not above its
parent, and the children of `index` are ranked not above the parent of
`index`. -/
def sink_inv {T : Type} (cmp : T → T → Bool) (D : List T) (index : Nat) : Prop :=
  (∀ i, 0 < i → i < D.length → parent_index i ≠ index → ∀ a b,
    D[parent_index i]? = some a → D[i]? = some b → cmp a b = false) ∧
  (0 < index → ∀ j, 0 < j → j < D.length → parent_index j = index → ∀ a b,
    D[parent_index index]? = some a → D[j]? = some b → cmp a b = false)

/-- The struct `avl_tree_node<std::pair<const int, int>>` with its base
`avl_tree_node_base`: the links, the stored height and the stored pair. -/
structure avl_tree_node where
  height_ : Int
  parent_ : Nat
  left_ : Nat
  right_ : Nat
  key : Int
  val : Int

/-- The address of `impl_.header_`, the dummy root of the tree. -/
def header : Nat := 1

/-- The store `x->height_ = h`. -/
def set_height (m : Nat → avl_tree_node) (x : Nat) (h : Int) : Nat → avl_tree_node :=
  fun a => if a = x then { m x with height_ := h } else m a

/-- The store `x->parent_ = p`. -/
def set_parent (m : Nat → avl_tree_node) (x : Nat) (p : Nat) : Nat → avl_tree_node :=
  fun a => if a = x then { m x with parent_ := p } else m a

/-- The store `x->left_ = p`. -/
def set_left (m : Nat → avl_tree_node) (x : Nat) (p : Nat) : Nat → avl_tree_node :=
  fun a => if a = x then { m x with left_ := p } else m a

/-- The store `x->right_ = p`. -/
def set_right (m : Nat → avl_tree_node) (x : Nat) (p : Nat) : Nat → avl_tree_node :=
  fun a => if a = x then { m x with right_ := p } else m a

/-- The function `height_helper::height`. -/
def height (m : Nat → avl_tree_node) (x : Nat) : Int :=
  if x ≠ 0 then (m x).height_ else 0

/-- The function `height_helper::new_height`. -/
def new_height (m : Nat → avl_tree_node) (x : Nat) : Int :=
  max (height m (m x).left_) (height m (m x).right_) + 1

/-- The function `avl_tree_node_base::minimum`. -/
def minimum : Nat → (Nat → avl_tree_node) → Nat → Option Nat
  | 0, _, _ => none
  | fuel + 1, m, x =>
    if x = 0 then none
    else if (m x).left_ ≠ 0 then minimum fuel m (m x).left_
    else some x

/-- The function `avl_tree_node_base::maximum`. -/
def maximum : Nat → (Nat → avl_tree_node) → Nat → Option Nat
  | 0, _, _ => none
  | fuel + 1, m, x =>
    if x = 0 then none
    else if (m x).right_ ≠ 0 then maximum fuel m (m x).right_
    else some x

/-- The loop `while (x == y->right_)` of `avl_tree_increment`. -/
def increment_loop : Nat → (Nat → avl_tree_node) → Nat → Nat → Option (Nat × Nat)
  | 0, _, _, _ => none
  | fuel + 1, m, x, y =>
    if y = 0 then none
    else if x = (m y).right_ then increment_loop fuel m y (m y).parent_
    else some (x, y)

/-- The function `avl_tree_increment`. -/
def avl_tree_increment (fuel : Nat) (m : Nat → avl_tree_node) (x : Nat) : Option Nat :=
  if x = 0 then none
  else if (m x).right_ ≠ 0 then minimum fuel m (m x).right_
  else
    match increment_loop fuel m x (m x).parent_ with
    | none => none
    | some (x1, y) => if (m x1).right_ ≠ y then some y else some x1

/-- The loop `while (x == y->left_)` of `avl_tree_decrement`. -/
def decrement_loop : Nat → (Nat → avl_tree_node) → Nat → Nat → Option (Nat × Nat)
  | 0, _, _, _ => none
  | fuel + 1, m, x, y =>
    if y = 0 then none
    else if x = (m y).left_ then decrement_loop fuel m y (m y).parent_
    else some (x, y)

/-- The function `avl_tree_decrement`. -/
def avl_tree_decrement (fuel : Nat) (m : Nat → avl_tree_node) (x : Nat) : Option Nat :=
  if x = 0 then none
  else if (m x).parent_ = x then some (m x).right_
  else if (m x).left_ ≠ 0 then maximum fuel m (m x).left_
  else
    match decrement_loop fuel m x (m x).parent_ with
    | none => none
    | some (_, y) => some y

/-- The function `avl_rotate_left`. -/
def avl_rotate_left (m : Nat → avl_tree_node) (x p : Nat) : Option (Nat → avl_tree_node) :=
  if x = 0 ∨ p = 0 then none
  else
    let m1 := set_right m p (m x).left_
    let m2 := set_left m1 x p
    let m3 := set_parent m2 x (m2 p).parent_
    let m4 := set_parent m3 p x
    let m5 := if (m4 p).right_ ≠ 0 then set_parent m4 (m4 p).right_ p else m4
    let m6 :=
      if (m5 x).parent_ ≠ 0 then
        if (m5 (m5 x).parent_).parent_ = p then set_parent m5 (m5 x).parent_ x
        else if (m5 (m5 x).parent_).left_ = p then set_left m5 (m5 x).parent_ x
        else set_right m5 (m5 x).parent_ x
      else m5
    let m7 := set_height m6 p (new_height m6 p)
    some (set_height m7 x (new_height m7 x))

/-- The function `avl_rotate_right`. -/
def avl_rotate_right (m : Nat → avl_tree_node) (x p : Nat) : Option (Nat → avl_tree_node) :=
  if x = 0 ∨ p = 0 then none
  else
    let m1 := set_left m p (m x).right_
    let m2 := set_right m1 x p
    let m3 := set_parent m2 x (m2 p).parent_
    let m4 := set_parent m3 p x
    let m5 := if (m4 p).left_ ≠ 0 then set_parent m4 (m4 p).left_ p else m4
    if (m5 x).parent_ ≠ 0 then
      if (m5 (m5 x).parent_).parent_ = p then some (set_parent m5 (m5 x).parent_ x)
      else if (m5 (m5 x).parent_).right_ = p then some (set_right m5 (m5 x).parent_ x)
      else some (set_left m5 (m5 x).parent_ x)
    else some m5

/-- The enumerators of `enum state`. -/
def right_right : Nat := 0

/-- The enumerator `left_right`. -/
def left_right : Nat := 2

/-- The enumerator `right_left`. -/
def right_left : Nat := 1

/-- The enumerator `left_left`. -/
def left_left : Nat := 3

/-- The `switch` on the state in both rebalancing loops: the rotations around
`p` (the heavy child, `tmp` in the erase loop) and `g` (its parent, `x_parent`
in the erase loop); `x` is the grandchild that a double rotation lifts.  The
result is the memory and the values of `x` and `p` afterwards. -/
def rotate_switch (m : Nat → avl_tree_node) (state : Nat) (x p g : Nat) :
    Option ((Nat → avl_tree_node) × Nat × Nat) :=
  if state = right_right then
    match avl_rotate_left m p g with
    | none => none
    | some m1 => some (m1, x, p)
  else if state = left_right then
    match avl_rotate_left m x p with
    | none => none
    | some m1 =>
      -- std::swap(x, p)
      match avl_rotate_right m1 x g with
      | none => none
      | some m2 => if p = 0 then none else some (set_height m2 p (new_height m2 p), p, x)
  else if state = right_left then
    match avl_rotate_right m x p with
    | none => none
    | some m1 =>
      -- std::swap(x, p)
      match avl_rotate_left m1 x g with
      | none => none
      | some m2 => if p = 0 then none else some (set_height m2 p (new_height m2 p), p, x)
  else
    match avl_rotate_right m p g with
    | none => none
    | some m1 => some (m1, x, p)

/-- The `switch` with the two stores that follow it in both loops,
`g->height_ = new_height(g); p->height_ = new_height(p)` (in the erase loop
`x_parent->height_` and `tmp->height_`): the memory and the new `p`. -/
def rotate_fix (m : Nat → avl_tree_node) (state : Nat) (x p g : Nat) :
    Option ((Nat → avl_tree_node) × Nat) :=
  match rotate_switch m state x p g with
  | none => none
  | some (m2, _, p1) =>
    if p1 = 0 then none
    else
      let m3 := set_height m2 g (new_height m2 g)
      some (set_height m3 p1 (new_height m3 p1), p1)

/-- The loop of `avl_tree_insert_and_rebalance`, carrying `x`, `p`, `g`,
`height` and `insert_state`. -/
def insert_loop : Nat → (Nat → avl_tree_node) → Nat → Nat → Nat → Int → Nat →
    Option (Nat → avl_tree_node)
  | 0, _, _, _, _, _, _ => none
  | fuel + 1, m, x, p, g, height0, insert_state =>
    if g = header then some m
    else if g = 0 then none
    else
      let is_left := decide ((m g).left_ = p)
      let tmp_height := if is_left then height m (m g).right_ else height m (m g).left_
      let diff := height0 - tmp_height
      let height1 := max tmp_height height0 + 1
      if height1 = (m g).height_ then some m
      else
        let insert_state1 := insert_state ||| ((if is_left then 1 else 0) <<< 1)
        let m1 := set_height m g height1
        if diff = 2 then
          match rotate_fix m1 insert_state1 x p g with
          | none => none
          | some (m2, _) => some m2
        else insert_loop fuel m1 p g (m1 g).parent_ height1 (if is_left then 1 else 0)

/-- The function `avl_tree_insert_and_rebalance`. -/
def avl_tree_insert_and_rebalance (fuel : Nat) (insert_left : Bool) (x p : Nat)
    (m : Nat → avl_tree_node) : Option (Nat → avl_tree_node) :=
  if x = 0 ∨ p = 0 then none
  else
    let m1 := set_right (set_left (set_parent (set_height m x 1) x p) x 0) x 0
    if insert_left ∧ p = header then
      some (set_right (set_parent (set_left m1 p x) header x) header x)
    else
      let (m2, tmp_height) :=
        if insert_left then
          let m2 := set_left m1 p x
          let m3 := if p = (m2 header).left_ then set_left m2 header x else m2
          (m3, height m3 (m3 p).right_)
        else
          let m2 := set_right m1 p x
          let tmp_height := height m2 (m2 p).left_
          (if p = (m2 header).right_ then set_right m2 header x else m2, tmp_height)
      let height0 := max tmp_height 1 + 1
      if height0 = (m2 p).height_ then some m2
      else
        let m3 := set_height m2 p height0
        insert_loop fuel m3 x p (m3 p).parent_ height0 (if insert_left then 1 else 0)

/-- The head of `avl_tree_rebalance_for_erase`: the choice of `y` and `x`.
The loop `while (y->left_ != nullptr) y = y->left_` is the loop of
`minimum`. -/
def erase_choose (fuel : Nat) (m : Nat → avl_tree_node) (z : Nat) : Option (Nat × Nat) :=
  if (m z).left_ = 0 then some (z, (m z).right_)
  else if (m z).right_ = 0 then some (z, (m z).left_)
  else
    match minimum fuel m (m z).right_ with
    | none => none
    | some y => some (y, (m y).right_)

/-- The branch `y != z` of `avl_tree_rebalance_for_erase`, first part:
`z->left_->parent_ = y; y->left_ = z->left_; y->height_ = z->height_`. -/
def relink_left (m : Nat → avl_tree_node) (z y : Nat) : Option (Nat → avl_tree_node) :=
  if (m z).left_ = 0 then none
  else
    let m1 := set_parent m (m z).left_ y
    let m2 := set_left m1 y (m1 z).left_
    some (set_height m2 y (m2 z).height_)

/-- The branch `y != z`, second part: `if (y != z->right_)` with its `else`.
The result is the memory, `x_parent` and `erase_left`. -/
def relink_right (m : Nat → avl_tree_node) (z y x : Nat) :
    Option ((Nat → avl_tree_node) × Nat × Bool) :=
  if y ≠ (m z).right_ then
    if (m y).parent_ = 0 ∨ (m z).right_ = 0 then none
    else
      let x_parent := (m y).parent_
      let m4 := if x ≠ 0 then set_parent m x (m y).parent_ else m
      let m5 := set_left m4 (m4 y).parent_ x
      let m6 := set_right m5 y (m5 z).right_
      let m7 := set_parent m6 (m6 z).right_ y
      some (m7, x_parent, true)
  else some (m, y, false)

/-- The branch `y != z`, third part: `y` takes the place of `z` below the
parent of `z`, and `y->parent_ = z->parent_`. -/
def relink_parent (m : Nat → avl_tree_node) (z y : Nat) : Option (Nat → avl_tree_node) :=
  if (m z).parent_ = 0 then none
  else
    let m9 :=
      if (m header).parent_ = z then set_parent m header y
      else if (m (m z).parent_).left_ = z then set_left m (m z).parent_ y
      else set_right m (m z).parent_ y
    some (set_parent m9 y (m9 z).parent_)

/-- The branch `y != z` of `avl_tree_rebalance_for_erase`: `y` is relinked in
place of `z`.  The result is the memory, `x_parent` and `erase_left`. -/
def erase_relink (m : Nat → avl_tree_node) (z y x : Nat) :
    Option ((Nat → avl_tree_node) × Nat × Bool) :=
  match relink_left m z y with
  | none => none
  | some m3 =>
    match relink_right m3 z y x with
    | none => none
    | some (m8, x_parent, erase_left) =>
      match relink_parent m8 z y with
      | none => none
      | some m10 => some (m10, x_parent, erase_left)

/-- The branch `y == z` of `avl_tree_rebalance_for_erase`, first part: `x`
takes the place of `z` below the parent of `z`.  The result is the memory and
`erase_left`. -/
def unlink_pointers (m : Nat → avl_tree_node) (z x : Nat) : (Nat → avl_tree_node) × Bool :=
  let m1 := if x ≠ 0 then set_parent m x (m z).parent_ else m
  if (m1 header).parent_ = z then (set_parent m1 header x, false)
  else if (m1 (m1 z).parent_).left_ = z then (set_left m1 (m1 z).parent_ x, true)
  else (set_right m1 (m1 z).parent_ x, false)

/-- The branch `y == z`, second part: `if (leftmost == z)`. -/
def unlink_leftmost (fuel : Nat) (m : Nat → avl_tree_node) (z x : Nat) :
    Option (Nat → avl_tree_node) :=
  if (m header).left_ = z then
    if (m z).right_ = 0 then some (set_left m header (m z).parent_)
    else
      match minimum fuel m x with
      | none => none
      | some l => some (set_left m header l)
  else some m

/-- The branch `y == z`, third part: `if (rightmost == z)`. -/
def unlink_rightmost (fuel : Nat) (m : Nat → avl_tree_node) (z x : Nat) :
    Option (Nat → avl_tree_node) :=
  if (m header).right_ = z then
    if (m z).left_ = 0 then some (set_right m header (m z).parent_)
    else
      match maximum fuel m x with
      | none => none
      | some l => some (set_right m header l)
  else some m

/-- The branch `y == z` of `avl_tree_rebalance_for_erase`: `z` has at most
one child, `x`.  The result is the memory, `x_parent` and `erase_left`. -/
def erase_unlink (fuel : Nat) (m : Nat → avl_tree_node) (z x : Nat) :
    Option ((Nat → avl_tree_node) × Nat × Bool) :=
  let x_parent := (m z).parent_
  match unlink_leftmost fuel (unlink_pointers m z x).1 z x with
  | none => none
  | some m4 =>
    match unlink_rightmost fuel m4 z x with
    | none => none
    | some m6 => some (m6, x_parent, (unlink_pointers m z x).2)

/-- The body of `if (diff == 2)` in the loop of
`avl_tree_rebalance_for_erase` up to `std::swap(tmp, x_parent)`: the memory
and the new `x_parent`. -/
def erase_rotate (m : Nat → avl_tree_node) (erase_left : Bool) (x tmp x_parent : Nat) :
    Option ((Nat → avl_tree_node) × Nat) :=
  if tmp = 0 then none
  else
    let left_height := height m (m tmp).left_
    let right_height := height m (m tmp).right_
    let is_left :=
      if left_height = right_height then !erase_left
      else decide (left_height > right_height)
    let erase_state := ((if erase_left then 0 else 1) <<< 1) ||| (if is_left then 1 else 0)
    let x1 :=
      if erase_state = left_right ∨ erase_state = right_left then
        (if is_left then (m tmp).left_ else (m tmp).right_)
      else x
    rotate_fix m erase_state x1 tmp x_parent

/-- The loop of `avl_tree_rebalance_for_erase`, carrying `x`, `x_parent`,
`tmp`, `erase_left`, `height` and `tmp_height`. -/
def erase_loop : Nat → (Nat → avl_tree_node) → Nat → Nat → Nat → Bool → Int → Int →
    Option (Nat → avl_tree_node)
  | 0, _, _, _, _, _, _, _ => none
  | fuel + 1, m, x, x_parent, tmp, erase_left, height0, tmp_height =>
    if x_parent = header then some m
    else if x_parent = 0 then none
    else
      let diff := tmp_height - height0
      let height1 := max tmp_height height0 + 1
      if height1 = (m x_parent).height_ ∧ diff = 1 then some m
      else
        let old_height := (m x_parent).height_
        let m1 := set_height m x_parent height1
        let r : Option ((Nat → avl_tree_node) × Nat × Bool) :=
          if diff = 2 then
            match erase_rotate m1 erase_left x tmp x_parent with
            | none => none
            | some (m2, x_parent1) => some (m2, x_parent1, decide (old_height = (m2 x_parent1).height_))
          else some (m1, x_parent, false)
        match r with
        | none => none
        | some (m5, x_parent1, stop) =>
          if stop then some m5
          else
            let height2 := (m5 x_parent1).height_
            let x2 := x_parent1
            let x_parent2 := (m5 x_parent1).parent_
            if x_parent2 = 0 then none
            else
              let erase_left2 := decide (x2 = (m5 x_parent2).left_)
              let tmp2 := if erase_left2 then (m5 x_parent2).right_ else (m5 x_parent2).left_
              erase_loop fuel m5 x2 x_parent2 tmp2 erase_left2 height2 (height m5 tmp2)

/-- The function `avl_tree_rebalance_for_erase`: the memory afterwards and
the node unlinked, which is `z`. -/
def avl_tree_rebalance_for_erase (fuel : Nat) (z : Nat) (m : Nat → avl_tree_node) :
    Option ((Nat → avl_tree_node) × Nat) :=
  if z = 0 then none
  else
    match erase_choose fuel m z with
    | none => none
    | some (y, x) =>
      match (if y ≠ z then erase_relink m z y x else erase_unlink fuel m z x) with
      | none => none
      | some (m1, x_parent, erase_left) =>
        if x_parent = 0 then none
        else
          let tmp := if erase_left then (m1 x_parent).right_ else (m1 x_parent).left_
          match erase_loop fuel m1 x x_parent tmp erase_left (height m1 x) (height m1 tmp) with
          | none => none
          | some m2 => some (m2, z)

/-- The class `avl_tree` behind `avl_map<int, int>`: the memory of the nodes
(the header included), the counter `impl_.node_count_` and the allocator. -/
structure avl_tree where
  mem : Nat → avl_tree_node
  node_count_ : Nat
  heap_next : Nat

/-- The default constructor: `avl_tree_header()` sets the height of the
header to 0 and calls `reset()`. -/
def avl_tree.init : avl_tree :=
  { mem := fun a => { height_ := 0, parent_ := 0, left_ := if a = header then header else 0,
                      right_ := if a = header then header else 0, key := 0, val := 0 },
    node_count_ := 0, heap_next := 2 }

/-- The method `avl_tree::size`. -/
def avl_tree.size (t : avl_tree) : Nat := t.node_count_

/-- The method `avl_tree::height`. -/
def avl_tree.height (t : avl_tree) : Nat :=
  (alp_utils.height t.mem (t.mem header).parent_ % 18446744073709551616).toNat

/-- The method `avl_tree::begin`: the node of the iterator. -/
def avl_tree.begin (t : avl_tree) : Nat := (t.mem header).left_

/-- The method `avl_tree::end`: the node of the iterator. -/
def avl_tree.end_ (_t : avl_tree) : Nat := header

/-- The method `avl_tree::lower_bound(x, y, k)`. -/
def lower_bound : Nat → (Nat → avl_tree_node) → Nat → Nat → Int → Option Nat
  | 0, _, _, _, _ => none
  | fuel + 1, m, x, y, k =>
    if x ≠ 0 then
      if ¬ ((m x).key < k) then lower_bound fuel m (m x).left_ x k
      else lower_bound fuel m (m x).right_ y k
    else some y

/-- The method `avl_tree::upper_bound(x, y, k)`. -/
def upper_bound : Nat → (Nat → avl_tree_node) → Nat → Nat → Int → Option Nat
  | 0, _, _, _, _ => none
  | fuel + 1, m, x, y, k =>
    if x ≠ 0 then
      if k < (m x).key then upper_bound fuel m (m x).left_ x k
      else upper_bound fuel m (m x).right_ y k
    else some y

/-- The method `avl_tree::find`: the node of the iterator returned. -/
def avl_tree.find (fuel : Nat) (t : avl_tree) (k : Int) : Option Nat :=
  match alp_utils.lower_bound fuel t.mem (t.mem header).parent_ header k with
  | none => none
  | some j => if j = header ∨ k < (t.mem j).key then some header else some j

/-- The method `avl_tree::equal_range`: the nodes of the two iterators. -/
def equal_range : Nat → (Nat → avl_tree_node) → Nat → Nat → Int → Option (Nat × Nat)
  | 0, _, _, _, _ => none
  | fuel + 1, m, x, y, k =>
    if x ≠ 0 then
      if (m x).key < k then equal_range fuel m (m x).right_ y k
      else if k < (m x).key then equal_range fuel m (m x).left_ x k
      else
        match lower_bound fuel m (m x).left_ x k, upper_bound fuel m (m x).right_ y k with
        | some lo, some hi => some (lo, hi)
        | _, _ => none
    else some (y, y)

/-- The descent loop of `avl_tree::get_insert_unique_pos`: the final `x`,
`y` and `comp`. -/
def unique_pos_loop : Nat → (Nat → avl_tree_node) → Nat → Nat → Bool → Int →
    Option (Nat × Nat × Bool)
  | 0, _, _, _, _, _ => none
  | fuel + 1, m, x, y, comp, k =>
    if x ≠ 0 then
      let comp1 := decide (k < (m x).key)
      unique_pos_loop fuel m (if comp1 then (m x).left_ else (m x).right_) x comp1 k
    else some (x, y, comp)

/-- The method `avl_tree::get_insert_unique_pos`. -/
def get_insert_unique_pos (fuel : Nat) (m : Nat → avl_tree_node) (k : Int) :
    Option (Nat × Nat) :=
  match unique_pos_loop fuel m (m header).parent_ header true k with
  | none => none
  | some (x, y, comp) =>
    if comp ∧ y = (m header).left_ then some (x, y)
    else
      match (if comp then avl_tree_decrement fuel m y else some y) with
      | none => none
      | some j =>
        if j = 0 then none
        else if (m j).key < k then some (x, y) else some (j, 0)

/-- The method `avl_tree::get_insert_hint_unique_pos`. -/
def get_insert_hint_unique_pos (fuel : Nat) (t : avl_tree) (pos : Nat) (k : Int) :
    Option (Nat × Nat) :=
  let m := t.mem
  if pos = 0 then none
  else if pos = header then
    if t.size > 0 ∧ (m (m header).right_).key < k then some (0, (m header).right_)
    else get_insert_unique_pos fuel m k
  else if k < (m pos).key then
    if pos = (m header).left_ then some ((m header).left_, (m header).left_)
    else
      match avl_tree_decrement fuel m pos with
      | none => none
      | some before =>
        if before = 0 then none
        else if (m before).key < k then
          if (m before).right_ = 0 then some (0, before) else some (pos, pos)
        else get_insert_unique_pos fuel m k
  else if (m pos).key < k then
    if pos = (m header).right_ then some (0, (m header).right_)
    else
      match avl_tree_increment fuel m pos with
      | none => none
      | some after =>
        if after = 0 then none
        else if k < (m after).key then
          if (m pos).right_ = 0 then some (0, pos) else some (after, after)
        else get_insert_unique_pos fuel m k
  else some (pos, 0)

/-- The method `avl_tree::create_node`: a node at a fresh address holding the
pair; its links and its height are whatever the memory held there. -/
def create_node (t : avl_tree) (k v : Int) : Nat × avl_tree :=
  (t.heap_next,
    { t with mem := fun a => if a = t.heap_next then { t.mem a with key := k, val := v }
                             else t.mem a,
             heap_next := t.heap_next + 1 })

/-- The method `avl_tree::insert_node`. -/
def insert_node (fuel : Nat) (t : avl_tree) (x p z : Nat) : Option (Nat × avl_tree) :=
  if p = 0 ∨ z = 0 then none
  else
    let insert_left := decide (x ≠ 0 ∨ p = header ∨ (t.mem z).key < (t.mem p).key)
    match avl_tree_insert_and_rebalance fuel insert_left z p t.mem with
    | none => none
    | some m1 =>
      some (z, { t with mem := m1,
                        node_count_ := (t.node_count_ + 1) % 18446744073709551616 })

/-- The method `avl_tree::emplace_hint_unique`: the node of the iterator
returned and the tree afterwards. -/
def emplace_hint_unique (fuel : Nat) (t : avl_tree) (pos : Nat) (k v : Int) :
    Option (Nat × avl_tree) :=
  let (z, t1) := create_node t k v
  match get_insert_hint_unique_pos fuel t1 pos k with
  | none => none
  | some (first, second) =>
    if second ≠ 0 then insert_node fuel t1 first second z
    else some (first, t1)

/-- The method `avl_map::emplace(k, v)`: the node of the iterator, the flag
and the map afterwards. -/
def emplace (fuel : Nat) (t : avl_tree) (k v : Int) : Option (Nat × Bool × avl_tree) :=
  match lower_bound fuel t.mem (t.mem header).parent_ header k with
  | none => none
  | some i =>
    if i = header ∨ k < (t.mem i).key then
      match emplace_hint_unique fuel t i k v with
      | none => none
      | some (i1, t1) => some (i1, true, t1)
    else some (i, false, t)

/-- The method `avl_map::insert(hint, node_type &&nh)`, that is
`avl_tree::reinsert_node_hint_unique`, for a handle that is not empty and
holds the key `k` and the value `v`. -/
def reinsert_node_hint_unique (fuel : Nat) (t : avl_tree) (hint : Nat) (k v : Int) :
    Option (Nat × avl_tree) :=
  match get_insert_hint_unique_pos fuel t hint k with
  | none => none
  | some (first, second) =>
    let (z, t1) := create_node t k v
    if second ≠ 0 then insert_node fuel t1 first second z
    else some (first, t1)

/-- The method `avl_tree::clear`: the nodes are destroyed and the header is
reset. -/
def avl_tree.clear (t : avl_tree) : avl_tree :=
  { t with mem := set_right (set_left (set_parent t.mem header 0) header header) header header,
           node_count_ := 0 }

/-- The method `avl_tree::erase_aux(position)`. -/
def erase_aux (fuel : Nat) (t : avl_tree) (position : Nat) : Option avl_tree :=
  match avl_tree_rebalance_for_erase fuel position t.mem with
  | none => none
  | some (m1, _) =>
    some { t with mem := m1,
                  node_count_ := if t.node_count_ = 0 then 18446744073709551615
                                 else t.node_count_ - 1 }

/-- The loop of `avl_tree::erase_aux(first, last)`. -/
def erase_range_loop : Nat → avl_tree → Nat → Nat → Option avl_tree
  | 0, _, _, _ => none
  | fuel + 1, t, first, last =>
    if first ≠ last then
      match avl_tree_increment (fuel + 1) t.mem first with
      | none => none
      | some next =>
        match erase_aux (fuel + 1) t first with
        | none => none
        | some t1 => erase_range_loop fuel t1 next last
    else some t

/-- The method `avl_tree::erase_aux(first, last)`. -/
def erase_range (fuel : Nat) (t : avl_tree) (first last : Nat) : Option avl_tree :=
  if first = t.begin ∧ last = t.end_ then some t.clear
  else erase_range_loop fuel t first last

/-- The method `avl_map::erase(k)`: the number returned and the map
afterwards. -/
def erase (fuel : Nat) (t : avl_tree) (k : Int) : Option (Nat × avl_tree) :=
  match equal_range fuel t.mem (t.mem header).parent_ header k with
  | none => none
  | some (first, last) =>
    let old_size := t.size
    match erase_range fuel t first last with
    | none => none
    | some t1 => some ((old_size + 18446744073709551616 - t1.size) % 18446744073709551616, t1)

/-- The loop of `avl_tree::check`: `q` is the queue; the result tells whether
every assertion held. -/
def check_loop : Nat → (Nat → avl_tree_node) → List Nat → Option Bool
  | 0, _, _ => none
  | _ + 1, _, [] => some true
  | fuel + 1, m, x :: q =>
    if x = 0 then check_loop fuel m q
    else
      let left_height := height m (m x).left_
      let right_height := height m (m x).right_
      if ¬ ((left_height - right_height).natAbs ≤ 1) then some false
      else if ¬ ((m x).height_ = max left_height right_height + 1) then some false
      else check_loop fuel m (q ++ [(m x).left_, (m x).right_])

/-- The method `avl_tree::check`. -/
def avl_tree.check (fuel : Nat) (t : avl_tree) : Option Bool :=
  check_loop fuel t.mem [(t.mem header).parent_]

/-- The loop `for (it = begin(); it != end(); ++it)` collecting the pairs
visited. -/
def to_list_loop : Nat → (Nat → avl_tree_node) → Nat → Option (List (Int × Int))
  | 0, _, _ => none
  | fuel + 1, m, it =>
    if it = header then some []
    else if it = 0 then none
    else
      match avl_tree_increment (fuel + 1) m it with
      | none => none
      | some next =>
        match to_list_loop fuel m next with
        | none => none
        | some rest => some (((m it).key, (m it).val) :: rest)

/-- The pairs visited from `begin()` to `end()`. -/
def avl_tree.to_list (fuel : Nat) (t : avl_tree) : Option (List (Int × Int)) :=
  to_list_loop fuel t.mem t.begin

/-- The shape of a tree of nodes in the memory: the addresses of the nodes
with their left and right subtrees. -/
inductive tr where
  | nil : tr
  | node : tr → Nat → tr → tr

/-- The pointer to a tree: null for the empty one. -/
def tr.root : tr → Nat
  | .nil => 0
  | .node _ a _ => a

/-- The addresses of a tree in symmetric order. -/
def tr.addrs : tr → List Nat
  | .nil => []
  | .node l a r => l.addrs ++ a :: r.addrs

/-- The height of a tree, an empty one counting 0. -/
def tr.ht : tr → Int
  | .nil => 0
  | .node l _ r => max l.ht r.ht + 1

/-- The balance condition: at every node the heights of the two subtrees
differ by at most 1. -/
def tr.bal : tr → Prop
  | .nil => True
  | .node l _ r => l.bal ∧ r.bal ∧ l.ht ≤ r.ht + 1 ∧ r.ht ≤ l.ht + 1

/-- The links of the memory lay out the tree below the parent `par`. -/
def own (m : Nat → avl_tree_node) : tr → Nat → Prop
  | .nil, _ => True
  | .node l a r, par =>
    a ≠ 0 ∧ (m a).parent_ = par ∧ (m a).left_ = l.root ∧ (m a).right_ = r.root ∧
      own m l a ∧ own m r a

/-- The stored height of every node of the tree is the height of its
subtree. -/
def hts (m : Nat → avl_tree_node) : tr → Prop
  | .nil => True
  | .node l a r => hts m l ∧ hts m r ∧ (m a).height_ = max l.ht r.ht + 1

/-- One step of a path from a node up to the root: the parent `a` with the
sibling subtree, `L` when the path comes from the left child. -/
inductive frame where
  | L : Nat → tr → frame
  | R : tr → Nat → frame

/-- The tree obtained by putting `t` at the lower end of the path. -/
def plug : List frame → tr → tr
  | [], t => t
  | frame.L a r :: c, t => plug c (tr.node t a r)
  | frame.R l a :: c, t => plug c (tr.node l a t)

/-- The parent of the lower end of the path: the header for the empty
path. -/
def ctx_par : List frame → Nat
  | [] => header
  | frame.L a _ :: _ => a
  | frame.R _ a :: _ => a

/-- The addresses before the lower end of the path, in symmetric order. -/
def ctx_before : List frame → List Nat
  | [] => []
  | frame.L _ _ :: c => ctx_before c
  | frame.R l a :: c => ctx_before c ++ l.addrs ++ [a]

/-- The addresses after the lower end of the path, in symmetric order. -/
def ctx_after : List frame → List Nat
  | [] => []
  | frame.L a r :: c => a :: r.addrs ++ ctx_after c
  | frame.R _ _ :: c => ctx_after c

/-- The links of the memory lay out the path above the pointer `x`. -/
def own_ctx (m : Nat → avl_tree_node) : List frame → Nat → Prop
  | [], x => (m header).parent_ = x
  | frame.L a r :: c, x =>
    a ≠ 0 ∧ (m a).parent_ = ctx_par c ∧ (m a).left_ = x ∧ (m a).right_ = r.root ∧
      own m r a ∧ own_ctx m c a
  | frame.R l a :: c, x =>
    a ≠ 0 ∧ (m a).parent_ = ctx_par c ∧ (m a).left_ = l.root ∧ (m a).right_ = x ∧
      own m l a ∧ own_ctx m c a

/-- The stored heights along the path are right for a tree of height `h` at
its lower end. -/
def ctx_hts (m : Nat → avl_tree_node) : List frame → Int → Prop
  | [], _ => True
  | frame.L a r :: c, h =>
    hts m r ∧ (m a).height_ = max h r.ht + 1 ∧ ctx_hts m c (max h r.ht + 1)
  | frame.R l a :: c, h =>
    hts m l ∧ (m a).height_ = max l.ht h + 1 ∧ ctx_hts m c (max l.ht h + 1)

/-- The path is balanced for a tree of height `h` at its lower end. -/
def ctx_bal : List frame → Int → Prop
  | [], _ => True
  | frame.L _ r :: c, h =>
    r.bal ∧ h ≤ r.ht + 1 ∧ r.ht ≤ h + 1 ∧ ctx_bal c (max h r.ht + 1)
  | frame.R l _ :: c, h =>
    l.bal ∧ l.ht ≤ h + 1 ∧ h ≤ l.ht + 1 ∧ ctx_bal c (max l.ht h + 1)

/-- The memory `m'` holds the tree `t'` in place of `t` at the lower end of
the path `c`, with the stored heights of `t'` right; nothing else the path
depends on has changed. -/
def replaced (m m' : Nat → avl_tree_node) (c : List frame) (t t' : tr) : Prop :=
  own m' t' (ctx_par c) ∧ own_ctx m' c t'.root ∧ hts m' t' ∧
    (∀ a, (m' a).key = (m a).key ∧ (m' a).val = (m a).val) ∧
    (∀ a, a ∉ t.addrs → (m' a).height_ = (m a).height_) ∧
    (m' header).left_ = (m header).left_ ∧ (m' header).right_ = (m header).right_

/-- The memory holds the balanced tree `T` below the header, with the stored
heights right. -/
def whole (m : Nat → avl_tree_node) (T : tr) : Prop :=
  own m T header ∧ (m header).parent_ = T.root ∧ hts m T ∧ T.bal

/-- The first address of the list, the header for the empty list: the value
of `header.left_`. -/
def first_or (l : List Nat) : Nat := l.head?.getD header

/-- The last address of the list, the header for the empty list: the value
of `header.right_`. -/
def last_or (l : List Nat) : Nat := l.getLast?.getD header

/-- The values of `erase_left`, `tmp` and `tmp_height` that belong to the
lower end of the path: the side of the hole and its sibling. -/
def side (c : List frame) (el : Bool) (tmp : Nat) (th : Int) : Prop :=
  match c with
  | [] => True
  | frame.L _ r :: _ => el = true ∧ tmp = r.root ∧ th = r.ht
  | frame.R l _ :: _ => el = false ∧ tmp = l.root ∧ th = l.ht

/-- The lower end of the path is a left child: the value of `erase_left`
after the node there has been unlinked. -/
def ctx_left : List frame → Bool
  | frame.L _ _ :: _ => true
  | _ => false

/-- The pointer of `g` that led to `p` leads to `x` in `m'`; the other
links of `g` are those of `m`. -/
def repointed (m m' : Nat → avl_tree_node) (g p x : Nat) : Prop :=
  ((m g).parent_ = p → (m' g).parent_ = x ∧ (m' g).left_ = (m g).left_ ∧
      (m' g).right_ = (m g).right_) ∧
  ((m g).parent_ ≠ p → (m g).left_ = p → (m g).right_ ≠ p →
      (m' g).parent_ = (m g).parent_ ∧ (m' g).left_ = x ∧ (m' g).right_ = (m g).right_) ∧
  ((m g).parent_ ≠ p → (m g).right_ = p → (m g).left_ ≠ p →
      (m' g).parent_ = (m g).parent_ ∧ (m' g).left_ = (m g).left_ ∧ (m' g).right_ = x)

/-- The keys stored at the addresses of the list increase strictly. -/
def key_sorted (m : Nat → avl_tree_node) (l : List Nat) : Prop :=
  l.Pairwise (fun a b => (m a).key < (m b).key)

/-- The first address of the list whose key is not less than `k`, `y` when
there is none. -/
def first_ge (m : Nat → avl_tree_node) (k : Int) (l : List Nat) (y : Nat) : Nat :=
  (l.find? (fun a => decide (¬ (m a).key < k))).getD y

/-- The first address of the list whose key is greater than `k`, `y` when
there is none. -/
def first_gt (m : Nat → avl_tree_node) (k : Int) (l : List Nat) (y : Nat) : Nat :=
  (l.find? (fun a => decide (k < (m a).key))).getD y

/-- The pairs stored at the addresses of the list. -/
def entries (m : Nat → avl_tree_node) (l : List Nat) : List (Int × Int) :=
  l.map (fun a => ((m a).key, (m a).val))

/-- The side on which `avl_tree_insert_and_rebalance` links a node at the
lower end of the path. -/
def ctx_insert_left : List frame → Bool
  | [] => true
  | frame.L _ _ :: _ => true
  | frame.R _ _ :: _ => false

/-- The pair `(x, p)` that `insert_node` receives for the key `k` designates
an empty place of the tree `T` where `k` belongs: the keys before the place
are less than `k`, the keys after it are greater. -/
def insert_pos (m : Nat → avl_tree_node) (T : tr) (k : Int) (x p : Nat) : Prop :=
  ∃ c, plug c tr.nil = T ∧ ctx_par c = p ∧
    decide (x ≠ 0 ∨ p = header ∨ k < (m p).key) = ctx_insert_left c ∧
    (∀ a ∈ ctx_before c, (m a).key < k) ∧ (∀ a ∈ ctx_after c, k < (m a).key)

/-- The path is the one that a search for the key `k` descends: left where
`k` is less than the key of the node, right elsewhere. -/
def ctx_path (m : Nat → avl_tree_node) (k : Int) : List frame → Prop
  | [] => True
  | frame.L a _ :: c => k < (m a).key ∧ ctx_path m k c
  | frame.R _ a :: c => ¬ k < (m a).key ∧ ctx_path m k c

/-- What `get_insert_unique_pos` and `get_insert_hint_unique_pos` return for
the key `k`: either a place to insert (second component not null), or the
node that holds `k` already (second component null). -/
def pos_result (m : Nat → avl_tree_node) (T : tr) (k : Int) (r : Nat × Nat) : Prop :=
  (r.2 ≠ 0 ∧ insert_pos m T k r.1 r.2) ∨ (r.2 = 0 ∧ r.1 ∈ T.addrs ∧ (m r.1).key = k)

/-- The memory and the counter of the tree hold the tree `T`: the links, the
stored heights and the balance are right, no address occurs twice, the header
points to the first and to the last node, the keys increase strictly in
symmetric order, the counter is the number of nodes (in 64 bits), and the
allocator is beyond every node. -/
def avl_inv (t : avl_tree) (T : tr) : Prop :=
  whole t.mem T ∧ (header :: T.addrs).Nodup ∧
    (t.mem header).left_ = first_or T.addrs ∧ (t.mem header).right_ = last_or T.addrs ∧
    key_sorted t.mem T.addrs ∧
    t.node_count_ = T.addrs.length % 18446744073709551616 ∧
    (∀ a ∈ T.addrs, a < t.heap_next) ∧ 2 ≤ t.heap_next

/-- The tree represents the sorted list of pairs `L`. -/
def avl_repr (t : avl_tree) (L : List (Int × Int)) : Prop :=
  ∃ T, avl_inv t T ∧ entries t.mem T.addrs = L

/-- The loop `for (it = begin(); it != end(); ++it)` collecting the nodes of
the iterators visited, the one of `end()` included. -/
def iter_loop : Nat → (Nat → avl_tree_node) → Nat → Option (List Nat)
  | 0, _, _ => none
  | fuel + 1, m, it =>
    if it = header then some [header]
    else if it = 0 then none
    else
      match avl_tree_increment (fuel + 1) m it with
      | none => none
      | some next =>
        match iter_loop fuel m next with
        | none => none
        | some rest => some (it :: rest)

/-- The nodes of the valid iterators of the map, from `begin()` to `end()`. -/
def avl_tree.iterators (fuel : Nat) (t : avl_tree) : Option (List Nat) :=
  iter_loop fuel t.mem t.begin

/-- A call on the map: `emplace(k, v)`, `insert(hint, node)` where the hint
is the iterator reached from `begin()` by `i` increments (or `end()`) and the
node handle holds `(k, v)`, or `erase(k)`. -/
inductive map_op where
  | emplace (k v : Int)
  | insert_hint (i : Nat) (k v : Int)
  | erase (k : Int)

/-- What a call returns: the flag of `emplace`, the pair that the iterator
returned by `insert(hint, node)` designates, or the number that `erase`
returns. -/
inductive op_result where
  | flag (b : Bool)
  | entry (k v : Int)
  | count (n : Nat)
  deriving DecidableEq

/-- One call on the map. -/
def map_op.run (fuel : Nat) (t : avl_tree) : map_op → Option (op_result × avl_tree)
  | .emplace k v =>
    match alp_utils.emplace fuel t k v with
    | none => none
    | some (_, b, t1) => some (op_result.flag b, t1)
  | .insert_hint i k v =>
    match t.iterators fuel with
    | none => none
    | some its =>
      match reinsert_node_hint_unique fuel t (its.getD i header) k v with
      | none => none
      | some (it, t1) => some (op_result.entry (t1.mem it).key (t1.mem it).val, t1)
  | .erase k =>
    match alp_utils.erase fuel t k with
    | none => none
    | some (n, t1) => some (op_result.count n, t1)

/-- A sequence of calls on the map: what they return and the map at the
end. -/
def map_run (fuel : Nat) : List map_op → avl_tree → Option (List op_result × avl_tree)
  | [], t => some ([], t)
  | op :: ops, t =>
    match op.run fuel t with
    | none => none
    | some (r, t1) =>
      match map_run fuel ops t1 with
      | none => none
      | some (rs, t2) => some (r :: rs, t2)

/-- The reference map (`std::map<int, int>`) as the list of its pairs in
increasing order of the keys: `emplace(k, v)` and `insert(hint, node)` add
the pair at its place unless the key is there already. -/
def ref_emplace : List (Int × Int) → Int → Int → List (Int × Int)
  | [], k, v => [(k, v)]
  | (k1, v1) :: L, k, v =>
    if k < k1 then (k, v) :: (k1, v1) :: L
    else if k1 < k then (k1, v1) :: ref_emplace L k v
    else (k1, v1) :: L

/-- The reference map: `erase(k)` removes the pair with the key `k`. -/
def ref_erase (L : List (Int × Int)) (k : Int) : List (Int × Int) :=
  L.filter (fun p => decide (p.1 ≠ k))

/-- The reference map: the pair with the key `k`, if any. -/
def ref_find (L : List (Int × Int)) (k : Int) : Option (Int × Int) :=
  L.find? (fun p => decide (p.1 = k))

/-- The reference map: one call, what it returns and the map afterwards. -/
def ref_step (L : List (Int × Int)) : map_op → op_result × List (Int × Int)
  | .emplace k v => (op_result.flag (ref_find L k).isNone, ref_emplace L k v)
  | .insert_hint _ k v =>
    (match ref_find L k with
      | some p => op_result.entry p.1 p.2
      | none => op_result.entry k v,
     ref_emplace L k v)
  | .erase k => (op_result.count (if (ref_find L k).isSome then 1 else 0), ref_erase L k)

/-- The reference map: a sequence of calls from the map `L`. -/
def ref_run : List map_op → List (Int × Int) → List op_result × List (Int × Int)
  | [], L => ([], L)
  | op :: ops, L =>
    let (r, L1) := ref_step L op
    let (rs, L2) := ref_run ops L1
    (r :: rs, L2)

/-! ## The d-ary heap `nd_heap` with any arity

The template argument `d` is a parameter.  The arithmetic of `size_t` is
kept modulo 2^64.  An access outside the vector, which the source leaves
undefined, ends the run with the fault `out_of_bounds`, which records the
position and the size of the vector. -/

/-- Why a run of a method of `nd_heap` does not return a heap. -/
inductive fault where
  | out_of_bounds (pos size : Nat) : fault
  | assertion : fault
  | out_of_fuel : fault

/-- The constant `nd_heap::is_power_of_two`. -/
def is_power_of_two (d : Nat) : Bool := decide (d > 0) && decide (d &&& (d - 1) = 0)

/-- The builtin `__builtin_ctz` on an argument that is not 0 and has at most
`bits` bits: the number of its trailing zero bits. -/
def builtin_ctz : Nat → Nat → Nat
  | 0, _ => 0
  | bits + 1, d => if d % 2 = 1 then 0 else builtin_ctz bits (d / 2) + 1

/-- The constant `nd_heap::d_shift`, for a 16-bit `d`. -/
def d_shift (d : Nat) : Nat := builtin_ctz 16 d

/-- The method `nd_heap::parent_index` of `nd_heap<T, d>`. -/
def arity.parent_index (d i : Nat) : Nat :=
  if is_power_of_two d then ((i + 18446744073709551615) % 18446744073709551616) / d
  else ((i + 18446744073709551615) % 18446744073709551616) >>> d_shift d

/-- The method `nd_heap::child_index` of `nd_heap<T, d>`. -/
def arity.child_index (d i k : Nat) : Nat :=
  if is_power_of_two d then (d * i + k + 1) % 18446744073709551616
  else ((i <<< d_shift d) + (k + 1)) % 18446744073709551616

/-- A read of `data_[pos]`. -/
def arity.read {T : Type} (data_ : List T) (pos : Nat) : Except fault T :=
  match data_[pos]? with
  | some v => Except.ok v
  | none => Except.error (fault.out_of_bounds pos data_.length)

/-- A write `data_[pos] = v`. -/
def arity.write {T : Type} (data_ : List T) (pos : Nat) (v : T) : Except fault (List T) :=
  if pos < data_.length then Except.ok (data_.set pos v)
  else Except.error (fault.out_of_bounds pos data_.length)

/-- The method `nd_heap::find_extreme_child_impl`: the instances
`update_extreme<I>`, `update_extreme<I + 1>`, ... of the fold, `n` of them,
applied to `extreme_child`. -/
def arity.find_extreme_child_impl {T : Type} (cmp_ : T → T → Bool) (data_ : List T)
    (d index size : Nat) : Nat → Nat → Nat → Except fault Nat
  | 0, _, extreme_child => Except.ok extreme_child
  | n + 1, I, extreme_child =>
    let child_idx := arity.child_index d index (I + 1)
    if child_idx < size then
      match arity.read data_ extreme_child with
      | Except.error e => Except.error e
      | Except.ok a =>
        match arity.read data_ child_idx with
        | Except.error e => Except.error e
        | Except.ok b =>
          arity.find_extreme_child_impl cmp_ data_ d index size n (I + 1)
            (if cmp_ a b then child_idx else extreme_child)
    else arity.find_extreme_child_impl cmp_ data_ d index size n (I + 1) extreme_child

/-- The loop of `nd_heap::sink` in the branch `is_power_of_two && d <= 8`:
`data_` and `index` when the loop is left. -/
def arity.sink_loop {T : Type} (cmp_ : T → T → Bool) (current : T) (d size : Nat) :
    Nat → List T → Nat → Except fault (List T × Nat)
  | 0, _, _ => Except.error fault.out_of_fuel
  | fuel + 1, data_, index =>
    match arity.find_extreme_child_impl cmp_ data_ d index size (d - 1) 0
        (arity.child_index d index 0) with
    | Except.error e => Except.error e
    | Except.ok extreme_child =>
      if extreme_child ≥ size then Except.ok (data_, index)
      else
        match arity.read data_ extreme_child with
        | Except.error e => Except.error e
        | Except.ok c =>
          if !cmp_ current c then Except.ok (data_, index)
          else
            match arity.write data_ index c with
            | Except.error e => Except.error e
            | Except.ok data1 => arity.sink_loop cmp_ current d size fuel data1 extreme_child

/-- The loops `for (uint16_t k = ...; k < d; ++k)` of the other branch of
`nd_heap::sink`, with `n` values of `k` left: the final `extreme_child`. -/
def arity.scan_children {T : Type} (cmp_ : T → T → Bool) (data_ : List T)
    (d index size : Nat) : Nat → Nat → Nat → Except fault Nat
  | 0, _, extreme_child => Except.ok extreme_child
  | n + 1, k, extreme_child =>
    let current_child := arity.child_index d index k
    if current_child ≥ size then Except.ok extreme_child
    else
      match arity.read data_ extreme_child with
      | Except.error e => Except.error e
      | Except.ok a =>
        match arity.read data_ current_child with
        | Except.error e => Except.error e
        | Except.ok b =>
          arity.scan_children cmp_ data_ d index size n (k + 1)
            (if cmp_ a b then current_child else extreme_child)

/-- The loop `while (index < min_child)` of `nd_heap::sink`. -/
def arity.sink_loop_first {T : Type} (cmp_ : T → T → Bool) (current : T)
    (d size min_child : Nat) : Nat → List T → Nat → Except fault (List T × Nat)
  | 0, _, _ => Except.error fault.out_of_fuel
  | fuel + 1, data_, index =>
    if index < min_child then
      match arity.scan_children cmp_ data_ d index size d 0 min_child with
      | Except.error e => Except.error e
      | Except.ok extreme_child =>
        match arity.read data_ extreme_child with
        | Except.error e => Except.error e
        | Except.ok c =>
          if !cmp_ current c then Except.ok (data_, index)
          else
            match arity.write data_ index c with
            | Except.error e => Except.error e
            | Except.ok data1 =>
              arity.sink_loop_first cmp_ current d size min_child fuel data1 extreme_child
    else Except.ok (data_, index)

/-- The second loop, `while (true)`, of that branch of `nd_heap::sink`. -/
def arity.sink_loop_second {T : Type} (cmp_ : T → T → Bool) (current : T)
    (d size : Nat) : Nat → List T → Nat → Except fault (List T × Nat)
  | 0, _, _ => Except.error fault.out_of_fuel
  | fuel + 1, data_, index =>
    let first_child := arity.child_index d index 0
    if first_child ≥ size then Except.ok (data_, index)
    else
      match arity.scan_children cmp_ data_ d index size (d - 1) 1 first_child with
      | Except.error e => Except.error e
      | Except.ok extreme_child =>
        match arity.read data_ extreme_child with
        | Except.error e => Except.error e
        | Except.ok c =>
          if !cmp_ current c then Except.ok (data_, index)
          else
            match arity.write data_ index c with
            | Except.error e => Except.error e
            | Except.ok data1 =>
              arity.sink_loop_second cmp_ current d size fuel data1 extreme_child

/-- The method `nd_heap::sink` of `nd_heap<T, d>`.  Every iteration of its
loops moves `index` to a greater one below `size`, so the fuel `size + 1` is
enough for each loop. -/
def arity.sink {T : Type} (d : Nat) (h : nd_heap T) (index : Nat) : Except fault (nd_heap T) :=
  let size := h.data_.length
  match arity.read h.data_ index with
  | Except.error e => Except.error e
  | Except.ok current =>
    let r :=
      if is_power_of_two d && decide (d ≤ 8) then
        arity.sink_loop h.cmp_ current d size (size + 1) h.data_ index
      else
        let min_child := arity.child_index d size 0
        match arity.sink_loop_first h.cmp_ current d size min_child (size + 1) h.data_ index with
        | Except.error e => Except.error e
        | Except.ok (data1, index1) =>
          arity.sink_loop_second h.cmp_ current d size (size + 1) data1 index1
    match r with
    | Except.error e => Except.error e
    | Except.ok (data_, index1) =>
      match arity.write data_ index1 current with
      | Except.error e => Except.error e
      | Except.ok data2 => Except.ok { h with data_ := data2 }

/-- The method `nd_heap::pop` of `nd_heap<T, d>`. -/
def arity.pop {T : Type} (d : Nat) (h : nd_heap T) : Except fault (nd_heap T) :=
  if h.data_.isEmpty then Except.error fault.assertion
  else if h.data_.length = 1 then Except.ok { h with data_ := h.data_.dropLast }
  else
    match h.data_[0]?, h.data_[h.data_.length - 1]? with
    | some first, some back =>
      arity.sink d
        { h with data_ := ((h.data_.set 0 back).set (h.data_.length - 1) first).dropLast } 0
    | _, _ => Except.error fault.assertion

end alp_utils

namespace hazp

/-! ## Lists, chains and closures -/


theorem splice_chain (l list : linked_list) : (l.splice list).chain = l.chain ++ list.chain := by
  unfold linked_list.splice linked_list.empty
  by_cases h1 : list.chain.isEmpty
  · simp [h1, List.isEmpty_iff.mp h1]
  · by_cases h2 : l.chain.isEmpty
    · simp [h1, h2, List.isEmpty_iff.mp h2]
    · simp [h1, h2]

theorem list_match_condition_fst (cond : retire_node → Bool) (l : List retire_node)
    (m n : linked_list) :
    (list_match_condition cond l m n).1.chain = m.chain ++ l.filter cond := by
  induction l generalizing m n with
  | nil => simp [list_match_condition]
  | cons x xs ih =>
    by_cases h : cond x
    · simp [list_match_condition, h, ih, linked_list.push]
    · simp [list_match_condition, h, ih]

theorem list_match_condition_snd (cond : retire_node → Bool) (l : List retire_node)
    (m n : linked_list) :
    (list_match_condition cond l m n).2.chain = n.chain ++ l.filter (fun x => !cond x) := by
  induction l generalizing m n with
  | nil => simp [list_match_condition]
  | cons x xs ih =>
    by_cases h : cond x
    · simp [list_match_condition, h, ih]
    · simp [list_match_condition, h, ih, linked_list.push]

theorem list_match_condition_size (cond : retire_node → Bool) (l : List retire_node)
    (m n : linked_list) :
    (list_match_condition cond l m n).2.size_ = n.size_ + (l.filter (fun x => !cond x)).length := by
  induction l generalizing m n with
  | nil => simp [list_match_condition]
  | cons x xs ih =>
    by_cases h : cond x
    · simp [list_match_condition, h, ih]
    · simp [list_match_condition, h, ih, linked_list.push]; ring

theorem closure_list_append (a b : List retire_node) :
    closure_list (a ++ b) = closure_list a ++ closure_list b := by
  induction a with
  | nil => simp [closure_list]
  | cons x xs ih => simp [closure_list, ih]

theorem closure_eq (r : retire_node) : r.closure = r :: closure_list r.deleter := by
  cases r with
  | mk raw addr retires =>
    simp only [retire_node.closure, retire_node.deleter]
    split <;> simp [closure_list]

theorem closure_list_perm {a b : List retire_node} (h : a.Perm b) :
    (closure_list a).Perm (closure_list b) := by
  induction h with
  | nil => exact List.Perm.refl _
  | cons x _ ih => simpa [closure_list] using List.Perm.append_left _ ih
  | swap x y l =>
    simp only [closure_list]
    rw [← List.append_assoc, ← List.append_assoc]
    exact List.Perm.append_right _ List.perm_append_comm
  | trans _ _ ih1 ih2 => exact ih1.trans ih2

theorem range_flatMap_update {α : Type} (f : Nat → List α) (n i : Nat) (hi : i < n) (l : List α) :
    ((List.range n).flatMap (fun j => if j = i then l ++ f i else f j)).Perm
      (l ++ (List.range n).flatMap f) := by
  induction n with
  | zero => omega
  | succ n ih =>
    rw [List.range_succ, List.flatMap_append, List.flatMap_append]
    by_cases h : i = n
    · subst h
      have h1 : (List.range i).flatMap (fun j => if j = i then l ++ f i else f j)
          = (List.range i).flatMap f := by
        apply List.flatMap_congr
        intro j hj
        have : j ≠ i := by
          have := List.mem_range.mp hj
          omega
        simp [this]
      rw [h1]
      simp
      exact (List.perm_append_comm_assoc _ _ _)
    · have hlt : i < n := by omega
      have h2 := ih hlt
      have h3 : ¬ n = i := fun e => h e.symm
      simp only [List.flatMap_cons, List.flatMap_nil, List.append_nil, h3, if_false]
      refine (List.Perm.append_right _ h2).trans ?_
      rw [List.append_assoc]

/-! ## The guarantee of a pass composes -/

theorem same_slots_refl (s : reclaimer) : same_slots s s := ⟨rfl, rfl, rfl, rfl, rfl⟩

theorem same_slots_trans {a b c : reclaimer} (h1 : same_slots a b) (h2 : same_slots b c) :
    same_slots a c := by
  obtain ⟨a1, a2, a3, a4, a5⟩ := h1
  obtain ⟨b1, b2, b3, b4, b5⟩ := h2
  exact ⟨b1.trans a1, b2.trans a2, b3.trans a3, b4.trans a4, b5.trans a5⟩

theorem load_hazptr_vals_congr {s s' : reclaimer} (h : same_slots s s') :
    load_hazptr_vals s' = load_hazptr_vals s := by
  obtain ⟨h1, _, _, h4, _⟩ := h
  unfold load_hazptr_vals
  rw [h1, h4]

theorem pass_inv_of_view {s s' : reclaimer} (h1 : same_slots s s')
    (h2 : shards_all s' = shards_all s) (h3 : s'.deleted = s.deleted) : pass_inv [] s s' := by
  refine ⟨h1, [], by simp [h3], by simp, ?_, ?_⟩
  · intro r hr
    rcases hr with hr | hr
    · left; rw [h2]; exact hr
    · simp at hr
  · simp [h2]

theorem pass_inv_trans {e1 e2 : List retire_node} {a b c : reclaimer}
    (h1 : pass_inv e1 a b) (h2 : pass_inv e2 b c) : pass_inv (e1 ++ e2) a c := by
  obtain ⟨f1, n1, d1, z1, m1, p1⟩ := h1
  obtain ⟨f2, n2, d2, z2, m2, p2⟩ := h2
  refine ⟨same_slots_trans f1 f2, n2 ++ n1, by rw [d2, d1, List.append_assoc], ?_, ?_, ?_⟩
  · intro r hr
    rcases List.mem_append.mp hr with hr | hr
    · rw [← load_hazptr_vals_congr f1]; exact z2 r hr
    · exact z1 r hr
  · intro r hr
    have hb : r ∈ shards_all b ∨ r ∈ n1 ∨ r ∈ e2 := by
      rcases hr with hr | hr
      · rcases m1 r (Or.inl hr) with h | h
        · exact Or.inl h
        · exact Or.inr (Or.inl h)
      · rcases List.mem_append.mp hr with hr | hr
        · rcases m1 r (Or.inr hr) with h | h
          · exact Or.inl h
          · exact Or.inr (Or.inl h)
        · exact Or.inr (Or.inr hr)
    rcases hb with h | h | h
    · rcases m2 r (Or.inl h) with h | h
      · exact Or.inl h
      · exact Or.inr (List.mem_append.mpr (Or.inl h))
    · exact Or.inr (List.mem_append.mpr (Or.inr h))
    · rcases m2 r (Or.inr h) with h | h
      · exact Or.inl h
      · exact Or.inr (List.mem_append.mpr (Or.inl h))
  · rw [closure_list_append] at p1 p2
    rw [closure_list_append, closure_list_append]
    -- n2 ++ n1 ++ C c ~ n1 ++ (n2 ++ C c) ~ n1 ++ (C b ++ C e2) ~ (n1 ++ C b) ++ C e2 ~ C a ++ C e1 ++ C e2
    have s1 : (n2 ++ n1 ++ closure_list (shards_all c)).Perm
        (n1 ++ (n2 ++ closure_list (shards_all c))) := by
      rw [List.append_assoc]
      exact List.perm_append_comm_assoc _ _ _
    have s2 : (n1 ++ (n2 ++ closure_list (shards_all c))).Perm
        (n1 ++ (closure_list (shards_all b) ++ closure_list e2)) :=
      List.Perm.append_left _ p2
    have s3 : (n1 ++ (closure_list (shards_all b) ++ closure_list e2)).Perm
        (closure_list (shards_all a) ++ closure_list e1 ++ closure_list e2) := by
      rw [← List.append_assoc]
      exact List.Perm.append_right _ p1
    rw [← List.append_assoc]
    exact (s1.trans s2).trans s3

theorem pass_inv_perm {e e' : List retire_node} {a b : reclaimer} (h : e.Perm e')
    (h1 : pass_inv e a b) : pass_inv e' a b := by
  obtain ⟨f1, n1, d1, z1, m1, p1⟩ := h1
  refine ⟨f1, n1, d1, z1, ?_, ?_⟩
  · intro r hr
    apply m1
    rcases hr with hr | hr
    · exact Or.inl hr
    · exact Or.inr (h.symm.subset hr)
  · exact p1.trans (closure_list_perm (List.Perm.append_left _ h))

/-! ## Retiring a record keeps the guarantee -/


theorem shards_all_push (s : reclaimer) (i : Nat) (hi : i < kNumShards) (node : retire_node) :
    (shards_all (retired_list_push s i node)).Perm (node :: shards_all s) := by
  unfold shards_all retired_list_push
  simpa using range_flatMap_update s.retired_list_ kNumShards i hi [node]

theorem shards_all_push_list (s : reclaimer) (i : Nat) (hi : i < kNumShards)
    (list : List retire_node) :
    (shards_all (retired_list_push_list s i list)).Perm (list ++ shards_all s) := by
  unfold retired_list_push_list
  by_cases h : list.isEmpty
  · simp [h, List.isEmpty_iff.mp h]
  · simp only [h]
    unfold shards_all
    simpa using range_flatMap_update s.retired_list_ kNumShards i hi list

theorem check_count_threshold_view (s : reclaimer) :
    same_slots s (check_count_threshold s).2 ∧
    (check_count_threshold s).2.retired_list_ = s.retired_list_ ∧
    (check_count_threshold s).2.deleted = s.deleted := by
  unfold check_count_threshold
  split <;> exact ⟨same_slots_refl _, rfl, rfl⟩

theorem check_due_time_view (clock : Nat → Nat) (s : reclaimer) :
    same_slots s (check_due_time clock s).2 ∧
    (check_due_time clock s).2.retired_list_ = s.retired_list_ ∧
    (check_due_time clock s).2.deleted = s.deleted := by
  unfold check_due_time
  simp only
  split
  · exact ⟨same_slots_refl _, rfl, rfl⟩
  · split <;> exact ⟨⟨rfl, rfl, rfl, rfl, rfl⟩, rfl, rfl⟩

theorem shards_all_congr {s t : reclaimer} (h : t.retired_list_ = s.retired_list_) :
    shards_all t = shards_all s := by
  unfold shards_all; rw [h]

theorem pass_inv_push (s : reclaimer) (i : Nat) (hi : i < kNumShards) (node : retire_node) :
    pass_inv [node] s (retired_list_push s i node) := by
  refine ⟨⟨rfl, rfl, rfl, rfl, rfl⟩, [], rfl, by simp, ?_, ?_⟩
  · intro r hr
    left
    apply (shards_all_push s i hi node).symm.subset
    rcases hr with hr | hr
    · exact List.mem_cons_of_mem _ hr
    · simp at hr; simp [hr]
  · simp only [List.nil_append]
    refine (closure_list_perm (shards_all_push s i hi node)).trans ?_
    exact closure_list_perm (by simpa using (List.perm_append_comm : ([node] ++ shards_all s).Perm _))

theorem check_threshold_and_reclaim_inv {rec : reclaimer → Int → Option reclaimer}
    (hrec : rec_ok rec) (clock : Nat → Nat) (s s' : reclaimer)
    (h : check_threshold_and_reclaim rec clock s = some s') : pass_inv [] s s' := by
  unfold check_threshold_and_reclaim at h
  obtain ⟨a1, a2, a3⟩ := check_count_threshold_view s
  have v1 : pass_inv [] s (check_count_threshold s).2 := pass_inv_of_view a1 (shards_all_congr a2) a3
  obtain ⟨b1, b2, b3⟩ := check_due_time_view clock (check_count_threshold s).2
  have v2 : pass_inv [] (check_count_threshold s).2 (check_due_time clock (check_count_threshold s).2).2 :=
    pass_inv_of_view b1 (shards_all_congr b2) b3
  have inc : ∀ t, pass_inv [] t (inc_num_bulk_reclaims t) := fun t =>
    pass_inv_of_view ⟨rfl, rfl, rfl, rfl, rfl⟩ rfl rfl
  simp only at h
  split at h
  · split at h
    · cases h
      simpa using pass_inv_trans v1 v2
    · have := (hrec _ _ _ h).1
      simpa using pass_inv_trans (pass_inv_trans (pass_inv_trans v1 v2) (inc _)) this
  · have := (hrec _ _ _ h).1
    simpa using pass_inv_trans (pass_inv_trans v1 (inc _)) this

theorem shard_index_lt (a : Nat) : (a >>> 8) &&& kShardMask < kNumShards := by
  have : (a >>> 8) &&& kShardMask ≤ kShardMask := Nat.and_le_right
  unfold kShardMask kNumShards at *
  omega

theorem push_list_inv {rec : reclaimer → Int → Option reclaimer}
    (hrec : rec_ok rec) (clock : Nat → Nat) (node : retire_node) (s s' : reclaimer)
    (h : push_list rec clock node s = some s') : pass_inv [node] s s' := by
  unfold push_list at h
  simp only at h
  have h1 := pass_inv_push s _ (shard_index_lt node.address) node
  have h2 : pass_inv [] (retired_list_push s ((node.address >>> 8) &&& kShardMask) node)
      (add_count (retired_list_push s ((node.address >>> 8) &&& kShardMask) node) 1) :=
    pass_inv_of_view ⟨rfl, rfl, rfl, rfl, rfl⟩ rfl rfl
  have h3 := check_threshold_and_reclaim_inv hrec clock _ _ h
  simpa using pass_inv_trans (pass_inv_trans h1 h2) h3

theorem run_deleter_inv {rec : reclaimer → Int → Option reclaimer}
    (hrec : rec_ok rec) (clock : Nat → Nat) (nodes : List retire_node) (s s' : reclaimer)
    (h : run_deleter rec clock nodes s = some s') : pass_inv nodes s s' := by
  induction nodes generalizing s with
  | nil =>
    simp [run_deleter] at h
    subst h
    exact pass_inv_of_view (same_slots_refl _) rfl rfl
  | cons node rest ih =>
    simp only [run_deleter] at h
    split at h
    · cases h
    · rename_i s1 h1
      have := pass_inv_trans (push_list_inv hrec clock node s s1 h1) (ih s1 h)
      simpa using this

/-! ## Destroying and matching keep the guarantee -/


theorem pass_inv_push_list (s : reclaimer) (i : Nat) (hi : i < kNumShards)
    (list : List retire_node) : pass_inv list s (retired_list_push_list s i list) := by
  have hs : same_slots s (retired_list_push_list s i list) := by
    unfold retired_list_push_list
    split <;> exact ⟨rfl, rfl, rfl, rfl, rfl⟩
  have hd : (retired_list_push_list s i list).deleted = s.deleted := by
    unfold retired_list_push_list
    split <;> rfl
  refine ⟨hs, [], by simp [hd], by simp, ?_, ?_⟩
  · intro r hr
    left
    apply (shards_all_push_list s i hi list).symm.subset
    rcases hr with hr | hr
    · exact List.mem_append.mpr (Or.inr hr)
    · exact List.mem_append.mpr (Or.inl hr)
  · simp only [List.nil_append]
    refine (closure_list_perm (shards_all_push_list s i hi list)).trans ?_
    exact closure_list_perm List.perm_append_comm

theorem reclaim_obj_inv {rec : reclaimer → Int → Option reclaimer}
    (hrec : rec_ok rec) (clock : Nat → Nat) (objs : List retire_node) (s s' : reclaimer)
    (hz : ∀ r ∈ objs, r.raw_ptr ∉ load_hazptr_vals s)
    (h : reclaim_obj rec clock objs s = some s') : pass_inv objs s s' := by
  induction objs generalizing s with
  | nil =>
    simp [reclaim_obj] at h
    subst h
    exact pass_inv_of_view (same_slots_refl _) rfl rfl
  | cons obj next ih =>
    simp only [reclaim_obj] at h
    split at h
    · cases h
    · rename_i s1 h1
      obtain ⟨f1, n1, d1, z1, m1, p1⟩ := run_deleter_inv hrec clock _ _ _ h1
      have f1' : same_slots s s1 := f1
      have step : pass_inv [obj] s s1 := by
        refine ⟨f1', n1 ++ [obj], by simp [d1], ?_, ?_, ?_⟩
        · intro r hr
          rcases List.mem_append.mp hr with hr | hr
          · exact z1 r hr
          · simp at hr; subst hr; exact hz r (List.mem_cons_self _ _)
        · intro r hr
          rcases hr with hr | hr
          · rcases m1 r (Or.inl hr) with h | h
            · exact Or.inl h
            · exact Or.inr (List.mem_append.mpr (Or.inl h))
          · simp at hr; subst hr; exact Or.inr (by simp)
        · have e : shards_all { s with deleted := obj :: s.deleted } = shards_all s := rfl
          rw [e, closure_list_append] at p1
          rw [closure_list_append]
          have c1 : closure_list [obj] = obj :: closure_list obj.deleter := by
            simp [closure_list, closure_eq]
          rw [c1]
          have q1 : (n1 ++ [obj] ++ closure_list (shards_all s1)).Perm
              (obj :: (n1 ++ closure_list (shards_all s1))) := by
            rw [List.append_assoc]
            exact (List.perm_append_comm_assoc n1 [obj] _).trans (by simp)
          refine q1.trans ?_
          refine (List.Perm.cons obj p1).trans ?_
          exact (List.perm_middle).symm
      have hz1 : ∀ r ∈ next, r.raw_ptr ∉ load_hazptr_vals s1 := by
        intro r hr
        rw [load_hazptr_vals_congr f1']
        exact hz r (List.mem_cons_of_mem _ hr)
      simpa using pass_inv_trans step (ih s1 hz1 h)

theorem match_reclaim_loop_inv {rec : reclaimer → Int → Option reclaimer}
    (hrec : rec_ok rec) (clock : Nat → Nat) (hash_set : List Nat)
    (retired : List (List retire_node)) (nr nr' : linked_list) (cnt cnt' : Int)
    (done done' : Bool) (s s' : reclaimer)
    (hs : hash_set = load_hazptr_vals s) (hnr : ∀ r ∈ nr.chain, r.raw_ptr ∈ hash_set)
    (h : match_reclaim_loop rec clock hash_set retired nr cnt done s = some (nr', cnt', done', s')) :
    pass_inv (nr.chain ++ retired.flatten) s (retired_list_push_list s' 0 nr'.chain) ∧
    (∀ r ∈ nr'.chain, r.raw_ptr ∈ hash_set) ∧
    (done' = true → done = true) ∧
    (retired ≠ [] → done' = true → retired_list_empty s' = true) := by
  induction retired generalizing nr cnt done s with
  | nil =>
    simp only [match_reclaim_loop, Option.some.injEq, Prod.mk.injEq] at h
    obtain ⟨e1, _, e3, e4⟩ := h
    subst e1 e3 e4
    refine ⟨?_, hnr, fun x => x, fun x => absurd rfl x⟩
    simpa using pass_inv_push_list s 0 (by decide) nr.chain
  | cons rn rest ih =>
    simp only [match_reclaim_loop] at h
    split at h
    · cases h
    · rename_i s1 h1
      rw [list_match_condition_snd] at h1
      simp only [linked_list.init, List.nil_append] at h1
      have hun : ∀ r ∈ rn.filter (fun x => !decide (x.raw_ptr ∈ hash_set)),
          r.raw_ptr ∉ load_hazptr_vals s := by
        intro r hr
        have := (List.mem_filter.mp hr).2
        rw [← hs]
        simpa using this
      have i1 := reclaim_obj_inv hrec clock _ s s1 hun h1
      have hs1 : hash_set = load_hazptr_vals s1 := by
        rw [load_hazptr_vals_congr i1.1]; exact hs
      have hnr1 : ∀ r ∈ (nr.splice (list_match_condition (fun obj => decide (obj.raw_ptr ∈ hash_set)) rn
          linked_list.init linked_list.init).1).chain, r.raw_ptr ∈ hash_set := by
        intro r hr
        rw [splice_chain, list_match_condition_fst] at hr
        simp only [linked_list.init, List.nil_append] at hr
        rcases List.mem_append.mp hr with hr | hr
        · exact hnr r hr
        · simpa using (List.mem_filter.mp hr).2
      obtain ⟨j1, j2, j3, j4⟩ := ih _ _ _ s1 hs1 hnr1 h
      refine ⟨?_, j2, ?_, ?_⟩
      · have t := pass_inv_trans i1 j1
        refine pass_inv_perm ?_ t
        rw [splice_chain, list_match_condition_fst]
        simp only [linked_list.init, List.nil_append, List.flatten_cons]
        -- n ++ (nr ++ m ++ rest) ~ nr ++ (rn ++ rest)
        have pf : (rn.filter (fun x => decide (x.raw_ptr ∈ hash_set)) ++
            rn.filter (fun x => !decide (x.raw_ptr ∈ hash_set))).Perm rn :=
          List.filter_append_perm _ rn
        have a1 : (List.filter (fun x => !decide (x.raw_ptr ∈ hash_set)) rn ++
            (nr.chain ++ List.filter (fun x => decide (x.raw_ptr ∈ hash_set)) rn ++ rest.flatten)).Perm
            (nr.chain ++ (List.filter (fun x => decide (x.raw_ptr ∈ hash_set)) rn ++
              List.filter (fun x => !decide (x.raw_ptr ∈ hash_set)) rn) ++ rest.flatten) := by
          rw [List.append_assoc, List.append_assoc, List.append_assoc]
          refine (List.perm_append_comm_assoc _ _ _).trans ?_
          refine List.Perm.append_left _ ?_
          refine (List.perm_append_comm_assoc _ _ _).trans ?_
          exact List.Perm.refl _
        refine a1.trans ?_
        rw [List.append_assoc]
        exact List.Perm.append_left _ (List.Perm.append_right _ pf)
      · intro hd
        have := j3 hd
        by_cases he : retired_list_empty s1 = true
        · simpa [he] using this
        · simp [he] at this
      · intro _ hd
        have hd1 := j3 hd
        have he : retired_list_empty s1 = true := by
          by_cases he : retired_list_empty s1 = true
          · exact he
          · simp [he] at hd1
        cases rest with
        | nil =>
          simp only [match_reclaim_loop, Option.some.injEq, Prod.mk.injEq] at h
          obtain ⟨_, _, _, e4⟩ := h
          rw [← e4]; exact he
        | cons x xs => exact j4 (by simp) hd

/-! ## A pass keeps the guarantee and ends in the final shape -/


theorem retired_list_empty_iff (s : reclaimer) :
    retired_list_empty s = true ↔ ∀ i, i < kNumShards → s.retired_list_ i = [] := by
  unfold retired_list_empty
  simp [List.all_eq_true, List.isEmpty_iff]

theorem match_reclaim_inv {rec : reclaimer → Int → Option reclaimer}
    (hrec : rec_ok rec) (clock : Nat → Nat) (retired : List (List retire_node))
    (hash_set : List Nat) (s s' : reclaimer) (count : Int) (done : Bool)
    (hs : hash_set = load_hazptr_vals s)
    (h : match_reclaim rec clock retired hash_set s = some (count, done, s')) :
    pass_inv retired.flatten s s' ∧
    (retired ≠ [] → done = true →
      (∀ i, 0 < i → i < kNumShards → s'.retired_list_ i = []) ∧
      (∀ r ∈ s'.retired_list_ 0, r.raw_ptr ∈ hash_set)) := by
  unfold match_reclaim at h
  split at h
  · cases h
  · rename_i nr' cnt' done' s1 h1
    simp only [Option.some.injEq, Prod.mk.injEq] at h
    obtain ⟨_, e2, e3⟩ := h
    subst e2 e3
    obtain ⟨j1, j2, _, j4⟩ := match_reclaim_loop_inv hrec clock hash_set retired linked_list.init nr'
      0 cnt' true done' s s1 hs (by simp [linked_list.init]) h1
    refine ⟨by simpa [linked_list.init] using j1, ?_⟩
    intro hne hd
    have he := (retired_list_empty_iff s1).mp (j4 hne hd)
    unfold retired_list_push_list
    by_cases hemp : nr'.chain.isEmpty
    · simp only [hemp, if_true]
      refine ⟨fun i _ hi => he i hi, ?_⟩
      intro r hr
      rw [he 0 (by decide)] at hr
      simp at hr
    · simp only [hemp]
      refine ⟨?_, ?_⟩
      · intro i h0 hi
        have : ¬ i = 0 := by omega
        simp [this, he i hi]
      · intro r hr
        simp [he 0 (by decide)] at hr
        exact j2 r hr

theorem check_count_threshold_zero (s : reclaimer) (h : (check_count_threshold s).1 = 0) :
    (check_count_threshold s).2.count_ < kReclaimThreshold := by
  unfold check_count_threshold at *
  by_cases hc : s.count_ ≥ kReclaimThreshold
  · simp only [hc, if_true] at h
    unfold kReclaimThreshold at hc
    omega
  · simp only [hc, if_false]
    omega

theorem extract_flatten (s : reclaimer) :
    (extract_retired_objects s).1.flatten = shards_all s := by
  unfold extract_retired_objects shards_all
  simp [List.flatMap]

theorem extract_shards (s : reclaimer) (i : Nat) (hi : i < kNumShards) :
    (extract_retired_objects s).2.1.retired_list_ i = [] := by
  unfold extract_retired_objects
  simp [hi]

theorem shards_all_nil {s : reclaimer} (h : ∀ i, i < kNumShards → s.retired_list_ i = []) :
    shards_all s = [] := by
  unfold shards_all
  rw [List.flatMap_eq_nil_iff]
  intro i hi
  exact h i (List.mem_range.mp hi)

theorem mem_shards_all {s : reclaimer} {r : retire_node} :
    r ∈ shards_all s ↔ ∃ i, i < kNumShards ∧ r ∈ s.retired_list_ i := by
  unfold shards_all
  simp [List.mem_flatMap]

theorem extract_nonempty_false (s : reclaimer) (h : (extract_retired_objects s).2.2 = false) :
    shards_all s = [] := by
  apply shards_all_nil
  intro i hi
  unfold extract_retired_objects at h
  simp only [List.any_eq_false, List.mem_map, List.mem_range] at h
  have := h (s.retired_list_ i) ⟨i, hi, rfl⟩
  simpa [List.isEmpty_iff] using this

theorem extract_inv {s s2 : reclaimer}
    (h : pass_inv (shards_all s) (extract_retired_objects s).2.1 s2) : pass_inv [] s s2 := by
  obtain ⟨f1, n1, d1, z1, m1, p1⟩ := h
  have e0 : shards_all (extract_retired_objects s).2.1 = [] :=
    shards_all_nil (fun i hi => extract_shards s i hi)
  refine ⟨f1, n1, d1, z1, ?_, ?_⟩
  · intro r hr
    rcases hr with hr | hr
    · exact m1 r (Or.inr hr)
    · simp at hr
  · rw [e0] at p1
    simpa using p1

theorem pass_inv_dec (t : reclaimer) : pass_inv [] t (dec_num_bulk_reclaims t) := by
  have h1 : same_slots t (dec_num_bulk_reclaims t) := by
    simp [same_slots, dec_num_bulk_reclaims]
  have h2 : (dec_num_bulk_reclaims t).retired_list_ = t.retired_list_ := by
    simp [dec_num_bulk_reclaims]
  have h3 : (dec_num_bulk_reclaims t).deleted = t.deleted := by
    simp [dec_num_bulk_reclaims]
  exact pass_inv_of_view h1 (shards_all_congr h2) h3

theorem pass_inv_inc (t : reclaimer) : pass_inv [] t (inc_num_bulk_reclaims t) :=
  pass_inv_of_view ⟨rfl, rfl, rfl, rfl, rfl⟩ rfl rfl

theorem pass_inv_add_count (t : reclaimer) (rc : Int) :
    pass_inv [] t (if rc ≠ 0 then add_count t rc else t) := by
  split <;> exact pass_inv_of_view ⟨rfl, rfl, rfl, rfl, rfl⟩ rfl rfl

theorem add_count_shards (t : reclaimer) (rc : Int) :
    (if rc ≠ 0 then add_count t rc else t).retired_list_ = t.retired_list_ := by
  split <;> rfl

theorem pass_inv_trans0 {a b c : reclaimer}
    (h1 : pass_inv [] a b) (h2 : pass_inv [] b c) : pass_inv [] a c :=
  pass_inv_trans h1 h2

theorem do_reclamation_exit {rec : reclaimer → Int → Option reclaimer}
    (hrec : rec_ok rec) (s s3 s' : reclaimer) (done : Bool)
    (i3 : pass_inv [] s s3)
    (fin : done = true → (∀ i, 0 < i → i < kNumShards → s3.retired_list_ i = []) ∧
        (∀ r ∈ s3.retired_list_ 0, r.raw_ptr ∈ load_hazptr_vals s))
    (hh : (if (check_count_threshold s3).1 = 0 ∧ done = true then
         some (dec_num_bulk_reclaims (check_count_threshold s3).2)
       else rec (check_count_threshold s3).2 (check_count_threshold s3).1) = some s') :
    pass_inv [] s s' ∧ pass_final s s' := by
  obtain ⟨a1, a2, a3⟩ := check_count_threshold_view s3
  have v4 := pass_inv_of_view a1 (shards_all_congr a2) a3
  have i4 : pass_inv [] s (check_count_threshold s3).2 := by
    simpa using pass_inv_trans i3 v4
  by_cases hc : (check_count_threshold s3).1 = 0 ∧ done = true
  · rw [if_pos hc] at hh
    cases hh
    have v5 := pass_inv_dec (check_count_threshold s3).2
    refine ⟨by simpa using pass_inv_trans i4 v5, ?_⟩
    obtain ⟨f1, f2⟩ := fin hc.2
    have er : (dec_num_bulk_reclaims (check_count_threshold s3).2).retired_list_
        = s3.retired_list_ := by
      rw [← a2]
      simp [dec_num_bulk_reclaims]
    refine ⟨?_, ?_, ?_⟩
    · intro i h0 hi; rw [er]; exact f1 i h0 hi
    · intro r hr; rw [er] at hr; exact f2 r hr
    · have := check_count_threshold_zero _ hc.1
      simpa [dec_num_bulk_reclaims] using this
  · rw [if_neg hc] at hh
    obtain ⟨k1, k2, k3, k4⟩ := hrec _ _ _ hh
    refine ⟨by simpa using pass_inv_trans i4 k1, k2, ?_, k4⟩
    intro r hr
    rw [← load_hazptr_vals_congr i4.1]
    exact k3 r hr

theorem do_reclamation_iter_ok {rec : reclaimer → Int → Option reclaimer}
    (hrec : rec_ok rec) (clock : Nat → Nat) : rec_ok (do_reclamation_iter rec clock) := by
  intro s rc s' h
  unfold do_reclamation_iter at h
  simp only at h
  have hs1 : same_slots s (extract_retired_objects s).2.1 := ⟨rfl, rfl, rfl, rfl, rfl⟩
  by_cases hne : (extract_retired_objects s).2.2 = true
  · simp only [hne, if_true] at h
    split at h
    · cases h
    · rename_i r rc1 done s2 hr
      split at hr
      · cases hr
      · rename_i cnt done2 s2' hm
        simp only [Option.some.injEq, Prod.mk.injEq] at hr
        obtain ⟨e1, e2, e3⟩ := hr
        subst e1 e2 e3
        obtain ⟨m1, m2⟩ := match_reclaim_inv hrec clock _ _ _ _ _ _ rfl hm
        rw [extract_flatten] at m1
        have hnonempty : (extract_retired_objects s).1 ≠ [] := by
          intro hnil
          have := congrArg List.length hnil
          simp [extract_retired_objects, kNumShards] at this
        have i2 := extract_inv m1
        have v3 := pass_inv_add_count s2' (rc - cnt)
        have e3 := add_count_shards s2' (rc - cnt)
        refine do_reclamation_exit hrec s _ s' done2 (pass_inv_trans0 i2 v3) ?_ h
        intro hd
        have := m2 hnonempty hd
        rw [load_hazptr_vals_congr hs1] at this
        rw [e3]
        exact this
  · have hfalse : (extract_retired_objects s).2.2 = false := by
      simpa using hne
    rw [hfalse] at h
    have e0 := extract_nonempty_false s hfalse
    have i1 : pass_inv [] s (extract_retired_objects s).2.1 := by
      apply pass_inv_of_view hs1 _ rfl
      rw [e0]
      exact shards_all_nil (fun i hi => extract_shards s i hi)
    have v3 := pass_inv_add_count (extract_retired_objects s).2.1 rc
    have e3 := add_count_shards (extract_retired_objects s).2.1 rc
    refine do_reclamation_exit hrec s
      (if rc ≠ 0 then add_count (extract_retired_objects s).2.1 rc
        else (extract_retired_objects s).2.1) s' true (pass_inv_trans0 i1 v3) ?_ h
    intro _
    rw [e3]
    refine ⟨fun i _ hi => extract_shards s i hi, ?_⟩
    intro r hr
    rw [extract_shards s 0 (by decide)] at hr
    simp at hr

theorem do_reclamation_ok (clock : Nat → Nat) (fuel : Nat) :
    rec_ok (do_reclamation clock fuel) := by
  induction fuel with
  | zero => intro s rc s' h; simp [do_reclamation] at h
  | succ n ih => exact do_reclamation_iter_ok ih clock

theorem reclaim_ok (clock : Nat → Nat) (fuel : Nat) (s s' : reclaimer)
    (h : reclaim clock fuel s = some s') :
    pass_inv [] s s' ∧ pass_final s s' ∧ s'.num_bulk_reclaims_ = 0 := by
  unfold reclaim at h
  split at h
  · cases h
  · rename_i s1 h1
    split at h
    · cases h
    · rename_i hb
      cases h
      obtain ⟨k1, k2⟩ := do_reclamation_ok clock fuel _ _ _ h1
      have v := pass_inv_inc s
      exact ⟨by simpa using pass_inv_trans v k1, k2, by omega⟩

/-! ## A pass over records whose deleters retire nothing -/


theorem reclaim_obj_plain (rec : reclaimer → Int → Option reclaimer) (clock : Nat → Nat)
    (objs : List retire_node) (s : reclaimer) (hd : ∀ r ∈ objs, r.deleter = []) :
    reclaim_obj rec clock objs s = some { s with deleted := objs.reverse ++ s.deleted } := by
  induction objs generalizing s with
  | nil => simp [reclaim_obj]
  | cons obj next ih =>
    have h1 : obj.deleter = [] := hd obj (List.mem_cons_self _ _)
    simp only [reclaim_obj, h1, run_deleter]
    rw [ih _ (fun r hr => hd r (List.mem_cons_of_mem _ hr))]
    simp

theorem match_reclaim_loop_plain (rec : reclaimer → Int → Option reclaimer) (clock : Nat → Nat)
    (hash_set : List Nat) (retired : List (List retire_node)) (nr : linked_list) (cnt : Int)
    (done : Bool) (s : reclaimer)
    (hd : ∀ l ∈ retired, ∀ r ∈ l, r.raw_ptr ∉ hash_set → r.deleter = [])
    (he : retired_list_empty s = true) :
    ∃ nr', match_reclaim_loop rec clock hash_set retired nr cnt done s =
        some (nr', cnt + ((retired.flatten.filter (fun x => !decide (x.raw_ptr ∈ hash_set))).length : Int),
          done,
          { s with deleted :=
              (retired.flatten.filter (fun x => !decide (x.raw_ptr ∈ hash_set))).reverse ++ s.deleted }) ∧
      nr'.chain = nr.chain ++ retired.flatten.filter (fun x => decide (x.raw_ptr ∈ hash_set)) := by
  induction retired generalizing nr cnt s with
  | nil => exact ⟨nr, by simp [match_reclaim_loop], by simp⟩
  | cons rn rest ih =>
    simp only [match_reclaim_loop]
    rw [list_match_condition_snd, list_match_condition_size]
    simp only [linked_list.init, List.nil_append, zero_add]
    have hd1 : ∀ r ∈ rn.filter (fun x => !decide (x.raw_ptr ∈ hash_set)), r.deleter = [] := by
      intro r hr
      obtain ⟨m1, m2⟩ := List.mem_filter.mp hr
      exact hd rn (List.mem_cons_self _ _) r m1 (by simpa using m2)
    rw [reclaim_obj_plain rec clock _ s hd1]
    simp only
    have he1 : retired_list_empty { s with deleted :=
        (rn.filter (fun x => !decide (x.raw_ptr ∈ hash_set))).reverse ++ s.deleted } = true := he
    rw [he1]
    simp only [if_true]
    obtain ⟨nr', e1, e2⟩ := ih (nr.splice (list_match_condition
        (fun obj => decide (obj.raw_ptr ∈ hash_set)) rn { chain := [], size_ := 0 }
        { chain := [], size_ := 0 }).1)
      (cnt + ((rn.filter (fun x => !decide (x.raw_ptr ∈ hash_set))).length : Int))
      { s with deleted := (rn.filter (fun x => !decide (x.raw_ptr ∈ hash_set))).reverse ++ s.deleted }
      (fun l hl => hd l (List.mem_cons_of_mem _ hl)) he1
    refine ⟨nr', ?_, ?_⟩
    · rw [e1]
      simp [add_assoc]
    · rw [e2, splice_chain, list_match_condition_fst]
      simp


theorem iter_tail_plain (rec : reclaimer → Int → Option reclaimer) (s2 : reclaimer) (rc1 : Int)
    (P : Prop) [Decidable P] (hp : P)
    (h : s2.count_ + rc1 < kReclaimThreshold) :
    (if (check_count_threshold (if rc1 ≠ 0 then add_count s2 rc1 else s2)).1 = 0 ∧ P then
        some (dec_num_bulk_reclaims (check_count_threshold (if rc1 ≠ 0 then add_count s2 rc1 else s2)).2)
      else rec (check_count_threshold (if rc1 ≠ 0 then add_count s2 rc1 else s2)).2
        (check_count_threshold (if rc1 ≠ 0 then add_count s2 rc1 else s2)).1)
      = some (dec_num_bulk_reclaims { s2 with count_ := s2.count_ + rc1 }) := by
  have e3 : (if rc1 ≠ 0 then add_count s2 rc1 else s2) = { s2 with count_ := s2.count_ + rc1 } := by
    by_cases h0 : rc1 = 0
    · simp [h0]
    · simp [h0, add_count]
  rw [e3]
  have e4 : check_count_threshold { s2 with count_ := s2.count_ + rc1 }
      = (0, { s2 with count_ := s2.count_ + rc1 }) := by
    unfold check_count_threshold
    have : ¬ (s2.count_ + rc1 ≥ kReclaimThreshold) := by omega
    simp only [this, if_false]
  rw [e4]
  simp [hp]

theorem do_reclamation_iter_plain (rec : reclaimer → Int → Option reclaimer) (clock : Nat → Nat)
    (s : reclaimer) (rc : Int)
    (hd : ∀ r ∈ unprotected_records s, r.deleter = [])
    (hc : s.count_ + rc - ((unprotected_records s).length : Int) < kReclaimThreshold) :
    ∃ s', do_reclamation_iter rec clock s rc = some s' ∧ same_slots s s' ∧
      s'.count_ = s.count_ + rc - ((unprotected_records s).length : Int) ∧
      s'.due_time_ = s.due_time_ ∧ s'.clock_reads = s.clock_reads ∧
      s'.num_bulk_reclaims_ = (dec_num_bulk_reclaims s).num_bulk_reclaims_ ∧
      s'.deleted = (unprotected_records s).reverse ++ s.deleted ∧
      ∀ i, s'.retired_list_ i =
        if i = 0 then protected_records s else if i < kNumShards then [] else s.retired_list_ i := by
  have hz1 : load_hazptr_vals (extract_retired_objects s).2.1 = load_hazptr_vals s := rfl
  unfold do_reclamation_iter
  simp only
  by_cases hne : (extract_retired_objects s).2.2 = true
  · simp only [hne, if_true]
    unfold match_reclaim
    have he : retired_list_empty (extract_retired_objects s).2.1 = true :=
      (retired_list_empty_iff _).mpr (fun i hi => extract_shards s i hi)
    have hd' : ∀ l ∈ (extract_retired_objects s).1, ∀ r ∈ l,
        r.raw_ptr ∉ load_hazptr_vals s → r.deleter = [] := by
      intro l hl r hr hz
      apply hd
      unfold unprotected_records
      rw [← extract_flatten]
      exact List.mem_filter.mpr ⟨List.mem_flatten.mpr ⟨l, hl, hr⟩, by simpa using hz⟩
    obtain ⟨nr', e1, e2⟩ := match_reclaim_loop_plain rec clock (load_hazptr_vals s)
      (extract_retired_objects s).1 linked_list.init 0 true (extract_retired_objects s).2.1 hd' he
    rw [hz1, e1]
    simp only
    rw [extract_flatten] at e2 ⊢
    have hU : List.filter (fun x => !decide (x.raw_ptr ∈ load_hazptr_vals s)) (shards_all s)
        = unprotected_records s := rfl
    have hM : List.filter (fun x => decide (x.raw_ptr ∈ load_hazptr_vals s)) (shards_all s)
        = protected_records s := rfl
    rw [hU] at *
    rw [hM] at e2
    simp only [linked_list.init, List.nil_append] at e2
    rw [iter_tail_plain _ _ _ _ trivial]
    · refine ⟨_, rfl, ?_, ?_, ?_, ?_, ?_, ?_, ?_⟩
      · unfold retired_list_push_list
        split <;> simp [same_slots, dec_num_bulk_reclaims, extract_retired_objects]
      · unfold retired_list_push_list
        split <;> simp [dec_num_bulk_reclaims, extract_retired_objects] <;> ring
      · unfold retired_list_push_list
        split <;> simp [dec_num_bulk_reclaims, extract_retired_objects]
      · unfold retired_list_push_list
        split <;> simp [dec_num_bulk_reclaims, extract_retired_objects]
      · unfold retired_list_push_list
        split <;> simp [dec_num_bulk_reclaims, extract_retired_objects]
      · unfold retired_list_push_list
        split <;> simp [dec_num_bulk_reclaims, extract_retired_objects]
      · intro i
        unfold retired_list_push_list
        rw [e2]
        by_cases hemp : (protected_records s).isEmpty
        · simp only [hemp, if_true]
          simp only [dec_num_bulk_reclaims, extract_retired_objects]
          by_cases hi0 : i = 0
          · simp [hi0, kNumShards, List.isEmpty_iff.mp hemp]
          · simp [hi0]
        · simp only [hemp]
          simp only [dec_num_bulk_reclaims, extract_retired_objects]
          by_cases hi0 : i = 0
          · simp [hi0, kNumShards]
          · simp [hi0]
    · have : (retired_list_push_list
          { (extract_retired_objects s).2.1 with
            deleted := (unprotected_records s).reverse ++ (extract_retired_objects s).2.1.deleted }
          0 nr'.chain).count_ = s.count_ := by
        unfold retired_list_push_list
        split <;> simp [extract_retired_objects]
      rw [this]
      omega
  · have hfalse : (extract_retired_objects s).2.2 = false := by simpa using hne
    have e0 := extract_nonempty_false s hfalse
    have hU : unprotected_records s = [] := by simp [unprotected_records, e0]
    have hM : protected_records s = [] := by simp [protected_records, e0]
    rw [hfalse]
    simp only [Bool.false_eq_true, if_false]
    have hc' : (extract_retired_objects s).2.1.count_ + rc < kReclaimThreshold := by
      have : (extract_retired_objects s).2.1.count_ = s.count_ := rfl
      rw [this]
      simp [hU] at hc
      exact hc
    rw [iter_tail_plain _ _ _ _ trivial hc']
    refine ⟨_, rfl, ?_, ?_, ?_, ?_, ?_, ?_, ?_⟩
    · simp [same_slots, dec_num_bulk_reclaims, extract_retired_objects]
    · simp [dec_num_bulk_reclaims, extract_retired_objects, hU]
    · simp [dec_num_bulk_reclaims, extract_retired_objects]
    · simp [dec_num_bulk_reclaims, extract_retired_objects]
    · simp [dec_num_bulk_reclaims, extract_retired_objects]
    · simp [dec_num_bulk_reclaims, extract_retired_objects, hU]
    · intro i
      simp only [dec_num_bulk_reclaims, extract_retired_objects, hM]
      by_cases hi0 : i = 0
      · simp [hi0, kNumShards]
      · simp [hi0]

/-! ## The hazard snapshot, and when a plain pass returns -/


theorem load_hazptr_vals_foldl (hp : Nat → Nat) (l acc : List Nat) (p : Nat) :
    p ∈ l.foldl (fun protected_ptrs head =>
        if hp head = NOUSE ∨ hp head = INUSE then protected_ptrs else hp head :: protected_ptrs) acc
      ↔ p ∈ acc ∨ ∃ a ∈ l, hp a = p ∧ p ≠ NOUSE ∧ p ≠ INUSE := by
  induction l generalizing acc with
  | nil => simp
  | cons x xs ih =>
    simp only [List.foldl_cons]
    rw [ih]
    by_cases hx : hp x = NOUSE ∨ hp x = INUSE
    · simp only [hx, if_true]
      constructor
      · rintro (h | ⟨a, ha, h1, h2, h3⟩)
        · exact Or.inl h
        · exact Or.inr ⟨a, List.mem_cons_of_mem _ ha, h1, h2, h3⟩
      · rintro (h | ⟨a, ha, h1, h2, h3⟩)
        · exact Or.inl h
        · rcases List.mem_cons.mp ha with e | ha
          · subst e
            rw [h1] at hx
            rcases hx with hx | hx
            · exact absurd hx h2
            · exact absurd hx h3
          · exact Or.inr ⟨a, ha, h1, h2, h3⟩
    · simp only [hx, if_false]
      constructor
      · rintro (h | ⟨a, ha, h1, h2, h3⟩)
        · rcases List.mem_cons.mp h with e | h
          · right
            refine ⟨x, List.mem_cons_self _ _, e.symm, ?_, ?_⟩
            · intro h2; apply hx; left; rw [← e]; exact h2
            · intro h2; apply hx; right; rw [← e]; exact h2
          · exact Or.inl h
        · exact Or.inr ⟨a, List.mem_cons_of_mem _ ha, h1, h2, h3⟩
      · rintro (h | ⟨a, ha, h1, h2, h3⟩)
        · exact Or.inl (List.mem_cons_of_mem _ h)
        · rcases List.mem_cons.mp ha with e | ha
          · subst e
            exact Or.inl (by rw [h1]; exact List.mem_cons_self _ _)
          · exact Or.inr ⟨a, ha, h1, h2, h3⟩

theorem mem_load_hazptr_vals (s : reclaimer) (p : Nat) :
    p ∈ load_hazptr_vals s ↔
      ∃ a ∈ s.holder_list_, s.holder_ptr a = p ∧ p ≠ NOUSE ∧ p ≠ INUSE := by
  unfold load_hazptr_vals
  rw [load_hazptr_vals_foldl]
  simp

theorem do_reclamation_succ (clock : Nat → Nat) (n : Nat) :
    do_reclamation clock (n + 1) = do_reclamation_iter (do_reclamation clock n) clock := rfl

theorem reclaim_returns_plain (clock : Nat → Nat) (s : reclaimer)
    (hb : s.num_bulk_reclaims_ = 0) (hc : s.count_ < kReclaimThreshold)
    (hd : ∀ r ∈ unprotected_records s, r.deleter = []) :
    ∃ s', reclaim clock 1 s = some s' := by
  have hU : unprotected_records (inc_num_bulk_reclaims s) = unprotected_records s := rfl
  have hcnt : (inc_num_bulk_reclaims s).count_ = s.count_ := rfl
  obtain ⟨s', e, _, _, _, _, hn, _⟩ :=
    do_reclamation_iter_plain (do_reclamation clock 0) clock (inc_num_bulk_reclaims s) 0
      (by rw [hU]; exact hd)
      (by
        rw [hU, hcnt]
        have : (0 : Int) ≤ ((unprotected_records s).length : Int) := Int.natCast_nonneg _
        omega)
  refine ⟨s', ?_⟩
  unfold reclaim
  rw [show (1 : Nat) = 0 + 1 from rfl, do_reclamation_succ, e]
  have : s'.num_bulk_reclaims_ = 0 := by
    rw [hn]
    simp [inc_num_bulk_reclaims, dec_num_bulk_reclaims, hb]
  simp [this]

/-! ## Retiring plain records into a domain without hazards -/


theorem retire_all_eq_run_deleter (clock : Nat → Nat) (fuel : Nat) (rs : List retire_node)
    (s : reclaimer) :
    retire_all clock fuel rs s = run_deleter (do_reclamation clock fuel) clock rs s := by
  induction rs generalizing s with
  | nil => rfl
  | cons x xs ih =>
    simp only [retire_all, run_deleter, retire]
    split
    · rfl
    · exact ih _

theorem retire_all_inv (clock : Nat → Nat) (fuel : Nat) (rs : List retire_node)
    (s s' : reclaimer) (h : retire_all clock fuel rs s = some s') : pass_inv rs s s' := by
  rw [retire_all_eq_run_deleter] at h
  exact run_deleter_inv (do_reclamation_ok clock fuel) clock rs s s' h

theorem unprotected_all {s : reclaimer} (hz : load_hazptr_vals s = []) :
    unprotected_records s = shards_all s := by
  unfold unprotected_records
  rw [hz]
  simp

theorem protected_none {s : reclaimer} (hz : load_hazptr_vals s = []) :
    protected_records s = [] := by
  unfold protected_records
  rw [hz]
  simp

/-- A pass over a domain without hazards whose records have plain deleters:
one iteration destroys everything that is held. -/
theorem full_pass_plain (rec : reclaimer → Int → Option reclaimer) (clock : Nat → Nat)
    (t : reclaimer) (rc : Int) (hz : load_hazptr_vals t = [])
    (hd : ∀ r ∈ shards_all t, r.deleter = [])
    (hc : t.count_ + rc = ((shards_all t).length : Int)) :
    ∃ t', do_reclamation_iter rec clock t rc = some t' ∧ same_slots t t' ∧
      t'.count_ = 0 ∧ shards_all t' = [] ∧
      t'.num_bulk_reclaims_ = (dec_num_bulk_reclaims t).num_bulk_reclaims_ ∧
      t'.deleted = (shards_all t).reverse ++ t.deleted := by
  have hU := unprotected_all hz
  obtain ⟨t', e, f, c, _, _, n, d, r⟩ := do_reclamation_iter_plain rec clock t rc
    (by rw [hU]; exact hd)
    (by rw [hU, hc]; simp [kReclaimThreshold])
  refine ⟨t', e, f, ?_, ?_, n, ?_⟩
  · rw [c, hU, hc]; simp
  · apply shards_all_nil
    intro i hi
    rw [r i, protected_none hz]
    simp [hi]
  · rw [d, hU]

theorem retire_plain (clock : Nat → Nat) (node : retire_node) (s : reclaimer)
    (hq : plain_quiescent s) (hn : node.deleter = []) :
    ∃ s', retire clock 1 node s = some s' ∧ plain_quiescent s' ∧
      s'.deleted.length + (shards_all s').length
        = s.deleted.length + (shards_all s).length + 1 := by
  obtain ⟨hz, hb, hcnt, hlt, hpl⟩ := hq
  -- the state after the push and the increment of the count
  have hperm := shards_all_push s _ (shard_index_lt node.address) node
  generalize hs2 : add_count (retired_list_push s ((node.address >>> 8) &&& kShardMask) node) 1 = s2
  have z2 : load_hazptr_vals s2 = [] := by rw [← hs2]; exact hz
  have b2 : s2.num_bulk_reclaims_ = 0 := by rw [← hs2]; exact hb
  have p2 : (shards_all s2).Perm (node :: shards_all s) := by rw [← hs2]; exact hperm
  have c2 : s2.count_ = ((shards_all s2).length : Int) := by
    rw [p2.length_eq, ← hs2]
    simp [add_count, retired_list_push, hcnt]
  have d2 : s2.deleted = s.deleted := by rw [← hs2]; rfl
  have pl2 : ∀ r ∈ shards_all s2, r.deleter = [] := by
    intro r hr
    rcases List.mem_cons.mp (p2.subset hr) with e | hr
    · rw [e]; exact hn
    · exact hpl r hr
  have l2 : (shards_all s2).length = (shards_all s).length + 1 := by
    rw [p2.length_eq]; simp
  have hret : retire clock 1 node s = check_threshold_and_reclaim (do_reclamation clock 1) clock s2 := by
    unfold retire push_list
    simp only
    rw [hs2]
  rw [hret]
  -- a pass started from a state with the same shards as `s2` and count 0
  have pass : ∀ t : reclaimer, same_slots s2 t → t.retired_list_ = s2.retired_list_ →
      t.deleted = s2.deleted → t.count_ = 0 → t.num_bulk_reclaims_ = 0 →
      ∃ s', do_reclamation clock 1 (inc_num_bulk_reclaims t) s2.count_ = some s' ∧
        plain_quiescent s' ∧
        s'.deleted.length + (shards_all s').length
          = s.deleted.length + (shards_all s).length + 1 := by
    intro t ft rt dt ct bt
    have st : shards_all (inc_num_bulk_reclaims t) = shards_all s2 := shards_all_congr rt
    have zt : load_hazptr_vals (inc_num_bulk_reclaims t) = [] := by
      have : load_hazptr_vals (inc_num_bulk_reclaims t) = load_hazptr_vals t := rfl
      rw [this, load_hazptr_vals_congr ft]; exact z2
    obtain ⟨t', e, f, c0, sh, nb, dl⟩ := full_pass_plain (do_reclamation clock 0) clock
      (inc_num_bulk_reclaims t) s2.count_ zt (by rw [st]; exact pl2)
      (by
        have : (inc_num_bulk_reclaims t).count_ = t.count_ := rfl
        rw [this, ct, st, c2]; simp)
    refine ⟨t', ?_, ⟨?_, ?_, ?_, ?_, ?_⟩, ?_⟩
    · rw [show (1 : Nat) = 0 + 1 from rfl, do_reclamation_succ]; exact e
    · rw [load_hazptr_vals_congr f]; exact zt
    · rw [nb]; simp [dec_num_bulk_reclaims, inc_num_bulk_reclaims, bt]
    · rw [c0, sh]; simp
    · rw [c0]; decide
    · rw [sh]; simp
    · rw [dl, sh, st]
      have : (inc_num_bulk_reclaims t).deleted = t.deleted := rfl
      rw [this, dt, d2]
      simp [l2]
      omega
  unfold check_threshold_and_reclaim
  simp only
  by_cases hge : s2.count_ ≥ kReclaimThreshold
  · have e1 : check_count_threshold s2 = (s2.count_, { s2 with count_ := 0 }) := by
      unfold check_count_threshold; simp only [hge, if_true]
    rw [e1]
    have hne : ¬ s2.count_ = 0 := by unfold kReclaimThreshold at hge; omega
    simp only [hne, if_false]
    exact pass { s2 with count_ := 0 } ⟨rfl, rfl, rfl, rfl, rfl⟩ rfl rfl rfl b2
  · have e1 : check_count_threshold s2 = (0, s2) := by
      unfold check_count_threshold; simp only [hge, if_false]
    rw [e1]
    simp only [if_true]
    unfold check_due_time
    simp only
    by_cases hdue : clock s2.clock_reads < s2.due_time_
    · simp only [hdue, if_true]
      refine ⟨_, rfl, ⟨z2, b2, c2, ?_, pl2⟩, ?_⟩
      · show s2.count_ < kReclaimThreshold
        omega
      show s2.deleted.length + (shards_all s2).length = _
      rw [d2, l2]; omega
    · simp only [hdue, if_false]
      have hpos : ¬ s2.count_ < 0 := by rw [c2]; omega
      have hne : ¬ s2.count_ = 0 := by rw [c2, l2]; push_cast; omega
      simp only [hpos, if_false, hne]
      exact pass _ ⟨rfl, rfl, rfl, rfl, rfl⟩ rfl rfl rfl b2

/-! ## The accounting of the retired-count -/


theorem closure_list_length (l : List retire_node) :
    (closure_list l).length = l.length + pending_list l := by
  induction l with
  | nil => simp [closure_list, pending_list]
  | cons x xs ih =>
    simp only [closure_list, List.length_append, closure_eq, List.length_cons, ih, pending_list,
      List.map_cons, List.sum_cons]
    omega

theorem pending_list_append (a b : List retire_node) :
    pending_list (a ++ b) = pending_list a + pending_list b := by
  simp [pending_list]

theorem pass_count_refl (s : reclaimer) : pass_count 0 0 s s :=
  ⟨by simp, by simp, fun _ => rfl⟩

theorem pass_count_trans {d1 d2 : Int} {k1 k2 : Nat} {a b c : reclaimer}
    (h1 : pass_count d1 k1 a b) (h2 : pass_count d2 k2 b c) :
    pass_count (d1 + d2) (k1 + k2) a c := by
  obtain ⟨a1, a2, a3⟩ := h1
  obtain ⟨b1, b2, b3⟩ := h2
  refine ⟨by rw [b1, a1]; ring, by omega, ?_⟩
  intro hv
  have := a3 hv
  rw [b3 (by omega), this]

theorem pass_count_of_view {s s' : reclaimer} (d : Int)
    (h1 : s'.count_ = s.count_ + d) (h2 : shards_all s' = shards_all s)
    (h3 : s'.deleted = s.deleted) (h4 : s'.num_bulk_reclaims_ = s.num_bulk_reclaims_) :
    pass_count d 0 s s' := by
  refine ⟨?_, by simp [h3], fun _ => h4⟩
  unfold excess
  rw [h1, h2]
  ring

theorem excess_check_count_threshold (s : reclaimer) :
    pass_count (-(check_count_threshold s).1) 0 s (check_count_threshold s).2 := by
  unfold check_count_threshold
  split
  · exact pass_count_of_view _ (by simp) rfl rfl rfl
  · exact pass_count_of_view _ (by simp) rfl rfl rfl

theorem excess_check_due_time (clock : Nat → Nat) (s : reclaimer) :
    pass_count (-(check_due_time clock s).1) 0 s (check_due_time clock s).2 := by
  unfold check_due_time
  simp only
  split
  · exact pass_count_of_view _ (by simp) rfl rfl rfl
  · split
    · exact pass_count_of_view _ (by simp [add_count]) rfl rfl rfl
    · exact pass_count_of_view _ (by simp) rfl rfl rfl

theorem dec_inc_num_bulk (s : reclaimer) (hv : s.num_bulk_reclaims_ < 65536) :
    (dec_num_bulk_reclaims (inc_num_bulk_reclaims s)).num_bulk_reclaims_
      = s.num_bulk_reclaims_ := by
  simp only [dec_num_bulk_reclaims, inc_num_bulk_reclaims]
  by_cases h : s.num_bulk_reclaims_ + 1 = 65536
  · have : s.num_bulk_reclaims_ = 65535 := by omega
    simp [this]
  · have h1 : (s.num_bulk_reclaims_ + 1) % 65536 = s.num_bulk_reclaims_ + 1 :=
      Nat.mod_eq_of_lt (by omega)
    rw [h1]
    simp

theorem inc_num_bulk_valid (s : reclaimer) :
    (inc_num_bulk_reclaims s).num_bulk_reclaims_ < 65536 := by
  simp only [inc_num_bulk_reclaims]
  exact Nat.mod_lt _ (by decide)

/-- A pass started through `inc_num_bulk_reclaims` and `do_reclamation`. -/
theorem pass_count_of_rec {rec : reclaimer → Int → Option reclaimer} (hrec : rec_count rec)
    (s s' : reclaimer) (rc : Int) (h : rec (inc_num_bulk_reclaims s) rc = some s') :
    pass_count rc 0 s s' := by
  obtain ⟨r1, r2, r3⟩ := hrec _ _ _ h
  refine ⟨?_, ?_, ?_⟩
  · rw [r1]; rfl
  · exact r2
  · intro hv
    rw [r3 (inc_num_bulk_valid s), dec_inc_num_bulk s hv]

theorem check_threshold_and_reclaim_count {rec : reclaimer → Int → Option reclaimer}
    (hrec : rec_count rec) (clock : Nat → Nat) (s s' : reclaimer)
    (h : check_threshold_and_reclaim rec clock s = some s') : pass_count 0 0 s s' := by
  unfold check_threshold_and_reclaim at h
  simp only at h
  have c1 := excess_check_count_threshold s
  have c2 := excess_check_due_time clock (check_count_threshold s).2
  split at h
  · rename_i h0
    rw [h0] at c1
    split at h
    · rename_i h1
      cases h
      rw [h1] at c2
      simpa using pass_count_trans c1 c2
    · have c3 := pass_count_of_rec hrec _ _ _ h
      simpa using pass_count_trans (pass_count_trans c1 c2) c3
  · have c3 := pass_count_of_rec hrec _ _ _ h
    simpa using pass_count_trans c1 c3

theorem push_list_count {rec : reclaimer → Int → Option reclaimer}
    (hrec : rec_count rec) (clock : Nat → Nat) (node : retire_node) (s s' : reclaimer)
    (h : push_list rec clock node s = some s') : pass_count 0 0 s s' := by
  unfold push_list at h
  simp only at h
  have c0 : pass_count 0 0 s
      (add_count (retired_list_push s ((node.address >>> 8) &&& kShardMask) node) 1) := by
    refine ⟨?_, by simp [add_count, retired_list_push], fun _ => rfl⟩
    unfold excess
    have hl := (shards_all_push s _ (shard_index_lt node.address) node).length_eq
    have e1 : shards_all (add_count (retired_list_push s ((node.address >>> 8) &&& kShardMask) node) 1)
        = shards_all (retired_list_push s ((node.address >>> 8) &&& kShardMask) node) := rfl
    rw [e1, hl]
    simp [add_count, retired_list_push]
  simpa using pass_count_trans c0 (check_threshold_and_reclaim_count hrec clock _ _ h)

theorem run_deleter_count {rec : reclaimer → Int → Option reclaimer}
    (hrec : rec_count rec) (clock : Nat → Nat) (nodes : List retire_node) (s s' : reclaimer)
    (h : run_deleter rec clock nodes s = some s') : pass_count 0 0 s s' := by
  induction nodes generalizing s with
  | nil =>
    simp [run_deleter] at h
    subst h
    exact pass_count_refl s
  | cons node rest ih =>
    simp only [run_deleter] at h
    split at h
    · cases h
    · rename_i s1 h1
      simpa using pass_count_trans (push_list_count hrec clock node s s1 h1) (ih s1 h)

theorem reclaim_obj_count {rec : reclaimer → Int → Option reclaimer}
    (hrec : rec_count rec) (clock : Nat → Nat) (objs : List retire_node) (s s' : reclaimer)
    (h : reclaim_obj rec clock objs s = some s') : pass_count 0 objs.length s s' := by
  induction objs generalizing s with
  | nil =>
    simp [reclaim_obj] at h
    subst h
    exact pass_count_refl s
  | cons obj next ih =>
    simp only [reclaim_obj] at h
    split at h
    · cases h
    · rename_i s1 h1
      have c0 : pass_count 0 1 s { s with deleted := obj :: s.deleted } :=
        ⟨by simp [excess, shards_all], by simp, fun _ => rfl⟩
      have c1 := run_deleter_count hrec clock _ _ _ h1
      have c2 := ih s1 h
      have := pass_count_trans (pass_count_trans c0 c1) c2
      simp only [add_zero, zero_add] at this
      rw [List.length_cons, Nat.add_comm]
      exact this


theorem match_reclaim_loop_count {rec : reclaimer → Int → Option reclaimer}
    (hrec : rec_count rec) (clock : Nat → Nat) (hash_set : List Nat)
    (retired : List (List retire_node)) (nr nr' : linked_list) (cnt cnt' : Int)
    (done done' : Bool) (s s' : reclaimer)
    (h : match_reclaim_loop rec clock hash_set retired nr cnt done s = some (nr', cnt', done', s')) :
    pass_count 0 (retired.flatten.filter (fun x => !decide (x.raw_ptr ∈ hash_set))).length s s' ∧
    cnt' = cnt + ((retired.flatten.filter (fun x => !decide (x.raw_ptr ∈ hash_set))).length : Int) ∧
    nr'.chain = nr.chain ++ retired.flatten.filter (fun x => decide (x.raw_ptr ∈ hash_set)) := by
  induction retired generalizing nr cnt done s with
  | nil =>
    simp only [match_reclaim_loop, Option.some.injEq, Prod.mk.injEq] at h
    obtain ⟨e1, e2, _, e4⟩ := h
    subst e1 e2 e4
    exact ⟨by simpa using pass_count_refl s, by simp, by simp⟩
  | cons rn rest ih =>
    simp only [match_reclaim_loop] at h
    split at h
    · cases h
    · rename_i s1 h1
      rw [list_match_condition_snd] at h1
      simp only [linked_list.init, List.nil_append] at h1
      have c1 := reclaim_obj_count hrec clock _ s s1 h1
      obtain ⟨j1, j2, j3⟩ := ih _ _ _ s1 h
      refine ⟨?_, ?_, ?_⟩
      · have := pass_count_trans c1 j1
        simpa [List.filter_append] using this
      · rw [j2, list_match_condition_size]
        simp [linked_list.init, List.filter_append]
        ring
      · rw [j3, splice_chain, list_match_condition_fst]
        simp [linked_list.init, List.filter_append]

theorem shards_all_length_push_list (s : reclaimer) (i : Nat) (hi : i < kNumShards)
    (list : List retire_node) :
    (shards_all (retired_list_push_list s i list)).length
      = list.length + (shards_all s).length := by
  rw [(shards_all_push_list s i hi list).length_eq, List.length_append]

theorem match_reclaim_count {rec : reclaimer → Int → Option reclaimer}
    (hrec : rec_count rec) (clock : Nat → Nat) (retired : List (List retire_node))
    (hash_set : List Nat) (s s' : reclaimer) (count : Int) (done : Bool)
    (h : match_reclaim rec clock retired hash_set s = some (count, done, s')) :
    pass_count (-((retired.flatten.filter (fun x => decide (x.raw_ptr ∈ hash_set))).length : Int))
      (retired.flatten.filter (fun x => !decide (x.raw_ptr ∈ hash_set))).length s s' ∧
    count = ((retired.flatten.filter (fun x => !decide (x.raw_ptr ∈ hash_set))).length : Int) := by
  unfold match_reclaim at h
  split at h
  · cases h
  · rename_i nr' cnt' done' s1 h1
    simp only [Option.some.injEq, Prod.mk.injEq] at h
    obtain ⟨e1, _, e3⟩ := h
    subst e1 e3
    obtain ⟨j1, j2, j3⟩ := match_reclaim_loop_count hrec clock hash_set retired linked_list.init nr'
      0 cnt' true done' s s1 h1
    simp only [linked_list.init, List.nil_append, zero_add] at j2 j3
    refine ⟨?_, j2⟩
    have c2 : pass_count (-(nr'.chain.length : Int)) 0 s1 (retired_list_push_list s1 0 nr'.chain) := by
      refine ⟨?_, ?_, ?_⟩
      · unfold excess
        rw [shards_all_length_push_list s1 0 (by decide)]
        have : (retired_list_push_list s1 0 nr'.chain).count_ = s1.count_ := by
          unfold retired_list_push_list; split <;> rfl
        rw [this]
        push_cast
        ring
      · have : (retired_list_push_list s1 0 nr'.chain).deleted = s1.deleted := by
          unfold retired_list_push_list; split <;> rfl
        rw [this]; simp
      · intro _
        unfold retired_list_push_list; split <;> rfl
    have hl : (nr'.chain.length : Int)
        = ((retired.flatten.filter (fun x => decide (x.raw_ptr ∈ hash_set))).length : Int) := by
      rw [j3]
    have := pass_count_trans j1 c2
    rw [hl, zero_add, Nat.add_zero] at this
    exact this

theorem filter_partition_length (l : List retire_node) (p : retire_node → Bool) :
    (l.filter p).length + (l.filter (fun x => !p x)).length = l.length := by
  induction l with
  | nil => simp
  | cons x xs ih =>
    by_cases h : p x
    · simp [List.filter_cons, h]; omega
    · simp [List.filter_cons, h]; omega

theorem do_reclamation_exit_count {rec : reclaimer → Int → Option reclaimer}
    (hrec : rec_count rec) (s s3 s' : reclaimer) (rc : Int) (P : Prop) [Decidable P]
    (e3 : excess s3 = excess s + rc)
    (d3 : s.deleted.length ≤ s3.deleted.length)
    (n3 : s.num_bulk_reclaims_ < 65536 → s3.num_bulk_reclaims_ = s.num_bulk_reclaims_)
    (hh : (if (check_count_threshold s3).1 = 0 ∧ P then
         some (dec_num_bulk_reclaims (check_count_threshold s3).2)
       else rec (check_count_threshold s3).2 (check_count_threshold s3).1) = some s') :
    excess s' = excess s + rc ∧ s.deleted.length ≤ s'.deleted.length ∧
    (s.num_bulk_reclaims_ < 65536 →
      s'.num_bulk_reclaims_ = (dec_num_bulk_reclaims s).num_bulk_reclaims_) := by
  obtain ⟨c1, c2, c3⟩ := excess_check_count_threshold s3
  have n4 : (check_count_threshold s3).2.num_bulk_reclaims_ = s3.num_bulk_reclaims_ := by
    unfold check_count_threshold; split <;> rfl
  by_cases hc : (check_count_threshold s3).1 = 0 ∧ P
  · rw [if_pos hc] at hh
    cases hh
    refine ⟨?_, ?_, ?_⟩
    · have : excess (dec_num_bulk_reclaims (check_count_threshold s3).2)
          = excess (check_count_threshold s3).2 := by
        simp [excess, shards_all, dec_num_bulk_reclaims]
      rw [this, c1, hc.1, e3]; ring
    · have : (dec_num_bulk_reclaims (check_count_threshold s3).2).deleted
          = (check_count_threshold s3).2.deleted := by
        simp [dec_num_bulk_reclaims]
      rw [this]; omega
    · intro hv
      simp only [dec_num_bulk_reclaims, n4, n3 hv]
  · rw [if_neg hc] at hh
    obtain ⟨r1, r2, r3⟩ := hrec _ _ _ hh
    refine ⟨by rw [r1, c1, e3]; ring, by omega, ?_⟩
    intro hv
    rw [r3 (by rw [n4, n3 hv]; exact hv)]
    simp only [dec_num_bulk_reclaims, n4, n3 hv]

theorem excess_add_count (t : reclaimer) (rc : Int) :
    excess (if rc ≠ 0 then add_count t rc else t) = excess t + rc ∧
    (if rc ≠ 0 then add_count t rc else t).deleted = t.deleted ∧
    (if rc ≠ 0 then add_count t rc else t).num_bulk_reclaims_ = t.num_bulk_reclaims_ := by
  by_cases h : rc = 0
  · simp [h]
  · simp [h, add_count, excess, shards_all]
    ring

theorem excess_extract (s : reclaimer) :
    excess (extract_retired_objects s).2.1 = excess s + ((shards_all s).length : Int) := by
  unfold excess
  rw [shards_all_nil (fun i hi => extract_shards s i hi)]
  have : (extract_retired_objects s).2.1.count_ = s.count_ := rfl
  rw [this]
  simp

theorem do_reclamation_iter_count {rec : reclaimer → Int → Option reclaimer}
    (hrec : rec_count rec) (clock : Nat → Nat) : rec_count (do_reclamation_iter rec clock) := by
  intro s rc s' h
  unfold do_reclamation_iter at h
  simp only at h
  by_cases hne : (extract_retired_objects s).2.2 = true
  · simp only [hne, if_true] at h
    split at h
    · cases h
    · rename_i r rc1 done s2 hr
      split at hr
      · cases hr
      · rename_i cnt done2 s2' hm
        simp only [Option.some.injEq, Prod.mk.injEq] at hr
        obtain ⟨e1, e2, e3⟩ := hr
        subst e1 e2 e3
        obtain ⟨⟨m1, m2, m3⟩, mc⟩ := match_reclaim_count hrec clock _ _ _ _ _ _ hm
        rw [extract_flatten] at m1 m2 mc
        obtain ⟨a1, a2, a3⟩ := excess_add_count s2' (rc - cnt)
        have hp := filter_partition_length (shards_all s)
          (fun x => decide (x.raw_ptr ∈ load_hazptr_vals (extract_retired_objects s).2.1))
        refine do_reclamation_exit_count hrec s _ s' rc _ ?_ ?_ ?_ h
        · rw [a1, m1, excess_extract, mc]
          have : ((shards_all s).length : Int) =
              ((List.filter (fun x => decide (x.raw_ptr ∈
                  load_hazptr_vals (extract_retired_objects s).2.1)) (shards_all s)).length : Int) +
              ((List.filter (fun x => !decide (x.raw_ptr ∈
                  load_hazptr_vals (extract_retired_objects s).2.1)) (shards_all s)).length : Int) := by
            rw [← hp]; push_cast; ring
          rw [this]; ring
        · rw [a2]
          have : (extract_retired_objects s).2.1.deleted = s.deleted := rfl
          rw [this] at m2
          omega
        · intro hv
          rw [a3]
          exact m3 hv
  · have hfalse : (extract_retired_objects s).2.2 = false := by simpa using hne
    rw [hfalse] at h
    have e0 := extract_nonempty_false s hfalse
    obtain ⟨a1, a2, a3⟩ := excess_add_count (extract_retired_objects s).2.1 rc
    refine do_reclamation_exit_count hrec s
      (if rc ≠ 0 then add_count (extract_retired_objects s).2.1 rc
        else (extract_retired_objects s).2.1) s' rc _ ?_ ?_ ?_ h
    · rw [a1, excess_extract, e0]; simp
    · rw [a2]; exact le_refl _
    · intro _; rw [a3]; rfl

theorem do_reclamation_count (clock : Nat → Nat) (fuel : Nat) :
    rec_count (do_reclamation clock fuel) := by
  induction fuel with
  | zero => intro s rc s' h; simp [do_reclamation] at h
  | succ n ih => exact do_reclamation_iter_count ih clock

/-! ## A pass returns when the pending retire calls fit below the threshold -/


theorem pending_list_perm {a b : List retire_node} (h : a.Perm b) :
    pending_list a = pending_list b := by
  unfold pending_list
  exact (h.map _).sum_eq

theorem count_plus_pending (s : reclaimer) :
    s.count_ + (pending_list (shards_all s) : Int)
      = excess s + ((closure_list (shards_all s)).length : Int) := by
  unfold excess
  rw [closure_list_length]
  push_cast
  ring

/-- What the guarantee and the accounting of a step say about sizes: with `n`
the number of records destroyed, the closure of the shards shrinks by `n` and
the retired-count plus the pending `retire` calls moves by `delta - n`, both
up to the closure of the records handed in. -/
theorem pass_size {e : List retire_node} {delta : Int} {k : Nat} {s s' : reclaimer}
    (hi : pass_inv e s s') (hc : pass_count delta k s s') :
    ∃ n : Nat, k ≤ n ∧
      (closure_list (shards_all s')).length + n
        = (closure_list (shards_all s)).length + (closure_list e).length ∧
      s'.count_ + (pending_list (shards_all s') : Int) + n
        = s.count_ + (pending_list (shards_all s) : Int) + delta + (closure_list e).length := by
  obtain ⟨_, run, d, _, _, p⟩ := hi
  obtain ⟨c1, c2, _⟩ := hc
  have hl := p.length_eq
  rw [List.length_append, closure_list_append, List.length_append] at hl
  refine ⟨run.length, ?_, by omega, ?_⟩
  · have := congrArg List.length d
    rw [List.length_append] at this
    omega
  · rw [count_plus_pending, count_plus_pending, c1]
    have : ((closure_list (shards_all s')).length : Int) + (run.length : Int)
        = ((closure_list (shards_all s)).length : Int) + ((closure_list e).length : Int) := by
      have h2 : run.length + (closure_list (shards_all s')).length
          = (closure_list (shards_all s)).length + (closure_list e).length := hl
      omega
    omega

theorem check_threshold_and_reclaim_total {rec : reclaimer → Int → Option reclaimer} {m : Nat}
    (htot : rec_total m rec) (clock : Nat → Nat) (s : reclaimer)
    (hb : s.count_ + (pending_list (shards_all s) : Int) < kReclaimThreshold)
    (hm : (closure_list (shards_all s)).length < m) :
    ∃ s', check_threshold_and_reclaim rec clock s = some s' := by
  unfold check_threshold_and_reclaim
  have hlt : ¬ (s.count_ ≥ kReclaimThreshold) := by
    have : (0 : Int) ≤ (pending_list (shards_all s) : Int) := Int.natCast_nonneg _
    omega
  have e1 : check_count_threshold s = (0, s) := by
    unfold check_count_threshold; simp only [hlt, if_false]
  rw [e1]
  simp only [if_true]
  unfold check_due_time
  simp only
  by_cases hdue : clock s.clock_reads < s.due_time_
  · simp only [hdue, if_true]
    exact ⟨_, rfl⟩
  · simp only [hdue, if_false]
    by_cases hneg : s.count_ < 0
    · simp only [hneg, if_true]
      exact ⟨_, rfl⟩
    · simp only [hneg, if_false]
      by_cases h0 : s.count_ = 0
      · simp only [h0, if_true]
        exact ⟨_, rfl⟩
      · simp only [h0, if_false]
        apply htot
        · omega
        · exact hm
        · show (0 : Int) + s.count_ + (pending_list (shards_all s) : Int) < kReclaimThreshold
          omega

theorem push_list_total {rec : reclaimer → Int → Option reclaimer} {m : Nat}
    (htot : rec_total m rec) (clock : Nat → Nat) (node : retire_node) (s : reclaimer)
    (hb : s.count_ + (pending_list (shards_all s) : Int) + ((closure_list [node]).length : Int)
      < kReclaimThreshold)
    (hm : (closure_list (shards_all s)).length + (closure_list [node]).length < m) :
    ∃ s', push_list rec clock node s = some s' := by
  unfold push_list
  simp only
  have hperm := shards_all_push s _ (shard_index_lt node.address) node
  have e1 : shards_all (add_count (retired_list_push s ((node.address >>> 8) &&& kShardMask) node) 1)
      = shards_all (retired_list_push s ((node.address >>> 8) &&& kShardMask) node) := rfl
  apply check_threshold_and_reclaim_total htot
  · rw [e1, pending_list_perm hperm]
    have hc : (add_count (retired_list_push s ((node.address >>> 8) &&& kShardMask) node) 1).count_
        = s.count_ + 1 := rfl
    rw [hc]
    have hp : pending_list (node :: shards_all s) = pending_list [node] + pending_list (shards_all s) := by
      rw [← pending_list_append]; rfl
    rw [hp]
    have hl := closure_list_length [node]
    simp only [List.length_singleton] at hl
    rw [hl] at hb
    push_cast at hb ⊢
    omega
  · rw [e1, (closure_list_perm hperm).length_eq]
    have : closure_list (node :: shards_all s) = closure_list [node] ++ closure_list (shards_all s) := by
      rw [← closure_list_append]; rfl
    rw [this, List.length_append]
    omega

theorem run_deleter_total {rec : reclaimer → Int → Option reclaimer} {m : Nat}
    (hok : rec_ok rec) (hcnt : rec_count rec) (htot : rec_total m rec) (clock : Nat → Nat)
    (nodes : List retire_node) (s : reclaimer)
    (hb : s.count_ + (pending_list (shards_all s) : Int) + ((closure_list nodes).length : Int)
      < kReclaimThreshold)
    (hm : (closure_list (shards_all s)).length + (closure_list nodes).length < m) :
    ∃ s', run_deleter rec clock nodes s = some s' := by
  induction nodes generalizing s with
  | nil => exact ⟨s, rfl⟩
  | cons node rest ih =>
    have hcl : closure_list (node :: rest) = closure_list [node] ++ closure_list rest := by
      rw [← closure_list_append]; rfl
    rw [hcl, List.length_append] at hb hm
    obtain ⟨s1, h1⟩ := push_list_total htot clock node s (by push_cast at hb; omega) (by omega)
    obtain ⟨n, _, z1, z2⟩ := pass_size (push_list_inv hok clock node s s1 h1)
      (push_list_count hcnt clock node s s1 h1)
    obtain ⟨s2, h2⟩ := ih s1 (by push_cast at hb; omega) (by omega)
    refine ⟨s2, ?_⟩
    simp only [run_deleter, h1]
    exact h2


theorem closure_list_cons (x : retire_node) (xs : List retire_node) :
    closure_list (x :: xs) = x :: (closure_list x.deleter ++ closure_list xs) := by
  simp [closure_list, closure_eq]

theorem pending_list_cons (x : retire_node) (xs : List retire_node) :
    pending_list (x :: xs) = (closure_list x.deleter).length + pending_list xs := by
  simp [pending_list]

theorem reclaim_obj_total {rec : reclaimer → Int → Option reclaimer} {m : Nat}
    (hok : rec_ok rec) (hcnt : rec_count rec) (htot : rec_total m rec) (clock : Nat → Nat)
    (objs : List retire_node) (s : reclaimer)
    (hb : s.count_ + (pending_list (shards_all s) : Int) + (pending_list objs : Int)
      < kReclaimThreshold)
    (hm : (closure_list (shards_all s)).length + (closure_list objs).length ≤ m) :
    ∃ s', reclaim_obj rec clock objs s = some s' := by
  induction objs generalizing s with
  | nil => exact ⟨s, rfl⟩
  | cons obj next ih =>
    rw [pending_list_cons] at hb
    rw [closure_list_cons, List.length_cons, List.length_append] at hm
    obtain ⟨s1, h1⟩ := run_deleter_total hok hcnt htot clock obj.deleter
      { s with deleted := obj :: s.deleted }
      (by
        show s.count_ + (pending_list (shards_all s) : Int) + _ < _
        push_cast at hb
        omega)
      (by
        show (closure_list (shards_all s)).length + _ < m
        omega)
    obtain ⟨n, _, z1, z2⟩ := pass_size (run_deleter_inv hok clock _ _ _ h1)
      (run_deleter_count hcnt clock _ _ _ h1)
    have y1 : (closure_list (shards_all { s with deleted := obj :: s.deleted })).length
        = (closure_list (shards_all s)).length := rfl
    have y2 : ({ s with deleted := obj :: s.deleted } : reclaimer).count_
        + (pending_list (shards_all { s with deleted := obj :: s.deleted }) : Int)
        = s.count_ + (pending_list (shards_all s) : Int) := rfl
    rw [y1] at z1
    rw [y2] at z2
    obtain ⟨s2, h2⟩ := ih s1 (by push_cast at hb; omega) (by omega)
    refine ⟨s2, ?_⟩
    simp only [reclaim_obj, h1]
    exact h2

theorem closure_list_filter_le (l : List retire_node) (p : retire_node → Bool) :
    (closure_list (l.filter p)).length ≤ (closure_list l).length ∧
    pending_list (l.filter p) ≤ pending_list l := by
  induction l with
  | nil => simp
  | cons x xs ih =>
    by_cases h : p x
    · simp only [List.filter_cons, h, if_true, closure_list_cons, pending_list_cons,
        List.length_cons, List.length_append]
      omega
    · simp only [List.filter_cons, h, closure_list_cons, pending_list_cons,
        List.length_cons, List.length_append]
      constructor
      · have := ih.1; simp only [Bool.false_eq_true, if_false]; omega
      · have := ih.2; simp only [Bool.false_eq_true, if_false]; omega

theorem match_reclaim_loop_total {rec : reclaimer → Int → Option reclaimer} {m : Nat}
    (hok : rec_ok rec) (hcnt : rec_count rec) (htot : rec_total m rec) (clock : Nat → Nat)
    (hash_set : List Nat) (retired : List (List retire_node)) (nr : linked_list) (cnt : Int)
    (done : Bool) (s : reclaimer) (hs : hash_set = load_hazptr_vals s)
    (hb : s.count_ + (pending_list (shards_all s) : Int) + (pending_list retired.flatten : Int)
      < kReclaimThreshold)
    (hm : (closure_list (shards_all s)).length + (closure_list retired.flatten).length ≤ m) :
    ∃ res, match_reclaim_loop rec clock hash_set retired nr cnt done s = some res := by
  induction retired generalizing nr cnt done s with
  | nil => exact ⟨_, rfl⟩
  | cons rn rest ih =>
    simp only [List.flatten_cons, pending_list_append, closure_list_append,
      List.length_append] at hb hm
    simp only [match_reclaim_loop]
    rw [list_match_condition_snd]
    simp only [linked_list.init, List.nil_append]
    obtain ⟨f1, f2⟩ := closure_list_filter_le rn (fun x => !decide (x.raw_ptr ∈ hash_set))
    obtain ⟨s1, h1⟩ := reclaim_obj_total hok hcnt htot clock
      (rn.filter (fun x => !decide (x.raw_ptr ∈ hash_set))) s
      (by push_cast at hb; omega) (by omega)
    have hun : ∀ r ∈ rn.filter (fun x => !decide (x.raw_ptr ∈ hash_set)),
        r.raw_ptr ∉ load_hazptr_vals s := by
      intro r hr
      have := (List.mem_filter.mp hr).2
      rw [← hs]
      simpa using this
    have i1 := reclaim_obj_inv hok clock _ s s1 hun h1
    obtain ⟨n, hn, z1, z2⟩ := pass_size i1 (reclaim_obj_count hcnt clock _ s s1 h1)
    have hcl := closure_list_length (rn.filter (fun x => !decide (x.raw_ptr ∈ hash_set)))
    rw [h1]
    simp only
    apply ih
    · rw [load_hazptr_vals_congr i1.1]; exact hs
    · push_cast at hb; omega
    · omega


theorem iter_tail_total (rec : reclaimer → Int → Option reclaimer) (s3 : reclaimer)
    (P : Prop) [Decidable P] (hlt : s3.count_ < kReclaimThreshold)
    (hnext : ¬ P → ∃ s', rec s3 0 = some s') :
    ∃ s', (if (check_count_threshold s3).1 = 0 ∧ P then
         some (dec_num_bulk_reclaims (check_count_threshold s3).2)
       else rec (check_count_threshold s3).2 (check_count_threshold s3).1) = some s' := by
  have e4 : check_count_threshold s3 = (0, s3) := by
    unfold check_count_threshold
    have : ¬ (s3.count_ ≥ kReclaimThreshold) := by omega
    simp only [this, if_false]
  rw [e4]
  by_cases hp : P
  · exact ⟨dec_num_bulk_reclaims s3, by simp [hp]⟩
  · obtain ⟨s', h⟩ := hnext hp
    exact ⟨s', by simp [hp, h]⟩

theorem add_count_fields (t : reclaimer) (rc : Int) :
    (if rc ≠ 0 then add_count t rc else t).count_ = t.count_ + rc ∧
    shards_all (if rc ≠ 0 then add_count t rc else t) = shards_all t := by
  by_cases h : rc = 0
  · simp [h]
  · simp [h, add_count, shards_all]

theorem do_reclamation_iter_total {rec : reclaimer → Int → Option reclaimer} {m : Nat}
    (hok : rec_ok rec) (hcnt : rec_count rec) (htot : rec_total m rec) (clock : Nat → Nat)
    (s : reclaimer) (rc : Int) (hrc : 0 ≤ rc)
    (hb : s.count_ + rc + (pending_list (shards_all s) : Int) < kReclaimThreshold)
    (hm : (closure_list (shards_all s)).length ≤ m) :
    ∃ s', do_reclamation_iter rec clock s rc = some s' := by
  have hpn : (0 : Int) ≤ (pending_list (shards_all s) : Int) := Int.natCast_nonneg _
  have sh1 : shards_all (extract_retired_objects s).2.1 = [] :=
    shards_all_nil (fun i hi => extract_shards s i hi)
  have c1 : (extract_retired_objects s).2.1.count_ = s.count_ := rfl
  unfold do_reclamation_iter
  simp only
  by_cases hne : (extract_retired_objects s).2.2 = true
  · simp only [hne, if_true]
    obtain ⟨⟨nr', cnt', done', s1'⟩, hres⟩ := match_reclaim_loop_total hok hcnt htot clock
      (load_hazptr_vals (extract_retired_objects s).2.1) (extract_retired_objects s).1
      linked_list.init 0 true (extract_retired_objects s).2.1 rfl
      (by
        rw [sh1, extract_flatten, c1]
        simp [pending_list]
        simp [pending_list] at hb
        omega)
      (by
        rw [sh1, extract_flatten]
        simpa [closure_list] using hm)
    have hmr : match_reclaim rec clock (extract_retired_objects s).1
        (load_hazptr_vals (extract_retired_objects s).2.1) (extract_retired_objects s).2.1
        = some (cnt', done', retired_list_push_list s1' 0 nr'.chain) := by
      unfold match_reclaim
      rw [hres]
    rw [hmr]
    simp only
    -- what is known of the state after matching
    obtain ⟨m1, _⟩ := match_reclaim_inv hok clock _ _ _ _ _ _ rfl hmr
    rw [extract_flatten] at m1
    have i2 := extract_inv m1
    obtain ⟨⟨k1, k2, k3⟩, kc⟩ := match_reclaim_count hcnt clock _ _ _ _ _ _ hmr
    rw [extract_flatten] at k1 k2 kc
    have hp := filter_partition_length (shards_all s)
      (fun x => decide (x.raw_ptr ∈ load_hazptr_vals (extract_retired_objects s).2.1))
    have pc : pass_count
        ((List.filter (fun x => !decide (x.raw_ptr ∈
          load_hazptr_vals (extract_retired_objects s).2.1)) (shards_all s)).length : Int)
        (List.filter (fun x => !decide (x.raw_ptr ∈
          load_hazptr_vals (extract_retired_objects s).2.1)) (shards_all s)).length
        s (retired_list_push_list s1' 0 nr'.chain) := by
      refine ⟨?_, k2, k3⟩
      rw [k1, excess_extract]
      have : ((shards_all s).length : Int) =
          ((List.filter (fun x => decide (x.raw_ptr ∈
              load_hazptr_vals (extract_retired_objects s).2.1)) (shards_all s)).length : Int) +
          ((List.filter (fun x => !decide (x.raw_ptr ∈
              load_hazptr_vals (extract_retired_objects s).2.1)) (shards_all s)).length : Int) := by
        rw [← hp]; push_cast; ring
      rw [this]; ring
    obtain ⟨n, hn, z1, z2⟩ := pass_size i2 pc
    simp only [closure_list, List.length_nil, Nat.add_zero, Nat.cast_zero, add_zero] at z1 z2
    obtain ⟨a1, a2⟩ := add_count_fields (retired_list_push_list s1' 0 nr'.chain) (rc - cnt')
    apply iter_tail_total
    · rw [a1, kc]
      have : (0 : Int) ≤ (pending_list (shards_all (retired_list_push_list s1' 0 nr'.chain)) : Int) :=
        Int.natCast_nonneg _
      omega
    · intro hnd
      apply htot
      · exact le_refl _
      · rw [a2]
        -- done is false, so a record was destroyed
        have hU : (List.filter (fun x => !decide (x.raw_ptr ∈
            load_hazptr_vals (extract_retired_objects s).2.1)) (shards_all s)) ≠ [] := by
          intro hnil
          have hd' : ∀ l ∈ (extract_retired_objects s).1, ∀ r ∈ l,
              r.raw_ptr ∉ load_hazptr_vals (extract_retired_objects s).2.1 → r.deleter = [] := by
            intro l hl r hr hz
            have : r ∈ List.filter (fun x => !decide (x.raw_ptr ∈
                load_hazptr_vals (extract_retired_objects s).2.1)) (shards_all s) := by
              rw [← extract_flatten]
              exact List.mem_filter.mpr ⟨List.mem_flatten.mpr ⟨l, hl, hr⟩, by simpa using hz⟩
            rw [hnil] at this
            simp at this
          obtain ⟨nr2, e1, _⟩ := match_reclaim_loop_plain rec clock
            (load_hazptr_vals (extract_retired_objects s).2.1) (extract_retired_objects s).1
            linked_list.init 0 true (extract_retired_objects s).2.1 hd'
            ((retired_list_empty_iff _).mpr (fun i hi => extract_shards s i hi))
          rw [hres] at e1
          simp only [Option.some.injEq, Prod.mk.injEq] at e1
          exact hnd e1.2.2.1
        have hpos : 0 < (List.filter (fun x => !decide (x.raw_ptr ∈
            load_hazptr_vals (extract_retired_objects s).2.1)) (shards_all s)).length :=
          List.length_pos.mpr hU
        omega
      · rw [a1, a2, kc]
        omega
  · have hfalse : (extract_retired_objects s).2.2 = false := by simpa using hne
    rw [hfalse]
    simp only [Bool.false_eq_true, if_false]
    obtain ⟨a1, a2⟩ := add_count_fields (extract_retired_objects s).2.1 rc
    apply iter_tail_total
    · rw [a1, c1]; omega
    · intro hnd
      exact absurd trivial hnd

theorem do_reclamation_total (clock : Nat → Nat) (fuel : Nat) :
    rec_total fuel (do_reclamation clock fuel) := by
  induction fuel with
  | zero => intro t rc _ h _; omega
  | succ n ih =>
    intro t rc hrc hm hb
    rw [do_reclamation_succ]
    exact do_reclamation_iter_total (do_reclamation_ok clock n) (do_reclamation_count clock n) ih
      clock t rc hrc hb (by omega)

/-- With no pass in progress and the retired-count plus the `retire` calls
that deleters can still make below the threshold, `reclaim()` returns. -/
theorem reclaim_total (clock : Nat → Nat) (s : reclaimer) (hb : s.num_bulk_reclaims_ = 0)
    (hc : s.count_ + (pending_list (shards_all s) : Int) < kReclaimThreshold) :
    ∃ s', reclaim clock ((closure_list (shards_all s)).length + 1) s = some s' := by
  obtain ⟨s', h⟩ := do_reclamation_total clock ((closure_list (shards_all s)).length + 1)
    (inc_num_bulk_reclaims s) 0 (le_refl _)
    (by
      have : shards_all (inc_num_bulk_reclaims s) = shards_all s := rfl
      rw [this]; omega)
    (by
      have h1 : shards_all (inc_num_bulk_reclaims s) = shards_all s := rfl
      have h2 : (inc_num_bulk_reclaims s).count_ = s.count_ := rfl
      rw [h1, h2]; omega)
  refine ⟨s', ?_⟩
  unfold reclaim
  rw [h]
  obtain ⟨_, _, r3⟩ := do_reclamation_count clock _ _ _ _ h
  have hn : s'.num_bulk_reclaims_ = 0 := by
    rw [r3 (inc_num_bulk_valid s), dec_inc_num_bulk s (by omega), hb]
  simp [hn]

/-! ## The retired-count when a call has returned -/

theorem check_due_time_count (clock : Nat → Nat) (t : reclaimer)
    (hlt : t.count_ < kReclaimThreshold) :
    (check_due_time clock t).2.count_ < kReclaimThreshold := by
  unfold check_due_time
  simp only
  split
  · exact hlt
  · split
    · simp only [add_count, zero_add]
      exact hlt
    · simp [kReclaimThreshold]

/-- Whenever `retire` has returned, the retired-count is below the threshold. -/
theorem retire_count_below_threshold (clock : Nat → Nat) (fuel : Nat) (node : retire_node)
    (s s' : reclaimer) (h : retire clock fuel node s = some s') :
    s'.count_ < kReclaimThreshold := by
  unfold retire push_list check_threshold_and_reclaim at h
  simp only at h
  generalize add_count (retired_list_push s ((node.address >>> 8) &&& kShardMask) node) 1 = s2 at h
  split at h
  · rename_i h0
    have hlt := check_count_threshold_zero s2 h0
    split at h
    · cases h
      exact check_due_time_count clock _ hlt
    · exact (do_reclamation_ok clock fuel _ _ _ h).2.2.2
  · exact (do_reclamation_ok clock fuel _ _ _ h).2.2.2

/-- Whenever `reclaim` has returned, the retired-count is below the threshold
and no pass is in progress. -/
theorem reclaim_count_below_threshold (clock : Nat → Nat) (fuel : Nat) (s s' : reclaimer)
    (h : reclaim clock fuel s = some s') :
    s'.count_ < kReclaimThreshold ∧ s'.num_bulk_reclaims_ = 0 := by
  obtain ⟨_, hf, hb⟩ := reclaim_ok clock fuel s s' h
  exact ⟨hf.2.2, hb⟩

/-! ## A published address protects its retired record -/

/-- In single-threaded execution, when a slot of the directory publishes
the address `p` (its word is neither `INUSE` nor `NOUSE`) and a retired record
`R` with `raw_ptr = p` is held in a shard, every call of `reclaim()` that
returns has run the deleter of no record whose pointer is `p`, and `R` is
then held in shard 0.  The call does return when no pass is in progress and
either the retired-count is below the threshold and the deleters of the
unprotected records retire nothing (one iteration of the loop is enough), or
the retired-count plus the number of `retire` calls that deleters can still
make is below the threshold. -/
theorem protected_record_survives_reclaim (clock : Nat → Nat) (s : reclaimer)
    (slot p i : Nat) (R : retire_node)
    (hslot : slot ∈ s.holder_list_) (hp : s.holder_ptr slot = p)
    (hin : p ≠ INUSE) (hno : p ≠ NOUSE)
    (hi : i < kNumShards) (hR : R ∈ s.retired_list_ i) (hraw : R.raw_ptr = p) :
    (∀ fuel s', reclaim clock fuel s = some s' →
        (∃ run, s'.deleted = run ++ s.deleted ∧ ∀ r ∈ run, r.raw_ptr ≠ p) ∧
        R ∈ s'.retired_list_ 0) ∧
    (s.num_bulk_reclaims_ = 0 → s.count_ < kReclaimThreshold →
        (∀ r ∈ unprotected_records s, r.deleter = []) →
        ∃ s', reclaim clock 1 s = some s') ∧
    (s.num_bulk_reclaims_ = 0 →
        s.count_ + (pending_list (shards_all s) : Int) < kReclaimThreshold →
        ∃ s', reclaim clock ((closure_list (shards_all s)).length + 1) s = some s') := by
  have hz : p ∈ load_hazptr_vals s := (mem_load_hazptr_vals s p).mpr ⟨slot, hslot, hp, hno, hin⟩
  refine ⟨?_, fun hb hc hd => reclaim_returns_plain clock s hb hc hd,
    fun hb hc => reclaim_total clock s hb hc⟩
  intro fuel s' h
  obtain ⟨⟨_, run, d1, z1, m1, _⟩, ⟨f1, _, _⟩, _⟩ := reclaim_ok clock fuel s s' h
  have hrun : ∀ r ∈ run, r.raw_ptr ≠ p := by
    intro r hr e
    exact z1 r hr (e ▸ hz)
  refine ⟨⟨run, d1, hrun⟩, ?_⟩
  rcases m1 R (Or.inl (mem_shards_all.mpr ⟨i, hi, hR⟩)) with h1 | h1
  · obtain ⟨j, hj, hm⟩ := mem_shards_all.mp h1
    by_cases hj0 : j = 0
    · subst hj0; exact hm
    · rw [f1 j (by omega) hj] at hm
      simp at hm
  · exact absurd hraw (hrun R h1)

theorem protected_record_survives_reclaim_example :
    (∃ s', reclaim (fun _ => 0) 1 basic_protection_state = some s' ∧
      retire_node.mk 4096 768 [] ∈ s'.retired_list_ 0) ∧
    (∃ s', reclaim (fun k => 3000000000 * k) 5 destruction_state = some s' ∧
      retire_node.mk 4096 768 [] ∈ s'.retired_list_ 0) := by
  constructor
  · obtain ⟨h1, h2⟩ := protected_record_survives_reclaim (fun _ => 0) basic_protection_state
      1 4096 0 (retire_node.mk 4096 768 [])
      (by simp [basic_protection_state]) (by simp [basic_protection_state])
      (by decide) (by decide) (by decide) (by simp [basic_protection_state]) rfl
    obtain ⟨s', hs'⟩ := h2.1 rfl (by decide)
      (by simp [unprotected_records, shards_all, basic_protection_state, kNumShards,
            List.range_succ, load_hazptr_vals, reclaimer.init, NOUSE, INUSE, retire_node.raw_ptr])
    exact ⟨s', hs', (h1 1 s' hs').2⟩
  · obtain ⟨h1, h2⟩ := protected_record_survives_reclaim (fun k => 3000000000 * k)
      destruction_state 1 4096 0 (retire_node.mk 4096 768 [])
      (by simp [destruction_state, basic_protection_state])
      (by simp [destruction_state, basic_protection_state])
      (by decide) (by decide) (by decide) (by simp [destruction_state]) rfl
    obtain ⟨s', hs'⟩ := h2.2 rfl (by decide)
    exact ⟨s', hs', (h1 _ s' hs').2⟩

/-! ## Claim C2: unprotected records are destroyed, once -/


theorem retire_all_plain (clock : Nat → Nat) (rs : List retire_node) (s : reclaimer)
    (hq : plain_quiescent s) (hn : ∀ r ∈ rs, r.deleter = []) :
    ∃ s', retire_all clock 1 rs s = some s' ∧ plain_quiescent s' ∧
      s'.deleted.length + (shards_all s').length
        = s.deleted.length + (shards_all s).length + rs.length := by
  induction rs generalizing s with
  | nil => exact ⟨s, rfl, hq, by simp⟩
  | cons x xs ih =>
    obtain ⟨s1, e1, q1, l1⟩ := retire_plain clock x s hq (hn x (List.mem_cons_self _ _))
    obtain ⟨s2, e2, q2, l2⟩ := ih s1 q1 (fun r hr => hn r (List.mem_cons_of_mem _ hr))
    refine ⟨s2, ?_, q2, ?_⟩
    · simp only [retire_all]
      rw [e1]
      exact e2
    · rw [l2, l1]
      simp
      omega

theorem reclaim_plain (clock : Nat → Nat) (s : reclaimer) (hq : plain_quiescent s) :
    ∃ s', reclaim clock 1 s = some s' ∧ plain_quiescent s' ∧ shards_all s' = [] ∧
      s'.deleted.length = s.deleted.length + (shards_all s).length := by
  obtain ⟨hz, hb, hcnt, hlt, hpl⟩ := hq
  have e0 : shards_all (inc_num_bulk_reclaims s) = shards_all s := rfl
  obtain ⟨t', e, f, c0, sh, nb, dl⟩ := full_pass_plain (do_reclamation clock 0) clock
    (inc_num_bulk_reclaims s) 0 hz (by rw [e0]; exact hpl)
    (by
      have : (inc_num_bulk_reclaims s).count_ = s.count_ := rfl
      rw [this, e0, hcnt]; simp)
  have hnb : t'.num_bulk_reclaims_ = 0 := by
    rw [nb]; simp [dec_num_bulk_reclaims, inc_num_bulk_reclaims, hb]
  refine ⟨t', ?_, ⟨?_, hnb, ?_, ?_, ?_⟩, sh, ?_⟩
  · unfold reclaim
    rw [show (1 : Nat) = 0 + 1 from rfl, do_reclamation_succ, e]
    simp [hnb]
  · rw [load_hazptr_vals_congr f]; exact hz
  · rw [c0, sh]; simp
  · rw [c0]; decide
  · rw [sh]; simp
  · rw [dl, e0]
    have : (inc_num_bulk_reclaims s).deleted = s.deleted := rfl
    rw [this]
    simp
    omega

theorem not_mem_final_of_unprotected {s s' : reclaimer} (hf : pass_final s s') (R : retire_node)
    (hR : R.raw_ptr ∉ load_hazptr_vals s) : R ∉ shards_all s' := by
  intro hm
  obtain ⟨j, hj, hm⟩ := mem_shards_all.mp hm
  by_cases hj0 : j = 0
  · subst hj0
    exact hR (hf.2.1 R hm)
  · rw [hf.1 j (by omega) hj] at hm
    simp at hm

theorem retire_all_total (clock : Nat → Nat) (rs : List retire_node) (s : reclaimer)
    (hb : s.count_ + (pending_list (shards_all s) : Int) + ((closure_list rs).length : Int)
      < kReclaimThreshold) :
    ∃ s1, retire_all clock ((closure_list (shards_all s)).length + (closure_list rs).length + 1)
        rs s = some s1 ∧
      s1.count_ + (pending_list (shards_all s1) : Int) < kReclaimThreshold ∧
      (s.num_bulk_reclaims_ < 65536 → s1.num_bulk_reclaims_ = s.num_bulk_reclaims_) := by
  rw [retire_all_eq_run_deleter]
  obtain ⟨s1, h1⟩ := run_deleter_total (do_reclamation_ok clock _) (do_reclamation_count clock _)
    (do_reclamation_total clock
      ((closure_list (shards_all s)).length + (closure_list rs).length + 1))
    clock rs s hb (by omega)
  have hc := run_deleter_count (do_reclamation_count clock _) clock _ _ _ h1
  obtain ⟨n, _, _, z2⟩ := pass_size (run_deleter_inv (do_reclamation_ok clock _) clock _ _ _ h1) hc
  exact ⟨s1, h1, by omega, hc.2.2⟩

/-- C2. In single-threaded execution, when `reclaim()` returns, every record
that was held in a shard at the call and whose pointer no slot publishes has
had its deleter run and is in no shard, and no record is destroyed twice (the
records, with those that deleters retire, being pairwise distinct).  When no
hazard is published, the deleters that have run after a sequence of `retire`
calls followed by `reclaim()` are exactly those of the retired records, the
ones retired by deleters included.  The calls do return: for any number of
records whose deleters retire nothing, with as many destructor runs as
`retire` calls; and for records with any deleters when the retired-count plus
all the `retire` calls to come is below the threshold. -/
theorem C2_unprotected_records_destroyed (clock : Nat → Nat) :
    (∀ fuel s s', reclaim clock fuel s = some s' →
      ∃ run, s'.deleted = run ++ s.deleted ∧
        (∀ R ∈ shards_all s, R.raw_ptr ∉ load_hazptr_vals s → R ∈ run ∧ R ∉ shards_all s') ∧
        ((closure_list (shards_all s)).Nodup → run.Nodup)) ∧
    (∀ fuel1 fuel2 rs s s1 s2, load_hazptr_vals s = [] → shards_all s = [] →
      retire_all clock fuel1 rs s = some s1 → reclaim clock fuel2 s1 = some s2 →
      ∃ run, s2.deleted = run ++ s.deleted ∧ run.Perm (closure_list rs) ∧ shards_all s2 = []) ∧
    (∀ rs s, plain_quiescent s → shards_all s = [] → (∀ r ∈ rs, r.deleter = []) →
      ∃ s1 s2, retire_all clock 1 rs s = some s1 ∧ reclaim clock 1 s1 = some s2 ∧
        s2.deleted.length = s.deleted.length + rs.length ∧ shards_all s2 = []) ∧
    (∀ rs s, s.num_bulk_reclaims_ = 0 →
      s.count_ + (pending_list (shards_all s) : Int) + ((closure_list rs).length : Int)
        < kReclaimThreshold →
      ∃ fuel1 fuel2 s1 s2, retire_all clock fuel1 rs s = some s1 ∧
        reclaim clock fuel2 s1 = some s2) := by
  refine ⟨?_, ?_, ?_, ?_⟩
  · intro fuel s s' h
    obtain ⟨⟨_, run, d1, z1, m1, p1⟩, hf, _⟩ := reclaim_ok clock fuel s s' h
    refine ⟨run, d1, ?_, ?_⟩
    · intro R hR hz
      have hn := not_mem_final_of_unprotected hf R hz
      rcases m1 R (Or.inl hR) with h1 | h1
      · exact absurd h1 hn
      · exact ⟨h1, hn⟩
    · intro hnd
      rw [List.append_nil] at p1
      exact (List.Nodup.of_append_left (p1.symm.nodup hnd))
  · intro fuel1 fuel2 rs s s1 s2 hz hs h1 h2
    have i1 := retire_all_inv clock fuel1 rs s s1 h1
    obtain ⟨i2, hf, _⟩ := reclaim_ok clock fuel2 s1 s2 h2
    obtain ⟨f, run, d, z, m, p⟩ := pass_inv_trans i1 i2
    have hz1 : load_hazptr_vals s1 = [] := by rw [load_hazptr_vals_congr i1.1]; exact hz
    have hnil : shards_all s2 = [] := by
      apply List.eq_nil_iff_forall_not_mem.mpr
      intro R
      exact not_mem_final_of_unprotected hf R (by rw [hz1]; simp)
    refine ⟨run, d, ?_, hnil⟩
    rw [hnil, hs] at p
    simpa [closure_list] using p
  · intro rs s hq hs hn
    obtain ⟨s1, e1, q1, l1⟩ := retire_all_plain clock rs s hq hn
    obtain ⟨s2, e2, _, sh, l2⟩ := reclaim_plain clock s1 q1
    refine ⟨s1, s2, e1, e2, ?_, sh⟩
    rw [l2, l1, hs]
    simp
  · intro rs s hb hc
    obtain ⟨s1, e1, b1, n1⟩ := retire_all_total clock rs s hc
    obtain ⟨s2, e2⟩ := reclaim_total clock s1 (by rw [n1 (by omega), hb]) b1
    exact ⟨_, _, s1, s2, e1, e2⟩

theorem shards_all_init : shards_all reclaimer.init = [] :=
  shards_all_nil (fun _ _ => rfl)

theorem plain_quiescent_init : plain_quiescent reclaimer.init := by
  refine ⟨rfl, rfl, ?_, by decide, ?_⟩
  · rw [shards_all_init]; rfl
  · rw [shards_all_init]; simp

theorem C2_witness :
    plain_quiescent reclaimer.init ∧
    (∃ s1 s2, retire_all (fun k => k) 1 cleanup_nodes reclaimer.init = some s1 ∧
      reclaim (fun k => k) 1 s1 = some s2 ∧ s2.deleted.length = 1026 ∧ shards_all s2 = []) ∧
    (∃ fuel1 fuel2 s1 s2,
      retire_all (fun k => k) fuel1
        [retire_node.mk 8192 256 [retire_node.mk 8224 512 [retire_node.mk 8256 1024 []]]]
        reclaimer.init = some s1 ∧
      reclaim (fun k => k) fuel2 s1 = some s2) := by
  refine ⟨plain_quiescent_init, ?_, ?_⟩
  · obtain ⟨s1, s2, h1, h2, h3, h4⟩ :=
      (C2_unprotected_records_destroyed (fun k => k)).2.2.1 cleanup_nodes reclaimer.init
        plain_quiescent_init shards_all_init
        (by simp [cleanup_nodes, retire_node.deleter])
    refine ⟨s1, s2, h1, h2, ?_, h4⟩
    rw [h3]
    simp [cleanup_nodes, reclaimer.init]
  · exact (C2_unprotected_records_destroyed (fun k => k)).2.2.2 _ reclaimer.init rfl (by decide)

/-! ## Claim C4: protect publishes the pointer it returns -/


/-- C4. For a non-empty handle (its `holder_` is the slot `holder`) and an
atomic cell that holds `p` at every load made during the call, `try_protect`
and `protect` both return `p`; `protect` returns in the first iteration of
its loop (fuel 1 is enough, more fuel changes nothing); and the state afterwards is the state before with
the word of the slot `holder` set to `p` and nothing else changed: no other
slot word, no list, no counter, not the cache, not the handles. -/
theorem C4_protect_publishes (h holder p k fuel : Nat) (cell : Nat → Nat) (w : world)
    (hh : w.handles h = some holder) (hcell : ∀ j, cell j = p) :
    try_protect h p w =
      some (p, { w with dom := { w.dom with
        holder_ptr := fun b => if b = holder then p else w.dom.holder_ptr b } }) ∧
    protect h cell (fuel + 1) k w =
      some (p, { w with dom := { w.dom with
        holder_ptr := fun b => if b = holder then p else w.dom.holder_ptr b } }) := by
  have e1 : try_protect h p w =
      some (p, { w with dom := { w.dom with
        holder_ptr := fun b => if b = holder then p else w.dom.holder_ptr b } }) := by
    unfold try_protect
    rw [hh]
    rfl
  have e2 : ∀ f, protect h cell (f + 1) k w =
      some (p, { w with dom := { w.dom with
        holder_ptr := fun b => if b = holder then p else w.dom.holder_ptr b } }) := by
    intro f
    simp only [protect, hcell, e1, if_true]
  exact ⟨e1, e2 fuel⟩

theorem C4_witness :
    (make_hazard_ptr 0 world.init).handles 0 = some 1 ∧
    ((protect 0 (fun _ => 4096) 1 0 (make_hazard_ptr 0 world.init)).map
        (fun r => (r.1, r.2.dom.holder_ptr 1, r.2.dom.holder_list_)))
      = some (4096, 4096, [1]) := by
  have h0 : (make_hazard_ptr 0 world.init).handles 0 = some 1 := by decide
  refine ⟨h0, ?_⟩
  rw [(C4_protect_publishes 0 1 4096 0 0 (fun _ => 4096) (make_hazard_ptr 0 world.init) h0
    (fun _ => rfl)).2]
  decide

/-! ## Claims C5 and C6: moving and destroying a handle -/


theorem mem_load_hazptr_vals_store_other (d : reclaimer) (a b p : Nat) (hab : a ≠ b)
    (ha : a ∈ d.holder_list_) (hp : d.holder_ptr a = p) (hin : p ≠ INUSE) (hno : p ≠ NOUSE) :
    p ∈ load_hazptr_vals (store_ptr d b INUSE) := by
  rw [mem_load_hazptr_vals]
  refine ⟨a, ha, ?_, hno, hin⟩
  simp [store_ptr, hab, hp]

/-- C5. Moving a handle keeps the protection.  For two distinct handle objects
`h1` (source) and `h2` (target): after the move constructor, and after the
move assignment, `h2` owns what `h1` owned and `h1` is empty; the move
constructor changes neither the domain nor the cache; the move assignment
leaves every slot word unchanged except that of the slot `h2` owned before,
which is reset to `INUSE` and pushed on the free list of the thread (nothing
is pushed when `h2` was empty); the directory is unchanged, so an address
published through the slot of `h1` is still in the hazard snapshot, provided
`h2` did not own that same slot.  Self-assignment changes nothing. -/
theorem C5_move_keeps_protection (w : world) (h1 h2 : Nat) (hne : h1 ≠ h2) :
    ((hazard_ptr_move_ctor h2 h1 w).handles h2 = w.handles h1 ∧
      (hazard_ptr_move_ctor h2 h1 w).handles h1 = none ∧
      (hazard_ptr_move_ctor h2 h1 w).dom = w.dom ∧
      (hazard_ptr_move_ctor h2 h1 w).tc = w.tc) ∧
    ((hazard_ptr_move_assign h2 h1 w).handles h2 = w.handles h1 ∧
      (hazard_ptr_move_assign h2 h1 w).handles h1 = none ∧
      (hazard_ptr_move_assign h2 h1 w).dom.holder_list_ = w.dom.holder_list_ ∧
      (∀ a, w.handles h2 ≠ some a →
        (hazard_ptr_move_assign h2 h1 w).dom.holder_ptr a = w.dom.holder_ptr a) ∧
      (∀ b, w.handles h2 = some b →
        (hazard_ptr_move_assign h2 h1 w).dom.holder_ptr b = INUSE ∧
        (hazard_ptr_move_assign h2 h1 w).tc.free_list.head_ = b :: w.tc.free_list.head_ ∧
        (hazard_ptr_move_assign h2 h1 w).tc.holder_storage = w.tc.holder_storage) ∧
      (w.handles h2 = none →
        (hazard_ptr_move_assign h2 h1 w).dom = w.dom ∧
        (hazard_ptr_move_assign h2 h1 w).tc = w.tc) ∧
      (∀ a p, w.handles h1 = some a → w.handles h2 ≠ some a → a ∈ w.dom.holder_list_ →
        w.dom.holder_ptr a = p → p ≠ INUSE → p ≠ NOUSE →
        p ∈ load_hazptr_vals (hazard_ptr_move_assign h2 h1 w).dom)) ∧
    hazard_ptr_move_assign h1 h1 w = w := by
  have hne' : h2 ≠ h1 := fun e => hne e.symm
  refine ⟨⟨?_, ?_, rfl, rfl⟩, ?_, ?_⟩
  · simp [hazard_ptr_move_ctor]
  · simp [hazard_ptr_move_ctor, hne]
  · unfold hazard_ptr_move_assign
    simp only [hne', if_false]
    cases hb : w.handles h2 with
    | none =>
      refine ⟨?_, ?_, ?_, ?_, ?_, ?_, ?_⟩
      · simp
      · simp [hne, hb]
      · rfl
      · intro _ _; rfl
      · intro b hb'; cases hb'
      · intro _; exact ⟨rfl, rfl⟩
      · intro a p _ _ ha hp hin hno
        exact (mem_load_hazptr_vals _ p).mpr ⟨a, ha, hp, hno, hin⟩
    | some b =>
      simp only
      refine ⟨by simp [hne], by simp [hne], rfl, ?_, ?_, ?_, ?_⟩
      · intro a ha
        have : a ≠ b := fun e => ha (by rw [e])
        simp [store_ptr, this]
      · intro b' hb'
        cases hb'
        exact ⟨by simp [store_ptr], rfl, rfl⟩
      · intro hcontra; cases hcontra
      · intro a p _ hab ha hp hin hno
        have : a ≠ b := fun e => hab (by rw [e])
        exact mem_load_hazptr_vals_store_other w.dom a b p this ha hp hin hno
  · simp [hazard_ptr_move_assign]

theorem C5_witness :
    (0 : Nat) ≠ 1 ∧
    (hazard_ptr_move_assign 1 0 move_test_world).handles 1 = some 1 ∧
    (hazard_ptr_move_assign 1 0 move_test_world).handles 0 = none ∧
    (hazard_ptr_move_assign 1 0 move_test_world).dom.holder_ptr 2 = INUSE ∧
    (hazard_ptr_move_assign 1 0 move_test_world).tc.free_list.head_ = [2] ∧
    4096 ∈ load_hazptr_vals (hazard_ptr_move_assign 1 0 move_test_world).dom := by
  have T := (C5_move_keeps_protection move_test_world 0 1 (by decide)).2.1
  have hb := T.2.2.2.2.1 2 (by decide)
  refine ⟨by decide, ?_, T.2.1, hb.1, ?_,
    T.2.2.2.2.2.2 1 4096 (by decide) (by decide) (by decide) (by decide) (by decide) (by decide)⟩
  · rw [T.1]; decide
  · rw [hb.2.1]; decide

/-- C6. Destroying a non-empty handle (its `holder_` is the slot `a`) stores
`INUSE` into the word of `a` and pushes `a` on the free list of the calling
thread, and changes nothing else in the domain; the next `make_hazard_ptr()`
on this thread then returns a handle that owns the same slot `a`, without
touching the directory, its size counter, the global free list or the
allocator.  Destroying an empty handle changes nothing. -/
theorem C6_destroy_returns_slot_to_cache (w : world) (h : Nat) :
    (∀ a, w.handles h = some a →
      (hazard_ptr_dtor h w).dom =
        { w.dom with holder_ptr := fun b => if b = a then INUSE else w.dom.holder_ptr b } ∧
      (hazard_ptr_dtor h w).tc.free_list.head_ = a :: w.tc.free_list.head_ ∧
      (hazard_ptr_dtor h w).tc.holder_storage = w.tc.holder_storage ∧
      (hazard_ptr_dtor h w).handles h = none ∧
      ∀ h', (make_hazard_ptr h' (hazard_ptr_dtor h w)).handles h' = some a ∧
        (make_hazard_ptr h' (hazard_ptr_dtor h w)).dom = (hazard_ptr_dtor h w).dom ∧
        (make_hazard_ptr h' (hazard_ptr_dtor h w)).dom.holder_list_ = w.dom.holder_list_ ∧
        (make_hazard_ptr h' (hazard_ptr_dtor h w)).dom.holder_list_size_ = w.dom.holder_list_size_ ∧
        (make_hazard_ptr h' (hazard_ptr_dtor h w)).tc.free_list.head_ = w.tc.free_list.head_) ∧
    (w.handles h = none → hazard_ptr_dtor h w = w) := by
  constructor
  · intro a ha
    have e : hazard_ptr_dtor h w =
        { w with dom := store_ptr w.dom a INUSE, tc := w.tc.reuse a,
                 handles := fun k => if k = h then none else w.handles k } := by
      unfold hazard_ptr_dtor
      rw [ha]
    rw [e]
    refine ⟨rfl, rfl, rfl, by simp, ?_⟩
    intro h'
    simp [make_hazard_ptr, get_hazard_ptr, local_holder.reuse, forward_list.push,
      forward_list.empty, forward_list.pop, store_ptr]
  · intro hn
    unfold hazard_ptr_dtor
    rw [hn]

theorem C6_witness :
    (make_hazard_ptr 0 world.init).handles 0 = some 1 ∧
    (make_hazard_ptr 5 (hazard_ptr_dtor 0 (make_hazard_ptr 0 world.init))).handles 5 = some 1 ∧
    (make_hazard_ptr 5 (hazard_ptr_dtor 0 (make_hazard_ptr 0 world.init))).dom.holder_list_ = [1] := by
  have h0 : (make_hazard_ptr 0 world.init).handles 0 = some 1 := by decide
  have T := ((C6_destroy_returns_slot_to_cache (make_hazard_ptr 0 world.init) 0).1 1 h0).2.2.2.2 5
  refine ⟨h0, T.1, ?_⟩
  rw [T.2.2.1]
  decide

/-! ## Claims C7, C8 and C9: the cache after evict_hazard_ptr -/


/-- C7. The array factory run at the thread state reached by
`{ auto h = make_hazard_ptr(); } evict_hazard_ptr();`: the flushed free list
has no slot but still reports size 1, so `make_hazard_ptr<1>()` does not
refill it, pops a null pointer and returns an array whose only handle is
empty; with `make_hazard_ptr<3>()` the third handle is empty. -/
theorem C7_array_after_evict_has_empty_handle :
    (evict_hazard_ptr one_cached_world).tc.free_list.head_ = [] ∧
    (evict_hazard_ptr one_cached_world).tc.free_list.size = 1 ∧
    (get_hazard_ptrs 1 (evict_hazard_ptr one_cached_world)).1 = [none] ∧
    (make_hazard_ptr_array 1 0 (evict_hazard_ptr one_cached_world)).handles 0 = none ∧
    (get_hazard_ptrs 3 (evict_hazard_ptr one_cached_world)).1 = [some 2, some 1, none] := by
  decide

/-- C8. The reservation run at the thread state reached by
`{ auto h = make_hazard_ptr(); } evict_hazard_ptr();`: `reserve_hazp(1)` sees
the stale size 1, returns at once, and the free list of the thread still
holds no slot; the flushed slot stays on the global free list. -/
theorem C8_reserve_after_evict_leaves_cache_empty :
    (reserve_hazp 1 (evict_hazard_ptr one_cached_world)).tc.free_list.head_ = [] ∧
    (reserve_hazp 1 (evict_hazard_ptr one_cached_world)).tc.free_list.size = 1 ∧
    (reserve_hazp 1 (evict_hazard_ptr one_cached_world)).dom.free_list_ = [1] ∧
    (reserve_hazp 1 (evict_hazard_ptr one_cached_world)).dom.holder_list_ = [1] := by
  decide

theorem evict_hazard_ptr_loop_spec (l : List Nat) (d : reclaimer) (st : List Nat) :
    (evict_hazard_ptr_loop l d st).1.free_list_ = l.reverse ++ d.free_list_ ∧
    (evict_hazard_ptr_loop l d st).1.holder_list_ = d.holder_list_ ∧
    (∀ a, a ∈ l → (evict_hazard_ptr_loop l d st).1.holder_ptr a = INUSE) ∧
    (∀ a, a ∉ l → (evict_hazard_ptr_loop l d st).1.holder_ptr a = d.holder_ptr a) := by
  induction l generalizing d st with
  | nil => simp [evict_hazard_ptr_loop]
  | cons x xs ih =>
    simp only [evict_hazard_ptr_loop]
    obtain ⟨i1, i2, i3, i4⟩ := ih ((store_ptr d x INUSE).reuse x) (st.erase x)
    refine ⟨?_, ?_, ?_, ?_⟩
    · rw [i1]; simp [reclaimer.reuse, store_ptr]
    · rw [i2]; rfl
    · intro a ha
      by_cases hm : a ∈ xs
      · exact i3 a hm
      · rw [i4 a hm]
        have : a = x := by
          rcases List.mem_cons.mp ha with e | e
          · exact e
          · exact absurd e hm
        simp [reclaimer.reuse, store_ptr, this]
    · intro a ha
      have h1 : a ≠ x := fun e => ha (by rw [e]; exact List.mem_cons_self _ _)
      have h2 : a ∉ xs := fun e => ha (List.mem_cons_of_mem _ e)
      rw [i4 a h2]
      simp [reclaimer.reuse, store_ptr, h1]

/-- C9, as stated, fails after `{ auto h = make_hazard_ptr(); }
evict_hazard_ptr();`: slot 1 was cached in the free list of the thread, it is
on the global free list afterwards, and its word is not `NOUSE`. -/
theorem C9_flushed_slot_is_not_NOUSE :
    1 ∈ one_cached_world.tc.free_list.head_ ∧
    1 ∈ (evict_hazard_ptr one_cached_world).dom.free_list_ ∧
    (evict_hazard_ptr one_cached_world).dom.holder_ptr 1 ≠ NOUSE := by
  decide

/-- C9, amended. After `evict_hazard_ptr()` the free list of the calling
thread is empty, every slot that was cached in it is on the global free list
of the domain (in reverse order, on top of what was there), and the word of
each such slot is `INUSE` (0); the directory is not changed, and evicting an
empty cache changes nothing. -/
theorem C9_evict_stores_INUSE (w : world) :
    (evict_hazard_ptr w).tc.free_list.empty = true ∧
    (evict_hazard_ptr w).dom.free_list_ = w.tc.free_list.head_.reverse ++ w.dom.free_list_ ∧
    (∀ a, a ∈ w.tc.free_list.head_ → a ∈ (evict_hazard_ptr w).dom.free_list_) ∧
    (∀ a, a ∈ w.tc.free_list.head_ → (evict_hazard_ptr w).dom.holder_ptr a = INUSE) ∧
    (evict_hazard_ptr w).dom.holder_list_ = w.dom.holder_list_ ∧
    (w.tc.free_list.head_ = [] → evict_hazard_ptr w = w) := by
  obtain ⟨i1, i2, i3, _⟩ := evict_hazard_ptr_loop_spec w.tc.free_list.head_ w.dom w.tc.holder_storage
  have e1 : (evict_hazard_ptr w).dom.free_list_
      = w.tc.free_list.head_.reverse ++ w.dom.free_list_ := i1
  refine ⟨rfl, e1, ?_, i3, i2, ?_⟩
  · intro a ha
    rw [e1]
    exact List.mem_append.mpr (Or.inl (List.mem_reverse.mpr ha))
  · intro hnil
    unfold evict_hazard_ptr
    rw [hnil]
    simp only [evict_hazard_ptr_loop, forward_list.clear]
    cases w with
    | mk dom tc handles =>
      cases tc with
      | mk fl st =>
        cases fl with
        | mk sz hd =>
          simp only at hnil
          subst hnil
          rfl

/-! ## Claim C10: reclaim is idempotent -/


theorem reclaimer_ext {a b : reclaimer}
    (h1 : a.holder_list_ = b.holder_list_) (h2 : a.holder_list_size_ = b.holder_list_size_)
    (h3 : a.free_list_ = b.free_list_) (h4 : a.holder_ptr = b.holder_ptr)
    (h5 : a.count_ = b.count_) (h6 : a.due_time_ = b.due_time_)
    (h7 : a.retired_list_ = b.retired_list_) (h8 : a.num_bulk_reclaims_ = b.num_bulk_reclaims_)
    (h9 : a.heap_next = b.heap_next) (h10 : a.deleted = b.deleted)
    (h11 : a.clock_reads = b.clock_reads) : a = b := by
  cases a; cases b
  simp only [reclaimer.mk.injEq]
  exact ⟨h1, h2, h3, h4, h5, h6, h7, h8, h9, h10, h11⟩

/-- A domain in the final shape of a pass is a fixed point of `reclaim()`. -/
theorem reclaim_fixed_point (clock : Nat → Nat) (fuel : Nat) (s1 : reclaimer)
    (hf : pass_final s1 s1) (hb : s1.num_bulk_reclaims_ = 0) :
    reclaim clock (fuel + 1) s1 = some s1 := by
  obtain ⟨f1, f2, f3⟩ := hf
  have hsh : shards_all s1 = s1.retired_list_ 0 := by
    unfold shards_all kNumShards
    simp only [List.range_succ, List.range_zero, List.nil_append, List.cons_append,
      List.flatMap_cons, List.flatMap_nil, List.append_nil]
    rw [f1 1 (by decide) (by decide), f1 2 (by decide) (by decide), f1 3 (by decide) (by decide),
      f1 4 (by decide) (by decide), f1 5 (by decide) (by decide), f1 6 (by decide) (by decide),
      f1 7 (by decide) (by decide)]
    simp
  have hU : unprotected_records s1 = [] := by
    unfold unprotected_records
    rw [hsh, List.filter_eq_nil_iff]
    intro r hr
    simpa using f2 r hr
  have hP : protected_records s1 = s1.retired_list_ 0 := by
    unfold protected_records
    rw [hsh, List.filter_eq_self]
    intro r hr
    simpa using f2 r hr
  have hU' : unprotected_records (inc_num_bulk_reclaims s1) = [] := hU
  have hP' : protected_records (inc_num_bulk_reclaims s1) = s1.retired_list_ 0 := hP
  have hcnt : (inc_num_bulk_reclaims s1).count_ = s1.count_ := rfl
  obtain ⟨s', e, ⟨g1, g2, g3, g4, g5⟩, c, d, k, n, dl, r⟩ :=
    do_reclamation_iter_plain (do_reclamation clock fuel) clock (inc_num_bulk_reclaims s1) 0
      (by rw [hU']; simp) (by rw [hU', hcnt]; simpa using f3)
  have hs' : s' = s1 := by
    apply reclaimer_ext
    · exact g1
    · exact g2
    · exact g3
    · exact g4
    · rw [c, hU', hcnt]; simp
    · exact d
    · funext i
      rw [r i, hP']
      by_cases hi0 : i = 0
      · simp [hi0]
      · by_cases hi : i < kNumShards
        · simp [hi0, hi, f1 i (by omega) hi]
        · simp only [hi0, hi, if_false]; rfl
    · rw [n]; simp [dec_num_bulk_reclaims, inc_num_bulk_reclaims, hb]
    · exact g5
    · rw [dl, hU']; rfl
    · exact k
  unfold reclaim
  rw [do_reclamation_succ, e, hs']
  simp [hb]

/-- C10. In single-threaded execution a `reclaim()` that immediately follows
a `reclaim()` that has returned, with the hazard slots unchanged and no
`retire` in between, returns after one iteration of the loop and leaves the
whole domain as the first call left it: no deleter runs, and the shards, the
retired-count and the directory are the same. -/
theorem C10_reclaim_idempotent (clock clock2 : Nat → Nat) (fuel fuel2 : Nat) (s s1 : reclaimer)
    (h : reclaim clock fuel s = some s1) :
    reclaim clock2 (fuel2 + 1) s1 = some s1 := by
  obtain ⟨i1, hf, hb⟩ := reclaim_ok clock fuel s s1 h
  apply reclaim_fixed_point clock2 fuel2 s1 _ hb
  refine ⟨hf.1, ?_, hf.2.2⟩
  intro r hr
  rw [load_hazptr_vals_congr i1.1]
  exact hf.2.1 r hr

theorem C10_witness :
    ∃ s1, reclaim (fun _ => 0) 1 basic_protection_state = some s1 ∧
      reclaim (fun k => k) 1 s1 = some s1 := by
  obtain ⟨s1, h⟩ := reclaim_returns_plain (fun _ => 0) basic_protection_state rfl (by decide)
    (by simp [unprotected_records, shards_all, basic_protection_state, kNumShards,
          List.range_succ, load_hazptr_vals, reclaimer.init, NOUSE, INUSE, retire_node.raw_ptr])
  exact ⟨s1, h, C10_reclaim_idempotent (fun _ => 0) (fun k => k) 1 0 basic_protection_state s1 h⟩

/-! ## A pass returns when no slot publishes anything -/


theorem check_count_threshold_lt (s : reclaimer) :
    (check_count_threshold s).2.count_ < kReclaimThreshold := by
  unfold check_count_threshold
  split
  · simp [kReclaimThreshold]
  · rename_i h
    simpa using h

theorem check_threshold_and_reclaim_free {rec : reclaimer → Int → Option reclaimer} {m : Nat}
    (htot : rec_free m rec) (clock : Nat → Nat) (s : reclaimer)
    (hz : load_hazptr_vals s = []) (he : excess s < kReclaimThreshold)
    (hm : (closure_list (shards_all s)).length < m) :
    ∃ s', check_threshold_and_reclaim rec clock s = some s' := by
  unfold check_threshold_and_reclaim
  by_cases hge : s.count_ ≥ kReclaimThreshold
  · have e1 : check_count_threshold s = (s.count_, { s with count_ := 0 }) := by
      unfold check_count_threshold; simp only [hge, if_true]
    rw [e1]
    have hne : ¬ (s.count_ = 0) := by
      intro h0; rw [h0] at hge; exact absurd hge (by decide)
    simp only [hne, if_false]
    apply htot
    · exact hz
    · exact hm
    · show (0 : Int) < kReclaimThreshold
      decide
    · show (0 : Int) - ((shards_all s).length : Int) + s.count_ < kReclaimThreshold
      unfold excess at he
      omega
  · have e1 : check_count_threshold s = (0, s) := by
      unfold check_count_threshold; simp only [hge, if_false]
    rw [e1]
    simp only [if_true]
    unfold check_due_time
    simp only
    by_cases hdue : clock s.clock_reads < s.due_time_
    · simp only [hdue, if_true]
      exact ⟨_, rfl⟩
    · simp only [hdue, if_false]
      by_cases hneg : s.count_ < 0
      · simp only [hneg, if_true]
        exact ⟨_, rfl⟩
      · simp only [hneg, if_false]
        by_cases h0 : s.count_ = 0
        · simp only [h0, if_true]
          exact ⟨_, rfl⟩
        · simp only [h0, if_false]
          apply htot
          · exact hz
          · exact hm
          · show (0 : Int) < kReclaimThreshold
            decide
          · show (0 : Int) - ((shards_all s).length : Int) + s.count_ < kReclaimThreshold
            unfold excess at he
            omega


theorem push_list_free {rec : reclaimer → Int → Option reclaimer} {m : Nat}
    (htot : rec_free m rec) (clock : Nat → Nat) (node : retire_node) (s : reclaimer)
    (hz : load_hazptr_vals s = []) (he : excess s < kReclaimThreshold)
    (hm : (closure_list (shards_all s)).length + (closure_list [node]).length < m) :
    ∃ s', push_list rec clock node s = some s' := by
  unfold push_list
  simp only
  have hperm := shards_all_push s _ (shard_index_lt node.address) node
  have e1 : shards_all (add_count (retired_list_push s ((node.address >>> 8) &&& kShardMask) node) 1)
      = shards_all (retired_list_push s ((node.address >>> 8) &&& kShardMask) node) := rfl
  apply check_threshold_and_reclaim_free htot
  · exact hz
  · unfold excess
    rw [e1, hperm.length_eq]
    have hc : (add_count (retired_list_push s ((node.address >>> 8) &&& kShardMask) node) 1).count_
        = s.count_ + 1 := rfl
    rw [hc]
    unfold excess at he
    simp only [List.length_cons]
    push_cast
    omega
  · rw [e1, (closure_list_perm hperm).length_eq]
    have : closure_list (node :: shards_all s) = closure_list [node] ++ closure_list (shards_all s) := by
      rw [← closure_list_append]; rfl
    rw [this, List.length_append]
    omega

/-- What the guarantee and the accounting of a step keep: no slot publishes
anything afterwards either, the excess moves by `delta`, and the closure of
the shards shrinks by the number of records destroyed, which is at least `k`. -/
theorem pass_free {e : List retire_node} {delta : Int} {k : Nat} {s s' : reclaimer}
    (hi : pass_inv e s s') (hc : pass_count delta k s s') (hz : load_hazptr_vals s = []) :
    load_hazptr_vals s' = [] ∧ excess s' = excess s + delta ∧
    (closure_list (shards_all s')).length + k
      ≤ (closure_list (shards_all s)).length + (closure_list e).length := by
  obtain ⟨n, hn, z1, _⟩ := pass_size hi hc
  refine ⟨by rw [load_hazptr_vals_congr hi.1]; exact hz, hc.1, by omega⟩

theorem run_deleter_free {rec : reclaimer → Int → Option reclaimer} {m : Nat}
    (hok : rec_ok rec) (hcnt : rec_count rec) (htot : rec_free m rec) (clock : Nat → Nat)
    (nodes : List retire_node) (s : reclaimer)
    (hz : load_hazptr_vals s = []) (he : excess s < kReclaimThreshold)
    (hm : (closure_list (shards_all s)).length + (closure_list nodes).length < m) :
    ∃ s', run_deleter rec clock nodes s = some s' := by
  induction nodes generalizing s with
  | nil => exact ⟨s, rfl⟩
  | cons node rest ih =>
    have hcl : closure_list (node :: rest) = closure_list [node] ++ closure_list rest := by
      rw [← closure_list_append]; rfl
    rw [hcl, List.length_append] at hm
    obtain ⟨s1, h1⟩ := push_list_free htot clock node s hz he (by omega)
    obtain ⟨z1, z2, z3⟩ := pass_free (push_list_inv hok clock node s s1 h1)
      (push_list_count hcnt clock node s s1 h1) hz
    obtain ⟨s2, h2⟩ := ih s1 z1 (by rw [z2]; simpa using he) (by omega)
    refine ⟨s2, ?_⟩
    simp only [run_deleter, h1]
    exact h2

theorem reclaim_obj_free {rec : reclaimer → Int → Option reclaimer} {m : Nat}
    (hok : rec_ok rec) (hcnt : rec_count rec) (htot : rec_free m rec) (clock : Nat → Nat)
    (objs : List retire_node) (s : reclaimer)
    (hz : load_hazptr_vals s = []) (he : excess s < kReclaimThreshold)
    (hm : (closure_list (shards_all s)).length + (closure_list objs).length ≤ m) :
    ∃ s', reclaim_obj rec clock objs s = some s' := by
  induction objs generalizing s with
  | nil => exact ⟨s, rfl⟩
  | cons obj next ih =>
    rw [closure_list_cons, List.length_cons, List.length_append] at hm
    obtain ⟨s1, h1⟩ := run_deleter_free hok hcnt htot clock obj.deleter
      { s with deleted := obj :: s.deleted } hz he
      (by
        show (closure_list (shards_all s)).length + _ < m
        omega)
    obtain ⟨z1, z2, z3⟩ := pass_free (run_deleter_inv hok clock _ _ _ h1)
      (run_deleter_count hcnt clock _ _ _ h1) hz
    have y1 : (closure_list (shards_all { s with deleted := obj :: s.deleted })).length
        = (closure_list (shards_all s)).length := rfl
    have y2 : excess { s with deleted := obj :: s.deleted } = excess s := rfl
    rw [y1] at z3
    rw [y2] at z2
    obtain ⟨s2, h2⟩ := ih s1 z1 (by rw [z2]; simpa using he) (by omega)
    refine ⟨s2, ?_⟩
    simp only [reclaim_obj, h1]
    exact h2

theorem match_reclaim_loop_free {rec : reclaimer → Int → Option reclaimer} {m : Nat}
    (hok : rec_ok rec) (hcnt : rec_count rec) (htot : rec_free m rec) (clock : Nat → Nat)
    (retired : List (List retire_node)) (nr : linked_list) (cnt : Int)
    (done : Bool) (s : reclaimer)
    (hz : load_hazptr_vals s = []) (he : excess s < kReclaimThreshold)
    (hm : (closure_list (shards_all s)).length + (closure_list retired.flatten).length ≤ m) :
    ∃ res, match_reclaim_loop rec clock [] retired nr cnt done s = some res := by
  induction retired generalizing nr cnt done s with
  | nil => exact ⟨_, rfl⟩
  | cons rn rest ih =>
    simp only [List.flatten_cons, closure_list_append, List.length_append] at hm
    simp only [match_reclaim_loop]
    rw [list_match_condition_snd]
    simp only [linked_list.init, List.nil_append]
    have hall : rn.filter (fun x => !decide (x.raw_ptr ∈ ([] : List Nat))) = rn := by simp
    rw [hall]
    obtain ⟨s1, h1⟩ := reclaim_obj_free hok hcnt htot clock rn s hz he (by omega)
    have i1 := reclaim_obj_inv hok clock _ s s1 (by rw [hz]; simp) h1
    obtain ⟨z1, z2, z3⟩ := pass_free i1 (reclaim_obj_count hcnt clock _ s s1 h1) hz
    rw [h1]
    simp only
    apply ih
    · exact z1
    · rw [z2]; simpa using he
    · omega


theorem extract_nonempty_true (s : reclaimer) (h : (extract_retired_objects s).2.2 = true) :
    0 < (shards_all s).length := by
  unfold extract_retired_objects at h
  simp only [List.any_eq_true, List.mem_map, List.mem_range] at h
  obtain ⟨l, ⟨i, hi, hl⟩, hne⟩ := h
  cases l with
  | nil => simp at hne
  | cons x xs =>
    apply List.length_pos.mpr
    intro hnil
    have : x ∈ shards_all s := mem_shards_all.mpr ⟨i, hi, by rw [hl]; simp⟩
    rw [hnil] at this
    simp at this

theorem iter_tail_free (rec : reclaimer → Int → Option reclaimer) (s3 : reclaimer)
    (P : Prop) [Decidable P]
    (hnext : ∃ s', rec (check_count_threshold s3).2 (check_count_threshold s3).1 = some s') :
    ∃ s', (if (check_count_threshold s3).1 = 0 ∧ P then
         some (dec_num_bulk_reclaims (check_count_threshold s3).2)
       else rec (check_count_threshold s3).2 (check_count_threshold s3).1) = some s' := by
  by_cases hc : (check_count_threshold s3).1 = 0 ∧ P
  · rw [if_pos hc]; exact ⟨_, rfl⟩
  · rw [if_neg hc]; exact hnext

theorem do_reclamation_iter_free {rec : reclaimer → Int → Option reclaimer} {m : Nat}
    (hok : rec_ok rec) (hcnt : rec_count rec) (htot : rec_free m rec) (clock : Nat → Nat)
    (s : reclaimer) (rc : Int) (hz : load_hazptr_vals s = [])
    (hlt : s.count_ < kReclaimThreshold) (he : excess s + rc < kReclaimThreshold)
    (hm : (closure_list (shards_all s)).length ≤ m) :
    ∃ s', do_reclamation_iter rec clock s rc = some s' := by
  have sh1 : shards_all (extract_retired_objects s).2.1 = [] :=
    shards_all_nil (fun i hi => extract_shards s i hi)
  have c1 : (extract_retired_objects s).2.1.count_ = s.count_ := rfl
  have hz1 : load_hazptr_vals (extract_retired_objects s).2.1 = [] := hz
  have ex1 : excess (extract_retired_objects s).2.1 = s.count_ := by
    unfold excess; rw [sh1, c1]; simp
  unfold do_reclamation_iter
  simp only
  by_cases hne : (extract_retired_objects s).2.2 = true
  · simp only [hne, if_true]
    rw [hz1]
    obtain ⟨⟨nr', cnt', done', s1'⟩, hres⟩ := match_reclaim_loop_free hok hcnt htot clock
      (extract_retired_objects s).1 linked_list.init 0 true (extract_retired_objects s).2.1 hz1
      (by rw [ex1]; exact hlt)
      (by
        rw [sh1, extract_flatten]
        simpa [closure_list] using hm)
    have hmr : match_reclaim rec clock (extract_retired_objects s).1 []
        (extract_retired_objects s).2.1
        = some (cnt', done', retired_list_push_list s1' 0 nr'.chain) := by
      unfold match_reclaim
      rw [hres]
    rw [hmr]
    simp only
    obtain ⟨m1, _⟩ := match_reclaim_inv hok clock _ _ _ _ _ _ hz1.symm hmr
    rw [extract_flatten] at m1
    have i2 := extract_inv m1
    obtain ⟨⟨k1, k2, k3⟩, kc⟩ := match_reclaim_count hcnt clock _ _ _ _ _ _ hmr
    rw [extract_flatten] at k1 k2 kc
    have hall : (shards_all s).filter (fun x => !decide (x.raw_ptr ∈ ([] : List Nat)))
        = shards_all s := by simp
    have hnone : (shards_all s).filter (fun x => decide (x.raw_ptr ∈ ([] : List Nat))) = [] := by
      simp
    rw [hall] at k2 kc
    rw [hnone] at k1
    have pc : pass_count ((shards_all s).length : Int) (shards_all s).length
        s (retired_list_push_list s1' 0 nr'.chain) := by
      refine ⟨?_, k2, k3⟩
      rw [k1, excess_extract]
      simp
    obtain ⟨y1, y2, y3⟩ := pass_free i2 pc hz
    simp only [closure_list, List.length_nil, Nat.add_zero] at y3
    have hpos := extract_nonempty_true s hne
    obtain ⟨a1, a2⟩ := add_count_fields (retired_list_push_list s1' 0 nr'.chain) (rc - cnt')
    obtain ⟨b1, b2, b3⟩ := excess_add_count (retired_list_push_list s1' 0 nr'.chain) (rc - cnt')
    obtain ⟨v1, v2, v3⟩ := check_count_threshold_view
      (if rc - cnt' ≠ 0 then add_count (retired_list_push_list s1' 0 nr'.chain) (rc - cnt')
        else retired_list_push_list s1' 0 nr'.chain)
    obtain ⟨w1, _, _⟩ := excess_check_count_threshold
      (if rc - cnt' ≠ 0 then add_count (retired_list_push_list s1' 0 nr'.chain) (rc - cnt')
        else retired_list_push_list s1' 0 nr'.chain)
    apply iter_tail_free
    apply htot
    · rw [load_hazptr_vals_congr v1]
      have : load_hazptr_vals (if rc - cnt' ≠ 0 then
          add_count (retired_list_push_list s1' 0 nr'.chain) (rc - cnt')
          else retired_list_push_list s1' 0 nr'.chain)
          = load_hazptr_vals (retired_list_push_list s1' 0 nr'.chain) := by
        split <;> rfl
      rw [this]; exact y1
    · rw [shards_all_congr v2, a2]
      omega
    · exact check_count_threshold_lt _
    · rw [w1, b1, y2, kc]
      omega
  · have hfalse : (extract_retired_objects s).2.2 = false := by simpa using hne
    rw [hfalse]
    simp only [Bool.false_eq_true, if_false]
    obtain ⟨a1, a2⟩ := add_count_fields (extract_retired_objects s).2.1 rc
    have e0 := extract_nonempty_false s hfalse
    apply iter_tail_total
    · rw [a1, c1]
      unfold excess at he
      rw [e0] at he
      simpa using he
    · intro hnd
      exact absurd trivial hnd

theorem do_reclamation_free (clock : Nat → Nat) (fuel : Nat) :
    rec_free fuel (do_reclamation clock fuel) := by
  induction fuel with
  | zero => intro t rc _ h _ _; omega
  | succ n ih =>
    intro t rc hz hm hlt he
    rw [do_reclamation_succ]
    exact do_reclamation_iter_free (do_reclamation_ok clock n) (do_reclamation_count clock n) ih
      clock t rc hz hlt he (by omega)


/-- With no hazard published, `retire` returns whatever the clock and the
deleters do, given fuel for the records that can come to be destroyed. -/
theorem retire_free (clock : Nat → Nat) (fuel : Nat) (node : retire_node) (s : reclaimer)
    (hz : load_hazptr_vals s = []) (he : excess s < kReclaimThreshold)
    (hm : (closure_list (shards_all s)).length + (closure_list [node]).length < fuel) :
    ∃ s1, retire clock fuel node s = some s1 :=
  push_list_free (do_reclamation_free clock fuel) clock node s hz he hm

/-- With no hazard published and no pass in progress, `reclaim()` returns
whatever the clock and the deleters do. -/
theorem reclaim_free (clock : Nat → Nat) (fuel : Nat) (s : reclaimer)
    (hz : load_hazptr_vals s = []) (hb : s.num_bulk_reclaims_ = 0)
    (hlt : s.count_ < kReclaimThreshold) (he : excess s < kReclaimThreshold)
    (hm : (closure_list (shards_all s)).length < fuel) :
    ∃ s2, reclaim clock fuel s = some s2 := by
  obtain ⟨s', h⟩ := do_reclamation_free clock fuel (inc_num_bulk_reclaims s) 0 hz hm hlt
    (by
      have : excess (inc_num_bulk_reclaims s) = excess s := rfl
      rw [this]; simpa using he)
  refine ⟨s', ?_⟩
  unfold reclaim
  rw [h]
  obtain ⟨_, _, r3⟩ := do_reclamation_count clock _ _ _ _ h
  have hn : s'.num_bulk_reclaims_ = 0 := by
    rw [r3 (inc_num_bulk_valid s), dec_inc_num_bulk s (by omega), hb]
  simp [hn]

/-! ## A pass in which no deleter starts a pass of its own -/

theorem rec_ok_none : rec_ok (fun _ _ => none) := by
  intro s rc s' h; cases h

theorem rec_count_none : rec_count (fun _ _ => none) := by
  intro s rc s' h; cases h

theorem rec_le_none (g : reclaimer → Int → Option reclaimer) : rec_le (fun _ _ => none) g := by
  intro s rc s' h; cases h

theorem check_threshold_and_reclaim_mono {f g : reclaimer → Int → Option reclaimer}
    (hfg : rec_le f g) (clock : Nat → Nat) (s s' : reclaimer)
    (h : check_threshold_and_reclaim f clock s = some s') :
    check_threshold_and_reclaim g clock s = some s' := by
  unfold check_threshold_and_reclaim at h ⊢
  simp only at h ⊢
  split at h
  · rename_i h0
    rw [if_pos h0]
    split at h
    · rename_i h1
      rw [if_pos h1]; exact h
    · rename_i h1
      rw [if_neg h1]; exact hfg _ _ _ h
  · rename_i h0
    rw [if_neg h0]; exact hfg _ _ _ h

theorem push_list_mono {f g : reclaimer → Int → Option reclaimer}
    (hfg : rec_le f g) (clock : Nat → Nat) (node : retire_node) (s s' : reclaimer)
    (h : push_list f clock node s = some s') : push_list g clock node s = some s' :=
  check_threshold_and_reclaim_mono hfg clock _ _ h

theorem run_deleter_mono {f g : reclaimer → Int → Option reclaimer}
    (hfg : rec_le f g) (clock : Nat → Nat) (nodes : List retire_node) (s s' : reclaimer)
    (h : run_deleter f clock nodes s = some s') : run_deleter g clock nodes s = some s' := by
  induction nodes generalizing s with
  | nil => exact h
  | cons node rest ih =>
    simp only [run_deleter] at h ⊢
    split at h
    · cases h
    · rename_i s1 h1
      rw [push_list_mono hfg clock node s s1 h1]
      exact ih s1 h

theorem reclaim_obj_mono {f g : reclaimer → Int → Option reclaimer}
    (hfg : rec_le f g) (clock : Nat → Nat) (objs : List retire_node) (s s' : reclaimer)
    (h : reclaim_obj f clock objs s = some s') : reclaim_obj g clock objs s = some s' := by
  induction objs generalizing s with
  | nil => exact h
  | cons obj next ih =>
    simp only [reclaim_obj] at h ⊢
    split at h
    · cases h
    · rename_i s1 h1
      rw [run_deleter_mono hfg clock _ _ s1 h1]
      exact ih s1 h

theorem match_reclaim_loop_mono {f g : reclaimer → Int → Option reclaimer}
    (hfg : rec_le f g) (clock : Nat → Nat) (hash_set : List Nat)
    (retired : List (List retire_node)) (nr : linked_list) (cnt : Int) (done : Bool)
    (s : reclaimer) (res : linked_list × Int × Bool × reclaimer)
    (h : match_reclaim_loop f clock hash_set retired nr cnt done s = some res) :
    match_reclaim_loop g clock hash_set retired nr cnt done s = some res := by
  induction retired generalizing nr cnt done s with
  | nil => exact h
  | cons rn rest ih =>
    simp only [match_reclaim_loop] at h ⊢
    split at h
    · cases h
    · rename_i s1 h1
      rw [reclaim_obj_mono hfg clock _ _ s1 h1]
      exact ih _ _ _ s1 h

theorem match_reclaim_mono {f g : reclaimer → Int → Option reclaimer}
    (hfg : rec_le f g) (clock : Nat → Nat) (retired : List (List retire_node))
    (hash_set : List Nat) (s : reclaimer) (res : Int × Bool × reclaimer)
    (h : match_reclaim f clock retired hash_set s = some res) :
    match_reclaim g clock retired hash_set s = some res := by
  unfold match_reclaim at h ⊢
  split at h
  · cases h
  · rename_i nr' cnt' done' s1 h1
    rw [match_reclaim_loop_mono hfg clock _ _ _ _ _ _ _ h1]
    exact h

theorem iter_tail_mono {x1 x2 : reclaimer → Int → Option reclaimer} (hx : rec_le x1 x2)
    (s3 : reclaimer) (P : Prop) [Decidable P] (s' : reclaimer)
    (h : (if (check_count_threshold s3).1 = 0 ∧ P then
         some (dec_num_bulk_reclaims (check_count_threshold s3).2)
       else x1 (check_count_threshold s3).2 (check_count_threshold s3).1) = some s') :
    (if (check_count_threshold s3).1 = 0 ∧ P then
         some (dec_num_bulk_reclaims (check_count_threshold s3).2)
       else x2 (check_count_threshold s3).2 (check_count_threshold s3).1) = some s' := by
  by_cases hc : (check_count_threshold s3).1 = 0 ∧ P
  · rw [if_pos hc] at h ⊢; exact h
  · rw [if_neg hc] at h ⊢; exact hx _ _ _ h

theorem do_reclamation_iter_in_mono {n1 n2 x1 x2 : reclaimer → Int → Option reclaimer}
    (hn : rec_le n1 n2) (hx : rec_le x1 x2) (clock : Nat → Nat) :
    rec_le (do_reclamation_iter_in n1 x1 clock) (do_reclamation_iter_in n2 x2 clock) := by
  intro s rc s' h
  unfold do_reclamation_iter_in at h ⊢
  simp only at h ⊢
  by_cases hne : (extract_retired_objects s).2.2 = true
  · simp only [hne, if_true] at h ⊢
    split at h
    · cases h
    · rename_i r rc1 done s2 hr
      split at hr
      · cases hr
      · rename_i cnt done2 s2' hm
        rw [match_reclaim_mono hn clock _ _ _ _ hm]
        simp only [Option.some.injEq, Prod.mk.injEq] at hr
        obtain ⟨e1, e2, e3⟩ := hr
        subst e1 e2 e3
        exact iter_tail_mono hx _ _ _ h
  · have hfalse : (extract_retired_objects s).2.2 = false := by simpa using hne
    rw [hfalse] at h ⊢
    simp only [Bool.false_eq_true, if_false] at h ⊢
    exact iter_tail_mono hx _ _ _ h

theorem do_reclamation_iter_eq (rec : reclaimer → Int → Option reclaimer) (clock : Nat → Nat) :
    do_reclamation_iter rec clock = do_reclamation_iter_in rec rec clock := rfl

theorem do_reclamation_no_nesting_succ (clock : Nat → Nat) (n : Nat) :
    do_reclamation_no_nesting clock (n + 1)
      = do_reclamation_iter_in (fun _ _ => none) (do_reclamation_no_nesting clock n) clock := rfl

/-- A pass in which no deleter starts a pass of its own is a pass of
`do_reclamation`, with the same result. -/
theorem do_reclamation_no_nesting_le (clock : Nat → Nat) (fuel : Nat) :
    rec_le (do_reclamation_no_nesting clock fuel) (do_reclamation clock fuel) := by
  induction fuel with
  | zero => intro s rc s' h; simp [do_reclamation_no_nesting] at h
  | succ n ih =>
    rw [do_reclamation_no_nesting_succ, do_reclamation_succ, do_reclamation_iter_eq]
    exact do_reclamation_iter_in_mono (rec_le_none _) ih clock

theorem retire_no_nesting_le (clock : Nat → Nat) (fuel : Nat) (node : retire_node)
    (s s' : reclaimer) (h : retire_no_nesting clock fuel node s = some s') :
    retire clock fuel node s = some s' :=
  push_list_mono (do_reclamation_no_nesting_le clock fuel) clock node s s' h

theorem reclaim_no_nesting_le (clock : Nat → Nat) (fuel : Nat) (s s' : reclaimer)
    (h : reclaim_no_nesting clock fuel s = some s') : reclaim clock fuel s = some s' := by
  unfold reclaim_no_nesting at h
  unfold reclaim
  split at h
  · cases h
  · rename_i s1 h1
    rw [do_reclamation_no_nesting_le clock fuel _ _ _ h1]
    exact h

theorem check_threshold_and_reclaim_quiet (rec : reclaimer → Int → Option reclaimer)
    (clock : Nat → Nat) (s : reclaimer) (hc : s.count_ < kReclaimThreshold)
    (hd : clock s.clock_reads < s.due_time_) :
    check_threshold_and_reclaim rec clock s = some { s with clock_reads := s.clock_reads + 1 } := by
  unfold check_threshold_and_reclaim
  have hge : ¬ (s.count_ ≥ kReclaimThreshold) := by omega
  have e1 : check_count_threshold s = (0, s) := by
    unfold check_count_threshold; simp only [hge, if_false]
  rw [e1]
  simp only [if_true]
  unfold check_due_time
  simp only [hd, if_true]

theorem push_list_quiet (rec : reclaimer → Int → Option reclaimer) (clock : Nat → Nat)
    (node : retire_node) (s : reclaimer) (hc : s.count_ + 1 < kReclaimThreshold)
    (hd : never_due clock s) :
    ∃ s', push_list rec clock node s = some s' ∧ never_due clock s' ∧
      s'.count_ = s.count_ + 1 ∧ (shards_all s').length = (shards_all s).length + 1 := by
  unfold push_list
  simp only
  rw [check_threshold_and_reclaim_quiet rec clock
    (add_count (retired_list_push s ((node.address >>> 8) &&& kShardMask) node) 1) hc
    (hd _ (le_refl _))]
  refine ⟨_, rfl, ?_, rfl, ?_⟩
  · intro k hk
    exact hd k (by
      have : s.clock_reads + 1 ≤ k := hk
      omega)
  · exact (shards_all_push s _ (shard_index_lt node.address) node).length_eq

theorem run_deleter_quiet (rec : reclaimer → Int → Option reclaimer) (clock : Nat → Nat)
    (nodes : List retire_node) (s : reclaimer)
    (hc : s.count_ + (nodes.length : Int) < kReclaimThreshold) (hd : never_due clock s) :
    ∃ s', run_deleter rec clock nodes s = some s' ∧ never_due clock s' ∧
      s'.count_ = s.count_ + (nodes.length : Int) ∧
      (shards_all s').length = (shards_all s).length + nodes.length := by
  induction nodes generalizing s with
  | nil => exact ⟨s, rfl, hd, by simp, by simp⟩
  | cons node rest ih =>
    simp only [List.length_cons, Nat.cast_add, Nat.cast_one] at hc
    obtain ⟨s1, h1, d1, c1, l1⟩ := push_list_quiet rec clock node s (by omega) hd
    obtain ⟨s2, h2, d2, c2, l2⟩ := ih s1 (by omega) d1
    refine ⟨s2, ?_, d2, ?_, ?_⟩
    · simp only [run_deleter, h1]; exact h2
    · rw [c2, c1]; simp only [List.length_cons, Nat.cast_add, Nat.cast_one]; omega
    · rw [l2, l1]; simp only [List.length_cons]; omega

theorem reclaim_obj_quiet (rec : reclaimer → Int → Option reclaimer) (clock : Nat → Nat)
    (objs : List retire_node) (s : reclaimer) (hl : ∀ x ∈ objs, x.deleter.length ≤ 1)
    (hc : s.count_ + (objs.length : Int) < kReclaimThreshold) (hd : never_due clock s) :
    ∃ s', reclaim_obj rec clock objs s = some s' ∧ never_due clock s' ∧
      s'.count_ ≤ s.count_ + (objs.length : Int) ∧
      (shards_all s').length ≤ (shards_all s).length + objs.length := by
  induction objs generalizing s with
  | nil => exact ⟨s, rfl, hd, by simp, by simp⟩
  | cons obj next ih =>
    simp only [List.length_cons, Nat.cast_add, Nat.cast_one] at hc
    have h1len := hl obj (List.mem_cons_self _ _)
    obtain ⟨s1, h1, d1, c1, l1⟩ := run_deleter_quiet rec clock obj.deleter
      { s with deleted := obj :: s.deleted }
      (by
        show s.count_ + _ < _
        have : ((obj.deleter.length : Nat) : Int) ≤ 1 := by exact_mod_cast h1len
        omega)
      hd
    have c1' : s1.count_ = s.count_ + (obj.deleter.length : Int) := c1
    have l1' : (shards_all s1).length = (shards_all s).length + obj.deleter.length := l1
    have : ((obj.deleter.length : Nat) : Int) ≤ 1 := by exact_mod_cast h1len
    obtain ⟨s2, h2, d2, c2, l2⟩ := ih s1 (fun x hx => hl x (List.mem_cons_of_mem _ hx))
      (by omega) d1
    refine ⟨s2, ?_, d2, ?_, ?_⟩
    · simp only [reclaim_obj, h1]; exact h2
    · simp only [List.length_cons, Nat.cast_add, Nat.cast_one]; omega
    · simp only [List.length_cons]; omega

theorem match_reclaim_loop_quiet (rec : reclaimer → Int → Option reclaimer) (clock : Nat → Nat)
    (retired : List (List retire_node)) (s : reclaimer)
    (hl : ∀ x ∈ retired.flatten, x.deleter.length ≤ 1)
    (hc : s.count_ + (retired.flatten.length : Int) < kReclaimThreshold)
    (hd : never_due clock s) :
    ∃ s', (∀ nr cnt done, ∃ nr' cnt' done',
        match_reclaim_loop rec clock [] retired nr cnt done s = some (nr', cnt', done', s')) ∧
      never_due clock s' ∧ s'.count_ ≤ s.count_ + (retired.flatten.length : Int) ∧
      (shards_all s').length ≤ (shards_all s).length + retired.flatten.length := by
  induction retired generalizing s with
  | nil => exact ⟨s, fun _ _ _ => ⟨_, _, _, rfl⟩, hd, by simp, by simp⟩
  | cons rn rest ih =>
    simp only [List.flatten_cons, List.length_append, Nat.cast_add] at hc
    obtain ⟨s1, h1, d1, c1, l1⟩ := reclaim_obj_quiet rec clock rn s
      (fun x hx => hl x (by simp [hx])) (by omega) hd
    obtain ⟨s', h2, d2, c2, l2⟩ := ih s1 (fun x hx => hl x (by simp [hx])) (by omega) d1
    refine ⟨s', ?_, d2, ?_, ?_⟩
    · intro nr cnt done
      simp only [match_reclaim_loop]
      rw [list_match_condition_snd]
      simp only [linked_list.init, List.nil_append]
      have hall : rn.filter (fun x => !decide (x.raw_ptr ∈ ([] : List Nat))) = rn := by simp
      rw [hall, h1]
      exact h2 _ _ _
    · simp only [List.flatten_cons, List.length_append, Nat.cast_add]; omega
    · simp only [List.flatten_cons, List.length_append]; omega

theorem mem_closure_list_self {l : List retire_node} {x : retire_node} (h : x ∈ l) :
    x ∈ closure_list l := by
  induction l with
  | nil => cases h
  | cons y ys ih =>
    rw [closure_list_cons]
    rcases List.mem_cons.mp h with h | h
    · subst h; exact List.mem_cons_self _ _
    · exact List.mem_cons_of_mem _ (List.mem_append_right _ (ih h))

theorem iter_tail_quiet (next : reclaimer → Int → Option reclaimer) (s3 : reclaimer)
    (P : Prop) [Decidable P] (Q : reclaimer → Prop) (hlt : s3.count_ < kReclaimThreshold)
    (hexit : P → Q (dec_num_bulk_reclaims s3))
    (hnext : ¬ P → ∃ s', next s3 0 = some s' ∧ Q s') :
    ∃ s', (if (check_count_threshold s3).1 = 0 ∧ P then
         some (dec_num_bulk_reclaims (check_count_threshold s3).2)
       else next (check_count_threshold s3).2 (check_count_threshold s3).1) = some s' ∧ Q s' := by
  have e4 : check_count_threshold s3 = (0, s3) := by
    unfold check_count_threshold
    have : ¬ (s3.count_ ≥ kReclaimThreshold) := by omega
    simp only [this, if_false]
  rw [e4]
  by_cases hp : P
  · exact ⟨dec_num_bulk_reclaims s3, by simp [hp], hexit hp⟩
  · obtain ⟨s', h, q⟩ := hnext hp
    exact ⟨s', by simp [hp, h], q⟩

theorem add_count_time (t : reclaimer) (rc : Int) :
    (if rc ≠ 0 then add_count t rc else t).clock_reads = t.clock_reads ∧
    (if rc ≠ 0 then add_count t rc else t).due_time_ = t.due_time_ := by
  by_cases h : rc = 0
  · simp [h]
  · simp [h, add_count]

theorem retired_list_push_list_nil (s : reclaimer) (i : Nat) :
    retired_list_push_list s i [] = s := by
  simp [retired_list_push_list]

theorem do_reclamation_iter_in_quiet {nested next : reclaimer → Int → Option reclaimer} {m : Nat}
    (hok : rec_ok nested) (hcnt : rec_count nested) (clock : Nat → Nat)
    (hq : rec_quiet clock m next)
    (s : reclaimer) (rc : Int) (hz : load_hazptr_vals s = []) (hd : never_due clock s)
    (hl : retires_at_most_one (shards_all s)) (hrc : 0 ≤ rc)
    (hm : (closure_list (shards_all s)).length ≤ m)
    (hb : s.count_ + rc + ((shards_all s).length : Int) < kReclaimThreshold) :
    ∃ s', do_reclamation_iter_in nested next clock s rc = some s' ∧ never_due clock s' ∧
      s'.count_ + ((shards_all s').length : Int) < kReclaimThreshold := by
  have sh1 : shards_all (extract_retired_objects s).2.1 = [] :=
    shards_all_nil (fun i hi => extract_shards s i hi)
  have c1 : (extract_retired_objects s).2.1.count_ = s.count_ := rfl
  have hz1 : load_hazptr_vals (extract_retired_objects s).2.1 = [] := hz
  have hd1 : never_due clock (extract_retired_objects s).2.1 := hd
  unfold do_reclamation_iter_in
  simp only
  by_cases hne : (extract_retired_objects s).2.2 = true
  · simp only [hne, if_true]
    rw [hz1]
    obtain ⟨s1', hloop, d1', c1', l1'⟩ := match_reclaim_loop_quiet nested clock
      (extract_retired_objects s).1 (extract_retired_objects s).2.1
      (by
        rw [extract_flatten]
        intro x hx
        exact hl x (mem_closure_list_self hx))
      (by rw [extract_flatten, c1]; omega)
      hd1
    rw [extract_flatten, c1] at c1'
    rw [extract_flatten, sh1] at l1'
    simp only [List.length_nil, Nat.zero_add] at l1'
    obtain ⟨nr', cnt', done', hres⟩ := hloop linked_list.init 0 true
    obtain ⟨_, _, j3⟩ := match_reclaim_loop_count hcnt clock _ _ _ _ _ _ _ _ _ _ hres
    have hnr : nr'.chain = [] := by
      rw [j3]; simp [linked_list.init]
    have hmr : match_reclaim nested clock (extract_retired_objects s).1 []
        (extract_retired_objects s).2.1 = some (cnt', done', s1') := by
      unfold match_reclaim
      rw [hres]
      simp only [hnr, retired_list_push_list_nil]
    rw [hmr]
    simp only
    obtain ⟨m1, _⟩ := match_reclaim_inv hok clock _ _ _ _ _ _ hz1.symm hmr
    rw [extract_flatten] at m1
    have i2 := extract_inv m1
    obtain ⟨⟨k1, k2, k3⟩, kc⟩ := match_reclaim_count hcnt clock _ _ _ _ _ _ hmr
    rw [extract_flatten] at k1 k2 kc
    have hall : (shards_all s).filter (fun x => !decide (x.raw_ptr ∈ ([] : List Nat)))
        = shards_all s := by simp
    have hnone : (shards_all s).filter (fun x => decide (x.raw_ptr ∈ ([] : List Nat))) = [] := by
      simp
    rw [hall] at k2 kc
    rw [hnone] at k1
    have pc : pass_count ((shards_all s).length : Int) (shards_all s).length s s1' := by
      refine ⟨?_, k2, k3⟩
      rw [k1, excess_extract]
      simp
    obtain ⟨y1, y2, y3⟩ := pass_free i2 pc hz
    simp only [closure_list, List.length_nil, Nat.add_zero] at y3
    have hpos := extract_nonempty_true s hne
    have hcnt2 : s1'.count_ = s.count_ + ((shards_all s1').length : Int) := by
      unfold excess at y2
      omega
    obtain ⟨a1, a2⟩ := add_count_fields s1' (rc - cnt')
    obtain ⟨t1, t2⟩ := add_count_time s1' (rc - cnt')
    have hz3 : load_hazptr_vals (if rc - cnt' ≠ 0 then add_count s1' (rc - cnt') else s1')
        = [] := by
      have : load_hazptr_vals (if rc - cnt' ≠ 0 then add_count s1' (rc - cnt') else s1')
          = load_hazptr_vals s1' := by
        split <;> rfl
      rw [this]; exact y1
    have hd3 : never_due clock (if rc - cnt' ≠ 0 then add_count s1' (rc - cnt') else s1') := by
      intro k hk
      rw [t2]
      rw [t1] at hk
      exact d1' k hk
    have hlen : ((shards_all s1').length : Int) ≤ ((shards_all s).length : Int) := by
      exact_mod_cast l1'
    apply iter_tail_quiet next _ _
      (fun x => never_due clock x ∧ x.count_ + ((shards_all x).length : Int) < kReclaimThreshold)
    · rw [a1, kc, hcnt2]
      omega
    · intro _
      refine ⟨hd3, ?_⟩
      show (if rc - cnt' ≠ 0 then add_count s1' (rc - cnt') else s1').count_
        + ((shards_all (if rc - cnt' ≠ 0 then add_count s1' (rc - cnt') else s1')).length : Int)
        < kReclaimThreshold
      rw [a1, a2, kc, hcnt2]
      omega
    · intro _
      apply hq
      · exact hz3
      · exact hd3
      · rw [a2]
        intro x hx
        obtain ⟨_, run, _, _, _, p⟩ := i2
        rw [List.append_nil] at p
        exact hl x (p.subset (List.mem_append_right _ hx))
      · exact le_refl _
      · rw [a2]; omega
      · rw [a1, a2, kc, hcnt2]
        omega
  · have hfalse : (extract_retired_objects s).2.2 = false := by simpa using hne
    rw [hfalse]
    simp only [Bool.false_eq_true, if_false]
    obtain ⟨a1, a2⟩ := add_count_fields (extract_retired_objects s).2.1 rc
    obtain ⟨t1, t2⟩ := add_count_time (extract_retired_objects s).2.1 rc
    have e0 := extract_nonempty_false s hfalse
    rw [e0] at hb
    simp only [List.length_nil, Nat.cast_zero, add_zero] at hb
    apply iter_tail_quiet next _ _
      (fun x => never_due clock x ∧ x.count_ + ((shards_all x).length : Int) < kReclaimThreshold)
    · rw [a1, c1]; exact hb
    · intro _
      refine ⟨?_, ?_⟩
      · intro k hk
        have hk' : (if rc ≠ 0 then add_count (extract_retired_objects s).2.1 rc
            else (extract_retired_objects s).2.1).clock_reads ≤ k := hk
        rw [t1] at hk'
        show clock k < (if rc ≠ 0 then add_count (extract_retired_objects s).2.1 rc
            else (extract_retired_objects s).2.1).due_time_
        rw [t2]
        exact hd1 k hk'
      · show (if rc ≠ 0 then add_count (extract_retired_objects s).2.1 rc
            else (extract_retired_objects s).2.1).count_
          + ((shards_all (if rc ≠ 0 then add_count (extract_retired_objects s).2.1 rc
            else (extract_retired_objects s).2.1)).length : Int) < kReclaimThreshold
        rw [a1, a2, sh1, c1]
        simpa using hb
    · intro hnd
      exact absurd trivial hnd

theorem do_reclamation_no_nesting_quiet (clock : Nat → Nat) (fuel : Nat) :
    rec_quiet clock fuel (do_reclamation_no_nesting clock fuel) := by
  induction fuel with
  | zero => intro t rc _ _ _ _ h _; omega
  | succ n ih =>
    intro t rc hz hd hl hrc hm hb
    rw [do_reclamation_no_nesting_succ]
    exact do_reclamation_iter_in_quiet rec_ok_none rec_count_none clock ih t rc hz hd hl hrc
      (by omega) hb

theorem check_due_time_time (clock : Nat → Nat) (t s : reclaimer)
    (h1 : t.clock_reads = s.clock_reads) (h2 : t.due_time_ = s.due_time_) :
    (check_due_time clock t).2.due_time_ = (check_due_time clock s).2.due_time_ ∧
    (check_due_time clock t).2.clock_reads = s.clock_reads + 1 := by
  unfold check_due_time
  simp only [h1, h2]
  split
  · exact ⟨rfl, rfl⟩
  · split <;> split <;> exact ⟨rfl, rfl⟩

theorem check_due_time_not_due (clock : Nat → Nat) (t : reclaimer)
    (h : clock t.clock_reads < t.due_time_) :
    check_due_time clock t = (0, { t with clock_reads := t.clock_reads + 1 }) := by
  unfold check_due_time
  simp only [h, if_true]

theorem check_due_time_due (clock : Nat → Nat) (t : reclaimer)
    (h : ¬ clock t.clock_reads < t.due_time_) (hc : 0 ≤ t.count_) :
    (check_due_time clock t).1 = t.count_ ∧ (check_due_time clock t).2.count_ = 0 := by
  unfold check_due_time
  simp only [h, if_false]
  have : ¬ t.count_ < 0 := by omega
  simp only [this, if_false, and_self]

theorem closure_thing_chain (raw addr : Nat → Nat) (hraw : ∀ k, raw k ≠ 0) (n : Nat) :
    closure_list [thing_chain raw addr n]
      = ((List.range (n + 1)).map (thing_chain raw addr)).reverse := by
  induction n with
  | zero =>
    rw [closure_list_cons]
    have e1 : (List.range (0 + 1)).map (thing_chain raw addr)
        = [retire_node.mk (raw 0) (addr 0) []] := rfl
    rw [e1]
    simp [thing_chain, retire_node.deleter, closure_list]
  | succ k ih =>
    rw [closure_list_cons]
    have hd : (thing_chain raw addr (k + 1)).deleter = [thing_chain raw addr k] := by
      simp [thing_chain, retire_node.deleter, hraw]
    rw [hd, ih]
    rw [List.range_succ (n := k + 1), List.map_append, List.reverse_append]
    simp [closure_list]

theorem thing_chain_deleter (raw addr : Nat → Nat) (k : Nat) :
    (thing_chain raw addr k).deleter.length ≤ 1 := by
  cases k with
  | zero => simp [thing_chain, retire_node.deleter]
  | succ j =>
    simp only [thing_chain, retire_node.deleter]
    split <;> simp

theorem thing_chain_at_most_one (raw addr : Nat → Nat) (hraw : ∀ k, raw k ≠ 0) (n : Nat) :
    retires_at_most_one [thing_chain raw addr n] := by
  intro x hx
  rw [closure_thing_chain raw addr hraw] at hx
  simp only [List.mem_reverse, List.mem_map, List.mem_range] at hx
  obtain ⟨k, _, rfl⟩ := hx
  exact thing_chain_deleter raw addr k

theorem retires_at_most_one_perm {a b : List retire_node} (h : a.Perm b)
    (hl : retires_at_most_one a) : retires_at_most_one b := by
  intro x hx
  exact hl x ((closure_list_perm h).symm.subset hx)

/-- A `retire` whose trigger leaves the clock before the due-time for good
returns without any deleter starting a pass of its own, when every deleter
retires at most one record and no slot publishes anything. -/
theorem retire_no_nesting_returns (clock : Nat → Nat) (fuel : Nat) (node : retire_node)
    (s : reclaimer) (hz : load_hazptr_vals s = [])
    (hq : ∀ k, s.clock_reads < k → clock k < (check_due_time clock s).2.due_time_)
    (hl : retires_at_most_one (node :: shards_all s)) (hc0 : 0 ≤ s.count_)
    (hb : s.count_ + ((shards_all s).length : Int) + 2 < kReclaimThreshold)
    (hm : (closure_list (node :: shards_all s)).length < fuel) :
    ∃ s1, retire_no_nesting clock fuel node s = some s1 ∧ never_due clock s1 ∧
      s1.count_ + ((shards_all s1).length : Int) < kReclaimThreshold := by
  have hperm := shards_all_push s _ (shard_index_lt node.address) node
  have e1 : shards_all (add_count (retired_list_push s ((node.address >>> 8) &&& kShardMask) node) 1)
      = shards_all (retired_list_push s ((node.address >>> 8) &&& kShardMask) node) := rfl
  have hc2 : (add_count (retired_list_push s ((node.address >>> 8) &&& kShardMask) node) 1).count_
      = s.count_ + 1 := rfl
  have hlen : ((shards_all (add_count
      (retired_list_push s ((node.address >>> 8) &&& kShardMask) node) 1)).length : Int)
      = ((shards_all s).length : Int) + 1 := by
    rw [e1, hperm.length_eq]; simp
  have hpos : (0 : Int) ≤ ((shards_all s).length : Int) := Int.natCast_nonneg _
  unfold retire_no_nesting push_list
  simp only
  by_cases hdue : clock s.clock_reads < s.due_time_
  · rw [check_threshold_and_reclaim_quiet _ clock
      (add_count (retired_list_push s ((node.address >>> 8) &&& kShardMask) node) 1)
      (by rw [hc2]; omega) hdue]
    refine ⟨_, rfl, ?_, ?_⟩
    · intro k hk
      have hk' : s.clock_reads + 1 ≤ k := hk
      have := hq k (by omega)
      rw [check_due_time_not_due clock s hdue] at this
      exact this
    · show (add_count (retired_list_push s ((node.address >>> 8) &&& kShardMask) node) 1).count_
        + ((shards_all (add_count
            (retired_list_push s ((node.address >>> 8) &&& kShardMask) node) 1)).length : Int)
        < kReclaimThreshold
      rw [hc2, hlen]; omega
  · unfold check_threshold_and_reclaim
    have e2 : check_count_threshold
        (add_count (retired_list_push s ((node.address >>> 8) &&& kShardMask) node) 1)
        = ((0 : Int), add_count (retired_list_push s ((node.address >>> 8) &&& kShardMask) node) 1) := by
      unfold check_count_threshold
      have : ¬ ((add_count (retired_list_push s ((node.address >>> 8) &&& kShardMask) node)
          1).count_ ≥ kReclaimThreshold) := by rw [hc2]; omega
      simp only [this, if_false]
    rw [e2]
    simp only [if_true]
    obtain ⟨d1, d2⟩ := check_due_time_due clock
      (add_count (retired_list_push s ((node.address >>> 8) &&& kShardMask) node) 1) hdue
      (by rw [hc2]; omega)
    obtain ⟨t1, t2⟩ := check_due_time_time clock
      (add_count (retired_list_push s ((node.address >>> 8) &&& kShardMask) node) 1) s rfl rfl
    obtain ⟨v1, v2, _⟩ := check_due_time_view clock
      (add_count (retired_list_push s ((node.address >>> 8) &&& kShardMask) node) 1)
    have hne : ¬ ((check_due_time clock
        (add_count (retired_list_push s ((node.address >>> 8) &&& kShardMask) node) 1)).1 = 0) := by
      rw [d1, hc2]; omega
    rw [if_neg hne]
    have hsh : shards_all (inc_num_bulk_reclaims (check_due_time clock
        (add_count (retired_list_push s ((node.address >>> 8) &&& kShardMask) node) 1)).2)
        = shards_all (retired_list_push s ((node.address >>> 8) &&& kShardMask) node) := by
      have : shards_all (inc_num_bulk_reclaims (check_due_time clock
          (add_count (retired_list_push s ((node.address >>> 8) &&& kShardMask) node) 1)).2)
          = shards_all (check_due_time clock
          (add_count (retired_list_push s ((node.address >>> 8) &&& kShardMask) node) 1)).2 := rfl
      rw [this, shards_all_congr v2, e1]
    apply do_reclamation_no_nesting_quiet clock fuel
    · have : load_hazptr_vals (inc_num_bulk_reclaims (check_due_time clock
          (add_count (retired_list_push s ((node.address >>> 8) &&& kShardMask) node) 1)).2)
          = load_hazptr_vals (check_due_time clock
          (add_count (retired_list_push s ((node.address >>> 8) &&& kShardMask) node) 1)).2 := rfl
      rw [this, load_hazptr_vals_congr v1]
      exact hz
    · intro k hk
      have hk' : (check_due_time clock
          (add_count (retired_list_push s ((node.address >>> 8) &&& kShardMask) node) 1)).2.clock_reads
          ≤ k := hk
      rw [t2] at hk'
      show clock k < (check_due_time clock
          (add_count (retired_list_push s ((node.address >>> 8) &&& kShardMask) node) 1)).2.due_time_
      rw [t1]
      exact hq k (by omega)
    · rw [hsh]
      exact retires_at_most_one_perm hperm.symm hl
    · rw [d1, hc2]; omega
    · rw [hsh, (closure_list_perm hperm).length_eq]
      exact hm
    · rw [hsh, hperm.length_eq, d1, hc2]
      show (check_due_time clock
          (add_count (retired_list_push s ((node.address >>> 8) &&& kShardMask) node) 1)).2.count_
          + _ + _ < _
      rw [d2]
      simp only [List.length_cons]
      push_cast
      omega

/-- With the clock before the due-time for good, `reclaim()` returns without
any deleter starting a pass of its own, when every deleter retires at most one
record and no slot publishes anything. -/
theorem reclaim_no_nesting_returns (clock : Nat → Nat) (fuel : Nat) (s : reclaimer)
    (hz : load_hazptr_vals s = []) (hn : s.num_bulk_reclaims_ = 0) (hd : never_due clock s)
    (hl : retires_at_most_one (shards_all s))
    (hb : s.count_ + ((shards_all s).length : Int) < kReclaimThreshold)
    (hm : (closure_list (shards_all s)).length < fuel) :
    ∃ s2, reclaim_no_nesting clock fuel s = some s2 := by
  obtain ⟨s2, h, _, _⟩ := do_reclamation_no_nesting_quiet clock fuel (inc_num_bulk_reclaims s) 0
    hz hd hl (le_refl _) hm (by
      show s.count_ + 0 + ((shards_all s).length : Int) < kReclaimThreshold
      omega)
  refine ⟨s2, ?_⟩
  unfold reclaim_no_nesting
  rw [h]
  obtain ⟨_, _, r3⟩ := do_reclamation_count clock _ _ _ _
    (do_reclamation_no_nesting_le clock fuel _ _ _ h)
  have hn2 : s2.num_bulk_reclaims_ = 0 := by
    rw [r3 (inc_num_bulk_valid s), dec_inc_num_bulk s (by omega), hn]
  simp [hn2]

/-! ## Claim C11: a chain of deleters is destroyed by the loop of one pass -/

/-- C11. A chain of `n + 1` objects in which destroying object `k + 1` retires
object `k` (the test `destruction_test`, where `n + 1 = 2000`): in a domain at
rest that holds no record and in which no slot publishes anything, retiring
the head of the chain and calling `reclaim()` both return, whatever the clock
reads; afterwards no shard holds a record and the deleters that have run are
exactly those of the `n + 1` objects, each once.  When the clock does not
reach the due-time again once the first `retire` has evaluated its trigger,
no deleter starts a pass of its own: the same two states are reached by the
loop of `do_reclamation` alone, every record retired by a deleter being picked
up by a later iteration of the pass that is running. -/
theorem C11_chain_destroyed_by_loop (clock : Nat → Nat) (s : reclaimer) (raw addr : Nat → Nat)
    (n : Nat) (hraw : ∀ k, raw k ≠ 0) (hz : load_hazptr_vals s = [])
    (hsh : shards_all s = []) (hc : s.count_ = 0) (hb : s.num_bulk_reclaims_ = 0) :
    ∃ s1 s2, retire clock (n + 2) (thing_chain raw addr n) s = some s1 ∧
      reclaim clock (n + 2) s1 = some s2 ∧ shards_all s2 = [] ∧
      (∃ run, s2.deleted = run ++ s.deleted ∧
        run.Perm ((List.range (n + 1)).map (thing_chain raw addr))) ∧
      ((∀ k, s.clock_reads < k → clock k < (check_due_time clock s).2.due_time_) →
        retire_no_nesting clock (n + 2) (thing_chain raw addr n) s = some s1 ∧
        reclaim_no_nesting clock (n + 2) s1 = some s2) := by
  have hcl := closure_thing_chain raw addr hraw n
  have hlen : (closure_list [thing_chain raw addr n]).length = n + 1 := by
    rw [hcl]; simp
  have hex : excess s = 0 := by
    unfold excess; rw [hsh, hc]; simp
  have hK : (0 : Int) < kReclaimThreshold := by decide
  obtain ⟨s1, h1⟩ := retire_free clock (n + 2) (thing_chain raw addr n) s hz
    (by rw [hex]; exact hK)
    (by rw [hsh, hlen]; simp [closure_list])
  have i1 := push_list_inv (do_reclamation_ok clock (n + 2)) clock _ s s1 h1
  have pc1 := push_list_count (do_reclamation_count clock (n + 2)) clock _ s s1 h1
  obtain ⟨z1, z2, z3⟩ := pass_free i1 pc1 hz
  rw [hsh, hlen] at z3
  simp only [closure_list, List.length_nil, Nat.add_zero, Nat.zero_add] at z3
  have lt1 := retire_count_below_threshold clock _ _ s s1 h1
  have nb1 : s1.num_bulk_reclaims_ = 0 := by rw [pc1.2.2 (by omega), hb]
  obtain ⟨s2, h2⟩ := reclaim_free clock (n + 2) s1 z1 nb1 lt1
    (by rw [z2, hex]; exact hK) (by omega)
  obtain ⟨i2, hf, _⟩ := reclaim_ok clock (n + 2) s1 s2 h2
  obtain ⟨f, run, d, z, m, p⟩ := pass_inv_trans i1 i2
  have hnil : shards_all s2 = [] := by
    apply List.eq_nil_iff_forall_not_mem.mpr
    intro R
    exact not_mem_final_of_unprotected hf R (by rw [z1]; simp)
  refine ⟨s1, s2, h1, h2, hnil, ⟨run, d, ?_⟩, ?_⟩
  · rw [hnil, hsh] at p
    simp only [List.append_nil, List.nil_append] at p
    have e : closure_list ([] : List retire_node) = [] := rfl
    rw [e, List.append_nil, hcl] at p
    exact p.trans (List.reverse_perm _)
  · intro hq
    obtain ⟨s1', e1', d1', b1'⟩ := retire_no_nesting_returns clock (n + 2)
      (thing_chain raw addr n) s hz hq
      (by rw [hsh]; exact thing_chain_at_most_one raw addr hraw n)
      (by rw [hc])
      (by rw [hc, hsh]; decide)
      (by rw [hsh, hlen]; omega)
    have e1 := retire_no_nesting_le clock _ _ s s1' e1'
    rw [h1] at e1
    cases e1
    have hl1 : retires_at_most_one (shards_all s1) := by
      intro x hx
      obtain ⟨_, run1, _, _, _, p1⟩ := i1
      rw [hsh] at p1
      exact thing_chain_at_most_one raw addr hraw n x
        (p1.subset (List.mem_append_right _ hx))
    obtain ⟨s2', e2'⟩ := reclaim_no_nesting_returns clock (n + 2) s1 z1 nb1 d1' hl1 b1'
      (by omega)
    have e2 := reclaim_no_nesting_le clock _ s1 s2' e2'
    rw [h2] at e2
    cases e2
    exact ⟨e1', e2'⟩

theorem C11_witness :
    ∃ s1 s2,
      retire (fun _ => 5) 2001
        (thing_chain (fun k => 8192 + 32 * k) (fun k => 65536 + 64 * k) 1999)
        reclaimer.init = some s1 ∧
      reclaim (fun _ => 5) 2001 s1 = some s2 ∧ shards_all s2 = [] ∧
      s2.deleted.length = 2000 ∧
      retire_no_nesting (fun _ => 5) 2001
        (thing_chain (fun k => 8192 + 32 * k) (fun k => 65536 + 64 * k) 1999)
        reclaimer.init = some s1 ∧
      reclaim_no_nesting (fun _ => 5) 2001 s1 = some s2 := by
  obtain ⟨s1, s2, h1, h2, h3, ⟨run, d, p⟩, h5⟩ :=
    C11_chain_destroyed_by_loop (fun _ => 5) reclaimer.init
      (fun k => 8192 + 32 * k) (fun k => 65536 + 64 * k) 1999
      (fun k => by show 8192 + 32 * k ≠ 0; omega) rfl shards_all_init rfl rfl
  obtain ⟨h6, h7⟩ := h5 (by
    intro k _
    simp [check_due_time, reclaimer.init, kSyncTimePeriod])
  refine ⟨s1, s2, h1, h2, h3, ?_, h6, h7⟩
  rw [d, List.length_append, p.length_eq]
  simp [reclaimer.init]

/-! ## Claim C12: the final sweep when the domain is destroyed -/

theorem reclaim_all_objects_loop_plain (rec : reclaimer → Int → Option reclaimer)
    (clock : Nat → Nat) (l : List Nat) (s : reclaimer) (hn : l.Nodup)
    (hd : ∀ i ∈ l, ∀ r ∈ s.retired_list_ i, r.deleter = []) :
    reclaim_all_objects_loop rec clock l s =
      some { s with
        retired_list_ := fun j => if j ∈ l then [] else s.retired_list_ j,
        deleted := (l.flatMap s.retired_list_).reverse ++ s.deleted } := by
  induction l generalizing s with
  | nil => simp [reclaim_all_objects_loop]
  | cons i rest ih =>
    simp only [reclaim_all_objects_loop, retired_list_pop_all]
    rw [reclaim_obj_plain rec clock _ _ (hd i (List.mem_cons_self _ _))]
    simp only
    have hi : i ∉ rest := (List.nodup_cons.mp hn).1
    rw [ih _ (List.nodup_cons.mp hn).2 (by
      intro j hj r hr
      have hji : j ≠ i := fun h => hi (h ▸ hj)
      simp only [hji, if_false] at hr
      exact hd j (List.mem_cons_of_mem _ hj) r hr)]
    congr 1
    have e1 : (fun j => if j ∈ rest then [] else if j = i then [] else s.retired_list_ j)
        = (fun j => if j ∈ i :: rest then [] else s.retired_list_ j) := by
      funext j
      by_cases h1 : j ∈ rest
      · simp [h1]
      · by_cases h2 : j = i
        · simp [h2]
        · simp [h1, h2]
    have e2 : rest.flatMap (fun j => if j = i then [] else s.retired_list_ j)
        = rest.flatMap s.retired_list_ := by
      apply List.flatMap_congr
      intro j hj
      have hji : j ≠ i := fun h => hi (h ▸ hj)
      simp [hji]
    simp only [e1, e2, List.flatMap_cons, List.reverse_append, List.append_assoc]

/-- C12. What `reclaim_all_objects()`, the body of `~reclaimer`, does.  When
the deleters of the held records retire nothing, it returns with every held
record destroyed, whatever the retired-count and the slots say, and with no
record in any shard.  It sweeps each shard once, in index order, so a record
that a deleter retires into a shard already swept stays there for good: in
`teardown_state` the deleter of the record held in shard 0 retires a record
that hashes to shard 0, and when the destructor is done that record is still
held in shard 0 and its own deleter has not run. -/
theorem C12_teardown_keeps_record_retired_by_deleter :
    (∀ (clock : Nat → Nat) (fuel : Nat) (s : reclaimer),
      (∀ r ∈ shards_all s, r.deleter = []) →
      ∃ s', reclaim_all_objects clock fuel s = some s' ∧ shards_all s' = [] ∧
        s'.deleted = (shards_all s).reverse ++ s.deleted ∧ same_slots s s' ∧
        s'.count_ = s.count_) ∧
    (∀ fuel, ∃ s', reclaim_all_objects (fun _ => 5) fuel teardown_state = some s' ∧
      s'.deleted = [retire_node.mk 8192 2048 [retire_node.mk 8224 4096 []]] ∧
      shards_all s' = [retire_node.mk 8224 4096 []] ∧
      s'.retired_list_ 0 = [retire_node.mk 8224 4096 []]) := by
  constructor
  · intro clock fuel s hd
    refine ⟨_, reclaim_all_objects_loop_plain _ clock (List.range kNumShards) s
      (List.nodup_range _) ?_, ?_, rfl, ⟨rfl, rfl, rfl, rfl, rfl⟩, rfl⟩
    · intro i hi r hr
      exact hd r (mem_shards_all.mpr ⟨i, List.mem_range.mp hi, hr⟩)
    · apply shards_all_nil
      intro i hi
      simp [List.mem_range.mpr hi]
  · intro fuel
    exact ⟨_, rfl, rfl, rfl, rfl⟩

theorem C12_witness :
    ∃ s', reclaim_all_objects (fun k => k) 0 basic_protection_state = some s' ∧
      shards_all s' = [] ∧ s'.deleted = [retire_node.mk 4096 768 []] ∧
      s'.holder_ptr 1 = 4096 := by
  obtain ⟨s', h1, h2, h3, h4, _⟩ :=
    C12_teardown_keeps_record_retired_by_deleter.1 (fun k => k) 0 basic_protection_state
      (by
        intro r hr
        have : shards_all basic_protection_state = [retire_node.mk 4096 768 []] := rfl
        rw [this] at hr
        simp only [List.mem_singleton] at hr
        subst hr
        rfl)
  refine ⟨s', h1, h2, ?_, ?_⟩
  · rw [h3]; rfl
  · rw [h4.2.2.2.1]; rfl

/-! ## Claim C13: compaction of the directory -/

theorem mem_compact_collect (l set : List Nat) (a : Nat) :
    a ∈ compact_collect l set ↔ a ∈ l ∨ a ∈ set := by
  induction l generalizing set with
  | nil => simp [compact_collect]
  | cons x xs ih =>
    simp only [compact_collect, ih, List.mem_insert_iff, List.mem_cons]
    tauto

theorem nodup_compact_collect (l set : List Nat) (h : set.Nodup) :
    (compact_collect l set).Nodup := by
  induction l generalizing set with
  | nil => exact h
  | cons x xs ih =>
    simp only [compact_collect]
    exact ih _ (h.insert)

theorem compact_relink_spec (set : List Nat) (l chain : List Nat) (size : Nat) :
    (compact_relink set l chain size).1 = chain ++ l.filter (fun a => decide (a ∉ set)) ∧
    (compact_relink set l chain size).2 % 4294967296
      = (size + (l.filter (fun a => decide (a ∉ set))).length) % 4294967296 ∧
    (size < 4294967296 → (compact_relink set l chain size).2 < 4294967296) := by
  induction l generalizing chain size with
  | nil => simp [compact_relink]
  | cons x xs ih =>
    by_cases hx : x ∈ set
    · have hc : ¬ ¬ (set.contains x = true) := by simpa using hx
      have hf : (x :: xs).filter (fun a => decide (a ∉ set))
          = xs.filter (fun a => decide (a ∉ set)) := by simp [List.filter_cons, hx]
      rw [compact_relink, if_neg hc, hf]
      exact ih chain size
    · have hc : ¬ (set.contains x = true) := by simpa using hx
      have hf : (x :: xs).filter (fun a => decide (a ∉ set))
          = x :: xs.filter (fun a => decide (a ∉ set)) := by simp [List.filter_cons, hx]
      rw [compact_relink, if_pos hc, hf]
      obtain ⟨i1, i2, i3⟩ := ih (chain ++ [x]) ((size + 1) % 4294967296)
      refine ⟨?_, ?_, ?_⟩
      · rw [i1]; simp
      · rw [i2]
        simp only [List.length_cons]
        omega
      · intro _
        exact i3 (Nat.mod_lt _ (by decide))

theorem compact_find_head_spec (set : List Nat) (l : List Nat) :
    (match (compact_find_head set l).1 with
      | none => l.filter (fun a => decide (a ∉ set)) = [] ∧ (compact_find_head set l).2.1 = 0
      | some h =>
        l.filter (fun a => decide (a ∉ set))
          = h :: (compact_find_head set l).2.2.filter (fun a => decide (a ∉ set)) ∧
        (compact_find_head set l).2.1 = 1) := by
  induction l with
  | nil => simp [compact_find_head]
  | cons x xs ih =>
    by_cases hx : x ∈ set
    · have hc : ¬ ¬ (set.contains x = true) := by simpa using hx
      have hf : (x :: xs).filter (fun a => decide (a ∉ set))
          = xs.filter (fun a => decide (a ∉ set)) := by simp [List.filter_cons, hx]
      rw [compact_find_head, if_neg hc, hf]
      exact ih
    · have hc : ¬ (set.contains x = true) := by simpa using hx
      have hf : (x :: xs).filter (fun a => decide (a ∉ set))
          = x :: xs.filter (fun a => decide (a ∉ set)) := by simp [List.filter_cons, hx]
      rw [compact_find_head, if_pos hc, hf]
      exact ⟨rfl, rfl⟩

theorem compact_spec (s : reclaimer) (l : List Nat) :
    (compact s l).1.holder_list_ = s.holder_list_.filter (fun a => decide (a ∉ l)) ∧
    (compact s l).1.holder_list_size_ % 4294967296
      = (s.holder_list_.filter (fun a => decide (a ∉ l))).length % 4294967296 ∧
    (compact s l).1.holder_list_size_ < 4294967296 ∧
    (∀ a, a ∈ (compact s l).2 ↔ a ∈ l) ∧ (compact s l).2.Nodup := by
  have hset : ∀ a, a ∈ compact_collect l [] ↔ a ∈ l := by
    intro a; rw [mem_compact_collect]; simp
  have hfil : ∀ m : List Nat, m.filter (fun a => decide (a ∉ compact_collect l []))
      = m.filter (fun a => decide (a ∉ l)) := by
    intro m
    apply List.filter_congr
    intro a _
    simp [hset a]
  have h1 := compact_find_head_spec (compact_collect l []) s.holder_list_
  unfold compact
  simp only
  cases hh : (compact_find_head (compact_collect l []) s.holder_list_).1 with
  | none =>
    rw [hh] at h1
    simp only at h1
    rw [hfil] at h1
    refine ⟨?_, ?_, ?_, hset, nodup_compact_collect _ _ List.nodup_nil⟩
    · simp only [hh]
      rw [h1.1]
    · simp only [hh]
      rw [h1.1, h1.2]
      rfl
    · simp only [hh]
      rw [h1.2]
      decide
  | some h =>
    rw [hh] at h1
    simp only at h1
    rw [hfil, hfil] at h1
    obtain ⟨r1, r2, r3⟩ := compact_relink_spec (compact_collect l [])
      (compact_find_head (compact_collect l []) s.holder_list_).2.2 [h]
      (compact_find_head (compact_collect l []) s.holder_list_).2.1
    rw [hfil] at r1 r2
    refine ⟨?_, ?_, ?_, hset, nodup_compact_collect _ _ List.nodup_nil⟩
    · simp only [hh]
      rw [r1, h1.1]; rfl
    · simp only [hh]
      rw [r2, h1.1, h1.2]
      simp only [List.length_cons]
      omega
    · simp only [hh]
      exact r3 (by rw [h1.2]; decide)

/-- C13. After `delete_hazard_ptr()` the directory is the chain of the slots
that were in it and were not on the global free list, in their previous
order; the global free list is empty; the size counter is the number of slots
kept (the directory holding fewer than 2^32 slots, the range of the counter);
the slots destroyed are exactly those that were on the global free list, each
once; and nothing else of the domain has changed. -/
theorem C13_delete_hazard_ptr_compacts (s : reclaimer)
    (hlen : s.holder_list_.length < 4294967296) :
    (delete_hazard_ptr s).1.holder_list_
      = s.holder_list_.filter (fun a => decide (a ∉ s.free_list_)) ∧
    (delete_hazard_ptr s).1.free_list_ = [] ∧
    (delete_hazard_ptr s).1.holder_list_size_
      = (s.holder_list_.filter (fun a => decide (a ∉ s.free_list_))).length ∧
    (∀ a, a ∈ (delete_hazard_ptr s).2 ↔ a ∈ s.free_list_) ∧
    (delete_hazard_ptr s).2.Nodup ∧
    (delete_hazard_ptr s).1.holder_ptr = s.holder_ptr ∧
    (delete_hazard_ptr s).1.retired_list_ = s.retired_list_ ∧
    (delete_hazard_ptr s).1.count_ = s.count_ ∧
    (delete_hazard_ptr s).1.deleted = s.deleted := by
  obtain ⟨c1, c2, c3, c4, c5⟩ := compact_spec { s with free_list_ := [] } s.free_list_
  have hle := List.length_filter_le (fun a => decide (a ∉ s.free_list_)) s.holder_list_
  refine ⟨c1, rfl, ?_, c4, c5, rfl, rfl, rfl, rfl⟩
  have c2' : (delete_hazard_ptr s).1.holder_list_size_ % 4294967296
      = (s.holder_list_.filter (fun a => decide (a ∉ s.free_list_))).length % 4294967296 := c2
  have c3' : (delete_hazard_ptr s).1.holder_list_size_ < 4294967296 := c3
  omega

theorem C13_witness :
    two_flushed_state.holder_list_ = [3, 2, 1] ∧ two_flushed_state.free_list_ = [2, 3] ∧
    (delete_hazard_ptr two_flushed_state).1.holder_list_ = [1] ∧
    (delete_hazard_ptr two_flushed_state).1.free_list_ = [] ∧
    (delete_hazard_ptr two_flushed_state).1.holder_list_size_ = 1 ∧
    (∀ a, a ∈ (delete_hazard_ptr two_flushed_state).2 ↔ a = 2 ∨ a = 3) := by
  have h := C13_delete_hazard_ptr_compacts two_flushed_state (by decide)
  have e1 : two_flushed_state.holder_list_ = [3, 2, 1] := by decide
  have e2 : two_flushed_state.free_list_ = [2, 3] := by decide
  refine ⟨e1, e2, ?_, h.2.1, ?_, ?_⟩
  · rw [h.1, e1, e2]; decide
  · rw [h.2.2.1, e1, e2]; decide
  · intro a
    rw [h.2.2.2.1 a, e2]
    simp

/-! ## Claim C25: the hazard snapshot -/

/-- C25. The snapshot that `load_hazptr_vals` returns holds exactly the words
of the slots linked in the directory that are neither `INUSE` (0) nor `NOUSE`
(1): a word is in the set if and only if it is the word of a linked slot and
is neither of the two.  The method only loads (it is `const`): the embedding
returns the set alone and the state it read is the state afterwards. -/
theorem C25_snapshot_is_the_published_words (s : reclaimer) (p : Nat) :
    (p ∈ load_hazptr_vals s ↔
      ∃ a ∈ s.holder_list_, s.holder_ptr a = p ∧ p ≠ INUSE ∧ p ≠ NOUSE) ∧
    INUSE ∉ load_hazptr_vals s ∧ NOUSE ∉ load_hazptr_vals s := by
  refine ⟨?_, ?_, ?_⟩
  · rw [mem_load_hazptr_vals]
    constructor
    · rintro ⟨a, h1, h2, h3, h4⟩; exact ⟨a, h1, h2, h4, h3⟩
    · rintro ⟨a, h1, h2, h3, h4⟩; exact ⟨a, h1, h2, h4, h3⟩
  · rw [mem_load_hazptr_vals]
    rintro ⟨a, _, _, _, h⟩; exact h rfl
  · rw [mem_load_hazptr_vals]
    rintro ⟨a, _, _, h, _⟩; exact h rfl

/-! ## Claim C26: retire pushes the record on one shard -/

theorem shard_index_eq (a : Nat) : (a >>> 8) &&& kShardMask = (a / 256) % 8 := by
  have h : kShardMask = 2 ^ 3 - 1 := rfl
  rw [h, Nat.and_pow_two_sub_one_eq_mod, Nat.shiftRight_eq_div_pow]

/-- C26. A call `retire(p, deleter)` whose record is allocated at address
`addr` makes one record with `raw_ptr() = p` and pushes it at the head of the
shard of index `(addr >> 8) mod 8`, which is below 8; no other shard changes,
so that a record held nowhere before is held by that shard alone; the
retired-count has grown by exactly 1 when the trigger is evaluated; and when
the trigger starts no pass (count below the threshold, due-time not reached)
the call returns with the record still at the head of that shard. -/
theorem C26_retire_pushes_on_one_shard (clock : Nat → Nat) (fuel : Nat)
    (p addr : Nat) (retires : List retire_node) (s : reclaimer) :
    (retire_node.mk p addr retires).raw_ptr = p ∧
    (addr / 256) % 8 < kNumShards ∧
    ∃ s2, retire clock fuel (retire_node.mk p addr retires) s
        = check_threshold_and_reclaim (do_reclamation clock fuel) clock s2 ∧
      s2.count_ = s.count_ + 1 ∧
      s2.retired_list_ ((addr / 256) % 8)
        = retire_node.mk p addr retires :: s.retired_list_ ((addr / 256) % 8) ∧
      (∀ j, j ≠ (addr / 256) % 8 → s2.retired_list_ j = s.retired_list_ j) ∧
      ((∀ j, retire_node.mk p addr retires ∉ s.retired_list_ j) →
        ∀ j, retire_node.mk p addr retires ∈ s2.retired_list_ j ↔ j = (addr / 256) % 8) ∧
      (s.count_ + 1 < kReclaimThreshold → clock s.clock_reads < s.due_time_ →
        ∃ s3, retire clock fuel (retire_node.mk p addr retires) s = some s3 ∧
          s3.retired_list_ = s2.retired_list_ ∧ s3.count_ = s.count_ + 1) := by
  refine ⟨rfl, ?_, ?_⟩
  · rw [← shard_index_eq]; exact shard_index_lt addr
  · refine ⟨add_count (retired_list_push s ((addr / 256) % 8) (retire_node.mk p addr retires)) 1,
      ?_, rfl, ?_, ?_, ?_, ?_⟩
    · unfold retire push_list
      simp only [retire_node.address, shard_index_eq]
    · simp [add_count, retired_list_push]
    · intro j hj
      simp [add_count, retired_list_push, hj]
    · intro hn j
      by_cases hj : j = (addr / 256) % 8
      · subst hj
        simp [add_count, retired_list_push]
      · simp [add_count, retired_list_push, hj, hn j]
    · intro hc hd
      refine ⟨{ add_count (retired_list_push s ((addr / 256) % 8)
                (retire_node.mk p addr retires)) 1 with clock_reads := s.clock_reads + 1 }, ?_, ?_⟩
      · unfold retire push_list
        simp only [retire_node.address, shard_index_eq]
        unfold check_threshold_and_reclaim
        have e1 : check_count_threshold
            (add_count (retired_list_push s ((addr / 256) % 8) (retire_node.mk p addr retires)) 1)
            = (0, add_count (retired_list_push s ((addr / 256) % 8)
                (retire_node.mk p addr retires)) 1) := by
          unfold check_count_threshold
          rw [if_neg]
          simp only [add_count, retired_list_push]
          omega
        rw [e1]
        simp only
        have e2 : check_due_time clock
            (add_count (retired_list_push s ((addr / 256) % 8) (retire_node.mk p addr retires)) 1)
            = (0, { add_count (retired_list_push s ((addr / 256) % 8)
                (retire_node.mk p addr retires)) 1 with clock_reads := s.clock_reads + 1 }) := by
          unfold check_due_time
          simp only [add_count, retired_list_push]
          rw [if_pos hd]
        rw [e2]
        simp only [if_true]
      · exact ⟨rfl, rfl⟩

theorem C26_witness :
    ∃ s3, retire (fun _ => 5) 0 (retire_node.mk 8224 4096 []) teardown_state = some s3 ∧
      s3.retired_list_ 0
        = [retire_node.mk 8224 4096 [], retire_node.mk 8192 2048 [retire_node.mk 8224 4096 []]] ∧
      s3.count_ = 2 := by
  obtain ⟨_, _, s2, _, _, h3, _, _, h6⟩ :=
    C26_retire_pushes_on_one_shard (fun _ => 5) 0 8224 4096 [] teardown_state
  obtain ⟨s3, e1, e2, e3⟩ := h6 (by decide) (by decide)
  refine ⟨s3, e1, ?_, ?_⟩
  · rw [e2]
    exact h3
  · rw [e3]; rfl

/-! ## Claim C27: the count trigger -/

/-- C27. `check_count_threshold` returns the retired-count `c` and resets it
to 0 when `c ≥ 1000`; it returns 0 and changes nothing when `c < 1000`.
Hence a `retire` that finds the count at 999 (bringing it to 1000) starts a
reclamation pass, handing it the amount 1000 with the count reset and the
pass counted in `num_bulk_reclaims_`; and a `retire` that finds the count at
998 (bringing it to 999) while the clock reads less than the due-time
returns without starting a pass, the count being 999. -/
theorem C27_count_trigger (s : reclaimer) :
    (kReclaimThreshold ≤ s.count_ →
      (check_count_threshold s).1 = s.count_ ∧ (check_count_threshold s).2.count_ = 0) ∧
    (s.count_ < kReclaimThreshold → check_count_threshold s = (0, s)) ∧
    (∀ (rec : reclaimer → Int → Option reclaimer) (clock : Nat → Nat) (node : retire_node),
      s.count_ = 999 →
      ∃ s', push_list rec clock node s = rec s' 1000 ∧ s'.count_ = 0 ∧
        s'.num_bulk_reclaims_ = (s.num_bulk_reclaims_ + 1) % 65536 ∧
        s'.clock_reads = s.clock_reads ∧ s'.due_time_ = s.due_time_) ∧
    (∀ (rec : reclaimer → Int → Option reclaimer) (clock : Nat → Nat) (node : retire_node),
      s.count_ = 998 → clock s.clock_reads < s.due_time_ →
      ∃ s', push_list rec clock node s = some s' ∧ s'.count_ = 999 ∧
        s'.num_bulk_reclaims_ = s.num_bulk_reclaims_ ∧ s'.deleted = s.deleted) := by
  refine ⟨?_, ?_, ?_, ?_⟩
  · intro h
    unfold check_count_threshold
    rw [if_pos h]
    exact ⟨rfl, rfl⟩
  · intro h
    unfold check_count_threshold
    rw [if_neg (by omega)]
  · intro rec clock node h
    generalize hs2 : add_count (retired_list_push s ((node.address >>> 8) &&& kShardMask) node) 1
      = s2
    have hc : s2.count_ = 1000 := by rw [← hs2]; simp [add_count, retired_list_push, h]
    have hn : s2.num_bulk_reclaims_ = s.num_bulk_reclaims_ := by rw [← hs2]; rfl
    have hk : s2.clock_reads = s.clock_reads := by rw [← hs2]; rfl
    have hd : s2.due_time_ = s.due_time_ := by rw [← hs2]; rfl
    refine ⟨inc_num_bulk_reclaims { s2 with count_ := 0 }, ?_, rfl, ?_, hk, hd⟩
    · unfold push_list
      simp only [hs2]
      unfold check_threshold_and_reclaim
      have e1 : check_count_threshold s2 = (1000, { s2 with count_ := 0 }) := by
        unfold check_count_threshold
        rw [if_pos (by rw [hc]; decide), hc]
      rw [e1]
      simp only
      rw [if_neg (by decide)]
    · simp only [inc_num_bulk_reclaims, hn]
  · intro rec clock node h hdue
    generalize hs2 : add_count (retired_list_push s ((node.address >>> 8) &&& kShardMask) node) 1
      = s2
    have hc : s2.count_ = 999 := by rw [← hs2]; simp [add_count, retired_list_push, h]
    have hn : s2.num_bulk_reclaims_ = s.num_bulk_reclaims_ := by rw [← hs2]; rfl
    have hk : s2.clock_reads = s.clock_reads := by rw [← hs2]; rfl
    have hd : s2.due_time_ = s.due_time_ := by rw [← hs2]; rfl
    have hdel : s2.deleted = s.deleted := by rw [← hs2]; rfl
    refine ⟨{ s2 with clock_reads := s2.clock_reads + 1 }, ?_, hc, hn, hdel⟩
    unfold push_list
    simp only [hs2]
    unfold check_threshold_and_reclaim
    have e1 : check_count_threshold s2 = (0, s2) := by
      unfold check_count_threshold
      rw [if_neg (by rw [hc]; decide)]
    rw [e1]
    simp only
    have e2 : check_due_time clock s2 = (0, { s2 with clock_reads := s2.clock_reads + 1 }) := by
      unfold check_due_time
      simp only
      rw [if_pos (by rw [hk, hd]; exact hdue)]
    rw [e2]
    simp only [if_true]

theorem C27_witness :
    (check_count_threshold { reclaimer.init with count_ := 1000 }).1 = 1000 ∧
    (check_count_threshold { reclaimer.init with count_ := 1000 }).2.count_ = 0 ∧
    check_count_threshold { reclaimer.init with count_ := 999 }
      = (0, { reclaimer.init with count_ := 999 }) ∧
    (∃ s', push_list (fun _ _ => none) (fun _ => 5) (retire_node.mk 8224 4096 [])
        { reclaimer.init with count_ := 998, due_time_ := 2000000005 } = some s' ∧
      s'.count_ = 999) := by
  have h1 := (C27_count_trigger { reclaimer.init with count_ := 1000 }).1 (by decide)
  have h2 := (C27_count_trigger { reclaimer.init with count_ := 999 }).2.1 (by decide)
  obtain ⟨s', e1, e2, _⟩ :=
    (C27_count_trigger { reclaimer.init with count_ := 998, due_time_ := 2000000005 }).2.2.2
      (fun _ _ => none) (fun _ => 5) (retire_node.mk 8224 4096 []) rfl (by decide)
  exact ⟨h1.1, h1.2, h2, s', e1, e2⟩

/-! ## Claim C28: the time trigger -/

/-- C28. `check_due_time` with the clock reading `t`.  When `t` is earlier
than the due-time it returns 0 and changes neither the due-time nor the
retired-count.  Otherwise, `t` being a reading of the steady clock (below
2^63, the range of its nanosecond count) and the retired-count not negative,
it sets the due-time to exactly `t + 2000000000`, returns the whole
retired-count and leaves it 0.  Hence on a fresh domain (due-time 0) a
`retire` starts a reclamation pass, with amount 1, without `reclaim()` being
called; and with the due-time at `t + 2000000000` a later reading below it,
that is within the next two seconds, takes nothing: a `retire` that finds
the count below 999 then returns without starting a pass. -/
theorem C28_time_trigger (clock : Nat → Nat) (s : reclaimer) :
    (clock s.clock_reads < s.due_time_ →
      (check_due_time clock s).1 = 0 ∧ (check_due_time clock s).2.due_time_ = s.due_time_ ∧
      (check_due_time clock s).2.count_ = s.count_) ∧
    (s.due_time_ ≤ clock s.clock_reads → clock s.clock_reads < 9223372036854775808 →
      0 ≤ s.count_ →
      (check_due_time clock s).1 = s.count_ ∧
      (check_due_time clock s).2.due_time_ = clock s.clock_reads + 2000000000 ∧
      (check_due_time clock s).2.count_ = 0) ∧
    (∀ (rec : reclaimer → Int → Option reclaimer) (node : retire_node),
      clock 0 < 9223372036854775808 →
      ∃ s', push_list rec clock node reclaimer.init = rec s' 1 ∧
        s'.due_time_ = clock 0 + 2000000000 ∧ s'.count_ = 0 ∧ s'.clock_reads = 1) ∧
    (∀ (rec : reclaimer → Int → Option reclaimer) (node : retire_node),
      clock s.clock_reads < s.due_time_ → s.count_ + 1 < kReclaimThreshold →
      ∃ s', push_list rec clock node s = some s' ∧ s'.due_time_ = s.due_time_ ∧
        s'.count_ = s.count_ + 1) := by
  refine ⟨?_, ?_, ?_, ?_⟩
  · intro h
    unfold check_due_time
    simp only
    rw [if_pos h]
    exact ⟨rfl, rfl, rfl⟩
  · intro h hb hc
    unfold check_due_time
    simp only
    rw [if_neg (by omega), if_neg (by omega)]
    refine ⟨rfl, ?_, rfl⟩
    show (clock s.clock_reads + kSyncTimePeriod) % 18446744073709551616 = _
    unfold kSyncTimePeriod
    omega
  · intro rec node hb
    generalize hs2 : add_count (retired_list_push reclaimer.init
      ((node.address >>> 8) &&& kShardMask) node) 1 = s2
    have hc : s2.count_ = 1 := by rw [← hs2]; rfl
    have hk : s2.clock_reads = 0 := by rw [← hs2]; rfl
    have hd : s2.due_time_ = 0 := by rw [← hs2]; rfl
    refine ⟨inc_num_bulk_reclaims
      { s2 with clock_reads := s2.clock_reads + 1,
                due_time_ := clock 0 + 2000000000, count_ := 0 }, ?_, rfl, rfl, ?_⟩
    · unfold push_list
      simp only [hs2]
      unfold check_threshold_and_reclaim
      have e1 : check_count_threshold s2 = (0, s2) := by
        unfold check_count_threshold
        rw [if_neg (by rw [hc]; decide)]
      rw [e1]
      simp only
      have e2 : check_due_time clock s2
          = (1, { s2 with clock_reads := s2.clock_reads + 1,
                          due_time_ := clock 0 + 2000000000, count_ := 0 }) := by
        unfold check_due_time
        simp only
        rw [if_neg (by rw [hd]; omega), if_neg (by rw [hc]; decide), hc, hk]
        have : (clock 0 + kSyncTimePeriod) % 18446744073709551616 = clock 0 + 2000000000 := by
          unfold kSyncTimePeriod
          omega
        rw [this]
      rw [e2]
      simp only [if_true]
      rw [if_neg (by decide)]
    · simp only [inc_num_bulk_reclaims, hk]
  · intro rec node hdue hcnt
    generalize hs2 : add_count (retired_list_push s ((node.address >>> 8) &&& kShardMask) node) 1
      = s2
    have hc : s2.count_ = s.count_ + 1 := by rw [← hs2]; rfl
    have hk : s2.clock_reads = s.clock_reads := by rw [← hs2]; rfl
    have hd : s2.due_time_ = s.due_time_ := by rw [← hs2]; rfl
    refine ⟨{ s2 with clock_reads := s2.clock_reads + 1 }, ?_, hd, hc⟩
    unfold push_list
    simp only [hs2]
    unfold check_threshold_and_reclaim
    have e1 : check_count_threshold s2 = (0, s2) := by
      unfold check_count_threshold
      rw [if_neg (by rw [hc]; omega)]
    rw [e1]
    simp only
    have e2 : check_due_time clock s2 = (0, { s2 with clock_reads := s2.clock_reads + 1 }) := by
      unfold check_due_time
      simp only
      rw [if_pos (by rw [hk, hd]; exact hdue)]
    rw [e2]
    simp only [if_true]

theorem C28_witness :
    (check_due_time (fun _ => 7) { reclaimer.init with count_ := 3 }).1 = 3 ∧
    (check_due_time (fun _ => 7) { reclaimer.init with count_ := 3 }).2.due_time_ = 2000000007 ∧
    (check_due_time (fun _ => 7) { reclaimer.init with count_ := 3 }).2.count_ = 0 ∧
    (check_due_time (fun _ => 5) teardown_state).1 = 0 ∧
    (check_due_time (fun _ => 5) teardown_state).2.due_time_ = 2000000005 ∧
    (check_due_time (fun _ => 5) teardown_state).2.count_ = 1 := by
  have h1 := (C28_time_trigger (fun _ => 7) { reclaimer.init with count_ := 3 }).2.1
    (by decide) (by decide) (by decide)
  have h2 := (C28_time_trigger (fun _ => 5) teardown_state).1 (by decide)
  exact ⟨h1.1, h1.2.1, h1.2.2, h2.1, h2.2.1, h2.2.2⟩

/-! ## Claim C29: when the loop of a pass stops -/

theorem match_reclaim_loop_done (rec : reclaimer → Int → Option reclaimer) (clock : Nat → Nat)
    (hash_set : List Nat) (retired : List (List retire_node)) (hne : retired ≠ []) :
    ∀ (nr : linked_list) (count : Int) (done : Bool) (s : reclaimer)
      (nr' : linked_list) (count' : Int) (s' : reclaimer),
      match_reclaim_loop rec clock hash_set retired nr count done s
        = some (nr', count', true, s') →
      retired_list_empty s' = true := by
  induction retired with
  | nil => exact absurd rfl hne
  | cons x rest ih =>
    intro nr count done s nr' count' s' h
    simp only [match_reclaim_loop] at h
    cases hr : reclaim_obj rec clock
        (list_match_condition (fun obj => decide (obj.raw_ptr ∈ hash_set)) x
          linked_list.init linked_list.init).2.chain s with
    | none => rw [hr] at h; exact absurd h (by simp)
    | some s1 =>
      rw [hr] at h
      simp only at h
      cases rest with
      | nil =>
        simp only [match_reclaim_loop, Option.some.injEq, Prod.mk.injEq] at h
        obtain ⟨_, _, h3, h4⟩ := h
        subst h4
        by_cases he : retired_list_empty s1 = true
        · exact he
        · rw [if_neg he] at h3
          exact absurd h3 (by simp)
      | cons y rest' =>
        exact ih (by simp) _ _ _ _ _ _ _ h

theorem shards_all_push_list_empty (s : reclaimer) (l : List retire_node)
    (h : retired_list_empty s = true) :
    shards_all (retired_list_push_list s 0 l) = l := by
  rw [retired_list_empty_iff] at h
  unfold retired_list_push_list
  by_cases hl : l.isEmpty = true
  · rw [if_pos hl]
    rw [shards_all_nil h]
    exact (List.isEmpty_iff.mp hl).symm
  · rw [if_neg hl]
    unfold shards_all
    have h0 : s.retired_list_ 0 = [] := h 0 (by decide)
    have : ∀ i ∈ List.range kNumShards,
        (fun j => if j = 0 then l ++ s.retired_list_ 0 else s.retired_list_ j) i
          = (fun j => if j = 0 then l else []) i := by
      intro i hi
      by_cases h1 : i = 0
      · simp [h1, h0]
      · simp [h1, h i (List.mem_range.mp hi)]
    simp only
    rw [List.flatMap_congr this]
    simp [kNumShards, List.range_succ, List.flatMap]

theorem do_reclamation_iter_outcome (rec : reclaimer → Int → Option reclaimer)
    (clock : Nat → Nat) (s : reclaimer) (rcount : Int) :
    do_reclamation_iter rec clock s rcount =
      match iteration_outcome rec clock s rcount with
      | none => none
      | some (_, done, s3) =>
        if (check_count_threshold s3).1 = 0 ∧ done = true then
          some (dec_num_bulk_reclaims (check_count_threshold s3).2)
        else rec (check_count_threshold s3).2 (check_count_threshold s3).1 := by
  unfold iteration_outcome do_reclamation_iter match_reclaim
  simp only
  by_cases hne : (extract_retired_objects s).2.2 = true
  · simp only [hne, if_true]
    cases hm : match_reclaim_loop rec clock (load_hazptr_vals (extract_retired_objects s).2.1)
        (extract_retired_objects s).1 linked_list.init 0 true (extract_retired_objects s).2.1 with
    | none => rfl
    | some r => rfl
  · have hne' : (extract_retired_objects s).2.2 = false := by simpa using hne
    simp only [hne', Bool.false_eq_true, if_false]

theorem iteration_outcome_done (rec : reclaimer → Int → Option reclaimer)
    (clock : Nat → Nat) (s : reclaimer) (rcount : Int)
    (matched : List retire_node) (s3 : reclaimer)
    (h : iteration_outcome rec clock s rcount = some (matched, true, s3)) :
    shards_all s3 = matched := by
  unfold iteration_outcome at h
  simp only at h
  by_cases hne : (extract_retired_objects s).2.2 = true
  · simp only [hne, if_true] at h
    cases hm : match_reclaim_loop rec clock (load_hazptr_vals (extract_retired_objects s).2.1)
        (extract_retired_objects s).1 linked_list.init 0 true (extract_retired_objects s).2.1 with
    | none => rw [hm] at h; exact absurd h (by simp)
    | some r =>
      obtain ⟨nr, count, done, s2⟩ := r
      rw [hm] at h
      simp only [Option.some.injEq, Prod.mk.injEq] at h
      obtain ⟨e1, e2, e3⟩ := h
      subst e1 e2 e3
      have he := match_reclaim_loop_done rec clock _ (extract_retired_objects s).1
        (by simp [extract_retired_objects, kNumShards, List.range_succ]) _ _ _ _ _ _ _ hm
      have e := shards_all_push_list_empty s2 nr.chain he
      by_cases hz : rcount - count ≠ 0
      · rw [if_pos hz]; exact e
      · rw [if_neg hz]; exact e
  · have hne' : (extract_retired_objects s).2.2 = false := by simpa using hne
    simp only [hne', Bool.false_eq_true, if_false, Option.some.injEq, Prod.mk.injEq,
      true_and] at h
    obtain ⟨e1, e3⟩ := h
    subst e1 e3
    have e1 : shards_all (extract_retired_objects s).2.1 = [] := by
      apply shards_all_nil
      intro i hi
      simp [extract_retired_objects, hi]
    by_cases hz : rcount ≠ 0
    · rw [if_pos hz]; exact e1
    · rw [if_neg hz]; exact e1

/-- C29. One iteration of the loop of `do_reclamation` computes the matched
(still protected) records, the flag `done` and the refreshed retired-count
(`iteration_outcome`); then the loop stops exactly when the refreshed count is
below the threshold and `done` holds, that is when no shard was found
non-empty after destroying the unmatched records of a drained chain, and in
every other case it goes on with the next iteration, to which it hands the
consumed count.  When `done` holds the shards hold the matched records and
nothing else.  The matched set being empty is not by itself a reason to stop.
When a pass started by a deleter does not return, the iteration does not. -/
theorem C29_loop_stops_when_below_threshold_and_done
    (rec : reclaimer → Int → Option reclaimer) (clock : Nat → Nat)
    (s : reclaimer) (rcount : Int) :
    (∀ (matched : List retire_node) (done : Bool) (s3 : reclaimer),
      iteration_outcome rec clock s rcount = some (matched, done, s3) →
      (s3.count_ < kReclaimThreshold ∧ done = true →
        do_reclamation_iter rec clock s rcount = some (dec_num_bulk_reclaims s3)) ∧
      (¬ (s3.count_ < kReclaimThreshold ∧ done = true) →
        do_reclamation_iter rec clock s rcount
          = rec (check_count_threshold s3).2 (check_count_threshold s3).1) ∧
      (done = true → shards_all s3 = matched)) ∧
    (iteration_outcome rec clock s rcount = none →
      do_reclamation_iter rec clock s rcount = none) := by
  have hthr : ∀ s3 : reclaimer, ((check_count_threshold s3).1 = 0 ↔ s3.count_ < kReclaimThreshold) ∧
      (s3.count_ < kReclaimThreshold → (check_count_threshold s3).2 = s3) := by
    intro s3
    unfold check_count_threshold kReclaimThreshold
    by_cases h : s3.count_ ≥ 1000
    · rw [if_pos h]
      exact ⟨⟨fun h' => by simp only at h'; omega, fun h' => by omega⟩, fun h' => by omega⟩
    · rw [if_neg h]
      exact ⟨⟨fun _ => by omega, fun _ => rfl⟩, fun _ => rfl⟩
  rw [do_reclamation_iter_outcome]
  constructor
  · intro matched done s3 h
    rw [h]
    simp only
    refine ⟨?_, ?_, ?_⟩
    · intro hc
      rw [if_pos ⟨(hthr s3).1.mpr hc.1, hc.2⟩, (hthr s3).2 hc.1]
    · intro hc
      rw [if_neg]
      intro h'
      exact hc ⟨(hthr s3).1.mp h'.1, h'.2⟩
    · intro hd
      subst hd
      exact iteration_outcome_done rec clock s rcount matched s3 h
  · intro h
    rw [h]

theorem C29_witness :
    ∃ s', do_reclamation_iter (fun _ _ => none) (fun k => k) basic_protection_state 0 = some s' ∧
      shards_all s' = [retire_node.mk 4096 768 []] := by
  obtain ⟨h, _⟩ := C29_loop_stops_when_below_threshold_and_done (fun _ _ => none) (fun k => k)
    basic_protection_state 0
  obtain ⟨h1, _, h3⟩ := h [retire_node.mk 4096 768 []] true _ rfl
  exact ⟨_, h1 ⟨by decide, rfl⟩, h3 rfl⟩

/-- C29, counterexample to the second stop condition.  In `teardown_state`
(shard 0 holds one record whose deleter retires another record; no slot
publishes anything) with the clock below the due-time, the first iteration of
a pass matches no record, yet the loop does not stop: the record that the
deleter retired is in shard 0, `done` is false, and the iteration hands over
to the next one (so it returns nothing when the next iteration never
returns). -/
theorem C29_loop_repeats_when_nothing_matched :
    ∃ s3, iteration_outcome (fun _ _ => none) (fun _ => 5) teardown_state 0
        = some ([], false, s3) ∧
      s3.count_ = 1 ∧ s3.retired_list_ 0 = [retire_node.mk 8224 4096 []] ∧
      s3.deleted = [retire_node.mk 8192 2048 [retire_node.mk 8224 4096 []]] ∧
      do_reclamation_iter (fun _ _ => none) (fun _ => 5) teardown_state 0 = none ∧
      ∀ rec : reclaimer → Int → Option reclaimer,
        do_reclamation_iter rec (fun _ => 5) teardown_state 0 = rec s3 0 :=
  ⟨_, rfl, rfl, rfl, rfl, rfl, fun _ => rfl⟩

/-! ## Claim C30: the size counter of the directory -/

theorem dir_size_ok_make_holder (s : reclaimer) (h : dir_size_ok s) :
    dir_size_ok (make_holder s).2 := by
  unfold make_holder
  cases hf : s.free_list_ with
  | nil =>
    simp only [make_new_holder, store_ptr, dir_size_ok, List.length_cons]
    unfold dir_size_ok at h
    rw [h]
    omega
  | cons a l => exact h

theorem dir_size_ok_reserve_hazp_loop (n : Nat) (w : world) (h : dir_size_ok w.dom) :
    dir_size_ok (reserve_hazp_loop n w).dom := by
  induction n generalizing w with
  | zero => exact h
  | succ n ih =>
    simp only [reserve_hazp_loop]
    exact ih _ (dir_size_ok_make_holder _ h)

theorem dir_size_ok_reserve_hazp (size : Nat) (w : world) (h : dir_size_ok w.dom) :
    dir_size_ok (reserve_hazp size w).dom := by
  unfold reserve_hazp
  simp only
  split
  · exact h
  · exact dir_size_ok_reserve_hazp_loop _ _ h

theorem dir_size_ok_get_hazard_ptr (w : world) (h : dir_size_ok w.dom) :
    dir_size_ok (get_hazard_ptr w).2.dom := by
  unfold get_hazard_ptr
  split
  · exact dir_size_ok_make_holder _ h
  · exact h

theorem dir_size_ok_get_hazard_ptrs (size : Nat) (w : world) (h : dir_size_ok w.dom) :
    dir_size_ok (get_hazard_ptrs size w).2.dom := by
  unfold get_hazard_ptrs
  simp only
  split
  · exact dir_size_ok_reserve_hazp _ _ h
  · exact h

theorem evict_hazard_ptr_loop_size (l : List Nat) (d : reclaimer) (st : List Nat) :
    (evict_hazard_ptr_loop l d st).1.holder_list_size_ = d.holder_list_size_ := by
  induction l generalizing d st with
  | nil => rfl
  | cons x xs ih =>
    simp only [evict_hazard_ptr_loop]
    rw [ih]
    rfl

theorem dir_size_ok_op (op : dir_op) (w : world) (h : dir_size_ok w.dom) :
    dir_size_ok (op.run w).dom := by
  cases op with
  | make_hazard_ptr a => exact dir_size_ok_get_hazard_ptr w h
  | make_hazard_ptr_array size a => exact dir_size_ok_get_hazard_ptrs size w h
  | reserve_hazp size => exact dir_size_ok_reserve_hazp size w h
  | hazard_ptr_dtor a =>
    simp only [dir_op.run, hazard_ptr_dtor]
    split
    · exact h
    · exact h
  | evict_hazard_ptr =>
    simp only [dir_op.run, evict_hazard_ptr, dir_size_ok]
    rw [evict_hazard_ptr_loop_size, (evict_hazard_ptr_loop_spec _ _ _).2.1]
    exact h
  | delete_hazard_ptr =>
    simp only [dir_op.run, dir_size_ok]
    obtain ⟨c1, c2, c3, _, _⟩ := compact_spec { w.dom with free_list_ := [] } w.dom.free_list_
    have c1' : (delete_hazard_ptr w.dom).1.holder_list_
        = w.dom.holder_list_.filter (fun a => decide (a ∉ w.dom.free_list_)) := c1
    have c2' : (delete_hazard_ptr w.dom).1.holder_list_size_ % 4294967296
        = (w.dom.holder_list_.filter (fun a => decide (a ∉ w.dom.free_list_))).length
            % 4294967296 := c2
    have c3' : (delete_hazard_ptr w.dom).1.holder_list_size_ < 4294967296 := c3
    rw [c1']
    omega

theorem dir_size_ok_run (ops : List dir_op) (w : world) (h : dir_size_ok w.dom) :
    dir_size_ok (dir_run ops w).dom := by
  induction ops generalizing w with
  | nil => exact h
  | cons op rest ih => exact ih _ (dir_size_ok_op op w h)

/-- C30. In every state that the calls creating slots (`make_hazard_ptr`,
`make_hazard_ptr<size>`, `reserve_hazp`), handing them back (the destructor
of a handle, `evict_hazard_ptr`) and compacting the directory
(`delete_hazard_ptr`) reach from the initial state, each call having
returned, the size counter of the directory is the number of slots linked in
the directory chain, as long as that number fits the 32 bits of the counter;
this holds in particular right after `delete_hazard_ptr()`. -/
theorem C30_directory_size_counter (ops : List dir_op)
    (hlen : (dir_run ops world.init).dom.holder_list_.length < 4294967296) :
    (dir_run ops world.init).dom.holder_list_size_
      = (dir_run ops world.init).dom.holder_list_.length ∧
    (delete_hazard_ptr (dir_run ops world.init).dom).1.holder_list_size_
      = (delete_hazard_ptr (dir_run ops world.init).dom).1.holder_list_.length := by
  have h := dir_size_ok_run ops world.init (show (0 : Nat) = 0 % 4294967296 from rfl)
  have h2 := dir_size_ok_op dir_op.delete_hazard_ptr _ h
  unfold dir_size_ok at h
  simp only [dir_op.run, dir_size_ok] at h2
  obtain ⟨c1, _⟩ := compact_spec { (dir_run ops world.init).dom with free_list_ := [] }
    (dir_run ops world.init).dom.free_list_
  have c1' : (delete_hazard_ptr (dir_run ops world.init).dom).1.holder_list_
      = (dir_run ops world.init).dom.holder_list_.filter
          (fun a => decide (a ∉ (dir_run ops world.init).dom.free_list_)) := c1
  have hle := List.length_filter_le
    (fun a => decide (a ∉ (dir_run ops world.init).dom.free_list_))
    (dir_run ops world.init).dom.holder_list_
  rw [← c1'] at hle
  constructor
  · rw [h]; exact Nat.mod_eq_of_lt hlen
  · rw [h2]; exact Nat.mod_eq_of_lt (by omega)

theorem C30_witness :
    (dir_run [dir_op.make_hazard_ptr 0, dir_op.reserve_hazp 2, dir_op.hazard_ptr_dtor 0,
        dir_op.evict_hazard_ptr] world.init).dom.holder_list_ = [3, 2, 1] ∧
    (dir_run [dir_op.make_hazard_ptr 0, dir_op.reserve_hazp 2, dir_op.hazard_ptr_dtor 0,
        dir_op.evict_hazard_ptr] world.init).dom.holder_list_size_ = 3 ∧
    (delete_hazard_ptr (dir_run [dir_op.make_hazard_ptr 0, dir_op.reserve_hazp 2,
        dir_op.hazard_ptr_dtor 0, dir_op.evict_hazard_ptr] world.init).dom).1.holder_list_
      = [] ∧
    (delete_hazard_ptr (dir_run [dir_op.make_hazard_ptr 0, dir_op.reserve_hazp 2,
        dir_op.hazard_ptr_dtor 0, dir_op.evict_hazard_ptr] world.init).dom).1.holder_list_size_
      = 0 := by
  have h := C30_directory_size_counter [dir_op.make_hazard_ptr 0, dir_op.reserve_hazp 2,
    dir_op.hazard_ptr_dtor 0, dir_op.evict_hazard_ptr] (by decide)
  have e1 : (dir_run [dir_op.make_hazard_ptr 0, dir_op.reserve_hazp 2, dir_op.hazard_ptr_dtor 0,
      dir_op.evict_hazard_ptr] world.init).dom.holder_list_ = [3, 2, 1] := by decide
  have e2 : (delete_hazard_ptr (dir_run [dir_op.make_hazard_ptr 0, dir_op.reserve_hazp 2,
      dir_op.hazard_ptr_dtor 0, dir_op.evict_hazard_ptr] world.init).dom).1.holder_list_
      = [] := by decide
  refine ⟨e1, ?_, e2, ?_⟩
  · rw [h.1, e1]; rfl
  · rw [h.2, e2]; rfl

/-! ## The word of the directory lock and its holders -/

theorem and_mask_of_lt (x : Nat) (h : x < 2147483648) : x &&& WRITE_LOCK_MASK = 0 := by
  apply Nat.eq_of_testBit_eq
  intro i
  rw [Nat.testBit_and, Nat.zero_testBit]
  have hm : WRITE_LOCK_MASK = 2 ^ 31 := by decide
  rw [hm, Nat.testBit_two_pow]
  by_cases e : 31 = i
  · subst e
    rw [Nat.testBit_lt_two_pow (by simpa using h)]
    rfl
  · simp [e]

theorem mask_and_mask : WRITE_LOCK_MASK &&& WRITE_LOCK_MASK ≠ 0 := by
  rw [Nat.and_self]
  decide

theorem lock_inv_step (c : lock_call) (w w' : lock_world) (hi : lock_inv w)
    (hb : w.shared_holders < 2147483648) (hr : c.run w = some w') : lock_inv w' := by
  have hclear : w.rw_lock_.state &&& WRITE_LOCK_MASK = 0 →
      w.writers = 0 ∧ w.rw_lock_.state = w.shared_holders := by
    intro h0
    rcases hi with h | h
    · exact h
    · rw [h.2.2] at h0
      exact absurd h0 mask_and_mask
  have hzero : w.rw_lock_.state = 0 →
      w.writers = 0 ∧ w.shared_holders = 0 := by
    intro h0
    rcases hi with h | h
    · exact ⟨h.1, by rw [← h.2, h0]⟩
    · rw [h.2.2] at h0
      exact absurd h0 (by decide)
  cases c with
  | try_lock_shared expected =>
    simp only [lock_call.run, read_write_lock.try_lock_shared] at hr
    by_cases h1 : expected &&& WRITE_LOCK_MASK = 0
    · by_cases h2 : w.rw_lock_.state = expected
      · simp only [h1, h2, if_true, Option.some.injEq] at hr
        subst hr
        obtain ⟨e1, e2⟩ := hclear (by rw [h2]; exact h1)
        left
        refine ⟨e1, ?_⟩
        show (expected + 1) % 4294967296 = w.shared_holders + 1
        rw [← h2, e2]
        omega
      · simp only [h1, h2, if_true, if_false, Bool.false_eq_true, Option.some.injEq] at hr
        subst hr
        exact hi
    · simp only [h1, if_false, Bool.false_eq_true, Option.some.injEq] at hr
      subst hr
      exact hi
  | lock_shared =>
    simp only [lock_call.run, read_write_lock.lock_shared] at hr
    by_cases h1 : w.rw_lock_.state &&& WRITE_LOCK_MASK = 0
    · simp only [h1, if_true, Option.some.injEq] at hr
      subst hr
      obtain ⟨e1, e2⟩ := hclear h1
      left
      refine ⟨e1, ?_⟩
      show (w.rw_lock_.state + 1) % 4294967296 = w.shared_holders + 1
      rw [e2]
      omega
    · simp only [h1, if_false] at hr
      exact Option.noConfusion hr
  | unlock_shared =>
    simp only [lock_call.run] at hr
    by_cases h1 : w.shared_holders = 0
    · simp only [h1, if_true] at hr
      exact Option.noConfusion hr
    · simp only [h1, if_false, Option.some.injEq] at hr
      subst hr
      rcases hi with h | h
      · left
        refine ⟨h.1, ?_⟩
        show (if w.rw_lock_.state = 0 then 4294967295 else w.rw_lock_.state - 1)
          = w.shared_holders - 1
        rw [h.2, if_neg h1]
      · exact absurd h.2.1 h1
  | try_lock =>
    simp only [lock_call.run, read_write_lock.try_lock] at hr
    by_cases h1 : w.rw_lock_.state = 0
    · simp only [h1, if_true, Option.some.injEq] at hr
      subst hr
      obtain ⟨e1, e2⟩ := hzero h1
      right
      exact ⟨by show w.writers + 1 = 1; rw [e1], e2, rfl⟩
    · simp only [h1, if_false, Bool.false_eq_true, Option.some.injEq] at hr
      subst hr
      exact hi
  | lock =>
    simp only [lock_call.run, read_write_lock.lock] at hr
    by_cases h1 : w.rw_lock_.state = 0
    · simp only [h1, if_true, Option.some.injEq] at hr
      subst hr
      obtain ⟨e1, e2⟩ := hzero h1
      right
      exact ⟨by show w.writers + 1 = 1; rw [e1], e2, rfl⟩
    · simp only [h1, if_false] at hr
      exact Option.noConfusion hr
  | unlock =>
    simp only [lock_call.run] at hr
    by_cases h1 : w.writers = 0
    · simp only [h1, if_true] at hr
      exact Option.noConfusion hr
    · simp only [h1, if_false, Option.some.injEq] at hr
      subst hr
      rcases hi with h | h
      · exact absurd h.1 h1
      · left
        exact ⟨by show w.writers - 1 = 0; rw [h.1], by
          show (0 : Nat) = w.shared_holders
          rw [h.2.1]⟩

theorem lock_run_inv : ∀ (calls : List lock_call) (w0 w : lock_world), lock_inv w0 →
    lock_run calls w0 = some w →
    (∀ k w', lock_run (calls.take k) w0 = some w' → w'.shared_holders < 2147483648) →
    lock_inv w
  | [], w0, w, hi, hr, _ => by
    simp only [lock_run, Option.some.injEq] at hr
    rw [← hr]; exact hi
  | c :: rest, w0, w, hi, hr, hb => by
    rw [lock_run] at hr
    cases h1 : c.run w0 with
    | none => rw [h1] at hr; exact Option.noConfusion hr
    | some w1 =>
      rw [h1] at hr
      simp only at hr
      have hb0 : w0.shared_holders < 2147483648 := hb 0 w0 rfl
      apply lock_run_inv rest w1 w (lock_inv_step c w0 w1 hi hb0 h1) hr
      intro k w' hk
      apply hb (k + 1) w'
      rw [List.take_succ_cons, lock_run, h1]
      exact hk

theorem lock_run_holders : ∀ (calls : List lock_call) (w0 w : lock_world),
    lock_run calls w0 = some w → w.shared_holders ≤ w0.shared_holders + calls.length
  | [], w0, w, hr => by
    simp only [lock_run, Option.some.injEq] at hr
    rw [← hr]; simp
  | c :: rest, w0, w, hr => by
    rw [lock_run] at hr
    cases h1 : c.run w0 with
    | none => rw [h1] at hr; exact Option.noConfusion hr
    | some w1 =>
      rw [h1] at hr
      simp only at hr
      have ih := lock_run_holders rest w1 w hr
      have h2 : w1.shared_holders ≤ w0.shared_holders + 1 := by
        cases c with
        | try_lock_shared expected =>
          simp only [lock_call.run, Option.some.injEq] at h1
          rw [← h1]
          simp only
          split <;> omega
        | lock_shared =>
          simp only [lock_call.run] at h1
          split at h1
          · exact Option.noConfusion h1
          · simp only [Option.some.injEq] at h1
            rw [← h1]
        | unlock_shared =>
          simp only [lock_call.run] at h1
          split at h1
          · exact Option.noConfusion h1
          · simp only [Option.some.injEq] at h1
            rw [← h1]
            simp only
            omega
        | try_lock =>
          simp only [lock_call.run, Option.some.injEq] at h1
          rw [← h1]
          simp only
          omega
        | lock =>
          simp only [lock_call.run] at h1
          split at h1
          · exact Option.noConfusion h1
          · simp only [Option.some.injEq] at h1
            rw [← h1]
            simp only
            omega
        | unlock =>
          simp only [lock_call.run] at h1
          split at h1
          · exact Option.noConfusion h1
          · simp only [Option.some.injEq] at h1
            rw [← h1]
            simp only
            omega
      simp only [List.length_cons]
      omega

/-- C34: in every state of the lock reached from its construction by calls
that have returned, `unlock_shared` and `unlock` being made by holders, with
fewer than 2^31 shared holders at any time: the high bit of the word is set
only when its low 31 bits are 0; the low 31 bits are the number of shared
holders; at most one thread holds the lock exclusively, exactly when the
high bit is set, and then nobody holds it shared; `try_lock` succeeds
exactly when the word is 0; `try_lock_shared` succeeds only when the high bit
is clear, and exactly then when no other thread stores between its load and
its compare-and-swap. -/
theorem C34_reader_writer_exclusion (calls : List lock_call) (w : lock_world)
    (hrun : lock_run calls lock_world.init = some w)
    (hbound : ∀ k w', lock_run (calls.take k) lock_world.init = some w' →
      w'.shared_holders < 2147483648) :
    (w.rw_lock_.state &&& WRITE_LOCK_MASK ≠ 0 → w.rw_lock_.state % 2147483648 = 0) ∧
    w.rw_lock_.state % 2147483648 = w.shared_holders ∧
    w.writers ≤ 1 ∧
    (w.writers = 1 ↔ w.rw_lock_.state &&& WRITE_LOCK_MASK ≠ 0) ∧
    (w.writers = 1 → w.shared_holders = 0) ∧
    ((w.rw_lock_.try_lock).1 = true ↔ w.rw_lock_.state = 0) ∧
    ((w.rw_lock_.try_lock_shared w.rw_lock_.state).1 = true ↔
      w.rw_lock_.state &&& WRITE_LOCK_MASK = 0) ∧
    (∀ expected, (w.rw_lock_.try_lock_shared expected).1 = true →
      w.rw_lock_.state &&& WRITE_LOCK_MASK = 0) := by
  have hi := lock_run_inv calls lock_world.init w (Or.inl ⟨rfl, rfl⟩) hrun hbound
  have hb : w.shared_holders < 2147483648 := by
    apply hbound calls.length w
    rw [List.take_length]
    exact hrun
  have htry : (w.rw_lock_.try_lock).1 = true ↔ w.rw_lock_.state = 0 := by
    unfold read_write_lock.try_lock
    by_cases h0 : w.rw_lock_.state = 0
    · simp [h0]
    · simp [h0]
  have hts : ∀ expected, (w.rw_lock_.try_lock_shared expected).1 = true →
      w.rw_lock_.state &&& WRITE_LOCK_MASK = 0 := by
    intro expected
    unfold read_write_lock.try_lock_shared
    by_cases h1 : expected &&& WRITE_LOCK_MASK = 0
    · by_cases h2 : w.rw_lock_.state = expected
      · intro _
        rw [h2]; exact h1
      · simp [h1, h2]
    · simp [h1]
  have hts2 : (w.rw_lock_.try_lock_shared w.rw_lock_.state).1 = true ↔
      w.rw_lock_.state &&& WRITE_LOCK_MASK = 0 := by
    refine ⟨hts _, ?_⟩
    intro h1
    unfold read_write_lock.try_lock_shared
    simp [h1]
  rcases hi with ⟨h1, h2⟩ | ⟨h1, h2, h3⟩
  · have hc : w.rw_lock_.state &&& WRITE_LOCK_MASK = 0 := and_mask_of_lt _ (by rw [h2]; exact hb)
    refine ⟨fun h => absurd hc h, by rw [h2]; exact Nat.mod_eq_of_lt hb, by omega, ?_, ?_,
      htry, hts2, hts⟩
    · constructor
      · intro h; omega
      · intro h; exact absurd hc h
    · intro h; omega
  · refine ⟨fun _ => by rw [h3]; decide, by rw [h3, h2]; decide, by omega, ?_, fun _ => h2,
      htry, hts2, hts⟩
    constructor
    · intro _
      rw [h3]; exact mask_and_mask
    · intro _; exact h1

theorem C34_witness :
    lock_run [lock_call.lock_shared, lock_call.try_lock_shared 1, lock_call.try_lock,
        lock_call.unlock_shared, lock_call.unlock_shared, lock_call.lock] lock_world.init
      = some { rw_lock_ := { state := 2147483648 }, shared_holders := 0, writers := 1 } ∧
    (∀ k w', lock_run ([lock_call.lock_shared, lock_call.try_lock_shared 1, lock_call.try_lock,
        lock_call.unlock_shared, lock_call.unlock_shared, lock_call.lock].take k)
        lock_world.init = some w' → w'.shared_holders < 2147483648) ∧
    (((2147483648 : Nat) &&& WRITE_LOCK_MASK ≠ 0 → (2147483648 : Nat) % 2147483648 = 0) ∧
    (2147483648 : Nat) % 2147483648 = 0 ∧
    (1 : Nat) ≤ 1 ∧
    ((1 : Nat) = 1 ↔ (2147483648 : Nat) &&& WRITE_LOCK_MASK ≠ 0) ∧
    ((1 : Nat) = 1 → (0 : Nat) = 0) ∧
    (((read_write_lock.mk 2147483648).try_lock).1 = true ↔ (2147483648 : Nat) = 0) ∧
    (((read_write_lock.mk 2147483648).try_lock_shared 2147483648).1 = true ↔
      (2147483648 : Nat) &&& WRITE_LOCK_MASK = 0) ∧
    (∀ expected, ((read_write_lock.mk 2147483648).try_lock_shared expected).1 = true →
      (2147483648 : Nat) &&& WRITE_LOCK_MASK = 0)) :=
  have hb : ∀ k w', lock_run ([lock_call.lock_shared, lock_call.try_lock_shared 1,
      lock_call.try_lock, lock_call.unlock_shared, lock_call.unlock_shared,
      lock_call.lock].take k) lock_world.init = some w' → w'.shared_holders < 2147483648 :=
    fun k w' h => by
      have h1 := lock_run_holders _ _ _ h
      have h2 : ([lock_call.lock_shared, lock_call.try_lock_shared 1, lock_call.try_lock,
        lock_call.unlock_shared, lock_call.unlock_shared, lock_call.lock].take k).length ≤ 6 := by
        rw [List.length_take]
        exact Nat.min_le_right _ _
      have h3 : lock_world.init.shared_holders = 0 := rfl
      omega
  ⟨rfl, hb, C34_reader_writer_exclusion
    [lock_call.lock_shared, lock_call.try_lock_shared 1, lock_call.try_lock,
      lock_call.unlock_shared, lock_call.unlock_shared, lock_call.lock]
    { rw_lock_ := { state := 2147483648 }, shared_holders := 0, writers := 1 } rfl hb⟩

/-! ## Thread exit and the teardown of the directory -/

theorem foldl_store_NOUSE (l : List Nat) (d : reclaimer) :
    (l.foldl (fun d node => store_ptr d node NOUSE) d).free_list_ = d.free_list_ ∧
    (l.foldl (fun d node => store_ptr d node NOUSE) d).holder_list_ = d.holder_list_ ∧
    (l.foldl (fun d node => store_ptr d node NOUSE) d).heap_next = d.heap_next ∧
    (∀ a, a ∈ l → (l.foldl (fun d node => store_ptr d node NOUSE) d).holder_ptr a = NOUSE) ∧
    (∀ a, a ∉ l →
      (l.foldl (fun d node => store_ptr d node NOUSE) d).holder_ptr a = d.holder_ptr a) := by
  induction l generalizing d with
  | nil => simp
  | cons x xs ih =>
    simp only [List.foldl_cons]
    obtain ⟨i1, i2, i3, i4, i5⟩ := ih (store_ptr d x NOUSE)
    refine ⟨by rw [i1]; rfl, by rw [i2]; rfl, by rw [i3]; rfl, ?_, ?_⟩
    · intro a ha
      by_cases hm : a ∈ xs
      · exact i4 a hm
      · rw [i5 a hm]
        have : a = x := by
          rcases List.mem_cons.mp ha with e | e
          · exact e
          · exact absurd e hm
        simp [store_ptr, this]
    · intro a ha
      have h1 : a ≠ x := fun e => ha (by rw [e]; exact List.mem_cons_self _ _)
      have h2 : a ∉ xs := fun e => ha (List.mem_cons_of_mem _ e)
      rw [i5 a h2]
      simp [store_ptr, h1]

theorem local_holder_dtor_spec (w : world) :
    (∀ a, a ∈ w.tc.holder_storage → (local_holder_dtor w).dom.holder_ptr a = NOUSE) ∧
    (∀ a, a ∉ w.tc.holder_storage →
      (local_holder_dtor w).dom.holder_ptr a = w.dom.holder_ptr a) ∧
    (local_holder_dtor w).dom.free_list_ = w.dom.free_list_ ∧
    (local_holder_dtor w).dom.holder_list_ = w.dom.holder_list_ ∧
    (local_holder_dtor w).tc.free_list.head_ = [] ∧
    (local_holder_dtor w).tc.holder_storage = [] := by
  obtain ⟨i1, i2, _, i4, i5⟩ := foldl_store_NOUSE w.tc.holder_storage w.dom
  exact ⟨i4, i5, i1, i2, rfl, rfl⟩

theorem holder_list_dtor_loop_returns (holder_ptr : Nat → Nat) : ∀ (l destroyed : List Nat),
    (∀ a ∈ l, holder_ptr a = NOUSE) →
    holder_list_dtor_loop holder_ptr l destroyed = teardown.returned (l.reverse ++ destroyed)
  | [], destroyed, _ => rfl
  | node :: next, destroyed, h => by
    rw [holder_list_dtor_loop, if_neg (by simp [h node (List.mem_cons_self _ _)]),
      holder_list_dtor_loop_returns holder_ptr next (node :: destroyed)
        (fun a ha => h a (List.mem_cons_of_mem _ ha))]
    simp

theorem holder_list_dtor_loop_waits (holder_ptr : Nat → Nat) : ∀ (l destroyed : List Nat),
    (∃ a ∈ l, holder_ptr a ≠ NOUSE) →
    ∃ n d, holder_list_dtor_loop holder_ptr l destroyed = teardown.waits_for_ever n d ∧
      n ∈ l ∧ holder_ptr n ≠ NOUSE
  | [], _, h => by
    obtain ⟨a, ha, _⟩ := h
    simp at ha
  | node :: next, destroyed, h => by
    rw [holder_list_dtor_loop]
    by_cases hn : holder_ptr node ≠ NOUSE
    · rw [if_pos hn]
      exact ⟨node, destroyed, rfl, List.mem_cons_self _ _, hn⟩
    · rw [if_neg hn]
      obtain ⟨a, ha, hne⟩ := h
      have ha' : a ∈ next := by
        rcases List.mem_cons.mp ha with e | e
        · rw [e] at hne; exact absurd hne hn
        · exact e
      obtain ⟨n, d, e1, e2, e3⟩ := holder_list_dtor_loop_waits holder_ptr next (node :: destroyed)
        ⟨a, ha', hne⟩
      exact ⟨n, d, e1, List.mem_cons_of_mem _ e2, e3⟩

/-- C33, not as claimed: when the cache of a thread is destroyed, the word of
every slot of its holder set is set to `NOUSE`, but nothing is pushed on the
global free list, which stays as it was, and the directory stays as it was; so
a slot of the set that was linked in the directory and was not on the global
free list is still linked after a later `delete_hazard_ptr()` and is not
destroyed.  After `{ auto h = make_hazard_ptr(); }` and the exit of the
thread, slot 1 is `NOUSE`, the global free list is empty, and
`delete_hazard_ptr()` destroys nothing and leaves slot 1 in the directory. -/
theorem C33_thread_exit_leaves_slots_off_the_free_list :
    (∀ (w : world) a, a ∈ w.tc.holder_storage →
      (local_holder_dtor w).dom.holder_ptr a = NOUSE) ∧
    (∀ w : world, (local_holder_dtor w).dom.free_list_ = w.dom.free_list_ ∧
      (local_holder_dtor w).dom.holder_list_ = w.dom.holder_list_) ∧
    (∀ (w : world) a, a ∈ w.tc.holder_storage → a ∈ w.dom.holder_list_ →
      a ∉ w.dom.free_list_ →
      a ∉ (local_holder_dtor w).dom.free_list_ ∧
      a ∈ (delete_hazard_ptr (local_holder_dtor w).dom).1.holder_list_ ∧
      a ∉ (delete_hazard_ptr (local_holder_dtor w).dom).2) ∧
    one_cached_world.tc.holder_storage = [1] ∧
    one_cached_world.dom.holder_list_ = [1] ∧
    (local_holder_dtor one_cached_world).dom.holder_ptr 1 = NOUSE ∧
    (local_holder_dtor one_cached_world).dom.free_list_ = [] ∧
    (delete_hazard_ptr (local_holder_dtor one_cached_world).dom).1.holder_list_ = [1] ∧
    (delete_hazard_ptr (local_holder_dtor one_cached_world).dom).2 = [] := by
  refine ⟨fun w a ha => (local_holder_dtor_spec w).1 a ha,
    fun w => ⟨(local_holder_dtor_spec w).2.2.1, (local_holder_dtor_spec w).2.2.2.1⟩, ?_,
    by decide, by decide, by decide, by decide, by decide, by decide⟩
  intro w a _ hd hf
  obtain ⟨_, _, e3, e4, _⟩ := local_holder_dtor_spec w
  obtain ⟨c1, _, _, c4, _⟩ := compact_spec
    { (local_holder_dtor w).dom with free_list_ := [] } (local_holder_dtor w).dom.free_list_
  have c1' : (delete_hazard_ptr (local_holder_dtor w).dom).1.holder_list_
      = (local_holder_dtor w).dom.holder_list_.filter
        (fun a => decide (a ∉ (local_holder_dtor w).dom.free_list_)) := c1
  have c4' : ∀ a, a ∈ (delete_hazard_ptr (local_holder_dtor w).dom).2
      ↔ a ∈ (local_holder_dtor w).dom.free_list_ := c4
  refine ⟨by rw [e3]; exact hf, ?_, ?_⟩
  · rw [c1', e3, e4, List.mem_filter]
    exact ⟨hd, by simpa using hf⟩
  · rw [c4', e3]
    exact hf

/-- C37, not as claimed: on an empty directory (no slot was ever created, or
every slot was compacted away) the destructor of the directory dereferences
the null head; on a directory that links, behind its head, a slot flushed by
`evict_hazard_ptr` (its word is `INUSE` and thread exit does not change it)
the destructor waits for ever.  It returns, having destroyed every slot,
exactly when the directory is not empty and the word of every slot behind the
head is `NOUSE`. -/
theorem C37_teardown_of_the_directory_is_not_total :
    holder_list_dtor (local_holder_dtor world.init).dom = teardown.null_dereference ∧
    (∃ w, slot_run [slot_op.make_hazard_ptr 0, slot_op.hazard_ptr_dtor 0,
        slot_op.evict_hazard_ptr, slot_op.delete_hazard_ptr] world.init = some w ∧
      w.dom.holder_list_ = [] ∧
      holder_list_dtor (local_holder_dtor w).dom = teardown.null_dereference) ∧
    (∃ w, slot_run [slot_op.make_hazard_ptr 0, slot_op.make_hazard_ptr 1,
        slot_op.hazard_ptr_dtor 0, slot_op.hazard_ptr_dtor 1,
        slot_op.evict_hazard_ptr] world.init = some w ∧
      w.dom.holder_list_ = [2, 1] ∧ w.dom.free_list_ = [1, 2] ∧
      (local_holder_dtor w).dom.holder_ptr 1 = INUSE ∧
      holder_list_dtor (local_holder_dtor w).dom = teardown.waits_for_ever 1 []) ∧
    (∀ s : reclaimer, s.holder_list_ = [] → holder_list_dtor s = teardown.null_dereference) ∧
    (∀ (s : reclaimer) head rest, s.holder_list_ = head :: rest →
      (∃ a ∈ rest, s.holder_ptr a ≠ NOUSE) →
      ∃ n d, holder_list_dtor s = teardown.waits_for_ever n d ∧ n ∈ rest ∧
        s.holder_ptr n ≠ NOUSE) ∧
    (∀ (s : reclaimer) head rest, s.holder_list_ = head :: rest →
      (∀ a ∈ rest, s.holder_ptr a = NOUSE) →
      holder_list_dtor s = teardown.returned (head :: rest.reverse)) := by
  refine ⟨rfl, ⟨_, rfl, rfl, rfl⟩, ⟨_, rfl, rfl, rfl, rfl, rfl⟩, ?_, ?_, ?_⟩
  · intro s hs
    unfold holder_list_dtor
    rw [hs]
  · intro s head rest hs hex
    obtain ⟨n, d, e1, e2, e3⟩ := holder_list_dtor_loop_waits s.holder_ptr rest [] hex
    refine ⟨n, d, ?_, e2, e3⟩
    unfold holder_list_dtor
    rw [hs]
    simp only
    rw [e1]
  · intro s head rest hs hall
    unfold holder_list_dtor
    rw [hs]
    simp only
    rw [holder_list_dtor_loop_returns s.holder_ptr rest [] hall]
    simp

/-! ## A pass that can destroy nothing while the retired-count is at the threshold -/

theorem iter_tail_over (rec : reclaimer → Int → Option reclaimer) (s2 : reclaimer) (rc1 : Int)
    (P : Prop) [Decidable P]
    (h : kReclaimThreshold ≤ s2.count_ + rc1) :
    (if (check_count_threshold (if rc1 ≠ 0 then add_count s2 rc1 else s2)).1 = 0 ∧ P then
        some (dec_num_bulk_reclaims (check_count_threshold (if rc1 ≠ 0 then add_count s2 rc1 else s2)).2)
      else rec (check_count_threshold (if rc1 ≠ 0 then add_count s2 rc1 else s2)).2
        (check_count_threshold (if rc1 ≠ 0 then add_count s2 rc1 else s2)).1)
      = rec { s2 with count_ := 0 } (s2.count_ + rc1) := by
  have e3 : (if rc1 ≠ 0 then add_count s2 rc1 else s2) = { s2 with count_ := s2.count_ + rc1 } := by
    by_cases h0 : rc1 = 0
    · simp [h0]
    · simp [h0, add_count]
  rw [e3]
  have e4 : check_count_threshold { s2 with count_ := s2.count_ + rc1 }
      = (s2.count_ + rc1, { s2 with count_ := 0 }) := by
    unfold check_count_threshold
    have : s2.count_ + rc1 ≥ kReclaimThreshold := h
    simp only [this, if_true]
  rw [e4]
  have hne : ¬ (s2.count_ + rc1 = 0 ∧ P) := by
    intro hh
    rw [hh.1] at h
    exact absurd h (by decide)
  simp only [hne, if_false]

theorem unprotected_records_nil (s : reclaimer)
    (hp : ∀ r ∈ shards_all s, r.raw_ptr ∈ load_hazptr_vals s) :
    unprotected_records s = [] ∧ protected_records s = shards_all s := by
  constructor
  · unfold unprotected_records
    rw [List.filter_eq_nil_iff]
    intro r hr
    simp [hp r hr]
  · unfold protected_records
    rw [List.filter_eq_self]
    intro r hr
    simp [hp r hr]

/-- One iteration of the loop of `do_reclamation` on a domain whose held
records are all protected, entered with the retired-count and `rcount`
together at the threshold: nothing is destroyed, the records are back in
shard 0, the retired-count has been swapped to 0, and the loop goes on with
the same total. -/
theorem do_reclamation_iter_stuck (rec : reclaimer → Int → Option reclaimer) (clock : Nat → Nat)
    (s : reclaimer) (rc : Int)
    (hp : ∀ r ∈ shards_all s, r.raw_ptr ∈ load_hazptr_vals s)
    (hc : kReclaimThreshold ≤ s.count_ + rc) :
    ∃ s4, do_reclamation_iter rec clock s rc = rec s4 (s.count_ + rc) ∧ s4.count_ = 0 ∧
      load_hazptr_vals s4 = load_hazptr_vals s ∧ shards_all s4 = shards_all s ∧
      s4.deleted = s.deleted ∧ s4.num_bulk_reclaims_ = s.num_bulk_reclaims_ := by
  obtain ⟨hU0, hM0⟩ := unprotected_records_nil s hp
  have hz1 : load_hazptr_vals (extract_retired_objects s).2.1 = load_hazptr_vals s := rfl
  unfold do_reclamation_iter
  simp only
  by_cases hne : (extract_retired_objects s).2.2 = true
  · simp only [hne, if_true]
    unfold match_reclaim
    have he : retired_list_empty (extract_retired_objects s).2.1 = true :=
      (retired_list_empty_iff _).mpr (fun i hi => extract_shards s i hi)
    have hd' : ∀ l ∈ (extract_retired_objects s).1, ∀ r ∈ l,
        r.raw_ptr ∉ load_hazptr_vals s → r.deleter = [] := by
      intro l hl r hr hz
      exfalso
      apply hz
      apply hp
      rw [← extract_flatten]
      exact List.mem_flatten.mpr ⟨l, hl, hr⟩
    obtain ⟨nr', e1, e2⟩ := match_reclaim_loop_plain rec clock (load_hazptr_vals s)
      (extract_retired_objects s).1 linked_list.init 0 true (extract_retired_objects s).2.1 hd' he
    rw [hz1, e1]
    simp only
    rw [extract_flatten] at e2 ⊢
    have hU : List.filter (fun x => !decide (x.raw_ptr ∈ load_hazptr_vals s)) (shards_all s)
        = unprotected_records s := rfl
    have hM : List.filter (fun x => decide (x.raw_ptr ∈ load_hazptr_vals s)) (shards_all s)
        = protected_records s := rfl
    rw [hU] at *
    rw [hM] at e2
    rw [hU0]
    rw [hM0] at e2
    simp only [linked_list.init, List.nil_append] at e2
    simp only [List.length_nil, Nat.cast_zero, zero_add, sub_zero, List.reverse_nil,
      List.nil_append]
    have hcnt : (retired_list_push_list
          { (extract_retired_objects s).2.1 with
            deleted := (extract_retired_objects s).2.1.deleted }
          0 nr'.chain).count_ = s.count_ := by
      unfold retired_list_push_list
      split <;> simp [extract_retired_objects]
    rw [iter_tail_over _ _ _ _ (by rw [hcnt]; exact hc), hcnt]
    refine ⟨_, rfl, rfl, ?_, ?_, ?_, ?_⟩
    · unfold retired_list_push_list
      split <;> rfl
    · have := shards_all_push_list_empty
        { (extract_retired_objects s).2.1 with
            deleted := (extract_retired_objects s).2.1.deleted } nr'.chain he
      rw [← e2]
      exact this
    · unfold retired_list_push_list
      split <;> rfl
    · unfold retired_list_push_list
      split <;> rfl
  · have hfalse : (extract_retired_objects s).2.2 = false := by simpa using hne
    have e0 := extract_nonempty_false s hfalse
    rw [hfalse]
    simp only [Bool.false_eq_true, if_false]
    have hcnt : (extract_retired_objects s).2.1.count_ = s.count_ := rfl
    rw [iter_tail_over _ _ _ _ (by rw [hcnt]; exact hc), hcnt]
    refine ⟨_, rfl, rfl, rfl, ?_, rfl, rfl⟩
    rw [e0]
    exact shards_all_nil (fun i hi => extract_shards s i hi)

/-- The loop of `do_reclamation` never exits on a domain whose held records
are all protected when the retired-count and `rcount` together are at the
threshold: whatever the fuel, the run is out of fuel. -/
theorem do_reclamation_stuck (clock : Nat → Nat) (fuel : Nat) (s : reclaimer) (rc : Int)
    (hp : ∀ r ∈ shards_all s, r.raw_ptr ∈ load_hazptr_vals s)
    (hc : kReclaimThreshold ≤ s.count_ + rc) :
    do_reclamation clock fuel s rc = none := by
  induction fuel generalizing s rc with
  | zero => rfl
  | succ n ih =>
    obtain ⟨s4, e, c4, h4, r4, _, _⟩ :=
      do_reclamation_iter_stuck (do_reclamation clock n) clock s rc hp hc
    rw [do_reclamation_succ, e]
    apply ih
    · intro r hr
      rw [h4]
      exact hp r (r4 ▸ hr)
    · rw [c4, zero_add]
      exact hc

theorem reclaim_stuck (clock : Nat → Nat) (fuel : Nat) (s : reclaimer)
    (hp : ∀ r ∈ shards_all s, r.raw_ptr ∈ load_hazptr_vals s)
    (hc : kReclaimThreshold ≤ s.count_) :
    reclaim clock fuel s = none := by
  unfold reclaim
  rw [do_reclamation_stuck clock fuel (inc_num_bulk_reclaims s) 0 hp
    (by simpa [inc_num_bulk_reclaims] using hc)]

theorem retire_stuck (clock : Nat → Nat) (fuel : Nat) (node : retire_node) (s : reclaimer)
    (hp : ∀ r ∈ shards_all s, r.raw_ptr ∈ load_hazptr_vals s)
    (hn : node.raw_ptr ∈ load_hazptr_vals s)
    (hc : kReclaimThreshold ≤ s.count_ + 1) :
    retire clock fuel node s = none := by
  unfold retire push_list check_threshold_and_reclaim
  simp only
  have hi : (node.address >>> 8) &&& kShardMask < kNumShards := by
    have : (node.address >>> 8) &&& kShardMask ≤ kShardMask := Nat.and_le_right
    simp only [kShardMask, kNumShards] at this ⊢
    omega
  have e4 : check_count_threshold
      (add_count (retired_list_push s ((node.address >>> 8) &&& kShardMask) node) 1)
      = (s.count_ + 1,
        { retired_list_push s ((node.address >>> 8) &&& kShardMask) node with count_ := 0 }) := by
    unfold check_count_threshold
    have : (add_count (retired_list_push s ((node.address >>> 8) &&& kShardMask) node) 1).count_
        ≥ kReclaimThreshold := hc
    simp only [this, if_true]
    rfl
  rw [e4]
  simp only
  have hne : ¬ (s.count_ + 1 = 0) := by
    intro hh
    rw [hh] at hc
    exact absurd hc (by decide)
  rw [if_neg hne]
  apply do_reclamation_stuck
  · intro r hr
    have hperm := shards_all_push s _ hi node
    have hr' : r ∈ shards_all (retired_list_push s ((node.address >>> 8) &&& kShardMask) node) := hr
    have hm := hperm.subset hr'
    have hz : load_hazptr_vals (inc_num_bulk_reclaims
        { retired_list_push s ((node.address >>> 8) &&& kShardMask) node with count_ := 0 })
        = load_hazptr_vals s := rfl
    rw [hz]
    rcases List.mem_cons.mp hm with e | hm
    · rw [e]; exact hn
    · exact hp r hm
  · simpa [inc_num_bulk_reclaims] using hc

/-! ## Retiring protected objects below the threshold -/

theorem shards_all_first (s : reclaimer) (l : List retire_node)
    (h : ∀ i, i < kNumShards → s.retired_list_ i = if i = 0 then l else []) :
    shards_all s = l := by
  unfold shards_all
  have : ∀ i ∈ List.range kNumShards,
      s.retired_list_ i = (fun j => if j = 0 then l else []) i := by
    intro i hi
    exact h i (List.mem_range.mp hi)
  rw [List.flatMap_congr this]
  simp [kNumShards, List.range_succ, List.flatMap]

/-- The trigger `check_threshold_and_reclaim` on a domain whose held records
are all protected and whose retired-count is below the threshold returns,
whatever the clock reads: the records and the retired-count are as before. -/
theorem check_threshold_and_reclaim_protected (clock : Nat → Nat) (fuel : Nat) (t : reclaimer)
    (hp : ∀ r ∈ shards_all t, r.raw_ptr ∈ load_hazptr_vals t)
    (hc : t.count_ < kReclaimThreshold) :
    ∃ t', check_threshold_and_reclaim (do_reclamation clock (fuel + 1)) clock t = some t' ∧
      same_slots t t' ∧ t'.count_ = t.count_ ∧ shards_all t' = shards_all t ∧
      t'.deleted = t.deleted := by
  unfold check_threshold_and_reclaim
  have e4 : check_count_threshold t = (0, t) := by
    unfold check_count_threshold
    have : ¬ (t.count_ ≥ kReclaimThreshold) := by omega
    simp only [this, if_false]
  rw [e4]
  simp only [if_true]
  unfold check_due_time
  simp only
  by_cases hdue : clock t.clock_reads < t.due_time_
  · simp only [hdue, if_true]
    exact ⟨_, rfl, ⟨rfl, rfl, rfl, rfl, rfl⟩, rfl, rfl, rfl⟩
  · simp only [hdue, if_false]
    by_cases hneg : t.count_ < 0
    · simp only [hneg, if_true]
      refine ⟨_, rfl, ⟨rfl, rfl, rfl, rfl, rfl⟩, ?_, rfl, rfl⟩
      simp [add_count]
    · simp only [hneg, if_false]
      by_cases h0 : t.count_ = 0
      · simp only [h0, if_true]
        exact ⟨_, rfl, ⟨rfl, rfl, rfl, rfl, rfl⟩, rfl, rfl, rfl⟩
      · simp only [h0, if_false]
        generalize ht3 : inc_num_bulk_reclaims
          { t with clock_reads := t.clock_reads + 1,
                   due_time_ := (clock t.clock_reads + kSyncTimePeriod) % 18446744073709551616,
                   count_ := 0 } = t3
        have hs3 : same_slots t t3 := by subst ht3; exact ⟨rfl, rfl, rfl, rfl, rfl⟩
        have hz3 : load_hazptr_vals t3 = load_hazptr_vals t := load_hazptr_vals_congr hs3
        have hr3 : shards_all t3 = shards_all t := by subst ht3; rfl
        have hc3 : t3.count_ = 0 := by subst ht3; rfl
        have hd3 : t3.deleted = t.deleted := by subst ht3; rfl
        have hp3 : ∀ r ∈ shards_all t3, r.raw_ptr ∈ load_hazptr_vals t3 := by
          intro r hr
          rw [hz3]
          exact hp r (hr3 ▸ hr)
        obtain ⟨hU, hM⟩ := unprotected_records_nil t3 hp3
        obtain ⟨s', e, hs, hcnt, _, _, _, hdel, hsh⟩ :=
          do_reclamation_iter_plain (do_reclamation clock fuel) clock t3 t.count_
            (by rw [hU]; intro r hr; exact absurd hr (List.not_mem_nil _))
            (by rw [hU, hc3]; simpa using hc)
        rw [do_reclamation_succ, e]
        refine ⟨s', rfl, same_slots_trans hs3 hs, ?_, ?_, ?_⟩
        · rw [hcnt, hU, hc3]
          simp
        · rw [shards_all_first s' (protected_records t3) (fun i hi => by rw [hsh i]; simp [hi]),
            hM, hr3]
        · rw [hdel, hU, hd3]
          simp

/-- A call of `retire` on a protected object, made on a domain whose held
records are all protected and are fewer than 999, returns: the record is
held and counted. -/
theorem retire_protected_returns (clock : Nat → Nat) (fuel : Nat) (node : retire_node)
    (s : reclaimer)
    (hp : ∀ r ∈ shards_all s, r.raw_ptr ∈ load_hazptr_vals s)
    (hn : node.raw_ptr ∈ load_hazptr_vals s)
    (hc : s.count_ + 1 < kReclaimThreshold) :
    ∃ s', retire clock (fuel + 1) node s = some s' ∧ same_slots s s' ∧
      s'.count_ = s.count_ + 1 ∧ (shards_all s').Perm (node :: shards_all s) ∧
      s'.deleted = s.deleted := by
  unfold retire push_list
  simp only
  have hi : (node.address >>> 8) &&& kShardMask < kNumShards := by
    have : (node.address >>> 8) &&& kShardMask ≤ kShardMask := Nat.and_le_right
    simp only [kShardMask, kNumShards] at this ⊢
    omega
  generalize ht : add_count (retired_list_push s ((node.address >>> 8) &&& kShardMask) node) 1 = t
  have hs : same_slots s t := by subst ht; exact ⟨rfl, rfl, rfl, rfl, rfl⟩
  have hz : load_hazptr_vals t = load_hazptr_vals s := load_hazptr_vals_congr hs
  have hperm : (shards_all t).Perm (node :: shards_all s) := by
    subst ht
    exact shards_all_push s _ hi node
  have hct : t.count_ = s.count_ + 1 := by subst ht; rfl
  have hdt : t.deleted = s.deleted := by subst ht; rfl
  have hpt : ∀ r ∈ shards_all t, r.raw_ptr ∈ load_hazptr_vals t := by
    intro r hr
    rw [hz]
    rcases List.mem_cons.mp (hperm.subset hr) with e | hm
    · rw [e]; exact hn
    · exact hp r hm
  obtain ⟨t', e, hs', hc', hr', hd'⟩ :=
    check_threshold_and_reclaim_protected clock fuel t hpt (by rw [hct]; exact hc)
  exact ⟨t', e, same_slots_trans hs hs', by rw [hc', hct], by rw [hr']; exact hperm,
    by rw [hd', hdt]⟩

/-- The calls of `retire` on protected objects made one after the other
return as long as fewer than 1000 records are held. -/
theorem retire_all_protected_returns (clock : Nat → Nat) (fuel : Nat) (nodes : List retire_node)
    (s : reclaimer)
    (hp : ∀ r ∈ shards_all s, r.raw_ptr ∈ load_hazptr_vals s)
    (hn : ∀ node ∈ nodes, node.raw_ptr ∈ load_hazptr_vals s)
    (hc : s.count_ + (nodes.length : Int) < kReclaimThreshold) :
    ∃ s', retire_all clock (fuel + 1) nodes s = some s' ∧ same_slots s s' ∧
      s'.count_ = s.count_ + (nodes.length : Int) ∧
      (shards_all s').Perm (nodes.reverse ++ shards_all s) ∧ s'.deleted = s.deleted := by
  induction nodes generalizing s with
  | nil =>
    exact ⟨s, rfl, same_slots_refl s, by simp, by simp, rfl⟩
  | cons node rest ih =>
    simp only [List.length_cons, Nat.cast_add, Nat.cast_one] at hc
    have hrest : (0 : Int) ≤ (rest.length : Int) := Int.natCast_nonneg _
    obtain ⟨s1, e1, hs1, hc1, hr1, hd1⟩ :=
      retire_protected_returns clock fuel node s hp (hn node (List.mem_cons_self _ _))
        (by omega)
    have hz1 : load_hazptr_vals s1 = load_hazptr_vals s := load_hazptr_vals_congr hs1
    obtain ⟨s', e2, hs2, hc2, hr2, hd2⟩ := ih s1
      (by
        intro r hr
        rw [hz1]
        rcases List.mem_cons.mp (hr1.subset hr) with e | hm
        · rw [e]; exact hn node (List.mem_cons_self _ _)
        · exact hp r hm)
      (by intro n hn'; rw [hz1]; exact hn n (List.mem_cons_of_mem _ hn'))
      (by rw [hc1]; omega)
    refine ⟨s', ?_, same_slots_trans hs1 hs2, ?_, ?_, by rw [hd2, hd1]⟩
    · simp only [retire_all, e1]
      exact e2
    · rw [hc2, hc1]
      simp only [List.length_cons, Nat.cast_add, Nat.cast_one]
      ring
    · refine hr2.trans ?_
      rw [List.reverse_cons, List.append_assoc]
      exact List.Perm.append_left _ (by simpa using hr1)

/-! ## A thousand published hazards -/

theorem publish_step (n p : Nat) (w1 : world)
    (h1 : w1.tc.free_list.head_ = []) (h2 : w1.dom.free_list_ = []) :
    ∃ w2, try_protect n p (make_hazard_ptr n w1) = some (p, w2) ∧
      w2.tc.free_list.head_ = [] ∧ w2.dom.free_list_ = [] ∧
      w2.dom.heap_next = w1.dom.heap_next + 1 ∧
      w2.dom.holder_list_ = w1.dom.heap_next :: w1.dom.holder_list_ ∧
      (∀ b, w2.dom.holder_ptr b = if b = w1.dom.heap_next then p else w1.dom.holder_ptr b) ∧
      w2.dom.count_ = w1.dom.count_ ∧ w2.dom.retired_list_ = w1.dom.retired_list_ ∧
      w2.dom.num_bulk_reclaims_ = w1.dom.num_bulk_reclaims_ ∧
      w2.dom.deleted = w1.dom.deleted ∧
      w2.handles n = some w1.dom.heap_next := by
  have e1 : get_hazard_ptr w1 = (some w1.dom.heap_next,
      { w1 with dom := (make_new_holder w1.dom).2,
                tc := { w1.tc with
                  holder_storage := w1.tc.holder_storage.insert w1.dom.heap_next } }) := by
    unfold get_hazard_ptr
    simp only [forward_list.empty, h1, List.isEmpty_nil, if_true]
    unfold make_holder
    rw [h2]
    rfl
  unfold make_hazard_ptr
  rw [e1]
  simp only [try_protect, if_true]
  refine ⟨_, rfl, h1, h2, rfl, rfl, ?_, rfl, rfl, rfl, rfl, ?_⟩
  · intro b
    simp only [store_ptr, make_new_holder]
    by_cases hb : b = w1.dom.heap_next
    · simp [hb]
    · simp [hb]
  · simp

/-- After `publish_all n` on a fresh thread the directory links the slots 1
to `n`, slot `a` publishes the address `4096 * a`, both free lists are empty
and the registry of retired records is untouched. -/
theorem publish_all_spec (n : Nat) :
    ∃ w, publish_all n world.init = some w ∧
      w.tc.free_list.head_ = [] ∧ w.dom.free_list_ = [] ∧ w.dom.heap_next = n + 1 ∧
      (∀ a, 1 ≤ a → a ≤ n → a ∈ w.dom.holder_list_ ∧ w.dom.holder_ptr a = 4096 * a) ∧
      w.dom.count_ = 0 ∧ w.dom.retired_list_ = (fun _ => []) ∧
      w.dom.num_bulk_reclaims_ = 0 ∧ w.dom.holder_list_.length = n ∧ w.dom.deleted = [] := by
  induction n with
  | zero =>
    refine ⟨world.init, rfl, rfl, rfl, rfl, ?_, rfl, rfl, rfl, rfl, rfl⟩
    intro a h1 h2
    omega
  | succ n ih =>
    obtain ⟨w1, e, h1, h2, h3, h4, h5, h6, h7, h8, h9⟩ := ih
    obtain ⟨w2, e2, g1, g2, g3, g4, g5, g6, g7, g8, g9, _⟩ :=
      publish_step n (4096 * (n + 1)) w1 h1 h2
    refine ⟨w2, ?_, g1, g2, by rw [g3, h3], ?_, by rw [g6, h5], by rw [g7, h6],
      by rw [g8, h7], by rw [g4, List.length_cons, h8], by rw [g9, h9]⟩
    · simp only [publish_all, e, e2]
    · intro a ha1 ha2
      rw [g4, g5 a, h3]
      by_cases ha : a = n + 1
      · subst ha
        simp
      · obtain ⟨m1, m2⟩ := h4 a ha1 (by omega)
        simp only [ha, if_false]
        exact ⟨List.mem_cons_of_mem _ m1, m2⟩

theorem published_nodes_protected (n : Nat) (s : reclaimer)
    (h : ∀ a, 1 ≤ a → a ≤ n → a ∈ s.holder_list_ ∧ s.holder_ptr a = 4096 * a) :
    ∀ node ∈ published_nodes n, node.raw_ptr ∈ load_hazptr_vals s := by
  intro node hn
  unfold published_nodes at hn
  obtain ⟨k, hk, e⟩ := List.mem_map.mp hn
  subst e
  have hk' : k < n := List.mem_range.mp hk
  obtain ⟨m1, m2⟩ := h (k + 1) (by omega) (by omega)
  rw [mem_load_hazptr_vals]
  refine ⟨k + 1, m1, ?_, ?_, ?_⟩
  · rw [m2]; rfl
  · simp only [retire_node.raw_ptr, NOUSE]; omega
  · simp only [retire_node.raw_ptr, INUSE]; omega

/-- C36. The loop of `do_reclamation` does not always exit.  A thread
publishes 1000 hazards (`publish_all 1000`) and retires the 1000 objects they
protect: the first 999 calls of `retire` return, whatever the clock reads,
with 999 records held and counted; the 1000th call then never returns (it is
out of fuel for every fuel), and neither does `reclaim()` called in the state
in which that 1000th record has been pushed and counted.  In general, on
every domain whose held records are all protected and whose retired-count is
1000 or more, `reclaim()` never returns and `do_reclamation` never exits;
and on every domain with no pass in progress, a retired-count below 1000 and
deleters that retire nothing, `reclaim()` returns after one iteration with
the counter of passes back at 0. -/
theorem C36_reclamation_does_not_return_at_the_threshold (clock : Nat → Nat) (fuel : Nat) :
    (∃ w s, publish_all 1000 world.init = some w ∧
      retire_all clock (fuel + 1) (published_nodes 999) w.dom = some s ∧
      s.count_ = 999 ∧ (shards_all s).length = 999 ∧ s.deleted = [] ∧
      (∀ fuel', retire clock fuel' (retire_node.mk (4096 * 1000) (65536 + 64 * 999) []) s
        = none) ∧
      (∀ fuel', reclaim clock fuel'
        (add_count (retired_list_push s (((65536 + 64 * 999) >>> 8) &&& kShardMask)
          (retire_node.mk (4096 * 1000) (65536 + 64 * 999) [])) 1) = none)) ∧
    (∀ t : reclaimer, (∀ r ∈ shards_all t, r.raw_ptr ∈ load_hazptr_vals t) →
      kReclaimThreshold ≤ t.count_ →
      (∀ fuel', reclaim clock fuel' t = none) ∧
      (∀ fuel' rc, 0 ≤ rc → do_reclamation clock fuel' t rc = none)) ∧
    (∀ t : reclaimer, t.num_bulk_reclaims_ = 0 → t.count_ < kReclaimThreshold →
      (∀ r ∈ unprotected_records t, r.deleter = []) →
      ∃ t', reclaim clock 1 t = some t' ∧ t'.num_bulk_reclaims_ = 0) := by
  refine ⟨?_, ?_, ?_⟩
  · obtain ⟨w, e, _, _, _, h4, h5, h6, _, _, h9⟩ := publish_all_spec 1000
    have hsh : shards_all w.dom = [] := shards_all_nil (fun i _ => by rw [h6])
    have hp0 : ∀ r ∈ shards_all w.dom, r.raw_ptr ∈ load_hazptr_vals w.dom := by
      intro r hr
      rw [hsh] at hr
      exact absurd hr (List.not_mem_nil _)
    have hlen : (published_nodes 999).length = 999 := by simp [published_nodes]
    obtain ⟨s, e2, hs, hc, hr, hd⟩ :=
      retire_all_protected_returns clock fuel (published_nodes 999) w.dom hp0
        (published_nodes_protected 999 w.dom (fun a h1 h2 => h4 a h1 (by omega)))
        (by rw [h5, hlen]; decide)
    have hz : load_hazptr_vals s = load_hazptr_vals w.dom := load_hazptr_vals_congr hs
    have hps : ∀ r ∈ shards_all s, r.raw_ptr ∈ load_hazptr_vals s := by
      intro r hr'
      rw [hz]
      have := hr.subset hr'
      rw [hsh, List.append_nil] at this
      exact published_nodes_protected 999 w.dom (fun a h1 h2 => h4 a h1 (by omega)) r
        (List.mem_reverse.mp this)
    have hlast : (retire_node.mk (4096 * 1000) (65536 + 64 * 999) []).raw_ptr
        ∈ load_hazptr_vals s := by
      rw [hz]
      exact published_nodes_protected 1000 w.dom h4 _
        (List.mem_map.mpr ⟨999, List.mem_range.mpr (by decide), rfl⟩)
    have hcs : s.count_ = 999 := by rw [hc, h5, hlen]; rfl
    refine ⟨w, s, e, e2, hcs, ?_, ?_, ?_, ?_⟩
    · rw [hr.length_eq, hsh]
      simp [hlen]
    · rw [hd, h9]
    · intro fuel'
      exact retire_stuck clock fuel' _ s hps hlast (by rw [hcs]; decide)
    · intro fuel'
      apply reclaim_stuck
      · intro r hr'
        have hi : ((65536 + 64 * 999) >>> 8) &&& kShardMask < kNumShards := by decide
        have hm := (shards_all_push s _ hi
          (retire_node.mk (4096 * 1000) (65536 + 64 * 999) [])).subset hr'
        have hz' : load_hazptr_vals (add_count (retired_list_push s
            (((65536 + 64 * 999) >>> 8) &&& kShardMask)
            (retire_node.mk (4096 * 1000) (65536 + 64 * 999) [])) 1) = load_hazptr_vals s := rfl
        rw [hz']
        rcases List.mem_cons.mp hm with e' | hm
        · rw [e']; exact hlast
        · exact hps r hm
      · show kReclaimThreshold ≤ s.count_ + 1
        rw [hcs]
        decide
  · intro t hp hc
    refine ⟨fun fuel' => reclaim_stuck clock fuel' t hp hc, ?_⟩
    intro fuel' rc hrc
    exact do_reclamation_stuck clock fuel' t rc hp (by omega)
  · intro t hb hc hd
    obtain ⟨t', e⟩ := reclaim_returns_plain clock t hb hc hd
    exact ⟨t', e, (reclaim_count_below_threshold clock 1 t t' e).2⟩

/-! ## The calls on slots leave the registry of retired records alone -/

theorem make_holder_registry (s : reclaimer) :
    (make_holder s).2.count_ = s.count_ ∧ (make_holder s).2.retired_list_ = s.retired_list_ := by
  unfold make_holder
  cases s.free_list_ with
  | nil => exact ⟨rfl, rfl⟩
  | cons a l => exact ⟨rfl, rfl⟩

theorem reserve_hazp_loop_registry (n : Nat) (w : world) :
    (reserve_hazp_loop n w).dom.count_ = w.dom.count_ ∧
      (reserve_hazp_loop n w).dom.retired_list_ = w.dom.retired_list_ := by
  induction n generalizing w with
  | zero => exact ⟨rfl, rfl⟩
  | succ n ih =>
    simp only [reserve_hazp_loop]
    obtain ⟨i1, i2⟩ := ih
      { w with dom := (make_holder w.dom).2,
               tc := { free_list := w.tc.free_list.push (make_holder w.dom).1,
                       holder_storage := w.tc.holder_storage.insert (make_holder w.dom).1 } }
    exact ⟨i1.trans (make_holder_registry w.dom).1, i2.trans (make_holder_registry w.dom).2⟩

theorem reserve_hazp_registry (size : Nat) (w : world) :
    (reserve_hazp size w).dom.count_ = w.dom.count_ ∧
      (reserve_hazp size w).dom.retired_list_ = w.dom.retired_list_ := by
  unfold reserve_hazp
  simp only
  split
  · exact ⟨rfl, rfl⟩
  · exact reserve_hazp_loop_registry _ _

theorem get_hazard_ptr_registry (w : world) :
    (get_hazard_ptr w).2.dom.count_ = w.dom.count_ ∧
      (get_hazard_ptr w).2.dom.retired_list_ = w.dom.retired_list_ := by
  unfold get_hazard_ptr
  split
  · exact make_holder_registry w.dom
  · exact ⟨rfl, rfl⟩

theorem get_hazard_ptrs_registry (size : Nat) (w : world) :
    (get_hazard_ptrs size w).2.dom.count_ = w.dom.count_ ∧
      (get_hazard_ptrs size w).2.dom.retired_list_ = w.dom.retired_list_ := by
  unfold get_hazard_ptrs
  simp only
  split
  · exact reserve_hazp_registry _ _
  · exact ⟨rfl, rfl⟩

theorem evict_hazard_ptr_loop_registry (l : List Nat) (d : reclaimer) (st : List Nat) :
    (evict_hazard_ptr_loop l d st).1.count_ = d.count_ ∧
      (evict_hazard_ptr_loop l d st).1.retired_list_ = d.retired_list_ := by
  induction l generalizing d st with
  | nil => exact ⟨rfl, rfl⟩
  | cons x xs ih =>
    simp only [evict_hazard_ptr_loop]
    obtain ⟨i1, i2⟩ := ih ((store_ptr d x INUSE).reuse x) (st.erase x)
    exact ⟨i1, i2⟩

theorem compact_registry (s : reclaimer) (l : List Nat) :
    (compact s l).1.count_ = s.count_ ∧ (compact s l).1.retired_list_ = s.retired_list_ := by
  unfold compact
  simp

/-- A call that concerns slots changes neither the retired-count nor the
shards. -/
theorem slot_op_registry (op : slot_op) (w w' : world) (h : op.run w = some w') :
    w'.dom.count_ = w.dom.count_ ∧ w'.dom.retired_list_ = w.dom.retired_list_ := by
  cases op with
  | make_hazard_ptr a =>
    simp only [slot_op.run, Option.some.injEq] at h
    subst h
    exact get_hazard_ptr_registry w
  | make_hazard_ptr_array size a =>
    simp only [slot_op.run, Option.some.injEq] at h
    subst h
    exact get_hazard_ptrs_registry size w
  | reserve_hazp size =>
    simp only [slot_op.run, Option.some.injEq] at h
    subst h
    exact reserve_hazp_registry size w
  | move_ctor a b =>
    simp only [slot_op.run, Option.some.injEq] at h
    subst h
    exact ⟨rfl, rfl⟩
  | move_assign a b =>
    simp only [slot_op.run, Option.some.injEq] at h
    subst h
    unfold hazard_ptr_move_assign
    split
    · exact ⟨rfl, rfl⟩
    · simp only
      split <;> exact ⟨rfl, rfl⟩
  | hazard_ptr_dtor a =>
    simp only [slot_op.run, Option.some.injEq] at h
    subst h
    unfold hazard_ptr_dtor
    split <;> exact ⟨rfl, rfl⟩
  | try_protect a p =>
    simp only [slot_op.run, try_protect] at h
    split at h
    · cases h
    · rename_i r w1 hr
      split at hr
      · cases hr
      · cases hr
        cases h
        exact ⟨rfl, rfl⟩
  | reset a =>
    simp only [slot_op.run, hazard_ptr_reset] at h
    split at h
    · cases h
    · cases h
      exact ⟨rfl, rfl⟩
  | evict_hazard_ptr =>
    simp only [slot_op.run, Option.some.injEq] at h
    subst h
    exact evict_hazard_ptr_loop_registry _ _ _
  | delete_hazard_ptr =>
    simp only [slot_op.run, Option.some.injEq] at h
    subst h
    exact compact_registry _ _

theorem excess_init : excess world.init.dom = 0 := rfl

theorem domain_call_excess (clock : Nat → Nat) (fuel : Nat) (c : domain_call) (w w' : world)
    (h : c.run clock fuel w = some w') : excess w'.dom = excess w.dom := by
  cases c with
  | slot op =>
    obtain ⟨h1, h2⟩ := slot_op_registry op w w' h
    unfold excess shards_all
    rw [h1, h2]
  | retire node =>
    simp only [domain_call.run] at h
    split at h
    · cases h
    · rename_i d hd
      cases h
      have := (push_list_count (do_reclamation_count clock fuel) clock node w.dom d hd).1
      simpa using this
  | reclaim =>
    simp only [domain_call.run] at h
    split at h
    · cases h
    · rename_i d hd
      cases h
      unfold hazp.reclaim at hd
      split at hd
      · cases hd
      · rename_i s1 h1
        split at hd
        · cases hd
        · cases hd
          have := (pass_count_of_rec (do_reclamation_count clock fuel) w.dom d 0 h1).1
          simpa using this

theorem domain_run_excess (clock : Nat → Nat) (fuel : Nat) (calls : List domain_call)
    (w w' : world) (h : domain_run clock fuel calls w = some w') :
    excess w'.dom = excess w.dom := by
  induction calls generalizing w with
  | nil =>
    simp only [domain_run, Option.some.injEq] at h
    rw [h]
  | cons c rest ih =>
    simp only [domain_run] at h
    split at h
    · cases h
    · rename_i w1 h1
      rw [ih w1 h, domain_call_excess clock fuel c w w1 h1]

/-- C35. Whenever the calls of a single-threaded run (calls on slots,
`retire`, `reclaim`, in any order from the start of the program, with any
clock) have all returned, the retired-count of the domain is the number of
records held in the eight shards. -/
theorem C35_retired_count_accounting (clock : Nat → Nat) (fuel : Nat)
    (calls : List domain_call) (w : world)
    (hrun : domain_run clock fuel calls world.init = some w) :
    w.dom.count_ = ((shards_all w.dom).length : Int) := by
  have h := domain_run_excess clock fuel calls world.init w hrun
  rw [excess_init] at h
  unfold excess at h
  omega

theorem C35_witness :
    (∃ w, domain_run (fun _ => 0) 2
        [domain_call.slot (slot_op.make_hazard_ptr 0), domain_call.slot (slot_op.try_protect 0 4096),
          domain_call.retire (retire_node.mk 4096 768 []), domain_call.reclaim,
          domain_call.retire (retire_node.mk 8192 1024 [])]
        world.init = some w ∧
      w.dom.count_ = ((shards_all w.dom).length : Int)) ∧
    (domain_run (fun _ => 0) 2
        [domain_call.slot (slot_op.make_hazard_ptr 0), domain_call.slot (slot_op.try_protect 0 4096),
          domain_call.retire (retire_node.mk 4096 768 []), domain_call.reclaim,
          domain_call.retire (retire_node.mk 8192 1024 [])]
        world.init).map (fun w => w.dom.count_) = some 2 := by
  have h : (domain_run (fun _ => 0) 2
        [domain_call.slot (slot_op.make_hazard_ptr 0), domain_call.slot (slot_op.try_protect 0 4096),
          domain_call.retire (retire_node.mk 4096 768 []), domain_call.reclaim,
          domain_call.retire (retire_node.mk 8192 1024 [])]
        world.init).isSome = true := rfl
  obtain ⟨w, hw⟩ := Option.isSome_iff_exists.mp h
  exact ⟨⟨w, hw, C35_retired_count_accounting _ _ _ _ hw⟩, by decide⟩

/-! ## Where the slots are: the moves between the free lists and the handles -/

theorem slot_ok_congr {D : List Nat} {N : Nat} {C G : List Nat} {H H' : Nat → Option Nat}
    (he : ∀ k, H' k = H k) (h : slot_ok D N C G H) : slot_ok D N C G H' := by
  have : H' = H := funext he
  rw [this]
  exact h

theorem cover_ok_congr {D C G : List Nat} {H H' : Nat → Option Nat}
    (he : ∀ k, H' k = H k) (h : cover_ok D C G H) : cover_ok D C G H' := by
  have : H' = H := funext he
  rw [this]
  exact h

theorem slot_ok_take_global {D : List Nat} {N : Nat} {C G : List Nat} {H : Nat → Option Nat}
    {a : Nat} (h : slot_ok D N C (a :: G) H) : slot_ok D N (a :: C) G H := by
  obtain ⟨i1, i2, i3, i4, i5, i6, i7, i8⟩ := h
  have haG : a ∉ G := (List.nodup_cons.mp i4).1
  have haC : a ∉ C := fun hc => (i5 a hc).2 (List.mem_cons_self _ _)
  refine ⟨i1, i2, List.nodup_cons.mpr ⟨haC, i3⟩, (List.nodup_cons.mp i4).2, ?_, ?_, ?_, i8⟩
  · intro x hx
    rcases List.mem_cons.mp hx with e | hx
    · subst e
      exact ⟨i6 x (List.mem_cons_self _ _), haG⟩
    · exact ⟨(i5 x hx).1, fun hg => (i5 x hx).2 (List.mem_cons_of_mem _ hg)⟩
  · intro x hx
    exact i6 x (List.mem_cons_of_mem _ hx)
  · intro k x hk
    obtain ⟨j1, j2, j3⟩ := i7 k x hk
    refine ⟨j1, ?_, fun hg => j3 (List.mem_cons_of_mem _ hg)⟩
    intro hx
    rcases List.mem_cons.mp hx with e | hx
    · exact j3 (by rw [e]; exact List.mem_cons_self _ _)
    · exact j2 hx

theorem slot_ok_new {D : List Nat} {N : Nat} {C : List Nat} {H : Nat → Option Nat}
    (h : slot_ok D N C [] H) : slot_ok (N :: D) (N + 1) (N :: C) [] H := by
  obtain ⟨i1, i2, i3, i4, i5, i6, i7, i8⟩ := h
  have hND : N ∉ D := fun hd => absurd (i2 N hd) (lt_irrefl N)
  have hNC : N ∉ C := fun hc => hND (i5 N hc).1
  refine ⟨List.nodup_cons.mpr ⟨hND, i1⟩, ?_, List.nodup_cons.mpr ⟨hNC, i3⟩, i4, ?_, ?_, ?_, i8⟩
  · intro x hx
    rcases List.mem_cons.mp hx with e | hx
    · omega
    · have := i2 x hx
      omega
  · intro x hx
    rcases List.mem_cons.mp hx with e | hx
    · subst e
      exact ⟨List.mem_cons_self _ _, List.not_mem_nil _⟩
    · exact ⟨List.mem_cons_of_mem _ (i5 x hx).1, List.not_mem_nil _⟩
  · intro x hx
    exact absurd hx (List.not_mem_nil _)
  · intro k x hk
    obtain ⟨j1, j2, j3⟩ := i7 k x hk
    refine ⟨List.mem_cons_of_mem _ j1, ?_, j3⟩
    intro hx
    rcases List.mem_cons.mp hx with e | hx
    · exact hND (e ▸ j1)
    · exact j2 hx

theorem slot_ok_pop_to_handle {D : List Nat} {N : Nat} {C G : List Nat} {H : Nat → Option Nat}
    {a : Nat} (h0 : Nat) (h : slot_ok D N (a :: C) G H) :
    slot_ok D N C G (fun k => if k = h0 then some a else H k) := by
  obtain ⟨i1, i2, i3, i4, i5, i6, i7, i8⟩ := h
  have haC : a ∉ C := (List.nodup_cons.mp i3).1
  have hown : ∀ k, H k ≠ some a := fun k hk => (i7 k a hk).2.1 (List.mem_cons_self _ _)
  refine ⟨i1, i2, (List.nodup_cons.mp i3).2, i4, ?_, i6, ?_, ?_⟩
  · intro x hx
    exact i5 x (List.mem_cons_of_mem _ hx)
  · intro k x hk
    simp only at hk
    by_cases hk0 : k = h0
    · rw [if_pos hk0] at hk
      cases hk
      exact ⟨(i5 a (List.mem_cons_self _ _)).1, haC, (i5 a (List.mem_cons_self _ _)).2⟩
    · rw [if_neg hk0] at hk
      obtain ⟨j1, j2, j3⟩ := i7 k x hk
      exact ⟨j1, fun hc => j2 (List.mem_cons_of_mem _ hc), j3⟩
  · intro k1 k2 x hk1 hk2
    simp only at hk1 hk2
    by_cases e1 : k1 = h0
    · by_cases e2 : k2 = h0
      · rw [e1, e2]
      · rw [if_pos e1] at hk1
        rw [if_neg e2] at hk2
        cases hk1
        exact absurd hk2 (hown k2)
    · by_cases e2 : k2 = h0
      · rw [if_neg e1] at hk1
        rw [if_pos e2] at hk2
        cases hk2
        exact absurd hk1 (hown k1)
      · rw [if_neg e1] at hk1
        rw [if_neg e2] at hk2
        exact i8 k1 k2 x hk1 hk2

theorem slot_ok_clear {D : List Nat} {N : Nat} {C G : List Nat} {H : Nat → Option Nat}
    (h0 : Nat) (h : slot_ok D N C G H) :
    slot_ok D N C G (fun k => if k = h0 then none else H k) := by
  obtain ⟨i1, i2, i3, i4, i5, i6, i7, i8⟩ := h
  refine ⟨i1, i2, i3, i4, i5, i6, ?_, ?_⟩
  · intro k x hk
    simp only at hk
    by_cases hk0 : k = h0
    · rw [if_pos hk0] at hk
      cases hk
    · rw [if_neg hk0] at hk
      exact i7 k x hk
  · intro k1 k2 x hk1 hk2
    simp only at hk1 hk2
    by_cases e1 : k1 = h0
    · rw [if_pos e1] at hk1
      cases hk1
    · by_cases e2 : k2 = h0
      · rw [if_pos e2] at hk2
        cases hk2
      · rw [if_neg e1] at hk1
        rw [if_neg e2] at hk2
        exact i8 k1 k2 x hk1 hk2

theorem slot_ok_release {D : List Nat} {N : Nat} {C G : List Nat} {H : Nat → Option Nat}
    {a : Nat} (h0 : Nat) (ha : H h0 = some a) (h : slot_ok D N C G H) :
    slot_ok D N (a :: C) G (fun k => if k = h0 then none else H k) := by
  obtain ⟨i1, i2, i3, i4, i5, i6, i7, i8⟩ := h
  obtain ⟨a1, a2, a3⟩ := i7 h0 a ha
  refine ⟨i1, i2, List.nodup_cons.mpr ⟨a2, i3⟩, i4, ?_, i6, ?_, ?_⟩
  · intro x hx
    rcases List.mem_cons.mp hx with e | hx
    · subst e
      exact ⟨a1, a3⟩
    · exact i5 x hx
  · intro k x hk
    simp only at hk
    by_cases hk0 : k = h0
    · rw [if_pos hk0] at hk
      cases hk
    · rw [if_neg hk0] at hk
      obtain ⟨j1, j2, j3⟩ := i7 k x hk
      refine ⟨j1, ?_, j3⟩
      intro hx
      rcases List.mem_cons.mp hx with e | hx
      · subst e
        exact hk0 (i8 k h0 x hk ha)
      · exact j2 hx
  · intro k1 k2 x hk1 hk2
    simp only at hk1 hk2
    by_cases e1 : k1 = h0
    · rw [if_pos e1] at hk1
      cases hk1
    · by_cases e2 : k2 = h0
      · rw [if_pos e2] at hk2
        cases hk2
      · rw [if_neg e1] at hk1
        rw [if_neg e2] at hk2
        exact i8 k1 k2 x hk1 hk2

theorem slot_ok_evict {D : List Nat} {N : Nat} {C G : List Nat} {H : Nat → Option Nat}
    (h : slot_ok D N C G H) : slot_ok D N [] (C.reverse ++ G) H := by
  obtain ⟨i1, i2, i3, i4, i5, i6, i7, i8⟩ := h
  refine ⟨i1, i2, List.nodup_nil, ?_, ?_, ?_, ?_, i8⟩
  · rw [List.nodup_append]
    refine ⟨List.nodup_reverse.mpr i3, i4, ?_⟩
    intro x hx hg
    exact (i5 x (List.mem_reverse.mp hx)).2 hg
  · intro x hx
    exact absurd hx (List.not_mem_nil _)
  · intro x hx
    rcases List.mem_append.mp hx with hx | hx
    · exact (i5 x (List.mem_reverse.mp hx)).1
    · exact i6 x hx
  · intro k x hk
    obtain ⟨j1, j2, j3⟩ := i7 k x hk
    refine ⟨j1, List.not_mem_nil _, ?_⟩
    intro hx
    rcases List.mem_append.mp hx with hx | hx
    · exact j2 (List.mem_reverse.mp hx)
    · exact j3 hx

theorem slot_ok_delete {D : List Nat} {N : Nat} {C G : List Nat} {H : Nat → Option Nat}
    (h : slot_ok D N C G H) :
    slot_ok (D.filter (fun a => decide (a ∉ G))) N C [] H := by
  obtain ⟨i1, i2, i3, i4, i5, i6, i7, i8⟩ := h
  refine ⟨i1.filter _, ?_, i3, List.nodup_nil, ?_, ?_, ?_, i8⟩
  · intro x hx
    exact i2 x (List.mem_filter.mp hx).1
  · intro x hx
    exact ⟨List.mem_filter.mpr ⟨(i5 x hx).1, by simpa using (i5 x hx).2⟩, List.not_mem_nil _⟩
  · intro x hx
    exact absurd hx (List.not_mem_nil _)
  · intro k x hk
    obtain ⟨j1, j2, j3⟩ := i7 k x hk
    exact ⟨List.mem_filter.mpr ⟨j1, by simpa using j3⟩, j2, List.not_mem_nil _⟩

theorem slot_ok_move {D : List Nat} {N : Nat} {C G : List Nat} {H : Nat → Option Nat}
    (h0 other : Nat) (h : slot_ok D N C G H) :
    slot_ok D N C G (fun k => if k = h0 then H other else if k = other then none else H k) := by
  obtain ⟨i1, i2, i3, i4, i5, i6, i7, i8⟩ := h
  have key : ∀ k x, (if k = h0 then H other else if k = other then none else H k) = some x →
      (k = h0 ∧ H other = some x) ∨ (k ≠ h0 ∧ k ≠ other ∧ H k = some x) := by
    intro k x hk
    by_cases e1 : k = h0
    · rw [if_pos e1] at hk
      exact Or.inl ⟨e1, hk⟩
    · rw [if_neg e1] at hk
      by_cases e2 : k = other
      · rw [if_pos e2] at hk
        cases hk
      · rw [if_neg e2] at hk
        exact Or.inr ⟨e1, e2, hk⟩
  refine ⟨i1, i2, i3, i4, i5, i6, ?_, ?_⟩
  · intro k x hk
    rcases key k x hk with ⟨_, hk⟩ | ⟨_, _, hk⟩
    · exact i7 other x hk
    · exact i7 k x hk
  · intro k1 k2 x hk1 hk2
    rcases key k1 x hk1 with ⟨e1, g1⟩ | ⟨e1, f1, g1⟩
    · rcases key k2 x hk2 with ⟨e2, _⟩ | ⟨_, f2, g2⟩
      · rw [e1, e2]
      · exact absurd (i8 k2 other x g2 g1) f2
    · rcases key k2 x hk2 with ⟨_, g2⟩ | ⟨_, _, g2⟩
      · exact absurd (i8 k1 other x g1 g2) f1
      · exact i8 k1 k2 x g1 g2

/-! ## Every slot of the directory is on a free list or owned -/

theorem cover_ok_take_global {D C G : List Nat} {H : Nat → Option Nat} {a : Nat}
    (h : cover_ok D C (a :: G) H) : cover_ok D (a :: C) G H := by
  intro x hx
  rcases h x hx with hc | hg | hh
  · exact Or.inl (List.mem_cons_of_mem _ hc)
  · rcases List.mem_cons.mp hg with e | hg
    · exact Or.inl (by rw [e]; exact List.mem_cons_self _ _)
    · exact Or.inr (Or.inl hg)
  · exact Or.inr (Or.inr hh)

theorem cover_ok_new {D C : List Nat} {H : Nat → Option Nat} (N : Nat)
    (h : cover_ok D C [] H) : cover_ok (N :: D) (N :: C) [] H := by
  intro x hx
  rcases List.mem_cons.mp hx with e | hx
  · exact Or.inl (by rw [e]; exact List.mem_cons_self _ _)
  · rcases h x hx with hc | hg | hh
    · exact Or.inl (List.mem_cons_of_mem _ hc)
    · exact Or.inr (Or.inl hg)
    · exact Or.inr (Or.inr hh)

theorem cover_ok_pop_to_handle {D C G : List Nat} {H : Nat → Option Nat} {a : Nat} (h0 : Nat)
    (hn : H h0 = none) (h : cover_ok D (a :: C) G H) :
    cover_ok D C G (fun k => if k = h0 then some a else H k) := by
  intro x hx
  rcases h x hx with hc | hg | ⟨k, hk⟩
  · rcases List.mem_cons.mp hc with e | hc
    · exact Or.inr (Or.inr ⟨h0, by simp [e]⟩)
    · exact Or.inl hc
  · exact Or.inr (Or.inl hg)
  · refine Or.inr (Or.inr ⟨k, ?_⟩)
    have : k ≠ h0 := by
      intro e
      rw [e, hn] at hk
      cases hk
    simp only [this, if_false]
    exact hk

theorem cover_ok_clear {D C G : List Nat} {H : Nat → Option Nat} (h0 : Nat)
    (hn : H h0 = none) (h : cover_ok D C G H) :
    cover_ok D C G (fun k => if k = h0 then none else H k) := by
  apply cover_ok_congr _ h
  intro k
  by_cases e : k = h0
  · simp [e, hn]
  · simp [e]

theorem cover_ok_release {D C G : List Nat} {H : Nat → Option Nat} {a : Nat} (h0 : Nat)
    (ha : H h0 = some a) (h : cover_ok D C G H) :
    cover_ok D (a :: C) G (fun k => if k = h0 then none else H k) := by
  intro x hx
  rcases h x hx with hc | hg | ⟨k, hk⟩
  · exact Or.inl (List.mem_cons_of_mem _ hc)
  · exact Or.inr (Or.inl hg)
  · by_cases e : k = h0
    · rw [e, ha] at hk
      cases hk
      exact Or.inl (List.mem_cons_self _ _)
    · exact Or.inr (Or.inr ⟨k, by simp only [e, if_false]; exact hk⟩)

theorem cover_ok_evict {D C G : List Nat} {H : Nat → Option Nat}
    (h : cover_ok D C G H) : cover_ok D [] (C.reverse ++ G) H := by
  intro x hx
  rcases h x hx with hc | hg | hh
  · exact Or.inr (Or.inl (List.mem_append_left _ (List.mem_reverse.mpr hc)))
  · exact Or.inr (Or.inl (List.mem_append_right _ hg))
  · exact Or.inr (Or.inr hh)

theorem cover_ok_delete {D C G : List Nat} {H : Nat → Option Nat}
    (h : cover_ok D C G H) : cover_ok (D.filter (fun a => decide (a ∉ G))) C [] H := by
  intro x hx
  obtain ⟨m1, m2⟩ := List.mem_filter.mp hx
  rcases h x m1 with hc | hg | hh
  · exact Or.inl hc
  · exact absurd hg (by simpa using m2)
  · exact Or.inr (Or.inr hh)

theorem cover_ok_move {D C G : List Nat} {H : Nat → Option Nat} (h0 other : Nat)
    (hn : H h0 = none) (h : cover_ok D C G H) :
    cover_ok D C G (fun k => if k = h0 then H other else if k = other then none else H k) := by
  intro x hx
  rcases h x hx with hc | hg | ⟨k, hk⟩
  · exact Or.inl hc
  · exact Or.inr (Or.inl hg)
  · by_cases e : k = other
    · exact Or.inr (Or.inr ⟨h0, by simp only [if_true]; rw [← e]; exact hk⟩)
    · have e0 : k ≠ h0 := by
        intro e0
        rw [e0, hn] at hk
        cases hk
      exact Or.inr (Or.inr ⟨k, by simp only [e0, e, if_false]; exact hk⟩)

/-! ## The calls on slots keep the slots where they belong -/

theorem make_holder_cases (s : reclaimer) :
    (∃ a l, s.free_list_ = a :: l ∧ make_holder s = (a, { s with free_list_ := l })) ∨
    (s.free_list_ = [] ∧ make_holder s = make_new_holder s) := by
  unfold make_holder
  cases hf : s.free_list_ with
  | nil => exact Or.inr ⟨rfl, rfl⟩
  | cons a l => exact Or.inl ⟨a, l, rfl, rfl⟩

theorem make_holder_ok (s : reclaimer) (C : List Nat) (H : Nat → Option Nat)
    (h : slot_ok s.holder_list_ s.heap_next C s.free_list_ H) :
    slot_ok (make_holder s).2.holder_list_ (make_holder s).2.heap_next
      ((make_holder s).1 :: C) (make_holder s).2.free_list_ H := by
  rcases make_holder_cases s with ⟨a, l, hf, e⟩ | ⟨hf, e⟩
  · rw [e]
    rw [hf] at h
    exact slot_ok_take_global h
  · rw [e]
    show slot_ok (s.heap_next :: s.holder_list_) (s.heap_next + 1) (s.heap_next :: C)
      s.free_list_ H
    rw [hf] at h ⊢
    exact slot_ok_new h

theorem make_holder_cover (s : reclaimer) (C : List Nat) (H : Nat → Option Nat)
    (h : cover_ok s.holder_list_ C s.free_list_ H) :
    cover_ok (make_holder s).2.holder_list_ ((make_holder s).1 :: C)
      (make_holder s).2.free_list_ H := by
  rcases make_holder_cases s with ⟨a, l, hf, e⟩ | ⟨hf, e⟩
  · rw [e]
    rw [hf] at h
    exact cover_ok_take_global h
  · rw [e]
    show cover_ok (s.heap_next :: s.holder_list_) (s.heap_next :: C) s.free_list_ H
    rw [hf] at h ⊢
    exact cover_ok_new _ h

theorem reserve_hazp_loop_inv (n : Nat) (w : world) (h : slot_inv w) :
    slot_inv (reserve_hazp_loop n w) ∧
      (reserve_hazp_loop n w).handles = w.handles := by
  induction n generalizing w with
  | zero => exact ⟨h, rfl⟩
  | succ n ih =>
    simp only [reserve_hazp_loop]
    exact ih _ (make_holder_ok w.dom _ _ h)

theorem reserve_hazp_loop_cover (n : Nat) (w : world) (h : slot_cover w) :
    slot_cover (reserve_hazp_loop n w) := by
  induction n generalizing w with
  | zero => exact h
  | succ n ih =>
    simp only [reserve_hazp_loop]
    exact ih _ (make_holder_cover w.dom _ _ h)

theorem reserve_hazp_inv (size : Nat) (w : world) (h : slot_inv w) :
    slot_inv (reserve_hazp size w) ∧ (reserve_hazp size w).handles = w.handles := by
  unfold reserve_hazp
  simp only
  split
  · exact ⟨h, rfl⟩
  · exact reserve_hazp_loop_inv _ _ h

theorem reserve_hazp_cover (size : Nat) (w : world) (h : slot_cover w) :
    slot_cover (reserve_hazp size w) := by
  unfold reserve_hazp
  simp only
  split
  · exact h
  · exact reserve_hazp_loop_cover _ _ h

theorem pop_ok {D : List Nat} {N : Nat} {G : List Nat} {H : Nat → Option Nat}
    (fl : forward_list) (h0 : Nat) (h : slot_ok D N fl.head_ G H) :
    slot_ok D N fl.pop.2.head_ G (fun k => if k = h0 then fl.pop.1 else H k) := by
  unfold forward_list.pop
  cases hf : fl.head_ with
  | nil =>
    simp only
    rw [hf]
    rw [hf] at h
    exact slot_ok_clear h0 h
  | cons a l =>
    simp only
    rw [hf] at h
    exact slot_ok_pop_to_handle h0 h

theorem pop_cover {D G : List Nat} {H : Nat → Option Nat}
    (fl : forward_list) (h0 : Nat) (hn : H h0 = none) (h : cover_ok D fl.head_ G H) :
    cover_ok D fl.pop.2.head_ G (fun k => if k = h0 then fl.pop.1 else H k) := by
  unfold forward_list.pop
  cases hf : fl.head_ with
  | nil =>
    simp only
    rw [hf]
    rw [hf] at h
    exact cover_ok_clear h0 hn h
  | cons a l =>
    simp only
    rw [hf] at h
    exact cover_ok_pop_to_handle h0 hn h

theorem handles_of_pops (n h0 : Nat) (node : Option Nat) (rest : List (Option Nat))
    (H : Nat → Option Nat) (k : Nat) :
    (if h0 + 1 ≤ k ∧ k < h0 + 1 + n then rest.getD (k - (h0 + 1)) none
      else if k = h0 then node else H k)
    = (if h0 ≤ k ∧ k < h0 + (n + 1) then (node :: rest).getD (k - h0) none else H k) := by
  by_cases e : k = h0
  · subst e
    simp
  · by_cases hr : h0 + 1 ≤ k ∧ k < h0 + 1 + n
    · have hr' : h0 ≤ k ∧ k < h0 + (n + 1) := by omega
      rw [if_pos hr, if_pos hr']
      have : k - h0 = (k - (h0 + 1)) + 1 := by omega
      rw [this, List.getD_cons_succ]
    · have hr' : ¬ (h0 ≤ k ∧ k < h0 + (n + 1)) := by omega
      rw [if_neg hr, if_neg hr', if_neg e]

theorem get_hazard_ptrs_loop_ok {D : List Nat} {N : Nat} {G : List Nat} (n : Nat) :
    ∀ (h0 : Nat) (fl : forward_list) (H : Nat → Option Nat),
      slot_ok D N fl.head_ G H →
      slot_ok D N (get_hazard_ptrs_loop n fl).2.head_ G
        (fun k => if h0 ≤ k ∧ k < h0 + n then (get_hazard_ptrs_loop n fl).1.getD (k - h0) none
          else H k) := by
  induction n with
  | zero =>
    intro h0 fl H h
    apply slot_ok_congr _ h
    intro k
    have : ¬ (h0 ≤ k ∧ k < h0 + 0) := by omega
    simp only [this, if_false]
  | succ n ih =>
    intro h0 fl H h
    simp only [get_hazard_ptrs_loop]
    have := ih (h0 + 1) fl.pop.2 _ (pop_ok fl h0 h)
    apply slot_ok_congr _ this
    intro k
    exact (handles_of_pops n h0 _ _ H k).symm

theorem get_hazard_ptrs_loop_cover {D G : List Nat} (n : Nat) :
    ∀ (h0 : Nat) (fl : forward_list) (H : Nat → Option Nat),
      (∀ k, h0 ≤ k → k < h0 + n → H k = none) →
      cover_ok D fl.head_ G H →
      cover_ok D (get_hazard_ptrs_loop n fl).2.head_ G
        (fun k => if h0 ≤ k ∧ k < h0 + n then (get_hazard_ptrs_loop n fl).1.getD (k - h0) none
          else H k) := by
  induction n with
  | zero =>
    intro h0 fl H _ h
    apply cover_ok_congr _ h
    intro k
    have : ¬ (h0 ≤ k ∧ k < h0 + 0) := by omega
    simp only [this, if_false]
  | succ n ih =>
    intro h0 fl H hn h
    simp only [get_hazard_ptrs_loop]
    have := ih (h0 + 1) fl.pop.2 _
      (by
        intro k h1 h2
        have : k ≠ h0 := by omega
        simp only [this, if_false]
        exact hn k (by omega) (by omega))
      (pop_cover fl h0 (hn h0 (le_refl _) (by omega)) h)
    apply cover_ok_congr _ this
    intro k
    exact (handles_of_pops n h0 _ _ H k).symm

theorem make_hazard_ptr_inv (h0 : Nat) (w : world) (h : slot_inv w) :
    slot_inv (make_hazard_ptr h0 w) := by
  unfold make_hazard_ptr get_hazard_ptr
  by_cases he : w.tc.free_list.empty = true
  · simp only [he, if_true]
    exact slot_ok_pop_to_handle h0 (make_holder_ok w.dom _ _ h)
  · simp only [he]
    exact pop_ok w.tc.free_list h0 h

theorem make_hazard_ptr_cover (h0 : Nat) (w : world) (hn : w.handles h0 = none)
    (h : slot_cover w) : slot_cover (make_hazard_ptr h0 w) := by
  unfold make_hazard_ptr get_hazard_ptr
  by_cases he : w.tc.free_list.empty = true
  · simp only [he, if_true]
    exact cover_ok_pop_to_handle h0 hn (make_holder_cover w.dom _ _ h)
  · simp only [he]
    exact pop_cover w.tc.free_list h0 hn h

theorem make_hazard_ptr_array_inv (size h0 : Nat) (w : world) (h : slot_inv w) :
    slot_inv (make_hazard_ptr_array size h0 w) := by
  unfold make_hazard_ptr_array get_hazard_ptrs
  simp only
  split
  · exact get_hazard_ptrs_loop_ok size h0 _ _ (reserve_hazp_inv size w h).1
  · exact get_hazard_ptrs_loop_ok size h0 _ _ h

theorem make_hazard_ptr_array_cover (size h0 : Nat) (w : world)
    (hn : ∀ k, h0 ≤ k → k < h0 + size → w.handles k = none)
    (hi : slot_inv w) (h : slot_cover w) : slot_cover (make_hazard_ptr_array size h0 w) := by
  unfold make_hazard_ptr_array get_hazard_ptrs
  simp only
  split
  · exact get_hazard_ptrs_loop_cover size h0 _ _
      (by rw [(reserve_hazp_inv size w hi).2]; exact hn) (reserve_hazp_cover size w h)
  · exact get_hazard_ptrs_loop_cover size h0 _ _ hn h

theorem hazard_ptr_dtor_inv (h0 : Nat) (w : world) (h : slot_inv w) :
    slot_inv (hazard_ptr_dtor h0 w) := by
  unfold hazard_ptr_dtor
  cases hh : w.handles h0 with
  | none => exact h
  | some a => exact slot_ok_release h0 hh h

theorem hazard_ptr_dtor_cover (h0 : Nat) (w : world) (h : slot_cover w) :
    slot_cover (hazard_ptr_dtor h0 w) := by
  unfold hazard_ptr_dtor
  cases hh : w.handles h0 with
  | none => exact h
  | some a => exact cover_ok_release h0 hh h

theorem hazard_ptr_move_ctor_inv (h0 other : Nat) (w : world) (h : slot_inv w) :
    slot_inv (hazard_ptr_move_ctor h0 other w) :=
  slot_ok_move h0 other h

theorem hazard_ptr_move_ctor_cover (h0 other : Nat) (w : world) (hn : w.handles h0 = none)
    (h : slot_cover w) : slot_cover (hazard_ptr_move_ctor h0 other w) :=
  cover_ok_move h0 other hn h

theorem hazard_ptr_move_assign_inv (h0 other : Nat) (w : world) (h : slot_inv w) :
    slot_inv (hazard_ptr_move_assign h0 other w) := by
  unfold hazard_ptr_move_assign
  by_cases e : h0 = other
  · rw [if_pos e]
    exact h
  · rw [if_neg e]
    cases hh : w.handles h0 with
    | none =>
      simp only
      apply slot_ok_congr _ (slot_ok_move h0 other h)
      intro k
      simp only [hh]
    | some a =>
      simp only
      apply slot_ok_congr _ (slot_ok_move h0 other (slot_ok_release h0 hh h))
      intro k
      simp

theorem hazard_ptr_move_assign_cover (h0 other : Nat) (w : world) (h : slot_cover w) :
    slot_cover (hazard_ptr_move_assign h0 other w) := by
  unfold hazard_ptr_move_assign
  by_cases e : h0 = other
  · rw [if_pos e]
    exact h
  · rw [if_neg e]
    cases hh : w.handles h0 with
    | none =>
      simp only
      apply cover_ok_congr _ (cover_ok_move h0 other hh h)
      intro k
      simp only [hh]
    | some a =>
      simp only
      apply cover_ok_congr _ (cover_ok_move h0 other (by simp) (cover_ok_release h0 hh h))
      intro k
      simp

theorem evict_hazard_ptr_loop_next (l : List Nat) (d : reclaimer) (st : List Nat) :
    (evict_hazard_ptr_loop l d st).1.heap_next = d.heap_next := by
  induction l generalizing d st with
  | nil => rfl
  | cons x xs ih =>
    simp only [evict_hazard_ptr_loop]
    rw [ih]
    rfl

theorem evict_hazard_ptr_inv (w : world) (h : slot_inv w) : slot_inv (evict_hazard_ptr w) := by
  obtain ⟨e1, e2, _, _⟩ :=
    evict_hazard_ptr_loop_spec w.tc.free_list.head_ w.dom w.tc.holder_storage
  have e3 := evict_hazard_ptr_loop_next w.tc.free_list.head_ w.dom w.tc.holder_storage
  show slot_ok
    (evict_hazard_ptr_loop w.tc.free_list.head_ w.dom w.tc.holder_storage).1.holder_list_
    (evict_hazard_ptr_loop w.tc.free_list.head_ w.dom w.tc.holder_storage).1.heap_next []
    (evict_hazard_ptr_loop w.tc.free_list.head_ w.dom w.tc.holder_storage).1.free_list_ w.handles
  rw [e1, e2, e3]
  exact slot_ok_evict h

theorem evict_hazard_ptr_cover (w : world) (h : slot_cover w) :
    slot_cover (evict_hazard_ptr w) := by
  obtain ⟨e1, e2, _, _⟩ :=
    evict_hazard_ptr_loop_spec w.tc.free_list.head_ w.dom w.tc.holder_storage
  show cover_ok
    (evict_hazard_ptr_loop w.tc.free_list.head_ w.dom w.tc.holder_storage).1.holder_list_ []
    (evict_hazard_ptr_loop w.tc.free_list.head_ w.dom w.tc.holder_storage).1.free_list_ w.handles
  rw [e1, e2]
  exact cover_ok_evict h

theorem compact_rest (s : reclaimer) (l : List Nat) :
    (compact s l).1.heap_next = s.heap_next ∧ (compact s l).1.free_list_ = s.free_list_ := by
  unfold compact
  simp

theorem delete_hazard_ptr_inv (w : world) (h : slot_inv w) :
    slot_inv { w with dom := (delete_hazard_ptr w.dom).1 } := by
  obtain ⟨c1, _, _, _, _⟩ := compact_spec { w.dom with free_list_ := [] } w.dom.free_list_
  obtain ⟨c2, c3⟩ := compact_rest { w.dom with free_list_ := [] } w.dom.free_list_
  show slot_ok (compact { w.dom with free_list_ := [] } w.dom.free_list_).1.holder_list_
    (compact { w.dom with free_list_ := [] } w.dom.free_list_).1.heap_next w.tc.free_list.head_
    (compact { w.dom with free_list_ := [] } w.dom.free_list_).1.free_list_ w.handles
  rw [c1, c2, c3]
  exact slot_ok_delete h

theorem delete_hazard_ptr_cover (w : world) (h : slot_cover w) :
    slot_cover { w with dom := (delete_hazard_ptr w.dom).1 } := by
  obtain ⟨c1, _, _, _, _⟩ := compact_spec { w.dom with free_list_ := [] } w.dom.free_list_
  obtain ⟨_, c3⟩ := compact_rest { w.dom with free_list_ := [] } w.dom.free_list_
  show cover_ok (compact { w.dom with free_list_ := [] } w.dom.free_list_).1.holder_list_
    w.tc.free_list.head_
    (compact { w.dom with free_list_ := [] } w.dom.free_list_).1.free_list_ w.handles
  rw [c1, c3]
  exact cover_ok_delete h

/-- Every call on slots that returns keeps the slots where they belong. -/
theorem slot_op_inv (op : slot_op) (w w' : world) (hrun : op.run w = some w')
    (h : slot_inv w) : slot_inv w' := by
  cases op with
  | make_hazard_ptr a =>
    simp only [slot_op.run, Option.some.injEq] at hrun
    subst hrun
    exact make_hazard_ptr_inv a w h
  | make_hazard_ptr_array size a =>
    simp only [slot_op.run, Option.some.injEq] at hrun
    subst hrun
    exact make_hazard_ptr_array_inv size a w h
  | reserve_hazp size =>
    simp only [slot_op.run, Option.some.injEq] at hrun
    subst hrun
    exact (reserve_hazp_inv size w h).1
  | move_ctor a b =>
    simp only [slot_op.run, Option.some.injEq] at hrun
    subst hrun
    exact hazard_ptr_move_ctor_inv a b w h
  | move_assign a b =>
    simp only [slot_op.run, Option.some.injEq] at hrun
    subst hrun
    exact hazard_ptr_move_assign_inv a b w h
  | hazard_ptr_dtor a =>
    simp only [slot_op.run, Option.some.injEq] at hrun
    subst hrun
    exact hazard_ptr_dtor_inv a w h
  | try_protect a p =>
    simp only [slot_op.run, try_protect] at hrun
    split at hrun
    · cases hrun
    · rename_i r w1 hr
      split at hr
      · cases hr
      · cases hr
        cases hrun
        exact h
  | reset a =>
    simp only [slot_op.run, hazard_ptr_reset] at hrun
    split at hrun
    · cases hrun
    · cases hrun
      exact h
  | evict_hazard_ptr =>
    simp only [slot_op.run, Option.some.injEq] at hrun
    subst hrun
    exact evict_hazard_ptr_inv w h
  | delete_hazard_ptr =>
    simp only [slot_op.run, Option.some.injEq] at hrun
    subst hrun
    exact delete_hazard_ptr_inv w h

/-- A call on slots that returns and constructs its handles on free storage
keeps every slot of the directory on a free list or owned. -/
theorem slot_op_cover (op : slot_op) (w w' : world) (hrun : op.run w = some w')
    (hfree : op.on_free_storage w) (hi : slot_inv w) (h : slot_cover w) : slot_cover w' := by
  cases op with
  | make_hazard_ptr a =>
    simp only [slot_op.run, Option.some.injEq] at hrun
    subst hrun
    exact make_hazard_ptr_cover a w hfree h
  | make_hazard_ptr_array size a =>
    simp only [slot_op.run, Option.some.injEq] at hrun
    subst hrun
    exact make_hazard_ptr_array_cover size a w hfree hi h
  | reserve_hazp size =>
    simp only [slot_op.run, Option.some.injEq] at hrun
    subst hrun
    exact reserve_hazp_cover size w h
  | move_ctor a b =>
    simp only [slot_op.run, Option.some.injEq] at hrun
    subst hrun
    exact hazard_ptr_move_ctor_cover a b w hfree h
  | move_assign a b =>
    simp only [slot_op.run, Option.some.injEq] at hrun
    subst hrun
    exact hazard_ptr_move_assign_cover a b w h
  | hazard_ptr_dtor a =>
    simp only [slot_op.run, Option.some.injEq] at hrun
    subst hrun
    exact hazard_ptr_dtor_cover a w h
  | try_protect a p =>
    simp only [slot_op.run, try_protect] at hrun
    split at hrun
    · cases hrun
    · rename_i r w1 hr
      split at hr
      · cases hr
      · cases hr
        cases hrun
        exact h
  | reset a =>
    simp only [slot_op.run, hazard_ptr_reset] at hrun
    split at hrun
    · cases hrun
    · cases hrun
      exact h
  | evict_hazard_ptr =>
    simp only [slot_op.run, Option.some.injEq] at hrun
    subst hrun
    exact evict_hazard_ptr_cover w h
  | delete_hazard_ptr =>
    simp only [slot_op.run, Option.some.injEq] at hrun
    subst hrun
    exact delete_hazard_ptr_cover w h

theorem slot_inv_init : slot_inv world.init := by
  refine ⟨List.nodup_nil, ?_, List.nodup_nil, List.nodup_nil, ?_, ?_, ?_, ?_⟩
  · intro a ha; exact absurd ha (List.not_mem_nil _)
  · intro a ha; exact absurd ha (List.not_mem_nil _)
  · intro a ha; exact absurd ha (List.not_mem_nil _)
  · intro h a ha; cases ha
  · intro h k a ha; cases ha

theorem slot_cover_init : slot_cover world.init := by
  intro a ha
  exact absurd ha (List.not_mem_nil _)

theorem slot_run_inv (ops : List slot_op) (w w' : world) (hrun : slot_run ops w = some w')
    (h : slot_inv w) : slot_inv w' := by
  induction ops generalizing w with
  | nil =>
    simp only [slot_run, Option.some.injEq] at hrun
    subst hrun
    exact h
  | cons op rest ih =>
    simp only [slot_run] at hrun
    split at hrun
    · cases hrun
    · rename_i w1 h1
      exact ih w1 hrun (slot_op_inv op w w1 h1 h)

theorem slot_run_cover (ops : List slot_op) (w w' : world) (hrun : slot_run ops w = some w')
    (hfree : slots_on_free_storage ops w) (hi : slot_inv w) (h : slot_cover w) :
    slot_cover w' := by
  induction ops generalizing w with
  | nil =>
    simp only [slot_run, Option.some.injEq] at hrun
    subst hrun
    exact h
  | cons op rest ih =>
    simp only [slot_run] at hrun
    split at hrun
    · cases hrun
    · rename_i w1 h1
      simp only [slots_on_free_storage, h1] at hfree
      exact ih w1 hrun hfree.2 (slot_op_inv op w w1 h1 hi)
        (slot_op_cover op w w1 h1 hfree.1 hi h)

/-! ## Claim C31: the slot of a live handle -/

/-- C31. In every state that calls of the public interface made by one thread
(`make_hazard_ptr`, `make_hazard_ptr<size>`, `reserve_hazp`, the move
constructor and the move assignment, the destructor of a handle,
`try_protect`, `reset`, `evict_hazard_ptr`, `delete_hazard_ptr`, in any
order) reach from the start of the program, the slot `a` owned by a
non-empty handle `h` is linked in the directory and is neither on the free
list of the thread nor on the global free list, and no other handle owns it;
so `delete_hazard_ptr()` called in that state keeps `a` in the directory and
does not give it to `delete`. -/
theorem C31_owned_slot_is_linked_and_on_no_free_list (ops : List slot_op) (w : world)
    (h a : Nat) (hrun : slot_run ops world.init = some w) (hown : w.handles h = some a) :
    a ∈ w.dom.holder_list_ ∧ a ∉ w.tc.free_list.head_ ∧ a ∉ w.dom.free_list_ ∧
    (∀ k, w.handles k = some a → k = h) ∧
    a ∈ (delete_hazard_ptr w.dom).1.holder_list_ ∧ a ∉ (delete_hazard_ptr w.dom).2 := by
  have hi := slot_run_inv ops world.init w hrun slot_inv_init
  obtain ⟨_, _, _, _, _, _, i7, i8⟩ := hi
  obtain ⟨j1, j2, j3⟩ := i7 h a hown
  obtain ⟨c1, _, _, c4, _⟩ := compact_spec { w.dom with free_list_ := [] } w.dom.free_list_
  have c1' : (delete_hazard_ptr w.dom).1.holder_list_
      = w.dom.holder_list_.filter (fun a => decide (a ∉ w.dom.free_list_)) := c1
  have c4' : ∀ x, x ∈ (delete_hazard_ptr w.dom).2 ↔ x ∈ w.dom.free_list_ := c4
  refine ⟨j1, j2, j3, fun k hk => i8 k h a hk hown, ?_, ?_⟩
  · rw [c1']
    exact List.mem_filter.mpr ⟨j1, by simpa using j3⟩
  · rw [c4']
    exact j3

theorem C31_witness :
    ∃ w, slot_run [slot_op.make_hazard_ptr 0, slot_op.make_hazard_ptr 1,
        slot_op.try_protect 0 4096, slot_op.hazard_ptr_dtor 1, slot_op.evict_hazard_ptr]
        world.init = some w ∧ w.handles 0 = some 1 ∧
      1 ∈ w.dom.holder_list_ ∧ 1 ∉ w.tc.free_list.head_ ∧ 1 ∉ w.dom.free_list_ ∧
      (∀ k, w.handles k = some 1 → k = 0) ∧
      1 ∈ (delete_hazard_ptr w.dom).1.holder_list_ ∧ 1 ∉ (delete_hazard_ptr w.dom).2 := by
  have h : (slot_run [slot_op.make_hazard_ptr 0, slot_op.make_hazard_ptr 1,
        slot_op.try_protect 0 4096, slot_op.hazard_ptr_dtor 1, slot_op.evict_hazard_ptr]
        world.init).isSome = true := rfl
  obtain ⟨w, hw⟩ := Option.isSome_iff_exists.mp h
  have h0 : (slot_run [slot_op.make_hazard_ptr 0, slot_op.make_hazard_ptr 1,
        slot_op.try_protect 0 4096, slot_op.hazard_ptr_dtor 1, slot_op.evict_hazard_ptr]
        world.init).map (fun w => w.handles 0) = some (some 1) := by decide
  rw [hw] at h0
  have hown : w.handles 0 = some 1 := Option.some.inj h0
  exact ⟨w, hw, hown, C31_owned_slot_is_linked_and_on_no_free_list _ w 0 1 hw hown⟩

/-! ## Claim C32: the accounting of the slots -/

/-- C32, as stated, fails.  After `h0 = make_hazard_ptr(); h1 =
make_hazard_ptr(); h0.try_protect(p)` on a fresh thread the directory links
two slots; the free list of the thread and the global free list are empty,
the set `holder_storage` of the thread holds both slots, and one slot
publishes a pointer: neither `0 + 0 + 1` nor `2 + 0 + 1` is 2.  The slot of
`h1`, owned and idle, is counted by no term of the sum. -/
theorem C32_idle_owned_slots_are_not_counted :
    slot_run [slot_op.make_hazard_ptr 0, slot_op.make_hazard_ptr 1, slot_op.try_protect 0 4096]
      world.init = some move_test_world ∧
    move_test_world.dom.holder_list_.length = 2 ∧
    move_test_world.tc.free_list.head_.length = 0 ∧
    move_test_world.tc.holder_storage.length = 2 ∧
    move_test_world.dom.free_list_.length = 0 ∧
    (publishing move_test_world.dom).length = 1 ∧
    move_test_world.tc.free_list.head_.length + move_test_world.dom.free_list_.length
      + (publishing move_test_world.dom).length ≠ move_test_world.dom.holder_list_.length ∧
    move_test_world.tc.holder_storage.length + move_test_world.dom.free_list_.length
      + (publishing move_test_world.dom).length ≠ move_test_world.dom.holder_list_.length := by
  refine ⟨rfl, by decide, by decide, by decide, by decide, by decide, by decide, by decide⟩

theorem length_of_cover {D C G : List Nat} {N : Nat} {H : Nat → Option Nat}
    (hi : slot_ok D N C G H) (hc : cover_ok D C G H) (hs : List Nat) (hn : hs.Nodup)
    (hall : ∀ h, H h ≠ none → h ∈ hs) :
    D.length = C.length + G.length + (hs.filterMap H).length := by
  obtain ⟨i1, _, i3, i4, i5, i6, i7, i8⟩ := hi
  have hO : (hs.filterMap H).Nodup :=
    List.Nodup.filterMap (fun k1 k2 x h1 h2 => i8 k1 k2 x h1 h2) hn
  have hmemO : ∀ x, x ∈ hs.filterMap H ↔ ∃ k, H k = some x := by
    intro x
    rw [List.mem_filterMap]
    constructor
    · rintro ⟨k, _, hk⟩
      exact ⟨k, hk⟩
    · rintro ⟨k, hk⟩
      exact ⟨k, hall k (by rw [hk]; exact Option.some_ne_none _), hk⟩
  have hL : (C ++ G ++ hs.filterMap H).Nodup := by
    rw [List.nodup_append]
    refine ⟨?_, hO, ?_⟩
    · rw [List.nodup_append]
      exact ⟨i3, i4, fun x hx hg => (i5 x hx).2 hg⟩
    · intro x hx ho
      obtain ⟨k, hk⟩ := (hmemO x).mp ho
      obtain ⟨_, j2, j3⟩ := i7 k x hk
      rcases List.mem_append.mp hx with hx | hx
      · exact j2 hx
      · exact j3 hx
  have hmem : ∀ x, x ∈ D ↔ x ∈ C ++ G ++ hs.filterMap H := by
    intro x
    constructor
    · intro hx
      rcases hc x hx with h1 | h1 | h1
      · exact List.mem_append_left _ (List.mem_append_left _ h1)
      · exact List.mem_append_left _ (List.mem_append_right _ h1)
      · exact List.mem_append_right _ ((hmemO x).mpr h1)
    · intro hx
      rcases List.mem_append.mp hx with hx | hx
      · rcases List.mem_append.mp hx with hx | hx
        · exact (i5 x hx).1
        · exact i6 x hx
      · obtain ⟨k, hk⟩ := (hmemO x).mp hx
        exact (i7 k x hk).1
  have hp : D.Perm (C ++ G ++ hs.filterMap H) := (List.perm_ext_iff_of_nodup i1 hL).mpr hmem
  rw [hp.length_eq]
  simp only [List.length_append]

/-- C32, amended.  In every state that calls on slots made by one thread
reach from the start of the program, each call constructing its handles in
storage that holds no live handle, and before the thread exits: the slots of
the directory are exactly the slots on the free list of the thread, the slots
on the global free list and the slots owned by the handles (whether they
publish a pointer or are idle), and no slot is in two of these; so the size
of the directory is the sum of the three numbers, the owned slots being
counted over any list `hs` of distinct handle addresses that has all the
non-empty handles. -/
theorem C32_slot_accounting_with_owned_slots (ops : List slot_op) (w : world)
    (hrun : slot_run ops world.init = some w)
    (hfree : slots_on_free_storage ops world.init) :
    (∀ a, a ∈ w.dom.holder_list_ ↔
      (a ∈ w.tc.free_list.head_ ∨ a ∈ w.dom.free_list_ ∨ ∃ h, w.handles h = some a)) ∧
    (∀ a ∈ w.tc.free_list.head_, a ∉ w.dom.free_list_) ∧
    (∀ h a, w.handles h = some a → a ∉ w.tc.free_list.head_ ∧ a ∉ w.dom.free_list_) ∧
    w.dom.holder_list_.Nodup ∧ w.tc.free_list.head_.Nodup ∧ w.dom.free_list_.Nodup ∧
    (∀ h k a, w.handles h = some a → w.handles k = some a → h = k) ∧
    (∀ hs : List Nat, hs.Nodup → (∀ h, w.handles h ≠ none → h ∈ hs) →
      w.dom.holder_list_.length
        = w.tc.free_list.head_.length + w.dom.free_list_.length
          + (hs.filterMap w.handles).length) := by
  have hi := slot_run_inv ops world.init w hrun slot_inv_init
  have hc := slot_run_cover ops world.init w hrun hfree slot_inv_init slot_cover_init
  have hlen := length_of_cover hi hc
  obtain ⟨i1, _, i3, i4, i5, i6, i7, i8⟩ := hi
  refine ⟨?_, fun a ha => (i5 a ha).2, fun h a hh => (i7 h a hh).2, i1, i3, i4, i8, hlen⟩
  intro a
  constructor
  · exact hc a
  · rintro (h1 | h1 | ⟨k, hk⟩)
    · exact (i5 a h1).1
    · exact i6 a h1
    · exact (i7 k a hk).1

theorem C32_witness :
    slot_run [slot_op.make_hazard_ptr 0, slot_op.make_hazard_ptr 1, slot_op.try_protect 0 4096,
        slot_op.make_hazard_ptr 2, slot_op.hazard_ptr_dtor 2]
      world.init = some (hazard_ptr_dtor 2 (make_hazard_ptr 2 move_test_world)) ∧
    (hazard_ptr_dtor 2 (make_hazard_ptr 2 move_test_world)).dom.holder_list_.length
      = (hazard_ptr_dtor 2 (make_hazard_ptr 2 move_test_world)).tc.free_list.head_.length
        + (hazard_ptr_dtor 2 (make_hazard_ptr 2 move_test_world)).dom.free_list_.length
        + ([0, 1].filterMap (hazard_ptr_dtor 2 (make_hazard_ptr 2 move_test_world)).handles).length ∧
    (hazard_ptr_dtor 2 (make_hazard_ptr 2 move_test_world)).dom.holder_list_.length = 3 := by
  have hrun : slot_run [slot_op.make_hazard_ptr 0, slot_op.make_hazard_ptr 1,
        slot_op.try_protect 0 4096, slot_op.make_hazard_ptr 2, slot_op.hazard_ptr_dtor 2]
      world.init = some (hazard_ptr_dtor 2 (make_hazard_ptr 2 move_test_world)) := rfl
  have hfree : slots_on_free_storage [slot_op.make_hazard_ptr 0, slot_op.make_hazard_ptr 1,
        slot_op.try_protect 0 4096, slot_op.make_hazard_ptr 2, slot_op.hazard_ptr_dtor 2]
      world.init := ⟨rfl, rfl, trivial, rfl, trivial, trivial⟩
  refine ⟨hrun, ?_, by decide⟩
  refine (C32_slot_accounting_with_owned_slots _ _ hrun hfree).2.2.2.2.2.2.2 [0, 1]
    (by decide) ?_
  intro h hh
  by_cases h0 : h = 0
  · simp [h0]
  · by_cases h1 : h = 1
    · simp [h1]
    · exfalso
      apply hh
      by_cases h2 : h = 2
      · subst h2
        rfl
      · show (if h = 2 then none else if h = 2 then _ else
          if h = 1 then _ else if h = 0 then _ else none) = none
        rw [if_neg h2, if_neg h2, if_neg h1, if_neg h0]

/-! ## A deleter that retires a protected object when the retired-count is 999 -/

/-- The pass of `match_reclaim` over the drained chains does not return when
the first record it destroys has a deleter that starts by retiring a
protected object while the retired-count is 999 or more and no record is
held in the shards: that `retire` starts a pass that never ends. -/
theorem match_reclaim_loop_stuck (clock : Nat → Nat) (fuel : Nat) (U X : retire_node)
    (more : List retire_node) (hd : U.deleter = X :: more)
    (retired : List (List retire_node)) :
    ∀ (tail : List retire_node) (nr : linked_list) (cnt : Int) (done : Bool) (s : reclaimer),
      retired.flatten.filter (fun x => !decide (x.raw_ptr ∈ load_hazptr_vals s)) = U :: tail →
      (∀ r ∈ shards_all s, r.raw_ptr ∈ load_hazptr_vals s) →
      X.raw_ptr ∈ load_hazptr_vals s → kReclaimThreshold ≤ s.count_ + 1 →
      match_reclaim_loop (do_reclamation clock fuel) clock (load_hazptr_vals s) retired
        nr cnt done s = none := by
  induction retired with
  | nil =>
    intro tail nr cnt done s hf
    simp at hf
  | cons rn rest ih =>
    intro tail nr cnt done s hf hp hX hc
    simp only [match_reclaim_loop]
    rw [list_match_condition_snd]
    simp only [linked_list.init, List.nil_append]
    rw [List.flatten_cons, List.filter_append] at hf
    cases hrn : rn.filter (fun x => !decide (x.raw_ptr ∈ load_hazptr_vals s)) with
    | nil =>
      rw [hrn, List.nil_append] at hf
      simp only [reclaim_obj]
      exact ih tail _ _ _ s hf hp hX hc
    | cons a t =>
      rw [hrn, List.cons_append] at hf
      have ha : a = U := (List.cons.inj hf).1
      subst ha
      simp only [reclaim_obj, hd, run_deleter]
      have hst : push_list (do_reclamation clock fuel) clock X { s with deleted := a :: s.deleted }
          = none :=
        retire_stuck clock fuel X { s with deleted := a :: s.deleted } hp hX hc
      rw [hst]

theorem do_reclamation_iter_nested_stuck (clock : Nat → Nat) (fuel : Nat) (s : reclaimer)
    (rc : Int) (U X : retire_node) (more tail : List retire_node)
    (hU : unprotected_records s = U :: tail) (hd : U.deleter = X :: more)
    (hX : X.raw_ptr ∈ load_hazptr_vals s) (hc : kReclaimThreshold ≤ s.count_ + 1) :
    do_reclamation_iter (do_reclamation clock fuel) clock s rc = none := by
  have hz1 : load_hazptr_vals (extract_retired_objects s).2.1 = load_hazptr_vals s := rfl
  have hne : (extract_retired_objects s).2.2 = true := by
    by_contra hcon
    have hfalse : (extract_retired_objects s).2.2 = false := by simpa using hcon
    have e0 := extract_nonempty_false s hfalse
    simp [unprotected_records, e0] at hU
  have hloop := match_reclaim_loop_stuck clock fuel U X more hd (extract_retired_objects s).1
    tail linked_list.init 0 true (extract_retired_objects s).2.1
    (by rw [hz1, extract_flatten]; exact hU)
    (by
      intro r hr
      rw [shards_all_nil (fun i hi => extract_shards s i hi)] at hr
      exact absurd hr (List.not_mem_nil _))
    (by rw [hz1]; exact hX) hc
  unfold do_reclamation_iter
  simp only [hne, if_true]
  unfold match_reclaim
  rw [hloop]

/-- A call of `reclaim()` never returns on a domain whose retired-count is
999 or more when the first unprotected record that the pass destroys has a
deleter that starts by retiring a protected object. -/
theorem reclaim_nested_stuck (clock : Nat → Nat) (fuel : Nat) (s : reclaimer)
    (U X : retire_node) (more tail : List retire_node)
    (hU : unprotected_records s = U :: tail) (hd : U.deleter = X :: more)
    (hX : X.raw_ptr ∈ load_hazptr_vals s) (hc : kReclaimThreshold ≤ s.count_ + 1) :
    reclaim clock fuel s = none := by
  unfold reclaim
  cases fuel with
  | zero => rfl
  | succ n =>
    rw [do_reclamation_succ,
      do_reclamation_iter_nested_stuck clock n (inc_num_bulk_reclaims s) 0 U X more tail hU hd hX
        hc]

/-! ## Retiring while the clock stands at 0 -/

theorem due_after_zero : 0 < (0 + kSyncTimePeriod) % 18446744073709551616 := by
  norm_num [kSyncTimePeriod]

/-- With the clock at 0 and the due-time ahead, `retire` below the threshold
starts no pass: the record is pushed and counted. -/
theorem retire_quiet (fuel : Nat) (node : retire_node) (s : reclaimer)
    (hdue : 0 < s.due_time_) (hc : s.count_ + 1 < kReclaimThreshold) :
    ∃ s', retire (fun _ => 0) fuel node s = some s' ∧ same_slots s s' ∧
      s'.count_ = s.count_ + 1 ∧ (shards_all s').Perm (node :: shards_all s) ∧
      s'.deleted = s.deleted ∧ 0 < s'.due_time_ ∧
      s'.num_bulk_reclaims_ = s.num_bulk_reclaims_ := by
  unfold retire push_list
  simp only
  have hi : (node.address >>> 8) &&& kShardMask < kNumShards := by
    have : (node.address >>> 8) &&& kShardMask ≤ kShardMask := Nat.and_le_right
    simp only [kShardMask, kNumShards] at this ⊢
    omega
  generalize ht : add_count (retired_list_push s ((node.address >>> 8) &&& kShardMask) node) 1 = t
  have hs : same_slots s t := by subst ht; exact ⟨rfl, rfl, rfl, rfl, rfl⟩
  have hperm : (shards_all t).Perm (node :: shards_all s) := by
    subst ht
    exact shards_all_push s _ hi node
  have hct : t.count_ = s.count_ + 1 := by subst ht; rfl
  have hdt : t.deleted = s.deleted := by subst ht; rfl
  have hdu : t.due_time_ = s.due_time_ := by subst ht; rfl
  have hnb : t.num_bulk_reclaims_ = s.num_bulk_reclaims_ := by subst ht; rfl
  unfold check_threshold_and_reclaim
  have e4 : check_count_threshold t = (0, t) := by
    unfold check_count_threshold
    have : ¬ (t.count_ ≥ kReclaimThreshold) := by omega
    simp only [this, if_false]
  rw [e4]
  simp only [if_true]
  rw [check_due_time_not_due (fun _ => 0) t (by rw [hdu]; exact hdue)]
  simp only [if_true]
  exact ⟨_, rfl, hs, hct, hperm, hdt, by rw [← hdu] at hdue; exact hdue, hnb⟩

theorem retire_all_quiet (fuel : Nat) (nodes : List retire_node) (s : reclaimer)
    (hdue : 0 < s.due_time_) (hc : s.count_ + (nodes.length : Int) < kReclaimThreshold) :
    ∃ s', retire_all (fun _ => 0) fuel nodes s = some s' ∧ same_slots s s' ∧
      s'.count_ = s.count_ + (nodes.length : Int) ∧
      (shards_all s').Perm (nodes ++ shards_all s) ∧
      s'.deleted = s.deleted ∧ s'.num_bulk_reclaims_ = s.num_bulk_reclaims_ := by
  induction nodes generalizing s with
  | nil => exact ⟨s, rfl, same_slots_refl s, by simp, by simp, rfl, rfl⟩
  | cons node rest ih =>
    simp only [List.length_cons, Nat.cast_add, Nat.cast_one] at hc
    have hrest : (0 : Int) ≤ (rest.length : Int) := Int.natCast_nonneg _
    obtain ⟨s1, e1, hs1, hc1, hr1, hd1, hdue1, hn1⟩ := retire_quiet fuel node s hdue (by omega)
    obtain ⟨s', e2, hs2, hc2, hr2, hd2, hn2⟩ := ih s1 hdue1 (by rw [hc1]; omega)
    refine ⟨s', ?_, same_slots_trans hs1 hs2, ?_, ?_, by rw [hd2, hd1], by rw [hn2, hn1]⟩
    · simp only [retire_all, e1]
      exact e2
    · rw [hc2, hc1]
      simp only [List.length_cons, Nat.cast_add, Nat.cast_one]
      ring
    · refine hr2.trans ?_
      have : (rest ++ node :: shards_all s).Perm (node :: rest ++ shards_all s) := by
        rw [List.cons_append]
        exact List.perm_middle
      exact (List.Perm.append_left rest hr1).trans this

/-- The trigger `check_threshold_and_reclaim` with the clock at 0 on a domain
whose held records are all protected and whose retired-count is below the
threshold returns with the due-time ahead of the clock. -/
theorem check_threshold_and_reclaim_due (fuel : Nat) (t t' : reclaimer)
    (hp : ∀ r ∈ shards_all t, r.raw_ptr ∈ load_hazptr_vals t)
    (hc : t.count_ < kReclaimThreshold)
    (h : check_threshold_and_reclaim (do_reclamation (fun _ => 0) (fuel + 1)) (fun _ => 0) t
      = some t') :
    0 < t'.due_time_ := by
  unfold check_threshold_and_reclaim at h
  have e4 : check_count_threshold t = (0, t) := by
    unfold check_count_threshold
    have : ¬ (t.count_ ≥ kReclaimThreshold) := by omega
    simp only [this, if_false]
  rw [e4] at h
  simp only [if_true] at h
  unfold check_due_time at h
  simp only at h
  by_cases hdue : 0 < t.due_time_
  · simp only [hdue, if_true, Option.some.injEq] at h
    subst h
    exact hdue
  · simp only [hdue, if_false] at h
    by_cases hneg : t.count_ < 0
    · simp only [hneg, if_true, Option.some.injEq] at h
      subst h
      exact due_after_zero
    · simp only [hneg, if_false] at h
      by_cases h0 : t.count_ = 0
      · simp only [h0, if_true, Option.some.injEq] at h
        subst h
        exact due_after_zero
      · simp only [h0, if_false] at h
        generalize ht3 : inc_num_bulk_reclaims
          { t with clock_reads := t.clock_reads + 1,
                   due_time_ := (0 + kSyncTimePeriod) % 18446744073709551616,
                   count_ := 0 } = t3 at h
        have hs3 : same_slots t t3 := by subst ht3; exact ⟨rfl, rfl, rfl, rfl, rfl⟩
        have hz3 : load_hazptr_vals t3 = load_hazptr_vals t := load_hazptr_vals_congr hs3
        have hr3 : shards_all t3 = shards_all t := by subst ht3; rfl
        have hc3 : t3.count_ = 0 := by subst ht3; rfl
        have hd3 : t3.due_time_ = (0 + kSyncTimePeriod) % 18446744073709551616 := by
          subst ht3; rfl
        have hp3 : ∀ r ∈ shards_all t3, r.raw_ptr ∈ load_hazptr_vals t3 := by
          intro r hr
          rw [hz3]
          exact hp r (hr3 ▸ hr)
        obtain ⟨hU, _⟩ := unprotected_records_nil t3 hp3
        obtain ⟨s', e, _, _, hdue', _⟩ :=
          do_reclamation_iter_plain (do_reclamation (fun _ => 0) fuel) (fun _ => 0) t3 t.count_
            (by rw [hU]; intro r hr; exact absurd hr (List.not_mem_nil _))
            (by rw [hU, hc3]; simpa using hc)
        rw [do_reclamation_succ, e] at h
        cases h
        rw [hdue', hd3]
        exact due_after_zero

/-- With the clock at 0, `retire` of a protected object on a domain at rest
whose held records are all protected and fewer than 999 returns, whether or
not the due-time was reached; afterwards the due-time is ahead of the clock. -/
theorem retire_protected_zero (fuel : Nat) (node : retire_node) (s : reclaimer)
    (hp : ∀ r ∈ shards_all s, r.raw_ptr ∈ load_hazptr_vals s)
    (hn : node.raw_ptr ∈ load_hazptr_vals s)
    (hc : s.count_ + 1 < kReclaimThreshold) (hb : s.num_bulk_reclaims_ = 0) :
    ∃ s', retire (fun _ => 0) (fuel + 1) node s = some s' ∧ same_slots s s' ∧
      s'.count_ = s.count_ + 1 ∧ (shards_all s').Perm (node :: shards_all s) ∧
      s'.deleted = s.deleted ∧ 0 < s'.due_time_ ∧ s'.num_bulk_reclaims_ = 0 := by
  by_cases hdue : 0 < s.due_time_
  · obtain ⟨s', e, h1, h2, h3, h4, h5, h6⟩ := retire_quiet (fuel + 1) node s hdue hc
    exact ⟨s', e, h1, h2, h3, h4, h5, by rw [h6, hb]⟩
  · obtain ⟨s', e, h1, h2, h3, h4⟩ := retire_protected_returns (fun _ => 0) fuel node s hp hn hc
    have hnb : s'.num_bulk_reclaims_ = 0 := by
      have := (push_list_count (do_reclamation_count (fun _ => 0) (fuel + 1)) (fun _ => 0) node
        s s' e).2.2 (by omega)
      rw [this, hb]
    refine ⟨s', e, h1, h2, h3, h4, ?_, hnb⟩
    have hi : (node.address >>> 8) &&& kShardMask < kNumShards := by
      have : (node.address >>> 8) &&& kShardMask ≤ kShardMask := Nat.and_le_right
      simp only [kShardMask, kNumShards] at this ⊢
      omega
    apply check_threshold_and_reclaim_due fuel
      (add_count (retired_list_push s ((node.address >>> 8) &&& kShardMask) node) 1) s'
    · intro r hr
      have hz : load_hazptr_vals
          (add_count (retired_list_push s ((node.address >>> 8) &&& kShardMask) node) 1)
          = load_hazptr_vals s := rfl
      rw [hz]
      have hr' : r ∈ shards_all (retired_list_push s ((node.address >>> 8) &&& kShardMask) node) :=
        hr
      rcases List.mem_cons.mp ((shards_all_push s _ hi node).subset hr') with e' | hm
      · rw [e']; exact hn
      · exact hp r hm
    · exact hc
    · exact e

theorem publish_all_words (n : Nat) :
    ∃ w, publish_all n world.init = some w ∧
      w.tc.free_list.head_ = [] ∧ w.dom.free_list_ = [] ∧
      ∀ a, w.dom.holder_ptr a ≠ 2048 := by
  induction n with
  | zero =>
    refine ⟨world.init, rfl, rfl, rfl, ?_⟩
    intro a
    show INUSE ≠ 2048
    decide
  | succ n ih =>
    obtain ⟨w1, e, h1, h2, h3⟩ := ih
    obtain ⟨w2, e2, g1, g2, _, _, g5, _⟩ := publish_step n (4096 * (n + 1)) w1 h1 h2
    refine ⟨w2, ?_, g1, g2, ?_⟩
    · simp only [publish_all, e, e2]
    · intro a
      rw [g5 a]
      by_cases ha : a = w1.dom.heap_next
      · rw [if_pos ha]
        omega
      · rw [if_neg ha]
        exact h3 a

theorem published_nodes_succ (n : Nat) :
    published_nodes (n + 1) = retire_node.mk 4096 65536 [] ::
      ((List.range n).map Nat.succ).map
        (fun k => retire_node.mk (4096 * (k + 1)) (65536 + 64 * k) []) := by
  unfold published_nodes
  rw [List.range_succ_eq_map, List.map_cons]

theorem filter_unprotected_of_protected (hz : List Nat) (l : List retire_node)
    (h : ∀ r ∈ l, r.raw_ptr ∈ hz) :
    l.filter (fun x => !decide (x.raw_ptr ∈ hz)) = [] := by
  rw [List.filter_eq_nil_iff]
  intro r hr
  simp [h r hr]

/-! ## Claim C1: a published address protects its retired record -/

/-- C1, not as claimed: `reclaim()` does not always return.  A thread
publishes the addresses `4096 * 1` to `4096 * 999` (`publish_all 999`), and,
the clock standing at 0, retires the 998 objects at `4096 * 1` to
`4096 * 998` and then an unprotected object at 2048 whose deleter retires the
protected object at `4096 * 999`: all 999 calls of `retire` return, 999
records are held and counted, nothing has been destroyed, no pass is in
progress, slot 1 publishes 4096 and the record that retires 4096 is held.
In that state `reclaim()` never returns, whatever the clock and the fuel: the
deleter of the unprotected record calls `retire`, the retired-count reaches
1000, and the pass that this starts can destroy nothing.  In general
`reclaim()` never returns on a domain whose retired-count is 999 or more when
the first unprotected record that the pass destroys has a deleter that
starts by retiring a protected object.  What holds of every state of the
claim: a call of `reclaim()` that returns has run the deleter of no record
whose pointer is published, and the record is then held in shard 0. -/
theorem C1_reclaim_does_not_return_when_a_deleter_retires_at_the_threshold (fuel : Nat) :
    (∃ w s, publish_all 999 world.init = some w ∧
      retire_all (fun _ => 0) (fuel + 1)
        (published_nodes 998 ++
          [retire_node.mk 2048 512 [retire_node.mk (4096 * 999) 1024 []]]) w.dom = some s ∧
      s.count_ = 999 ∧ (shards_all s).length = 999 ∧ s.deleted = [] ∧
      s.num_bulk_reclaims_ = 0 ∧
      1 ∈ s.holder_list_ ∧ s.holder_ptr 1 = 4096 ∧
      retire_node.mk 4096 65536 [] ∈ shards_all s ∧
      (∀ clock fuel', reclaim clock fuel' s = none)) ∧
    (∀ (clock : Nat → Nat) (s : reclaimer) (U X : retire_node) (more tail : List retire_node),
      unprotected_records s = U :: tail → U.deleter = X :: more →
      X.raw_ptr ∈ load_hazptr_vals s → 999 ≤ s.count_ →
      ∀ fuel', reclaim clock fuel' s = none) ∧
    (∀ (clock : Nat → Nat) (s : reclaimer) (slot p i : Nat) (R : retire_node),
      slot ∈ s.holder_list_ → s.holder_ptr slot = p → p ≠ INUSE → p ≠ NOUSE →
      i < kNumShards → R ∈ s.retired_list_ i → R.raw_ptr = p →
      ∀ fuel' s', reclaim clock fuel' s = some s' →
        (∃ run, s'.deleted = run ++ s.deleted ∧ ∀ r ∈ run, r.raw_ptr ≠ p) ∧
        R ∈ s'.retired_list_ 0) := by
  refine ⟨?_, ?_, ?_⟩
  · obtain ⟨w, e, _, _, _, h4, h5, h6, h7, _, h9⟩ := publish_all_spec 999
    obtain ⟨w', e', _, _, hw'⟩ := publish_all_words 999
    have hww : w' = w := Option.some.inj (e'.symm.trans e)
    subst hww
    have hsh : shards_all w'.dom = [] := shards_all_nil (fun i _ => by rw [h6])
    have hp0 : ∀ r ∈ shards_all w'.dom, r.raw_ptr ∈ load_hazptr_vals w'.dom := by
      intro r hr
      rw [hsh] at hr
      exact absurd hr (List.not_mem_nil _)
    have hprot := published_nodes_protected 998 w'.dom (fun a h1 h2 => h4 a h1 (by omega))
    have hlen : (published_nodes 998).length = 998 := by simp [published_nodes]
    obtain ⟨n0, tl, hcons, hfirst⟩ : ∃ n0 tl, published_nodes 998 = n0 :: tl ∧
        n0 = retire_node.mk 4096 65536 [] := by
      refine ⟨_, _, published_nodes_succ 997, rfl⟩
    have htl : tl.length = 997 := by
      rw [hcons, List.length_cons] at hlen
      omega
    have hn0 : n0 ∈ published_nodes 998 := by rw [hcons]; exact List.mem_cons_self _ _
    have htlm : ∀ r ∈ tl, r ∈ published_nodes 998 := by
      intro r hr
      rw [hcons]
      exact List.mem_cons_of_mem _ hr
    obtain ⟨s1, e1, hs1, hc1, hr1, hd1, hdue1, hn1⟩ :=
      retire_protected_zero fuel n0 w'.dom hp0 (hprot n0 hn0) (by rw [h5]; decide) h7
    obtain ⟨s, e2, hs2, hc2, hr2, hd2, hn2⟩ :=
      retire_all_quiet (fuel + 1)
        (tl ++ [retire_node.mk 2048 512 [retire_node.mk (4096 * 999) 1024 []]]) s1 hdue1
        (by
          rw [hc1, h5, List.length_append, htl]
          decide)
    have hss : same_slots w'.dom s := same_slots_trans hs1 hs2
    have hz : load_hazptr_vals s = load_hazptr_vals w'.dom := load_hazptr_vals_congr hss
    have hperm : (shards_all s).Perm
        ((tl ++ [retire_node.mk 2048 512 [retire_node.mk (4096 * 999) 1024 []]]) ++ [n0]) := by
      refine hr2.trans (List.Perm.append_left _ ?_)
      rw [hsh] at hr1
      exact hr1
    have hUn : (retire_node.mk 2048 512 [retire_node.mk (4096 * 999) 1024 []]).raw_ptr
        ∉ load_hazptr_vals w'.dom := by
      rw [mem_load_hazptr_vals]
      rintro ⟨a, _, ha, _, _⟩
      exact hw' a ha
    have hU : unprotected_records s
        = [retire_node.mk 2048 512 [retire_node.mk (4096 * 999) 1024 []]] := by
      have hf := hperm.filter (fun x => !decide (x.raw_ptr ∈ load_hazptr_vals w'.dom))
      rw [List.filter_append, List.filter_append,
        filter_unprotected_of_protected _ tl (fun r hr => hprot r (htlm r hr)),
        filter_unprotected_of_protected _ [n0]
          (fun r hr => by rw [List.mem_singleton.mp hr]; exact hprot n0 hn0),
        List.nil_append, List.append_nil] at hf
      have hfU : [retire_node.mk 2048 512 [retire_node.mk (4096 * 999) 1024 []]].filter
          (fun x => !decide (x.raw_ptr ∈ load_hazptr_vals w'.dom))
          = [retire_node.mk 2048 512 [retire_node.mk (4096 * 999) 1024 []]] := by
        rw [List.filter_cons_of_pos (by simpa using hUn), List.filter_nil]
      rw [hfU] at hf
      unfold unprotected_records
      rw [hz]
      exact List.perm_singleton.mp hf
    have hX : (retire_node.mk (4096 * 999) 1024 []).raw_ptr ∈ load_hazptr_vals s := by
      rw [hz]
      exact published_nodes_protected 999 w'.dom h4
        (retire_node.mk (4096 * (998 + 1)) (65536 + 64 * 998) [])
        (List.mem_map.mpr ⟨998, List.mem_range.mpr (by decide), rfl⟩)
    have hcs : s.count_ = 999 := by
      rw [hc2, hc1, h5, List.length_append, htl]
      rfl
    obtain ⟨m1, m2⟩ := h4 1 (le_refl 1) (by decide)
    refine ⟨w', s, e, ?_, hcs, ?_, by rw [hd2, hd1, h9], by rw [hn2, hn1], ?_, ?_, ?_, ?_⟩
    · rw [hcons, List.cons_append]
      simp only [retire_all, e1]
      exact e2
    · rw [hperm.length_eq]
      simp only [List.length_append, List.length_singleton, htl]
    · rw [hss.1]
      exact m1
    · rw [hss.2.2.2.1]
      exact m2
    · apply hperm.symm.subset
      rw [hfirst]
      exact List.mem_append_right _ (List.mem_singleton_self _)
    · intro clock fuel'
      exact reclaim_nested_stuck clock fuel' s _ _ [] [] hU rfl hX (by rw [hcs]; decide)
  · intro clock s U X more tail hU hd hX hc fuel'
    exact reclaim_nested_stuck clock fuel' s U X more tail hU hd hX
      (by unfold kReclaimThreshold; omega)
  · intro clock s slot p i R hslot hp hin hno hi hR hraw fuel' s' h
    exact (protected_record_survives_reclaim clock s slot p i R hslot hp hin hno hi hR hraw).1
      fuel' s' h

end hazp

namespace alp_utils

/-! ## The sequence lock between the calls of its writer -/

theorem and_one_eq_mod (n : Nat) : n &&& 1 = n % 2 := Nat.and_one_is_mod n

theorem atomic_lock_lock_zero : atomic_lock_lock 0 = some LOCKED := rfl

theorem seq_lock_lock_unlocked {T : Type} (s : seq_lock T) (h : s.lock_ = 0) :
    s.lock = some { s with lock_ := LOCKED, seq_ := (s.seq_ + 1) % 4294967296 } := by
  unfold seq_lock.lock
  rw [h, atomic_lock_lock_zero]

theorem seq_lock_unlock_some {T : Type} (s : seq_lock T) (a : Nat) (v : T)
    (hv : s.value_ = some (a, v)) :
    ∃ s', s.unlock = some s' ∧ s'.value_ = some (s.heap_next, v) ∧
      s'.seq_ = (s.seq_ + 1) % 4294967296 ∧ s'.lock_ = UNLOCK := by
  unfold seq_lock.unlock
  rw [hv]
  exact ⟨_, rfl, rfl, rfl, rfl⟩

theorem seq_lock_lock_held {T : Type} (s : seq_lock T) (h : s.lock_ = LOCKED) :
    s.lock = none := by
  unfold seq_lock.lock
  rw [h]
  rfl

/-- What holds of the lock between the calls of its writer: the counter is a
32-bit value, it is odd exactly when the lock word is `LOCKED`, which is
exactly when the writer is inside, and `value_` points to an object holding
`v`. -/
theorem run_paired {T : Type} (ops : List (seq_op T)) (s0 : seq_lock T) (inside : Bool)
    (a0 : Nat) (v0 : T) (hp : paired ops inside = true)
    (hv : s0.value_ = some (a0, v0))
    (hl : s0.lock_ = if inside then LOCKED else UNLOCK)
    (hs : s0.seq_ % 2 = if inside then 1 else 0) :
    ∃ s a, seq_lock.run ops s0 = some s ∧
      s.value_ = some (a, last_written v0 ops) ∧
      s.lock_ = (if writer_inside ops inside then LOCKED else UNLOCK) ∧
      s.seq_ % 2 = (if writer_inside ops inside then 1 else 0) ∧
      (s.seq_ + (if inside then 1 else 0)) % 4294967296
        = (s0.seq_ + 2 * completed_writes ops
            + (if writer_inside ops inside then 1 else 0)) % 4294967296 ∧
      (s0.seq_ < 4294967296 → s.seq_ < 4294967296) := by
  induction ops generalizing s0 inside a0 v0 with
  | nil =>
    refine ⟨s0, a0, rfl, hv, hl, hs, ?_, fun h => h⟩
    simp [completed_writes, writer_inside]
  | cons op rest ih =>
    cases op with
    | lock =>
      simp only [paired, Bool.and_eq_true, Bool.not_eq_true'] at hp
      obtain ⟨hi, hp⟩ := hp
      subst hi
      simp only [Bool.false_eq_true, if_false] at hl hs
      have hlock := seq_lock_lock_unlocked s0 hl
      obtain ⟨s, a, h1, h2, h3, h4, h5, h6⟩ := ih
        { s0 with lock_ := LOCKED, seq_ := (s0.seq_ + 1) % 4294967296 } true a0 v0 hp hv
        (by simp) (by simp only [if_true]; omega)
      refine ⟨s, a, ?_, h2, h3, h4, ?_, ?_⟩
      · simp only [seq_lock.run, hlock]; exact h1
      · simp only [if_true, Bool.false_eq_true, if_false, Nat.add_zero] at h5 ⊢
        simp only [completed_writes, writer_inside]
        omega
      · intro _
        exact h6 (Nat.mod_lt _ (by decide))
    | store v =>
      simp only [paired] at hp
      obtain ⟨s, a, h1, h2, h3, h4, h5, h6⟩ := ih (s0.store v) inside s0.heap_next v hp rfl hl hs
      exact ⟨s, a, by simp only [seq_lock.run]; exact h1, h2, h3, h4, h5, h6⟩
    | unlock =>
      simp only [paired, Bool.and_eq_true] at hp
      obtain ⟨hi, hp⟩ := hp
      subst hi
      simp only [if_true] at hl hs
      obtain ⟨s1, hun, u1, u2, u3⟩ := seq_lock_unlock_some s0 a0 v0 hv
      obtain ⟨s, a, h1, h2, h3, h4, h5, h6⟩ := ih s1 false s0.heap_next v0 hp u1
        (by simp [u3]) (by simp only [Bool.false_eq_true, if_false]; omega)
      rw [u2] at h5 h6
      refine ⟨s, a, ?_, h2, h3, h4, ?_, ?_⟩
      · simp only [seq_lock.run, hun]; exact h1
      · simp only [if_true, Bool.false_eq_true, if_false, Nat.add_zero] at h5 ⊢
        simp only [completed_writes, writer_inside]
        omega
      · intro _
        exact h6 (Nat.mod_lt _ (by decide))

/-! ## Claim C14: publication parity -/

/-- C14. Publication parity.  From a fresh lock, every properly paired list
of calls runs to the end; the counter is then odd exactly when the writer is
between `lock()` and `unlock()`, which is exactly when the lock word is held,
and it equals twice the number of completed writes, plus one inside a write,
modulo 2^32.  On any state with an even counter and a free lock, also at the
top of the 32-bit range, `lock()` makes the counter odd and `unlock()` makes
it even again, two further modulo 2^32. -/
theorem C14_sequence_parity {T : Type} (arg : T) (ops : List (seq_op T))
    (hp : paired ops false = true) :
    (∃ s, seq_lock.run ops (seq_lock.init arg) = some s ∧
      (s.seq_ % 2 = 1 ↔ writer_inside ops false = true) ∧
      (s.seq_ &&& 1 ≠ 0 ↔ writer_inside ops false = true) ∧
      (s.lock_ = LOCKED ↔ writer_inside ops false = true) ∧
      s.seq_ = (2 * completed_writes ops + (if writer_inside ops false then 1 else 0))
        % 4294967296) ∧
    (∀ (s : seq_lock T) (vs : List T), s.lock_ = UNLOCK → s.value_ ≠ none →
      s.seq_ < 4294967296 → s.seq_ % 2 = 0 →
      ∃ s1 s2, s.lock = some s1 ∧ s1.seq_ % 2 = 1 ∧
        (vs.foldl seq_lock.store s1).seq_ = s1.seq_ ∧
        (vs.foldl seq_lock.store s1).unlock = some s2 ∧ s2.seq_ % 2 = 0 ∧
        s2.seq_ = (s.seq_ + 2) % 4294967296) := by
  constructor
  · obtain ⟨s, a, h1, _, h3, h4, h5, h6⟩ := run_paired ops (seq_lock.init arg) false 1 arg hp
      rfl rfl rfl
    have hlt := h6 (by
      show (0 : Nat) < 4294967296
      decide)
    refine ⟨s, h1, ?_, ?_, ?_, ?_⟩
    · rw [h4]; split <;> simp_all
    · rw [and_one_eq_mod, h4]; split <;> simp_all
    · rw [h3]; split <;> simp_all [LOCKED, UNLOCK]
    · simp only [Bool.false_eq_true, if_false, Nat.add_zero] at h5
      have e0 : (seq_lock.init arg).seq_ = 0 := rfl
      rw [e0, Nat.zero_add, Nat.mod_eq_of_lt hlt] at h5
      exact h5
  · intro s vs hl hv hlt hev
    have hstore : ∀ (l : List T) (t : seq_lock T),
        (l.foldl seq_lock.store t).seq_ = t.seq_ ∧ (l.foldl seq_lock.store t).lock_ = t.lock_ ∧
        ((l.foldl seq_lock.store t).value_ ≠ none ∨ t.value_ = none) := by
      intro l
      induction l with
      | nil =>
        intro t
        refine ⟨rfl, rfl, ?_⟩
        by_cases h : t.value_ = none
        · exact Or.inr h
        · exact Or.inl h
      | cons x xs ih =>
        intro t
        obtain ⟨i1, i2, i3⟩ := ih (t.store x)
        refine ⟨i1, i2, ?_⟩
        rcases i3 with i3 | i3
        · exact Or.inl i3
        · simp [seq_lock.store] at i3
    have hlock := seq_lock_lock_unlocked s hl
    obtain ⟨j1, j2, j3⟩ := hstore vs { s with lock_ := LOCKED, seq_ := (s.seq_ + 1) % 4294967296 }
    have hv2 : (vs.foldl seq_lock.store
        { s with lock_ := LOCKED, seq_ := (s.seq_ + 1) % 4294967296 }).value_ ≠ none := by
      rcases j3 with j3 | j3
      · exact j3
      · exact absurd j3 hv
    cases hval : (vs.foldl seq_lock.store
        { s with lock_ := LOCKED, seq_ := (s.seq_ + 1) % 4294967296 }).value_ with
    | none => exact absurd hval hv2
    | some av =>
      obtain ⟨s2, u0, _, u2, _⟩ := seq_lock_unlock_some _ av.1 av.2 hval
      refine ⟨_, s2, hlock, ?_, j1, u0, ?_, ?_⟩
      · show (s.seq_ + 1) % 4294967296 % 2 = 1
        omega
      · rw [u2, j1]
        show ((s.seq_ + 1) % 4294967296 + 1) % 4294967296 % 2 = 0
        omega
      · rw [u2, j1]
        show ((s.seq_ + 1) % 4294967296 + 1) % 4294967296 = (s.seq_ + 2) % 4294967296
        omega

theorem C14_witness :
    (∃ s : seq_lock String,
      seq_lock.run [seq_op.lock, seq_op.store "update0", seq_op.unlock, seq_op.lock]
        (seq_lock.init "init") = some s ∧ s.seq_ = 3 ∧ s.lock_ = LOCKED) ∧
    (∃ s1 s2 : seq_lock Nat,
      seq_lock.lock { value_ := some (1, 7), seq_ := 4294967294, lock_ := 0, heap_next := 2 }
        = some s1 ∧
      s1.seq_ = 4294967295 ∧ s1.unlock = some s2 ∧ s2.seq_ = 0) := by
  constructor
  · obtain ⟨s, h1, _, _, h4, h5⟩ := (C14_sequence_parity "init"
      [seq_op.lock, seq_op.store "update0", seq_op.unlock, seq_op.lock] rfl).1
    exact ⟨s, h1, h5, h4.mpr rfl⟩
  · obtain ⟨s1, s2, h1, _, _, h4, _, h6⟩ := (C14_sequence_parity (0 : Nat) [] rfl).2
      { value_ := some (1, 7), seq_ := 4294967294, lock_ := 0, heap_next := 2 } []
      rfl (by simp) (by decide) (by decide)
    refine ⟨s1, s2, h1, ?_, h4, h6⟩
    have := seq_lock_lock_unlocked
      ({ value_ := some (1, 7), seq_ := 4294967294, lock_ := 0, heap_next := 2 } : seq_lock Nat) rfl
    rw [this] at h1
    cases h1
    rfl

/-! ## Claim C15: load_shared returns the value written last -/

/-- C15. With no writer in progress, `load_shared()` returns, and what it
returns is a non-null pointer to an object holding the value written last:
the constructor argument when no `store` was made, the argument of the last
`store` otherwise. -/
theorem C15_load_shared_returns_last_written {T : Type} (arg : T) (ops : List (seq_op T))
    (hp : paired ops false = true) (hn : writer_inside ops false = false) :
    ∃ s a, seq_lock.run ops (seq_lock.init arg) = some s ∧
      s.load_shared = some (some (a, last_written arg ops)) := by
  obtain ⟨s, a, h1, h2, _, h4, _, _⟩ := run_paired ops (seq_lock.init arg) false 1 arg hp
    rfl rfl rfl
  refine ⟨s, a, h1, ?_⟩
  rw [hn] at h4
  simp only [Bool.false_eq_true, if_false] at h4
  unfold seq_lock.load_shared
  simp only [and_one_eq_mod, h4, h2]
  simp

theorem C15_witness :
    (∃ a, (seq_lock.init (42 : Int)).load_shared = some (some (a, 42))) ∧
    (∃ s a, seq_lock.run [seq_op.lock, seq_op.store 100, seq_op.unlock]
        (seq_lock.init (42 : Int)) = some s ∧
      s.load_shared = some (some (a, 100))) := by
  constructor
  · obtain ⟨s, a, h1, h2⟩ := C15_load_shared_returns_last_written (42 : Int) [] rfl rfl
    cases h1
    exact ⟨a, h2⟩
  · exact C15_load_shared_returns_last_written (42 : Int)
      [seq_op.lock, seq_op.store 100, seq_op.unlock] rfl rfl

/-! ## Claim C16: the bounded read -/

theorem load_shared_loop_attempts {T : Type} (obs : Nat → seq_lock T) (n i : Nat) :
    i ≤ (load_shared_loop obs n i).2 ∧ (load_shared_loop obs n i).2 ≤ i + n := by
  induction n generalizing i with
  | zero => simp [load_shared_loop]
  | succ k ih =>
    simp only [load_shared_loop]
    split
    · simp only; omega
    · obtain ⟨h1, h2⟩ := ih (i + 1)
      omega

theorem load_shared_loop_odd {T : Type} (obs : Nat → seq_lock T) (n i : Nat)
    (h : ∀ j, i ≤ j → j < i + n → (obs (3 * j)).seq_ % 2 = 1) :
    load_shared_loop obs n i = (none, i + n) := by
  induction n generalizing i with
  | zero => simp [load_shared_loop]
  | succ k ih =>
    simp only [load_shared_loop]
    have hi := h i (le_refl _) (by omega)
    have hne : ¬ ((obs (3 * i)).seq_ &&& 1 = 0 ∧ (obs (3 * i)).seq_ = (obs (3 * i + 2)).seq_) := by
      rw [and_one_eq_mod, hi]
      simp
    rw [if_neg hne, ih (i + 1) (fun j h1 h2 => h j (by omega) (by omega))]
    congr 1
    omega

/-- C16. The bounded read `load_shared(n)`, whatever its loads observe: it
makes at most `n` attempts; it returns a null pointer without any attempt
when `n ≤ 0`, and after `n` attempts when the counter is odd at the first
load of each; and when the counter is even and the state is the same at every
load (no writer in progress) with `n ≥ 1`, it returns the current `value_`
at the first attempt. -/
theorem C16_bounded_load_shared {T : Type} (obs : Nat → seq_lock T) (retry : Int) :
    (load_shared_retry obs retry).2 ≤ retry.toNat ∧
    (retry ≤ 0 → load_shared_retry obs retry = (none, 0)) ∧
    ((∀ i : Nat, (i : Int) < retry → (obs (3 * i)).seq_ % 2 = 1) →
      load_shared_retry obs retry = (none, retry.toNat)) ∧
    (∀ s : seq_lock T, 1 ≤ retry → s.seq_ % 2 = 0 →
      load_shared_retry (fun _ => s) retry = (s.value_, 1) ∧
      s.load_shared_n retry = s.value_) := by
  refine ⟨?_, ?_, ?_, ?_⟩
  · unfold load_shared_retry
    split
    · simp
    · have := (load_shared_loop_attempts obs retry.toNat 0).2
      omega
  · intro h
    unfold load_shared_retry
    rw [if_pos h]
  · intro h
    unfold load_shared_retry
    split
    · rename_i h0
      have : retry.toNat = 0 := by omega
      rw [this]
    · rw [load_shared_loop_odd obs retry.toNat 0 (fun j _ hj => h j (by omega))]
      simp
  · intro s h1 hev
    have key : load_shared_retry (fun _ => s) retry = (s.value_, 1) := by
      unfold load_shared_retry
      have hn : ¬ retry ≤ 0 := by omega
      rw [if_neg hn]
      obtain ⟨k, hk⟩ : ∃ k, retry.toNat = k + 1 := ⟨retry.toNat - 1, by omega⟩
      rw [hk]
      simp only [load_shared_loop, and_one_eq_mod, hev, and_self, if_true]
    refine ⟨key, ?_⟩
    unfold seq_lock.load_shared_n
    rw [key]

theorem C16_witness :
    (∃ s : seq_lock Int, (seq_lock.init (0 : Int)).lock = some s ∧ s.load_shared_n 5 = none ∧
      (load_shared_retry (fun _ => s) 5).2 = 5 ∧
      ∃ t a, seq_lock.run [seq_op.unlock, seq_op.lock, seq_op.store 42, seq_op.unlock] s = some t ∧
        t.load_shared_n 1 = some (a, 42)) := by
  have hl : (seq_lock.init (0 : Int)).lock
      = some { value_ := some (1, 0), seq_ := 1, lock_ := 1, heap_next := 2 } := rfl
  refine ⟨_, hl, ?_, ?_, ?_⟩
  · have := (C16_bounded_load_shared
      (fun _ => ({ value_ := some (1, 0), seq_ := 1, lock_ := 1, heap_next := 2 } : seq_lock Int))
      5).2.2.1 (fun _ _ => rfl)
    unfold seq_lock.load_shared_n
    rw [this]
  · have := (C16_bounded_load_shared
      (fun _ => ({ value_ := some (1, 0), seq_ := 1, lock_ := 1, heap_next := 2 } : seq_lock Int))
      5).2.2.1 (fun _ _ => rfl)
    rw [this]
    rfl
  · refine ⟨{ value_ := some (4, 42), seq_ := 4, lock_ := 0, heap_next := 5 }, 4, rfl, ?_⟩
    exact ((C16_bounded_load_shared
      (fun _ => ({ value_ := some (4, 42), seq_ := 4, lock_ := 0, heap_next := 5 } : seq_lock Int))
      1).2.2.2 { value_ := some (4, 42), seq_ := 4, lock_ := 0, heap_next := 5 }
        (by decide) rfl).2

/-! ## Strict weak orders, indices and permutations of a vector -/

theorem swo_asymm {T : Type} {cmp : T → T → Bool} (h : strict_weak_order cmp) {a b : T}
    (hab : cmp a b = true) : cmp b a = false := by
  cases hba : cmp b a with
  | false => rfl
  | true =>
    have := h.2.1 a b a hab hba
    rw [h.1 a] at this
    exact absurd this (by simp)

theorem swo_negtrans {T : Type} {cmp : T → T → Bool} (h : strict_weak_order cmp) {a b c : T}
    (hab : cmp a b = false) (hbc : cmp b c = false) : cmp a c = false := by
  cases hac : cmp a c with
  | false => rfl
  | true =>
    cases hba : cmp b a with
    | false =>
      cases hcb : cmp c b with
      | false =>
        have := (h.2.2 a b c hab hba hbc hcb).1
        rw [hac] at this
        exact absurd this (by simp)
      | true =>
        have := h.2.1 a c b hac hcb
        rw [hab] at this
        exact absurd this (by simp)
    | true =>
      have := h.2.1 b a c hba hac
      rw [hbc] at this
      exact absurd this (by simp)

theorem parent_index_pos {i : Nat} (h : 0 < i) : parent_index i = (i - 1) / 4 := by
  unfold parent_index nd_heap.d
  rw [if_neg (by omega)]

theorem parent_index_lt {i : Nat} (h : 0 < i) : parent_index i < i := by
  rw [parent_index_pos h]
  omega

theorem parent_index_eq_iff {i j : Nat} (h : 0 < j) :
    parent_index j = i ↔ 4 * i + 1 ≤ j ∧ j ≤ 4 * i + 4 := by
  rw [parent_index_pos h]
  omega

theorem child_index_eq (i k : Nat) : child_index i k = 4 * i + k + 1 := rfl

theorem perm_set_cons {T : Type} (l : List T) (j : Nat) (y a : T) (h : l[j]? = some y) :
    (y :: l.set j a).Perm (a :: l) := by
  induction l generalizing j with
  | nil => simp at h
  | cons b t ih =>
    cases j with
    | zero =>
      simp only [List.getElem?_cons_zero, Option.some.injEq] at h
      subst h
      simp only [List.set_cons_zero]
      exact List.Perm.swap _ _ _
    | succ j =>
      simp only [List.getElem?_cons_succ] at h
      simp only [List.set_cons_succ]
      exact (List.Perm.swap _ _ _).trans (((ih j h).cons b).trans (List.Perm.swap _ _ _))

theorem perm_swap {T : Type} (l : List T) (i j : Nat) (x y : T)
    (hi : l[i]? = some x) (hj : l[j]? = some y) :
    ((l.set i y).set j x).Perm l := by
  induction l generalizing i j with
  | nil => simp at hi
  | cons b t ih =>
    cases i with
    | zero =>
      simp only [List.getElem?_cons_zero, Option.some.injEq] at hi
      subst hi
      cases j with
      | zero =>
        simp only [List.getElem?_cons_zero, Option.some.injEq] at hj
        subst hj
        simp
      | succ j =>
        simp only [List.getElem?_cons_succ] at hj
        simp only [List.set_cons_zero, List.set_cons_succ]
        exact perm_set_cons t j y b hj
    | succ i =>
      simp only [List.getElem?_cons_succ] at hi
      cases j with
      | zero =>
        simp only [List.getElem?_cons_zero, Option.some.injEq] at hj
        subst hj
        simp only [List.set_cons_zero, List.set_cons_succ]
        exact perm_set_cons t i x b hi
      | succ j =>
        simp only [List.getElem?_cons_succ] at hj
        simp only [List.set_cons_succ]
        exact (ih i j hi hj).cons b

theorem getElem?_of_lt {T : Type} (l : List T) (i : Nat) (h : i < l.length) :
    ∃ x, l[i]? = some x := ⟨l[i], List.getElem?_eq_getElem h⟩

/-! ## The loop of swim -/

theorem swim_step {T : Type} {cmp : T → T → Bool} (hswo : strict_weak_order cmp)
    (D D1 : List T) (index p : Nat) (current pv : T)
    (hp : p = parent_index index) (hi : 0 < index)
    (hlen : D1.length = D.length) (hidx : index < D.length)
    (hDp : D[p]? = some pv)
    (h1i : D1[index]? = some pv) (h1p : D1[p]? = some current)
    (hoth : ∀ k, k ≠ index → k ≠ p → D1[k]? = D[k]?)
    (hc : cmp pv current = true) (hinv : swim_inv cmp D index) : swim_inv cmp D1 p := by
  obtain ⟨h1, h2⟩ := hinv
  have hpi : p < index := by rw [hp]; exact parent_index_lt hi
  constructor
  · intro i hi0 hil hip a b ha hb
    rw [hlen] at hil
    by_cases hii : i = index
    · subst hii
      rw [← hp, h1p] at ha
      rw [h1i] at hb
      simp only [Option.some.injEq] at ha hb
      subst ha hb
      exact swo_asymm hswo hc
    · rw [hoth i hii hip] at hb
      by_cases hpp : parent_index i = p
      · rw [hpp, h1p] at ha
        simp only [Option.some.injEq] at ha
        subst ha
        have e := h1 i hi0 hil hii pv b (by rw [hpp]; exact hDp) hb
        cases hcb : cmp current b with
        | false => rfl
        | true =>
          rw [hswo.2.1 pv current b hc hcb] at e
          exact absurd e (by simp)
      · by_cases hpx : parent_index i = index
        · rw [hpx, h1i] at ha
          simp only [Option.some.injEq] at ha
          subst ha
          exact h2 hi i hi0 hil hpx pv b (by rw [← hp]; exact hDp) hb
        · rw [hoth _ hpx hpp] at ha
          exact h1 i hi0 hil hii a b ha hb
  · intro hp0 j hj0 hjl hjp a b ha hb
    rw [hlen] at hjl
    have hg : parent_index p < p := parent_index_lt hp0
    rw [hoth _ (by omega) (by omega)] at ha
    have hjp' : p < j := by rw [← hjp]; exact parent_index_lt hj0
    have e1 := h1 p hp0 (by omega) (by omega) a pv ha hDp
    by_cases hji : j = index
    · subst hji
      rw [h1i] at hb
      simp only [Option.some.injEq] at hb
      subst hb
      exact e1
    · rw [hoth j hji (by omega)] at hb
      have e2 := h1 j hj0 hjl hji pv b (by rw [hjp]; exact hDp) hb
      exact swo_negtrans hswo e1 e2

theorem swim_loop_spec {T : Type} {cmp : T → T → Bool} (hswo : strict_weak_order cmp)
    (current : T) :
    ∀ (fuel : Nat) (data : List T) (index : Nat), index < fuel → index < data.length →
      swim_inv cmp (data.set index current) index →
      ∃ data' index', swim_loop cmp current fuel data index = some (data', index') ∧
        index' < data'.length ∧ heap_ordered cmp (data'.set index' current) ∧
        (data'.set index' current).Perm (data.set index current) := by
  intro fuel
  induction fuel with
  | zero => intro data index h; omega
  | succ fuel ih =>
    intro data index hf hidx hinv
    unfold swim_loop
    by_cases hi : index > 0
    · rw [if_pos hi]
      have hpi : parent_index index < index := parent_index_lt hi
      obtain ⟨pv, hpv⟩ := getElem?_of_lt data (parent_index index) (by omega)
      rw [hpv]
      simp only
      cases hc : cmp pv current with
      | false =>
        simp only [Bool.false_eq_true, if_false]
        refine ⟨data, index, rfl, hidx, ?_, List.Perm.refl _⟩
        intro i hi0 hil a b ha hb
        by_cases hii : i = index
        · subst hii
          rw [List.getElem?_set_ne (by omega), hpv] at ha
          rw [List.getElem?_set_eq_of_lt _ (by simpa using hil)] at hb
          simp only [Option.some.injEq] at ha hb
          subst ha hb
          exact hc
        · exact hinv.1 i hi0 hil hii a b ha hb
      | true =>
        simp only [if_true]
        rw [if_pos hidx]
        have hinv1 : swim_inv cmp ((data.set index pv).set (parent_index index) current)
            (parent_index index) := by
          refine swim_step hswo (data.set index current) _ index (parent_index index) current pv
            rfl hi (by simp) (by simpa using hidx) ?_ ?_ ?_ ?_ hc hinv
          · rw [List.getElem?_set_ne (by omega)]; exact hpv
          · rw [List.getElem?_set_ne (by omega), List.getElem?_set_eq_of_lt _ hidx]
          · rw [List.getElem?_set_eq_of_lt _ (by simp; omega)]
          · intro k hk1 hk2
            rw [List.getElem?_set_ne (Ne.symm hk2), List.getElem?_set_ne (Ne.symm hk1),
              List.getElem?_set_ne (Ne.symm hk1)]
        obtain ⟨data', index', e, h1, h2, h3⟩ :=
          ih (data.set index pv) (parent_index index) (by omega) (by simp; omega) hinv1
        refine ⟨data', index', e, h1, h2, h3.trans ?_⟩
        have := perm_swap (data.set index current) index (parent_index index) current pv
          (by rw [List.getElem?_set_eq_of_lt _ hidx])
          (by rw [List.getElem?_set_ne (by omega)]; exact hpv)
        rw [List.set_set] at this
        exact this
    · rw [if_neg hi]
      have h0 : index = 0 := by omega
      subst h0
      refine ⟨data, 0, rfl, hidx, ?_, List.Perm.refl _⟩
      intro i hi0 hil a b ha hb
      exact hinv.1 i hi0 hil (by omega) a b ha hb

theorem set_self {T : Type} (l : List T) (i : Nat) (x : T) (h : l[i]? = some x) :
    l.set i x = l := by
  apply List.ext_getElem?
  intro k
  by_cases hk : i = k
  · subst hk
    have hl : i < l.length := by
      by_contra hn
      rw [List.getElem?_eq_none (by omega)] at h
      exact absurd h (by simp)
    rw [List.getElem?_set_eq_of_lt _ hl, h]
  · rw [List.getElem?_set_ne hk]

theorem swim_spec {T : Type} (h : nd_heap T) (hswo : strict_weak_order h.cmp_) (index : Nat)
    (hidx : index < h.data_.length) (hinv : swim_inv h.cmp_ h.data_ index) :
    ∃ h', h.swim index = some h' ∧ h'.cmp_ = h.cmp_ ∧ heap_ordered h.cmp_ h'.data_ ∧
      h'.data_.Perm h.data_ := by
  obtain ⟨current, hcur⟩ := getElem?_of_lt h.data_ index hidx
  have hs := set_self h.data_ index current hcur
  obtain ⟨data', index', e, h1, h2, h3⟩ :=
    swim_loop_spec hswo current (index + 1) h.data_ index (by omega) hidx (by rw [hs]; exact hinv)
  refine ⟨{ h with data_ := data'.set index' current }, ?_, rfl, h2, ?_⟩
  · unfold nd_heap.swim
    rw [hcur]
    simp only
    rw [e]
    simp only
    rw [if_pos h1]
  · rw [hs] at h3
    exact h3

theorem emplace_spec {T : Type} (h : nd_heap T) (hswo : strict_weak_order h.cmp_) (val : T)
    (hord : heap_ordered h.cmp_ h.data_) :
    ∃ h', h.emplace val = some h' ∧ h'.cmp_ = h.cmp_ ∧ heap_ordered h.cmp_ h'.data_ ∧
      h'.data_.Perm (val :: h.data_) := by
  have hinv : swim_inv h.cmp_ (h.data_ ++ [val]) h.data_.length := by
    constructor
    · intro i hi0 hil hne a b ha hb
      have hil' : i < h.data_.length := by
        simp only [List.length_append, List.length_singleton] at hil
        omega
      have hp := parent_index_lt hi0
      rw [List.getElem?_append_left (by omega)] at ha
      rw [List.getElem?_append_left hil'] at hb
      exact hord i hi0 hil' a b ha hb
    · intro _ j hj0 hjl hjp
      have hp := parent_index_lt hj0
      simp only [List.length_append, List.length_singleton] at hjl
      omega
  obtain ⟨h', e, h1, h2, h3⟩ := swim_spec { h with data_ := h.data_ ++ [val] } hswo
    h.data_.length (by simp) hinv
  refine ⟨h', ?_, h1, h2, h3.trans ?_⟩
  · unfold nd_heap.emplace
    simp only [List.length_append, List.length_singleton, Nat.add_sub_cancel]
    exact e
  · exact List.perm_append_comm

/-! ## The extreme child and the loop of sink -/

theorem update_extreme_spec {T : Type} {cmp : T → T → Bool} (hswo : strict_weak_order cmp)
    (data : List T) (I index e : Nat) (he : e < data.length)
    (hr : 4 * index + 1 ≤ e ∧ e ≤ 4 * index + I + 1)
    (hmax : ∀ j, 4 * index + 1 ≤ j → j ≤ 4 * index + I + 1 → j < data.length → ∀ a b,
      data[e]? = some a → data[j]? = some b → cmp a b = false) :
    ∃ e', update_extreme cmp data I index data.length e = some e' ∧ e' < data.length ∧
      (4 * index + 1 ≤ e' ∧ e' ≤ 4 * index + (I + 1) + 1) ∧
      (∀ j, 4 * index + 1 ≤ j → j ≤ 4 * index + (I + 1) + 1 → j < data.length → ∀ a b,
        data[e']? = some a → data[j]? = some b → cmp a b = false) := by
  unfold update_extreme
  simp only [child_index_eq]
  by_cases hc : 4 * index + (I + 1) + 1 < data.length
  · rw [if_pos hc]
    obtain ⟨a, ha⟩ := getElem?_of_lt data e he
    obtain ⟨b, hb⟩ := getElem?_of_lt data _ hc
    rw [ha, hb]
    simp only
    cases hab : cmp a b with
    | false =>
      simp only [Bool.false_eq_true, if_false]
      refine ⟨e, rfl, he, ⟨hr.1, by omega⟩, ?_⟩
      intro j hj1 hj2 hjl a' b' ha' hb'
      by_cases hj : j ≤ 4 * index + I + 1
      · exact hmax j hj1 hj hjl a' b' ha' hb'
      · have : j = 4 * index + (I + 1) + 1 := by omega
        subst this
        rw [ha] at ha'
        rw [hb] at hb'
        simp only [Option.some.injEq] at ha' hb'
        subst ha' hb'
        exact hab
    | true =>
      simp only [if_true]
      refine ⟨_, rfl, hc, ⟨by omega, le_refl _⟩, ?_⟩
      intro j hj1 hj2 hjl a' b' ha' hb'
      rw [hb] at ha'
      simp only [Option.some.injEq] at ha'
      subst ha'
      by_cases hj : j ≤ 4 * index + I + 1
      · have e1 := hmax j hj1 hj hjl a b' ha hb'
        cases hcb : cmp b b' with
        | false => rfl
        | true =>
          rw [hswo.2.1 a b b' hab hcb] at e1
          exact absurd e1 (by simp)
      · have : j = 4 * index + (I + 1) + 1 := by omega
        subst this
        rw [hb] at hb'
        simp only [Option.some.injEq] at hb'
        subst hb'
        exact hswo.1 b
  · rw [if_neg hc]
    refine ⟨e, rfl, he, ⟨hr.1, by omega⟩, ?_⟩
    intro j hj1 hj2 hjl a' b' ha' hb'
    exact hmax j hj1 (by omega) hjl a' b' ha' hb'

theorem find_extreme_child_spec {T : Type} {cmp : T → T → Bool} (hswo : strict_weak_order cmp)
    (data : List T) (index : Nat) :
    ∃ e, find_extreme_child_impl cmp data index data.length = some e ∧
      ((data.length ≤ e ∧ ∀ j, 0 < j → j < data.length → parent_index j ≠ index) ∨
        (e < data.length ∧ 0 < e ∧ parent_index e = index ∧
          ∀ j, 0 < j → j < data.length → parent_index j = index → ∀ a b,
            data[e]? = some a → data[j]? = some b → cmp a b = false)) := by
  unfold find_extreme_child_impl
  by_cases hc : 4 * index + 1 < data.length
  · have h0 : ∀ j, 4 * index + 1 ≤ j → j ≤ 4 * index + 0 + 1 → j < data.length → ∀ a b,
        data[4 * index + 1]? = some a → data[j]? = some b → cmp a b = false := by
      intro j hj1 hj2 _ a b ha hb
      have : j = 4 * index + 1 := by omega
      subst this
      rw [ha] at hb
      simp only [Option.some.injEq] at hb
      subst hb
      exact hswo.1 a
    obtain ⟨e0, x0, l0, r0, m0⟩ := update_extreme_spec hswo data 0 index (4 * index + 1) hc
      ⟨le_refl _, by omega⟩ h0
    obtain ⟨e1, x1, l1, r1, m1⟩ := update_extreme_spec hswo data 1 index e0 l0 r0 m0
    obtain ⟨e2, x2, l2, r2, m2⟩ := update_extreme_spec hswo data 2 index e1 l1 r1 m1
    have hci : child_index index 0 = 4 * index + 1 := rfl
    rw [hci, x0]
    simp only
    rw [x1]
    simp only
    refine ⟨e2, x2, Or.inr ⟨l2, by omega, ?_, ?_⟩⟩
    · rw [parent_index_eq_iff (by omega)]
      omega
    · intro j hj0 hjl hjp a b ha hb
      rw [parent_index_eq_iff hj0] at hjp
      exact m2 j hjp.1 (by omega) hjl a b ha hb
  · have hu : ∀ I, update_extreme cmp data I index data.length (child_index index 0)
        = some (child_index index 0) := by
      intro I
      unfold update_extreme
      simp only [child_index_eq]
      rw [if_neg (by omega)]
    rw [hu 0]
    simp only
    rw [hu 1]
    simp only
    refine ⟨_, hu 2, Or.inl ⟨?_, ?_⟩⟩
    · rw [child_index_eq]; omega
    · intro j hj0 hjl hjp
      rw [parent_index_eq_iff hj0] at hjp
      omega

theorem sink_step {T : Type} {cmp : T → T → Bool} (hswo : strict_weak_order cmp)
    (D D1 : List T) (index e : Nat) (current ev : T)
    (he0 : 0 < e) (hpe : parent_index e = index)
    (hlen : D1.length = D.length) (hel : e < D.length)
    (hDe : D[e]? = some ev)
    (h1i : D1[index]? = some ev) (h1e : D1[e]? = some current)
    (hoth : ∀ k, k ≠ index → k ≠ e → D1[k]? = D[k]?)
    (hc : cmp current ev = true)
    (hmax : ∀ j, 0 < j → j < D.length → parent_index j = index → j ≠ e → ∀ b,
      D[j]? = some b → cmp ev b = false)
    (hinv : sink_inv cmp D index) : sink_inv cmp D1 e := by
  obtain ⟨h1, h2⟩ := hinv
  have hie : index < e := by rw [← hpe]; exact parent_index_lt he0
  constructor
  · intro i hi0 hil hip a b ha hb
    rw [hlen] at hil
    have hpi := parent_index_lt hi0
    by_cases hpx : parent_index i = index
    · rw [hpx, h1i] at ha
      simp only [Option.some.injEq] at ha
      subst ha
      by_cases hie' : i = e
      · subst hie'
        rw [h1e] at hb
        simp only [Option.some.injEq] at hb
        subst hb
        exact swo_asymm hswo hc
      · rw [hoth i (by omega) hie'] at hb
        exact hmax i hi0 hil hpx hie' b hb
    · have hne : i ≠ e := fun h => hpx (h ▸ hpe)
      rw [hoth _ hpx hip] at ha
      by_cases hii : i = index
      · subst hii
        rw [h1i] at hb
        simp only [Option.some.injEq] at hb
        subst hb
        exact h2 hi0 e he0 hel hpe a ev ha hDe
      · rw [hoth i hii hne] at hb
        exact h1 i hi0 hil hpx a b ha hb
  · intro _ j hj0 hjl hjp a b ha hb
    rw [hlen] at hjl
    have hpj : e < j := by rw [← hjp]; exact parent_index_lt hj0
    rw [hpe, h1i] at ha
    simp only [Option.some.injEq] at ha
    subst ha
    rw [hoth j (by omega) (by omega)] at hb
    exact h1 j hj0 hjl (by omega) ev b (by rw [hjp]; exact hDe) hb

theorem sink_loop_spec {T : Type} {cmp : T → T → Bool} (hswo : strict_weak_order cmp)
    (current : T) (size : Nat) :
    ∀ (fuel : Nat) (data : List T) (index : Nat), size - index < fuel → data.length = size →
      index < size → sink_inv cmp (data.set index current) index →
      ∃ data' index', sink_loop cmp current size fuel data index = some (data', index') ∧
        index' < data'.length ∧ heap_ordered cmp (data'.set index' current) ∧
        (data'.set index' current).Perm (data.set index current) := by
  intro fuel
  induction fuel with
  | zero => intro data index h; omega
  | succ fuel ih =>
    intro data index hf hlen hidx hinv
    subst hlen
    unfold sink_loop
    obtain ⟨e, he, hcase⟩ := find_extreme_child_spec hswo data index
    rw [he]
    simp only
    rcases hcase with ⟨hge, hno⟩ | ⟨hel, he0, hpe, hmax⟩
    · rw [if_pos hge]
      refine ⟨data, index, rfl, hidx, ?_, List.Perm.refl _⟩
      intro i hi0 hil a b ha hb
      rw [List.length_set] at hil
      exact hinv.1 i hi0 (by simpa using hil) (hno i hi0 hil) a b ha hb
    · rw [if_neg (by omega)]
      obtain ⟨ev, hev⟩ := getElem?_of_lt data e hel
      have hie : index < e := by rw [← hpe]; exact parent_index_lt he0
      rw [hev]
      simp only
      cases hc : cmp current ev with
      | false =>
        simp only [Bool.not_false, if_true]
        refine ⟨data, index, rfl, hidx, ?_, List.Perm.refl _⟩
        intro i hi0 hil a b ha hb
        by_cases hpx : parent_index i = index
        · have hpi := parent_index_lt hi0
          rw [hpx, List.getElem?_set_eq_of_lt _ hidx] at ha
          rw [List.getElem?_set_ne (by omega)] at hb
          simp only [Option.some.injEq] at ha
          subst ha
          rw [List.length_set] at hil
          exact swo_negtrans hswo hc (hmax i hi0 hil hpx ev b hev hb)
        · exact hinv.1 i hi0 hil hpx a b ha hb
      | true =>
        simp only [Bool.not_true, Bool.false_eq_true, if_false]
        rw [if_pos hidx]
        have hinv1 : sink_inv cmp ((data.set index ev).set e current) e := by
          refine sink_step hswo (data.set index current) _ index e current ev he0 hpe
            (by simp) (by simpa using hel) ?_ ?_ ?_ ?_ hc ?_ hinv
          · rw [List.getElem?_set_ne (by omega)]; exact hev
          · rw [List.getElem?_set_ne (by omega), List.getElem?_set_eq_of_lt _ hidx]
          · rw [List.getElem?_set_eq_of_lt _ (by simpa using hel)]
          · intro k hk1 hk2
            rw [List.getElem?_set_ne (Ne.symm hk2), List.getElem?_set_ne (Ne.symm hk1),
              List.getElem?_set_ne (Ne.symm hk1)]
          · intro j hj0 hjl hjp _ b hb
            have hpj := parent_index_lt hj0
            rw [List.getElem?_set_ne (by omega)] at hb
            rw [List.length_set] at hjl
            exact hmax j hj0 hjl hjp ev b hev hb
        obtain ⟨data', index', e', h1, h2, h3⟩ :=
          ih (data.set index ev) e (by omega) (by simp) hel hinv1
        refine ⟨data', index', ?_, h1, h2, h3.trans ?_⟩
        · rw [← e']
        · have := perm_swap (data.set index current) index e current ev
            (by rw [List.getElem?_set_eq_of_lt _ hidx])
            (by rw [List.getElem?_set_ne (by omega)]; exact hev)
          rw [List.set_set] at this
          exact this

theorem sink_spec {T : Type} (h : nd_heap T) (hswo : strict_weak_order h.cmp_) (index : Nat)
    (hidx : index < h.data_.length) (hinv : sink_inv h.cmp_ h.data_ index) :
    ∃ h', h.sink index = some h' ∧ h'.cmp_ = h.cmp_ ∧ heap_ordered h.cmp_ h'.data_ ∧
      h'.data_.Perm h.data_ := by
  obtain ⟨current, hcur⟩ := getElem?_of_lt h.data_ index hidx
  have hs := set_self h.data_ index current hcur
  obtain ⟨data', index', e, h1, h2, h3⟩ :=
    sink_loop_spec hswo current h.data_.length (h.data_.length + 1) h.data_ index (by omega) rfl
      hidx (by rw [hs]; exact hinv)
  refine ⟨{ h with data_ := data'.set index' current }, ?_, rfl, h2, ?_⟩
  · unfold nd_heap.sink
    simp only
    rw [hcur]
    simp only
    rw [e]
    simp only
    rw [if_pos h1]
  · rw [hs] at h3
    exact h3

/-! ## pop, top and sequences of calls -/

theorem top_greatest {T : Type} {cmp : T → T → Bool} (hswo : strict_weak_order cmp)
    (D : List T) (hord : heap_ordered cmp D) (t : T) (ht : D[0]? = some t) :
    ∀ x ∈ D, cmp t x = false := by
  have key : ∀ (n i : Nat), i ≤ n → ∀ x, D[i]? = some x → cmp t x = false := by
    intro n
    induction n with
    | zero =>
      intro i hi x hx
      have : i = 0 := by omega
      subst this
      rw [ht] at hx
      simp only [Option.some.injEq] at hx
      subst hx
      exact hswo.1 t
    | succ n ih =>
      intro i hi x hx
      by_cases h0 : i = 0
      · subst h0
        rw [ht] at hx
        simp only [Option.some.injEq] at hx
        subst hx
        exact hswo.1 t
      · have hil : i < D.length := by
          by_contra hn
          rw [List.getElem?_eq_none (by omega)] at hx
          exact absurd hx (by simp)
        have hp := parent_index_lt (Nat.pos_of_ne_zero h0)
        obtain ⟨y, hy⟩ := getElem?_of_lt D (parent_index i) (by omega)
        exact swo_negtrans hswo (ih _ (by omega) y hy)
          (hord i (Nat.pos_of_ne_zero h0) hil y x hy hx)
  intro x hx
  obtain ⟨i, hi⟩ := List.mem_iff_getElem?.mp hx
  exact key i i (le_refl _) x hi

theorem pop_single {T : Type} (h : nd_heap T) (first : T) (hd : h.data_ = [first]) :
    h.pop = some { h with data_ := [] } := by
  unfold nd_heap.pop
  rw [hd]
  simp

theorem pop_data {T : Type} (first : T) (rest : List T) (hr : rest ≠ []) :
    (((first :: rest).set 0 (rest.getLast hr)).set ((first :: rest).length - 1) first).dropLast
      = rest.getLast hr :: rest.dropLast := by
  have hl : 0 < rest.length := List.length_pos.mpr hr
  have e1 : (first :: rest).length - 1 = (rest.length - 1) + 1 := by
    simp only [List.length_cons]; omega
  rw [e1]
  simp only [List.set_cons_zero, List.set_cons_succ]
  rw [List.dropLast_cons_of_ne_nil (by simpa using hr)]
  congr 1
  rw [List.dropLast_eq_take, List.dropLast_eq_take, List.length_set]
  apply List.ext_getElem?
  intro k
  rw [List.getElem?_take, List.getElem?_take]
  split
  · rw [List.getElem?_set_ne (by omega)]
  · rfl

theorem pop_spec {T : Type} (h : nd_heap T) (hswo : strict_weak_order h.cmp_)
    (hord : heap_ordered h.cmp_ h.data_) (hne : h.data_ ≠ []) :
    ∃ t h', h.top = some t ∧ h.pop = some h' ∧ h'.cmp_ = h.cmp_ ∧
      heap_ordered h.cmp_ h'.data_ ∧ (t :: h'.data_).Perm h.data_ := by
  cases hd : h.data_ with
  | nil => exact absurd hd hne
  | cons first rest =>
    by_cases hr : rest = []
    · subst hr
      refine ⟨first, { h with data_ := [] }, ?_, pop_single h first hd, rfl, ?_, List.Perm.refl _⟩
      · unfold nd_heap.top; rw [hd]; simp
      · intro i hi0 hil; simp at hil
    · have hl : 0 < rest.length := List.length_pos.mpr hr
      have hback : (first :: rest)[(first :: rest).length - 1]? = some (rest.getLast hr) := by
        have e1 : (first :: rest).length - 1 = (rest.length - 1) + 1 := by
          simp only [List.length_cons]; omega
        rw [e1, List.getElem?_cons_succ, List.getLast_eq_getElem, List.getElem?_eq_getElem]
      have hinv : sink_inv h.cmp_ (rest.getLast hr :: rest.dropLast) 0 := by
        constructor
        · intro i hi0 hil hp a b ha hb
          have hpi := parent_index_lt hi0
          simp only [List.length_cons, List.length_dropLast] at hil
          obtain ⟨k, rfl⟩ : ∃ k, i = k + 1 := ⟨i - 1, by omega⟩
          obtain ⟨q, hq⟩ : ∃ q, parent_index (k + 1) = q + 1 := ⟨parent_index (k + 1) - 1, by omega⟩
          rw [hq] at ha
          rw [List.getElem?_cons_succ, List.dropLast_eq_take, List.getElem?_take_of_lt (by omega)]
            at ha hb
          apply hord (k + 1) hi0 (by rw [hd]; simp only [List.length_cons]; omega) a b
          · rw [hd, hq, List.getElem?_cons_succ]; exact ha
          · rw [hd, List.getElem?_cons_succ]; exact hb
        · intro h0; omega
      obtain ⟨h', e, c1, c2, c3⟩ := sink_spec
        { h with data_ := rest.getLast hr :: rest.dropLast } hswo 0 (by simp) hinv
      refine ⟨first, h', ?_, ?_, c1, c2, ?_⟩
      · unfold nd_heap.top; rw [hd]; simp
      · unfold nd_heap.pop
        rw [hd]
        have e0 : (first :: rest)[0]? = some first := by simp
        rw [hback, e0]
        simp only [List.isEmpty_cons, Bool.false_eq_true, if_false]
        rw [if_neg (by simp only [List.length_cons]; omega), pop_data first rest hr]
        exact e
      · refine (c3.cons first).trans ?_
        apply List.Perm.cons
        have := List.dropLast_append_getLast hr
        nth_rewrite 3 [← this]
        exact @List.perm_append_comm _ [rest.getLast hr] rest.dropLast

theorem strict_weak_order_less_int : strict_weak_order less_int := by
  refine ⟨?_, ?_, ?_⟩
  · intro a; simp [less_int]
  · intro a b c h1 h2
    simp only [less_int, decide_eq_true_eq] at *
    omega
  · intro a b c h1 h2 h3 h4
    simp only [less_int, decide_eq_false_iff_not] at *
    omega

theorem strict_weak_order_greater_int : strict_weak_order greater_int := by
  refine ⟨?_, ?_, ?_⟩
  · intro a; simp [greater_int]
  · intro a b c h1 h2
    simp only [greater_int, decide_eq_true_eq] at *
    omega
  · intro a b c h1 h2 h3 h4
    simp only [greater_int, decide_eq_false_iff_not] at *
    omega

theorem heap_ordered_nil {T : Type} (cmp : T → T → Bool) : heap_ordered cmp [] := by
  intro i _ hil
  simp at hil

theorem run_spec {T : Type} (ops : List (heap_op T)) :
    ∀ (h : nd_heap T) (n : Nat), strict_weak_order h.cmp_ → heap_ordered h.cmp_ h.data_ →
      h.data_.length = n → pops_allowed ops n = true →
      ∃ h', nd_heap.run ops h = some h' ∧ h'.cmp_ = h.cmp_ ∧ heap_ordered h.cmp_ h'.data_ ∧
        h'.data_.length + count_pop ops = n + count_push ops := by
  induction ops with
  | nil =>
    intro h n _ hord hn _
    exact ⟨h, rfl, rfl, hord, by simp [count_pop, count_push, hn]⟩
  | cons op rest ih =>
    intro h n hswo hord hn hv
    cases op with
    | push val =>
      obtain ⟨h1, e, c1, c2, c3⟩ := emplace_spec h hswo val hord
      have hl : h1.data_.length = n + 1 := by rw [c3.length_eq]; simp [hn]
      simp only [pops_allowed] at hv
      obtain ⟨h', e', d1, d2, d3⟩ := ih h1 (n + 1) (by rw [c1]; exact hswo)
        (by rw [c1]; exact c2) hl hv
      refine ⟨h', ?_, d1.trans c1, by rw [← c1]; exact d2, ?_⟩
      · simp only [nd_heap.run, nd_heap.push]
        rw [e]
        exact e'
      · simp only [count_pop, count_push]
        omega
    | pop =>
      simp only [pops_allowed, Bool.and_eq_true, decide_eq_true_eq] at hv
      have hne : h.data_ ≠ [] := by
        intro hnil
        rw [hnil] at hn
        simp at hn
        omega
      obtain ⟨t, h1, _, e, c1, c2, c3⟩ := pop_spec h hswo hord hne
      have hl : h1.data_.length = n - 1 := by
        have := c3.length_eq
        simp only [List.length_cons] at this
        omega
      obtain ⟨h', e', d1, d2, d3⟩ := ih h1 (n - 1) (by rw [c1]; exact hswo)
        (by rw [c1]; exact c2) hl hv.2
      refine ⟨h', ?_, d1.trans c1, by rw [← c1]; exact d2, ?_⟩
      · simp only [nd_heap.run]
        rw [e]
        exact e'
      · simp only [count_pop, count_push]
        omega

/-! ## Claim C23: top is a greatest element -/

/-- C23. For the heap of arity 4 and a comparator that is a strict weak order:
every sequence of `push` and `pop` calls on a new heap in which no `pop` meets
an empty heap returns, and in the heap `h` it leaves `size()` is the number of
pushes minus the number of pops, `empty()` holds exactly when `size()` is 0,
and when the heap is not empty `top()` is one of the stored values and no
stored value is ranked above it by the comparator.  The stored values change
as they should: a further `push(v)` adds `v` and nothing else, a further
`pop()` removes one occurrence of the value `top()` returned and nothing
else. -/
theorem C23_top_is_greatest {T : Type} (cmp : T → T → Bool) (hswo : strict_weak_order cmp)
    (ops : List (heap_op T)) (hv : pops_allowed ops 0 = true) :
    ∃ h, nd_heap.run ops (nd_heap.init cmp) = some h ∧
      count_pop ops ≤ count_push ops ∧ h.size = count_push ops - count_pop ops ∧
      (h.empty = true ↔ h.size = 0) ∧
      (h.empty = false →
        ∃ t, h.top = some t ∧ t ∈ h.data_ ∧ ∀ x ∈ h.data_, cmp t x = false) ∧
      (∀ val, ∃ h', h.push val = some h' ∧ h'.data_.Perm (val :: h.data_)) ∧
      (h.empty = false →
        ∃ t h', h.top = some t ∧ h.pop = some h' ∧ (t :: h'.data_).Perm h.data_) := by
  obtain ⟨h, e, c1, c2, c3⟩ := run_spec ops (nd_heap.init cmp) 0 hswo (heap_ordered_nil cmp) rfl hv
  have c1' : h.cmp_ = cmp := c1
  have c2' : heap_ordered h.cmp_ h.data_ := by rw [c1']; exact c2
  have hswo' : strict_weak_order h.cmp_ := by rw [c1']; exact hswo
  have hne : h.empty = false → h.data_ ≠ [] := by
    intro he hnil
    simp [nd_heap.empty, hnil] at he
  refine ⟨h, e, by omega, by simp only [nd_heap.size]; omega, ?_, ?_, ?_, ?_⟩
  · simp [nd_heap.empty, nd_heap.size, List.isEmpty_iff]
  · intro he
    obtain ⟨t, h', e1, _, _, _, p⟩ := pop_spec h hswo' c2' (hne he)
    refine ⟨t, e1, p.subset (List.mem_cons_self _ _), ?_⟩
    have := top_greatest hswo' h.data_ c2' t e1
    rw [c1'] at this
    exact this
  · intro val
    obtain ⟨h', e1, _, _, p⟩ := emplace_spec h hswo' val c2'
    exact ⟨h', e1, p⟩
  · intro he
    obtain ⟨t, h', e1, e2, _, _, p⟩ := pop_spec h hswo' c2' (hne he)
    exact ⟨t, h', e1, e2, p⟩

theorem C23_witness :
    (∃ h, nd_heap.run [heap_op.push 10, heap_op.push 20, heap_op.push 5] (nd_heap.init less_int)
        = some h ∧ h.size = 3 ∧ h.top = some 20 ∧ ∀ x ∈ h.data_, less_int 20 x = false) ∧
    (∃ h, nd_heap.run [heap_op.push 10, heap_op.push 20, heap_op.push 5]
        (nd_heap.init greater_int) = some h ∧ h.size = 3 ∧ h.top = some 5 ∧
        ∀ x ∈ h.data_, greater_int 5 x = false) := by
  constructor
  · obtain ⟨h, e, _, c2, _, c4, _⟩ := C23_top_is_greatest less_int strict_weak_order_less_int
      [heap_op.push 10, heap_op.push 20, heap_op.push 5] rfl
    have e0 : nd_heap.run [heap_op.push 10, heap_op.push 20, heap_op.push 5]
        (nd_heap.init less_int) = some { cmp_ := less_int, data_ := [20, 10, 5] } := rfl
    rw [e0] at e
    simp only [Option.some.injEq] at e
    subst e
    obtain ⟨t, t1, _, t3⟩ := c4 rfl
    have : t = 20 := by
      have : (some t : Option Int) = some 20 := t1.symm.trans rfl
      simpa using this
    subst this
    exact ⟨_, e0, c2, t1, t3⟩
  · obtain ⟨h, e, _, c2, _, c4, _⟩ := C23_top_is_greatest greater_int
      strict_weak_order_greater_int [heap_op.push 10, heap_op.push 20, heap_op.push 5] rfl
    have e0 : nd_heap.run [heap_op.push 10, heap_op.push 20, heap_op.push 5]
        (nd_heap.init greater_int) = some { cmp_ := greater_int, data_ := [5, 20, 10] } := rfl
    rw [e0] at e
    simp only [Option.some.injEq] at e
    subst e
    obtain ⟨t, t1, _, t3⟩ := c4 rfl
    have : t = 5 := by
      have : (some t : Option Int) = some 5 := t1.symm.trans rfl
      simpa using this
    subst this
    exact ⟨_, e0, c2, t1, t3⟩

/-! ## Claim C24: heap sort -/

theorem push_all_spec (l : List Int) :
    ∀ (h : nd_heap Int), strict_weak_order h.cmp_ → heap_ordered h.cmp_ h.data_ →
      ∃ h', push_all l h = some h' ∧ h'.cmp_ = h.cmp_ ∧ heap_ordered h.cmp_ h'.data_ ∧
        h'.data_.Perm (l ++ h.data_) := by
  induction l with
  | nil => intro h _ hord; exact ⟨h, rfl, rfl, hord, List.Perm.refl _⟩
  | cons v rest ih =>
    intro h hswo hord
    obtain ⟨h1, e, c1, c2, c3⟩ := emplace_spec h hswo v hord
    obtain ⟨h', e', d1, d2, d3⟩ := ih h1 (by rw [c1]; exact hswo) (by rw [c1]; exact c2)
    refine ⟨h', ?_, d1.trans c1, by rw [← c1]; exact d2, ?_⟩
    · simp only [push_all, nd_heap.push]
      rw [e]
      exact e'
    · refine d3.trans ?_
      refine (List.Perm.append_left rest c3).trans ?_
      simp only [List.cons_append]
      exact List.perm_middle

theorem drain_spec (n : Nat) :
    ∀ (h : nd_heap Int), h.cmp_ = less_int → heap_ordered h.cmp_ h.data_ →
      h.data_.length = n →
      ∃ out h', drain n h = some (out, h') ∧ out.Perm h.data_ ∧
        out.Sorted (fun a b => a ≥ b) ∧ h'.data_ = [] := by
  induction n with
  | zero =>
    intro h _ _ hn
    refine ⟨[], h, rfl, ?_, List.sorted_nil, List.length_eq_zero.mp hn⟩
    rw [List.length_eq_zero.mp hn]
  | succ n ih =>
    intro h hc hord hn
    have hswo : strict_weak_order h.cmp_ := by rw [hc]; exact strict_weak_order_less_int
    have hne : h.data_ ≠ [] := by
      intro hnil
      rw [hnil] at hn
      simp at hn
    obtain ⟨t, h1, e1, e2, c1, c2, c3⟩ := pop_spec h hswo hord hne
    have hl : h1.data_.length = n := by
      have := c3.length_eq
      simp only [List.length_cons] at this
      omega
    obtain ⟨out, h', e', d1, d2, d3⟩ := ih h1 (c1.trans hc) (by rw [c1]; exact c2) hl
    refine ⟨t :: out, h', ?_, (d1.cons t).trans c3, ?_, d3⟩
    · simp only [drain]
      rw [e1, e2]
      simp only
      rw [e']
    · rw [List.sorted_cons]
      refine ⟨?_, d2⟩
      intro x hx
      have hx' : x ∈ h.data_ := c3.subset (List.mem_cons_of_mem _ (d1.subset hx))
      have := top_greatest hswo h.data_ hord t e1 x hx'
      rw [hc] at this
      simp only [less_int, decide_eq_false_iff_not] at this
      omega

/-- C24. Heap sort with `nd_heap<int>`: for every list of integers, pushing
all of them and then reading `top()` and calling `pop()` as many times as
there were pushes returns, the values read are a permutation of the input in
non-increasing order, and the heap is empty afterwards. -/
theorem C24_heap_sort (l : List Int) :
    ∃ out h, (push_all l (nd_heap.init less_int)).bind (drain l.length) = some (out, h) ∧
      out.Perm l ∧ out.Sorted (fun a b => a ≥ b) ∧ h.empty = true ∧ h.size = 0 := by
  obtain ⟨h1, e1, c1, c2, c3⟩ := push_all_spec l (nd_heap.init less_int)
    strict_weak_order_less_int (heap_ordered_nil _)
  have hl : h1.data_.length = l.length := by
    rw [c3.length_eq]; simp [nd_heap.init]
  obtain ⟨out, h, e2, d1, d2, d3⟩ := drain_spec l.length h1 c1 (by rw [c1]; exact c2) hl
  refine ⟨out, h, ?_, ?_, d2, ?_, ?_⟩
  · rw [e1]; exact e2
  · refine d1.trans (c3.trans ?_)
    simp [nd_heap.init]
  · simp [nd_heap.empty, d3]
  · simp [nd_heap.size, d3]

/-! ## The sequence of stores of the tree functions, field by field -/

@[simp] theorem set_height_height (m : Nat → avl_tree_node) (x : Nat) (v : Int) (a : Nat) :
    (set_height m x v a).height_ = if a = x then v else (m a).height_ := by
  unfold set_height
  split
  · rfl
  · rfl

@[simp] theorem set_height_parent (m : Nat → avl_tree_node) (x : Nat) (v : Int) (a : Nat) :
    (set_height m x v a).parent_ = (m a).parent_ := by
  unfold set_height
  split
  · next h => rw [h]
  · rfl

@[simp] theorem set_height_left (m : Nat → avl_tree_node) (x : Nat) (v : Int) (a : Nat) :
    (set_height m x v a).left_ = (m a).left_ := by
  unfold set_height
  split
  · next h => rw [h]
  · rfl

@[simp] theorem set_height_right (m : Nat → avl_tree_node) (x : Nat) (v : Int) (a : Nat) :
    (set_height m x v a).right_ = (m a).right_ := by
  unfold set_height
  split
  · next h => rw [h]
  · rfl

@[simp] theorem set_height_key (m : Nat → avl_tree_node) (x : Nat) (v : Int) (a : Nat) :
    (set_height m x v a).key = (m a).key := by
  unfold set_height
  split
  · next h => rw [h]
  · rfl

@[simp] theorem set_height_val (m : Nat → avl_tree_node) (x : Nat) (v : Int) (a : Nat) :
    (set_height m x v a).val = (m a).val := by
  unfold set_height
  split
  · next h => rw [h]
  · rfl

@[simp] theorem set_parent_height (m : Nat → avl_tree_node) (x : Nat) (v : Nat) (a : Nat) :
    (set_parent m x v a).height_ = (m a).height_ := by
  unfold set_parent
  split
  · next h => rw [h]
  · rfl

@[simp] theorem set_parent_parent (m : Nat → avl_tree_node) (x : Nat) (v : Nat) (a : Nat) :
    (set_parent m x v a).parent_ = if a = x then v else (m a).parent_ := by
  unfold set_parent
  split
  · rfl
  · rfl

@[simp] theorem set_parent_left (m : Nat → avl_tree_node) (x : Nat) (v : Nat) (a : Nat) :
    (set_parent m x v a).left_ = (m a).left_ := by
  unfold set_parent
  split
  · next h => rw [h]
  · rfl

@[simp] theorem set_parent_right (m : Nat → avl_tree_node) (x : Nat) (v : Nat) (a : Nat) :
    (set_parent m x v a).right_ = (m a).right_ := by
  unfold set_parent
  split
  · next h => rw [h]
  · rfl

@[simp] theorem set_parent_key (m : Nat → avl_tree_node) (x : Nat) (v : Nat) (a : Nat) :
    (set_parent m x v a).key = (m a).key := by
  unfold set_parent
  split
  · next h => rw [h]
  · rfl

@[simp] theorem set_parent_val (m : Nat → avl_tree_node) (x : Nat) (v : Nat) (a : Nat) :
    (set_parent m x v a).val = (m a).val := by
  unfold set_parent
  split
  · next h => rw [h]
  · rfl

@[simp] theorem set_left_height (m : Nat → avl_tree_node) (x : Nat) (v : Nat) (a : Nat) :
    (set_left m x v a).height_ = (m a).height_ := by
  unfold set_left
  split
  · next h => rw [h]
  · rfl

@[simp] theorem set_left_parent (m : Nat → avl_tree_node) (x : Nat) (v : Nat) (a : Nat) :
    (set_left m x v a).parent_ = (m a).parent_ := by
  unfold set_left
  split
  · next h => rw [h]
  · rfl

@[simp] theorem set_left_left (m : Nat → avl_tree_node) (x : Nat) (v : Nat) (a : Nat) :
    (set_left m x v a).left_ = if a = x then v else (m a).left_ := by
  unfold set_left
  split
  · rfl
  · rfl

@[simp] theorem set_left_right (m : Nat → avl_tree_node) (x : Nat) (v : Nat) (a : Nat) :
    (set_left m x v a).right_ = (m a).right_ := by
  unfold set_left
  split
  · next h => rw [h]
  · rfl

@[simp] theorem set_left_key (m : Nat → avl_tree_node) (x : Nat) (v : Nat) (a : Nat) :
    (set_left m x v a).key = (m a).key := by
  unfold set_left
  split
  · next h => rw [h]
  · rfl

@[simp] theorem set_left_val (m : Nat → avl_tree_node) (x : Nat) (v : Nat) (a : Nat) :
    (set_left m x v a).val = (m a).val := by
  unfold set_left
  split
  · next h => rw [h]
  · rfl

@[simp] theorem set_right_height (m : Nat → avl_tree_node) (x : Nat) (v : Nat) (a : Nat) :
    (set_right m x v a).height_ = (m a).height_ := by
  unfold set_right
  split
  · next h => rw [h]
  · rfl

@[simp] theorem set_right_parent (m : Nat → avl_tree_node) (x : Nat) (v : Nat) (a : Nat) :
    (set_right m x v a).parent_ = (m a).parent_ := by
  unfold set_right
  split
  · next h => rw [h]
  · rfl

@[simp] theorem set_right_left (m : Nat → avl_tree_node) (x : Nat) (v : Nat) (a : Nat) :
    (set_right m x v a).left_ = (m a).left_ := by
  unfold set_right
  split
  · next h => rw [h]
  · rfl

@[simp] theorem set_right_right (m : Nat → avl_tree_node) (x : Nat) (v : Nat) (a : Nat) :
    (set_right m x v a).right_ = if a = x then v else (m a).right_ := by
  unfold set_right
  split
  · rfl
  · rfl

@[simp] theorem set_right_key (m : Nat → avl_tree_node) (x : Nat) (v : Nat) (a : Nat) :
    (set_right m x v a).key = (m a).key := by
  unfold set_right
  split
  · next h => rw [h]
  · rfl

@[simp] theorem set_right_val (m : Nat → avl_tree_node) (x : Nat) (v : Nat) (a : Nat) :
    (set_right m x v a).val = (m a).val := by
  unfold set_right
  split
  · next h => rw [h]
  · rfl

theorem height_set_parent (m : Nat → avl_tree_node) (x v a : Nat) :
    height (set_parent m x v) a = height m a := by
  simp [height]

theorem height_set_left (m : Nat → avl_tree_node) (x v a : Nat) :
    height (set_left m x v) a = height m a := by
  simp [height]

theorem height_set_right (m : Nat → avl_tree_node) (x v a : Nat) :
    height (set_right m x v) a = height m a := by
  simp [height]

/-! ## Trees in the memory -/

theorem tr_ht_nonneg : ∀ t : tr, 0 ≤ t.ht
  | .nil => by simp [tr.ht]
  | .node l a r => by
    have h1 := tr_ht_nonneg l
    have h2 := tr_ht_nonneg r
    simp only [tr.ht]
    omega

theorem tr_ht_node_pos (l : tr) (a : Nat) (r : tr) : 1 ≤ (tr.node l a r).ht := by
  have h1 := tr_ht_nonneg l
  have h2 := tr_ht_nonneg r
  simp only [tr.ht]
  omega

theorem own_root_ne_zero {m : Nat → avl_tree_node} {l r : tr} {a par : Nat}
    (h : own m (tr.node l a r) par) : a ≠ 0 := h.1

theorem own_root_eq_zero {m : Nat → avl_tree_node} {t : tr} {par : Nat}
    (h : own m t par) : t.root = 0 ↔ t = tr.nil := by
  cases t with
  | nil => simp [tr.root]
  | node l a r => simp [tr.root, h.1]

theorem own_zero_not_mem {m : Nat → avl_tree_node} : ∀ (t : tr) (par : Nat),
    own m t par → 0 ∉ t.addrs
  | .nil, _, _ => by simp [tr.addrs]
  | .node l a r, par, h => by
    obtain ⟨h0, _, _, _, hl, hr⟩ := h
    have h1 := own_zero_not_mem l a hl
    have h2 := own_zero_not_mem r a hr
    simp only [tr.addrs, List.mem_append, List.mem_cons, not_or]
    exact ⟨h1, Ne.symm h0, h2⟩

theorem tr_root_mem (l : tr) (a : Nat) (r : tr) : a ∈ (tr.node l a r).addrs := by
  simp [tr.addrs]

theorem tr_root_mem_of_ne {t : tr} (h : t ≠ tr.nil) : t.root ∈ t.addrs := by
  cases t with
  | nil => exact absurd rfl h
  | node l a r => simp [tr.addrs, tr.root]

theorem own_frame {m m' : Nat → avl_tree_node} : ∀ (t : tr) (par : Nat),
    (∀ a ∈ t.addrs, (m' a).parent_ = (m a).parent_ ∧ (m' a).left_ = (m a).left_ ∧
      (m' a).right_ = (m a).right_) →
    own m t par → own m' t par
  | .nil, _, _, _ => trivial
  | .node l a r, par, hf, h => by
    obtain ⟨h0, hp, hl, hr, hol, hor⟩ := h
    have ha := hf a (tr_root_mem l a r)
    refine ⟨h0, ?_, ?_, ?_, ?_, ?_⟩
    · rw [ha.1]; exact hp
    · rw [ha.2.1]; exact hl
    · rw [ha.2.2]; exact hr
    · exact own_frame l a (fun b hb => hf b (by simp [tr.addrs, hb])) hol
    · exact own_frame r a (fun b hb => hf b (by simp [tr.addrs, hb])) hor

theorem own_move {m m' : Nat → avl_tree_node} (t : tr) (par par' : Nat)
    (hn : t.addrs.Nodup)
    (hl : ∀ a ∈ t.addrs, (m' a).left_ = (m a).left_ ∧ (m' a).right_ = (m a).right_)
    (hp : ∀ a ∈ t.addrs, a ≠ t.root → (m' a).parent_ = (m a).parent_)
    (hr : t.root ≠ 0 → (m' t.root).parent_ = par')
    (h : own m t par) : own m' t par' := by
  cases t with
  | nil => trivial
  | node l a r =>
    obtain ⟨h0, _, hl1, hr1, hol, hor⟩ := h
    simp only [tr.addrs, List.nodup_append, List.nodup_cons, List.mem_cons] at hn
    obtain ⟨_, ⟨har, _⟩, hd⟩ := hn
    have hal : a ∉ l.addrs := fun hc => hd hc (List.mem_cons_self _ _)
    have ha := hl a (tr_root_mem l a r)
    refine ⟨h0, hr h0, ?_, ?_, ?_, ?_⟩
    · rw [ha.1]; exact hl1
    · rw [ha.2]; exact hr1
    · refine own_frame l a (fun b hb => ?_) hol
      have hb1 : b ∈ (tr.node l a r).addrs := by simp [tr.addrs, hb]
      have hne : b ≠ a := fun hc => hal (hc ▸ hb)
      exact ⟨hp b hb1 hne, hl b hb1⟩
    · refine own_frame r a (fun b hb => ?_) hor
      have hb1 : b ∈ (tr.node l a r).addrs := by simp [tr.addrs, hb]
      have hne : b ≠ a := fun hc => har (hc ▸ hb)
      exact ⟨hp b hb1 hne, hl b hb1⟩

theorem hts_frame {m m' : Nat → avl_tree_node} : ∀ (t : tr),
    (∀ a ∈ t.addrs, (m' a).height_ = (m a).height_) → hts m t → hts m' t
  | .nil, _, _ => trivial
  | .node l a r, hf, h => by
    obtain ⟨h1, h2, h3⟩ := h
    refine ⟨?_, ?_, ?_⟩
    · exact hts_frame l (fun b hb => hf b (by simp [tr.addrs, hb])) h1
    · exact hts_frame r (fun b hb => hf b (by simp [tr.addrs, hb])) h2
    · rw [hf a (tr_root_mem l a r)]; exact h3

theorem height_root {m : Nat → avl_tree_node} {t : tr} {par : Nat}
    (ho : own m t par) (hh : hts m t) : height m t.root = t.ht := by
  cases t with
  | nil => simp [height, tr.root, tr.ht]
  | node l a r =>
    simp only [height, tr.root, tr.ht]
    rw [if_pos ho.1]
    exact hh.2.2

/-! ## Paths -/

theorem plug_addrs : ∀ (c : List frame) (t : tr),
    (plug c t).addrs = ctx_before c ++ t.addrs ++ ctx_after c
  | [], t => by simp [plug, ctx_before, ctx_after]
  | frame.L a r :: c, t => by
    simp [plug, ctx_before, ctx_after, plug_addrs c, tr.addrs]
  | frame.R l a :: c, t => by
    simp [plug, ctx_before, ctx_after, plug_addrs c, tr.addrs]

theorem plug_append : ∀ (c1 c2 : List frame) (t : tr),
    plug (c1 ++ c2) t = plug c2 (plug c1 t)
  | [], _, _ => rfl
  | frame.L a r :: c, c2, t => by simp [plug, plug_append c c2]
  | frame.R l a :: c, c2, t => by simp [plug, plug_append c c2]

theorem own_plug {m : Nat → avl_tree_node} : ∀ (c : List frame) (t : tr),
    (own m (plug c t) header ∧ (m header).parent_ = (plug c t).root) ↔
      (own m t (ctx_par c) ∧ own_ctx m c t.root)
  | [], t => by simp [plug, ctx_par, own_ctx]
  | frame.L a r :: c, t => by
    simp only [plug, ctx_par, own_ctx]
    rw [own_plug c (tr.node t a r)]
    simp only [own, tr.root]
    constructor
    · rintro ⟨⟨h0, hp, hl, hr, hol, hor⟩, hc⟩
      exact ⟨hol, h0, hp, hl, hr, hor, hc⟩
    · rintro ⟨hol, h0, hp, hl, hr, hor, hc⟩
      exact ⟨⟨h0, hp, hl, hr, hol, hor⟩, hc⟩
  | frame.R l a :: c, t => by
    simp only [plug, ctx_par, own_ctx]
    rw [own_plug c (tr.node l a t)]
    simp only [own, tr.root]
    constructor
    · rintro ⟨⟨h0, hp, hl, hr, hol, hor⟩, hc⟩
      exact ⟨hor, h0, hp, hl, hr, hol, hc⟩
    · rintro ⟨hor, h0, hp, hl, hr, hol, hc⟩
      exact ⟨⟨h0, hp, hl, hr, hol, hor⟩, hc⟩

theorem hts_plug {m : Nat → avl_tree_node} : ∀ (c : List frame) (t : tr),
    hts m (plug c t) ↔ (hts m t ∧ ctx_hts m c t.ht)
  | [], t => by simp [plug, ctx_hts]
  | frame.L a r :: c, t => by
    simp only [plug, ctx_hts]
    rw [hts_plug c (tr.node t a r)]
    simp only [hts, tr.ht]
    tauto
  | frame.R l a :: c, t => by
    simp only [plug, ctx_hts]
    rw [hts_plug c (tr.node l a t)]
    simp only [hts, tr.ht]
    tauto

theorem bal_plug : ∀ (c : List frame) (t : tr),
    (plug c t).bal ↔ (t.bal ∧ ctx_bal c t.ht)
  | [], t => by simp [plug, ctx_bal]
  | frame.L a r :: c, t => by
    simp only [plug, ctx_bal]
    rw [bal_plug c (tr.node t a r)]
    simp only [tr.bal, tr.ht]
    tauto
  | frame.R l a :: c, t => by
    simp only [plug, ctx_bal]
    rw [bal_plug c (tr.node l a t)]
    simp only [tr.bal, tr.ht]
    tauto

theorem own_ctx_frame {m m' : Nat → avl_tree_node} : ∀ (c : List frame) (x : Nat),
    (∀ a ∈ ctx_before c ++ ctx_after c, (m' a).parent_ = (m a).parent_ ∧
      (m' a).left_ = (m a).left_ ∧ (m' a).right_ = (m a).right_) →
    (m' header).parent_ = (m header).parent_ →
    own_ctx m c x → own_ctx m' c x
  | [], x, _, hh, h => by
    simp only [own_ctx] at h ⊢
    rw [hh]; exact h
  | frame.L a r :: c, x, hf, hh, h => by
    obtain ⟨h0, hp, hl, hr, hor, hc⟩ := h
    have ha := hf a (by simp [ctx_before, ctx_after])
    refine ⟨h0, ?_, ?_, ?_, ?_, ?_⟩
    · rw [ha.1]; exact hp
    · rw [ha.2.1]; exact hl
    · rw [ha.2.2]; exact hr
    · exact own_frame r a (fun b hb => hf b (by simp [ctx_before, ctx_after, hb])) hor
    · exact own_ctx_frame c a (fun b hb => hf b (by
        simp only [ctx_before, ctx_after, List.mem_append, List.mem_cons] at hb ⊢
        tauto)) hh hc
  | frame.R l a :: c, x, hf, hh, h => by
    obtain ⟨h0, hp, hl, hr, hol, hc⟩ := h
    have ha := hf a (by simp [ctx_before, ctx_after])
    refine ⟨h0, ?_, ?_, ?_, ?_, ?_⟩
    · rw [ha.1]; exact hp
    · rw [ha.2.1]; exact hl
    · rw [ha.2.2]; exact hr
    · exact own_frame l a (fun b hb => hf b (by simp [ctx_before, ctx_after, hb])) hol
    · exact own_ctx_frame c a (fun b hb => hf b (by
        simp only [ctx_before, ctx_after, List.mem_append, List.mem_cons] at hb ⊢
        tauto)) hh hc

theorem ctx_hts_frame {m m' : Nat → avl_tree_node} : ∀ (c : List frame) (h : Int),
    (∀ a ∈ ctx_before c ++ ctx_after c, (m' a).height_ = (m a).height_) →
    ctx_hts m c h → ctx_hts m' c h
  | [], _, _, _ => trivial
  | frame.L a r :: c, h, hf, hc => by
    obtain ⟨h1, h2, h3⟩ := hc
    refine ⟨?_, ?_, ?_⟩
    · exact hts_frame r (fun b hb => hf b (by simp [ctx_before, ctx_after, hb])) h1
    · rw [hf a (by simp [ctx_before, ctx_after])]; exact h2
    · exact ctx_hts_frame c _ (fun b hb => hf b (by
        simp only [ctx_before, ctx_after, List.mem_append, List.mem_cons] at hb ⊢
        tauto)) h3
  | frame.R l a :: c, h, hf, hc => by
    obtain ⟨h1, h2, h3⟩ := hc
    refine ⟨?_, ?_, ?_⟩
    · exact hts_frame l (fun b hb => hf b (by simp [ctx_before, ctx_after, hb])) h1
    · rw [hf a (by simp [ctx_before, ctx_after])]; exact h2
    · exact ctx_hts_frame c _ (fun b hb => hf b (by
        simp only [ctx_before, ctx_after, List.mem_append, List.mem_cons] at hb ⊢
        tauto)) h3

/-- Every node of a tree is the root of a subtree at the end of a path. -/
theorem exists_ctx : ∀ (t : tr) (a : Nat), a ∈ t.addrs →
    ∃ c l r, t = plug c (tr.node l a r)
  | .nil, a, h => by simp [tr.addrs] at h
  | .node l b r, a, h => by
    simp only [tr.addrs, List.mem_append, List.mem_cons] at h
    rcases h with h | h | h
    · obtain ⟨c, l1, r1, e⟩ := exists_ctx l a h
      refine ⟨c ++ [frame.L b r], l1, r1, ?_⟩
      rw [plug_append, ← e]; rfl
    · subst h
      exact ⟨[], l, r, rfl⟩
    · obtain ⟨c, l1, r1, e⟩ := exists_ctx r a h
      refine ⟨c ++ [frame.R l b], l1, r1, ?_⟩
      rw [plug_append, ← e]; rfl

/-! ## The rotations, store by store -/

theorem rotate_left_mem (m : Nat → avl_tree_node) (x p : Nat)
    (hx : x ≠ 0) (hp : p ≠ 0) (hxp : x ≠ p)
    (hg0 : (m p).parent_ ≠ 0) (hgx : (m p).parent_ ≠ x) (hgp : (m p).parent_ ≠ p)
    (hbx : (m x).left_ ≠ x) (hbp : (m x).left_ ≠ p) (hbg : (m x).left_ ≠ (m p).parent_)
    (hcp : (m x).right_ ≠ p) :
    ∃ m', avl_rotate_left m x p = some m' ∧
      (∀ a, (m' a).key = (m a).key ∧ (m' a).val = (m a).val) ∧
      (∀ a, a ≠ x → a ≠ p → (m' a).height_ = (m a).height_) ∧
      (m' p).height_ = max (height m (m p).left_) (height m (m x).left_) + 1 ∧
      (m' x).height_ = max ((m' p).height_) (height m (m x).right_) + 1 ∧
      (m' x).parent_ = (m p).parent_ ∧ (m' x).left_ = p ∧ (m' x).right_ = (m x).right_ ∧
      (m' p).parent_ = x ∧ (m' p).left_ = (m p).left_ ∧ (m' p).right_ = (m x).left_ ∧
      (∀ a, a ≠ x → a ≠ p → a ≠ (m p).parent_ →
        (m' a).left_ = (m a).left_ ∧ (m' a).right_ = (m a).right_ ∧
        (m' a).parent_ = if a = (m x).left_ ∧ a ≠ 0 then p else (m a).parent_) ∧
      repointed m m' (m p).parent_ p x := by
  unfold avl_rotate_left
  rw [if_neg (by simp [hx, hp])]
  refine ⟨_, rfl, ?_⟩
  have hxp' := hxp.symm
  have hgx' := hgx.symm
  have hgp' := hgp.symm
  have hbx' := hbx.symm
  have hbp' := hbp.symm
  have hbg' := hbg.symm
  by_cases hb : (m x).left_ = 0 <;> by_cases hg1 : (m (m p).parent_).parent_ = p <;>
    by_cases hg2 : (m (m p).parent_).left_ = p <;>
  · simp [hx, hp, hxp, hxp', hg0, hgx, hgp, hgx', hgp', hbx, hbp, hbg, hbx', hbp', hbg', hb, hg1,
      hg2, hcp, height, new_height, repointed]
    refine ⟨fun a h1 h2 => by simp [h1, h2], fun a h1 h2 h3 => ?_⟩
    by_cases h4 : a = (m x).left_
    · subst h4
      simp [h1, h2, h3, hb, hx.symm, hp.symm, hg0.symm, hbx', hbp', hbg']
    · simp [h1, h2, h3, h4]

theorem rotate_right_mem (m : Nat → avl_tree_node) (x p : Nat)
    (hx : x ≠ 0) (hp : p ≠ 0) (hxp : x ≠ p)
    (hg0 : (m p).parent_ ≠ 0) (hgx : (m p).parent_ ≠ x) (hgp : (m p).parent_ ≠ p)
    (hbx : (m x).right_ ≠ x) (hbp : (m x).right_ ≠ p) (hbg : (m x).right_ ≠ (m p).parent_) :
    ∃ m', avl_rotate_right m x p = some m' ∧
      (∀ a, (m' a).key = (m a).key ∧ (m' a).val = (m a).val) ∧
      (∀ a, (m' a).height_ = (m a).height_) ∧
      (m' x).parent_ = (m p).parent_ ∧ (m' x).right_ = p ∧ (m' x).left_ = (m x).left_ ∧
      (m' p).parent_ = x ∧ (m' p).right_ = (m p).right_ ∧ (m' p).left_ = (m x).right_ ∧
      (∀ a, a ≠ x → a ≠ p → a ≠ (m p).parent_ →
        (m' a).left_ = (m a).left_ ∧ (m' a).right_ = (m a).right_ ∧
        (m' a).parent_ = if a = (m x).right_ ∧ a ≠ 0 then p else (m a).parent_) ∧
      repointed m m' (m p).parent_ p x := by
  unfold avl_rotate_right
  rw [if_neg (by simp [hx, hp])]
  have hxp' := hxp.symm
  have hgx' := hgx.symm
  have hgp' := hgp.symm
  have hbx' := hbx.symm
  have hbp' := hbp.symm
  have hbg' := hbg.symm
  by_cases hb : (m x).right_ = 0 <;> by_cases hg1 : (m (m p).parent_).parent_ = p <;>
    by_cases hg2 : (m (m p).parent_).right_ = p <;>
  · simp [hx, hp, hxp, hxp', hg0, hgx, hgp, hgx', hgp', hbx, hbp, hbg, hbx', hbp', hbg', hb, hg1,
      hg2, repointed]
    intro a h1 h2 h3
    by_cases h4 : a = (m x).right_
    · subst h4
      simp [h1, h2, h3, hb, hx.symm, hp.symm, hg0.symm, hbx', hbp', hbg']
    · simp [h1, h2, h3, h4]

/-! ## Separation of the addresses of a tree -/

theorem ctx_par_cases (c : List frame) :
    (c = [] ∧ ctx_par c = header) ∨ (c ≠ [] ∧ ctx_par c ∈ ctx_before c ++ ctx_after c) := by
  cases c with
  | nil => left; exact ⟨rfl, rfl⟩
  | cons f c =>
    right
    cases f <;> simp [ctx_par, ctx_before, ctx_after]

theorem root_cases (t : tr) : (t = tr.nil ∧ t.root = 0) ∨ (t ≠ tr.nil ∧ t.root ∈ t.addrs) := by
  cases t with
  | nil => left; exact ⟨rfl, rfl⟩
  | node l a r => right; simp [tr.root, tr.addrs]

theorem header_ne_zero : header ≠ 0 := by decide

theorem own_ctx_par_ne_zero {m : Nat → avl_tree_node} {c : List frame} {x : Nat}
    (h : own_ctx m c x) : ctx_par c ≠ 0 := by
  cases c with
  | nil => exact header_ne_zero
  | cons f c =>
    cases f with
    | L a r => exact h.1
    | R l a => exact h.1

/-- The facts of separation for a subtree at the end of a path. -/
theorem sep_split {c : List frame} {t : tr}
    (hnd : (header :: (plug c t).addrs).Nodup) :
    t.addrs.Nodup ∧ (ctx_before c ++ ctx_after c).Nodup ∧
      (∀ a ∈ t.addrs, a ∉ ctx_before c ++ ctx_after c) ∧
      header ∉ t.addrs ∧ header ∉ ctx_before c ++ ctx_after c := by
  rw [plug_addrs] at hnd
  simp only [List.nodup_cons, List.nodup_append, List.mem_append, not_or,
    List.disjoint_left] at hnd ⊢
  obtain ⟨⟨⟨h1, h2⟩, h3⟩, ⟨h4, h5, h6⟩, h7, h8⟩ := hnd
  refine ⟨h5, ⟨h4, h7, ?_⟩, ?_, h2, h1, h3⟩
  · intro a ha
    exact h8 (Or.inl ha)
  · intro a ha
    exact ⟨fun hb => h6 hb ha, h8 (Or.inr ha)⟩

theorem sep_join {c : List frame} {t : tr}
    (h1 : t.addrs.Nodup) (h2 : (ctx_before c ++ ctx_after c).Nodup)
    (h3 : ∀ a ∈ t.addrs, a ∉ ctx_before c ++ ctx_after c)
    (h4 : header ∉ t.addrs) (h5 : header ∉ ctx_before c ++ ctx_after c) :
    (header :: (plug c t).addrs).Nodup := by
  rw [plug_addrs]
  simp only [List.nodup_cons, List.nodup_append, List.mem_append, not_or,
    List.disjoint_left] at h2 h3 h5 ⊢
  refine ⟨⟨⟨h5.1, h4⟩, h5.2⟩, ⟨h2.1, h1, ?_⟩, h2.2.1, ?_⟩
  · intro a ha hb
    exact (h3 a hb).1 ha
  · intro a ha
    rcases ha with ha | ha
    · exact h2.2.2 ha
    · exact (h3 a ha).2

/-- Separation depends on the addresses of the subtree only. -/
theorem sep_congr {c : List frame} {t t' : tr} (e : ∀ a, a ∈ t'.addrs ↔ a ∈ t.addrs)
    (hn : t'.addrs.Nodup)
    (hnd : (header :: (plug c t).addrs).Nodup) : (header :: (plug c t').addrs).Nodup := by
  obtain ⟨_, h2, h3, h4, h5⟩ := sep_split hnd
  exact sep_join hn h2 (fun a ha => h3 a ((e a).1 ha)) (fun h => h4 ((e _).1 h)) h5

theorem ctx_par_not_mem {c : List frame} {t : tr}
    (hnd : (header :: (plug c t).addrs).Nodup) : ctx_par c ∉ t.addrs := by
  obtain ⟨_, _, h3, h4, _⟩ := sep_split hnd
  rcases ctx_par_cases c with ⟨_, h⟩ | ⟨_, h⟩
  · rw [h]; exact h4
  · exact fun hc => h3 _ hc h

theorem nodup_mid {u v : List Nat} {g : Nat} (h : (u ++ g :: v).Nodup) (a : Nat)
    (ha : a ∈ u ++ v) : a ≠ g := by
  simp only [List.nodup_append, List.nodup_cons, List.mem_append, List.disjoint_left,
    List.mem_cons, not_or] at h ha
  obtain ⟨_, ⟨h2, _⟩, h3⟩ := h
  rcases ha with ha | ha
  · exact (h3 ha).1
  · exact fun e => h2 (e ▸ ha)

theorem own_ctx_repoint {m m' : Nat → avl_tree_node} (c : List frame) (p x : Nat) (hp0 : p ≠ 0)
    (hn : (ctx_before c ++ ctx_after c).Nodup)
    (hpc : p ∉ ctx_before c ++ ctx_after c) (hph : p ≠ header)
    (hc : own_ctx m c p)
    (hf : ∀ a ∈ ctx_before c ++ ctx_after c, a ≠ ctx_par c →
      (m' a).parent_ = (m a).parent_ ∧ (m' a).left_ = (m a).left_ ∧ (m' a).right_ = (m a).right_)
    (hhd : c ≠ [] → (m' header).parent_ = (m header).parent_)
    (hr : repointed m m' (ctx_par c) p x) : own_ctx m' c x := by
  cases c with
  | nil =>
    simp only [own_ctx, ctx_par] at hc ⊢
    exact (hr.1 hc).1
  | cons f c =>
    have hhd1 := hhd (List.cons_ne_nil _ _)
    cases f with
    | L g r =>
      obtain ⟨h0, hpar, hl, hrr, hor, hcc⟩ := hc
      simp only [ctx_par] at hr hf
      have hgp : (m g).parent_ ≠ p := by
        rw [hpar]
        rcases ctx_par_cases c with ⟨_, h⟩ | ⟨_, h⟩
        · rw [h]; exact hph.symm
        · intro e
          rw [e] at h
          apply hpc
          simp only [ctx_before, ctx_after, List.mem_append, List.mem_cons] at h ⊢
          tauto
      have hrp : (m g).right_ ≠ p := by
        rw [hrr]
        rcases root_cases r with ⟨_, h⟩ | ⟨_, h⟩
        · rw [h]; exact hp0.symm
        · intro e
          rw [e] at h
          apply hpc
          simp only [ctx_before, ctx_after, List.mem_append, List.mem_cons]
          tauto
      obtain ⟨e1, e2, e3⟩ := hr.2.1 hgp hl hrp
      have hn1 : (ctx_before c ++ g :: (r.addrs ++ ctx_after c)).Nodup := by
        simpa [ctx_before, ctx_after] using hn
      have hg := nodup_mid hn1
      refine ⟨h0, ?_, e2, ?_, ?_, ?_⟩
      · rw [e1]; exact hpar
      · rw [e3]; exact hrr
      · refine own_frame r g (fun a ha => hf a ?_ ?_) hor
        · simp [ctx_before, ctx_after, ha]
        · exact hg a (by simp [ha])
      · refine own_ctx_frame c g (fun a ha => hf a ?_ ?_) hhd1 hcc
        · simp only [ctx_before, ctx_after, List.mem_append, List.mem_cons] at ha ⊢
          tauto
        · refine hg a ?_
          simp only [List.mem_append] at ha ⊢
          tauto
    | R l g =>
      obtain ⟨h0, hpar, hl, hrr, hol, hcc⟩ := hc
      simp only [ctx_par] at hr hf
      have hgp : (m g).parent_ ≠ p := by
        rw [hpar]
        rcases ctx_par_cases c with ⟨_, h⟩ | ⟨_, h⟩
        · rw [h]; exact hph.symm
        · intro e
          rw [e] at h
          apply hpc
          simp only [ctx_before, ctx_after, List.mem_append, List.mem_cons] at h ⊢
          tauto
      have hlp : (m g).left_ ≠ p := by
        rw [hl]
        rcases root_cases l with ⟨_, h⟩ | ⟨_, h⟩
        · rw [h]; exact hp0.symm
        · intro e
          rw [e] at h
          apply hpc
          simp only [ctx_before, ctx_after, List.mem_append, List.mem_cons]
          tauto
      obtain ⟨e1, e2, e3⟩ := hr.2.2 hgp hrr hlp
      have hn1 : ((ctx_before c ++ l.addrs) ++ g :: ctx_after c).Nodup := by
        simpa [ctx_before, ctx_after] using hn
      have hg := nodup_mid hn1
      refine ⟨h0, ?_, ?_, e3, ?_, ?_⟩
      · rw [e1]; exact hpar
      · rw [e2]; exact hl
      · refine own_frame l g (fun a ha => hf a ?_ ?_) hol
        · simp [ctx_before, ctx_after, ha]
        · exact hg a (by simp [ha])
      · refine own_ctx_frame c g (fun a ha => hf a ?_ ?_) hhd1 hcc
        · simp only [ctx_before, ctx_after, List.mem_append, List.mem_cons] at ha ⊢
          tauto
        · refine hg a ?_
          simp only [List.mem_append] at ha ⊢
          tauto

theorem nodup_two {o R i S e : List Nat} (h : (o ++ (R ++ (i ++ (S ++ e)))).Nodup) :
    ∀ a ∈ R, a ∉ S := by
  simp only [List.nodup_append, List.mem_append, List.disjoint_left, not_or] at h
  intro a ha
  exact (h.2.1.2.2 ha).2.1

theorem root_ne {t : tr} {u : Nat} (h0 : u ≠ 0) (h : ∀ a ∈ t.addrs, a ≠ u) : t.root ≠ u := by
  rcases root_cases t with ⟨_, e⟩ | ⟨_, e⟩
  · rw [e]; exact h0.symm
  · exact h _ e

theorem root_not_both {t : tr} {a : Nat} (h : a ∉ t.addrs) : ¬ (a = t.root ∧ a ≠ 0) := by
  rintro ⟨e, h0⟩
  rcases root_cases t with ⟨_, e1⟩ | ⟨_, e1⟩
  · exact h0 (e.trans e1)
  · exact h (e ▸ e1)

/-! ## The rotations on trees -/

theorem rotate_left_own (m : Nat → avl_tree_node) (c : List frame) (A B C : tr) (p x : Nat)
    (hnd : (header :: (plug c (tr.node A p (tr.node B x C))).addrs).Nodup)
    (hown : own m (tr.node A p (tr.node B x C)) (ctx_par c)) (hctx : own_ctx m c p) :
    ∃ m', avl_rotate_left m x p = some m' ∧
      own m' (tr.node (tr.node A p B) x C) (ctx_par c) ∧ own_ctx m' c x ∧
      (∀ a, (m' a).key = (m a).key ∧ (m' a).val = (m a).val) ∧
      (∀ a, a ≠ x → a ≠ p → (m' a).height_ = (m a).height_) ∧
      (m' p).height_ = max (height m A.root) (height m B.root) + 1 ∧
      (m' x).height_ = max ((m' p).height_) (height m C.root) + 1 ∧
      (m' header).left_ = (m header).left_ ∧ (m' header).right_ = (m header).right_ := by
  obtain ⟨hp0, hpp, hpl, hpr, hoA, hx0, hxp, hxl, hxr, hoB, hoC⟩ := hown
  simp only [tr.root] at hpr
  obtain ⟨hn1, hn2, hn3, hn4, hn5⟩ := sep_split hnd
  have hG : ∀ a ∈ (tr.node A p (tr.node B x C)).addrs, a ≠ ctx_par c :=
    fun a ha e => ctx_par_not_mem hnd (e ▸ ha)
  simp only [tr.addrs] at hn1 hn3 hn4 hG
  have hP := nodup_mid (u := A.addrs) (v := B.addrs ++ x :: C.addrs) (g := p) hn1
  have hX := nodup_mid (u := A.addrs ++ p :: B.addrs) (v := C.addrs) (g := x)
    (by simpa using hn1)
  have hAB : ∀ a ∈ A.addrs, a ∉ B.addrs :=
    nodup_two (o := []) (i := [p]) (e := x :: C.addrs) (by simpa using hn1)
  have hBC : ∀ a ∈ B.addrs, a ∉ C.addrs :=
    nodup_two (o := A.addrs ++ [p]) (i := [x]) (e := []) (by simpa using hn1)
  have hg0 := own_ctx_par_ne_zero hctx
  have hxp1 : x ≠ p := hP x (by simp)
  have hgx : ctx_par c ≠ x := (hG x (by simp)).symm
  have hgp : ctx_par c ≠ p := (hG p (by simp)).symm
  obtain ⟨m', e, hkey, hht, hhp, hhx, hx1, hx2, hx3, hp1, hp2, hp3, hoth, hrep⟩ :=
    rotate_left_mem m x p hx0 hp0 hxp1 (by rw [hpp]; exact hg0) (by rw [hpp]; exact hgx)
      (by rw [hpp]; exact hgp)
      (by rw [hxl]; exact root_ne hx0 (fun a ha => hX a (by simp [ha])))
      (by rw [hxl]; exact root_ne hp0 (fun a ha => hP a (by simp [ha])))
      (by rw [hxl, hpp]; exact root_ne hg0 (fun a ha => hG a (by simp [ha])))
      (by rw [hxr]; exact root_ne hp0 (fun a ha => hP a (by simp [ha])))
  rw [hpp] at hoth hrep hx1
  rw [hxl] at hoth hhp hp3
  rw [hpl] at hhp hp2
  rw [hxr] at hhx hx3
  have hsame : ∀ a, a ≠ x → a ≠ p → a ≠ ctx_par c → a ∉ B.addrs →
      (m' a).parent_ = (m a).parent_ ∧ (m' a).left_ = (m a).left_ ∧
        (m' a).right_ = (m a).right_ := by
    intro a h1 h2 h3 h4
    obtain ⟨e1, e2, e3⟩ := hoth a h1 h2 h3
    rw [if_neg (root_not_both h4)] at e3
    exact ⟨e3, e1, e2⟩
  refine ⟨m', e, ⟨hx0, hx1, hx2, hx3, ⟨hp0, hp1, hp2, hp3, ?_, ?_⟩, ?_⟩, ?_, hkey, hht, hhp, hhx,
    ?_⟩
  · exact own_frame A p (fun a ha => hsame a (hX a (by simp [ha])) (hP a (by simp [ha]))
      (hG a (by simp [ha])) (hAB a ha)) hoA
  · refine own_move B x p ?_ ?_ ?_ ?_ hoB
    · exact (List.nodup_append.1 (List.nodup_cons.1 (List.nodup_append.1 hn1).2.1).2).1
    · intro a ha
      obtain ⟨e1, e2, _⟩ := hoth a (hX a (by simp [ha])) (hP a (by simp [ha]))
        (hG a (by simp [ha]))
      exact ⟨e1, e2⟩
    · intro a ha hne
      obtain ⟨_, _, e3⟩ := hoth a (hX a (by simp [ha])) (hP a (by simp [ha]))
        (hG a (by simp [ha]))
      rw [if_neg (fun h => hne h.1)] at e3
      exact e3
    · intro hne
      have hmem : B.root ∈ B.addrs := by
        rcases root_cases B with ⟨_, e1⟩ | ⟨_, e1⟩
        · exact absurd e1 hne
        · exact e1
      obtain ⟨_, _, e3⟩ := hoth B.root (hX _ (by simp [hmem])) (hP _ (by simp [hmem]))
        (hG _ (by simp [hmem]))
      rw [if_pos ⟨rfl, hne⟩] at e3
      exact e3
  · exact own_frame C x (fun a ha => hsame a (hX a (by simp [ha])) (hP a (by simp [ha]))
      (hG a (by simp [ha])) (fun hb => hBC a hb ha)) hoC
  · refine own_ctx_repoint c p x hp0 hn2 (hn3 p (by simp)) (fun e => hn4 (by simp [← e]))
      hctx ?_ ?_ hrep
    · intro a ha hne
      have hna : ∀ b, b ∈ A.addrs ++ p :: (B.addrs ++ x :: C.addrs) → a ≠ b :=
        fun b hb e => hn3 b hb (e ▸ ha)
      exact hsame a (hna x (by simp)) (hna p (by simp)) hne
        (fun hb => hna a (by simp [hb]) rfl)
    · intro hc
      have hgm : ctx_par c ∈ ctx_before c ++ ctx_after c := by
        rcases ctx_par_cases c with ⟨h, _⟩ | ⟨_, h⟩
        · exact absurd h hc
        · exact h
      exact (hsame header (fun e => hn4 (by simp [← e])) (fun e => hn4 (by simp [← e]))
        (fun e => hn5 (e ▸ hgm)) (fun hb => hn4 (by simp [hb]))).1
  · rcases ctx_par_cases c with ⟨hc, hg⟩ | ⟨hc, hg⟩
    · rw [hg] at hrep
      subst hc
      have := hrep.1 hctx
      exact ⟨this.2.1, this.2.2⟩
    · have := hsame header (fun e => hn4 (by simp [← e])) (fun e => hn4 (by simp [← e]))
        (fun e => hn5 (e ▸ hg)) (fun hb => hn4 (by simp [hb]))
      exact ⟨this.2.1, this.2.2⟩

theorem rotate_right_own (m : Nat → avl_tree_node) (c : List frame) (A B C : tr) (p x : Nat)
    (hnd : (header :: (plug c (tr.node (tr.node A x B) p C)).addrs).Nodup)
    (hown : own m (tr.node (tr.node A x B) p C) (ctx_par c)) (hctx : own_ctx m c p) :
    ∃ m', avl_rotate_right m x p = some m' ∧
      own m' (tr.node A x (tr.node B p C)) (ctx_par c) ∧ own_ctx m' c x ∧
      (∀ a, (m' a).key = (m a).key ∧ (m' a).val = (m a).val) ∧
      (∀ a, (m' a).height_ = (m a).height_) ∧
      (m' header).left_ = (m header).left_ ∧ (m' header).right_ = (m header).right_ := by
  obtain ⟨hp0, hpp, hpl, hpr, ⟨hx0, hxp, hxl, hxr, hoA, hoB⟩, hoC⟩ := hown
  simp only [tr.root] at hpl
  obtain ⟨hn1, hn2, hn3, hn4, hn5⟩ := sep_split hnd
  have hG : ∀ a ∈ (tr.node (tr.node A x B) p C).addrs, a ≠ ctx_par c :=
    fun a ha e => ctx_par_not_mem hnd (e ▸ ha)
  simp only [tr.addrs] at hn1 hn3 hn4 hG
  have hP := nodup_mid (u := A.addrs ++ x :: B.addrs) (v := C.addrs) (g := p) hn1
  have hX := nodup_mid (u := A.addrs) (v := B.addrs ++ p :: C.addrs) (g := x)
    (by simpa using hn1)
  have hAB : ∀ a ∈ A.addrs, a ∉ B.addrs :=
    nodup_two (o := []) (i := [x]) (e := p :: C.addrs) (by simpa using hn1)
  have hBC : ∀ a ∈ B.addrs, a ∉ C.addrs :=
    nodup_two (o := A.addrs ++ [x]) (i := [p]) (e := []) (by simpa using hn1)
  have hg0 := own_ctx_par_ne_zero hctx
  have hxp1 : x ≠ p := hP x (by simp)
  have hgx : ctx_par c ≠ x := (hG x (by simp)).symm
  have hgp : ctx_par c ≠ p := (hG p (by simp)).symm
  obtain ⟨m', e, hkey, hht, hx1, hx2, hx3, hp1, hp2, hp3, hoth, hrep⟩ :=
    rotate_right_mem m x p hx0 hp0 hxp1 (by rw [hpp]; exact hg0) (by rw [hpp]; exact hgx)
      (by rw [hpp]; exact hgp)
      (by rw [hxr]; exact root_ne hx0 (fun a ha => hX a (by simp [ha])))
      (by rw [hxr]; exact root_ne hp0 (fun a ha => hP a (by simp [ha])))
      (by rw [hxr, hpp]; exact root_ne hg0 (fun a ha => hG a (by simp [ha])))
  rw [hpp] at hoth hrep hx1
  rw [hxr] at hoth hp3
  rw [hpr] at hp2
  rw [hxl] at hx3
  have hsame : ∀ a, a ≠ x → a ≠ p → a ≠ ctx_par c → a ∉ B.addrs →
      (m' a).parent_ = (m a).parent_ ∧ (m' a).left_ = (m a).left_ ∧
        (m' a).right_ = (m a).right_ := by
    intro a h1 h2 h3 h4
    obtain ⟨e1, e2, e3⟩ := hoth a h1 h2 h3
    rw [if_neg (root_not_both h4)] at e3
    exact ⟨e3, e1, e2⟩
  refine ⟨m', e, ⟨hx0, hx1, hx3, hx2, ?_, ⟨hp0, hp1, hp3, hp2, ?_, ?_⟩⟩, ?_, hkey, hht, ?_⟩
  · exact own_frame A x (fun a ha => hsame a (hX a (by simp [ha])) (hP a (by simp [ha]))
      (hG a (by simp [ha])) (hAB a ha)) hoA
  · refine own_move B x p ?_ ?_ ?_ ?_ hoB
    · exact (List.nodup_cons.1 (List.nodup_append.1 (List.nodup_append.1 hn1).1).2.1).2
    · intro a ha
      obtain ⟨e1, e2, _⟩ := hoth a (hX a (by simp [ha])) (hP a (by simp [ha]))
        (hG a (by simp [ha]))
      exact ⟨e1, e2⟩
    · intro a ha hne
      obtain ⟨_, _, e3⟩ := hoth a (hX a (by simp [ha])) (hP a (by simp [ha]))
        (hG a (by simp [ha]))
      rw [if_neg (fun h => hne h.1)] at e3
      exact e3
    · intro hne
      have hmem : B.root ∈ B.addrs := by
        rcases root_cases B with ⟨_, e1⟩ | ⟨_, e1⟩
        · exact absurd e1 hne
        · exact e1
      obtain ⟨_, _, e3⟩ := hoth B.root (hX _ (by simp [hmem])) (hP _ (by simp [hmem]))
        (hG _ (by simp [hmem]))
      rw [if_pos ⟨rfl, hne⟩] at e3
      exact e3
  · exact own_frame C p (fun a ha => hsame a (hX a (by simp [ha])) (hP a (by simp [ha]))
      (hG a (by simp [ha])) (fun hb => hBC a hb ha)) hoC
  · refine own_ctx_repoint c p x hp0 hn2 (hn3 p (by simp)) (fun e => hn4 (by simp [← e]))
      hctx ?_ ?_ hrep
    · intro a ha hne
      have hna : ∀ b, b ∈ (A.addrs ++ x :: B.addrs) ++ p :: C.addrs → a ≠ b :=
        fun b hb e => hn3 b hb (e ▸ ha)
      exact hsame a (hna x (by simp)) (hna p (by simp)) hne
        (fun hb => hna a (by simp [hb]) rfl)
    · intro hc
      have hgm : ctx_par c ∈ ctx_before c ++ ctx_after c := by
        rcases ctx_par_cases c with ⟨h, _⟩ | ⟨_, h⟩
        · exact absurd h hc
        · exact h
      exact (hsame header (fun e => hn4 (by simp [← e])) (fun e => hn4 (by simp [← e]))
        (fun e => hn5 (e ▸ hgm)) (fun hb => hn4 (by simp [hb]))).1
  · rcases ctx_par_cases c with ⟨hc, hg⟩ | ⟨hc, hg⟩
    · rw [hg] at hrep
      subst hc
      have := hrep.1 hctx
      exact ⟨this.2.1, this.2.2⟩
    · have := hsame header (fun e => hn4 (by simp [← e])) (fun e => hn4 (by simp [← e]))
        (fun e => hn5 (e ▸ hg)) (fun hb => hn4 (by simp [hb]))
      exact ⟨this.2.1, this.2.2⟩

/-! ## The stores of heights -/

theorem own_set_height {m : Nat → avl_tree_node} (x : Nat) (h : Int) (t : tr) (par : Nat)
    (ho : own m t par) : own (set_height m x h) t par :=
  own_frame t par (fun a _ => by simp) ho

theorem own_ctx_set_height {m : Nat → avl_tree_node} (x : Nat) (h : Int) (c : List frame)
    (y : Nat) (ho : own_ctx m c y) : own_ctx (set_height m x h) c y :=
  own_ctx_frame c y (fun a _ => by simp) (by simp) ho

theorem hts_set_height {m : Nat → avl_tree_node} (x : Nat) (h : Int) (t : tr)
    (hx : x ∉ t.addrs) (ht : hts m t) : hts (set_height m x h) t :=
  hts_frame t (fun a ha => by
    have : a ≠ x := fun e => hx (e ▸ ha)
    simp [this]) ht

theorem hts_fix (m : Nat → avl_tree_node) (l : tr) (a : Nat) (r : tr) (par : Nat)
    (ho : own m (tr.node l a r) par) (hl : hts m l) (hr : hts m r)
    (hal : a ∉ l.addrs) (har : a ∉ r.addrs) :
    hts (set_height m a (new_height m a)) (tr.node l a r) := by
  obtain ⟨_, _, e1, e2, ol, or⟩ := ho
  refine ⟨hts_set_height a _ l hal hl, hts_set_height a _ r har hr, ?_⟩
  simp only [set_height_height, if_true, new_height]
  rw [e1, e2, height_root ol hl, height_root or hr]

theorem replaced_addrs_ne {t : tr} {a b : Nat} (ha : a ∉ t.addrs) (hb : b ∈ t.addrs) :
    a ≠ b := fun e => ha (e ▸ hb)

/-! ## The four cases of the switch -/

theorem rotate_fix_left_left (m : Nat → avl_tree_node) (c : List frame) (A B D : tr)
    (x p g : Nat)
    (hnd : (header :: (plug c (tr.node (tr.node A p B) g D)).addrs).Nodup)
    (hown : own m (tr.node (tr.node A p B) g D) (ctx_par c)) (hctx : own_ctx m c g)
    (hA : hts m A) (hB : hts m B) (hD : hts m D) :
    ∃ m', rotate_fix m left_left x p g = some (m', p) ∧
      replaced m m' c (tr.node (tr.node A p B) g D) (tr.node A p (tr.node B g D)) := by
  obtain ⟨m1, e, ho, hc, hkey, hht, hl, hr⟩ := rotate_right_own m c A B D g p hnd hown hctx
  obtain ⟨hn1, _, _, _, _⟩ := sep_split hnd
  simp only [tr.addrs] at hn1
  have hP := nodup_mid (u := A.addrs) (v := B.addrs ++ g :: D.addrs) (g := p)
    (by simpa using hn1)
  have hG := nodup_mid (u := A.addrs ++ p :: B.addrs) (v := D.addrs) (g := g) hn1
  have hp0 : p ≠ 0 := ho.1
  have hA1 : hts m1 A := hts_frame A (fun a _ => hht a) hA
  have hB1 : hts m1 B := hts_frame B (fun a _ => hht a) hB
  have hD1 : hts m1 D := hts_frame D (fun a _ => hht a) hD
  have hgB : g ∉ B.addrs := fun h => hG g (by simp [h]) rfl
  have hgD : g ∉ D.addrs := fun h => hG g (by simp [h]) rfl
  have hgA : g ∉ A.addrs := fun h => hG g (by simp [h]) rfl
  have hpA : p ∉ A.addrs := fun h => hP p (by simp [h]) rfl
  have hpB : p ∉ B.addrs := fun h => hP p (by simp [h]) rfl
  have hpD : p ∉ D.addrs := fun h => hP p (by simp [h]) rfl
  have hpg : p ≠ g := hG p (by simp)
  have h3 := hts_fix m1 B g D p ho.2.2.2.2.2 hB1 hD1 hgB hgD
  have ho3 := own_set_height g (new_height m1 g) _ _ ho
  have h4 := hts_fix _ A p (tr.node B g D) (ctx_par c) ho3 (hts_set_height g _ A hgA hA1) h3 hpA
    (by simp [tr.addrs, hpB, hpD, hpg])
  refine ⟨_, ?_, own_set_height p _ _ _ ho3, own_ctx_set_height p _ _ _
    (own_ctx_set_height g _ _ _ hc), h4, ?_, ?_, ?_, ?_⟩
  · simp [rotate_fix, rotate_switch, left_left, right_right, left_right, right_left, e, hp0]
  · intro a
    simpa using hkey a
  · intro a ha
    have h1 : a ≠ p := replaced_addrs_ne ha (by simp [tr.addrs])
    have h2 : a ≠ g := replaced_addrs_ne ha (by simp [tr.addrs])
    simp [h1, h2, hht a]
  · simpa using hl
  · simpa using hr

theorem rotate_fix_right_right (m : Nat → avl_tree_node) (c : List frame) (A B D : tr)
    (x p g : Nat)
    (hnd : (header :: (plug c (tr.node A g (tr.node B p D))).addrs).Nodup)
    (hown : own m (tr.node A g (tr.node B p D)) (ctx_par c)) (hctx : own_ctx m c g)
    (hA : hts m A) (hB : hts m B) (hD : hts m D) :
    ∃ m', rotate_fix m right_right x p g = some (m', p) ∧
      replaced m m' c (tr.node A g (tr.node B p D)) (tr.node (tr.node A g B) p D) := by
  obtain ⟨m1, e, ho, hc, hkey, hht, _, _, hl, hr⟩ :=
    rotate_left_own m c A B D g p hnd hown hctx
  obtain ⟨hn1, _, _, _, _⟩ := sep_split hnd
  simp only [tr.addrs] at hn1
  have hG := nodup_mid (u := A.addrs) (v := B.addrs ++ p :: D.addrs) (g := g) hn1
  have hP := nodup_mid (u := A.addrs ++ g :: B.addrs) (v := D.addrs) (g := p)
    (by simpa using hn1)
  have hp0 : p ≠ 0 := ho.1
  have hgB : g ∉ B.addrs := fun h => hG g (by simp [h]) rfl
  have hgD : g ∉ D.addrs := fun h => hG g (by simp [h]) rfl
  have hgA : g ∉ A.addrs := fun h => hG g (by simp [h]) rfl
  have hpA : p ∉ A.addrs := fun h => hP p (by simp [h]) rfl
  have hpB : p ∉ B.addrs := fun h => hP p (by simp [h]) rfl
  have hpD : p ∉ D.addrs := fun h => hP p (by simp [h]) rfl
  have hpg : p ≠ g := hG p (by simp)
  have hA1 : hts m1 A := hts_frame A (fun a ha => hht a (fun e => hpA (e ▸ ha))
    (fun e => hgA (e ▸ ha))) hA
  have hB1 : hts m1 B := hts_frame B (fun a ha => hht a (fun e => hpB (e ▸ ha))
    (fun e => hgB (e ▸ ha))) hB
  have hD1 : hts m1 D := hts_frame D (fun a ha => hht a (fun e => hpD (e ▸ ha))
    (fun e => hgD (e ▸ ha))) hD
  have h3 := hts_fix m1 A g B p ho.2.2.2.2.1 hA1 hB1 hgA hgB
  have ho3 := own_set_height g (new_height m1 g) _ _ ho
  have h4 := hts_fix _ (tr.node A g B) p D (ctx_par c) ho3 h3 (hts_set_height g _ D hgD hD1)
    (by simp [tr.addrs, hpA, hpB, hpg]) hpD
  refine ⟨_, ?_, own_set_height p _ _ _ ho3, own_ctx_set_height p _ _ _
    (own_ctx_set_height g _ _ _ hc), h4, ?_, ?_, ?_, ?_⟩
  · simp [rotate_fix, rotate_switch, right_right, e, hp0]
  · intro a
    simpa using hkey a
  · intro a ha
    have h1 : a ≠ p := replaced_addrs_ne ha (by simp [tr.addrs])
    have h2 : a ≠ g := replaced_addrs_ne ha (by simp [tr.addrs])
    simp [h1, h2, hht a h1 h2]
  · simpa using hl
  · simpa using hr

theorem rotate_fix_left_right (m : Nat → avl_tree_node) (c : List frame) (A B C D : tr)
    (x p g : Nat)
    (hnd : (header :: (plug c (tr.node (tr.node A p (tr.node B x C)) g D)).addrs).Nodup)
    (hown : own m (tr.node (tr.node A p (tr.node B x C)) g D) (ctx_par c))
    (hctx : own_ctx m c g)
    (hA : hts m A) (hB : hts m B) (hC : hts m C) (hD : hts m D) :
    ∃ m', rotate_fix m left_right x p g = some (m', x) ∧
      replaced m m' c (tr.node (tr.node A p (tr.node B x C)) g D)
        (tr.node (tr.node A p B) x (tr.node C g D)) := by
  obtain ⟨hg0, hgp, hgl, hgr, hop, hoD⟩ := hown
  simp only [tr.root] at hgl
  obtain ⟨m1, e1, ho1, hc1, hkey1, hht1, _, _, hl1, hr1⟩ :=
    rotate_left_own m (frame.L g D :: c) A B C p x hnd hop ⟨hg0, hgp, hgl, hgr, hoD, hctx⟩
  obtain ⟨_, hgp1, hgl1, hgr1, hoD1, hcc1⟩ := hc1
  obtain ⟨hn1, _, _, _, _⟩ := sep_split hnd
  have hnd2 : (header :: (plug c (tr.node (tr.node (tr.node A p B) x C) g D)).addrs).Nodup :=
    sep_congr (fun a => by simp [tr.addrs]) (by simpa [tr.addrs] using hn1) hnd
  obtain ⟨m2, e2, ho2, hc2, hkey2, hht2, hl2, hr2⟩ :=
    rotate_right_own m1 c (tr.node A p B) C D g x hnd2 ⟨hg0, hgp1, hgl1, hgr1, ho1, hoD1⟩ hcc1
  simp only [tr.addrs] at hn1
  have hP := nodup_mid (u := A.addrs) (v := B.addrs ++ x :: (C.addrs ++ g :: D.addrs)) (g := p)
    (by simpa using hn1)
  have hX := nodup_mid (u := A.addrs ++ p :: B.addrs) (v := C.addrs ++ g :: D.addrs) (g := x)
    (by simpa using hn1)
  have hG := nodup_mid (u := A.addrs ++ p :: (B.addrs ++ x :: C.addrs)) (v := D.addrs) (g := g)
    (by simpa using hn1)
  have hp0 : p ≠ 0 := ho1.2.2.2.2.1.1
  have hx0 : x ≠ 0 := ho1.1
  have hgA : g ∉ A.addrs := fun h => hG g (by simp [h]) rfl
  have hgB : g ∉ B.addrs := fun h => hG g (by simp [h]) rfl
  have hgC : g ∉ C.addrs := fun h => hG g (by simp [h]) rfl
  have hgD : g ∉ D.addrs := fun h => hG g (by simp [h]) rfl
  have hpA : p ∉ A.addrs := fun h => hP p (by simp [h]) rfl
  have hpB : p ∉ B.addrs := fun h => hP p (by simp [h]) rfl
  have hpC : p ∉ C.addrs := fun h => hP p (by simp [h]) rfl
  have hpD : p ∉ D.addrs := fun h => hP p (by simp [h]) rfl
  have hxA : x ∉ A.addrs := fun h => hX x (by simp [h]) rfl
  have hxB : x ∉ B.addrs := fun h => hX x (by simp [h]) rfl
  have hxC : x ∉ C.addrs := fun h => hX x (by simp [h]) rfl
  have hxD : x ∉ D.addrs := fun h => hX x (by simp [h]) rfl
  have hpg : p ≠ g := hG p (by simp)
  have hxg : x ≠ g := hG x (by simp)
  have hxp : x ≠ p := hP x (by simp)
  have hh : ∀ a, a ≠ x → a ≠ p → (m2 a).height_ = (m a).height_ :=
    fun a h1 h2 => (hht2 a).trans (hht1 a h1 h2)
  have hA2 : hts m2 A := hts_frame A (fun a ha => hh a (fun e => hxA (e ▸ ha))
    (fun e => hpA (e ▸ ha))) hA
  have hB2 : hts m2 B := hts_frame B (fun a ha => hh a (fun e => hxB (e ▸ ha))
    (fun e => hpB (e ▸ ha))) hB
  have hC2 : hts m2 C := hts_frame C (fun a ha => hh a (fun e => hxC (e ▸ ha))
    (fun e => hpC (e ▸ ha))) hC
  have hD2 : hts m2 D := hts_frame D (fun a ha => hh a (fun e => hxD (e ▸ ha))
    (fun e => hpD (e ▸ ha))) hD
  have h3 := hts_fix m2 A p B x ho2.2.2.2.2.1 hA2 hB2 hpA hpB
  have ho3 := own_set_height p (new_height m2 p) _ _ ho2
  have h4 := hts_fix _ C g D x ho3.2.2.2.2.2 (hts_set_height p _ C hpC hC2)
    (hts_set_height p _ D hpD hD2) hgC hgD
  have ho4 := own_set_height g (new_height (set_height m2 p (new_height m2 p)) g) _ _ ho3
  have h5 := hts_fix _ (tr.node A p B) x (tr.node C g D) (ctx_par c) ho4
    (hts_set_height g _ (tr.node A p B) (by simp [tr.addrs, hgA, hgB, hpg.symm]) h3) h4
    (by simp [tr.addrs, hxA, hxB, hxp]) (by simp [tr.addrs, hxC, hxD, hxg])
  refine ⟨_, ?_, own_set_height x _ _ _ ho4, own_ctx_set_height x _ _ _
    (own_ctx_set_height g _ _ _ (own_ctx_set_height p _ _ _ hc2)), h5, ?_, ?_, ?_, ?_⟩
  · simp [rotate_fix, rotate_switch, right_right, left_right, e1, e2, hp0, hx0]
  · intro a
    have := hkey1 a
    have := hkey2 a
    simp [*]
  · intro a ha
    have h1 : a ≠ p := replaced_addrs_ne ha (by simp [tr.addrs])
    have h2 : a ≠ g := replaced_addrs_ne ha (by simp [tr.addrs])
    have h3 : a ≠ x := replaced_addrs_ne ha (by simp [tr.addrs])
    simp [h1, h2, h3, hh a h3 h1]
  · simp [hl2, hl1]
  · simp [hr2, hr1]

theorem rotate_fix_right_left (m : Nat → avl_tree_node) (c : List frame) (A B C D : tr)
    (x p g : Nat)
    (hnd : (header :: (plug c (tr.node A g (tr.node (tr.node B x C) p D))).addrs).Nodup)
    (hown : own m (tr.node A g (tr.node (tr.node B x C) p D)) (ctx_par c))
    (hctx : own_ctx m c g)
    (hA : hts m A) (hB : hts m B) (hC : hts m C) (hD : hts m D) :
    ∃ m', rotate_fix m right_left x p g = some (m', x) ∧
      replaced m m' c (tr.node A g (tr.node (tr.node B x C) p D))
        (tr.node (tr.node A g B) x (tr.node C p D)) := by
  obtain ⟨hg0, hgp, hgl, hgr, hoA, hop⟩ := hown
  simp only [tr.root] at hgr
  obtain ⟨m1, e1, ho1, hc1, hkey1, hht1, hl1, hr1⟩ :=
    rotate_right_own m (frame.R A g :: c) B C D p x hnd hop ⟨hg0, hgp, hgl, hgr, hoA, hctx⟩
  obtain ⟨_, hgp1, hgl1, hgr1, hoA1, hcc1⟩ := hc1
  obtain ⟨hn1, _, _, _, _⟩ := sep_split hnd
  have hnd2 : (header :: (plug c (tr.node A g (tr.node B x (tr.node C p D)))).addrs).Nodup :=
    sep_congr (fun a => by simp [tr.addrs]) (by simpa [tr.addrs] using hn1) hnd
  obtain ⟨m2, e2, ho2, hc2, hkey2, hht2, _, _, hl2, hr2⟩ :=
    rotate_left_own m1 c A B (tr.node C p D) g x hnd2 ⟨hg0, hgp1, hgl1, hgr1, hoA1, ho1⟩ hcc1
  simp only [tr.addrs] at hn1
  have hG := nodup_mid (u := A.addrs) (v := (B.addrs ++ x :: C.addrs) ++ p :: D.addrs) (g := g)
    (by simpa using hn1)
  have hX := nodup_mid (u := A.addrs ++ g :: B.addrs) (v := C.addrs ++ p :: D.addrs) (g := x)
    (by simpa using hn1)
  have hP := nodup_mid (u := A.addrs ++ g :: (B.addrs ++ x :: C.addrs)) (v := D.addrs) (g := p)
    (by simpa using hn1)
  have hp0 : p ≠ 0 := ho1.2.2.2.2.2.1
  have hx0 : x ≠ 0 := ho1.1
  have hgA : g ∉ A.addrs := fun h => hG g (by simp [h]) rfl
  have hgB : g ∉ B.addrs := fun h => hG g (by simp [h]) rfl
  have hgC : g ∉ C.addrs := fun h => hG g (by simp [h]) rfl
  have hgD : g ∉ D.addrs := fun h => hG g (by simp [h]) rfl
  have hpA : p ∉ A.addrs := fun h => hP p (by simp [h]) rfl
  have hpB : p ∉ B.addrs := fun h => hP p (by simp [h]) rfl
  have hpC : p ∉ C.addrs := fun h => hP p (by simp [h]) rfl
  have hpD : p ∉ D.addrs := fun h => hP p (by simp [h]) rfl
  have hxA : x ∉ A.addrs := fun h => hX x (by simp [h]) rfl
  have hxB : x ∉ B.addrs := fun h => hX x (by simp [h]) rfl
  have hxC : x ∉ C.addrs := fun h => hX x (by simp [h]) rfl
  have hxD : x ∉ D.addrs := fun h => hX x (by simp [h]) rfl
  have hpg : p ≠ g := hG p (by simp)
  have hxg : x ≠ g := hG x (by simp)
  have hxp : x ≠ p := hP x (by simp)
  have hh : ∀ a, a ≠ x → a ≠ g → (m2 a).height_ = (m a).height_ :=
    fun a h1 h2 => (hht2 a h1 h2).trans (hht1 a)
  have hA2 : hts m2 A := hts_frame A (fun a ha => hh a (fun e => hxA (e ▸ ha))
    (fun e => hgA (e ▸ ha))) hA
  have hB2 : hts m2 B := hts_frame B (fun a ha => hh a (fun e => hxB (e ▸ ha))
    (fun e => hgB (e ▸ ha))) hB
  have hC2 : hts m2 C := hts_frame C (fun a ha => hh a (fun e => hxC (e ▸ ha))
    (fun e => hgC (e ▸ ha))) hC
  have hD2 : hts m2 D := hts_frame D (fun a ha => hh a (fun e => hxD (e ▸ ha))
    (fun e => hgD (e ▸ ha))) hD
  have h3 := hts_fix m2 C p D x ho2.2.2.2.2.2 hC2 hD2 hpC hpD
  have ho3 := own_set_height p (new_height m2 p) _ _ ho2
  have h4 := hts_fix _ A g B x ho3.2.2.2.2.1 (hts_set_height p _ A hpA hA2)
    (hts_set_height p _ B hpB hB2) hgA hgB
  have ho4 := own_set_height g (new_height (set_height m2 p (new_height m2 p)) g) _ _ ho3
  have h5 := hts_fix _ (tr.node A g B) x (tr.node C p D) (ctx_par c) ho4 h4
    (hts_set_height g _ (tr.node C p D) (by simp [tr.addrs, hgC, hgD, hpg.symm]) h3)
    (by simp [tr.addrs, hxA, hxB, hxg]) (by simp [tr.addrs, hxC, hxD, hxp])
  refine ⟨_, ?_, own_set_height x _ _ _ ho4, own_ctx_set_height x _ _ _
    (own_ctx_set_height g _ _ _ (own_ctx_set_height p _ _ _ hc2)), h5, ?_, ?_, ?_, ?_⟩
  · simp [rotate_fix, rotate_switch, right_right, left_right, right_left, e1, e2, hp0, hx0]
  · intro a
    have := hkey1 a
    have := hkey2 a
    simp [*]
  · intro a ha
    have h1 : a ≠ p := replaced_addrs_ne ha (by simp [tr.addrs])
    have h2 : a ≠ g := replaced_addrs_ne ha (by simp [tr.addrs])
    have h3 : a ≠ x := replaced_addrs_ne ha (by simp [tr.addrs])
    simp [h1, h2, h3, hh a h3 h2]
  · simp [hl2, hl1]
  · simp [hr2, hr1]

/-! ## The loop of avl_tree_insert_and_rebalance -/

theorem whole_plug {m : Nat → avl_tree_node} {c : List frame} {t : tr}
    (h1 : own m t (ctx_par c)) (h2 : own_ctx m c t.root) (h3 : hts m t)
    (h4 : ctx_hts m c t.ht) (h5 : t.bal) (h6 : ctx_bal c t.ht) : whole m (plug c t) := by
  have := (own_plug c t).2 ⟨h1, h2⟩
  exact ⟨this.1, this.2, (hts_plug c t).2 ⟨h3, h4⟩, (bal_plug c t).2 ⟨h5, h6⟩⟩

theorem insert_rotate (m : Nat → avl_tree_node) (c : List frame) (tl tr' sib : tr)
    (x p g : Nat) (gl xl : Bool)
    (hnd : (header :: (plug c (if gl then tr.node (tr.node tl p tr') g sib
      else tr.node sib g (tr.node tl p tr'))).addrs).Nodup)
    (hown : own m (if gl then tr.node (tr.node tl p tr') g sib
      else tr.node sib g (tr.node tl p tr')) (ctx_par c))
    (hctx : own_ctx m c g)
    (hx : x = if xl then tl.root else tr'.root)
    (h1 : hts m tl) (h2 : hts m tr') (h3 : hts m sib)
    (b1 : tl.bal) (b2 : tr'.bal) (b3 : sib.bal)
    (hv : if xl then tl.ht = tr'.ht + 1 else tr'.ht = tl.ht + 1)
    (hs : sib.ht + 2 = (tr.node tl p tr').ht) :
    ∃ m' G', rotate_fix m ((if xl then 1 else 0) ||| ((if gl then 1 else 0) <<< 1)) x p g =
        some (m', G'.root) ∧
      replaced m m' c (if gl then tr.node (tr.node tl p tr') g sib
        else tr.node sib g (tr.node tl p tr')) G' ∧
      G'.bal ∧ G'.ht = (tr.node tl p tr').ht ∧
      G'.addrs = (if gl then tr.node (tr.node tl p tr') g sib
        else tr.node sib g (tr.node tl p tr')).addrs := by
  cases gl <;> cases xl
  · -- right_right
    simp only [Bool.false_eq_true, if_false] at hnd hown hv hx ⊢
    obtain ⟨m', e, hr⟩ := rotate_fix_right_right m c sib tl tr' x p g hnd hown hctx h3 h1 h2
    refine ⟨m', _, ?_, hr, ?_, ?_, ?_⟩
    · simpa [right_right, tr.root] using e
    · simp only [tr.bal, tr.ht] at hs ⊢
      have := tr_ht_nonneg sib
      refine ⟨⟨b3, b1, ?_, ?_⟩, b2, ?_, ?_⟩ <;> omega
    · simp only [tr.ht] at hs ⊢
      omega
    · simp [tr.addrs]
  · -- right_left
    simp only [Bool.false_eq_true, if_false, if_true] at hnd hown hv hx ⊢
    cases tl with
    | nil =>
      simp only [tr.ht] at hv
      have := tr_ht_nonneg tr'
      omega
    | node B y C =>
      simp only [tr.root] at hx
      subst hx
      obtain ⟨m', e, hr⟩ := rotate_fix_right_left m c sib B C tr' x p g hnd hown hctx h3
        h1.1 h1.2.1 h2
      refine ⟨m', _, ?_, hr, ?_, ?_, ?_⟩
      · simpa [right_left, tr.root] using e
      · simp only [tr.bal, tr.ht] at hs hv b1 ⊢
        refine ⟨⟨b3, b1.1, ?_, ?_⟩, ⟨b1.2.1, b2, ?_, ?_⟩, ?_, ?_⟩ <;> omega
      · simp only [tr.bal, tr.ht] at hs hv b1 ⊢
        omega
      · simp [tr.addrs]
  · -- left_right
    simp only [Bool.false_eq_true, if_false, if_true] at hnd hown hv hx ⊢
    cases tr' with
    | nil =>
      simp only [tr.ht] at hv
      have := tr_ht_nonneg tl
      omega
    | node B y C =>
      simp only [tr.root] at hx
      subst hx
      obtain ⟨m', e, hr⟩ := rotate_fix_left_right m c tl B C sib x p g hnd hown hctx h1
        h2.1 h2.2.1 h3
      refine ⟨m', _, ?_, hr, ?_, ?_, ?_⟩
      · simpa [left_right, tr.root] using e
      · simp only [tr.bal, tr.ht] at hs hv b2 ⊢
        refine ⟨⟨b1, b2.1, ?_, ?_⟩, ⟨b2.2.1, b3, ?_, ?_⟩, ?_, ?_⟩ <;> omega
      · simp only [tr.bal, tr.ht] at hs hv b2 ⊢
        omega
      · simp [tr.addrs]
  · -- left_left
    simp only [if_true] at hnd hown hv hx ⊢
    obtain ⟨m', e, hr⟩ := rotate_fix_left_left m c tl tr' sib x p g hnd hown hctx h1 h2 h3
    refine ⟨m', _, ?_, hr, ?_, ?_, ?_⟩
    · simpa [left_left, tr.root] using e
    · simp only [tr.bal, tr.ht] at hs ⊢
      have := tr_ht_nonneg sib
      refine ⟨b1, ⟨b2, b3, ?_, ?_⟩, ?_, ?_⟩ <;> omega
    · simp only [tr.ht] at hs ⊢
      omega
    · simp [tr.addrs]

theorem ctx_par_ne_header {c : List frame} {t : tr} (f : frame)
    (hnd : (header :: (plug (f :: c) t).addrs).Nodup) : ctx_par (f :: c) ≠ header := by
  obtain ⟨_, _, _, _, h5⟩ := sep_split hnd
  intro e
  apply h5
  rw [← e]
  cases f <;> simp [ctx_par, ctx_before, ctx_after]

theorem frame_up_L {c : List frame} {t r : tr} {g : Nat}
    (hnd : (header :: (plug (frame.L g r :: c) t).addrs).Nodup) :
    g ∉ t.addrs ∧ g ∉ r.addrs ∧ g ∉ ctx_before c ++ ctx_after c := by
  have h1 := ctx_par_not_mem hnd
  obtain ⟨_, h2, _, _, _⟩ := sep_split hnd
  have hn1 : (ctx_before c ++ g :: (r.addrs ++ ctx_after c)).Nodup := by
    simpa [ctx_before, ctx_after] using h2
  have hg := nodup_mid hn1
  refine ⟨h1, fun h => hg g (by simp [h]) rfl, fun h => hg g ?_ rfl⟩
  simp only [List.mem_append] at h ⊢
  tauto

theorem frame_up_R {c : List frame} {t l : tr} {g : Nat}
    (hnd : (header :: (plug (frame.R l g :: c) t).addrs).Nodup) :
    g ∉ t.addrs ∧ g ∉ l.addrs ∧ g ∉ ctx_before c ++ ctx_after c := by
  have h1 := ctx_par_not_mem hnd
  obtain ⟨_, h2, _, _, _⟩ := sep_split hnd
  have hn1 : ((ctx_before c ++ l.addrs) ++ g :: ctx_after c).Nodup := by
    simpa [ctx_before, ctx_after] using h2
  have hg := nodup_mid hn1
  refine ⟨h1, fun h => hg g (by simp [h]) rfl, fun h => hg g ?_ rfl⟩
  simp only [List.mem_append] at h ⊢
  tauto

theorem ctx_hts_set_height {m : Nat → avl_tree_node} (x : Nat) (v : Int) (c : List frame)
    (h : Int) (hx : x ∉ ctx_before c ++ ctx_after c) (hc : ctx_hts m c h) :
    ctx_hts (set_height m x v) c h :=
  ctx_hts_frame c h (fun a ha => by
    have : a ≠ x := fun e => hx (e ▸ ha)
    simp [this]) hc

theorem insert_loop_spec : ∀ (c : List frame) (fuel : Nat) (m : Nat → avl_tree_node)
    (tl tr' : tr) (x p : Nat) (xl : Bool),
    c.length < fuel →
    (header :: (plug c (tr.node tl p tr')).addrs).Nodup →
    own m (tr.node tl p tr') (ctx_par c) → own_ctx m c p →
    hts m (tr.node tl p tr') → (tr.node tl p tr').bal →
    x = (if xl then tl.root else tr'.root) →
    (if xl then tl.ht = tr'.ht + 1 else tr'.ht = tl.ht + 1) →
    ctx_hts m c ((tr.node tl p tr').ht - 1) → ctx_bal c ((tr.node tl p tr').ht - 1) →
    ∃ m' T', insert_loop fuel m x p (ctx_par c) (tr.node tl p tr').ht (if xl then 1 else 0) =
        some m' ∧
      whole m' T' ∧ T'.addrs = (plug c (tr.node tl p tr')).addrs ∧
      (∀ a, (m' a).key = (m a).key ∧ (m' a).val = (m a).val) ∧
      (m' header).left_ = (m header).left_ ∧ (m' header).right_ = (m header).right_
  | [], fuel, m, tl, tr', x, p, xl, hf, hnd, hown, hctx, hh, hb, hx, hv, hch, hcb => by
    cases fuel with
    | zero => simp at hf
    | succ n =>
      refine ⟨m, tr.node tl p tr', ?_, ⟨hown, hctx, hh, hb⟩, rfl, fun a => ⟨rfl, rfl⟩, rfl, rfl⟩
      simp [insert_loop, ctx_par]
  | frame.L g r :: c, fuel, m, tl, tr', x, p, xl, hf, hnd, hown, hctx, hh, hb, hx, hv, hch,
      hcb => by
    cases fuel with
    | zero => simp at hf
    | succ n =>
      have hgh := ctx_par_ne_header _ hnd
      obtain ⟨hg0, hgpar, hgl, hgr, hor, hcc⟩ := hctx
      obtain ⟨hrh, hgs, hch1⟩ := hch
      obtain ⟨rb, hb1, hb2, hcb1⟩ := hcb
      simp only [ctx_par] at hgh hown ⊢
      have htmp : height m (m g).right_ = r.ht := by rw [hgr]; exact height_root hor hrh
      generalize hH : (tr.node tl p tr').ht = H at *
      have hcase : r.ht = H ∨ r.ht + 1 = H ∨ r.ht + 2 = H := by omega
      obtain ⟨hgt, hgr', hgc⟩ := frame_up_L hnd
      rw [insert_loop]
      simp only [if_neg hgh, if_neg hg0, hgl, decide_True, if_true, htmp, hgs]
      rcases hcase with hc | hc | hc
      · rw [if_pos (by omega)]
        refine ⟨m, plug (frame.L g r :: c) (tr.node tl p tr'), rfl, ?_, rfl,
          fun a => ⟨rfl, rfl⟩, rfl, rfl⟩
        have e : (H - 1) ⊔ r.ht + 1 = H ⊔ r.ht + 1 := by omega
        rw [e] at hch1 hcb1 hgs
        refine whole_plug hown ⟨hg0, hgpar, hgl, hgr, hor, hcc⟩ hh ?_ hb ?_
        · rw [hH]; exact ⟨hrh, hgs, hch1⟩
        · rw [hH]; exact ⟨rb, by omega, by omega, hcb1⟩
      · rw [if_neg (by omega), if_neg (by omega)]
        have e1 : r.ht ⊔ H + 1 = H + 1 := by omega
        have e2 : (H - 1) ⊔ r.ht + 1 = H := by omega
        rw [e1]
        rw [e2] at hch1 hcb1
        simp only [set_height_parent, hgpar]
        have e3 : (tr.node (tr.node tl p tr') g r).ht = H + 1 := by
          simp only [tr.ht] at hH ⊢
          omega
        have ih := insert_loop_spec c n (set_height m g (H + 1)) (tr.node tl p tr') r p g true
          (by simp at hf; omega) hnd
          (own_set_height g _ _ _ ⟨hg0, hgpar, hgl, hgr, hown, hor⟩)
          (own_ctx_set_height g _ _ _ hcc)
          ⟨hts_set_height g _ _ hgt hh, hts_set_height g _ _ hgr' hrh, by
            simp only [set_height_height, if_true]
            rw [hH]; omega⟩
          ⟨hb, rb, by rw [hH]; omega, by rw [hH]; omega⟩ rfl
          (by simp only [if_true]; rw [hH]; omega)
          (by rw [e3]; simpa using ctx_hts_set_height g _ c _ hgc hch1)
          (by rw [e3]; simpa using hcb1)
        rw [e3] at ih
        obtain ⟨m', T', e, hw, ha, hk, hl, hr⟩ := ih
        refine ⟨m', T', e, hw, ha, ?_, ?_, ?_⟩
        · intro a
          simpa using hk a
        · simpa using hl
        · simpa using hr
      · rw [if_neg (by omega), if_pos (by omega)]
        have e2 : (H - 1) ⊔ r.ht + 1 = H := by omega
        rw [e2] at hch1 hcb1
        obtain ⟨m', G', e, hrep, hGb, hGh, hGa⟩ := insert_rotate (set_height m g (r.ht ⊔ H + 1)) c
          tl tr' r x p g true xl hnd
          (own_set_height g _ _ _ ⟨hg0, hgpar, hgl, hgr, hown, hor⟩)
          (own_ctx_set_height g _ _ _ hcc) hx
          (hts_set_height g _ _ (fun h => hgt (by simp [tr.addrs, h])) hh.1)
          (hts_set_height g _ _ (fun h => hgt (by simp [tr.addrs, h])) hh.2.1)
          (hts_set_height g _ _ hgr' hrh) hb.1 hb.2.1 rb hv (by rw [hH]; omega)
        simp only [if_true] at e hrep hGa
        rw [e]
        obtain ⟨ho', hc', hh', hk', hht', hl', hr'⟩ := hrep
        obtain ⟨_, _, hs3, _, _⟩ :=
          sep_split (c := c) (t := tr.node (tr.node tl p tr') g r) hnd
        refine ⟨m', plug c G', rfl, ?_, ?_, ?_, ?_, ?_⟩
        · refine whole_plug ho' hc' hh' ?_ hGb ?_
          · rw [hGh, hH]
            refine ctx_hts_frame c H (fun a ha => ?_) hch1
            rw [hht' a (fun hm => hs3 a hm ha)]
            have : a ≠ g := fun e => hgc (e ▸ ha)
            simp [this]
          · rw [hGh, hH]; exact hcb1
        · rw [plug_addrs, hGa, plug_addrs]
          simp [tr.addrs, ctx_before, ctx_after]
        · intro a
          simpa using hk' a
        · simpa using hl'
        · simpa using hr'
  | frame.R l g :: c, fuel, m, tl, tr', x, p, xl, hf, hnd, hown, hctx, hh, hb, hx, hv, hch,
      hcb => by
    cases fuel with
    | zero => simp at hf
    | succ n =>
      have hgh := ctx_par_ne_header _ hnd
      obtain ⟨hg0, hgpar, hgl, hgr, hol, hcc⟩ := hctx
      obtain ⟨hlh, hgs, hch1⟩ := hch
      obtain ⟨lb, hb1, hb2, hcb1⟩ := hcb
      simp only [ctx_par] at hgh hown ⊢
      have htmp : height m (m g).left_ = l.ht := by rw [hgl]; exact height_root hol hlh
      obtain ⟨_, _, hs0, _, _⟩ := sep_split hnd
      have hlp : (m g).left_ ≠ p := by
        rw [hgl]
        refine root_ne hown.1 (fun a ha e => hs0 p (by simp [tr.addrs]) ?_)
        rw [← e]
        simp [ctx_before, ctx_after, ha]
      have hdl : decide ((m g).left_ = p) = false := by simp [hlp]
      generalize hH : (tr.node tl p tr').ht = H at *
      have hcase : l.ht = H ∨ l.ht + 1 = H ∨ l.ht + 2 = H := by omega
      obtain ⟨hgt, hgl', hgc⟩ := frame_up_R hnd
      rw [insert_loop]
      simp only [if_neg hgh, if_neg hg0, hdl, Bool.false_eq_true, if_false, htmp, hgs]
      rcases hcase with hc | hc | hc
      · rw [if_pos (by omega)]
        refine ⟨m, plug (frame.R l g :: c) (tr.node tl p tr'), rfl, ?_, rfl,
          fun a => ⟨rfl, rfl⟩, rfl, rfl⟩
        have e : l.ht ⊔ (H - 1) + 1 = l.ht ⊔ H + 1 := by omega
        rw [e] at hch1 hcb1 hgs
        refine whole_plug hown ⟨hg0, hgpar, hgl, hgr, hol, hcc⟩ hh ?_ hb ?_
        · rw [hH]; exact ⟨hlh, hgs, hch1⟩
        · rw [hH]; exact ⟨lb, by omega, by omega, hcb1⟩
      · rw [if_neg (by omega), if_neg (by omega)]
        have e1 : l.ht ⊔ H + 1 = H + 1 := by omega
        have e2 : l.ht ⊔ (H - 1) + 1 = H := by omega
        rw [e1]
        rw [e2] at hch1 hcb1
        simp only [set_height_parent, hgpar]
        have e3 : (tr.node l g (tr.node tl p tr')).ht = H + 1 := by
          simp only [tr.ht] at hH ⊢
          omega
        have ih := insert_loop_spec c n (set_height m g (H + 1)) l (tr.node tl p tr') p g false
          (by simp at hf; omega) hnd
          (own_set_height g _ _ _ ⟨hg0, hgpar, hgl, hgr, hol, hown⟩)
          (own_ctx_set_height g _ _ _ hcc)
          ⟨hts_set_height g _ _ hgl' hlh, hts_set_height g _ _ hgt hh, by
            simp only [set_height_height, if_true]
            rw [hH]; omega⟩
          ⟨lb, hb, by rw [hH]; omega, by rw [hH]; omega⟩ rfl
          (by simp only [Bool.false_eq_true, if_false]; rw [hH]; omega)
          (by rw [e3]; simpa using ctx_hts_set_height g _ c _ hgc hch1)
          (by rw [e3]; simpa using hcb1)
        rw [e3] at ih
        simp only [Bool.false_eq_true, if_false] at ih
        obtain ⟨m', T', e, hw, ha, hk, hl, hr⟩ := ih
        refine ⟨m', T', e, hw, ha, ?_, ?_, ?_⟩
        · intro a
          simpa using hk a
        · simpa using hl
        · simpa using hr
      · rw [if_neg (by omega), if_pos (by omega)]
        have e2 : l.ht ⊔ (H - 1) + 1 = H := by omega
        rw [e2] at hch1 hcb1
        obtain ⟨m', G', e, hrep, hGb, hGh, hGa⟩ := insert_rotate (set_height m g (l.ht ⊔ H + 1)) c
          tl tr' l x p g false xl hnd
          (own_set_height g _ _ _ ⟨hg0, hgpar, hgl, hgr, hol, hown⟩)
          (own_ctx_set_height g _ _ _ hcc) hx
          (hts_set_height g _ _ (fun h => hgt (by simp [tr.addrs, h])) hh.1)
          (hts_set_height g _ _ (fun h => hgt (by simp [tr.addrs, h])) hh.2.1)
          (hts_set_height g _ _ hgl' hlh) hb.1 hb.2.1 lb hv (by rw [hH]; omega)
        simp only [Bool.false_eq_true, if_false] at e hrep hGa
        rw [e]
        obtain ⟨ho', hc', hh', hk', hht', hl', hr'⟩ := hrep
        obtain ⟨_, _, hs3, _, _⟩ :=
          sep_split (c := c) (t := tr.node l g (tr.node tl p tr')) hnd
        refine ⟨m', plug c G', rfl, ?_, ?_, ?_, ?_, ?_⟩
        · refine whole_plug ho' hc' hh' ?_ hGb ?_
          · rw [hGh, hH]
            refine ctx_hts_frame c H (fun a ha => ?_) hch1
            rw [hht' a (fun hm => hs3 a hm ha)]
            have : a ≠ g := fun e => hgc (e ▸ ha)
            simp [this]
          · rw [hGh, hH]; exact hcb1
        · rw [plug_addrs, hGa, plug_addrs]
          simp [tr.addrs, ctx_before, ctx_after]
        · intro a
          simpa using hk' a
        · simpa using hl'
        · simpa using hr'

/-! ## avl_tree_insert_and_rebalance -/

theorem first_or_nil : first_or [] = header := rfl

theorem first_or_cons (a : Nat) (l : List Nat) : first_or (a :: l) = a := rfl

theorem first_or_append_cons (u : List Nat) (a : Nat) (v : List Nat) :
    first_or (u ++ a :: v) = if u = [] then a else first_or u := by
  cases u with
  | nil => simp [first_or]
  | cons b u => simp [first_or]

theorem last_or_nil : last_or [] = header := rfl

theorem last_or_append_cons (u : List Nat) (a : Nat) (v : List Nat) :
    last_or (u ++ a :: v) = if v = [] then a else last_or v := by
  cases v with
  | nil => simp [last_or]
  | cons b v =>
    simp only [last_or, reduceCtorEq, if_false]
    rw [show u ++ a :: b :: v = (u ++ [a]) ++ b :: v by simp]
    rw [List.getLast?_append_cons]

theorem first_or_mem {u : List Nat} (h : u ≠ []) : first_or u ∈ u := by
  cases u with
  | nil => exact absurd rfl h
  | cons a u => simp [first_or]

theorem last_or_mem {u : List Nat} (h : u ≠ []) : last_or u ∈ u := by
  rcases List.eq_nil_or_concat u with e | ⟨v, a, e⟩
  · exact absurd e h
  · subst e
    simp [last_or]

theorem last_or_insert (u : List Nat) (z p : Nat) (w : List Nat) :
    last_or (u ++ z :: p :: w) = last_or (u ++ p :: w) := by
  rw [last_or_append_cons, last_or_append_cons]
  simp only [reduceCtorEq, if_false]
  exact last_or_append_cons [] p w

theorem first_or_insert (u : List Nat) (p z : Nat) (w : List Nat) :
    first_or (u ++ p :: z :: w) = first_or (u ++ p :: w) := by
  rw [first_or_append_cons, first_or_append_cons]

theorem nodup_insert_fresh {u w : List Nat} {z : Nat}
    (h : (header :: (u ++ w)).Nodup) (hz : z ∉ u ++ w) (hzh : z ≠ header) :
    (header :: (u ++ z :: w)).Nodup := by
  rw [List.nodup_cons] at h ⊢
  rw [List.nodup_middle, List.nodup_cons]
  simp only [List.mem_append, List.mem_cons, not_or] at h hz ⊢
  exact ⟨⟨h.1.1, hzh.symm, h.1.2⟩, hz, h.2⟩

theorem ite_set_left (μ : Nat → avl_tree_node) (x v : Nat) (cnd : Prop) [Decidable cnd] :
    (if cnd then set_left μ x v else μ) = set_left μ x (if cnd then v else (μ x).left_) := by
  split
  · rfl
  · funext a
    unfold set_left
    split
    · next h => rw [h]
    · rfl

theorem ite_set_right (μ : Nat → avl_tree_node) (x v : Nat) (cnd : Prop) [Decidable cnd] :
    (if cnd then set_right μ x v else μ) = set_right μ x (if cnd then v else (μ x).right_) := by
  split
  · rfl
  · funext a
    unfold set_right
    split
    · next h => rw [h]
    · rfl

theorem insert_and_rebalance_spec (fuel : Nat) (m : Nat → avl_tree_node) (c : List frame)
    (z : Nat) (il : Bool)
    (hf : c.length < fuel)
    (hw : whole m (plug c tr.nil))
    (hnd : (header :: (plug c tr.nil).addrs).Nodup)
    (hz0 : z ≠ 0) (hzh : z ≠ header) (hz : z ∉ (plug c tr.nil).addrs)
    (hil : il = match c with
      | [] => true
      | frame.L _ _ :: _ => true
      | frame.R _ _ :: _ => false)
    (hleft : (m header).left_ = first_or (plug c tr.nil).addrs)
    (hright : (m header).right_ = last_or (plug c tr.nil).addrs) :
    ∃ m' T', avl_tree_insert_and_rebalance fuel il z (ctx_par c) m = some m' ∧
      whole m' T' ∧ T'.addrs = ctx_before c ++ z :: ctx_after c ∧
      (∀ a, (m' a).key = (m a).key ∧ (m' a).val = (m a).val) ∧
      (m' header).left_ = first_or T'.addrs ∧ (m' header).right_ = last_or T'.addrs := by
  obtain ⟨hown, hroot, hhts, hbal⟩ := hw
  obtain ⟨_, hctx⟩ := (own_plug c tr.nil).1 ⟨hown, hroot⟩
  obtain ⟨_, hch⟩ := (hts_plug c tr.nil).1 hhts
  obtain ⟨_, hcb⟩ := (bal_plug c tr.nil).1 hbal
  simp only [tr.root, tr.ht] at hctx hch hcb
  have hp0 := own_ctx_par_ne_zero hctx
  rw [plug_addrs] at hz hleft hright
  simp only [tr.addrs, List.append_nil, List.mem_append, not_or] at hz hleft hright
  unfold avl_tree_insert_and_rebalance
  rw [if_neg (by simp [hz0, hp0])]
  cases c with
  | nil =>
    subst hil
    simp only [ctx_par, ctx_before, ctx_after, List.nil_append, if_true, and_self]
    refine ⟨_, tr.node tr.nil z tr.nil, rfl, ⟨⟨hz0, ?_, ?_, ?_, trivial, trivial⟩, ?_, ?_, ?_⟩,
      ?_, ?_, ?_, ?_⟩
    · simp [hzh]
    · simp [hzh, tr.root]
    · simp [hzh, tr.root]
    · simp [tr.root]
    · refine ⟨trivial, trivial, ?_⟩
      simp [hzh, tr.ht]
    · simp [tr.bal, tr.ht]
    · simp [tr.addrs]
    · intro a; simp
    · simp [first_or, tr.addrs]
    · simp [last_or, tr.addrs]
  | cons f c =>
    have hph := ctx_par_ne_header (t := tr.nil) f hnd
    cases f with
    | L p r =>
      subst hil
      obtain ⟨_, hppar, hpl, hpr, hor, hcc⟩ := hctx
      obtain ⟨hrh, hps, hch1⟩ := hch
      obtain ⟨rb, hb1, hb2, hcb1⟩ := hcb
      obtain ⟨hpt, hpr', hpc⟩ := frame_up_L hnd
      simp only [ctx_par, ctx_before, ctx_after, List.cons_append] at hph hp0 hz hleft hright ⊢
      simp only [hph, and_false, if_false, if_true, ite_set_left]
      obtain ⟨v, hv⟩ : ∃ v, v = (if p = (set_left (set_right (set_left (set_parent
        (set_height m z 1) z p) z 0) z 0) p z header).left_ then z else (set_left (set_right
        (set_left (set_parent (set_height m z 1) z p) z 0) z 0) p z header).left_) := ⟨_, rfl⟩
      rw [← hv]
      obtain ⟨m3, hm3⟩ : ∃ m3, m3 = set_left (set_left (set_right (set_left (set_parent
        (set_height m z 1) z p) z 0) z 0) p z) header v := ⟨_, rfl⟩
      rw [← hm3]
      have hzp : z ≠ p := fun e => hz.2 (by simp [e])
      have hag : ∀ a, a ≠ z → a ≠ p → a ≠ header → m3 a = m a := by
        intro a h1 h2 h3
        rw [hm3]
        simp [set_left, set_right, set_parent, set_height, h1, h2, h3]
      have hkey : ∀ a, (m3 a).key = (m a).key ∧ (m3 a).val = (m a).val := by
        intro a
        rw [hm3]
        simp
      have hz3 : (m3 z).parent_ = p ∧ (m3 z).left_ = 0 ∧ (m3 z).right_ = 0 ∧
          (m3 z).height_ = 1 := by
        rw [hm3]
        simp [hzp, hzh]
      have hp3 : (m3 p).parent_ = (m p).parent_ ∧ (m3 p).left_ = z ∧
          (m3 p).right_ = (m p).right_ ∧ (m3 p).height_ = (m p).height_ := by
        rw [hm3]
        simp [hzp.symm, hph]
      have hh3 : (m3 header).parent_ = (m header).parent_ ∧ (m3 header).left_ = v ∧
          (m3 header).right_ = (m header).right_ := by
        rw [hm3]
        simp [hzh.symm, hph.symm]
      have hv' : v = if p = (m header).left_ then z else (m header).left_ := by
        rw [hv]
        simp [hzh.symm, hph.symm]
      obtain ⟨_, _, _, _, hs5⟩ := sep_split hnd
      have hS : ∀ a, a ∈ r.addrs ∨ a ∈ ctx_before c ++ ctx_after c →
          a ≠ z ∧ a ≠ p ∧ a ≠ header := by
        intro a ha
        refine ⟨fun e => ?_, fun e => ?_, fun e => hs5 ?_⟩
        · subst e
          simp only [List.mem_append, List.mem_cons] at hz ha
          tauto
        · subst e
          rcases ha with ha | ha
          · exact hpr' ha
          · exact hpc ha
        · subst e
          simp only [ctx_before, ctx_after, List.mem_append, List.mem_cons] at ha ⊢
          tauto
      have hor3 : own m3 r p := own_frame r p (fun a ha => by
        obtain ⟨h1, h2, h3⟩ := hS a (Or.inl ha)
        rw [hag a h1 h2 h3]
        exact ⟨rfl, rfl, rfl⟩) hor
      have hcc3 : own_ctx m3 c p := own_ctx_frame c p (fun a ha => by
        obtain ⟨h1, h2, h3⟩ := hS a (Or.inr ha)
        rw [hag a h1 h2 h3]
        exact ⟨rfl, rfl, rfl⟩) hh3.1 hcc
      have hrh3 : hts m3 r := hts_frame r (fun a ha => by
        obtain ⟨h1, h2, h3⟩ := hS a (Or.inl ha)
        rw [hag a h1 h2 h3]) hrh
      have hch3 : ∀ h, ctx_hts m c h → ctx_hts m3 c h := fun h hc =>
        ctx_hts_frame c h (fun a ha => by
          obtain ⟨h1, h2, h3⟩ := hS a (Or.inr ha)
          rw [hag a h1 h2 h3]) hc
      have htmp : height m3 (m3 p).right_ = r.ht := by
        rw [hp3.2.2.1, hpr]
        exact height_root hor3 hrh3
      have hfirst : (m3 header).left_ =
          first_or (ctx_before c ++ z :: p :: (r.addrs ++ ctx_after c)) := by
        rw [hh3.2.1, hv', hleft, first_or_append_cons, first_or_append_cons]
        by_cases hb : ctx_before c = []
        · simp [hb]
        · rw [if_neg hb, if_neg hb, if_neg]
          intro e
          have := first_or_mem hb
          rw [← e] at this
          exact hpc (by simp [this])
      have hlast : (m3 header).right_ =
          last_or (ctx_before c ++ z :: p :: (r.addrs ++ ctx_after c)) := by
        rw [hh3.2.2, hright]
        exact (last_or_insert _ z p _).symm
      rw [htmp, hp3.2.2.2, hps]
      have hr0 := tr_ht_nonneg r
      have hcase : r.ht = 1 ∨ r.ht = 0 := by omega
      rcases hcase with hc | hc
      · rw [if_pos (by omega)]
        refine ⟨m3, plug (frame.L p r :: c) (tr.node tr.nil z tr.nil), rfl, ?_, ?_, hkey, ?_, ?_⟩
        · refine whole_plug (c := frame.L p r :: c) ⟨hz0, hz3.1, hz3.2.1, hz3.2.2.1, trivial,
            trivial⟩ ⟨hp0, hp3.1.trans hppar, hp3.2.1, hp3.2.2.1.trans hpr, hor3, hcc3⟩
            ⟨trivial, trivial, by simp [hz3.2.2.2, tr.ht]⟩ ?_ (by simp [tr.bal, tr.ht]) ?_
          · refine ⟨hrh3, ?_, ?_⟩
            · rw [hp3.2.2.2, hps]
              simp only [tr.ht]
              omega
            · have e : (tr.node tr.nil z tr.nil).ht ⊔ r.ht + 1 = 0 ⊔ r.ht + 1 := by
                simp only [tr.ht]
                omega
              rw [e]
              exact hch3 _ hch1
          · refine ⟨rb, ?_, ?_, ?_⟩
            · simp only [tr.ht]; omega
            · simp only [tr.ht]; omega
            · have e : (tr.node tr.nil z tr.nil).ht ⊔ r.ht + 1 = 0 ⊔ r.ht + 1 := by
                simp only [tr.ht]
                omega
              rw [e]
              exact hcb1
        · rw [plug_addrs]
          simp [tr.addrs, ctx_before, ctx_after]
        · rw [plug_addrs]
          simpa [tr.addrs, ctx_before, ctx_after] using hfirst
        · rw [plug_addrs]
          simpa [tr.addrs, ctx_before, ctx_after] using hlast
      · rw [if_neg (by omega)]
        have e0 : r.ht ⊔ 1 + 1 = 2 := by omega
        have e1 : (0 : Int) ⊔ r.ht + 1 = 1 := by omega
        rw [e0]
        rw [e1] at hch1 hcb1
        simp only [set_height_parent, hp3.1, hppar]
        have hnd2 : (header :: (plug c (tr.node (tr.node tr.nil z tr.nil) p r)).addrs).Nodup := by
          rw [plug_addrs]
          have := nodup_insert_fresh (u := ctx_before c) (w := p :: (r.addrs ++ ctx_after c))
            (z := z) (by
              rw [plug_addrs] at hnd
              simpa [tr.addrs, ctx_before, ctx_after] using hnd) (by
              simp only [List.mem_append, List.mem_cons, not_or] at hz ⊢
              tauto) hzh
          simpa [tr.addrs] using this
        have hzr : z ∉ r.addrs := fun h => hz.2 (by simp [h])
        have e3 : (tr.node (tr.node tr.nil z tr.nil) p r).ht = 2 := by
          simp only [tr.ht]
          omega
        have ih := insert_loop_spec c fuel (set_height m3 p 2) (tr.node tr.nil z tr.nil) r z p
          true (by simp at hf; omega) hnd2
          (own_set_height p _ _ _ ⟨hp0, hp3.1.trans hppar, hp3.2.1, hp3.2.2.1.trans hpr,
            ⟨hz0, hz3.1, hz3.2.1, hz3.2.2.1, trivial, trivial⟩, hor3⟩)
          (own_ctx_set_height p _ _ _ hcc3)
          ⟨⟨trivial, trivial, by simp [hzp, hz3.2.2.2, tr.ht]⟩, hts_set_height p _ _ hpr' hrh3,
            by simp [tr.ht, hc]⟩
          ⟨⟨trivial, trivial, by simp [tr.ht], by simp [tr.ht]⟩, rb, by
            simp only [tr.ht]; omega, by simp only [tr.ht]; omega⟩ rfl
          (by simp only [if_true, tr.ht]; omega)
          (by rw [e3]; simpa using ctx_hts_set_height p _ c _ hpc (hch3 _ hch1))
          (by rw [e3]; simpa using hcb1)
        rw [e3] at ih
        simp only [if_true] at ih
        obtain ⟨m', T', e, hw, ha, hk, hl, hr⟩ := ih
        refine ⟨m', T', e, hw, ?_, ?_, ?_, ?_⟩
        · rw [ha, plug_addrs]
          simp [tr.addrs]
        · intro a
          have h1 := hk a
          have h2 := hkey a
          simp only [set_height_key, set_height_val] at h1
          exact ⟨h1.1.trans h2.1, h1.2.trans h2.2⟩
        · rw [hl, ha, plug_addrs]
          simpa [tr.addrs, hph.symm] using hfirst
        · rw [hr, ha, plug_addrs]
          simpa [tr.addrs, hph.symm] using hlast
    | R l p =>
      subst hil
      obtain ⟨_, hppar, hpl, hpr, hol, hcc⟩ := hctx
      obtain ⟨hlh, hps, hch1⟩ := hch
      obtain ⟨lb, hb1, hb2, hcb1⟩ := hcb
      obtain ⟨hpt, hpl', hpc⟩ := frame_up_R hnd
      simp only [ctx_par, ctx_before, ctx_after, List.cons_append, List.append_assoc,
        List.singleton_append, List.nil_append] at hph hp0 hz hleft hright ⊢
      simp only [Bool.false_eq_true, false_and, if_false, ite_set_right]
      obtain ⟨v, hv⟩ : ∃ v, v = (if p = (set_right (set_right (set_left (set_parent
        (set_height m z 1) z p) z 0) z 0) p z header).right_ then z else (set_right (set_right
        (set_left (set_parent (set_height m z 1) z p) z 0) z 0) p z header).right_) := ⟨_, rfl⟩
      rw [← hv]
      have hzp : z ≠ p := fun e => hz.1 (by simp [e])
      have htmp0 : height (set_right (set_right (set_left (set_parent (set_height m z 1) z p)
          z 0) z 0) p z) (set_right (set_right (set_left (set_parent (set_height m z 1) z p)
          z 0) z 0) p z p).left_ = l.ht := by
        have hlz : l.root ≠ z := root_ne hz0 (fun a ha e => hz.1 (by simp [← e, ha]))
        simp only [set_right_left, set_left_left, set_parent_left, set_height_left,
          if_neg hzp.symm, hpl]
        simp only [height, set_right_height, set_left_height, set_parent_height,
          set_height_height, if_neg hlz]
        exact height_root hol hlh
      rw [htmp0]
      obtain ⟨m3, hm3⟩ : ∃ m3, m3 = set_right (set_right (set_right (set_left (set_parent
        (set_height m z 1) z p) z 0) z 0) p z) header v := ⟨_, rfl⟩
      rw [← hm3]
      have hag : ∀ a, a ≠ z → a ≠ p → a ≠ header → m3 a = m a := by
        intro a h1 h2 h3
        rw [hm3]
        simp [set_left, set_right, set_parent, set_height, h1, h2, h3]
      have hkey : ∀ a, (m3 a).key = (m a).key ∧ (m3 a).val = (m a).val := by
        intro a
        rw [hm3]
        simp
      have hz3 : (m3 z).parent_ = p ∧ (m3 z).left_ = 0 ∧ (m3 z).right_ = 0 ∧
          (m3 z).height_ = 1 := by
        rw [hm3]
        simp [hzp, hzh]
      have hp3 : (m3 p).parent_ = (m p).parent_ ∧ (m3 p).left_ = (m p).left_ ∧
          (m3 p).right_ = z ∧ (m3 p).height_ = (m p).height_ := by
        rw [hm3]
        simp [hzp.symm, hph]
      have hh3 : (m3 header).parent_ = (m header).parent_ ∧
          (m3 header).left_ = (m header).left_ ∧ (m3 header).right_ = v := by
        rw [hm3]
        simp [hzh.symm, hph.symm]
      have hv' : v = if p = (m header).right_ then z else (m header).right_ := by
        rw [hv]
        simp [hzh.symm, hph.symm]
      obtain ⟨_, _, _, _, hs5⟩ := sep_split hnd
      have hS : ∀ a, a ∈ l.addrs ∨ a ∈ ctx_before c ++ ctx_after c →
          a ≠ z ∧ a ≠ p ∧ a ≠ header := by
        intro a ha
        refine ⟨fun e => ?_, fun e => ?_, fun e => hs5 ?_⟩
        · subst e
          simp only [List.mem_append, List.mem_cons] at hz ha
          tauto
        · subst e
          rcases ha with ha | ha
          · exact hpl' ha
          · exact hpc ha
        · subst e
          simp only [ctx_before, ctx_after, List.mem_append, List.mem_cons] at ha ⊢
          tauto
      have hol3 : own m3 l p := own_frame l p (fun a ha => by
        obtain ⟨h1, h2, h3⟩ := hS a (Or.inl ha)
        rw [hag a h1 h2 h3]
        exact ⟨rfl, rfl, rfl⟩) hol
      have hcc3 : own_ctx m3 c p := own_ctx_frame c p (fun a ha => by
        obtain ⟨h1, h2, h3⟩ := hS a (Or.inr ha)
        rw [hag a h1 h2 h3]
        exact ⟨rfl, rfl, rfl⟩) hh3.1 hcc
      have hlh3 : hts m3 l := hts_frame l (fun a ha => by
        obtain ⟨h1, h2, h3⟩ := hS a (Or.inl ha)
        rw [hag a h1 h2 h3]) hlh
      have hch3 : ∀ h, ctx_hts m c h → ctx_hts m3 c h := fun h hc =>
        ctx_hts_frame c h (fun a ha => by
          obtain ⟨h1, h2, h3⟩ := hS a (Or.inr ha)
          rw [hag a h1 h2 h3]) hc
      have hfirst : (m3 header).left_ =
          first_or (ctx_before c ++ (l.addrs ++ p :: z :: ctx_after c)) := by
        rw [hh3.2.1, hleft]
        have := first_or_insert (ctx_before c ++ l.addrs) p z (ctx_after c)
        simp only [List.append_assoc] at this
        exact this.symm
      have hlast : (m3 header).right_ =
          last_or (ctx_before c ++ (l.addrs ++ p :: z :: ctx_after c)) := by
        rw [hh3.2.2, hv', hright]
        have e1 := last_or_append_cons (ctx_before c ++ l.addrs) p (ctx_after c)
        have e2 := last_or_append_cons (ctx_before c ++ (l.addrs ++ [p])) z (ctx_after c)
        simp only [List.append_assoc, List.singleton_append] at e1 e2
        rw [e1, e2]
        by_cases hb : ctx_after c = []
        · simp [hb]
        · simp only [if_neg hb]
          rw [if_neg]
          intro e
          have := last_or_mem hb
          rw [← e] at this
          exact hpc (by simp [this])
      rw [hp3.2.2.2, hps]
      have hr0 := tr_ht_nonneg l
      have hcase : l.ht = 1 ∨ l.ht = 0 := by omega
      rcases hcase with hc | hc
      · rw [if_pos (by omega)]
        refine ⟨m3, plug (frame.R l p :: c) (tr.node tr.nil z tr.nil), rfl, ?_, ?_, hkey, ?_, ?_⟩
        · refine whole_plug (c := frame.R l p :: c) ⟨hz0, hz3.1, hz3.2.1, hz3.2.2.1, trivial,
            trivial⟩ ⟨hp0, hp3.1.trans hppar, hp3.2.1.trans hpl, hp3.2.2.1, hol3, hcc3⟩
            ⟨trivial, trivial, by simp [hz3.2.2.2, tr.ht]⟩ ?_ (by simp [tr.bal, tr.ht]) ?_
          · refine ⟨hlh3, ?_, ?_⟩
            · rw [hp3.2.2.2, hps]
              simp only [tr.ht]
              omega
            · have e : l.ht ⊔ (tr.node tr.nil z tr.nil).ht + 1 = l.ht ⊔ 0 + 1 := by
                simp only [tr.ht]
                omega
              rw [e]
              exact hch3 _ hch1
          · refine ⟨lb, ?_, ?_, ?_⟩
            · simp only [tr.ht]; omega
            · simp only [tr.ht]; omega
            · have e : l.ht ⊔ (tr.node tr.nil z tr.nil).ht + 1 = l.ht ⊔ 0 + 1 := by
                simp only [tr.ht]
                omega
              rw [e]
              exact hcb1
        · rw [plug_addrs]
          simp [tr.addrs, ctx_before, ctx_after]
        · rw [plug_addrs]
          simpa [tr.addrs, ctx_before, ctx_after] using hfirst
        · rw [plug_addrs]
          simpa [tr.addrs, ctx_before, ctx_after] using hlast
      · rw [if_neg (by omega)]
        have e0 : l.ht ⊔ 1 + 1 = 2 := by omega
        have e1 : l.ht ⊔ (0 : Int) + 1 = 1 := by omega
        rw [e0]
        rw [e1] at hch1 hcb1
        simp only [set_height_parent, hp3.1, hppar]
        have hnd2 : (header :: (plug c (tr.node l p (tr.node tr.nil z tr.nil))).addrs).Nodup := by
          rw [plug_addrs]
          have := nodup_insert_fresh (u := ctx_before c ++ (l.addrs ++ [p])) (w := ctx_after c)
            (z := z) (by
              rw [plug_addrs] at hnd
              simpa [tr.addrs, ctx_before, ctx_after] using hnd) (by
              simp only [List.mem_append, List.mem_cons, not_or] at hz ⊢
              tauto) hzh
          simpa [tr.addrs] using this
        have e3 : (tr.node l p (tr.node tr.nil z tr.nil)).ht = 2 := by
          simp only [tr.ht]
          omega
        have ih := insert_loop_spec c fuel (set_height m3 p 2) l (tr.node tr.nil z tr.nil) z p
          false (by simp at hf; omega) hnd2
          (own_set_height p _ _ _ ⟨hp0, hp3.1.trans hppar, hp3.2.1.trans hpl, hp3.2.2.1, hol3,
            ⟨hz0, hz3.1, hz3.2.1, hz3.2.2.1, trivial, trivial⟩⟩)
          (own_ctx_set_height p _ _ _ hcc3)
          ⟨hts_set_height p _ _ hpl' hlh3, ⟨trivial, trivial, by simp [hzp, hz3.2.2.2, tr.ht]⟩,
            by simp [tr.ht, hc]⟩
          ⟨lb, ⟨trivial, trivial, by simp [tr.ht], by simp [tr.ht]⟩, by
            simp only [tr.ht]; omega, by simp only [tr.ht]; omega⟩ rfl
          (by simp only [Bool.false_eq_true, if_false, tr.ht]; omega)
          (by rw [e3]; simpa using ctx_hts_set_height p _ c _ hpc (hch3 _ hch1))
          (by rw [e3]; simpa using hcb1)
        rw [e3] at ih
        simp only [Bool.false_eq_true, if_false] at ih
        obtain ⟨m', T', e, hw, ha, hk, hl, hr⟩ := ih
        refine ⟨m', T', e, hw, ?_, ?_, ?_, ?_⟩
        · rw [ha, plug_addrs]
          simp [tr.addrs]
        · intro a
          have h1 := hk a
          have h2 := hkey a
          simp only [set_height_key, set_height_val] at h1
          exact ⟨h1.1.trans h2.1, h1.2.trans h2.2⟩
        · rw [hl, ha, plug_addrs]
          simpa [tr.addrs, hph.symm] using hfirst
        · rw [hr, ha, plug_addrs]
          simpa [tr.addrs, hph.symm] using hlast

/-! ## The loop of avl_tree_rebalance_for_erase -/

theorem erase_rotate_spec (m : Nat → avl_tree_node) (c : List frame) (t sib : tr)
    (x g : Nat) (el : Bool)
    (hnd : (header :: (plug c (if el then tr.node t g sib else tr.node sib g t)).addrs).Nodup)
    (hown : own m (if el then tr.node t g sib else tr.node sib g t) (ctx_par c))
    (hctx : own_ctx m c g)
    (h1 : hts m t) (h2 : hts m sib) (b1 : t.bal) (b2 : sib.bal)
    (hs : sib.ht = t.ht + 2) :
    ∃ m' G', erase_rotate m el x sib.root g = some (m', G'.root) ∧
      replaced m m' c (if el then tr.node t g sib else tr.node sib g t) G' ∧
      G'.bal ∧ (G'.ht = t.ht + 3 ∨ G'.ht = t.ht + 2) ∧ G' ≠ tr.nil ∧
      G'.addrs = (if el then tr.node t g sib else tr.node sib g t).addrs := by
  have ht0 := tr_ht_nonneg t
  cases sib with
  | nil => simp only [tr.ht] at hs; omega
  | node sl s sr =>
    have hso : own m (tr.node sl s sr) g := by
      cases el
      · exact hown.2.2.2.2.1
      · exact hown.2.2.2.2.2
    obtain ⟨hs0, _, hsl, hsr, hosl, hosr⟩ := hso
    have hlh : height m (m s).left_ = sl.ht := by rw [hsl]; exact height_root hosl h2.1
    have hrh : height m (m s).right_ = sr.ht := by rw [hsr]; exact height_root hosr h2.2.1
    unfold erase_rotate
    simp only [tr.root, if_neg hs0, hlh, hrh]
    simp only [tr.ht, tr.bal] at hs b2
    cases el
    · -- the hole is the right child
      simp only [Bool.false_eq_true, if_false, Bool.not_false] at hnd hown ⊢
      by_cases hc : sl.ht < sr.ht
      · have hil : (if sl.ht = sr.ht then true else decide (sl.ht > sr.ht)) = false := by
          rw [if_neg (by omega)]
          simp only [decide_eq_false_iff_not]
          omega
        rw [hil]
        cases sr with
        | nil =>
          simp only [tr.ht] at hc
          have := tr_ht_nonneg sl
          omega
        | node B y C =>
          simp only [tr.root] at hsr
          obtain ⟨m', e, hr⟩ := rotate_fix_left_right m c sl B C t y s g hnd hown hctx h2.1
            h2.2.1.1 h2.2.1.2.1 h1
          refine ⟨m', _, ?_, hr, ?_, ?_, by simp, ?_⟩
          · simpa [left_right, right_left, hsr, tr.root] using e
          · simp only [tr.bal, tr.ht] at hs hc b2 ⊢
            refine ⟨⟨b2.1, b2.2.1.1, ?_, ?_⟩, ⟨b2.2.1.2.1, b1, ?_, ?_⟩, ?_, ?_⟩ <;> omega
          · simp only [tr.bal, tr.ht] at hs hc b2 ⊢
            omega
          · simp [tr.addrs]
      · have hil : (if sl.ht = sr.ht then true else decide (sl.ht > sr.ht)) = true := by
          by_cases e : sl.ht = sr.ht
          · rw [if_pos e]
          · rw [if_neg e]
            simp only [decide_eq_true_eq]
            omega
        rw [hil]
        obtain ⟨m', e, hr⟩ := rotate_fix_left_left m c sl sr t x s g hnd hown hctx h2.1 h2.2.1 h1
        refine ⟨m', _, ?_, hr, ?_, ?_, by simp, ?_⟩
        · simpa [left_right, right_left, left_left, tr.root] using e
        · simp only [tr.bal, tr.ht] at hs hc b2 ⊢
          refine ⟨b2.1, ⟨b2.2.1, b1, ?_, ?_⟩, ?_, ?_⟩ <;> omega
        · simp only [tr.bal, tr.ht] at hs hc b2 ⊢
          omega
        · simp [tr.addrs]
    · -- the hole is the left child
      simp only [if_true, Bool.not_true] at hnd hown ⊢
      by_cases hc : sl.ht > sr.ht
      · have hil : (if sl.ht = sr.ht then false else decide (sl.ht > sr.ht)) = true := by
          rw [if_neg (by omega)]
          simp only [decide_eq_true_eq]
          omega
        rw [hil]
        cases sl with
        | nil =>
          simp only [tr.ht] at hc
          have := tr_ht_nonneg sr
          omega
        | node B y C =>
          simp only [tr.root] at hsl
          obtain ⟨m', e, hr⟩ := rotate_fix_right_left m c t B C sr y s g hnd hown hctx h1
            h2.1.1 h2.1.2.1 h2.2.1
          refine ⟨m', _, ?_, hr, ?_, ?_, by simp, ?_⟩
          · simpa [left_right, right_left, hsl, tr.root] using e
          · simp only [tr.bal, tr.ht] at hs hc b2 ⊢
            refine ⟨⟨b1, b2.1.1, ?_, ?_⟩, ⟨b2.1.2.1, b2.2.1, ?_, ?_⟩, ?_, ?_⟩ <;> omega
          · simp only [tr.bal, tr.ht] at hs hc b2 ⊢
            omega
          · simp [tr.addrs]
      · have hil : (if sl.ht = sr.ht then false else decide (sl.ht > sr.ht)) = false := by
          by_cases e : sl.ht = sr.ht
          · rw [if_pos e]
          · rw [if_neg e]
            simp only [decide_eq_false_iff_not]
            omega
        rw [hil]
        obtain ⟨m', e, hr⟩ := rotate_fix_right_right m c t sl sr x s g hnd hown hctx h1 h2.1
          h2.2.1
        refine ⟨m', _, ?_, hr, ?_, ?_, by simp, ?_⟩
        · simpa [left_right, right_left, right_right, tr.root] using e
        · simp only [tr.bal, tr.ht] at hs hc b2 ⊢
          refine ⟨⟨b1, b2.1, ?_, ?_⟩, b2.2.1, ?_, ?_⟩ <;> omega
        · simp only [tr.bal, tr.ht] at hs hc b2 ⊢
          omega
        · simp [tr.addrs]

theorem side_next {m : Nat → avl_tree_node} (c : List frame) (x : Nat) (h : Int) (hx0 : x ≠ 0)
    (hxc : x ∉ ctx_before c ++ ctx_after c)
    (hctx : own_ctx m c x) (hch : ctx_hts m c h) :
    side c (decide (x = (m (ctx_par c)).left_))
      (if decide (x = (m (ctx_par c)).left_) = true then (m (ctx_par c)).right_
        else (m (ctx_par c)).left_)
      (height m (if decide (x = (m (ctx_par c)).left_) = true then (m (ctx_par c)).right_
        else (m (ctx_par c)).left_)) := by
  cases c with
  | nil => trivial
  | cons f c =>
    cases f with
    | L g r =>
      obtain ⟨_, _, hl, hr, hor, _⟩ := hctx
      simp only [side, ctx_par, hl, decide_True, if_true, hr, true_and]
      exact height_root hor hch.1
    | R l g =>
      obtain ⟨_, _, hl, hr, hol, _⟩ := hctx
      have hne : x ≠ l.root := by
        refine (root_ne hx0 (fun a ha e => hxc ?_)).symm
        rw [← e]
        simp [ctx_before, ctx_after, ha]
      simp only [side, ctx_par, hl, hne, decide_False, Bool.false_eq_true, if_false, true_and]
      exact height_root hol hch.1

theorem erase_continue {m5 : Nat → avl_tree_node} (c : List frame) (n : Nat)
    (l : tr) (a : Nat) (r : tr) (P : (Nat → avl_tree_node) → Prop)
    (hnd : (header :: (plug c (tr.node l a r)).addrs).Nodup)
    (hown : own m5 (tr.node l a r) (ctx_par c)) (hctx : own_ctx m5 c a)
    (hh : hts m5 (tr.node l a r)) (hch : ctx_hts m5 c ((tr.node l a r).ht + 1))
    (ih : ∀ x el tmp th, side c el tmp th →
      ∃ m', erase_loop n m5 x (ctx_par c) tmp el (tr.node l a r).ht th = some m' ∧ P m') :
    ∃ m', (if (m5 a).parent_ = 0 then none
      else erase_loop n m5 a (m5 a).parent_
        (if decide (a = (m5 (m5 a).parent_).left_) = true then (m5 (m5 a).parent_).right_
          else (m5 (m5 a).parent_).left_)
        (decide (a = (m5 (m5 a).parent_).left_)) (m5 a).height_
        (height m5 (if decide (a = (m5 (m5 a).parent_).left_) = true then
          (m5 (m5 a).parent_).right_ else (m5 (m5 a).parent_).left_))) = some m' ∧ P m' := by
  have hp : (m5 a).parent_ = ctx_par c := hown.2.1
  have hht : (m5 a).height_ = (tr.node l a r).ht := hh.2.2
  rw [hp, hht, if_neg (own_ctx_par_ne_zero hctx)]
  obtain ⟨_, _, hs3, _, _⟩ := sep_split hnd
  exact ih a _ _ _ (side_next c a _ hown.1 (hs3 a (tr_root_mem l a r)) hctx hch)

theorem erase_loop_spec : ∀ (c : List frame) (fuel : Nat) (m : Nat → avl_tree_node)
    (t : tr) (x : Nat) (el : Bool) (tmp : Nat) (th : Int),
    c.length < fuel →
    (header :: (plug c t).addrs).Nodup →
    own m t (ctx_par c) → own_ctx m c t.root →
    hts m t → t.bal →
    ctx_hts m c (t.ht + 1) → ctx_bal c (t.ht + 1) →
    side c el tmp th →
    ∃ m' T', erase_loop fuel m x (ctx_par c) tmp el t.ht th = some m' ∧
      whole m' T' ∧ T'.addrs = (plug c t).addrs ∧
      (∀ a, (m' a).key = (m a).key ∧ (m' a).val = (m a).val) ∧
      (m' header).left_ = (m header).left_ ∧ (m' header).right_ = (m header).right_
  | [], fuel, m, t, x, el, tmp, th, hf, hnd, hown, hctx, hh, hb, hch, hcb, hsd => by
    cases fuel with
    | zero => simp at hf
    | succ n =>
      refine ⟨m, t, ?_, ⟨hown, hctx, hh, hb⟩, rfl, fun a => ⟨rfl, rfl⟩, rfl, rfl⟩
      simp [erase_loop, ctx_par]
  | frame.L g r :: c, fuel, m, t, x, el, tmp, th, hf, hnd, hown, hctx, hh, hb, hch, hcb,
      hsd => by
    cases fuel with
    | zero => simp at hf
    | succ n =>
      have hgh := ctx_par_ne_header _ hnd
      obtain ⟨hg0, hgpar, hgl, hgr, hor, hcc⟩ := hctx
      obtain ⟨hrh, hgs, hch1⟩ := hch
      obtain ⟨rb, hb1, hb2, hcb1⟩ := hcb
      obtain ⟨hel, htmp, hth⟩ := hsd
      subst hel htmp hth
      simp only [ctx_par] at hgh hown ⊢
      generalize hH : t.ht = H at *
      have hcase : r.ht = H + 1 ∨ r.ht = H ∨ r.ht = H + 2 := by omega
      obtain ⟨hgt, hgr', hgc⟩ := frame_up_L hnd
      rw [erase_loop]
      simp only [if_neg hgh, if_neg hg0, hgs]
      rcases hcase with hc | hc | hc
      · rw [if_pos ⟨by omega, by omega⟩]
        refine ⟨m, plug (frame.L g r :: c) t, rfl, ?_, rfl, fun a => ⟨rfl, rfl⟩, rfl, rfl⟩
        have e : (H + 1) ⊔ r.ht + 1 = H ⊔ r.ht + 1 := by omega
        rw [e] at hch1 hcb1 hgs
        refine whole_plug hown ⟨hg0, hgpar, hgl, hgr, hor, hcc⟩ hh ?_ hb ?_
        · rw [hH]; exact ⟨hrh, hgs, hch1⟩
        · rw [hH]; exact ⟨rb, by omega, by omega, hcb1⟩
      · rw [if_neg (by omega), if_neg (by omega)]
        simp only [Bool.false_eq_true, if_false]
        have e1 : r.ht ⊔ H + 1 = H + 1 := by omega
        have e2 : (H + 1) ⊔ r.ht + 1 = H + 1 + 1 := by omega
        rw [e1]
        rw [e2] at hch1 hcb1
        have e3 : (tr.node t g r).ht = H + 1 := by
          simp only [tr.ht]
          omega
        have hown2 : own (set_height m g (H + 1)) (tr.node t g r) (ctx_par c) :=
          own_set_height g _ _ _ ⟨hg0, hgpar, hgl, hgr, hown, hor⟩
        have hcc2 := own_ctx_set_height g (H + 1) _ _ hcc
        have hh2 : hts (set_height m g (H + 1)) (tr.node t g r) :=
          ⟨hts_set_height g _ _ hgt hh, hts_set_height g _ _ hgr' hrh, by
            simp only [set_height_height, if_true]
            omega⟩
        have hch2 : ctx_hts (set_height m g (H + 1)) c ((tr.node t g r).ht + 1) := by
          rw [e3]
          exact ctx_hts_set_height g _ c _ hgc hch1
        obtain ⟨m', ⟨e, T', hw, ha, hk, hl, hr⟩⟩ := erase_continue c n t g r
          (fun m' => ∃ T', whole m' T' ∧ T'.addrs = (plug c (tr.node t g r)).addrs ∧
            (∀ a, (m' a).key = ((set_height m g (H + 1)) a).key ∧
              (m' a).val = ((set_height m g (H + 1)) a).val) ∧
            (m' header).left_ = ((set_height m g (H + 1)) header).left_ ∧
            (m' header).right_ = ((set_height m g (H + 1)) header).right_)
          hnd hown2 hcc2 hh2 hch2
          (fun x el tmp th hs => by
            obtain ⟨m', T', e, hr⟩ := erase_loop_spec c n (set_height m g (H + 1)) (tr.node t g r)
              x el tmp th (by simp at hf; omega) hnd hown2 hcc2 hh2
              ⟨hb, rb, by omega, by omega⟩ hch2 (by rw [e3]; exact hcb1) hs
            exact ⟨m', e, T', hr⟩)
        refine ⟨m', T', e, hw, ha, ?_, ?_, ?_⟩
        · intro a
          simpa using hk a
        · simpa using hl
        · simpa using hr
      · rw [if_neg (by omega), if_pos (by omega)]
        have e2 : (H + 1) ⊔ r.ht + 1 = H + 3 := by omega
        rw [e2] at hch1 hcb1 ⊢
        obtain ⟨m', G', e, hrep, hGb, hGh, hGn, hGa⟩ := erase_rotate_spec
          (set_height m g (r.ht ⊔ H + 1)) c t r x g true hnd
          (own_set_height g _ _ _ ⟨hg0, hgpar, hgl, hgr, hown, hor⟩)
          (own_ctx_set_height g _ _ _ hcc)
          (hts_set_height g _ _ hgt hh) (hts_set_height g _ _ hgr' hrh) hb rb (by omega)
        simp only [if_true] at e hrep hGa
        rw [e]
        obtain ⟨ho', hc', hh', hk', hht', hl', hr'⟩ := hrep
        obtain ⟨_, _, hs3, _, _⟩ := sep_split (c := c) (t := tr.node t g r) hnd
        have hchm : ∀ h, ctx_hts m c h → ctx_hts m' c h := fun h hx =>
          ctx_hts_frame c h (fun a ha => by
            rw [hht' a (fun hm => hs3 a hm ha)]
            have : a ≠ g := fun e => hgc (e ▸ ha)
            simp [this]) hx
        have hnd' : (header :: (plug c G').addrs).Nodup := by
          refine sep_congr (fun a => by rw [hGa]) ?_ hnd
          rw [hGa]
          exact (sep_split (c := c) (t := tr.node t g r) hnd).1
        have hadd : (plug c G').addrs = (plug (frame.L g r :: c) t).addrs := by
          rw [plug_addrs, hGa, plug_addrs]
          simp [tr.addrs, ctx_before, ctx_after]
        cases G' with
        | nil => exact absurd rfl hGn
        | node l' a' r' =>
          have hst : (m' a').height_ = (tr.node l' a' r').ht := hh'.2.2
          simp only [tr.root, hst] at ho' hc' ⊢
          rcases hGh with hG | hG
          · -- the height is the old one
            rw [hG, hH]
            simp only [decide_True, if_true]
            refine ⟨m', plug c (tr.node l' a' r'), rfl, ?_, hadd, ?_, ?_, ?_⟩
            · refine whole_plug ho' hc' hh' ?_ hGb ?_
              · rw [hG, hH]; exact hchm _ hch1
              · rw [hG, hH]; exact hcb1
            · intro a
              simpa using hk' a
            · simpa using hl'
            · simpa using hr'
          · have hdf : decide (H + 3 = (tr.node l' a' r').ht) = false := by
              rw [hG, hH]
              simp
            rw [hdf]
            simp only [Bool.false_eq_true, if_false]
            have e5 : (tr.node l' a' r').ht + 1 = H + 3 := by omega
            have hch2 : ctx_hts m' c ((tr.node l' a' r').ht + 1) := by
              rw [e5]
              exact hchm _ hch1
            obtain ⟨m'', ⟨e, T', hw, ha, hk, hl, hr⟩⟩ := erase_continue c n l' a' r'
              (fun m'' => ∃ T', whole m'' T' ∧ T'.addrs = (plug c (tr.node l' a' r')).addrs ∧
                (∀ a, (m'' a).key = (m' a).key ∧ (m'' a).val = (m' a).val) ∧
                (m'' header).left_ = (m' header).left_ ∧
                (m'' header).right_ = (m' header).right_)
              hnd' ho' hc' hh' hch2
              (fun x el tmp th hs => by
                obtain ⟨m'', T', e, hr⟩ := erase_loop_spec c n m' (tr.node l' a' r')
                  x el tmp th (by simp at hf; omega) hnd' ho' hc' hh' hGb hch2
                  (by rw [e5]; exact hcb1) hs
                exact ⟨m'', e, T', hr⟩)
            rw [hst] at e
            refine ⟨m'', T', e, hw, ha.trans hadd, ?_, ?_, ?_⟩
            · intro a
              have h1 := hk a
              have h2 := hk' a
              simp only [set_height_key, set_height_val] at h2
              exact ⟨h1.1.trans h2.1, h1.2.trans h2.2⟩
            · rw [hl, hl']; simp
            · rw [hr, hr']; simp
  | frame.R l g :: c, fuel, m, t, x, el, tmp, th, hf, hnd, hown, hctx, hh, hb, hch, hcb,
      hsd => by
    cases fuel with
    | zero => simp at hf
    | succ n =>
      have hgh := ctx_par_ne_header _ hnd
      obtain ⟨hg0, hgpar, hgl, hgr, hol, hcc⟩ := hctx
      obtain ⟨hlh, hgs, hch1⟩ := hch
      obtain ⟨lb, hb1, hb2, hcb1⟩ := hcb
      obtain ⟨hel, htmp, hth⟩ := hsd
      subst hel htmp hth
      simp only [ctx_par] at hgh hown ⊢
      generalize hH : t.ht = H at *
      have hcase : l.ht = H + 1 ∨ l.ht = H ∨ l.ht = H + 2 := by omega
      obtain ⟨hgt, hgl', hgc⟩ := frame_up_R hnd
      rw [erase_loop]
      simp only [if_neg hgh, if_neg hg0, hgs]
      rcases hcase with hc | hc | hc
      · rw [if_pos ⟨by omega, by omega⟩]
        refine ⟨m, plug (frame.R l g :: c) t, rfl, ?_, rfl, fun a => ⟨rfl, rfl⟩, rfl, rfl⟩
        have e : l.ht ⊔ (H + 1) + 1 = l.ht ⊔ H + 1 := by omega
        rw [e] at hch1 hcb1 hgs
        refine whole_plug hown ⟨hg0, hgpar, hgl, hgr, hol, hcc⟩ hh ?_ hb ?_
        · rw [hH]; exact ⟨hlh, hgs, hch1⟩
        · rw [hH]; exact ⟨lb, by omega, by omega, hcb1⟩
      · rw [if_neg (by omega), if_neg (by omega)]
        simp only [Bool.false_eq_true, if_false]
        have e1 : l.ht ⊔ H + 1 = H + 1 := by omega
        have e2 : l.ht ⊔ (H + 1) + 1 = H + 1 + 1 := by omega
        rw [e1]
        rw [e2] at hch1 hcb1
        have e3 : (tr.node l g t).ht = H + 1 := by
          simp only [tr.ht]
          omega
        have hown2 : own (set_height m g (H + 1)) (tr.node l g t) (ctx_par c) :=
          own_set_height g _ _ _ ⟨hg0, hgpar, hgl, hgr, hol, hown⟩
        have hcc2 := own_ctx_set_height g (H + 1) _ _ hcc
        have hh2 : hts (set_height m g (H + 1)) (tr.node l g t) :=
          ⟨hts_set_height g _ _ hgl' hlh, hts_set_height g _ _ hgt hh, by
            simp only [set_height_height, if_true]
            omega⟩
        have hch2 : ctx_hts (set_height m g (H + 1)) c ((tr.node l g t).ht + 1) := by
          rw [e3]
          exact ctx_hts_set_height g _ c _ hgc hch1
        obtain ⟨m', ⟨e, T', hw, ha, hk, hl, hr⟩⟩ := erase_continue c n l g t
          (fun m' => ∃ T', whole m' T' ∧ T'.addrs = (plug c (tr.node l g t)).addrs ∧
            (∀ a, (m' a).key = ((set_height m g (H + 1)) a).key ∧
              (m' a).val = ((set_height m g (H + 1)) a).val) ∧
            (m' header).left_ = ((set_height m g (H + 1)) header).left_ ∧
            (m' header).right_ = ((set_height m g (H + 1)) header).right_)
          hnd hown2 hcc2 hh2 hch2
          (fun x el tmp th hs => by
            obtain ⟨m', T', e, hr⟩ := erase_loop_spec c n (set_height m g (H + 1)) (tr.node l g t)
              x el tmp th (by simp at hf; omega) hnd hown2 hcc2 hh2
              ⟨lb, hb, by omega, by omega⟩ hch2 (by rw [e3]; exact hcb1) hs
            exact ⟨m', e, T', hr⟩)
        refine ⟨m', T', e, hw, ha, ?_, ?_, ?_⟩
        · intro a
          simpa using hk a
        · simpa using hl
        · simpa using hr
      · rw [if_neg (by omega), if_pos (by omega)]
        have e2 : l.ht ⊔ (H + 1) + 1 = H + 3 := by omega
        rw [e2] at hch1 hcb1 ⊢
        obtain ⟨m', G', e, hrep, hGb, hGh, hGn, hGa⟩ := erase_rotate_spec
          (set_height m g (l.ht ⊔ H + 1)) c t l x g false hnd
          (own_set_height g _ _ _ ⟨hg0, hgpar, hgl, hgr, hol, hown⟩)
          (own_ctx_set_height g _ _ _ hcc)
          (hts_set_height g _ _ hgt hh) (hts_set_height g _ _ hgl' hlh) hb lb (by omega)
        simp only [Bool.false_eq_true, if_false] at e hrep hGa
        rw [e]
        obtain ⟨ho', hc', hh', hk', hht', hl', hr'⟩ := hrep
        obtain ⟨_, _, hs3, _, _⟩ := sep_split (c := c) (t := tr.node l g t) hnd
        have hchm : ∀ h, ctx_hts m c h → ctx_hts m' c h := fun h hx =>
          ctx_hts_frame c h (fun a ha => by
            rw [hht' a (fun hm => hs3 a hm ha)]
            have : a ≠ g := fun e => hgc (e ▸ ha)
            simp [this]) hx
        have hnd' : (header :: (plug c G').addrs).Nodup := by
          refine sep_congr (fun a => by rw [hGa]) ?_ hnd
          rw [hGa]
          exact (sep_split (c := c) (t := tr.node l g t) hnd).1
        have hadd : (plug c G').addrs = (plug (frame.R l g :: c) t).addrs := by
          rw [plug_addrs, hGa, plug_addrs]
          simp [tr.addrs, ctx_before, ctx_after]
        cases G' with
        | nil => exact absurd rfl hGn
        | node l' a' r' =>
          have hst : (m' a').height_ = (tr.node l' a' r').ht := hh'.2.2
          simp only [tr.root, hst] at ho' hc' ⊢
          rcases hGh with hG | hG
          · -- the height is the old one
            rw [hG, hH]
            simp only [decide_True, if_true]
            refine ⟨m', plug c (tr.node l' a' r'), rfl, ?_, hadd, ?_, ?_, ?_⟩
            · refine whole_plug ho' hc' hh' ?_ hGb ?_
              · rw [hG, hH]; exact hchm _ hch1
              · rw [hG, hH]; exact hcb1
            · intro a
              simpa using hk' a
            · simpa using hl'
            · simpa using hr'
          · have hdf : decide (H + 3 = (tr.node l' a' r').ht) = false := by
              rw [hG, hH]
              simp
            rw [hdf]
            simp only [Bool.false_eq_true, if_false]
            have e5 : (tr.node l' a' r').ht + 1 = H + 3 := by omega
            have hch2 : ctx_hts m' c ((tr.node l' a' r').ht + 1) := by
              rw [e5]
              exact hchm _ hch1
            obtain ⟨m'', ⟨e, T', hw, ha, hk, hl, hr⟩⟩ := erase_continue c n l' a' r'
              (fun m'' => ∃ T', whole m'' T' ∧ T'.addrs = (plug c (tr.node l' a' r')).addrs ∧
                (∀ a, (m'' a).key = (m' a).key ∧ (m'' a).val = (m' a).val) ∧
                (m'' header).left_ = (m' header).left_ ∧
                (m'' header).right_ = (m' header).right_)
              hnd' ho' hc' hh' hch2
              (fun x el tmp th hs => by
                obtain ⟨m'', T', e, hr⟩ := erase_loop_spec c n m' (tr.node l' a' r')
                  x el tmp th (by simp at hf; omega) hnd' ho' hc' hh' hGb hch2
                  (by rw [e5]; exact hcb1) hs
                exact ⟨m'', e, T', hr⟩)
            rw [hst] at e
            refine ⟨m'', T', e, hw, ha.trans hadd, ?_, ?_, ?_⟩
            · intro a
              have h1 := hk a
              have h2 := hk' a
              simp only [set_height_key, set_height_val] at h2
              exact ⟨h1.1.trans h2.1, h1.2.trans h2.2⟩
            · rw [hl, hl']; simp
            · rw [hr, hr']; simp

/-! ## The leftmost and the rightmost node of a subtree -/

theorem ctx_length_le : ∀ (c : List frame), c.length ≤ (ctx_before c ++ ctx_after c).length
  | [] => by simp
  | frame.L a r :: c => by
    have := ctx_length_le c
    simp only [ctx_before, ctx_after, List.length_append, List.length_cons] at this ⊢
    omega
  | frame.R l a :: c => by
    have := ctx_length_le c
    simp only [ctx_before, ctx_after, List.length_append, List.length_cons,
      List.length_singleton] at this ⊢
    omega

theorem first_or_append_of_ne (u v : List Nat) (h : u ≠ []) : first_or (u ++ v) = first_or u := by
  cases u with
  | nil => exact absurd rfl h
  | cons a u => rfl

theorem last_or_append_of_ne (u v : List Nat) (h : v ≠ []) : last_or (u ++ v) = last_or v := by
  cases v with
  | nil => exact absurd rfl h
  | cons a v =>
    rw [last_or_append_cons]
    exact (last_or_append_cons [] a v).symm

theorem minimum_spec {m : Nat → avl_tree_node} : ∀ (l : tr) (a : Nat) (r : tr) (par : Nat)
    (fuel : Nat), own m (tr.node l a r) par → (tr.node l a r).addrs.length < fuel →
    minimum fuel m a = some (first_or (tr.node l a r).addrs)
  | .nil, a, r, par, fuel, ho, hf => by
    cases fuel with
    | zero => simp at hf
    | succ n =>
      obtain ⟨h0, _, hl, _, _, _⟩ := ho
      simp only [tr.root] at hl
      simp [minimum, h0, hl, tr.addrs, first_or]
  | .node ll b lr, a, r, par, fuel, ho, hf => by
    cases fuel with
    | zero => simp at hf
    | succ n =>
      obtain ⟨h0, _, hl, _, hol, _⟩ := ho
      simp only [tr.root] at hl
      have ih := minimum_spec ll b lr a n hol (by
        simp only [tr.addrs, List.length_append, List.length_cons] at hf ⊢
        omega)
      have hb0 : b ≠ 0 := hol.1
      rw [minimum]
      simp only [if_neg h0, hl, hb0, ne_eq, not_false_eq_true, if_true]
      rw [ih]
      have hne : (tr.node ll b lr).addrs ≠ [] := by simp [tr.addrs]
      rw [show (tr.node (tr.node ll b lr) a r).addrs = (tr.node ll b lr).addrs ++ a :: r.addrs
        from rfl, first_or_append_of_ne _ _ hne]

theorem maximum_spec {m : Nat → avl_tree_node} : ∀ (l : tr) (a : Nat) (r : tr) (par : Nat)
    (fuel : Nat), own m (tr.node l a r) par → (tr.node l a r).addrs.length < fuel →
    maximum fuel m a = some (last_or (tr.node l a r).addrs)
  | l, a, .nil, par, fuel, ho, hf => by
    cases fuel with
    | zero => simp at hf
    | succ n =>
      obtain ⟨h0, _, _, hr, _, _⟩ := ho
      simp only [tr.root] at hr
      simp only [maximum, if_neg h0, hr, ne_eq, not_true_eq_false, if_false, tr.addrs]
      rw [last_or_append_cons, if_pos rfl]
  | l, a, .node rl b rr, par, fuel, ho, hf => by
    cases fuel with
    | zero => simp at hf
    | succ n =>
      obtain ⟨h0, _, _, hr, _, hor⟩ := ho
      simp only [tr.root] at hr
      have ih := maximum_spec rl b rr a n hor (by
        simp only [tr.addrs, List.length_append, List.length_cons] at hf ⊢
        omega)
      have hb0 : b ≠ 0 := hor.1
      rw [maximum]
      simp only [if_neg h0, hr, hb0, ne_eq, not_false_eq_true, if_true]
      rw [ih]
      have hne : (tr.node rl b rr).addrs ≠ [] := by simp [tr.addrs]
      rw [show (tr.node l a (tr.node rl b rr)).addrs = (l.addrs ++ [a]) ++ (tr.node rl b rr).addrs
        by simp [tr.addrs], last_or_append_of_ne _ _ hne]

/-! ## Unlinking a node that has at most one child -/

theorem ite_set_parent (μ : Nat → avl_tree_node) (x v : Nat) (cnd : Prop) [Decidable cnd] :
    (if cnd then set_parent μ x v else μ) = set_parent μ x (if cnd then v else (μ x).parent_) := by
  split
  · rfl
  · funext a
    unfold set_parent
    split
    · next h => rw [h]
    · rfl

theorem own_ctx_root {m : Nat → avl_tree_node} : ∀ (c : List frame) (x : Nat), own_ctx m c x →
    (c = [] ∧ (m header).parent_ = x) ∨
      (c ≠ [] ∧ (m header).parent_ ∈ ctx_before c ++ ctx_after c)
  | [], x, h => Or.inl ⟨rfl, h⟩
  | frame.L a r :: c, x, h => by
    right
    refine ⟨List.cons_ne_nil _ _, ?_⟩
    rcases own_ctx_root c a h.2.2.2.2.2 with ⟨_, e⟩ | ⟨_, e⟩
    · rw [e]; simp [ctx_before, ctx_after]
    · simp only [ctx_before, ctx_after, List.mem_append, List.mem_cons] at e ⊢
      tauto
  | frame.R l a :: c, x, h => by
    right
    refine ⟨List.cons_ne_nil _ _, ?_⟩
    rcases own_ctx_root c a h.2.2.2.2.2 with ⟨_, e⟩ | ⟨_, e⟩
    · rw [e]; simp [ctx_before, ctx_after]
    · simp only [ctx_before, ctx_after, List.mem_append, List.mem_cons] at e ⊢
      tauto

theorem unlink_pointers_spec (m : Nat → avl_tree_node) (c : List frame) (l r t' : tr) (z : Nat)
    (hnd : (header :: (plug c (tr.node l z r)).addrs).Nodup)
    (hown : own m (tr.node l z r) (ctx_par c)) (hctx : own_ctx m c z)
    (ht : (l = tr.nil ∧ t' = r) ∨ (r = tr.nil ∧ t' = l)) :
    (unlink_pointers m z t'.root).2 = ctx_left c ∧
    own (unlink_pointers m z t'.root).1 t' (ctx_par c) ∧
    own_ctx (unlink_pointers m z t'.root).1 c t'.root ∧
    (∀ a, ((unlink_pointers m z t'.root).1 a).key = (m a).key ∧
      ((unlink_pointers m z t'.root).1 a).val = (m a).val ∧
      ((unlink_pointers m z t'.root).1 a).height_ = (m a).height_) ∧
    ((unlink_pointers m z t'.root).1 header).left_ = (m header).left_ ∧
    ((unlink_pointers m z t'.root).1 header).right_ = (m header).right_ ∧
    (unlink_pointers m z t'.root).1 z = m z := by
  obtain ⟨hz0, hzp, hzl, hzr, hol, hor⟩ := hown
  obtain ⟨hn1, hn2, hn3, hn4, hn5⟩ := sep_split hnd
  have hG : ∀ a ∈ (tr.node l z r).addrs, a ≠ ctx_par c :=
    fun a ha e => ctx_par_not_mem hnd (e ▸ ha)
  simp only [tr.addrs] at hn1 hn3 hn4 hG
  have hZ := nodup_mid hn1
  have hsub : ∀ a ∈ t'.addrs, a ∈ l.addrs ++ r.addrs := by
    intro a ha
    rcases ht with ⟨_, e⟩ | ⟨_, e⟩ <;> subst e <;> simp [ha]
  have hot : own m t' z := by
    rcases ht with ⟨_, e⟩ | ⟨_, e⟩ <;> subst e <;> assumption
  have htn : t'.addrs.Nodup := by
    rcases ht with ⟨_, e⟩ | ⟨_, e⟩ <;> subst e
    · exact (List.nodup_cons.1 (List.nodup_append.1 hn1).2.1).2
    · exact (List.nodup_append.1 hn1).1
  have hmem : ∀ a ∈ t'.addrs, a ∈ l.addrs ++ z :: r.addrs := by
    intro a ha
    have := hsub a ha
    simp only [List.mem_append, List.mem_cons] at this ⊢
    tauto
  have hp0 := own_ctx_par_ne_zero hctx
  have hzh : z ≠ header := fun e => hn4 (by simp [← e])
  have hzP : z ≠ ctx_par c := hG z (by simp)
  have hxz : t'.root ≠ z := root_ne hz0 (fun a ha => hZ a (hsub a ha))
  have hxP : t'.root ≠ ctx_par c := root_ne hp0 (fun a ha => hG a (hmem a ha))
  have hxh : t'.root ≠ header := root_ne header_ne_zero
    (fun a ha e => hn4 (e ▸ hmem a ha))
  unfold unlink_pointers
  simp only [ite_set_parent, hzp]
  obtain ⟨v, hv⟩ : ∃ v, v = (if t'.root ≠ 0 then ctx_par c else (m t'.root).parent_) := ⟨_, rfl⟩
  rw [← hv]
  have hv' : t'.root ≠ 0 → v = ctx_par c := fun h => by rw [hv, if_pos h]
  have hv0 : t'.root = 0 → v = (m t'.root).parent_ := fun h => by rw [hv, if_neg (by simp [h])]
  cases c with
  | nil =>
    simp only [ctx_par, own_ctx] at hctx hxP hzP hv' ⊢
    simp only [set_parent_parent, if_neg hxh.symm, hctx, if_true, ctx_left]
    refine ⟨trivial, ?_, ?_, ?_, ?_, ?_, ?_⟩
    · refine own_move t' z header htn (fun a _ => by simp) (fun a ha hne => ?_) (fun h => ?_) hot
      · have : a ≠ header := fun e => hn4 (e ▸ hmem a ha)
        simp [hne, this]
      · simp [hxh, hv' h]
    · simp
    · intro a; simp
    · simp
    · simp
    · simp [set_parent, hzh, hxz.symm]
  | cons f c =>
    have hrt : (m header).parent_ ≠ z := by
      rcases own_ctx_root _ _ hctx with ⟨h, _⟩ | ⟨_, h⟩
      · exact absurd h (List.cons_ne_nil _ _)
      · exact fun e => hn3 z (by simp) (e ▸ h)
    have hps : ∀ a, (a ≠ t'.root ∨ t'.root = 0) →
        (set_parent m t'.root v a).parent_ = (m a).parent_ := by
      intro a ha
      rcases ha with ha | ha
      · simp [ha]
      · rw [set_parent_parent]
        split
        · next e => rw [hv0 ha, e]
        · rfl
    have hcx : ∀ a ∈ ctx_before (f :: c) ++ ctx_after (f :: c), a ≠ t'.root ∨ t'.root = 0 := by
      intro a ha
      rcases root_cases t' with ⟨_, e⟩ | ⟨_, e⟩
      · exact Or.inr e
      · exact Or.inl (fun h => hn3 _ (hmem _ e) (h ▸ ha))
    have hgm : ctx_par (f :: c) ∈ ctx_before (f :: c) ++ ctx_after (f :: c) := by
      rcases ctx_par_cases (f :: c) with ⟨h, _⟩ | ⟨_, h⟩
      · exact absurd h (List.cons_ne_nil _ _)
      · exact h
    have hgh : ctx_par (f :: c) ≠ header := fun e => hn5 (e ▸ hgm)
    have hgpz : (m (ctx_par (f :: c))).parent_ ≠ z := by
      cases f with
      | L g s =>
        show (m g).parent_ ≠ z
        rw [hctx.2.1]
        rcases ctx_par_cases c with ⟨_, h⟩ | ⟨_, h⟩
        · rw [h]; exact hzh.symm
        · refine fun e => hn3 z (by simp) ?_
          rw [← e]
          simp only [ctx_before, ctx_after, List.mem_append, List.mem_cons] at h ⊢
          tauto
      | R s g =>
        show (m g).parent_ ≠ z
        rw [hctx.2.1]
        rcases ctx_par_cases c with ⟨_, h⟩ | ⟨_, h⟩
        · rw [h]; exact hzh.symm
        · refine fun e => hn3 z (by simp) ?_
          rw [← e]
          simp only [ctx_before, ctx_after, List.mem_append, List.mem_cons] at h ⊢
          tauto
    simp only [set_parent_parent, if_neg hxh.symm, if_neg hrt, if_neg hxz.symm, hzp,
      set_parent_left]
    have key : ∀ (m2 : Nat → avl_tree_node),
        (∀ a, (m2 a).key = (m a).key ∧ (m2 a).val = (m a).val ∧
          (m2 a).height_ = (m a).height_) →
        (∀ a, a ≠ ctx_par (f :: c) → (m2 a).left_ = (m a).left_ ∧
          (m2 a).right_ = (m a).right_ ∧
          (m2 a).parent_ = (set_parent m t'.root v a).parent_) →
        (m2 (ctx_par (f :: c))).parent_ = (m (ctx_par (f :: c))).parent_ →
        repointed m m2 (ctx_par (f :: c)) z t'.root →
        own m2 t' (ctx_par (f :: c)) ∧ own_ctx m2 (f :: c) t'.root ∧
        (∀ a, (m2 a).key = (m a).key ∧ (m2 a).val = (m a).val ∧
          (m2 a).height_ = (m a).height_) ∧
        (m2 header).left_ = (m header).left_ ∧ (m2 header).right_ = (m header).right_ ∧
        m2 z = m z := by
      intro m2 hk hoth hgp hrep
      have hsame : ∀ a, a ≠ ctx_par (f :: c) → (a ≠ t'.root ∨ t'.root = 0) →
          (m2 a).parent_ = (m a).parent_ ∧ (m2 a).left_ = (m a).left_ ∧
            (m2 a).right_ = (m a).right_ := by
        intro a h1 h2
        obtain ⟨e1, e2, e3⟩ := hoth a h1
        exact ⟨e3.trans (hps a h2), e1, e2⟩
      refine ⟨?_, ?_, hk, ?_, ?_, ?_⟩
      · refine own_move t' z _ htn (fun a ha => ?_) (fun a ha hne => ?_) (fun h => ?_) hot
        · have := hoth a (hG a (hmem a ha))
          exact ⟨this.1, this.2.1⟩
        · exact (hsame a (hG a (hmem a ha)) (Or.inl hne)).1
        · rw [(hoth _ hxP).2.2]
          simp [hv' h]
      · exact own_ctx_repoint (f :: c) z t'.root hz0 hn2 (hn3 z (by simp)) hzh hctx
          (fun a ha hne => hsame a hne (hcx a ha))
          (fun _ => (hsame header hgh.symm (Or.inl hxh.symm)).1) hrep
      · exact (hsame header hgh.symm (Or.inl hxh.symm)).2.1
      · exact (hsame header hgh.symm (Or.inl hxh.symm)).2.2
      · obtain ⟨e1, e2, e3⟩ := hsame z hzP (Or.inl hxz.symm)
        obtain ⟨e4, e5, e6⟩ := hk z
        cases hm2 : m2 z
        cases hm : m z
        simp only [hm2, hm] at e1 e2 e3 e4 e5 e6
        simp [e1, e2, e3, e4, e5, e6]
    cases f with
    | L g s =>
      obtain ⟨hg0, hgpar, hgl, hgr, hos, hcc⟩ := hctx
      simp only [ctx_par] at hgh hgpz hxP hzP key ⊢
      simp only [hgl, if_true, ctx_left, true_and]
      refine key _ (fun a => by simp) (fun a ha => by simp [ha]) (by simp [hxP.symm]) ?_
      refine ⟨fun h => absurd h hgpz, fun _ _ _ => ?_, fun h1 h2 h3 => absurd hgl h3⟩
      simp [hxP.symm]
    | R s g =>
      obtain ⟨hg0, hgpar, hgl, hgr, hos, hcc⟩ := hctx
      simp only [ctx_par] at hgh hgpz hxP hzP key ⊢
      have hlz : (m g).left_ ≠ z := by
        rw [hgl]
        refine root_ne hz0 (fun a ha e => hn3 z (by simp) ?_)
        rw [← e]
        simp [ctx_before, ctx_after, ha]
      simp only [if_neg hlz, ctx_left, true_and]
      refine key _ (fun a => by simp) (fun a ha => by simp [ha]) (by simp [hxP.symm]) ?_
      refine ⟨fun h => absurd h hgpz, fun h1 h2 h3 => absurd h2 hlz, fun _ _ _ => ?_⟩
      simp [hxP.symm]

theorem first_after (c : List frame) (h : ctx_before c = []) :
    first_or (ctx_after c) = ctx_par c := by
  cases c with
  | nil => rfl
  | cons f c =>
    cases f with
    | L g s => simp [ctx_after, ctx_par, first_or]
    | R s g => simp [ctx_before] at h

theorem last_before (c : List frame) (h : ctx_after c = []) :
    last_or (ctx_before c) = ctx_par c := by
  cases c with
  | nil => rfl
  | cons f c =>
    cases f with
    | L g s => simp [ctx_after] at h
    | R s g =>
      simp only [ctx_before, ctx_par]
      rw [last_or_append_cons, if_pos rfl]

theorem set_left_self (m : Nat → avl_tree_node) (x : Nat) : set_left m x (m x).left_ = m := by
  funext a
  unfold set_left
  split
  · next h => rw [h]
  · rfl

theorem set_right_self (m : Nat → avl_tree_node) (x : Nat) :
    set_right m x (m x).right_ = m := by
  funext a
  unfold set_right
  split
  · next h => rw [h]
  · rfl

theorem tr_addrs_eq_nil {t : tr} : t.addrs = [] ↔ t = tr.nil := by
  cases t <;> simp [tr.addrs]

theorem unlink_leftmost_spec (fuel : Nat) (m2 : Nat → avl_tree_node) (c : List frame)
    (l r t' : tr) (z : Nat)
    (hf : t'.addrs.length < fuel)
    (hnd : (ctx_before c ++ (l.addrs ++ z :: r.addrs) ++ ctx_after c).Nodup)
    (hot : own m2 t' (ctx_par c))
    (hzr : (m2 z).right_ = r.root) (hzp : (m2 z).parent_ = ctx_par c)
    (ht : (l = tr.nil ∧ t' = r) ∨ (r = tr.nil ∧ t' = l))
    (hleft : (m2 header).left_ = first_or (ctx_before c ++ (l.addrs ++ z :: r.addrs) ++
      ctx_after c)) :
    unlink_leftmost fuel m2 z t'.root =
      some (set_left m2 header (first_or (ctx_before c ++ t'.addrs ++ ctx_after c))) := by
  unfold unlink_leftmost
  by_cases hb : ctx_before c = [] ∧ l = tr.nil
  · obtain ⟨hb1, hb2⟩ := hb
    subst hb2
    have ht' : t' = r := by
      rcases ht with ⟨_, e⟩ | ⟨e1, e2⟩
      · exact e
      · rw [e1, e2]
    subst ht'
    rw [hb1] at hleft ⊢
    simp only [tr.addrs, List.nil_append, List.cons_append, first_or_cons] at hleft ⊢
    rw [if_pos hleft, hzr, hzp]
    cases t' with
    | nil =>
      simp only [tr.root, if_true, tr.addrs, List.nil_append]
      rw [first_after c hb1]
    | node rl b rr =>
      have hb0 : b ≠ 0 := hot.1
      simp only [tr.root, if_neg hb0]
      rw [minimum_spec rl b rr _ fuel hot hf]
      have hne : (tr.node rl b rr).addrs ≠ [] := by simp [tr.addrs]
      rw [first_or_append_of_ne _ _ hne]
  · have hne : (m2 header).left_ ≠ z := by
      rw [hleft]
      by_cases hb1 : ctx_before c = []
      · have hl : l.addrs ≠ [] := fun e => hb ⟨hb1, tr_addrs_eq_nil.1 e⟩
        rw [hb1, List.nil_append, List.append_assoc, first_or_append_of_ne _ _ hl]
        intro e
        have := first_or_mem hl
        rw [e] at this
        have hn := (List.nodup_append.1 (List.nodup_append.1 hnd).1).2.1
        exact nodup_mid hn z (by simp [this]) rfl
      · rw [List.append_assoc, first_or_append_of_ne _ _ hb1]
        intro e
        have := first_or_mem hb1
        rw [e] at this
        have hn : (ctx_before c ++ z :: (r.addrs ++ ctx_after c)).Nodup := by
          have := hnd
          simp only [List.append_assoc, List.cons_append] at this
          rw [List.nodup_append] at this ⊢
          refine ⟨this.1, ?_, ?_⟩
          · exact (List.nodup_append.1 this.2.1).2.1
          · intro a ha hb
            exact this.2.2 ha (by simp only [List.mem_append]; exact Or.inr hb)
        exact nodup_mid hn z (by simp [this]) rfl
    rw [if_neg hne]
    have e : first_or (ctx_before c ++ t'.addrs ++ ctx_after c) = (m2 header).left_ := by
      rw [hleft]
      by_cases hb1 : ctx_before c = []
      · have hl : l ≠ tr.nil := fun e => hb ⟨hb1, e⟩
        have ht' : t' = l ∧ r = tr.nil := by
          rcases ht with ⟨e, _⟩ | ⟨e1, e2⟩
          · exact absurd e hl
          · exact ⟨e2, e1⟩
        have hl' : l.addrs ≠ [] := fun e => hl (tr_addrs_eq_nil.1 e)
        rw [ht'.1, hb1, List.nil_append, List.nil_append, List.append_assoc,
          first_or_append_of_ne _ _ hl', first_or_append_of_ne _ _ hl']
      · rw [List.append_assoc, List.append_assoc, first_or_append_of_ne _ _ hb1,
          first_or_append_of_ne _ _ hb1]
    rw [e, set_left_self]

theorem unlink_rightmost_spec (fuel : Nat) (m2 : Nat → avl_tree_node) (c : List frame)
    (l r t' : tr) (z : Nat)
    (hf : t'.addrs.length < fuel)
    (hnd : (ctx_before c ++ (l.addrs ++ z :: r.addrs) ++ ctx_after c).Nodup)
    (hot : own m2 t' (ctx_par c))
    (hzl : (m2 z).left_ = l.root) (hzp : (m2 z).parent_ = ctx_par c)
    (ht : (l = tr.nil ∧ t' = r) ∨ (r = tr.nil ∧ t' = l))
    (hright : (m2 header).right_ = last_or (ctx_before c ++ (l.addrs ++ z :: r.addrs) ++
      ctx_after c)) :
    unlink_rightmost fuel m2 z t'.root =
      some (set_right m2 header (last_or (ctx_before c ++ t'.addrs ++ ctx_after c))) := by
  unfold unlink_rightmost
  have hnd' : ((ctx_before c ++ l.addrs) ++ z :: (r.addrs ++ ctx_after c)).Nodup := by
    simpa using hnd
  have hZ := nodup_mid hnd'
  by_cases hb : ctx_after c = [] ∧ r = tr.nil
  · obtain ⟨hb1, hb2⟩ := hb
    subst hb2
    have ht' : t' = l := by
      rcases ht with ⟨e1, e2⟩ | ⟨_, e⟩
      · rw [e1, e2]
      · exact e
    subst ht'
    rw [hb1] at hright ⊢
    simp only [tr.addrs, List.append_nil] at hright ⊢
    rw [← List.append_assoc, last_or_append_cons, if_pos rfl] at hright
    rw [if_pos hright, hzl, hzp]
    cases t' with
    | nil =>
      simp only [tr.root, if_true, tr.addrs, List.append_nil]
      rw [last_before c hb1]
    | node ll b lr =>
      have hb0 : b ≠ 0 := hot.1
      simp only [tr.root, if_neg hb0]
      rw [maximum_spec ll b lr _ fuel hot hf]
      have hne : (tr.node ll b lr).addrs ≠ [] := by simp [tr.addrs]
      rw [last_or_append_of_ne _ _ hne]
  · have e0 : ctx_before c ++ (l.addrs ++ z :: r.addrs) ++ ctx_after c =
        (ctx_before c ++ l.addrs) ++ z :: (r.addrs ++ ctx_after c) := by simp
    have hne : (m2 header).right_ ≠ z := by
      rw [hright, e0]
      have hv : r.addrs ++ ctx_after c ≠ [] := by
        intro e
        rw [List.append_eq_nil] at e
        exact hb ⟨e.2, tr_addrs_eq_nil.1 e.1⟩
      rw [last_or_append_cons, if_neg hv]
      intro e
      have := last_or_mem hv
      rw [e] at this
      exact hZ z (by
        simp only [List.mem_append] at this ⊢
        tauto) rfl
    rw [if_neg hne]
    have e : last_or (ctx_before c ++ t'.addrs ++ ctx_after c) = (m2 header).right_ := by
      rw [hright]
      by_cases hb1 : ctx_after c = []
      · have hr : r ≠ tr.nil := fun e => hb ⟨hb1, e⟩
        have ht' : t' = r ∧ l = tr.nil := by
          rcases ht with ⟨e1, e2⟩ | ⟨e, _⟩
          · exact ⟨e2, e1⟩
          · exact absurd e hr
        have hr' : r.addrs ≠ [] := fun e => hr (tr_addrs_eq_nil.1 e)
        rw [ht'.1, ht'.2, hb1, List.append_nil, List.append_nil]
        simp only [tr.addrs, List.nil_append]
        rw [last_or_append_of_ne _ _ hr',
          last_or_append_of_ne _ (z :: r.addrs) (by simp)]
        exact (last_or_append_of_ne [z] r.addrs hr').symm
      · rw [last_or_append_of_ne _ _ hb1, last_or_append_of_ne _ _ hb1]
    rw [e, set_right_self]

theorem erase_unlink_spec (fuel : Nat) (m : Nat → avl_tree_node) (c : List frame)
    (l r t' : tr) (z : Nat)
    (hf : t'.addrs.length < fuel)
    (hnd : (header :: (plug c (tr.node l z r)).addrs).Nodup)
    (hown : own m (tr.node l z r) (ctx_par c)) (hctx : own_ctx m c z)
    (ht : (l = tr.nil ∧ t' = r) ∨ (r = tr.nil ∧ t' = l))
    (hleft : (m header).left_ = first_or (plug c (tr.node l z r)).addrs)
    (hright : (m header).right_ = last_or (plug c (tr.node l z r)).addrs) :
    ∃ m', erase_unlink fuel m z t'.root = some (m', ctx_par c, ctx_left c) ∧
      own m' t' (ctx_par c) ∧ own_ctx m' c t'.root ∧
      (∀ a, (m' a).key = (m a).key ∧ (m' a).val = (m a).val ∧
        (m' a).height_ = (m a).height_) ∧
      (m' header).left_ = first_or (plug c t').addrs ∧
      (m' header).right_ = last_or (plug c t').addrs := by
  obtain ⟨e1, ho2, hc2, hk2, hl2, hr2, hz2⟩ := unlink_pointers_spec m c l r t' z hnd hown hctx ht
  obtain ⟨_, hn2, hn3, hn4, hn5⟩ := sep_split hnd
  have hnd1 : (ctx_before c ++ (l.addrs ++ z :: r.addrs) ++ ctx_after c).Nodup := by
    have := (List.nodup_cons.1 hnd).2
    rw [plug_addrs] at this
    simpa [tr.addrs] using this
  rw [plug_addrs] at hleft hright
  simp only [tr.addrs] at hleft hright hn3 hn4
  have hzh : z ≠ header := fun e => hn4 (by simp [← e])
  have hth : header ∉ t'.addrs := by
    intro h
    apply hn4
    rcases ht with ⟨_, e⟩ | ⟨_, e⟩ <;> subst e <;> simp [h]
  unfold erase_unlink
  obtain ⟨m2, hm2⟩ : ∃ m2, m2 = (unlink_pointers m z t'.root).1 := ⟨_, rfl⟩
  rw [← hm2] at ho2 hc2 hk2 hl2 hr2 hz2 ⊢
  rw [unlink_leftmost_spec fuel m2 c l r t' z hf hnd1 ho2 (by rw [hz2]; exact hown.2.2.2.1)
    (by rw [hz2]; exact hown.2.1) ht (by rw [hl2]; exact hleft)]
  simp only []
  obtain ⟨m4, hm4⟩ : ∃ m4, m4 = set_left m2 header
    (first_or (ctx_before c ++ t'.addrs ++ ctx_after c)) := ⟨_, rfl⟩
  rw [← hm4]
  have hta : ∀ a ∈ t'.addrs, a ≠ header := fun a ha e => hth (e ▸ ha)
  have hca : ∀ a ∈ ctx_before c ++ ctx_after c, a ≠ header := fun a ha e => hn5 (e ▸ ha)
  have ho4 : own m4 t' (ctx_par c) := by
    rw [hm4]
    exact own_frame t' _ (fun a ha => by simp [hta a ha]) ho2
  rw [unlink_rightmost_spec fuel m4 c l r t' z hf hnd1 ho4
    (by rw [hm4]; simp [hz2, hown.2.2.1, hzh]) (by rw [hm4]; simp [hz2, hown.2.1]) ht
    (by rw [hm4]; simp [hr2, hright])]
  simp only [hown.2.1, e1]
  refine ⟨_, rfl, ?_, ?_, ?_, ?_, ?_⟩
  · exact own_frame t' _ (fun a ha => by simp [hta a ha]) ho4
  · rw [hm4]
    exact own_ctx_frame c _ (fun a ha => by simp [hca a ha]) (by simp) hc2
  · intro a
    rw [hm4]
    simpa using hk2 a
  · rw [hm4, plug_addrs]
    simp
  · rw [plug_addrs]
    simp

/-! ## Paths put end to end -/

theorem ctx_before_append : ∀ (c d : List frame),
    ctx_before (c ++ d) = ctx_before d ++ ctx_before c
  | [], d => by simp [ctx_before]
  | frame.L a r :: c, d => by simp [ctx_before, ctx_before_append c d]
  | frame.R l a :: c, d => by simp [ctx_before, ctx_before_append c d]

theorem ctx_after_append : ∀ (c d : List frame),
    ctx_after (c ++ d) = ctx_after c ++ ctx_after d
  | [], d => by simp [ctx_after]
  | frame.L a r :: c, d => by simp [ctx_after, ctx_after_append c d]
  | frame.R l a :: c, d => by simp [ctx_after, ctx_after_append c d]

theorem ctx_par_append_cons (f : frame) (c d : List frame) :
    ctx_par ((f :: c) ++ d) = ctx_par (f :: c) := by
  cases f <;> rfl

theorem ctx_left_append_cons (f : frame) (c d : List frame) :
    ctx_left ((f :: c) ++ d) = ctx_left (f :: c) := by
  cases f <;> rfl

theorem ctx_hts_mid {m m' : Nat → avl_tree_node} (l : tr) (z y : Nat) (c : List frame)
    (hl : hts m l → hts m' l)
    (hy : (m' y).height_ = (m z).height_)
    (hc : ∀ h, ctx_hts m c h → ctx_hts m' c h) :
    ∀ (d : List frame) (h : Int),
      (∀ a ∈ ctx_before d ++ ctx_after d, (m' a).height_ = (m a).height_) →
      ctx_hts m (d ++ frame.R l z :: c) h → ctx_hts m' (d ++ frame.R l y :: c) h
  | [], h, _, hh => by
    obtain ⟨h1, h2, h3⟩ := hh
    exact ⟨hl h1, hy.trans h2, hc _ h3⟩
  | frame.L a r :: d, h, hf, hh => by
    obtain ⟨h1, h2, h3⟩ := hh
    refine ⟨hts_frame r (fun b hb => hf b (by simp [ctx_before, ctx_after, hb])) h1, ?_, ?_⟩
    · rw [hf a (by simp [ctx_before, ctx_after])]; exact h2
    · exact ctx_hts_mid l z y c hl hy hc d _ (fun b hb => hf b (by
        simp only [ctx_before, ctx_after, List.mem_append, List.mem_cons] at hb ⊢
        tauto)) h3
  | frame.R r a :: d, h, hf, hh => by
    obtain ⟨h1, h2, h3⟩ := hh
    refine ⟨hts_frame r (fun b hb => hf b (by simp [ctx_before, ctx_after, hb])) h1, ?_, ?_⟩
    · rw [hf a (by simp [ctx_before, ctx_after])]; exact h2
    · exact ctx_hts_mid l z y c hl hy hc d _ (fun b hb => hf b (by
        simp only [ctx_before, ctx_after, List.mem_append, List.mem_cons] at hb ⊢
        tauto)) h3

theorem ctx_bal_mid (l : tr) (z y : Nat) (c : List frame) : ∀ (d : List frame) (h : Int),
    ctx_bal (d ++ frame.R l z :: c) h → ctx_bal (d ++ frame.R l y :: c) h
  | [], _, hh => hh
  | frame.L a r :: d, h, hh => ⟨hh.1, hh.2.1, hh.2.2.1, ctx_bal_mid l z y c d _ hh.2.2.2⟩
  | frame.R r a :: d, h, hh => ⟨hh.1, hh.2.1, hh.2.2.1, ctx_bal_mid l z y c d _ hh.2.2.2⟩

/-- The values of `erase_left`, `tmp` and `tmp_height` computed after a node
has been unlinked. -/
theorem side_of_ctx {m : Nat → avl_tree_node} (c : List frame) (x : Nat) (h : Int)
    (hctx : own_ctx m c x) (hch : ctx_hts m c h) :
    side c (ctx_left c)
      (if ctx_left c = true then (m (ctx_par c)).right_ else (m (ctx_par c)).left_)
      (height m (if ctx_left c = true then (m (ctx_par c)).right_
        else (m (ctx_par c)).left_)) := by
  cases c with
  | nil => trivial
  | cons f c =>
    cases f with
    | L g r =>
      obtain ⟨_, _, _, hr, hor, _⟩ := hctx
      simp only [side, ctx_par, ctx_left, if_true, hr, true_and]
      exact height_root hor hch.1
    | R l g =>
      obtain ⟨_, _, hl, _, hol, _⟩ := hctx
      simp only [side, ctx_par, ctx_left, Bool.false_eq_true, if_false, hl, true_and]
      exact height_root hol hch.1

/-- The leftmost node of a tree that is not empty is at the end of a path of
left children. -/
theorem min_exists : ∀ (l : tr) (a : Nat) (r : tr),
    ∃ d y ry, tr.node l a r = plug d (tr.node tr.nil y ry) ∧ ctx_before d = []
  | .nil, a, r => ⟨[], a, r, rfl, rfl⟩
  | .node ll b lr, a, r => by
    obtain ⟨d, y, ry, e, hb⟩ := min_exists ll b lr
    refine ⟨d ++ [frame.L a r], y, ry, ?_, ?_⟩
    · rw [plug_append, ← e]; rfl
    · rw [ctx_before_append, hb]; rfl

/-! ## The node `y` put in the place of `z` -/

theorem own_ctx_zero_not_mem {m : Nat → avl_tree_node} : ∀ (c : List frame) (x : Nat),
    own_ctx m c x → 0 ∉ ctx_before c ++ ctx_after c
  | [], _, _ => by simp [ctx_before, ctx_after]
  | frame.L a r :: c, x, h => by
    obtain ⟨h0, _, _, _, hor, hc⟩ := h
    have h1 := own_zero_not_mem r a hor
    have h2 := own_ctx_zero_not_mem c a hc
    simp only [ctx_before, ctx_after, List.mem_append, List.mem_cons, not_or] at h2 ⊢
    exact ⟨h2.1, ⟨Ne.symm h0, h1⟩, h2.2⟩
  | frame.R l a :: c, x, h => by
    obtain ⟨h0, _, _, _, hol, hc⟩ := h
    have h1 := own_zero_not_mem l a hol
    have h2 := own_ctx_zero_not_mem c a hc
    simp only [ctx_before, ctx_after, List.mem_append, List.mem_cons, not_or,
      List.mem_singleton, List.not_mem_nil, not_false_eq_true, and_true] at h2 ⊢
    exact ⟨⟨⟨h2.1, h1⟩, Ne.symm h0⟩, h2.2⟩

theorem rename_spec {m1 m' : Nat → avl_tree_node} (c : List frame) (l r : tr) (z y : Nat)
    (hnd : (header :: (plug c (tr.node l z r)).addrs).Nodup)
    (hy0 : y ≠ 0) (hy : y ∉ (plug c (tr.node l z r)).addrs)
    (hown : own m1 (tr.node l z r) (ctx_par c)) (hctx : own_ctx m1 c z)
    (hyl : (m' y).parent_ = ctx_par c ∧ (m' y).left_ = l.root ∧ (m' y).right_ = r.root)
    (hl : l.root ≠ 0 → (m' l.root).parent_ = y) (hr : r.root ≠ 0 → (m' r.root).parent_ = y)
    (hoth : ∀ a, a ≠ y → a ≠ z → a ≠ ctx_par c →
      (m' a).left_ = (m1 a).left_ ∧ (m' a).right_ = (m1 a).right_ ∧
      (a ≠ l.root → a ≠ r.root → (m' a).parent_ = (m1 a).parent_))
    (hrep : repointed m1 m' (ctx_par c) z y)
    (hhd : c ≠ [] → (m' header).parent_ = (m1 header).parent_) :
    own m' (tr.node l y r) (ctx_par c) ∧ own_ctx m' c y := by
  obtain ⟨hz0, hzp, hzl, hzr, hol, hor⟩ := hown
  obtain ⟨hn1, hn2, hn3, hn4, hn5⟩ := sep_split hnd
  have hG : ∀ a ∈ (tr.node l z r).addrs, a ≠ ctx_par c :=
    fun a ha e => ctx_par_not_mem hnd (e ▸ ha)
  rw [plug_addrs] at hy
  simp only [tr.addrs, List.mem_append, List.mem_cons, not_or] at hy
  simp only [tr.addrs] at hn1 hn3 hn4 hG
  have h0c := own_ctx_zero_not_mem c z hctx
  have hZ := nodup_mid hn1
  have hLR : ∀ a ∈ l.addrs, a ∉ r.addrs := fun a ha hb => by
    have := (List.nodup_append.1 hn1).2.2
    exact this ha (List.mem_cons_of_mem _ hb)
  have hla : ∀ a ∈ l.addrs, a ≠ y ∧ a ≠ z ∧ a ≠ ctx_par c := fun a ha =>
    ⟨fun e => hy.1.2.1 (e ▸ ha), hZ a (by simp [ha]), hG a (by simp [ha])⟩
  have hra : ∀ a ∈ r.addrs, a ≠ y ∧ a ≠ z ∧ a ≠ ctx_par c := fun a ha =>
    ⟨fun e => hy.1.2.2.2 (e ▸ ha), hZ a (by simp [ha]), hG a (by simp [ha])⟩
  refine ⟨⟨hy0, hyl.1, hyl.2.1, hyl.2.2, ?_, ?_⟩, ?_⟩
  · refine own_move l z y (List.nodup_append.1 hn1).1 (fun a ha => ?_) (fun a ha hne => ?_) hl hol
    · obtain ⟨h1, h2, h3⟩ := hla a ha
      have := hoth a h1 h2 h3
      exact ⟨this.1, this.2.1⟩
    · obtain ⟨h1, h2, h3⟩ := hla a ha
      refine (hoth a h1 h2 h3).2.2 hne ?_
      rcases root_cases r with ⟨_, e⟩ | ⟨_, e⟩
      · rw [e]; exact fun e0 => own_zero_not_mem l z hol (e0 ▸ ha)
      · exact fun e0 => hLR a ha (e0 ▸ e)
  · refine own_move r z y (List.nodup_cons.1 (List.nodup_append.1 hn1).2.1).2
      (fun a ha => ?_) (fun a ha hne => ?_) hr hor
    · obtain ⟨h1, h2, h3⟩ := hra a ha
      have := hoth a h1 h2 h3
      exact ⟨this.1, this.2.1⟩
    · obtain ⟨h1, h2, h3⟩ := hra a ha
      refine (hoth a h1 h2 h3).2.2 ?_ hne
      rcases root_cases l with ⟨_, e⟩ | ⟨_, e⟩
      · rw [e]; exact fun e0 => own_zero_not_mem r z hor (e0 ▸ ha)
      · exact fun e0 => hLR _ e (e0 ▸ ha)
  · refine own_ctx_repoint c z y hz0 hn2 (hn3 z (by simp))
      (fun e => hn4 (by simp [← e])) hctx (fun a ha hne => ?_) hhd hrep
    have hsub : ∀ b, b ∈ l.addrs ∨ b = z ∨ b ∈ r.addrs → a ≠ b :=
      fun b hb e => hn3 b (by
        simp only [List.mem_append, List.mem_cons]
        exact hb) (e ▸ ha)
    have h1 : a ≠ y := fun e => by
      rw [e] at ha
      simp only [List.mem_append] at ha
      tauto
    have := hoth a h1 (hsub z (by simp)) hne
    refine ⟨this.2.2 ?_ ?_, this.1, this.2.1⟩
    · rcases root_cases l with ⟨_, e⟩ | ⟨_, e⟩
      · rw [e]
        exact fun e0 => h0c (e0 ▸ ha)
      · exact hsub _ (Or.inl e)
    · rcases root_cases r with ⟨_, e⟩ | ⟨_, e⟩
      · rw [e]
        exact fun e0 => h0c (e0 ▸ ha)
      · exact hsub _ (Or.inr (Or.inr e))

/-! ## Unlinking a node that has two children -/

theorem relink_finish (m1 m8 : Nat → avl_tree_node) (c : List frame) (l r : tr) (z y : Nat)
    (hnd : (header :: (plug c (tr.node l z r)).addrs).Nodup)
    (hy0 : y ≠ 0) (hyh : y ≠ header) (hy : y ∉ (plug c (tr.node l z r)).addrs)
    (hown : own m1 (tr.node l z r) (ctx_par c)) (hctx : own_ctx m1 c z)
    (h8 : ∀ a, a ≠ y → a ≠ z →
      (m8 a).left_ = (m1 a).left_ ∧ (m8 a).right_ = (m1 a).right_ ∧
      (a ≠ l.root → a ≠ r.root → (m8 a).parent_ = (m1 a).parent_))
    (h8y : (m8 y).left_ = l.root ∧ (m8 y).right_ = r.root)
    (h8l : l.root ≠ 0 → (m8 l.root).parent_ = y)
    (h8r : r.root ≠ 0 → (m8 r.root).parent_ = y)
    (h8z : (m8 z).parent_ = ctx_par c) :
    ∃ m', relink_parent m8 z y = some m' ∧
      own m' (tr.node l y r) (ctx_par c) ∧ own_ctx m' c y ∧
      (∀ a, (m' a).key = (m8 a).key ∧ (m' a).val = (m8 a).val ∧
        (m' a).height_ = (m8 a).height_) ∧
      (m' header).left_ = (m8 header).left_ ∧ (m' header).right_ = (m8 header).right_ := by
  have hp0 := own_ctx_par_ne_zero hctx
  have hz0 : z ≠ 0 := hown.1
  obtain ⟨hn1, hn2, hn3, hn4, hn5⟩ := sep_split hnd
  have hG : ∀ a ∈ (tr.node l z r).addrs, a ≠ ctx_par c :=
    fun a ha e => ctx_par_not_mem hnd (e ▸ ha)
  have hyP : y ≠ ctx_par c := by
    rcases ctx_par_cases c with ⟨_, h⟩ | ⟨_, h⟩
    · rw [h]; exact hyh
    · intro e
      apply hy
      rw [plug_addrs, e]
      simp only [List.mem_append] at h ⊢
      tauto
  have hzh : z ≠ header := fun e => hn4 (by simp [← e, tr.addrs])
  have hzP : z ≠ ctx_par c := hG z (by simp [tr.addrs])
  have hlP : l.root ≠ ctx_par c := root_ne hp0 (fun a ha => hG a (by simp [tr.addrs, ha]))
  have hrP : r.root ≠ ctx_par c := root_ne hp0 (fun a ha => hG a (by simp [tr.addrs, ha]))
  have hlh : l.root ≠ header := root_ne header_ne_zero
    (fun a ha e => hn4 (by simp [← e, tr.addrs, ha]))
  have hrh : r.root ≠ header := root_ne header_ne_zero
    (fun a ha e => hn4 (by simp [← e, tr.addrs, ha]))
  unfold relink_parent
  rw [h8z, if_neg hp0]
  have key : ∀ (m9 : Nat → avl_tree_node), (∀ a, a ≠ ctx_par c → m9 a = m8 a) →
      (∀ a, (m9 a).key = (m8 a).key ∧ (m9 a).val = (m8 a).val ∧
        (m9 a).height_ = (m8 a).height_) →
      (c ≠ [] → (m9 header).parent_ = (m8 header).parent_) →
      (m9 header).left_ = (m8 header).left_ → (m9 header).right_ = (m8 header).right_ →
      repointed m8 m9 (ctx_par c) z y →
      own (set_parent m9 y (m9 z).parent_) (tr.node l y r) (ctx_par c) ∧
      own_ctx (set_parent m9 y (m9 z).parent_) c y ∧
      (∀ a, ((set_parent m9 y (m9 z).parent_) a).key = (m8 a).key ∧
        ((set_parent m9 y (m9 z).parent_) a).val = (m8 a).val ∧
        ((set_parent m9 y (m9 z).parent_) a).height_ = (m8 a).height_) ∧
      ((set_parent m9 y (m9 z).parent_) header).left_ = (m8 header).left_ ∧
      ((set_parent m9 y (m9 z).parent_) header).right_ = (m8 header).right_ := by
    intro m9 h9 h9k h9h h9l h9r hrep
    have e9z : (m9 z).parent_ = ctx_par c := by rw [h9 z hzP]; exact h8z
    rw [e9z]
    suffices hren : own (set_parent m9 y (ctx_par c)) (tr.node l y r) (ctx_par c) ∧
        own_ctx (set_parent m9 y (ctx_par c)) c y from
      ⟨hren.1, hren.2, by simpa using h9k, by simpa using h9l, by simpa using h9r⟩
    refine rename_spec c l r z y hnd hy0 hy hown hctx ?_ ?_ ?_ ?_ ?_ ?_
    · simp only [set_parent_parent, if_true, set_parent_left, set_parent_right, true_and]
      rw [h9 y hyP]
      exact h8y
    · intro h
      have hne : l.root ≠ y := fun e => hy (by
        rw [plug_addrs]
        rcases root_cases l with ⟨_, e1⟩ | ⟨_, e1⟩
        · exact absurd e1 h
        · simp [tr.addrs, ← e, e1])
      simp only [set_parent_parent, if_neg hne]
      rw [h9 _ hlP]
      exact h8l h
    · intro h
      have hne : r.root ≠ y := fun e => hy (by
        rw [plug_addrs]
        rcases root_cases r with ⟨_, e1⟩ | ⟨_, e1⟩
        · exact absurd e1 h
        · simp [tr.addrs, ← e, e1])
      simp only [set_parent_parent, if_neg hne]
      rw [h9 _ hrP]
      exact h8r h
    · intro a h1 h2 h3
      simp only [set_parent_parent, if_neg h1, set_parent_left, set_parent_right]
      rw [h9 a h3]
      exact h8 a h1 h2
    · -- the parent of z
      have e1 : ∀ a, a ≠ y → a ≠ z → a ≠ l.root → a ≠ r.root →
          (m8 a).parent_ = (m1 a).parent_ ∧ (m8 a).left_ = (m1 a).left_ ∧
          (m8 a).right_ = (m1 a).right_ := fun a h1 h2 h3 h4 =>
        ⟨(h8 a h1 h2).2.2 h3 h4, (h8 a h1 h2).1, (h8 a h1 h2).2.1⟩
      obtain ⟨p1, p2, p3⟩ := e1 (ctx_par c) hyP.symm hzP.symm hlP.symm hrP.symm
      obtain ⟨r1, r2, r3⟩ := hrep
      have hs : ∀ a, ((set_parent m9 y (ctx_par c)) a).left_ = (m9 a).left_ ∧
          ((set_parent m9 y (ctx_par c)) a).right_ = (m9 a).right_ := fun a => by simp
      have hsp : ((set_parent m9 y (ctx_par c)) (ctx_par c)).parent_ =
          (m9 (ctx_par c)).parent_ := by simp [hyP.symm]
      refine ⟨fun h => ?_, fun h h' h'' => ?_, fun h h' h'' => ?_⟩
      · rw [(hs _).1, (hs _).2, hsp, ← p2, ← p3]
        exact r1 (p1.trans h)
      · rw [(hs _).1, (hs _).2, hsp, ← p1, ← p3]
        exact r2 (fun e => h (p1.symm.trans e)) (p2.trans h') (fun e => h'' (p3.symm.trans e))
      · rw [(hs _).1, (hs _).2, hsp, ← p1, ← p2]
        exact r3 (fun e => h (p1.symm.trans e)) (p3.trans h') (fun e => h'' (p2.symm.trans e))
    · intro hc
      simp only [set_parent_parent, if_neg hyh.symm]
      rw [h9h hc]
      exact (h8 header hyh.symm hzh.symm).2.2 hlh.symm hrh.symm
  refine ⟨_, rfl, ?_⟩
  have hH8 : (m8 header).parent_ = (m1 header).parent_ :=
    (h8 header hyh.symm hzh.symm).2.2 hlh.symm hrh.symm
  have hP8 : (m8 (ctx_par c)).left_ = (m1 (ctx_par c)).left_ ∧
      (m8 (ctx_par c)).right_ = (m1 (ctx_par c)).right_ :=
    ⟨(h8 _ hyP.symm hzP.symm).1, (h8 _ hyP.symm hzP.symm).2.1⟩
  cases c with
  | nil =>
    have e1 : (m8 header).parent_ = z := by rw [hH8]; exact hctx
    simp only [ctx_par] at *
    rw [if_pos e1]
    apply key
    · intro a ha; simp [set_parent, ha]
    · intro a; simp
    · intro h; exact absurd rfl h
    · simp
    · simp
    · refine ⟨fun _ => ?_, fun h => absurd e1 h, fun h => absurd e1 h⟩
      simp
  | cons f cr =>
    have hzc : z ∉ ctx_before (f :: cr) ++ ctx_after (f :: cr) :=
      hn3 z (by simp [tr.addrs])
    have hHz : (m8 header).parent_ ≠ z := by
      rw [hH8]
      rcases own_ctx_root (f :: cr) z hctx with ⟨h, _⟩ | ⟨_, h⟩
      · exact absurd h (by simp)
      · exact fun e => hzc (e ▸ h)
    have hPh : ctx_par (f :: cr) ≠ header := ctx_par_ne_header f hnd
    have hgz : ctx_par cr ≠ z := by
      rcases ctx_par_cases cr with ⟨_, h⟩ | ⟨_, h⟩
      · rw [h]; exact hzh.symm
      · intro e
        apply hzc
        rw [← e]
        cases f <;> simp only [ctx_before, ctx_after, List.mem_append, List.mem_cons] at h ⊢ <;>
          tauto
    rw [if_neg hHz]
    have e1 : ∀ a, a ≠ y → a ≠ z → a ≠ l.root → a ≠ r.root →
        (m8 a).parent_ = (m1 a).parent_ := fun a h1 h2 h3 h4 => (h8 a h1 h2).2.2 h3 h4
    have hP8p := e1 (ctx_par (f :: cr)) hyP.symm hzP.symm hlP.symm hrP.symm
    have hsz : ∀ s a, f = frame.R s a → s.root ≠ z := by
      intro s a hf
      apply root_ne hz0
      intro b hb e
      apply hzc
      subst hf
      simp [ctx_before, ← e, hb]
    have hcp : (m1 (ctx_par (f :: cr))).parent_ = ctx_par cr := by
      cases f <;> exact hctx.2.1
    have e3 : (m8 (ctx_par (f :: cr))).parent_ ≠ z := by rw [hP8p, hcp]; exact hgz
    obtain ⟨P, hP⟩ : ∃ P, P = ctx_par (f :: cr) := ⟨_, rfl⟩
    have hPl : (m1 P).left_ = z ∨ ((m1 P).left_ ≠ z ∧ (m1 P).right_ = z) := by
      rw [hP]
      cases f with
      | L p s => exact Or.inl hctx.2.2.1
      | R s p => exact Or.inr ⟨by rw [show (m1 (ctx_par (frame.R s p :: cr))).left_ = s.root from hctx.2.2.1]; exact hsz s p rfl, hctx.2.2.2.1⟩
    rw [← hP] at hP8 hP8p hPh hyP hzP e3 key ⊢
    rcases hPl with hl | ⟨hl, hr⟩
    · have e2 : (m8 P).left_ = z := by rw [hP8.1]; exact hl
      rw [if_pos e2]
      apply key
      · intro a ha; simp [set_left, ha]
      · intro a; simp
      · intro _; simp
      · simp [hPh.symm]
      · simp
      · refine ⟨fun h => absurd h e3, fun _ _ _ => ?_, fun _ _ h => absurd e2 h⟩
        simp
    · have e2 : (m8 P).left_ ≠ z := by rw [hP8.1]; exact hl
      rw [if_neg e2]
      apply key
      · intro a ha; simp [set_right, ha]
      · intro a; simp
      · intro _; simp
      · simp
      · simp [hPh.symm]
      · refine ⟨fun h => absurd h e3, fun _ h _ => absurd h e2, fun _ _ _ => ?_⟩
        simp

theorem unlink_pointers_mem (m : Nat → avl_tree_node) (y x P : Nat)
    (hP : (m y).parent_ = P) (hh : (m header).parent_ ≠ y) (hxh : x ≠ header) (hxy : x ≠ y)
    (hxP : x ≠ P) :
    ∀ a, ((unlink_pointers m y x).1 a).parent_
        = (if a = x ∧ x ≠ 0 then P else (m a).parent_) ∧
      ((unlink_pointers m y x).1 a).left_
        = (if a = P ∧ (m P).left_ = y then x else (m a).left_) ∧
      ((unlink_pointers m y x).1 a).right_
        = (if a = P ∧ (m P).left_ ≠ y then x else (m a).right_) := by
  intro a
  unfold unlink_pointers
  by_cases hx0 : x = 0
  · simp only [hx0, ne_eq, not_true_eq_false, if_false, hP, and_false]
    rw [if_neg hh]
    by_cases hl : (m P).left_ = y
    · simp only [hl, if_true]
      by_cases ha : a = P <;> simp [ha]
    · simp only [hl, if_false]
      by_cases ha : a = P <;> simp [ha]
  · simp only [ne_eq, hx0, not_false_eq_true, if_true, hP, and_true, set_parent_parent,
      if_neg hxh.symm, if_neg hxy.symm, set_parent_left]
    rw [if_neg hh]
    by_cases hl : (m P).left_ = y
    · simp only [hl, if_true]
      by_cases ha : a = P
      · simp [ha, hxP.symm]
      · by_cases hb : a = x <;> simp [ha, hb]
    · simp only [hl, if_false]
      by_cases ha : a = P
      · simp [ha, hxP.symm]
      · by_cases hb : a = x <;> simp [ha, hb]

theorem relink_left_mem (m : Nat → avl_tree_node) (z y : Nat) (h : (m z).left_ ≠ 0) :
    ∃ m3, relink_left m z y = some m3 ∧
      ∀ a, (m3 a).parent_ = (if a = (m z).left_ then y else (m a).parent_) ∧
        (m3 a).left_ = (if a = y then (m z).left_ else (m a).left_) ∧
        (m3 a).right_ = (m a).right_ ∧
        (m3 a).height_ = (if a = y then (m z).height_ else (m a).height_) ∧
        (m3 a).key = (m a).key ∧ (m3 a).val = (m a).val := by
  unfold relink_left
  rw [if_neg h]
  refine ⟨_, rfl, fun a => ?_⟩
  simp

theorem relink_right_far_mem (m : Nat → avl_tree_node) (z y x : Nat)
    (h1 : y ≠ (m z).right_) (h2 : (m y).parent_ ≠ 0) (h3 : (m z).right_ ≠ 0)
    (hxy : x ≠ y) (hzy : z ≠ y) :
    ∃ m7, relink_right m z y x = some (m7, (m y).parent_, true) ∧
      ∀ a, (m7 a).parent_ = (if a = (m z).right_ then y
          else if a = x ∧ x ≠ 0 then (m y).parent_ else (m a).parent_) ∧
        (m7 a).left_ = (if a = (m y).parent_ then x else (m a).left_) ∧
        (m7 a).right_ = (if a = y then (m z).right_ else (m a).right_) ∧
        (m7 a).height_ = (m a).height_ ∧
        (m7 a).key = (m a).key ∧ (m7 a).val = (m a).val := by
  unfold relink_right
  rw [if_pos h1, if_neg (by simp [h2, h3])]
  by_cases hx0 : x = 0
  · simp only [hx0, ne_eq, not_true_eq_false, if_false, and_false]
    refine ⟨_, rfl, fun a => ?_⟩
    simp [hzy]
  · simp only [ne_eq, hx0, not_false_eq_true, if_true, and_true, set_parent_parent,
      if_neg hxy.symm]
    refine ⟨_, rfl, fun a => ?_⟩
    simp [hzy]

theorem own_ctx_split {m : Nat → avl_tree_node} (d e : List frame) (t : tr) :
    (own m t (ctx_par (d ++ e)) ∧ own_ctx m (d ++ e) t.root) ↔
      (own m (plug d t) (ctx_par e) ∧ own_ctx m e (plug d t).root) := by
  rw [← own_plug (d ++ e) t, plug_append, own_plug e (plug d t)]

theorem plug_root_mem : ∀ (d : List frame) (t : tr), d ≠ [] →
    (plug d t).root ∈ ctx_before d ++ ctx_after d
  | [], _, h => absurd rfl h
  | frame.L a r :: d, t, _ => by
    by_cases hd : d = []
    · subst hd
      simp [plug, tr.root, ctx_before, ctx_after]
    · have := plug_root_mem d (tr.node t a r) hd
      simp only [plug, ctx_before, ctx_after, List.mem_append, List.mem_cons] at this ⊢
      tauto
  | frame.R l a :: d, t, _ => by
    by_cases hd : d = []
    · subst hd
      simp [plug, tr.root, ctx_before, ctx_after]
    · have := plug_root_mem d (tr.node l a t) hd
      simp only [plug, ctx_before, ctx_after, List.mem_append, List.mem_cons] at this ⊢
      tauto

theorem plug_root_cons : ∀ (d : List frame) (f : frame) (t t' : tr),
    (plug (f :: d) t).root = (plug (f :: d) t').root
  | [], frame.L _ _, _, _ => rfl
  | [], frame.R _ _, _, _ => rfl
  | g :: d, frame.L a r, t, t' => by
    simp only [plug]
    exact plug_root_cons d g _ _
  | g :: d, frame.R l a, t, t' => by
    simp only [plug]
    exact plug_root_cons d g _ _

theorem nodup_remove {h z y : Nat} {A L R B : List Nat}
    (hn : (h :: (A ++ (L ++ z :: (y :: R)) ++ B)).Nodup) :
    (h :: (A ++ (L ++ z :: R) ++ B)).Nodup ∧ y ∉ A ++ (L ++ z :: R) ++ B ∧ y ≠ h := by
  have e1 : h :: (A ++ (L ++ z :: (y :: R)) ++ B) = (h :: (A ++ (L ++ [z]))) ++ y :: (R ++ B) := by
    simp
  have e2 : h :: (A ++ (L ++ z :: R) ++ B) = (h :: (A ++ (L ++ [z]))) ++ (R ++ B) := by simp
  rw [e1] at hn
  have hp := (@List.perm_middle _ y (h :: (A ++ (L ++ [z]))) (R ++ B)).nodup_iff.1 hn
  rw [← e2] at hp
  obtain ⟨h1, h2⟩ := List.nodup_cons.1 hp
  refine ⟨h2, fun hc => h1 (List.mem_cons_of_mem _ hc), fun hc => h1 (by rw [hc]; simp)⟩

theorem erase_relink_spec (m : Nat → avl_tree_node) (c cy : List frame) (l ry : tr) (z y : Nat)
    (hl : l ≠ tr.nil) (hb : ctx_before cy = [])
    (hnd : (header :: (plug (cy ++ frame.R l z :: c) (tr.node tr.nil y ry)).addrs).Nodup)
    (hownY : own m (tr.node tr.nil y ry) (ctx_par (cy ++ frame.R l z :: c)))
    (hctxY : own_ctx m (cy ++ frame.R l z :: c) y) :
    ∃ m', erase_relink m z y ry.root
        = some (m', ctx_par (cy ++ frame.R l y :: c), ctx_left (cy ++ frame.R l y :: c)) ∧
      own m' ry (ctx_par (cy ++ frame.R l y :: c)) ∧
      own_ctx m' (cy ++ frame.R l y :: c) ry.root ∧
      (∀ a, (m' a).key = (m a).key ∧ (m' a).val = (m a).val) ∧
      (∀ a, a ≠ y → (m' a).height_ = (m a).height_) ∧
      (m' y).height_ = (m z).height_ ∧
      (m' header).left_ = (m header).left_ ∧ (m' header).right_ = (m header).right_ := by
  obtain ⟨_, o1, c1, k1, hl1, hr1, hz1⟩ := unlink_pointers_spec m (cy ++ frame.R l z :: c)
    tr.nil ry ry y hnd hownY hctxY (Or.inl ⟨rfl, rfl⟩)
  obtain ⟨m1, hm1⟩ : ∃ m1, m1 = (unlink_pointers m y ry.root).1 := ⟨_, rfl⟩
  rw [← hm1] at o1 c1 k1 hl1 hr1 hz1
  have s1 : own m1 (plug cy ry) z ∧ z ≠ 0 ∧ (m1 z).parent_ = ctx_par c ∧
      (m1 z).left_ = l.root ∧ (m1 z).right_ = (plug cy ry).root ∧ own m1 l z ∧ own_ctx m1 c z :=
    (own_ctx_split cy (frame.R l z :: c) ry).1 ⟨o1, c1⟩
  obtain ⟨or1, hz0, hzp1, hzl1, hzr1, ol1, cc1⟩ := s1
  have s0 : own m (plug cy (tr.node tr.nil y ry)) z ∧ z ≠ 0 ∧ (m z).parent_ = ctx_par c ∧
      (m z).left_ = l.root ∧ (m z).right_ = (plug cy (tr.node tr.nil y ry)).root ∧
      own m l z ∧ own_ctx m c z :=
    (own_ctx_split cy (frame.R l z :: c) (tr.node tr.nil y ry)).1 ⟨hownY, hctxY⟩
  obtain ⟨orY, _, hzp, hzl, hzr, ol, cc⟩ := s0
  have hy0 : y ≠ 0 := hownY.1
  have hA : (plug (cy ++ frame.R l z :: c) (tr.node tr.nil y ry)).addrs
      = ctx_before c ++ (l.addrs ++ z :: (y :: (ry.addrs ++ ctx_after cy))) ++ ctx_after c := by
    rw [plug_addrs, ctx_before_append, ctx_after_append, hb]
    simp [ctx_before, ctx_after, tr.addrs]
  have hB : (plug c (tr.node l z (plug cy ry))).addrs
      = ctx_before c ++ (l.addrs ++ z :: (ry.addrs ++ ctx_after cy)) ++ ctx_after c := by
    rw [plug_addrs]
    simp [tr.addrs, plug_addrs, hb]
  have hnd' := hnd
  rw [hA] at hnd'
  obtain ⟨hnd2, hy, hyh⟩ := nodup_remove hnd'
  rw [← hB] at hnd2 hy
  obtain ⟨hn1, hn2, hn3, hn4, hn5⟩ := sep_split hnd2
  obtain ⟨_, _, hnY3, _, _⟩ := sep_split hnd
  have hr1a : (plug cy ry).addrs = ry.addrs ++ ctx_after cy := by simp [plug_addrs, hb]
  simp only [tr.addrs] at hn1 hn3 hn4
  have hZ := nodup_mid hn1
  have hzh : z ≠ header := fun e => hn4 (by simp [← e])
  have hlm : l.root ∈ l.addrs := tr_root_mem_of_ne hl
  have hl0 : l.root ≠ 0 := fun e => own_zero_not_mem l z ol (e ▸ hlm)
  have hlz : l.root ≠ z := hZ _ (by simp [hlm])
  have hly : l.root ≠ y := by
    intro e
    apply hy
    rw [hB, ← e]
    simp [hlm]
  have hzy : z ≠ y := by
    intro e
    apply hy
    rw [hB, ← e]
    simp
  have hrym : ∀ a ∈ ry.addrs, a ∈ (plug c (tr.node l z (plug cy ry))).addrs := by
    intro a ha
    rw [hB]
    simp [ha]
  have hxy : ry.root ≠ y := root_ne hy0 (fun a ha e => hy (e ▸ hrym a ha))
  have hxh : ry.root ≠ header := root_ne header_ne_zero (fun a ha e => by
    have := (List.nodup_cons.1 hnd2).1
    exact this (e ▸ hrym a ha))
  have hxz : ry.root ≠ z := root_ne hz0 (fun a ha => hZ a (by simp [hr1a, ha]))
  have hxl : ry.root ≠ l.root := by
    intro e
    have hx0 : ry.root ≠ 0 := e ▸ hl0
    have hxm : ry.root ∈ ry.addrs := by
      rcases root_cases ry with ⟨_, e1⟩ | ⟨_, e1⟩
      · exact absurd e1 hx0
      · exact e1
    have := (List.nodup_append.1 hn1).2.2
    exact this (e ▸ hlm) (by simp [hr1a, hxm])
  have hP0 := own_ctx_par_ne_zero hctxY
  have hxP : ry.root ≠ ctx_par (cy ++ frame.R l z :: c) :=
    root_ne hP0 (fun a ha e => ctx_par_not_mem hnd (by rw [← e]; simp [tr.addrs, ha]))
  have hh : (m header).parent_ ≠ y := by
    rcases own_ctx_root _ _ hctxY with ⟨h, _⟩ | ⟨_, h⟩
    · exact absurd h (by simp)
    · exact fun e => hnY3 y (by simp [tr.addrs]) (e ▸ h)
  have pm1 := unlink_pointers_mem m y ry.root _ hownY.2.1 hh hxh hxy hxP
  rw [← hm1] at pm1
  obtain ⟨m3, e3, pm3⟩ := relink_left_mem m z y (by rw [hzl]; exact hl0)
  have hown1 : own m1 (tr.node l z (plug cy ry)) (ctx_par c) := ⟨hz0, hzp1, hzl1, hzr1, ol1, or1⟩
  have hyr : (m y).right_ = ry.root := hownY.2.2.2.1
  have hfin : ∀ (m8 : Nat → avl_tree_node) (xp : Nat) (el : Bool),
      relink_right m3 z y ry.root = some (m8, xp, el) →
      (∀ a, a ≠ y → a ≠ z →
        (m8 a).left_ = (m1 a).left_ ∧ (m8 a).right_ = (m1 a).right_ ∧
        (a ≠ l.root → a ≠ (plug cy ry).root → (m8 a).parent_ = (m1 a).parent_)) →
      ((m8 y).left_ = l.root ∧ (m8 y).right_ = (plug cy ry).root) →
      ((m8 l.root).parent_ = y) →
      ((plug cy ry).root ≠ 0 → (m8 (plug cy ry).root).parent_ = y) →
      (m8 z).parent_ = ctx_par c →
      (∀ a, (m8 a).key = (m a).key ∧ (m8 a).val = (m a).val ∧
        (m8 a).height_ = (if a = y then (m z).height_ else (m a).height_)) →
      (m8 header).left_ = (m header).left_ → (m8 header).right_ = (m header).right_ →
      ∃ m', erase_relink m z y ry.root = some (m', xp, el) ∧
        own m' ry (ctx_par (cy ++ frame.R l y :: c)) ∧
        own_ctx m' (cy ++ frame.R l y :: c) ry.root ∧
        (∀ a, (m' a).key = (m a).key ∧ (m' a).val = (m a).val) ∧
        (∀ a, a ≠ y → (m' a).height_ = (m a).height_) ∧
        (m' y).height_ = (m z).height_ ∧
        (m' header).left_ = (m header).left_ ∧ (m' header).right_ = (m header).right_ := by
    intro m8 xp el e8 h8 h8y h8l h8r h8z h8k h8hl h8hr
    obtain ⟨m', e', o', c', k', hl', hr'⟩ := relink_finish m1 m8 c l (plug cy ry) z y hnd2 hy0 hyh
      hy hown1 cc1 h8 h8y (fun _ => h8l) h8r h8z
    refine ⟨m', ?_, ?_, ?_, ?_, ?_, ?_, ?_, ?_⟩
    · unfold erase_relink
      rw [e3]
      simp only
      rw [e8]
      simp only
      rw [e']
    · exact ((own_ctx_split cy (frame.R l y :: c) ry).2
        ⟨o'.2.2.2.2.2, o'.1, o'.2.1, o'.2.2.1, o'.2.2.2.1, o'.2.2.2.2.1, c'⟩).1
    · exact ((own_ctx_split cy (frame.R l y :: c) ry).2
        ⟨o'.2.2.2.2.2, o'.1, o'.2.1, o'.2.2.1, o'.2.2.2.1, o'.2.2.2.2.1, c'⟩).2
    · intro a
      exact ⟨(k' a).1.trans (h8k a).1, (k' a).2.1.trans (h8k a).2.1⟩
    · intro a ha
      rw [(k' a).2.2, (h8k a).2.2, if_neg ha]
    · rw [(k' y).2.2, (h8k y).2.2, if_pos rfl]
    · rw [hl', h8hl]
    · rw [hr', h8hr]
  cases cy with
  | nil =>
    simp only [List.nil_append, plug, tr.root] at *
    have hcp : ctx_par (frame.R l z :: c) = z := rfl
    rw [hcp] at pm1
    have e8 : relink_right m3 z y ry.root = some (m3, y, false) := by
      unfold relink_right
      rw [if_neg (by rw [(pm3 z).2.2.1, hzr]; simp)]
    have hzl' : (m z).left_ ≠ y := by rw [hzl]; exact hly
    apply hfin m3 y false e8
    · intro a h1 h2
      refine ⟨?_, ?_, fun h3 h4 => ?_⟩
      · rw [(pm3 a).2.1, (pm1 a).2.1, if_neg h1, if_neg (by simp [h2])]
      · rw [(pm3 a).2.2.1, (pm1 a).2.2, if_neg (by simp [h2])]
      · rw [(pm3 a).1, (pm1 a).1, hzl, if_neg h3, if_neg (by simp [h4])]
    · rw [(pm3 y).2.1, (pm3 y).2.2.1, if_pos rfl, hzl, hyr]
      exact ⟨rfl, rfl⟩
    · rw [(pm3 _).1, hzl, if_pos rfl]
    · intro h
      rw [(pm3 _).1, hzl, if_neg hxl]
      cases ry with
      | nil => exact absurd rfl h
      | node a b d => exact hownY.2.2.2.2.2.2.1
    · rw [(pm3 z).1, hzl, if_neg hlz.symm, hzp]
    · intro a
      exact ⟨(pm3 a).2.2.2.2.1, (pm3 a).2.2.2.2.2, (pm3 a).2.2.2.1⟩
    · rw [(pm3 header).2.1, if_neg hyh.symm]
    · rw [(pm3 header).2.2.1]
  | cons f cr =>
    cases f with
    | R s p => simp [ctx_before] at hb
    | L py s =>
      have hrr : (plug (frame.L py s :: cr) (tr.node tr.nil y ry)).root
          = (plug (frame.L py s :: cr) ry).root := plug_root_cons _ _ _ _
      rw [hrr] at hzr
      obtain ⟨rr, hrrd⟩ : ∃ rr, rr = (plug (frame.L py s :: cr) ry).root := ⟨_, rfl⟩
      rw [← hrrd] at hzr hzr1
      have hrrm : rr ∈ (plug (frame.L py s :: cr) ry).addrs := by
        have := plug_root_mem (frame.L py s :: cr) ry (by simp)
        rw [hrrd, plug_addrs]
        simp only [List.mem_append] at this ⊢
        tauto
      have hrr0 : rr ≠ 0 := fun e => own_zero_not_mem _ _ or1 (e ▸ hrrm)
      have hrry : rr ≠ y := by
        intro e
        apply hy
        rw [plug_addrs, ← e]
        simp [tr.addrs, hrrm]
      have hrrz : rr ≠ z := hZ _ (by simp [hrrm])
      have hrrl : rr ≠ l.root := by
        intro e
        have := (List.nodup_append.1 hn1).2.2
        exact this (e ▸ hlm) (by simp [hrrm])
      have hcp : ctx_par (frame.L py s :: cr ++ frame.R l z :: c) = py := rfl
      rw [hcp] at pm1 hownY hP0 hxP
      obtain ⟨hpy0, hpyp, hpyl, hpyr, hos, hcr⟩ := hctxY
      have hpyy : py ≠ y := fun e => ctx_par_not_mem (c := frame.L py s :: (cr ++ frame.R l z :: c))
        hnd (by simp [ctx_par, e, tr.addrs])
      have hpyz : py ≠ z := by
        intro e
        have h1 : py ∈ (plug (frame.L py s :: cr) ry).addrs := by
          rw [plug_addrs]; simp [ctx_after]
        exact hZ _ (by simp [h1]) e
      have hyp : (m y).parent_ = py := hownY.2.1
      have hpyh : py ≠ header := by
        intro e
        have h1 : py ∈ (plug (frame.L py s :: cr) ry).addrs := by
          rw [plug_addrs]; simp [ctx_after]
        exact hn4 (by rw [← e]; simp [h1])
      obtain ⟨m7, e7, pm7⟩ := relink_right_far_mem m3 z y ry.root
        (by rw [(pm3 z).2.2.1, hzr]; exact hrry.symm)
        (by rw [(pm3 y).1, hzl, if_neg hly.symm, hyp]; exact hpy0)
        (by rw [(pm3 z).2.2.1, hzr]; exact hrr0) hxy hzy
      have hm3z : (m3 z).right_ = rr := by rw [(pm3 z).2.2.1, hzr]
      have hm3y : (m3 y).parent_ = py := by rw [(pm3 y).1, hzl, if_neg hly.symm, hyp]
      rw [hm3y] at e7
      apply hfin m7 py true e7
      · intro a h1 h2
        refine ⟨?_, ?_, fun h3 h4 => ?_⟩
        · rw [(pm7 a).2.1, hm3y, (pm3 a).2.1, (pm1 a).2.1, if_neg h1]
          simp [hpyl]
        · rw [(pm7 a).2.2.1, if_neg h1, (pm3 a).2.2.1, (pm1 a).2.2]
          simp [hpyl]
        · rw [← hrrd] at h4
          rw [(pm7 a).1, hm3z, if_neg h4, hm3y, (pm3 a).1, hzl, if_neg h3, (pm1 a).1]
      · rw [(pm7 y).2.1, hm3y, if_neg hpyy.symm, (pm7 y).2.2.1, if_pos rfl, hm3z, (pm3 y).2.1,
          if_pos rfl, hzl, ← hrrd]
        exact ⟨rfl, rfl⟩
      · rw [(pm7 _).1, hm3z, if_neg hrrl.symm, if_neg (by simp [hxl.symm]), (pm3 _).1, hzl,
          if_pos rfl]
      · intro _
        rw [← hrrd, (pm7 _).1, hm3z, if_pos rfl]
      · rw [(pm7 z).1, hm3z, if_neg hrrz.symm, if_neg (by simp [hxz.symm]), (pm3 z).1, hzl,
          if_neg hlz.symm, hzp]
      · intro a
        exact ⟨(pm7 a).2.2.2.2.1.trans (pm3 a).2.2.2.2.1,
          (pm7 a).2.2.2.2.2.trans (pm3 a).2.2.2.2.2, (pm7 a).2.2.2.1.trans (pm3 a).2.2.2.1⟩
      · rw [(pm7 header).2.1, hm3y, if_neg (fun e => hpyh e.symm), (pm3 header).2.1,
          if_neg hyh.symm]
      · rw [(pm7 header).2.2.1, if_neg hyh.symm, (pm3 header).2.2.1]

/-! ## avl_tree_rebalance_for_erase -/

theorem first_or_remove (A L R B : List Nat) (z : Nat) (hL : L ≠ []) :
    first_or (A ++ (L ++ z :: R) ++ B) = first_or (A ++ (L ++ R) ++ B) := by
  cases A with
  | cons a A => rfl
  | nil =>
    cases L with
    | nil => exact absurd rfl hL
    | cons b L => rfl

theorem last_or_remove (A L R B : List Nat) (z : Nat) (hR : R ≠ []) :
    last_or (A ++ (L ++ z :: R) ++ B) = last_or (A ++ (L ++ R) ++ B) := by
  cases R with
  | nil => exact absurd rfl hR
  | cons b R =>
    have e1 : A ++ (L ++ z :: b :: R) ++ B = (A ++ L) ++ z :: b :: (R ++ B) := by simp
    have e2 : A ++ (L ++ b :: R) ++ B = (A ++ L) ++ b :: (R ++ B) := by simp
    rw [e1, e2, last_or_insert]

theorem tr_ht_nil_node (y : Nat) (ry : tr) : (tr.node tr.nil y ry).ht = ry.ht + 1 := by
  have := tr_ht_nonneg ry
  simp only [tr.ht]
  omega

theorem tr_ht_node_nil (y : Nat) (ly : tr) : (tr.node ly y tr.nil).ht = ly.ht + 1 := by
  have := tr_ht_nonneg ly
  simp only [tr.ht]
  omega

theorem rebalance_unlink (fuel : Nat) (m : Nat → avl_tree_node) (c : List frame)
    (l r t' : tr) (z : Nat)
    (hf : (plug c (tr.node l z r)).addrs.length < fuel)
    (hw : whole m (plug c (tr.node l z r)))
    (hnd : (header :: (plug c (tr.node l z r)).addrs).Nodup)
    (ht : (l = tr.nil ∧ t' = r) ∨ (r = tr.nil ∧ t' = l))
    (hleft : (m header).left_ = first_or (plug c (tr.node l z r)).addrs)
    (hright : (m header).right_ = last_or (plug c (tr.node l z r)).addrs) :
    ∃ m1 m' T', erase_unlink fuel m z t'.root = some (m1, ctx_par c, ctx_left c) ∧
      erase_loop fuel m1 t'.root (ctx_par c)
        (if ctx_left c = true then (m1 (ctx_par c)).right_ else (m1 (ctx_par c)).left_)
        (ctx_left c) (height m1 t'.root)
        (height m1 (if ctx_left c = true then (m1 (ctx_par c)).right_
          else (m1 (ctx_par c)).left_)) = some m' ∧
      whole m' T' ∧ T'.addrs = ctx_before c ++ (l.addrs ++ r.addrs) ++ ctx_after c ∧
      (∀ a, (m' a).key = (m a).key ∧ (m' a).val = (m a).val) ∧
      (m' header).left_ = first_or T'.addrs ∧ (m' header).right_ = last_or T'.addrs := by
  obtain ⟨ho, hp, hh, hb⟩ := hw
  obtain ⟨hown, hctx⟩ := (own_plug c _).1 ⟨ho, hp⟩
  obtain ⟨hh1, hch⟩ := (hts_plug c _).1 hh
  obtain ⟨hb1, hcb⟩ := (bal_plug c _).1 hb
  have hlen : t'.addrs.length < fuel := by
    rw [plug_addrs] at hf
    simp only [tr.addrs, List.length_append, List.length_cons] at hf
    rcases ht with ⟨_, e⟩ | ⟨_, e⟩ <;> subst e <;> omega
  obtain ⟨m1, e1, o1, c1, k1, hl1, hr1⟩ :=
    erase_unlink_spec fuel m c l r t' z hlen hnd hown hctx ht hleft hright
  have hht : (tr.node l z r).ht = t'.ht + 1 := by
    rcases ht with ⟨e0, e⟩ | ⟨e0, e⟩ <;> subst e0 e
    · exact tr_ht_nil_node z _
    · exact tr_ht_node_nil z _
  have haddr : l.addrs ++ r.addrs = t'.addrs := by
    rcases ht with ⟨e0, e⟩ | ⟨e0, e⟩ <;> subst e0 e <;> simp [tr.addrs]
  have hsub : ∀ a ∈ t'.addrs, a ∈ (tr.node l z r).addrs := by
    intro a ha
    rw [← haddr] at ha
    simp only [tr.addrs, List.mem_append, List.mem_cons] at ha ⊢
    tauto
  have hh' : hts m1 t' := by
    have : hts m t' := by
      rcases ht with ⟨e0, e⟩ | ⟨e0, e⟩ <;> subst e0 e
      · exact hh1.2.1
      · exact hh1.1
    exact hts_frame t' (fun a _ => (k1 a).2.2) this
  have hb' : t'.bal := by
    rcases ht with ⟨e0, e⟩ | ⟨e0, e⟩ <;> subst e0 e
    · exact hb1.2.1
    · exact hb1.1
  have hch' : ctx_hts m1 c (t'.ht + 1) := by
    rw [← hht]
    exact ctx_hts_frame c _ (fun a _ => (k1 a).2.2) hch
  have hcb' : ctx_bal c (t'.ht + 1) := by rw [← hht]; exact hcb
  have hnd' : (header :: (plug c t').addrs).Nodup := by
    rw [plug_addrs] at hnd ⊢
    simp only [tr.addrs] at hnd
    rw [← haddr]
    have e1 : header :: (ctx_before c ++ (l.addrs ++ z :: r.addrs) ++ ctx_after c)
        = (header :: (ctx_before c ++ l.addrs)) ++ z :: (r.addrs ++ ctx_after c) := by simp
    have e2 : header :: (ctx_before c ++ (l.addrs ++ r.addrs) ++ ctx_after c)
        = (header :: (ctx_before c ++ l.addrs)) ++ (r.addrs ++ ctx_after c) := by simp
    rw [e1] at hnd
    rw [e2]
    exact ((@List.perm_middle _ z _ _).nodup_iff.1 hnd).of_cons
  have hfc : c.length < fuel := by
    have := ctx_length_le c
    rw [plug_addrs] at hf
    simp only [List.length_append] at hf this
    omega
  have hside := side_of_ctx c t'.root (t'.ht + 1) c1 hch'
  obtain ⟨m', T', e2, hw', ha', hk', hl', hr'⟩ := erase_loop_spec c fuel m1 t' t'.root (ctx_left c)
    _ _ hfc hnd' o1 c1 hh' hb' hch' hcb' hside
  refine ⟨m1, m', T', e1, ?_, hw', ?_, ?_, ?_, ?_⟩
  · rw [height_root o1 hh']
    exact e2
  · rw [ha', plug_addrs, haddr]
  · intro a
    exact ⟨(hk' a).1.trans (k1 a).1, (hk' a).2.trans (k1 a).2.1⟩
  · rw [hl', hl1, ha']
  · rw [hr', hr1, ha']

theorem rebalance_relink (fuel : Nat) (m : Nat → avl_tree_node) (c cy : List frame)
    (l ry : tr) (z y : Nat)
    (hl : l ≠ tr.nil) (hcy : ctx_before cy = [])
    (hf : (plug c (tr.node l z (plug cy (tr.node tr.nil y ry)))).addrs.length < fuel)
    (hw : whole m (plug c (tr.node l z (plug cy (tr.node tr.nil y ry)))))
    (hnd : (header :: (plug c (tr.node l z (plug cy (tr.node tr.nil y ry)))).addrs).Nodup)
    (hleft : (m header).left_
      = first_or (plug c (tr.node l z (plug cy (tr.node tr.nil y ry)))).addrs)
    (hright : (m header).right_
      = last_or (plug c (tr.node l z (plug cy (tr.node tr.nil y ry)))).addrs) :
    ∃ m1 xp el m' T', erase_relink m z y ry.root = some (m1, xp, el) ∧ xp ≠ 0 ∧
      erase_loop fuel m1 ry.root xp
        (if el = true then (m1 xp).right_ else (m1 xp).left_)
        el (height m1 ry.root)
        (height m1 (if el = true then (m1 xp).right_ else (m1 xp).left_)) = some m' ∧
      whole m' T' ∧
      T'.addrs = ctx_before c ++ (l.addrs ++ (plug cy (tr.node tr.nil y ry)).addrs)
        ++ ctx_after c ∧
      (∀ a, (m' a).key = (m a).key ∧ (m' a).val = (m a).val) ∧
      (m' header).left_ = first_or T'.addrs ∧ (m' header).right_ = last_or T'.addrs := by
  have hpl : plug c (tr.node l z (plug cy (tr.node tr.nil y ry)))
      = plug (cy ++ frame.R l z :: c) (tr.node tr.nil y ry) := by
    rw [plug_append]; rfl
  rw [hpl] at hw hnd
  obtain ⟨ho, hp, hh, hb⟩ := hw
  obtain ⟨hownY, hctxY⟩ := (own_plug _ _).1 ⟨ho, hp⟩
  obtain ⟨hh1, hch⟩ := (hts_plug _ _).1 hh
  obtain ⟨hb1, hcb⟩ := (bal_plug _ _).1 hb
  rw [tr_ht_nil_node] at hch hcb
  obtain ⟨m1, e1, o1, c1, k1, hk1, hy1, hl1, hr1⟩ :=
    erase_relink_spec m c cy l ry z y hl hcy hnd hownY hctxY
  have hxp0 := own_ctx_par_ne_zero c1
  -- the addresses
  have hA : (plug (cy ++ frame.R l z :: c) (tr.node tr.nil y ry)).addrs
      = ctx_before c ++ (l.addrs ++ z :: (y :: (ry.addrs ++ ctx_after cy))) ++ ctx_after c := by
    rw [plug_addrs, ctx_before_append, ctx_after_append, hcy]
    simp [ctx_before, ctx_after, tr.addrs]
  have hB : (plug (cy ++ frame.R l y :: c) ry).addrs
      = ctx_before c ++ (l.addrs ++ (y :: (ry.addrs ++ ctx_after cy))) ++ ctx_after c := by
    rw [plug_addrs, ctx_before_append, ctx_after_append, hcy]
    simp [ctx_before, ctx_after]
  have hR : (plug cy (tr.node tr.nil y ry)).addrs = y :: (ry.addrs ++ ctx_after cy) := by
    rw [plug_addrs, hcy]
    simp [tr.addrs]
  have hnd' : (header :: (plug (cy ++ frame.R l y :: c) ry).addrs).Nodup := by
    rw [hA] at hnd
    rw [hB]
    have e1 : header :: (ctx_before c ++ (l.addrs ++ z :: (y :: (ry.addrs ++ ctx_after cy)))
        ++ ctx_after c)
        = (header :: (ctx_before c ++ l.addrs)) ++ z :: (y :: (ry.addrs ++ ctx_after cy)
          ++ ctx_after c) := by simp
    have e2 : header :: (ctx_before c ++ (l.addrs ++ (y :: (ry.addrs ++ ctx_after cy)))
        ++ ctx_after c)
        = (header :: (ctx_before c ++ l.addrs)) ++ (y :: (ry.addrs ++ ctx_after cy)
          ++ ctx_after c) := by simp
    rw [e1] at hnd
    rw [e2]
    exact ((@List.perm_middle _ z _ _).nodup_iff.1 hnd).of_cons
  obtain ⟨hn1, hn2, hn3, hn4, hn5⟩ := sep_split hnd'
  have hyry : y ∉ ry.addrs := by
    intro h
    rw [hB] at hnd'
    have e2 : header :: (ctx_before c ++ (l.addrs ++ (y :: (ry.addrs ++ ctx_after cy)))
        ++ ctx_after c)
        = (header :: (ctx_before c ++ l.addrs)) ++ (y :: (ry.addrs ++ (ctx_after cy
          ++ ctx_after c))) := by simp
    rw [e2] at hnd'
    have := (List.nodup_cons.1 (List.nodup_append.1 hnd').2.1).1
    exact this (by simp [h])
  have hyctx : ∀ a ∈ ctx_before (cy ++ frame.R l y :: c) ++ ctx_after (cy ++ frame.R l y :: c),
      a ∈ ry.addrs → False := fun a ha hr => hn3 a hr ha
  have hh' : hts m1 ry :=
    hts_frame ry (fun a ha => hk1 a (fun e => hyry (e ▸ ha))) hh1.2.1
  have hb' : ry.bal := hb1.2.1
  -- y is apart from everything else
  have hyall : ∀ a ∈ ctx_before c ++ (l.addrs ++ (ry.addrs ++ ctx_after cy)) ++ ctx_after c,
      a ≠ y := by
    rw [hB] at hnd'
    have e2 : header :: (ctx_before c ++ (l.addrs ++ (y :: (ry.addrs ++ ctx_after cy)))
        ++ ctx_after c)
        = (header :: (ctx_before c ++ l.addrs)) ++ y :: (ry.addrs ++ ctx_after cy
          ++ ctx_after c) := by simp
    rw [e2] at hnd'
    have h := nodup_mid hnd'
    intro a ha
    apply h a
    simp only [List.mem_append, List.mem_cons] at ha ⊢
    tauto
  have hch' : ctx_hts m1 (cy ++ frame.R l y :: c) (ry.ht + 1) := by
    refine ctx_hts_mid l z y c ?_ hy1 ?_ cy (ry.ht + 1) ?_ hch
    · intro h
      exact hts_frame l (fun a ha => hk1 a (hyall a (by simp [ha]))) h
    · intro h hc
      exact ctx_hts_frame c h (fun a ha => hk1 a (hyall a (by
        simp only [List.mem_append] at ha ⊢; tauto))) hc
    · intro a ha
      rw [hcy] at ha
      exact hk1 a (hyall a (by simp only [List.nil_append] at ha; simp [ha]))
  have hcb' : ctx_bal (cy ++ frame.R l y :: c) (ry.ht + 1) := ctx_bal_mid l z y c cy _ hcb
  have hfc : (cy ++ frame.R l y :: c).length < fuel := by
    have h1 := ctx_length_le (cy ++ frame.R l y :: c)
    have h2 : (plug (cy ++ frame.R l y :: c) ry).addrs.length
        = (ctx_before (cy ++ frame.R l y :: c) ++ ctx_after (cy ++ frame.R l y :: c)).length
          + ry.addrs.length := by
      rw [plug_addrs]
      simp only [List.length_append]
      omega
    have h3 : (plug (cy ++ frame.R l z :: c) (tr.node tr.nil y ry)).addrs.length
        = (plug (cy ++ frame.R l y :: c) ry).addrs.length + 1 := by
      rw [hA, hB]
      simp only [List.length_append, List.length_cons]
      omega
    rw [hpl] at hf
    omega
  have hside := side_of_ctx (cy ++ frame.R l y :: c) ry.root (ry.ht + 1) c1 hch'
  obtain ⟨m', T', e2, hw', ha', hk', hl', hr'⟩ := erase_loop_spec (cy ++ frame.R l y :: c) fuel
    m1 ry ry.root (ctx_left (cy ++ frame.R l y :: c)) _ _ hfc hnd' o1 c1 hh' hb' hch' hcb' hside
  have hlne : l.addrs ≠ [] := fun e => hl (tr_addrs_eq_nil.1 e)
  refine ⟨m1, _, _, m', T', e1, hxp0, ?_, hw', ?_, ?_, ?_, ?_⟩
  · rw [height_root o1 hh']
    exact e2
  · rw [ha', hB, hR]
  · intro a
    exact ⟨(hk' a).1.trans (k1 a).1, (hk' a).2.trans (k1 a).2⟩
  · rw [hl', hl1, hleft, hpl, hA, ha', hB, first_or_remove _ _ _ _ _ hlne]
  · rw [hr', hr1, hright, hpl, hA, ha', hB, last_or_remove _ _ _ _ _ (by simp)]

theorem rebalance_for_erase_spec (fuel : Nat) (m : Nat → avl_tree_node) (c : List frame)
    (l r : tr) (z : Nat)
    (hf : (plug c (tr.node l z r)).addrs.length < fuel)
    (hw : whole m (plug c (tr.node l z r)))
    (hnd : (header :: (plug c (tr.node l z r)).addrs).Nodup)
    (hleft : (m header).left_ = first_or (plug c (tr.node l z r)).addrs)
    (hright : (m header).right_ = last_or (plug c (tr.node l z r)).addrs) :
    ∃ m' T', avl_tree_rebalance_for_erase fuel z m = some (m', z) ∧
      whole m' T' ∧ T'.addrs = ctx_before c ++ (l.addrs ++ r.addrs) ++ ctx_after c ∧
      (∀ a, (m' a).key = (m a).key ∧ (m' a).val = (m a).val) ∧
      (m' header).left_ = first_or T'.addrs ∧ (m' header).right_ = last_or T'.addrs := by
  obtain ⟨hown, hctx⟩ := (own_plug c _).1 ⟨hw.1, hw.2.1⟩
  have hp0 := own_ctx_par_ne_zero hctx
  obtain ⟨hz0, hzp, hzl, hzr, hol, hor⟩ := hown
  unfold avl_tree_rebalance_for_erase
  rw [if_neg hz0]
  have unl : ∀ t', ((l = tr.nil ∧ t' = r) ∨ (r = tr.nil ∧ t' = l)) →
      erase_choose fuel m z = some (z, t'.root) →
      ∃ m' T', (match erase_choose fuel m z with
        | none => none
        | some (y, x) =>
          match (if y ≠ z then erase_relink m z y x else erase_unlink fuel m z x) with
          | none => none
          | some (m1, x_parent, erase_left) =>
            if x_parent = 0 then none
            else
              let tmp := if erase_left then (m1 x_parent).right_ else (m1 x_parent).left_
              match erase_loop fuel m1 x x_parent tmp erase_left (height m1 x)
                  (height m1 tmp) with
              | none => none
              | some m2 => some (m2, z)) = some (m', z) ∧
        whole m' T' ∧ T'.addrs = ctx_before c ++ (l.addrs ++ r.addrs) ++ ctx_after c ∧
        (∀ a, (m' a).key = (m a).key ∧ (m' a).val = (m a).val) ∧
        (m' header).left_ = first_or T'.addrs ∧ (m' header).right_ = last_or T'.addrs := by
    intro t' ht hch
    obtain ⟨m1, m', T', e1, e2, r1, r2, r3, r4, r5⟩ :=
      rebalance_unlink fuel m c l r t' z hf hw hnd ht hleft hright
    refine ⟨m', T', ?_, r1, r2, r3, r4, r5⟩
    rw [hch]
    simp only [ne_eq, not_true_eq_false, if_false]
    rw [e1]
    simp only
    rw [if_neg hp0, e2]
  cases l with
  | nil =>
    apply unl r (Or.inl ⟨rfl, rfl⟩)
    unfold erase_choose
    have hzl' : (m z).left_ = 0 := hzl
    rw [if_pos hzl', hzr]
  | node ll lb lr =>
    have hl0 : (m z).left_ ≠ 0 := by rw [hzl]; exact hol.1
    cases r with
    | nil =>
      apply unl (tr.node ll lb lr) (Or.inr ⟨rfl, rfl⟩)
      unfold erase_choose
      have hzr' : (m z).right_ = 0 := hzr
      rw [if_neg hl0, if_pos hzr', hzl]
    | node rl rb rr =>
      obtain ⟨cy, y, ry, er, hcy⟩ := min_exists rl rb rr
      have hr0 : (m z).right_ ≠ 0 := by rw [hzr]; exact hor.1
      have hzr' : (m z).right_ = rb := hzr
      have hlen : (tr.node rl rb rr).addrs.length < fuel := by
        rw [plug_addrs] at hf
        simp only [tr.addrs, List.length_append, List.length_cons] at hf ⊢
        omega
      have hmin := minimum_spec rl rb rr z fuel hor hlen
      have hfy : first_or (tr.node rl rb rr).addrs = y := by
        rw [er, plug_addrs, hcy]
        simp [tr.addrs, first_or]
      rw [hfy] at hmin
      rw [er] at hf hw hnd hleft hright hor
      obtain ⟨m1, xp, el, m', T', e1, hxp, e2, r1, r2, r3, r4, r5⟩ :=
        rebalance_relink fuel m c cy (tr.node ll lb lr) ry z y (by simp) hcy hf hw hnd hleft hright
      have hpl : plug c (tr.node (tr.node ll lb lr) z (plug cy (tr.node tr.nil y ry)))
          = plug (cy ++ frame.R (tr.node ll lb lr) z :: c) (tr.node tr.nil y ry) := by
        rw [plug_append]; rfl
      obtain ⟨hownY, _⟩ := (own_plug _ _).1 ⟨hpl ▸ hw.1, hpl ▸ hw.2.1⟩
      have hyr : (m y).right_ = ry.root := hownY.2.2.2.1
      have hyz : y ≠ z := by
        intro e
        rw [plug_addrs] at hnd
        have h1 := (List.nodup_cons.1 hnd).2
        have h2 : (tr.node (tr.node ll lb lr) z (plug cy (tr.node tr.nil y ry))).addrs.Nodup :=
          (List.nodup_append.1 (List.nodup_append.1 h1).1).2.1
        simp only [tr.addrs] at h2
        have h3 := nodup_mid h2 y (by
          rw [plug_addrs]
          simp [tr.addrs])
        exact h3 e
      have hch : erase_choose fuel m z = some (y, ry.root) := by
        unfold erase_choose
        rw [if_neg hl0, if_neg hr0, hzr', hmin]
        simp only
        rw [hyr]
      refine ⟨m', T', ?_, r1, by rw [er]; exact r2, r3, r4, r5⟩
      rw [hch]
      simp only
      rw [if_pos hyz, e1]
      simp only
      rw [if_neg hxp, e2]

/-! ## Searching by key -/

theorem key_sorted_append {m : Nat → avl_tree_node} {u v : List Nat} :
    key_sorted m (u ++ v) ↔ key_sorted m u ∧ key_sorted m v ∧
      ∀ a ∈ u, ∀ b ∈ v, (m a).key < (m b).key := by
  unfold key_sorted
  exact List.pairwise_append

theorem key_sorted_cons {m : Nat → avl_tree_node} {a : Nat} {v : List Nat} :
    key_sorted m (a :: v) ↔ (∀ b ∈ v, (m a).key < (m b).key) ∧ key_sorted m v := by
  unfold key_sorted
  exact List.pairwise_cons

theorem key_sorted_node {m : Nat → avl_tree_node} {l r : tr} {a : Nat}
    (h : key_sorted m (tr.node l a r).addrs) :
    key_sorted m l.addrs ∧ key_sorted m r.addrs ∧
      (∀ b ∈ l.addrs, (m b).key < (m a).key) ∧ (∀ b ∈ r.addrs, (m a).key < (m b).key) := by
  simp only [tr.addrs] at h
  rw [key_sorted_append, key_sorted_cons] at h
  obtain ⟨h1, ⟨h2, h3⟩, h4⟩ := h
  exact ⟨h1, h3, fun b hb => h4 b hb a (List.mem_cons_self _ _), h2⟩

theorem first_ge_nil (m : Nat → avl_tree_node) (k : Int) (y : Nat) :
    first_ge m k [] y = y := rfl

theorem first_ge_cons (m : Nat → avl_tree_node) (k : Int) (b : Nat) (l : List Nat) (y : Nat) :
    first_ge m k (b :: l) y = if (m b).key < k then first_ge m k l y else b := by
  unfold first_ge
  by_cases h : (m b).key < k
  · have h' : decide (¬ (m b).key < k) = false := by simpa using h
    rw [List.find?_cons, h', if_pos h]
  · have h' : decide (¬ (m b).key < k) = true := by simpa using h
    rw [List.find?_cons, h', if_neg h]
    rfl

theorem first_gt_nil (m : Nat → avl_tree_node) (k : Int) (y : Nat) :
    first_gt m k [] y = y := rfl

theorem first_gt_cons (m : Nat → avl_tree_node) (k : Int) (b : Nat) (l : List Nat) (y : Nat) :
    first_gt m k (b :: l) y = if k < (m b).key then b else first_gt m k l y := by
  unfold first_gt
  by_cases h : k < (m b).key
  · have h' : decide (k < (m b).key) = true := by simpa using h
    rw [List.find?_cons, h', if_pos h]
    rfl
  · have h' : decide (k < (m b).key) = false := by simpa using h
    rw [List.find?_cons, h', if_neg h]

theorem first_ge_append (m : Nat → avl_tree_node) (k : Int) (u v : List Nat) (y : Nat) :
    first_ge m k (u ++ v) y = first_ge m k u (first_ge m k v y) := by
  induction u with
  | nil => rfl
  | cons b u ih =>
    simp only [List.cons_append, first_ge_cons, ih]

theorem first_gt_append (m : Nat → avl_tree_node) (k : Int) (u v : List Nat) (y : Nat) :
    first_gt m k (u ++ v) y = first_gt m k u (first_gt m k v y) := by
  induction u with
  | nil => rfl
  | cons b u ih =>
    simp only [List.cons_append, first_gt_cons, ih]

theorem first_ge_all_lt (m : Nat → avl_tree_node) (k : Int) (u : List Nat) (y : Nat)
    (h : ∀ b ∈ u, (m b).key < k) : first_ge m k u y = y := by
  induction u with
  | nil => rfl
  | cons b u ih =>
    rw [first_ge_cons, if_pos (h b (List.mem_cons_self _ _)),
      ih (fun c hc => h c (List.mem_cons_of_mem _ hc))]

theorem first_gt_all_le (m : Nat → avl_tree_node) (k : Int) (u : List Nat) (y : Nat)
    (h : ∀ b ∈ u, ¬ k < (m b).key) : first_gt m k u y = y := by
  induction u with
  | nil => rfl
  | cons b u ih =>
    rw [first_gt_cons, if_neg (h b (List.mem_cons_self _ _)),
      ih (fun c hc => h c (List.mem_cons_of_mem _ hc))]

theorem lower_bound_spec {m : Nat → avl_tree_node} (k : Int) : ∀ (t : tr) (par y fuel : Nat),
    own m t par → key_sorted m t.addrs → t.addrs.length < fuel →
    lower_bound fuel m t.root y k = some (first_ge m k t.addrs y)
  | .nil, _, y, fuel, _, _, hf => by
    cases fuel with
    | zero => simp at hf
    | succ n => simp [lower_bound, tr.root, first_ge, tr.addrs]
  | .node l a r, par, y, fuel, ho, hs, hf => by
    cases fuel with
    | zero => simp at hf
    | succ n =>
      obtain ⟨h0, _, hl, hr, hol, hor⟩ := ho
      obtain ⟨s1, s2, s3, s4⟩ := key_sorted_node hs
      simp only [tr.addrs, List.length_append, List.length_cons] at hf
      simp only [lower_bound, tr.root, ne_eq, h0, not_false_eq_true, if_true]
      simp only [tr.addrs, first_ge_append, first_ge_cons]
      by_cases hk : (m a).key < k
      · rw [if_neg (by simpa using hk), hr, lower_bound_spec k r a y n hor s2 (by omega),
          if_pos hk, first_ge_all_lt m k l.addrs _ (fun b hb => by have := s3 b hb; omega)]
      · rw [if_pos (by simpa using hk), hl, lower_bound_spec k l a a n hol s1 (by omega),
          if_neg hk]

theorem upper_bound_spec {m : Nat → avl_tree_node} (k : Int) : ∀ (t : tr) (par y fuel : Nat),
    own m t par → key_sorted m t.addrs → t.addrs.length < fuel →
    upper_bound fuel m t.root y k = some (first_gt m k t.addrs y)
  | .nil, _, y, fuel, _, _, hf => by
    cases fuel with
    | zero => simp at hf
    | succ n => simp [upper_bound, tr.root, first_gt, tr.addrs]
  | .node l a r, par, y, fuel, ho, hs, hf => by
    cases fuel with
    | zero => simp at hf
    | succ n =>
      obtain ⟨h0, _, hl, hr, hol, hor⟩ := ho
      obtain ⟨s1, s2, s3, s4⟩ := key_sorted_node hs
      simp only [tr.addrs, List.length_append, List.length_cons] at hf
      simp only [upper_bound, tr.root, ne_eq, h0, not_false_eq_true, if_true]
      simp only [tr.addrs, first_gt_append, first_gt_cons]
      by_cases hk : k < (m a).key
      · rw [if_pos hk, hl, upper_bound_spec k l a a n hol s1 (by omega), if_pos hk]
      · rw [if_neg hk, hr, upper_bound_spec k r a y n hor s2 (by omega), if_neg hk,
          first_gt_all_le m k l.addrs _ (fun b hb => by have := s3 b hb; omega)]

theorem equal_range_spec {m : Nat → avl_tree_node} (k : Int) : ∀ (t : tr) (par y fuel : Nat),
    own m t par → key_sorted m t.addrs → t.addrs.length < fuel →
    equal_range fuel m t.root y k = some (first_ge m k t.addrs y, first_gt m k t.addrs y)
  | .nil, _, y, fuel, _, _, hf => by
    cases fuel with
    | zero => simp at hf
    | succ n => simp [equal_range, tr.root, first_ge, first_gt, tr.addrs]
  | .node l a r, par, y, fuel, ho, hs, hf => by
    cases fuel with
    | zero => simp at hf
    | succ n =>
      obtain ⟨h0, _, hl, hr, hol, hor⟩ := ho
      obtain ⟨s1, s2, s3, s4⟩ := key_sorted_node hs
      simp only [tr.addrs, List.length_append, List.length_cons] at hf
      simp only [equal_range, tr.root, ne_eq, h0, not_false_eq_true, if_true]
      simp only [tr.addrs, first_gt_append, first_gt_cons, first_ge_append, first_ge_cons]
      by_cases hk : (m a).key < k
      · have h2 : ¬ k < (m a).key := by omega
        rw [if_pos hk, hr, equal_range_spec k r a y n hor s2 (by omega), if_pos hk, if_neg h2,
          first_ge_all_lt m k l.addrs _ (fun b hb => by have := s3 b hb; omega),
          first_gt_all_le m k l.addrs _ (fun b hb => by have := s3 b hb; omega)]
      · rw [if_neg hk]
        by_cases hk2 : k < (m a).key
        · rw [if_pos hk2, hl, equal_range_spec k l a a n hol s1 (by omega), if_neg hk,
            if_pos hk2]
        · rw [if_neg hk2, hl, hr, lower_bound_spec k l a a n hol s1 (by omega),
            upper_bound_spec k r a y n hor s2 (by omega), if_neg hk, if_neg hk2,
            first_gt_all_le m k l.addrs _ (fun b hb => by have := s3 b hb; omega)]

/-! ## Stepping to the next and to the previous node -/

theorem nodup_decomp {x : Nat} : ∀ {A B A' B' : List Nat}, (A ++ x :: B).Nodup →
    A ++ x :: B = A' ++ x :: B' → A = A' ∧ B = B'
  | [], B, [], B', _, h => by simpa using h
  | [], B, a' :: A', B', hn, h => by
    simp only [List.nil_append, List.cons_append, List.cons.injEq] at h
    obtain ⟨h1, h2⟩ := h
    simp only [List.nil_append, List.nodup_cons] at hn
    exact absurd (by rw [h2]; simp) hn.1
  | a :: A, B, [], B', hn, h => by
    simp only [List.nil_append, List.cons_append, List.cons.injEq] at h
    obtain ⟨h1, h2⟩ := h
    subst h1
    simp only [List.cons_append, List.nodup_cons] at hn
    exact absurd (by simp) hn.1
  | a :: A, B, a' :: A', B', hn, h => by
    simp only [List.cons_append, List.cons.injEq] at h
    obtain ⟨h1, h2⟩ := h
    simp only [List.cons_append, List.nodup_cons] at hn
    obtain ⟨e1, e2⟩ := nodup_decomp hn.2 h2
    exact ⟨by rw [h1, e1], e2⟩

theorem own_child_ne {m : Nat → avl_tree_node} {t : tr} {par g : Nat} (ho : own m t par)
    (hg0 : g ≠ 0) (hg : g ∉ t.addrs) :
    ∀ l a r, t = tr.node l a r → (m a).right_ ≠ g ∧ (m a).left_ ≠ g := by
  intro l a r e
  subst e
  obtain ⟨_, _, hl, hr, _, _⟩ := ho
  rw [hl, hr]
  simp only [tr.addrs, List.mem_append, List.mem_cons, not_or] at hg
  exact ⟨root_ne hg0 (fun b hb e => hg.2.2 (e ▸ hb)), root_ne hg0 (fun b hb e => hg.1 (e ▸ hb))⟩

theorem increment_climb {m : Nat → avl_tree_node} : ∀ (c : List frame) (l : tr) (x : Nat)
    (r : tr) (fuel : Nat),
    c.length + 1 < fuel → (header :: (plug c (tr.node l x r)).addrs).Nodup →
    own m (tr.node l x r) (ctx_par c) → own_ctx m c x →
    ∃ x1 y, increment_loop fuel m x (ctx_par c) = some (x1, y) ∧
      (if (m x1).right_ ≠ y then y else x1) = first_or (ctx_after c)
  | [], l, x, r, fuel, hf, hnd, ho, hc => by
    obtain ⟨n, rfl⟩ : ∃ n, fuel = n + 2 := ⟨fuel - 2, by simp at hf; omega⟩
    have hh : header ∉ (tr.node l x r).addrs := (List.nodup_cons.1 hnd).1
    obtain ⟨h1, h2⟩ := own_child_ne ho header_ne_zero hh l x r rfl
    simp only [own_ctx] at hc
    simp only [ctx_par, ctx_after, first_or_nil]
    by_cases hx : x = (m header).right_
    · refine ⟨header, x, ?_, ?_⟩
      · rw [increment_loop, if_neg header_ne_zero, if_pos hx, hc, increment_loop, if_neg ho.1,
          if_neg h1.symm]
      · rw [if_neg (by simp [hx])]
    · refine ⟨x, header, ?_, ?_⟩
      · rw [increment_loop, if_neg header_ne_zero, if_neg hx]
      · rw [if_pos h1]
  | frame.R s g :: c, l, x, r, fuel, hf, hnd, ho, hc => by
    obtain ⟨n, rfl⟩ : ∃ n, fuel = n + 1 := ⟨fuel - 1, by simp at hf; omega⟩
    obtain ⟨hg0, hgp, hgl, hgr, hos, hcc⟩ := hc
    have := increment_climb c s g (tr.node l x r) n (by simp at hf; omega) hnd
      ⟨hg0, hgp, hgl, hgr, hos, ho⟩ hcc
    obtain ⟨x1, y, e, h⟩ := this
    refine ⟨x1, y, ?_, h⟩
    simp only [ctx_par]
    rw [increment_loop, if_neg hg0, if_pos hgr.symm, hgp]
    exact e
  | frame.L g s :: c, l, x, r, fuel, hf, hnd, ho, hc => by
    obtain ⟨n, rfl⟩ : ∃ n, fuel = n + 1 := ⟨fuel - 1, by simp at hf; omega⟩
    obtain ⟨hg0, hgp, hgl, hgr, hos, hcc⟩ := hc
    obtain ⟨f1, f2, f3⟩ := frame_up_L hnd
    obtain ⟨h1, _⟩ := own_child_ne ho hg0 f1 l x r rfl
    have hn1 : (tr.node (tr.node l x r) g s).addrs.Nodup := (sep_split (c := c) hnd).1
    have hxs : x ≠ (m g).right_ := by
      rw [hgr]
      intro e
      have hx0 : x ≠ 0 := ho.1
      rcases root_cases s with ⟨_, e1⟩ | ⟨_, e1⟩
      · exact hx0 (e.trans e1)
      · simp only [tr.addrs] at hn1
        have := (List.nodup_append.1 hn1).2.2
        exact this (show x ∈ l.addrs ++ x :: r.addrs by simp) (by rw [e]; simp [e1])
    refine ⟨x, g, ?_, ?_⟩
    · simp only [ctx_par]
      rw [increment_loop, if_neg hg0, if_neg hxs]
    · rw [if_pos h1]
      simp [ctx_after, first_or]

theorem increment_spec {m : Nat → avl_tree_node} (c : List frame) (l : tr) (x : Nat) (r : tr)
    (fuel : Nat) (hf : (plug c (tr.node l x r)).addrs.length + 1 < fuel)
    (hnd : (header :: (plug c (tr.node l x r)).addrs).Nodup)
    (ho : own m (tr.node l x r) (ctx_par c)) (hc : own_ctx m c x) :
    avl_tree_increment fuel m x = some (first_or (r.addrs ++ ctx_after c)) := by
  have hlen : c.length + 1 < fuel ∧ r.addrs.length < fuel := by
    have := ctx_length_le c
    rw [plug_addrs] at hf
    simp only [tr.addrs, List.length_append, List.length_cons] at hf this
    omega
  unfold avl_tree_increment
  rw [if_neg ho.1]
  cases r with
  | nil =>
    have hr : (m x).right_ = 0 := ho.2.2.2.1
    rw [if_neg (by simp [hr])]
    obtain ⟨x1, y, e, h⟩ := increment_climb c l x tr.nil fuel hlen.1 hnd ho hc
    rw [ho.2.1, e]
    simp only [tr.addrs, List.nil_append]
    by_cases hy : (m x1).right_ ≠ y
    · rw [if_pos hy] at h ⊢; rw [h]
    · rw [if_neg hy] at h ⊢; rw [h]
  | node rl rb rr =>
    have hr : (m x).right_ = rb := ho.2.2.2.1
    rw [if_pos (by rw [hr]; exact ho.2.2.2.2.2.1), hr,
      minimum_spec rl rb rr x fuel ho.2.2.2.2.2 hlen.2,
      first_or_append_of_ne _ _ (by simp [tr.addrs])]

theorem increment_at {m : Nat → avl_tree_node} (T : tr) (A B : List Nat) (x fuel : Nat)
    (hf : T.addrs.length + 1 < fuel) (hnd : (header :: T.addrs).Nodup)
    (ho : own m T header) (hp : (m header).parent_ = T.root) (hA : T.addrs = A ++ x :: B) :
    avl_tree_increment fuel m x = some (first_or B) := by
  obtain ⟨c, l, r, e⟩ := exists_ctx T x (by rw [hA]; simp)
  subst e
  obtain ⟨ho', hc'⟩ := (own_plug c _).1 ⟨ho, hp⟩
  rw [increment_spec c l x r fuel hf hnd ho' hc']
  have h1 : (plug c (tr.node l x r)).addrs
      = (ctx_before c ++ l.addrs) ++ x :: (r.addrs ++ ctx_after c) := by
    rw [plug_addrs]; simp [tr.addrs]
  have h2 := (List.nodup_cons.1 hnd).2
  rw [h1] at h2 hA
  rw [(nodup_decomp h2 hA).2]

theorem decrement_climb {m : Nat → avl_tree_node} : ∀ (c : List frame) (l : tr) (x : Nat)
    (r : tr) (fuel : Nat),
    ctx_before c ≠ [] → c.length < fuel → (header :: (plug c (tr.node l x r)).addrs).Nodup →
    own m (tr.node l x r) (ctx_par c) → own_ctx m c x →
    ∃ x1, decrement_loop fuel m x (ctx_par c) = some (x1, last_or (ctx_before c))
  | [], l, x, r, fuel, hb, hf, hnd, ho, hc => absurd rfl hb
  | frame.L g s :: c, l, x, r, fuel, hb, hf, hnd, ho, hc => by
    obtain ⟨n, rfl⟩ : ∃ n, fuel = n + 1 := ⟨fuel - 1, by simp at hf; omega⟩
    obtain ⟨hg0, hgp, hgl, hgr, hos, hcc⟩ := hc
    obtain ⟨x1, e⟩ := decrement_climb c (tr.node l x r) g s n hb (by simp at hf; omega) hnd
      ⟨hg0, hgp, hgl, hgr, ho, hos⟩ hcc
    refine ⟨x1, ?_⟩
    simp only [ctx_par, ctx_before]
    rw [decrement_loop, if_neg hg0, if_pos hgl.symm, hgp]
    exact e
  | frame.R s g :: c, l, x, r, fuel, hb, hf, hnd, ho, hc => by
    obtain ⟨n, rfl⟩ : ∃ n, fuel = n + 1 := ⟨fuel - 1, by simp at hf; omega⟩
    obtain ⟨hg0, hgp, hgl, hgr, hos, hcc⟩ := hc
    have hn1 : (tr.node s g (tr.node l x r)).addrs.Nodup := (sep_split (c := c) hnd).1
    have hxs : x ≠ (m g).left_ := by
      rw [hgl]
      intro e
      have hx0 : x ≠ 0 := ho.1
      rcases root_cases s with ⟨_, e1⟩ | ⟨_, e1⟩
      · exact hx0 (e.trans e1)
      · simp only [tr.addrs] at hn1
        have := (List.nodup_append.1 hn1).2.2
        exact this (by rw [← e] at e1; exact e1) (show x ∈ g :: (l.addrs ++ x :: r.addrs) by simp)
    refine ⟨x, ?_⟩
    simp only [ctx_par, ctx_before]
    rw [decrement_loop, if_neg hg0, if_neg hxs]
    have : last_or (ctx_before c ++ s.addrs ++ [g]) = g := by
      rw [last_or_append_cons]; simp
    rw [this]

theorem decrement_spec {m : Nat → avl_tree_node} (c : List frame) (l : tr) (x : Nat) (r : tr)
    (fuel : Nat) (hf : (plug c (tr.node l x r)).addrs.length + 1 < fuel)
    (hnd : (header :: (plug c (tr.node l x r)).addrs).Nodup)
    (ho : own m (tr.node l x r) (ctx_par c)) (hc : own_ctx m c x)
    (hne : ctx_before c ++ l.addrs ≠ []) :
    avl_tree_decrement fuel m x = some (last_or (ctx_before c ++ l.addrs)) := by
  have hlen : c.length < fuel ∧ l.addrs.length < fuel := by
    have := ctx_length_le c
    rw [plug_addrs] at hf
    simp only [tr.addrs, List.length_append, List.length_cons] at hf this
    omega
  have hpx : (m x).parent_ ≠ x := by
    rw [ho.2.1]
    exact fun e => ctx_par_not_mem hnd (by rw [e]; simp [tr.addrs])
  unfold avl_tree_decrement
  rw [if_neg ho.1, if_neg hpx]
  cases l with
  | nil =>
    have hl : (m x).left_ = 0 := ho.2.2.1
    rw [if_neg (by simp [hl])]
    simp only [tr.addrs, List.append_nil] at hne ⊢
    obtain ⟨x1, e⟩ := decrement_climb c tr.nil x r fuel hne hlen.1 hnd ho hc
    rw [ho.2.1, e]
  | node ll lb lr =>
    have hl : (m x).left_ = lb := ho.2.2.1
    rw [if_pos (by rw [hl]; exact ho.2.2.2.2.1.1), hl,
      maximum_spec ll lb lr x fuel ho.2.2.2.2.1 hlen.2,
      last_or_append_of_ne _ _ (by simp [tr.addrs])]

theorem decrement_at {m : Nat → avl_tree_node} (T : tr) (A B : List Nat) (x fuel : Nat)
    (hf : T.addrs.length + 1 < fuel) (hnd : (header :: T.addrs).Nodup)
    (ho : own m T header) (hp : (m header).parent_ = T.root) (hA : T.addrs = A ++ x :: B)
    (hne : A ≠ []) :
    avl_tree_decrement fuel m x = some (last_or A) := by
  obtain ⟨c, l, r, e⟩ := exists_ctx T x (by rw [hA]; simp)
  subst e
  obtain ⟨ho', hc'⟩ := (own_plug c _).1 ⟨ho, hp⟩
  have h1 : (plug c (tr.node l x r)).addrs
      = (ctx_before c ++ l.addrs) ++ x :: (r.addrs ++ ctx_after c) := by
    rw [plug_addrs]; simp [tr.addrs]
  have h2 := (List.nodup_cons.1 hnd).2
  rw [h1] at h2 hA
  have h3 := (nodup_decomp h2 hA).1
  rw [decrement_spec c l x r fuel hf hnd ho' hc' (by rw [h3]; exact hne), h3]

/-! ## The place where a key is inserted -/

theorem sorted_le_last {m : Nat → avl_tree_node} : ∀ (A : List Nat), key_sorted m A →
    ∀ a ∈ A, (m a).key ≤ (m (last_or A)).key := by
  intro A hs a ha
  rcases List.eq_nil_or_concat A with e | ⟨A', b, e⟩
  · subst e; simp at ha
  · subst e
    rw [List.concat_eq_append] at hs ha ⊢
    have hl : last_or (A' ++ [b]) = b := by rw [last_or_append_cons]; simp
    rw [hl]
    rw [key_sorted_append] at hs
    simp only [List.mem_append, List.mem_singleton] at ha
    rcases ha with ha | ha
    · exact le_of_lt (hs.2.2 a ha b (by simp))
    · rw [ha]

theorem sorted_first_le {m : Nat → avl_tree_node} : ∀ (B : List Nat), key_sorted m B →
    ∀ b ∈ B, (m (first_or B)).key ≤ (m b).key := by
  intro B hs b hb
  cases B with
  | nil => simp at hb
  | cons c B =>
    rw [first_or_cons]
    rw [key_sorted_cons] at hs
    simp only [List.mem_cons] at hb
    rcases hb with hb | hb
    · rw [hb]
    · exact le_of_lt (hs.1 b hb)

theorem insert_pos_absent {m : Nat → avl_tree_node} {T : tr} {k : Int} {x p : Nat}
    (h : insert_pos m T k x p) : ∀ a ∈ T.addrs, (m a).key ≠ k := by
  obtain ⟨c, e, _, _, h1, h2⟩ := h
  intro a ha
  rw [← e, plug_addrs] at ha
  simp only [tr.addrs, List.append_nil, List.mem_append] at ha
  rcases ha with ha | ha
  · exact ne_of_lt (h1 a ha)
  · exact (ne_of_lt (h2 a ha)).symm

theorem insert_pos_empty (m : Nat → avl_tree_node) (k : Int) (x : Nat) :
    insert_pos m tr.nil k x header :=
  ⟨[], rfl, rfl, by simp [ctx_insert_left], by simp [ctx_before], by simp [ctx_after]⟩

theorem own_sub {m : Nat → avl_tree_node} : ∀ (c : List frame) (t : tr),
    own m (plug c t) header → ∃ par, own m t par
  | [], t, h => ⟨header, h⟩
  | frame.L a s :: c, t, h => by
    obtain ⟨par, hp⟩ := own_sub c _ h
    exact ⟨a, hp.2.2.2.2.1⟩
  | frame.R s a :: c, t, h => by
    obtain ⟨par, hp⟩ := own_sub c _ h
    exact ⟨a, hp.2.2.2.2.2⟩

theorem insert_pos_left {m : Nat → avl_tree_node} (T : tr) (A B : List Nat) (p x : Nat) (k : Int)
    (hnd : (header :: T.addrs).Nodup) (ho : own m T header) (hs : key_sorted m T.addrs)
    (hA : T.addrs = A ++ p :: B) (hl : (m p).left_ = 0) (hk : k < (m p).key)
    (hb : A ≠ [] → (m (last_or A)).key < k) : insert_pos m T k x p := by
  obtain ⟨c, l, r, e⟩ := exists_ctx T p (by rw [hA]; simp)
  subst e
  have h1 : (plug c (tr.node l p r)).addrs
      = (ctx_before c ++ l.addrs) ++ p :: (r.addrs ++ ctx_after c) := by
    rw [plug_addrs]; simp [tr.addrs]
  have h2 := (List.nodup_cons.1 hnd).2
  rw [h1] at h2 hA
  obtain ⟨e1, e2⟩ := nodup_decomp h2 hA
  -- the left subtree of p is empty
  have hln : l = tr.nil := by
    obtain ⟨par, hp⟩ := own_sub c _ ho
    have hlr : l.root = 0 := by rw [← hp.2.2.1]; exact hl
    exact (own_root_eq_zero hp.2.2.2.2.1).1 hlr
  subst hln
  simp only [tr.addrs, List.append_nil] at e1
  rw [h1] at hs
  simp only [tr.addrs, List.append_nil] at hs
  rw [key_sorted_append, key_sorted_cons] at hs
  obtain ⟨s1, ⟨s2, s3⟩, s4⟩ := hs
  refine ⟨frame.L p r :: c, rfl, rfl, ?_, ?_, ?_⟩
  · simp [ctx_insert_left, ctx_par, hk]
  · intro a ha
    simp only [ctx_before] at ha
    have hne : A ≠ [] := by rw [← e1]; exact List.ne_nil_of_mem ha
    have := sorted_le_last (ctx_before c) s1 a ha
    rw [e1] at this
    exact lt_of_le_of_lt this (hb hne)
  · intro a ha
    simp only [ctx_after, List.mem_cons, List.mem_append] at ha
    rcases ha with (ha | ha) | ha
    · rw [ha]; exact hk
    · exact lt_trans hk (s2 a (by simp [ha]))
    · exact lt_trans hk (s2 a (by simp [ha]))

theorem insert_pos_right {m : Nat → avl_tree_node} (T : tr) (A B : List Nat) (p : Nat) (k : Int)
    (hnd : (header :: T.addrs).Nodup) (ho : own m T header) (hs : key_sorted m T.addrs)
    (hA : T.addrs = A ++ p :: B) (hr : (m p).right_ = 0) (hk : (m p).key < k)
    (hb : B ≠ [] → k < (m (first_or B)).key) : insert_pos m T k 0 p := by
  obtain ⟨c, l, r, e⟩ := exists_ctx T p (by rw [hA]; simp)
  subst e
  have h1 : (plug c (tr.node l p r)).addrs
      = (ctx_before c ++ l.addrs) ++ p :: (r.addrs ++ ctx_after c) := by
    rw [plug_addrs]; simp [tr.addrs]
  have h2 := (List.nodup_cons.1 hnd).2
  have hph : p ≠ header := by
    intro e
    exact (List.nodup_cons.1 hnd).1 (by rw [h1, e]; simp)
  rw [h1] at h2 hA
  obtain ⟨e1, e2⟩ := nodup_decomp h2 hA
  have hrn : r = tr.nil := by
    obtain ⟨par, hp⟩ := own_sub c _ ho
    have hrr : r.root = 0 := by rw [← hp.2.2.2.1]; exact hr
    exact (own_root_eq_zero hp.2.2.2.2.2).1 hrr
  subst hrn
  simp only [tr.addrs, List.nil_append] at e2
  rw [h1] at hs
  simp only [tr.addrs, List.nil_append] at hs
  rw [key_sorted_append, key_sorted_cons] at hs
  obtain ⟨s1, ⟨s2, s3⟩, s4⟩ := hs
  refine ⟨frame.R l p :: c, rfl, rfl, ?_, ?_, ?_⟩
  · have : ¬ k < (m p).key := by omega
    simp [ctx_insert_left, ctx_par, this, hph]
  · intro a ha
    simp only [ctx_before, List.mem_append, List.mem_singleton] at ha
    rcases ha with (ha | ha) | ha
    · exact lt_trans (s4 a (by simp [ha]) p (by simp)) hk
    · exact lt_trans (s4 a (by simp [ha]) p (by simp)) hk
    · rw [ha]; exact hk
  · intro a ha
    simp only [ctx_after] at ha
    have hne : B ≠ [] := by rw [← e2]; exact List.ne_nil_of_mem ha
    have := sorted_first_le (ctx_after c) s3 a ha
    rw [e2] at this
    exact lt_of_lt_of_le (hb hne) this

theorem unique_pos_loop_spec {m : Nat → avl_tree_node} (k : Int) : ∀ (t : tr) (c : List frame)
    (fuel : Nat), own m t (ctx_par c) → t.addrs.length < fuel → ctx_path m k c →
    ∃ c', unique_pos_loop fuel m t.root (ctx_par c) (ctx_insert_left c) k
        = some (0, ctx_par c', ctx_insert_left c') ∧
      plug c' tr.nil = plug c t ∧ ctx_path m k c'
  | .nil, c, fuel, _, hf, hp => by
    cases fuel with
    | zero => simp at hf
    | succ n => exact ⟨c, by simp [unique_pos_loop, tr.root], rfl, hp⟩
  | .node l a r, c, fuel, ho, hf, hp => by
    cases fuel with
    | zero => simp at hf
    | succ n =>
      obtain ⟨h0, _, hl, hr, hol, hor⟩ := ho
      simp only [tr.addrs, List.length_append, List.length_cons] at hf
      simp only [unique_pos_loop, tr.root, ne_eq, h0, not_false_eq_true, if_true]
      by_cases hk : k < (m a).key
      · obtain ⟨c', e, h1, h2⟩ := unique_pos_loop_spec k l (frame.L a r :: c) n hol (by omega)
          ⟨hk, hp⟩
        refine ⟨c', ?_, h1, h2⟩
        simp only [hk, decide_True, if_true, hl]
        exact e
      · obtain ⟨c', e, h1, h2⟩ := unique_pos_loop_spec k r (frame.R l a :: c) n hor (by omega)
          ⟨hk, hp⟩
        refine ⟨c', ?_, h1, h2⟩
        simp only [hk, decide_False, Bool.false_eq_true, if_false, hr]
        exact e

theorem key_sorted_mid {m : Nat → avl_tree_node} {u v w : List Nat}
    (h : key_sorted m (u ++ v ++ w)) : key_sorted m v := by
  rw [key_sorted_append, key_sorted_append] at h
  exact h.1.2.1

theorem ctx_path_bounds {m : Nat → avl_tree_node} (k : Int) : ∀ (c : List frame) (t : tr),
    key_sorted m (plug c t).addrs → ctx_path m k c →
    (∀ b ∈ ctx_after c, k < (m b).key) ∧ (∀ b ∈ ctx_before c, ¬ k < (m b).key)
  | [], _, _, _ => by simp [ctx_after, ctx_before]
  | frame.L a r :: c, t, hs, hp => by
    obtain ⟨h1, h2⟩ := ctx_path_bounds k c (tr.node t a r) hs hp.2
    have hs' : key_sorted m (tr.node t a r).addrs := by
      have := hs
      simp only [plug] at this
      rw [plug_addrs] at this
      exact key_sorted_mid this
    obtain ⟨_, _, _, s4⟩ := key_sorted_node hs'
    refine ⟨?_, h2⟩
    intro b hb
    simp only [ctx_after, List.mem_cons, List.mem_append] at hb
    rcases hb with (hb | hb) | hb
    · rw [hb]; exact hp.1
    · exact lt_trans hp.1 (s4 b hb)
    · exact h1 b hb
  | frame.R l a :: c, t, hs, hp => by
    obtain ⟨h1, h2⟩ := ctx_path_bounds k c (tr.node l a t) hs hp.2
    have hs' : key_sorted m (tr.node l a t).addrs := by
      have := hs
      simp only [plug] at this
      rw [plug_addrs] at this
      exact key_sorted_mid this
    obtain ⟨_, _, s3, _⟩ := key_sorted_node hs'
    refine ⟨h1, ?_⟩
    intro b hb
    simp only [ctx_before, List.mem_append, List.mem_singleton] at hb
    rcases hb with (hb | hb) | hb
    · exact h2 b hb
    · have := s3 b hb
      have := hp.1
      omega
    · rw [hb]; exact hp.1

theorem get_insert_unique_pos_spec {m : Nat → avl_tree_node} (T : tr) (k : Int) (fuel : Nat)
    (hf : T.addrs.length + 1 < fuel) (ho : own m T header) (hp : (m header).parent_ = T.root)
    (hnd : (header :: T.addrs).Nodup) (hleft : (m header).left_ = first_or T.addrs)
    (hs : key_sorted m T.addrs) :
    ∃ r, get_insert_unique_pos fuel m k = some r ∧ pos_result m T k r := by
  obtain ⟨c, e, hc, hpath⟩ := unique_pos_loop_spec k T [] fuel ho (by omega) trivial
  simp only [ctx_par, ctx_insert_left] at e
  have hpl : (plug c tr.nil).addrs = ctx_before c ++ ctx_after c := by
    rw [plug_addrs]; simp [tr.addrs]
  have hT : T.addrs = ctx_before c ++ ctx_after c := by
    rw [← hpl, hc]; rfl
  obtain ⟨ba, bb⟩ := ctx_path_bounds k c tr.nil (by rw [hc]; exact hs) hpath
  have hsb : key_sorted m (ctx_before c) := by
    rw [hT, key_sorted_append] at hs; exact hs.1
  have h0T : (0 : Nat) ∉ T.addrs := own_zero_not_mem T header ho
  have hhT : header ∉ T.addrs := (List.nodup_cons.1 hnd).1
  unfold get_insert_unique_pos
  rw [hp, e]
  simp only
  -- the case where a predecessor is examined
  have main : ctx_before c ≠ [] → (ctx_insert_left c = true →
        avl_tree_decrement fuel m (ctx_par c) = some (last_or (ctx_before c))) →
      (ctx_insert_left c = false → ctx_par c = last_or (ctx_before c)) →
      decide (0 ≠ 0 ∨ ctx_par c = header ∨ k < (m (ctx_par c)).key) = ctx_insert_left c →
      ctx_par c ≠ 0 →
      ∃ r, (match (if ctx_insert_left c = true then avl_tree_decrement fuel m (ctx_par c)
          else some (ctx_par c)) with
        | none => none
        | some j =>
          if j = 0 then none
          else if (m j).key < k then some (0, ctx_par c) else some (j, 0)) = some r ∧
        pos_result m T k r := by
    intro hne hdec hj hil hp0
    have hjm : last_or (ctx_before c) ∈ T.addrs := by
      rw [hT]
      exact List.mem_append_left _ (last_or_mem hne)
    have hj0 : last_or (ctx_before c) ≠ 0 := fun e => h0T (e ▸ hjm)
    have hres : (if ctx_insert_left c = true then avl_tree_decrement fuel m (ctx_par c)
        else some (ctx_par c)) = some (last_or (ctx_before c)) := by
      by_cases hcl : ctx_insert_left c = true
      · rw [if_pos hcl, hdec hcl]
      · rw [if_neg hcl, ← hj (by simpa using hcl)]
    rw [hres]
    simp only
    rw [if_neg hj0]
    by_cases hk : (m (last_or (ctx_before c))).key < k
    · rw [if_pos hk]
      refine ⟨_, rfl, Or.inl ⟨hp0, c, hc, rfl, hil, ?_, ba⟩⟩
      intro a ha
      exact lt_of_le_of_lt (sorted_le_last _ hsb a ha) hk
    · rw [if_neg hk]
      refine ⟨_, rfl, Or.inr ⟨rfl, hjm, ?_⟩⟩
      have := bb _ (last_or_mem hne)
      simp only
      omega
  cases c with
  | nil =>
    have hTn : T = tr.nil := by
      have : T.addrs = [] := by rw [hT]; rfl
      exact tr_addrs_eq_nil.1 this
    subst hTn
    simp only [ctx_insert_left, ctx_par] at *
    rw [if_pos ⟨trivial, by rw [hleft]; rfl⟩]
    exact ⟨_, rfl, Or.inl ⟨header_ne_zero, insert_pos_empty m k 0⟩⟩
  | cons f c' =>
    cases f with
    | L y r =>
      have hyk : k < (m y).key := hpath.1
      have hy0 : y ≠ 0 := fun e => h0T (by rw [hT, ← e]; simp [ctx_after])
      have hil : decide (0 ≠ 0 ∨ y = header ∨ k < (m y).key) = true := by simp [hyk]
      by_cases hfirst : y = (m header).left_
      · simp only [ctx_insert_left, ctx_par]
        rw [if_pos ⟨trivial, hfirst⟩]
        have hbn : ctx_before (frame.L y r :: c') = [] := by
          by_contra hne
          rw [hleft, hT, first_or_append_of_ne _ _ hne] at hfirst
          have h1 := first_or_mem hne
          rw [← hfirst] at h1
          have h2 := (List.nodup_cons.1 hnd).2
          rw [hT] at h2
          exact (List.nodup_append.1 h2).2.2 h1 (by simp [ctx_after])
        refine ⟨_, rfl, Or.inl ⟨hy0, frame.L y r :: c', hc, rfl, hil, ?_, ba⟩⟩
        rw [hbn]
        simp
      · simp only [ctx_insert_left, ctx_par] at main ⊢
        rw [if_neg (by simp [hfirst])]
        have hne : ctx_before (frame.L y r :: c') ≠ [] := by
          intro hn
          apply hfirst
          rw [hleft, hT, hn]
          simp [ctx_after, first_or]
        apply main hne ?_ (by simp) hil hy0
        intro _
        exact decrement_at T (ctx_before (frame.L y r :: c')) (r.addrs ++ ctx_after c') y fuel hf
          hnd ho hp (by rw [hT]; simp [ctx_after]) hne
    | R l y =>
      have hyk : ¬ k < (m y).key := hpath.1
      have hym : y ∈ T.addrs := by rw [hT]; simp [ctx_before]
      have hy0 : y ≠ 0 := fun e => h0T (e ▸ hym)
      have hyh : y ≠ header := fun e => hhT (e ▸ hym)
      have hil : decide (0 ≠ 0 ∨ y = header ∨ k < (m y).key) = false := by simp [hyk, hyh]
      simp only [ctx_insert_left, ctx_par] at main ⊢
      rw [if_neg (by simp)]
      apply main (by simp [ctx_before]) (by simp) ?_ hil hy0
      intro _
      simp only [ctx_before]
      rw [last_or_append_cons]
      simp

/-! ## The place found from a hint -/

theorem first_left_nil {m : Nat → avl_tree_node} : ∀ (t : tr) (par : Nat), own m t par →
    t ≠ tr.nil → (m (first_or t.addrs)).left_ = 0
  | .nil, _, _, h => absurd rfl h
  | .node l a r, par, ho, _ => by
    by_cases hl : l = tr.nil
    · subst hl
      simp only [tr.addrs, List.nil_append, first_or_cons]
      exact ho.2.2.1
    · have hne : l.addrs ≠ [] := fun e => hl (tr_addrs_eq_nil.1 e)
      rw [show (tr.node l a r).addrs = l.addrs ++ a :: r.addrs from rfl,
        first_or_append_of_ne _ _ hne]
      exact first_left_nil l a ho.2.2.2.2.1 hl

theorem last_right_nil {m : Nat → avl_tree_node} : ∀ (t : tr) (par : Nat), own m t par →
    t ≠ tr.nil → (m (last_or t.addrs)).right_ = 0
  | .nil, _, _, h => absurd rfl h
  | .node l a r, par, ho, _ => by
    by_cases hr : r = tr.nil
    · subst hr
      rw [show (tr.node l a tr.nil).addrs = l.addrs ++ a :: [] from rfl, last_or_append_cons]
      exact ho.2.2.2.1
    · have hne : r.addrs ≠ [] := fun e => hr (tr_addrs_eq_nil.1 e)
      rw [show (tr.node l a r).addrs = l.addrs ++ a :: r.addrs from rfl,
        last_or_append_of_ne _ _ (by simp),
        show a :: r.addrs = [a] ++ r.addrs from rfl, last_or_append_of_ne [a] _ hne]
      exact last_right_nil r a ho.2.2.2.2.2 hr

theorem last_or_decomp {u : List Nat} (h : u ≠ []) : ∃ A, u = A ++ [last_or u] := by
  refine ⟨u.dropLast, ?_⟩
  have : last_or u = u.getLast h := by
    simp [last_or, List.getLast?_eq_getLast _ h]
  rw [this, List.dropLast_append_getLast]

theorem first_or_decomp {u : List Nat} (h : u ≠ []) : ∃ B, u = first_or u :: B := by
  cases u with
  | nil => exact absurd rfl h
  | cons a B => exact ⟨B, rfl⟩

/-- Of two neighbours in symmetric order, the first has no right child or the
second has no left child. -/
theorem adjacent_links {m : Nat → avl_tree_node} (T : tr) (A B : List Nat) (a b : Nat)
    (hnd : (header :: T.addrs).Nodup) (ho : own m T header)
    (hA : T.addrs = A ++ a :: b :: B) (hr : (m a).right_ ≠ 0) : (m b).left_ = 0 := by
  obtain ⟨c, l, r, e⟩ := exists_ctx T a (by rw [hA]; simp)
  subst e
  have h1 : (plug c (tr.node l a r)).addrs
      = (ctx_before c ++ l.addrs) ++ a :: (r.addrs ++ ctx_after c) := by
    rw [plug_addrs]; simp [tr.addrs]
  have h2 := (List.nodup_cons.1 hnd).2
  rw [h1] at h2 hA
  obtain ⟨_, e2⟩ := nodup_decomp h2 hA
  obtain ⟨par, hp⟩ := own_sub c _ ho
  have hrn : r ≠ tr.nil := by
    intro e
    apply hr
    rw [hp.2.2.2.1, e]; rfl
  have hne : r.addrs ≠ [] := fun e => hrn (tr_addrs_eq_nil.1 e)
  have hb : first_or r.addrs = b := by
    rw [← first_or_append_of_ne _ (ctx_after c) hne, e2]; rfl
  rw [← hb]
  exact first_left_nil r a hp.2.2.2.2.2 hrn

theorem hint_pos_spec (t : avl_tree) (T : tr) (pos : Nat) (k : Int) (fuel : Nat)
    (hf : T.addrs.length + 1 < fuel) (ho : own t.mem T header)
    (hp : (t.mem header).parent_ = T.root)
    (hnd : (header :: T.addrs).Nodup) (hleft : (t.mem header).left_ = first_or T.addrs)
    (hright : (t.mem header).right_ = last_or T.addrs)
    (hs : key_sorted t.mem T.addrs)
    (hcount : t.node_count_ = T.addrs.length % 18446744073709551616)
    (hpos : pos = header ∨ pos ∈ T.addrs) :
    ∃ r, get_insert_hint_unique_pos fuel t pos k = some r ∧ pos_result t.mem T k r := by
  have h0T : (0 : Nat) ∉ T.addrs := own_zero_not_mem T header ho
  have hhT : header ∉ T.addrs := (List.nodup_cons.1 hnd).1
  have hnd' := (List.nodup_cons.1 hnd).2
  have hpos0 : pos ≠ 0 := by
    rcases hpos with e | e
    · rw [e]; exact header_ne_zero
    · exact fun e' => h0T (e' ▸ e)
  have hgen := get_insert_unique_pos_spec T k fuel hf ho hp hnd hleft hs
  unfold get_insert_hint_unique_pos
  simp only
  rw [if_neg hpos0]
  by_cases hph : pos = header
  · rw [if_pos hph]
    by_cases h : t.size > 0 ∧ (t.mem (t.mem header).right_).key < k
    · rw [if_pos h]
      have hne : T.addrs ≠ [] := by
        intro e
        have := h.1
        rw [avl_tree.size, hcount, e] at this
        simp at this
      obtain ⟨A, hA⟩ := last_or_decomp hne
      have hTn : T ≠ tr.nil := fun e => hne (tr_addrs_eq_nil.2 e)
      have hk := h.2
      rw [hright] at hk ⊢
      refine ⟨_, rfl, Or.inl ⟨fun e => h0T (e ▸ last_or_mem hne), ?_⟩⟩
      exact insert_pos_right T A [] _ k hnd ho hs hA (last_right_nil T header ho hTn) hk
        (fun e => absurd rfl e)
    · rw [if_neg h]
      exact hgen
  · rw [if_neg hph]
    have hmem : pos ∈ T.addrs := hpos.resolve_left hph
    obtain ⟨A, B, hA⟩ := List.append_of_mem hmem
    have hTn : T ≠ tr.nil := fun e => by rw [e] at hmem; simp [tr.addrs] at hmem
    by_cases hk1 : k < (t.mem pos).key
    · rw [if_pos hk1]
      by_cases hfirst : pos = (t.mem header).left_
      · rw [if_pos hfirst, ← hfirst]
        have hAn : A = [] := by
          cases A with
          | nil => rfl
          | cons a A' =>
            exfalso
            rw [hleft, hA] at hfirst
            simp only [List.cons_append, first_or_cons] at hfirst
            rw [hA, ← hfirst] at hnd'
            simp at hnd'
        subst hAn
        have hl : (t.mem pos).left_ = 0 := by
          have := first_left_nil T header ho hTn
          rw [hA] at this
          exact this
        exact ⟨_, rfl, Or.inl ⟨hpos0, insert_pos_left T [] B pos pos k hnd ho hs hA hl hk1
          (fun e => absurd rfl e)⟩⟩
      · rw [if_neg hfirst]
        have hAn : A ≠ [] := by
          intro e
          apply hfirst
          rw [hleft, hA, e]; rfl
        rw [decrement_at T A B pos fuel hf hnd ho hp hA hAn]
        simp only
        obtain ⟨A0, hA0⟩ := last_or_decomp hAn
        have hbm : last_or A ∈ T.addrs := by
          rw [hA]; exact List.mem_append_left _ (last_or_mem hAn)
        have hb0 : last_or A ≠ 0 := fun e => h0T (e ▸ hbm)
        rw [if_neg hb0]
        have hA2 : T.addrs = A0 ++ last_or A :: pos :: B := by
          rw [hA]
          nth_rewrite 1 [hA0]
          simp
        by_cases hk2 : (t.mem (last_or A)).key < k
        · rw [if_pos hk2]
          by_cases hbr : (t.mem (last_or A)).right_ = 0
          · rw [if_pos hbr]
            exact ⟨_, rfl, Or.inl ⟨hb0, insert_pos_right T A0 (pos :: B) _ k hnd ho hs hA2 hbr hk2
              (fun _ => hk1)⟩⟩
          · rw [if_neg hbr]
            exact ⟨_, rfl, Or.inl ⟨hpos0, insert_pos_left T A B pos pos k hnd ho hs hA
              (adjacent_links T A0 B _ pos hnd ho hA2 hbr) hk1 (fun _ => hk2)⟩⟩
        · rw [if_neg hk2]
          exact hgen
    · rw [if_neg hk1]
      by_cases hk3 : (t.mem pos).key < k
      · rw [if_pos hk3]
        by_cases hlast : pos = (t.mem header).right_
        · rw [if_pos hlast, ← hlast]
          have hBn : B = [] := by
            cases B with
            | nil => rfl
            | cons b B' =>
              exfalso
              rw [hright, hA] at hlast
              rw [last_or_append_of_ne _ _ (by simp),
                show pos :: b :: B' = [pos] ++ b :: B' from rfl,
                last_or_append_of_ne [pos] _ (by simp)] at hlast
              have hm : pos ∈ b :: B' := hlast ▸ last_or_mem (by simp)
              rw [hA] at hnd'
              have := (List.nodup_append.1 hnd').2.1
              exact (List.nodup_cons.1 this).1 hm
          subst hBn
          have hr : (t.mem pos).right_ = 0 := by
            have := last_right_nil T header ho hTn
            rw [hA, last_or_append_cons] at this
            exact this
          exact ⟨_, rfl, Or.inl ⟨hpos0, insert_pos_right T A [] pos k hnd ho hs hA hr hk3
            (fun e => absurd rfl e)⟩⟩
        · rw [if_neg hlast]
          have hBn : B ≠ [] := by
            intro e
            apply hlast
            rw [hright, hA, e, last_or_append_cons]
            rfl
          rw [increment_at T A B pos fuel hf hnd ho hp hA]
          simp only
          obtain ⟨B0, hB0⟩ := first_or_decomp hBn
          have ham : first_or B ∈ T.addrs := by
            rw [hA]
            exact List.mem_append_right _ (List.mem_cons_of_mem _ (first_or_mem hBn))
          have ha0 : first_or B ≠ 0 := fun e => h0T (e ▸ ham)
          rw [if_neg ha0]
          have hA2 : T.addrs = A ++ pos :: first_or B :: B0 := by
            rw [hA]
            nth_rewrite 1 [hB0]
            rfl
          by_cases hk4 : k < (t.mem (first_or B)).key
          · rw [if_pos hk4]
            by_cases hpr : (t.mem pos).right_ = 0
            · rw [if_pos hpr]
              exact ⟨_, rfl, Or.inl ⟨hpos0, insert_pos_right T A B pos k hnd ho hs hA hpr hk3
                (fun _ => hk4)⟩⟩
            · rw [if_neg hpr]
              refine ⟨_, rfl, Or.inl ⟨ha0, insert_pos_left T (A ++ [pos]) B0 _ _ k hnd ho hs
                (by rw [hA2]; simp) (adjacent_links T A B0 pos _ hnd ho hA2 hpr) hk4 ?_⟩⟩
              intro _
              rw [last_or_append_cons]
              exact hk3
          · rw [if_neg hk4]
            exact hgen
      · rw [if_neg hk3]
        exact ⟨_, rfl, Or.inr ⟨rfl, hmem, le_antisymm (not_lt.1 hk1) (not_lt.1 hk3)⟩⟩

/-! ## The reference map and the pairs of a tree -/

theorem ref_emplace_insert (k v : Int) : ∀ (A B : List (Int × Int)),
    (∀ p ∈ A, p.1 < k) → (∀ p ∈ B, k < p.1) →
    ref_emplace (A ++ B) k v = A ++ (k, v) :: B
  | [], [], _, _ => rfl
  | [], (k1, v1) :: B, _, hB => by
    have : k < k1 := hB (k1, v1) (by simp)
    simp [ref_emplace, this]
  | (k1, v1) :: A, B, hA, hB => by
    have h1 : k1 < k := hA (k1, v1) (by simp)
    have h2 : ¬ k < k1 := by omega
    have ih := ref_emplace_insert k v A B (fun p hp => hA p (by simp [hp])) hB
    rw [List.cons_append, ref_emplace, if_neg h2, if_pos h1, ih]
    rfl

theorem ref_emplace_present (k v v0 : Int) : ∀ (A B : List (Int × Int)),
    (∀ p ∈ A, p.1 < k) →
    ref_emplace (A ++ (k, v0) :: B) k v = A ++ (k, v0) :: B
  | [], B, _ => by
    simp [ref_emplace]
  | (k1, v1) :: A, B, hA => by
    have h1 : k1 < k := hA (k1, v1) (by simp)
    have h2 : ¬ k < k1 := by omega
    have ih := ref_emplace_present k v v0 A B (fun p hp => hA p (by simp [hp]))
    rw [List.cons_append, ref_emplace, if_neg h2, if_pos h1, ih]

theorem ref_find_absent (k : Int) (L : List (Int × Int)) (h : ∀ p ∈ L, p.1 ≠ k) :
    ref_find L k = none := by
  unfold ref_find
  rw [List.find?_eq_none]
  intro p hp
  simpa using h p hp

theorem ref_find_present (k v0 : Int) : ∀ (A B : List (Int × Int)), (∀ p ∈ A, p.1 ≠ k) →
    ref_find (A ++ (k, v0) :: B) k = some (k, v0)
  | [], B, _ => by simp [ref_find]
  | (k1, v1) :: A, B, hA => by
    have h1 : k1 ≠ k := hA (k1, v1) (by simp)
    have ih := ref_find_present k v0 A B (fun p hp => hA p (by simp [hp]))
    unfold ref_find at ih ⊢
    rw [List.cons_append, List.find?_cons_of_neg _ (by simpa using h1)]
    exact ih

theorem ref_erase_absent (k : Int) (L : List (Int × Int)) (h : ∀ p ∈ L, p.1 ≠ k) :
    ref_erase L k = L := by
  unfold ref_erase
  rw [List.filter_eq_self]
  intro p hp
  simpa using h p hp

theorem ref_erase_present (k v0 : Int) (A B : List (Int × Int)) (hA : ∀ p ∈ A, p.1 ≠ k)
    (hB : ∀ p ∈ B, p.1 ≠ k) : ref_erase (A ++ (k, v0) :: B) k = A ++ B := by
  unfold ref_erase
  rw [List.filter_append, List.filter_cons_of_neg (by simp)]
  have e1 := ref_erase_absent k A hA
  have e2 := ref_erase_absent k B hB
  unfold ref_erase at e1 e2
  rw [e1, e2]

theorem entries_append (m : Nat → avl_tree_node) (u v : List Nat) :
    entries m (u ++ v) = entries m u ++ entries m v := by
  simp [entries]

theorem entries_cons (m : Nat → avl_tree_node) (a : Nat) (v : List Nat) :
    entries m (a :: v) = ((m a).key, (m a).val) :: entries m v := rfl

theorem entries_congr {m m' : Nat → avl_tree_node} (l : List Nat)
    (h : ∀ a ∈ l, (m' a).key = (m a).key ∧ (m' a).val = (m a).val) :
    entries m' l = entries m l := by
  unfold entries
  apply List.map_congr_left
  intro a ha
  rw [(h a ha).1, (h a ha).2]

theorem entries_mem {m : Nat → avl_tree_node} {l : List Nat} {p : Int × Int}
    (h : p ∈ entries m l) : ∃ a ∈ l, p = ((m a).key, (m a).val) := by
  unfold entries at h
  rw [List.mem_map] at h
  obtain ⟨a, ha, e⟩ := h
  exact ⟨a, ha, e.symm⟩

theorem entries_length (m : Nat → avl_tree_node) (l : List Nat) :
    (entries m l).length = l.length := by
  simp [entries]

theorem key_sorted_congr {m m' : Nat → avl_tree_node} (l : List Nat)
    (h : ∀ a ∈ l, (m' a).key = (m a).key) (hs : key_sorted m l) : key_sorted m' l := by
  unfold key_sorted at hs ⊢
  refine List.Pairwise.imp_of_mem ?_ hs
  intro a b ha hb hab
  rw [h a ha, h b hb]; exact hab

theorem key_sorted_entries {m : Nat → avl_tree_node} {l : List Nat} (hs : key_sorted m l) :
    ((entries m l).map Prod.fst).Pairwise (fun a b => a < b) := by
  unfold entries
  rw [List.map_map, List.pairwise_map]
  exact hs

theorem key_sorted_sublist {m : Nat → avl_tree_node} {u v w : List Nat}
    (hs : key_sorted m (u ++ v ++ w)) : key_sorted m (u ++ w) := by
  unfold key_sorted at hs ⊢
  refine List.Pairwise.sublist ?_ hs
  rw [List.append_assoc]
  exact List.Sublist.append_left (List.sublist_append_right v w) u

/-! ## Insertion at the level of the map -/

theorem whole_frame {m m' : Nat → avl_tree_node} (T : tr)
    (h : ∀ a, a = header ∨ a ∈ T.addrs → (m' a).parent_ = (m a).parent_ ∧
      (m' a).left_ = (m a).left_ ∧ (m' a).right_ = (m a).right_ ∧
      (m' a).height_ = (m a).height_) (hw : whole m T) : whole m' T := by
  obtain ⟨h1, h2, h3, h4⟩ := hw
  refine ⟨own_frame T header (fun a ha => ?_) h1, ?_, hts_frame T (fun a ha => ?_) h3, h4⟩
  · have := h a (Or.inr ha)
    exact ⟨this.1, this.2.1, this.2.2.1⟩
  · rw [(h header (Or.inl rfl)).1]; exact h2
  · exact (h a (Or.inr ha)).2.2.2

theorem first_ge_cases (m : Nat → avl_tree_node) (k : Int) (y : Nat) : ∀ (l : List Nat),
    ((∀ a ∈ l, (m a).key < k) ∧ first_ge m k l y = y) ∨
    (∃ A B x, l = A ++ x :: B ∧ first_ge m k l y = x ∧ (∀ a ∈ A, (m a).key < k) ∧
      ¬ (m x).key < k)
  | [] => Or.inl ⟨by simp, rfl⟩
  | b :: l => by
    rw [first_ge_cons]
    by_cases h : (m b).key < k
    · rw [if_pos h]
      rcases first_ge_cases m k y l with ⟨h1, h2⟩ | ⟨A, B, x, h1, h2, h3, h4⟩
      · left
        refine ⟨?_, h2⟩
        intro a ha
        rcases List.mem_cons.1 ha with e | e
        · rw [e]; exact h
        · exact h1 a e
      · right
        refine ⟨b :: A, B, x, by rw [h1]; rfl, h2, ?_, h4⟩
        intro a ha
        rcases List.mem_cons.1 ha with e | e
        · rw [e]; exact h
        · exact h3 a e
    · rw [if_neg h]
      right
      exact ⟨[], l, b, rfl, rfl, by simp, h⟩

theorem create_node_spec (t : avl_tree) (T : tr) (k v : Int) (h : avl_inv t T) :
    (create_node t k v).1 = t.heap_next ∧
    avl_inv (create_node t k v).2 T ∧
    ((create_node t k v).2.mem t.heap_next).key = k ∧
    ((create_node t k v).2.mem t.heap_next).val = v ∧
    t.heap_next ∉ T.addrs ∧ t.heap_next ≠ 0 ∧ t.heap_next ≠ header ∧
    (∀ a, a ≠ t.heap_next → (create_node t k v).2.mem a = t.mem a) ∧
    (create_node t k v).2.node_count_ = t.node_count_ := by
  obtain ⟨hw, hnd, hl, hr, hs, hc, hb, h2⟩ := h
  have hz : t.heap_next ∉ T.addrs := fun e => absurd (hb _ e) (lt_irrefl _)
  have hz0 : t.heap_next ≠ 0 := by omega
  have hzh : t.heap_next ≠ header := by
    have : header = 1 := rfl
    omega
  have hframe : ∀ a, (create_node t k v).2.mem a = t.mem a ∨
      (a = t.heap_next ∧ (create_node t k v).2.mem a = { t.mem a with key := k, val := v }) := by
    intro a
    by_cases e : a = t.heap_next
    · right
      exact ⟨e, by simp [create_node, e]⟩
    · left
      simp [create_node, e]
  have hsame : ∀ a, a ≠ t.heap_next → (create_node t k v).2.mem a = t.mem a := by
    intro a ha
    rcases hframe a with e | ⟨e, _⟩
    · exact e
    · exact absurd e ha
  have hlinks : ∀ a, ((create_node t k v).2.mem a).parent_ = (t.mem a).parent_ ∧
      ((create_node t k v).2.mem a).left_ = (t.mem a).left_ ∧
      ((create_node t k v).2.mem a).right_ = (t.mem a).right_ ∧
      ((create_node t k v).2.mem a).height_ = (t.mem a).height_ := by
    intro a
    rcases hframe a with e | ⟨_, e⟩ <;> rw [e] <;> simp
  refine ⟨rfl, ⟨whole_frame T (fun a _ => hlinks a) hw, hnd, ?_, ?_, ?_, hc, ?_, ?_⟩, ?_, ?_,
    hz, hz0, hzh, hsame, rfl⟩
  · rw [(hlinks header).2.1]; exact hl
  · rw [(hlinks header).2.2.1]; exact hr
  · refine key_sorted_congr T.addrs (fun a ha => ?_) hs
    rw [hsame a (fun e => hz (e ▸ ha))]
  · intro a ha
    have := hb a ha
    show a < t.heap_next + 1
    omega
  · show 2 ≤ t.heap_next + 1
    omega
  · simp [create_node]
  · simp [create_node]

theorem ctx_insert_left_eq (c : List frame) : ctx_insert_left c = match c with
    | [] => true
    | frame.L _ _ :: _ => true
    | frame.R _ _ :: _ => false := by
  cases c with
  | nil => rfl
  | cons f c => cases f <;> rfl

theorem insert_node_spec (fuel : Nat) (t : avl_tree) (T : tr) (k v : Int) (x p z : Nat)
    (hf : T.addrs.length < fuel) (h : avl_inv t T)
    (hz : z ∉ T.addrs) (hz0 : z ≠ 0) (hzh : z ≠ header) (hzk : (t.mem z).key = k)
    (hzv : (t.mem z).val = v) (hzb : z < t.heap_next)
    (hpos : insert_pos t.mem T k x p) :
    ∃ t' T', insert_node fuel t x p z = some (z, t') ∧ avl_inv t' T' ∧
      entries t'.mem T'.addrs = ref_emplace (entries t.mem T.addrs) k v ∧
      T'.addrs.length = T.addrs.length + 1 ∧ z ∈ T'.addrs ∧
      (∀ a, (t'.mem a).key = (t.mem a).key ∧ (t'.mem a).val = (t.mem a).val) ∧
      t'.heap_next = t.heap_next := by
  obtain ⟨hw, hnd, hl, hr, hs, hc, hb, h2⟩ := h
  obtain ⟨c, hT, hpar, hdec, hbefore, hafter⟩ := hpos
  subst hT
  obtain ⟨_, hctx⟩ := (own_plug c tr.nil).1 ⟨hw.1, hw.2.1⟩
  have hp0 : p ≠ 0 := hpar ▸ own_ctx_par_ne_zero hctx
  have hlen : c.length < fuel := by
    have := ctx_length_le c
    rw [plug_addrs] at hf
    simp only [tr.addrs, List.append_nil] at hf
    omega
  have hadd : (plug c tr.nil).addrs = ctx_before c ++ ctx_after c := by
    rw [plug_addrs]; simp [tr.addrs]
  obtain ⟨m', T', e, hw', ha', hkv, hl', hr'⟩ :=
    insert_and_rebalance_spec fuel t.mem c z (ctx_insert_left c) hlen hw hnd hz0 hzh hz
      (by
        cases c with
        | nil => rfl
        | cons f c => cases f <;> rfl) hl hr
  unfold insert_node
  rw [if_neg (by simp [hp0, hz0])]
  simp only
  rw [hzk, hdec, ← hpar, e]
  refine ⟨_, T', rfl, ⟨hw', ?_, hl', hr', ?_, ?_, ?_, h2⟩, ?_, ?_, ?_, hkv, rfl⟩
  · rw [ha']
    rw [hadd] at hnd hz
    exact nodup_insert_fresh hnd hz hzh
  · rw [hadd] at hs
    rw [ha']
    apply key_sorted_congr _ (fun a _ => ((hkv a).1.symm ▸ rfl : (m' a).key = (m' a).key))
    have hs' : key_sorted m' (ctx_before c ++ ctx_after c) :=
      key_sorted_congr _ (fun a _ => (hkv a).1) hs
    rw [key_sorted_append] at hs' ⊢
    refine ⟨hs'.1, ?_, ?_⟩
    · rw [key_sorted_cons]
      refine ⟨?_, hs'.2.1⟩
      intro b hb'
      rw [(hkv z).1, (hkv b).1, hzk]
      exact hafter b hb'
    · intro a ha b hb'
      rcases List.mem_cons.1 hb' with e' | e'
      · rw [e', (hkv z).1, (hkv a).1, hzk]
        exact hbefore a ha
      · exact hs'.2.2 a ha b e'
  · show (t.node_count_ + 1) % 18446744073709551616 = T'.addrs.length % 18446744073709551616
    rw [ha', hc, hadd]
    simp only [List.length_append, List.length_cons]
    omega
  · intro a ha
    rw [ha'] at ha
    show a < t.heap_next
    simp only [List.mem_append, List.mem_cons] at ha
    rcases ha with ha | ha | ha
    · exact hb a (by rw [hadd]; simp [ha])
    · rw [ha]; exact hzb
    · exact hb a (by rw [hadd]; simp [ha])
  · show entries m' T'.addrs = _
    rw [ha', hadd, entries_append, entries_cons, entries_append,
      entries_congr (ctx_before c) (fun a _ => hkv a),
      entries_congr (ctx_after c) (fun a _ => hkv a), (hkv z).1, (hkv z).2, hzk, hzv]
    symm
    apply ref_emplace_insert
    · intro q hq
      obtain ⟨a, ha, e'⟩ := entries_mem hq
      rw [e']
      exact hbefore a ha
    · intro q hq
      obtain ⟨a, ha, e'⟩ := entries_mem hq
      rw [e']
      exact hafter a ha
  · rw [ha', hadd]
    simp only [List.length_append, List.length_cons]
    omega
  · rw [ha']
    simp

theorem present_decomp {m : Nat → avl_tree_node} {l : List Nat} {x : Nat}
    (hs : key_sorted m l) (hx : x ∈ l) :
    ∃ A B, l = A ++ x :: B ∧ (∀ a ∈ A, (m a).key < (m x).key) ∧
      (∀ b ∈ B, (m x).key < (m b).key) := by
  obtain ⟨A, B, e⟩ := List.append_of_mem hx
  subst e
  rw [key_sorted_append, key_sorted_cons] at hs
  exact ⟨A, B, rfl, fun a ha => hs.2.2 a ha x (List.mem_cons_self _ _), hs.2.1.1⟩

theorem entries_present {m : Nat → avl_tree_node} {A B : List Nat} {x : Nat}
    (hA : ∀ a ∈ A, (m a).key < (m x).key) (hB : ∀ b ∈ B, (m x).key < (m b).key) (v : Int) :
    ref_find (entries m (A ++ x :: B)) (m x).key = some ((m x).key, (m x).val) ∧
    ref_emplace (entries m (A ++ x :: B)) (m x).key v = entries m (A ++ x :: B) ∧
    ref_erase (entries m (A ++ x :: B)) (m x).key = entries m (A ++ B) := by
  rw [entries_append, entries_cons, entries_append]
  refine ⟨ref_find_present _ _ _ _ ?_, ref_emplace_present _ _ _ _ _ ?_,
    ref_erase_present _ _ _ _ ?_ ?_⟩
  · intro p hp
    obtain ⟨a, ha, e⟩ := entries_mem hp
    rw [e]
    exact ne_of_lt (hA a ha)
  · intro p hp
    obtain ⟨a, ha, e⟩ := entries_mem hp
    rw [e]
    exact hA a ha
  · intro p hp
    obtain ⟨a, ha, e⟩ := entries_mem hp
    rw [e]
    exact ne_of_lt (hA a ha)
  · intro p hp
    obtain ⟨a, ha, e⟩ := entries_mem hp
    rw [e]
    exact (ne_of_lt (hB a ha)).symm

theorem entries_absent {m : Nat → avl_tree_node} {l : List Nat} {k : Int}
    (h : ∀ a ∈ l, (m a).key ≠ k) :
    ref_find (entries m l) k = none ∧ ref_erase (entries m l) k = entries m l := by
  have : ∀ p ∈ entries m l, p.1 ≠ k := by
    intro p hp
    obtain ⟨a, ha, e⟩ := entries_mem hp
    rw [e]
    exact h a ha
  exact ⟨ref_find_absent k _ this, ref_erase_absent k _ this⟩

theorem key_unique {m : Nat → avl_tree_node} {l : List Nat} {x y : Nat}
    (hs : key_sorted m l) (hx : x ∈ l) (hy : y ∈ l) (e : (m x).key = (m y).key) : x = y := by
  obtain ⟨A, B, e1, hA, hB⟩ := present_decomp hs hx
  rw [e1] at hy
  simp only [List.mem_append, List.mem_cons] at hy
  rcases hy with h | h | h
  · have := hA y h
    omega
  · exact h.symm
  · have := hB y h
    omega

theorem insert_pos_congr {m m' : Nat → avl_tree_node} {T : tr} {k : Int} {x p : Nat}
    (hk : ∀ a ∈ T.addrs, (m' a).key = (m a).key) (h : insert_pos m T k x p) :
    insert_pos m' T k x p := by
  obtain ⟨c, hT, hpar, hdec, hb, ha⟩ := h
  have hadd : T.addrs = ctx_before c ++ ctx_after c := by
    rw [← hT, plug_addrs]; simp [tr.addrs]
  refine ⟨c, hT, hpar, ?_, ?_, ?_⟩
  · rcases ctx_par_cases c with ⟨_, e⟩ | ⟨_, e⟩
    · rw [← hdec]
      have : p = header := by rw [← hpar, e]
      simp [this]
    · rw [← hdec, hk p (by rw [hadd, ← hpar]; exact e)]
  · intro a h1
    rw [hk a (by rw [hadd]; simp [h1])]
    exact hb a h1
  · intro a h1
    rw [hk a (by rw [hadd]; simp [h1])]
    exact ha a h1

theorem pos_result_congr {m m' : Nat → avl_tree_node} {T : tr} {k : Int} {r : Nat × Nat}
    (hk : ∀ a ∈ T.addrs, (m' a).key = (m a).key) (h : pos_result m T k r) :
    pos_result m' T k r := by
  rcases h with ⟨h1, h2⟩ | ⟨h1, h2, h3⟩
  · exact Or.inl ⟨h1, insert_pos_congr hk h2⟩
  · exact Or.inr ⟨h1, h2, by rw [hk _ h2]; exact h3⟩

/-- The last step of an insertion: the node made for the pair is linked at
the place found, or the node that holds the key already is returned. -/
theorem place_spec (fuel : Nat) (t : avl_tree) (T : tr) (k v : Int) (h : avl_inv t T)
    (hf : T.addrs.length < fuel) (r1 r2 : Nat)
    (hr : pos_result (create_node t k v).2.mem T k (r1, r2)) :
    ∃ i t' T', (if r2 ≠ 0 then
          insert_node fuel (create_node t k v).2 r1 r2 (create_node t k v).1
        else some (r1, (create_node t k v).2)) = some (i, t') ∧
      avl_inv t' T' ∧
      entries t'.mem T'.addrs = ref_emplace (entries t.mem T.addrs) k v ∧
      T'.addrs.length ≤ T.addrs.length + 1 ∧ i ∈ T'.addrs ∧ (t'.mem i).key = k ∧
      ((∀ a ∈ T.addrs, (t.mem a).key ≠ k) →
        (t'.mem i).val = v ∧ T'.addrs.length = T.addrs.length + 1 ∧ r2 ≠ 0) ∧
      (∀ x ∈ T.addrs, (t.mem x).key = k →
        i = x ∧ T' = T ∧ t' = (create_node t k v).2) := by
  obtain ⟨hz1, hinv1, hzk, hzv, hz, hz0, hzh, hsame, hcnt⟩ := create_node_spec t T k v h
  have hkeys : ∀ a ∈ T.addrs, (create_node t k v).2.mem a = t.mem a :=
    fun a ha => hsame a (fun e => hz (e ▸ ha))
  have hent : entries (create_node t k v).2.mem T.addrs = entries t.mem T.addrs :=
    entries_congr _ (fun a ha => by rw [hkeys a ha]; exact ⟨rfl, rfl⟩)
  rcases hr with ⟨h1, h2⟩ | ⟨h1, h2, h3⟩
  · simp only at h1 h2
    rw [if_pos h1, hz1]
    obtain ⟨t', T', e, hinv', hent', hlen', hzm, hkv, _⟩ :=
      insert_node_spec fuel (create_node t k v).2 T k v r1 r2 t.heap_next hf hinv1 hz hz0 hzh
        hzk hzv (by show t.heap_next < t.heap_next + 1; omega) h2
    refine ⟨_, t', T', e, hinv', by rw [hent', hent], by omega, hzm, ?_, ?_, ?_⟩
    · rw [(hkv _).1]; exact hzk
    · intro _
      exact ⟨by rw [(hkv _).2]; exact hzv, hlen', h1⟩
    · intro x hx hxk
      exfalso
      have := insert_pos_absent h2 x hx
      rw [hkeys x hx] at this
      exact this hxk
  · simp only at h1 h2 h3
    rw [if_neg (by simp [h1])]
    have hk1 : (t.mem r1).key = k := by rw [← hkeys r1 h2]; exact h3
    obtain ⟨A, B, e1, hA, hB⟩ := present_decomp hinv1.2.2.2.2.1 h2
    refine ⟨_, _, T, rfl, hinv1, ?_, by omega, h2, h3, ?_, ?_⟩
    · rw [hent]
      have := (@entries_present t.mem A B r1 (by
        intro a ha
        have := hA a ha
        rw [hkeys a (by rw [e1]; simp [ha]), hkeys r1 h2] at this
        exact this) (by
        intro a ha
        have := hB a ha
        rw [hkeys a (by rw [e1]; simp [ha]), hkeys r1 h2] at this
        exact this) v).2.1
      rw [hk1, ← e1] at this
      exact this.symm
    · intro habs
      exact absurd hk1 (habs r1 h2)
    · intro x hx hxk
      refine ⟨?_, rfl, rfl⟩
      exact key_unique h.2.2.2.2.1 h2 hx (by rw [hk1, hxk])

theorem emplace_hint_unique_eq (fuel : Nat) (t : avl_tree) (pos : Nat) (k v : Int) :
    emplace_hint_unique fuel t pos k v =
      match get_insert_hint_unique_pos fuel (create_node t k v).2 pos k with
      | none => none
      | some (first, second) =>
        if second ≠ 0 then
          insert_node fuel (create_node t k v).2 first second (create_node t k v).1
        else some (first, (create_node t k v).2) := rfl

theorem reinsert_eq (fuel : Nat) (t : avl_tree) (hint : Nat) (k v : Int) :
    reinsert_node_hint_unique fuel t hint k v =
      match get_insert_hint_unique_pos fuel t hint k with
      | none => none
      | some (first, second) =>
        if second ≠ 0 then
          insert_node fuel (create_node t k v).2 first second (create_node t k v).1
        else some (first, (create_node t k v).2) := rfl

theorem map_emplace_spec (fuel : Nat) (t : avl_tree) (T : tr) (k v : Int)
    (hf : T.addrs.length + 1 < fuel) (h : avl_inv t T) :
    ∃ i b t' T', alp_utils.emplace fuel t k v = some (i, b, t') ∧ avl_inv t' T' ∧
      entries t'.mem T'.addrs = ref_emplace (entries t.mem T.addrs) k v ∧
      b = (ref_find (entries t.mem T.addrs) k).isNone ∧
      T'.addrs.length ≤ T.addrs.length + 1 ∧ i ∈ T'.addrs ∧ (t'.mem i).key = k ∧
      ((∀ a ∈ T.addrs, (t.mem a).key ≠ k) →
        (t'.mem i).val = v ∧ T'.addrs.length = T.addrs.length + 1) ∧
      (∀ x ∈ T.addrs, (t.mem x).key = k → i = x ∧ T' = T ∧ t' = t) := by
  have h' := h
  obtain ⟨hw, hnd, hl, hr, hs, hc, hb, h2⟩ := h
  have hlb := lower_bound_spec k T header header fuel hw.1 hs (by omega)
  unfold alp_utils.emplace
  rw [hw.2.1, hlb]
  simp only
  obtain ⟨hz1, hinv1, hzk, hzv, hz, hz0, hzh, hsame, hcnt⟩ := create_node_spec t T k v h'
  have hhT : header ∉ T.addrs := (List.nodup_cons.1 hnd).1
  have absent : (∀ a ∈ T.addrs, (t.mem a).key ≠ k) →
      (first_ge t.mem k T.addrs header = header ∨ first_ge t.mem k T.addrs header ∈ T.addrs) →
      ∃ i b t' T', (match emplace_hint_unique fuel t (first_ge t.mem k T.addrs header) k v with
          | none => none
          | some (i1, t1) => some (i1, true, t1)) = some (i, b, t') ∧ avl_inv t' T' ∧
        entries t'.mem T'.addrs = ref_emplace (entries t.mem T.addrs) k v ∧
        b = (ref_find (entries t.mem T.addrs) k).isNone ∧
        T'.addrs.length ≤ T.addrs.length + 1 ∧ i ∈ T'.addrs ∧ (t'.mem i).key = k ∧
        ((∀ a ∈ T.addrs, (t.mem a).key ≠ k) →
          (t'.mem i).val = v ∧ T'.addrs.length = T.addrs.length + 1) ∧
        (∀ x ∈ T.addrs, (t.mem x).key = k → i = x ∧ T' = T ∧ t' = t) := by
    intro habs hpos
    obtain ⟨hw1, hnd1, hl1, hr1, hs1, hc1, hb1, _⟩ := hinv1
    obtain ⟨⟨r1, r2⟩, e, hres⟩ := hint_pos_spec (create_node t k v).2 T
      (first_ge t.mem k T.addrs header) k fuel hf hw1.1 hw1.2.1 hnd1 hl1 hr1 hs1 hc1 hpos
    obtain ⟨i, t', T', e2, hinv', hent', hlen', him, hik, hA, hP⟩ :=
      place_spec fuel t T k v h' (by omega) r1 r2 hres
    rw [emplace_hint_unique_eq, e]
    simp only
    rw [e2]
    refine ⟨i, true, t', T', rfl, hinv', hent', ?_, hlen', him, hik, ?_, ?_⟩
    · rw [(entries_absent habs).1]; rfl
    · intro _
      exact ⟨(hA habs).1, (hA habs).2.1⟩
    · intro x hx hxk
      exact absurd hxk (habs x hx)
  rcases first_ge_cases t.mem k header T.addrs with ⟨h1, e1⟩ | ⟨A, B, x, e0, e1, hA, hx⟩
  · rw [if_pos (Or.inl e1)]
    exact absent (fun a ha => ne_of_lt (h1 a ha)) (Or.inl e1)
  · have hxm : x ∈ T.addrs := by rw [e0]; simp
    by_cases hk : k < (t.mem x).key
    · rw [if_pos (Or.inr (by rw [e1]; exact hk))]
      apply absent _ (Or.inr (by rw [e1]; exact hxm))
      intro a ha
      rw [e0] at ha hs
      rw [key_sorted_append, key_sorted_cons] at hs
      simp only [List.mem_append, List.mem_cons] at ha
      rcases ha with ha | ha | ha
      · exact ne_of_lt (hA a ha)
      · rw [ha]; exact (ne_of_lt hk).symm
      · exact (ne_of_lt (lt_trans hk (hs.2.1.1 a ha))).symm
    · have hxk : (t.mem x).key = k := le_antisymm (not_lt.1 hk) (not_lt.1 hx)
      rw [e1, if_neg (by
        intro e
        rcases e with e | e
        · exact hhT (e ▸ hxm)
        · exact hk e)]
      obtain ⟨A', B', e', hA', hB'⟩ := present_decomp hs hxm
      have hp := @entries_present t.mem A' B' x hA' hB' v
      rw [← e', hxk] at hp
      refine ⟨x, false, t, T, rfl, h', hp.2.1.symm, ?_, by omega, hxm, hxk, ?_, ?_⟩
      · rw [hp.1]; rfl
      · intro habs
        exact absurd hxk (habs x hxm)
      · intro y hy hyk
        exact ⟨key_unique hs hxm hy (by rw [hxk, hyk]), rfl, rfl⟩

theorem reinsert_spec (fuel : Nat) (t : avl_tree) (T : tr) (hint : Nat) (k v : Int)
    (hf : T.addrs.length + 1 < fuel) (h : avl_inv t T)
    (hh : hint = header ∨ hint ∈ T.addrs) :
    ∃ i t' T', reinsert_node_hint_unique fuel t hint k v = some (i, t') ∧ avl_inv t' T' ∧
      entries t'.mem T'.addrs = ref_emplace (entries t.mem T.addrs) k v ∧
      T'.addrs.length ≤ T.addrs.length + 1 ∧ i ∈ T'.addrs ∧ (t'.mem i).key = k ∧
      ((∀ a ∈ T.addrs, (t.mem a).key ≠ k) →
        (t'.mem i).val = v ∧ T'.addrs.length = T.addrs.length + 1) ∧
      (∀ x ∈ T.addrs, (t.mem x).key = k →
        i = x ∧ T' = T ∧ t' = (create_node t k v).2) := by
  have h' := h
  obtain ⟨hw, hnd, hl, hr, hs, hc, hb, h2⟩ := h
  obtain ⟨hz1, hinv1, hzk, hzv, hz, hz0, hzh, hsame, hcnt⟩ := create_node_spec t T k v h'
  obtain ⟨⟨r1, r2⟩, e, hres⟩ := hint_pos_spec t T hint k fuel hf hw.1 hw.2.1 hnd hl hr hs hc hh
  have hres' : pos_result (create_node t k v).2.mem T k (r1, r2) :=
    pos_result_congr (fun a ha => by rw [hsame a (fun e => hz (e ▸ ha))]) hres
  obtain ⟨i, t', T', e2, hinv', hent', hlen', him, hik, hA, hP⟩ :=
    place_spec fuel t T k v h' (by omega) r1 r2 hres'
  rw [reinsert_eq, e]
  simp only
  rw [e2]
  exact ⟨i, t', T', rfl, hinv', hent', hlen', him, hik,
    fun habs => ⟨(hA habs).1, (hA habs).2.1⟩, hP⟩

/-! ## Erasing at the level of the map -/

theorem absent_ge_eq_gt (m : Nat → avl_tree_node) (k : Int) (y : Nat) : ∀ (l : List Nat),
    (∀ a ∈ l, (m a).key ≠ k) → first_ge m k l y = first_gt m k l y
  | [], _ => rfl
  | b :: l, h => by
    rw [first_ge_cons, first_gt_cons]
    have hb := h b (List.mem_cons_self _ _)
    have ih := absent_ge_eq_gt m k y l (fun a ha => h a (List.mem_cons_of_mem _ ha))
    by_cases h1 : (m b).key < k
    · rw [if_pos h1, if_neg (by omega), ih]
    · rw [if_neg h1, if_pos (by omega)]

theorem first_gt_all_gt (m : Nat → avl_tree_node) (k : Int) (l : List Nat)
    (h : ∀ a ∈ l, k < (m a).key) : first_gt m k l header = first_or l := by
  cases l with
  | nil => rfl
  | cons b l =>
    rw [first_gt_cons, if_pos (h b (List.mem_cons_self _ _))]
    rfl

theorem present_range {m : Nat → avl_tree_node} {A B : List Nat} {x : Nat}
    (hA : ∀ a ∈ A, (m a).key < (m x).key) (hB : ∀ b ∈ B, (m x).key < (m b).key) :
    first_ge m (m x).key (A ++ x :: B) header = x ∧
    first_gt m (m x).key (A ++ x :: B) header = first_or B := by
  constructor
  · rw [first_ge_append, first_ge_cons, if_neg (lt_irrefl _), first_ge_all_lt _ _ _ _ hA]
  · rw [first_gt_append, first_gt_cons, if_neg (lt_irrefl _),
      first_gt_all_le _ _ _ _ (fun b hb => by have := hA b hb; omega),
      first_gt_all_gt m _ B hB]

theorem clear_of_empty (t : avl_tree) (h : avl_inv t tr.nil) : t.clear = t := by
  obtain ⟨hw, _, hl, hr, _, hc, _, _⟩ := h
  have hp : (t.mem header).parent_ = 0 := hw.2.1
  have hl' : (t.mem header).left_ = header := hl
  have hr' : (t.mem header).right_ = header := hr
  have hc' : t.node_count_ = 0 := hc
  cases t with
  | mk mem cnt hn =>
    simp only at hp hl' hr' hc'
    unfold avl_tree.clear
    simp only
    congr 1
    · funext a
      by_cases e : a = header
      · subst e
        simp only [set_right, set_left, set_parent, if_true]
        cases hm : mem header with
        | mk h1 p1 l1 r1 k1 v1 =>
          rw [hm] at hp hl' hr'
          simp only at hp hl' hr'
          rw [hp, hl', hr']
      · simp [set_right, set_left, set_parent, e]
    · exact hc'.symm

theorem clear_inv (t : avl_tree) (h2 : 2 ≤ t.heap_next) : avl_inv t.clear tr.nil := by
  refine ⟨⟨trivial, ?_, trivial, trivial⟩, by simp [tr.addrs], ?_, ?_, ?_, rfl, ?_, h2⟩
  · simp [avl_tree.clear, set_right, set_left, set_parent, tr.root]
  · simp [avl_tree.clear, set_right, set_left, set_parent, tr.addrs, first_or]
  · simp [avl_tree.clear, set_right, set_left, set_parent, tr.addrs, last_or]
  · simp [key_sorted, tr.addrs]
  · simp [tr.addrs]

theorem erase_range_loop_same (fuel : Nat) (t : avl_tree) (f : Nat) (hf : 0 < fuel) :
    erase_range_loop fuel t f f = some t := by
  cases fuel with
  | zero => simp at hf
  | succ n => simp [erase_range_loop]

theorem erase_spec (fuel : Nat) (t : avl_tree) (T : tr) (k : Int)
    (hf : T.addrs.length + 2 < fuel) (h : avl_inv t T) :
    ∃ n t' T', alp_utils.erase fuel t k = some (n, t') ∧ avl_inv t' T' ∧
      entries t'.mem T'.addrs = ref_erase (entries t.mem T.addrs) k ∧
      n = (if (ref_find (entries t.mem T.addrs) k).isSome then 1 else 0) ∧
      T'.addrs.length ≤ T.addrs.length ∧
      ((∀ a ∈ T.addrs, (t.mem a).key ≠ k) → t' = t) := by
  have h' := h
  obtain ⟨hw, hnd, hl, hr, hs, hc, hb, h2⟩ := h
  have her := equal_range_spec k T header header fuel hw.1 hs (by omega)
  have hhT : header ∉ T.addrs := (List.nodup_cons.1 hnd).1
  have hnd' := (List.nodup_cons.1 hnd).2
  have hsz : t.node_count_ < 18446744073709551616 := by
    rw [hc]; exact Nat.mod_lt _ (by decide)
  unfold alp_utils.erase
  rw [hw.2.1, her]
  simp only
  by_cases hpres : ∃ x ∈ T.addrs, (t.mem x).key = k
  · obtain ⟨x, hx, hxk⟩ := hpres
    obtain ⟨A, B, e0, hA, hB⟩ := present_decomp hs hx
    have hrange := @present_range t.mem A B x hA hB
    have hent := @entries_present t.mem A B x hA hB 0
    rw [hxk, ← e0] at hrange hent
    rw [hrange.1, hrange.2, hent.1, hent.2.2]
    have hlen : T.addrs.length = A.length + B.length + 1 := by
      rw [e0]; simp only [List.length_append, List.length_cons]; omega
    unfold erase_range
    by_cases hall : x = t.begin ∧ first_or B = t.end_
    · rw [if_pos hall]
      obtain ⟨hx1, hx2⟩ := hall
      have hAn : A = [] := by
        cases A with
        | nil => rfl
        | cons a A' =>
          exfalso
          rw [avl_tree.begin, hl, e0] at hx1
          simp only [List.cons_append, first_or_cons] at hx1
          rw [e0, ← hx1] at hnd'
          simp at hnd'
      have hBn : B = [] := by
        by_contra hne
        have := first_or_mem hne
        rw [hx2] at this
        exact hhT (by rw [e0]; simp [avl_tree.end_] at this; simp [this])
      subst hAn hBn
      refine ⟨_, _, tr.nil, rfl, clear_inv t h2, rfl, ?_, by simp [tr.addrs], ?_⟩
      · simp only [Option.isSome_some, if_true]
        show (t.node_count_ + 18446744073709551616 - 0) % 18446744073709551616 = 1
        rw [hc, hlen]
        simp
      · intro habs
        exact absurd hxk (habs x hx)
    · rw [if_neg hall]
      obtain ⟨f, hf'⟩ : ∃ f, fuel = f + 1 := ⟨fuel - 1, by omega⟩
      subst hf'
      have hne : x ≠ first_or B := by
        intro e
        by_cases hB0 : B = []
        · rw [hB0] at e
          exact hhT (by rw [e0, e]; simp [first_or])
        · have := first_or_mem hB0
          rw [← e] at this
          rw [e0] at hnd'
          have h3 := (List.nodup_append.1 hnd').2.1
          exact (List.nodup_cons.1 h3).1 this
      rw [erase_range_loop, if_pos hne,
        increment_at T A B x (f + 1) (by omega) hnd hw.1 hw.2.1 e0]
      simp only
      obtain ⟨c, l, r, eT⟩ := exists_ctx T x hx
      subst eT
      obtain ⟨m', T', e1, hw', ha', hkv, hl', hr'⟩ :=
        rebalance_for_erase_spec (f + 1) t.mem c l r x (by omega) hw hnd hl hr
      have h1 : (plug c (tr.node l x r)).addrs
          = (ctx_before c ++ l.addrs) ++ x :: (r.addrs ++ ctx_after c) := by
        rw [plug_addrs]; simp [tr.addrs]
      have hAB : T'.addrs = A ++ B := by
        rw [h1] at e0 hnd'
        obtain ⟨e3, e4⟩ := nodup_decomp hnd' e0
        rw [ha', ← e3, ← e4]
        simp
      unfold erase_aux
      rw [e1]
      simp only
      rw [erase_range_loop_same f _ _ (by omega)]
      have hsub : List.Sublist (A ++ B) (A ++ x :: B) :=
        List.Sublist.append_left (List.sublist_cons_self x B) A
      refine ⟨_, _, T', rfl, ⟨hw', ?_, hl', hr', ?_, ?_, ?_, h2⟩, ?_, ?_, ?_, ?_⟩
      · rw [hAB]
        rw [e0] at hnd
        exact List.Nodup.sublist (List.Sublist.cons₂ header hsub) hnd
      · rw [hAB]
        rw [e0] at hs
        refine key_sorted_congr _ (fun a _ => (hkv a).1) ?_
        exact List.Pairwise.sublist hsub hs
      · show (if t.node_count_ = 0 then 18446744073709551615 else t.node_count_ - 1)
          = T'.addrs.length % 18446744073709551616
        rw [hAB, hc, hlen, List.length_append]
        split_ifs <;> omega
      · intro a ha
        rw [hAB] at ha
        exact hb a (by rw [e0]; exact List.Sublist.subset hsub ha)
      · show entries m' T'.addrs = _
        rw [hAB]
        exact entries_congr _ (fun a _ => hkv a)
      · simp only [Option.isSome_some, if_true]
        show (t.node_count_ + 18446744073709551616
          - (if t.node_count_ = 0 then 18446744073709551615 else t.node_count_ - 1))
            % 18446744073709551616 = 1
        split_ifs <;> omega
      · rw [hAB, hlen, List.length_append]
        omega
      · intro habs
        exact absurd hxk (habs x hx)
  · have habs : ∀ a ∈ T.addrs, (t.mem a).key ≠ k := fun a ha e => hpres ⟨a, ha, e⟩
    have hent := @entries_absent t.mem T.addrs k habs
    rw [← absent_ge_eq_gt t.mem k header T.addrs habs, hent.1, hent.2]
    have hres : erase_range fuel t (first_ge t.mem k T.addrs header)
        (first_ge t.mem k T.addrs header) = some t := by
      unfold erase_range
      by_cases hall : first_ge t.mem k T.addrs header = t.begin ∧
          first_ge t.mem k T.addrs header = t.end_
      · rw [if_pos hall]
        have hbe : first_or T.addrs = header := by
          rw [← hl]
          exact hall.1.symm.trans hall.2
        have hTn : T = tr.nil := by
          by_contra hne
          have hne' : T.addrs ≠ [] := fun e => hne (tr_addrs_eq_nil.1 e)
          have := first_or_mem hne'
          rw [hbe] at this
          exact hhT this
        subst hTn
        rw [clear_of_empty t h']
      · rw [if_neg hall]
        exact erase_range_loop_same fuel t _ (by omega)
    rw [hres]
    refine ⟨_, t, T, rfl, h', rfl, ?_, le_refl _, fun _ => rfl⟩
    simp only [Option.isSome_none, Bool.false_eq_true, if_false]
    show (t.node_count_ + 18446744073709551616 - t.node_count_) % 18446744073709551616 = 0
    omega

/-! ## What the map shows: find, the traversal, check, size and height -/

theorem find_spec (fuel : Nat) (t : avl_tree) (T : tr) (k : Int)
    (hf : T.addrs.length < fuel) (h : avl_inv t T) :
    ∃ it, t.find fuel k = some it ∧
      ((∀ a ∈ T.addrs, (t.mem a).key ≠ k) → it = header) ∧
      (∀ x ∈ T.addrs, (t.mem x).key = k → it = x) := by
  obtain ⟨hw, hnd, hl, hr, hs, hc, hb, h2⟩ := h
  have hlb := lower_bound_spec k T header header fuel hw.1 hs hf
  have hhT : header ∉ T.addrs := (List.nodup_cons.1 hnd).1
  unfold avl_tree.find
  rw [hw.2.1, hlb]
  simp only
  rcases first_ge_cases t.mem k header T.addrs with ⟨h1, e1⟩ | ⟨A, B, x, e0, e1, hA, hx⟩
  · rw [if_pos (Or.inl e1)]
    refine ⟨_, rfl, fun _ => rfl, ?_⟩
    intro x hx hxk
    exact absurd hxk (ne_of_lt (h1 x hx))
  · have hxm : x ∈ T.addrs := by rw [e0]; simp
    rw [e1]
    by_cases hk : k < (t.mem x).key
    · rw [if_pos (Or.inr hk)]
      refine ⟨_, rfl, fun _ => rfl, ?_⟩
      intro y hy hyk
      exfalso
      rw [e0] at hy hs
      rw [key_sorted_append, key_sorted_cons] at hs
      simp only [List.mem_append, List.mem_cons] at hy
      rcases hy with hy | hy | hy
      · exact ne_of_lt (hA y hy) hyk
      · rw [hy] at hyk; omega
      · have := hs.2.1.1 y hy
        omega
    · have hxk : (t.mem x).key = k := le_antisymm (not_lt.1 hk) (not_lt.1 hx)
      rw [if_neg (by
        intro e
        rcases e with e | e
        · exact hhT (e ▸ hxm)
        · exact hk e)]
      refine ⟨_, rfl, fun habs => absurd hxk (habs x hxm), ?_⟩
      intro y hy hyk
      exact key_unique hs hxm hy (by rw [hxk, hyk])

theorem iter_loop_spec {m : Nat → avl_tree_node} (T : tr)
    (hnd : (header :: T.addrs).Nodup) (ho : own m T header)
    (hp : (m header).parent_ = T.root) : ∀ (B A : List Nat) (fuel : Nat),
    T.addrs = A ++ B → B.length + T.addrs.length + 2 ≤ fuel →
    iter_loop fuel m (first_or B) = some (B ++ [header]) ∧
    to_list_loop fuel m (first_or B) = some (entries m B)
  | [], A, fuel, _, hf => by
    obtain ⟨f, e⟩ : ∃ f, fuel = f + 1 := ⟨fuel - 1, by simp at hf; omega⟩
    subst e
    simp [iter_loop, to_list_loop, first_or, entries]
  | b :: B, A, fuel, hA, hf => by
    obtain ⟨f, e⟩ : ∃ f, fuel = f + 1 := ⟨fuel - 1, by simp at hf; omega⟩
    subst e
    have hbm : b ∈ T.addrs := by rw [hA]; simp
    have hbh : b ≠ header := fun e => (List.nodup_cons.1 hnd).1 (e ▸ hbm)
    have hb0 : b ≠ 0 := fun e => own_zero_not_mem T header ho (e ▸ hbm)
    simp only [List.length_cons] at hf
    have hinc := increment_at T A B b (f + 1) (by omega) hnd ho hp hA
    obtain ⟨ih1, ih2⟩ := iter_loop_spec T hnd ho hp B (A ++ [b]) f (by rw [hA]; simp)
      (by omega)
    rw [first_or_cons]
    constructor
    · rw [iter_loop, if_neg hbh, if_neg hb0, hinc]
      simp only
      rw [ih1]
      rfl
    · rw [to_list_loop, if_neg hbh, if_neg hb0, hinc]
      simp only
      rw [ih2]
      rfl

theorem traverse_spec (fuel : Nat) (t : avl_tree) (T : tr)
    (hf : 2 * T.addrs.length + 2 ≤ fuel) (h : avl_inv t T) :
    t.iterators fuel = some (T.addrs ++ [header]) ∧
    t.to_list fuel = some (entries t.mem T.addrs) := by
  obtain ⟨hw, hnd, hl, hr, hs, hc, hb, h2⟩ := h
  have := iter_loop_spec T hnd hw.1 hw.2.1 T.addrs [] fuel rfl (by omega)
  unfold avl_tree.iterators avl_tree.to_list avl_tree.begin
  rw [hl]
  exact this

theorem node_balanced {m : Nat → avl_tree_node} : ∀ (t : tr) (par : Nat), own m t par →
    hts m t → t.bal → ∀ a ∈ t.addrs,
    (height m (m a).left_ - height m (m a).right_).natAbs ≤ 1 ∧
    (m a).height_ = max (height m (m a).left_) (height m (m a).right_) + 1
  | .nil, _, _, _, _, a, ha => by simp [tr.addrs] at ha
  | .node l b r, par, ho, hh, hb, a, ha => by
    simp only [tr.addrs, List.mem_append, List.mem_cons] at ha
    rcases ha with ha | ha | ha
    · exact node_balanced l b ho.2.2.2.2.1 hh.1 hb.1 a ha
    · subst ha
      rw [ho.2.2.1, ho.2.2.2.1, height_root ho.2.2.2.2.1 hh.1, height_root ho.2.2.2.2.2 hh.2.1]
      refine ⟨?_, hh.2.2⟩
      have := hb.2.2
      omega
    · exact node_balanced r b ho.2.2.2.2.2 hh.2.1 hb.2.1 a ha

theorem check_loop_spec {m : Nat → avl_tree_node} : ∀ (n : Nat) (ts : List tr) (fuel : Nat),
    (ts.map (fun t => 2 * t.addrs.length + 1)).sum ≤ n →
    (∀ t ∈ ts, ∃ par, own m t par ∧ hts m t ∧ t.bal) → n < fuel →
    check_loop fuel m (ts.map tr.root) = some true
  | n, [], fuel, _, _, hf => by
    obtain ⟨f, e⟩ : ∃ f, fuel = f + 1 := ⟨fuel - 1, by omega⟩
    subst e
    rfl
  | n, t :: ts, fuel, hn, hall, hf => by
    obtain ⟨f, e⟩ : ∃ f, fuel = f + 1 := ⟨fuel - 1, by omega⟩
    subst e
    obtain ⟨par, ho, hh, hb⟩ := hall t (List.mem_cons_self _ _)
    simp only [List.map_cons, List.sum_cons] at hn
    obtain ⟨n', en⟩ : ∃ n', n = n' + 1 := ⟨n - 1, by omega⟩
    subst en
    cases t with
    | nil =>
      simp only [List.map_cons, tr.root, check_loop, if_true]
      exact check_loop_spec n' ts f (by simp only [tr.addrs, List.length_nil] at hn; omega)
        (fun s hs => hall s (List.mem_cons_of_mem _ hs)) (by omega)
    | node l a r =>
      have hok := node_balanced (tr.node l a r) par ho hh hb a (tr_root_mem l a r)
      simp only [List.map_cons, tr.root, check_loop]
      rw [if_neg ho.1]
      rw [if_neg (by simpa using hok.1), if_neg (by simpa using hok.2)]
      have := check_loop_spec n' (ts ++ [l, r]) f (by
          simp only [tr.addrs, List.length_append, List.length_cons] at hn
          simp only [List.map_append, List.sum_append, List.map_cons, List.map_nil,
            List.sum_cons, List.sum_nil]
          omega)
        (by
          intro s hs
          simp only [List.mem_append, List.mem_cons, List.mem_singleton,
            List.not_mem_nil, or_false] at hs
          rcases hs with hs | hs | hs
          · exact hall s (List.mem_cons_of_mem _ hs)
          · exact ⟨a, hs ▸ ho.2.2.2.2.1, hs ▸ hh.1, hs ▸ hb.1⟩
          · exact ⟨a, hs ▸ ho.2.2.2.2.2, hs ▸ hh.2.1, hs ▸ hb.2.1⟩) (by omega)
      rw [ho.2.2.1, ho.2.2.2.1]
      simpa using this

theorem check_spec (fuel : Nat) (t : avl_tree) (T : tr)
    (hf : 2 * T.addrs.length + 2 ≤ fuel) (h : avl_inv t T) :
    t.check fuel = some true := by
  obtain ⟨hw, _⟩ := h
  unfold avl_tree.check
  rw [hw.2.1]
  exact check_loop_spec (2 * T.addrs.length + 1) [T] fuel (by simp) (by
    intro s hs
    simp only [List.mem_singleton] at hs
    exact ⟨header, hs ▸ hw.1, hs ▸ hw.2.2.1, hs ▸ hw.2.2.2⟩) (by omega)

theorem tr_ht_le_length : ∀ (t : tr), t.ht ≤ t.addrs.length
  | .nil => by simp [tr.ht, tr.addrs]
  | .node l a r => by
    have h1 := tr_ht_le_length l
    have h2 := tr_ht_le_length r
    simp only [tr.ht, tr.addrs, List.length_append, List.length_cons]
    push_cast
    omega

/-- The least number of nodes of a balanced tree of a given height: the
bound of Fibonacci. -/
theorem fib_bound : ∀ (t : tr), t.bal → ∀ (h : Nat), t.ht = h →
    Nat.fib (h + 2) ≤ t.addrs.length + 1
  | .nil, _, h, e => by
    simp only [tr.ht] at e
    have : h = 0 := by omega
    subst this
    simp [tr.addrs]
  | .node l a r, hb, h, e => by
    obtain ⟨hbl, hbr, h1, h2⟩ := hb
    simp only [tr.ht] at e
    have hl0 := tr_ht_nonneg l
    have hr0 := tr_ht_nonneg r
    obtain ⟨hl, el⟩ : ∃ n : Nat, l.ht = n := ⟨l.ht.toNat, by omega⟩
    obtain ⟨hr, er⟩ : ∃ n : Nat, r.ht = n := ⟨r.ht.toNat, by omega⟩
    have il := fib_bound l hbl hl el
    have ir := fib_bound r hbr hr er
    simp only [tr.addrs, List.length_append, List.length_cons]
    rw [el, er] at h1 h2 e
    by_cases hc : hr ≤ hl
    · have eh : h = hl + 1 := by omega
      subst eh
      have : Nat.fib (hl + 1 + 2) = Nat.fib (hl + 1) + Nat.fib (hl + 2) := Nat.fib_add_two
      have hm : Nat.fib (hl + 1) ≤ Nat.fib (hr + 2) := Nat.fib_mono (by omega)
      omega
    · have eh : h = hr + 1 := by omega
      subst eh
      have : Nat.fib (hr + 1 + 2) = Nat.fib (hr + 1) + Nat.fib (hr + 2) := Nat.fib_add_two
      have hm : Nat.fib (hr + 1) ≤ Nat.fib (hl + 2) := Nat.fib_mono (by omega)
      omega

theorem size_height_spec (t : avl_tree) (T : tr) (h : avl_inv t T)
    (hlen : T.addrs.length < 18446744073709551616) :
    t.size = T.addrs.length ∧ (t.height : Int) = T.ht ∧
    Nat.fib (t.height + 2) ≤ t.size + 1 ∧ t.begin = first_or T.addrs := by
  obtain ⟨hw, hnd, hl, hr, hs, hc, hb, h2⟩ := h
  have hsz : t.size = T.addrs.length := by
    unfold avl_tree.size
    rw [hc]
    exact Nat.mod_eq_of_lt hlen
  have h0 := tr_ht_nonneg T
  have h1 := tr_ht_le_length T
  have hh : (t.height : Int) = T.ht := by
    unfold avl_tree.height
    rw [hw.2.1, height_root hw.1 hw.2.2.1]
    omega
  refine ⟨hsz, hh, ?_, hl⟩
  rw [hsz]
  exact fib_bound T hw.2.2.2 t.height hh.symm

theorem empty_spec (t : avl_tree) (T : tr) (h : avl_inv t T) (he : T.addrs = []) :
    t.size = 0 ∧ t.height = 0 ∧ t.begin = t.end_ := by
  obtain ⟨e1, e2, _, e4⟩ := size_height_spec t T h (by rw [he]; simp)
  have hT : T = tr.nil := tr_addrs_eq_nil.1 he
  subst hT
  refine ⟨e1, ?_, e4⟩
  simp only [tr.ht] at e2
  omega

theorem init_inv : avl_inv avl_tree.init tr.nil := by
  refine ⟨⟨trivial, rfl, trivial, trivial⟩, by simp [tr.addrs], rfl, rfl, ?_, rfl, ?_,
    le_refl _⟩
  · simp [key_sorted, tr.addrs]
  · simp [tr.addrs]

/-! ## Sequences of calls -/

theorem getD_hint (l : List Nat) (i : Nat) :
    (l ++ [header]).getD i header = header ∨ (l ++ [header]).getD i header ∈ l := by
  rw [List.getD_eq_getElem?_getD]
  by_cases hi : i < l.length
  · right
    rw [List.getElem?_append_left hi, List.getElem?_eq_getElem hi]
    exact List.getElem_mem hi
  · left
    rcases Nat.lt_or_ge i (l ++ [header]).length with h | h
    · have e : i = l.length := by
        simp only [List.length_append, List.length_singleton] at h
        omega
      subst e
      simp
    · rw [List.getElem?_eq_none h]
      rfl

theorem keys_mem_entries {m : Nat → avl_tree_node} {l : List Nat} {k : Int} :
    k ∈ (entries m l).map Prod.fst ↔ ∃ x ∈ l, (m x).key = k := by
  simp [entries]

theorem pair_mem_entries {m : Nat → avl_tree_node} {l : List Nat} {k v : Int} :
    (k, v) ∈ entries m l ↔ ∃ x ∈ l, (m x).key = k ∧ (m x).val = v := by
  simp [entries]

theorem step_spec (fuel : Nat) (t : avl_tree) (T : tr) (op : map_op)
    (hf : 2 * T.addrs.length + 3 ≤ fuel) (h : avl_inv t T) :
    ∃ r t' T', op.run fuel t = some (r, t') ∧ avl_inv t' T' ∧
      (r, entries t'.mem T'.addrs) = ref_step (entries t.mem T.addrs) op ∧
      T'.addrs.length ≤ T.addrs.length + 1 := by
  cases op with
  | emplace k v =>
    obtain ⟨i, b, t', T', e, hinv, hent, hb, hlen, _⟩ :=
      map_emplace_spec fuel t T k v (by omega) h
    refine ⟨op_result.flag b, t', T', ?_, hinv, ?_, hlen⟩
    · simp only [map_op.run, e]
    · simp only [ref_step, hent, hb]
  | insert_hint j k v =>
    obtain ⟨hit, _⟩ := traverse_spec fuel t T (by omega) h
    obtain ⟨i, t', T', e, hinv, hent, hlen, him, hik, hA, hP⟩ :=
      reinsert_spec fuel t T ((T.addrs ++ [header]).getD j header) k v (by omega) h
        (getD_hint T.addrs j)
    refine ⟨op_result.entry (t'.mem i).key (t'.mem i).val, t', T', ?_, hinv, ?_, hlen⟩
    · simp only [map_op.run, hit, e]
    · simp only [ref_step, hent]
      congr 1
      by_cases hpres : ∃ x ∈ T.addrs, (t.mem x).key = k
      · obtain ⟨x, hx, hxk⟩ := hpres
        obtain ⟨e1, e2, e3⟩ := hP x hx hxk
        obtain ⟨A, B, e0, hA', hB'⟩ := present_decomp h.2.2.2.2.1 hx
        have hp := (@entries_present t.mem A B x hA' hB' v).1
        rw [← e0, hxk] at hp
        rw [hp]
        simp only
        obtain ⟨_, _, _, _, hz, _, _, hsame, _⟩ := create_node_spec t T k v h
        rw [e1, e3, hsame x (fun e => hz (e ▸ hx)), hxk]
      · have habs : ∀ a ∈ T.addrs, (t.mem a).key ≠ k := fun a ha e => hpres ⟨a, ha, e⟩
        rw [(entries_absent habs).1]
        simp only
        rw [hik, (hA habs).1]
  | erase k =>
    obtain ⟨n, t', T', e, hinv, hent, hn, hlen, _⟩ := erase_spec fuel t T k (by omega) h
    refine ⟨op_result.count n, t', T', ?_, hinv, ?_, by omega⟩
    · simp only [map_op.run, e]
    · simp only [ref_step, hent, hn]

theorem run_inv : ∀ (ops : List map_op) (fuel : Nat) (t : avl_tree) (T : tr), avl_inv t T →
    2 * (T.addrs.length + ops.length) + 3 ≤ fuel →
    ∃ rs t' T', map_run fuel ops t = some (rs, t') ∧ avl_inv t' T' ∧
      (rs, entries t'.mem T'.addrs) = ref_run ops (entries t.mem T.addrs) ∧
      T'.addrs.length ≤ T.addrs.length + ops.length
  | [], fuel, t, T, h, _ => ⟨[], t, T, rfl, h, rfl, le_refl _⟩
  | op :: ops, fuel, t, T, h, hf => by
    simp only [List.length_cons] at hf
    obtain ⟨r, t1, T1, e1, h1, hr1, hl1⟩ := step_spec fuel t T op (by omega) h
    obtain ⟨rs, t2, T2, e2, h2, hr2, hl2⟩ := run_inv ops fuel t1 T1 h1 (by omega)
    refine ⟨r :: rs, t2, T2, ?_, h2, ?_, ?_⟩
    · simp only [map_run, e1, e2]
    · simp only [ref_run, ← hr1, ← hr2]
    · simp only [List.length_cons]
      omega

/-- Every map reached from the empty one by a sequence of calls holds a
balanced search tree, and shows what the reference map shows. -/
theorem reach_spec (ops : List map_op) (fuel : Nat) (hf : 2 * ops.length + 3 ≤ fuel) :
    ∃ rs t T, map_run fuel ops avl_tree.init = some (rs, t) ∧ avl_inv t T ∧
      rs = (ref_run ops []).1 ∧ entries t.mem T.addrs = (ref_run ops []).2 ∧
      T.addrs.length ≤ ops.length := by
  obtain ⟨rs, t, T, e, h, hr, hl⟩ := run_inv ops fuel avl_tree.init tr.nil init_inv
    (by simp only [tr.addrs, List.length_nil]; omega)
  have hr' : (rs, entries t.mem T.addrs) = ref_run ops [] := hr
  refine ⟨rs, t, T, e, h, ?_, ?_, by simpa [tr.addrs] using hl⟩
  · rw [← hr']
  · rw [← hr']

/-! ## The contracts of avl_map -/

theorem mem_iterators {l : List Nat} {a : Nat} (h : a ∈ l ++ [header]) :
    a = header ∨ a ∈ l := by
  simp only [List.mem_append, List.mem_singleton] at h
  exact h.symm

/-- C17: after every sequence of `emplace`, `insert(hint, node)` and `erase`
calls on an empty `avl_map`, `check()` runs through with every assertion
holding, and at every node visited from `begin()` to `end()` the heights of
the two subtrees differ by at most 1 and the stored `height_` is
1 + max(height(left), height(right)), an empty subtree counting 0. -/
theorem C17_balance_invariant (ops : List map_op) (fuel : Nat)
    (hf : 2 * ops.length + 5 ≤ fuel) :
    ∃ rs t its, map_run fuel ops avl_tree.init = some (rs, t) ∧
      t.check fuel = some true ∧ t.iterators fuel = some its ∧
      ∀ a ∈ its, a ≠ t.end_ →
        (height t.mem (t.mem a).left_ - height t.mem (t.mem a).right_).natAbs ≤ 1 ∧
        (t.mem a).height_
          = 1 + max (height t.mem (t.mem a).left_) (height t.mem (t.mem a).right_) := by
  obtain ⟨rs, t, T, e, h, _, _, hlen⟩ := reach_spec ops fuel (by omega)
  obtain ⟨hit, _⟩ := traverse_spec fuel t T (by omega) h
  refine ⟨rs, t, _, e, check_spec fuel t T (by omega) h, hit, ?_⟩
  intro a ha hne
  have hm : a ∈ T.addrs := (mem_iterators ha).resolve_left hne
  obtain ⟨hw, _⟩ := h
  have := node_balanced T header hw.1 hw.2.2.1 hw.2.2.2 a hm
  exact ⟨this.1, by rw [this.2, add_comm]⟩

theorem C17_witness :
    2 * [map_op.emplace 2 20, map_op.emplace 1 10, map_op.insert_hint 0 3 30,
      map_op.erase 2].length + 5 ≤ 13 ∧
    ∃ rs t its, map_run 13 [map_op.emplace 2 20, map_op.emplace 1 10,
        map_op.insert_hint 0 3 30, map_op.erase 2] avl_tree.init = some (rs, t) ∧
      t.check 13 = some true ∧ t.iterators 13 = some its ∧
      ∀ a ∈ its, a ≠ t.end_ →
        (height t.mem (t.mem a).left_ - height t.mem (t.mem a).right_).natAbs ≤ 1 ∧
        (t.mem a).height_
          = 1 + max (height t.mem (t.mem a).left_) (height t.mem (t.mem a).right_) :=
  ⟨by decide, C17_balance_invariant _ 13 (by decide)⟩

/-- C18: `avl_map` refines the reference sorted map: for every sequence of
calls (`emplace`, `erase`, and `insert(hint, node)` as well) what the calls
return, `size()` and the pairs visited from `begin()` to `end()` are those of
the reference map after the same calls; the keys come out in strictly
increasing order; and `emplace` on a key that is present returns false and
leaves the map as it is, the old value included. -/
theorem C18_refines_sorted_map (ops : List map_op) (fuel : Nat)
    (hf : 2 * ops.length + 5 ≤ fuel) (hn : ops.length < 18446744073709551616) :
    ∃ rs t, map_run fuel ops avl_tree.init = some (rs, t) ∧
      rs = (ref_run ops []).1 ∧
      t.size = (ref_run ops []).2.length ∧
      t.to_list fuel = some (ref_run ops []).2 ∧
      ((ref_run ops []).2.map Prod.fst).Pairwise (fun a b => a < b) ∧
      ∀ k v v0, (k, v0) ∈ (ref_run ops []).2 →
        ∃ i, alp_utils.emplace fuel t k v = some (i, false, t) ∧
          (t.mem i).key = k ∧ (t.mem i).val = v0 := by
  obtain ⟨rs, t, T, e, h, hrs, hent, hlen⟩ := reach_spec ops fuel (by omega)
  obtain ⟨_, htl⟩ := traverse_spec fuel t T (by omega) h
  obtain ⟨hsz, _⟩ := size_height_spec t T h (by omega)
  refine ⟨rs, t, e, hrs, ?_, by rw [← hent]; exact htl, ?_, ?_⟩
  · rw [hsz, ← hent, entries_length]
  · rw [← hent]
    exact key_sorted_entries h.2.2.2.2.1
  · intro k v v0 hin
    rw [← hent] at hin
    obtain ⟨x, hx, hxk, hxv⟩ := pair_mem_entries.1 hin
    obtain ⟨i, b, t', T', e1, _, _, hb, _, _, _, _, hP⟩ :=
      map_emplace_spec fuel t T k v (by omega) h
    obtain ⟨e2, _, e4⟩ := hP x hx hxk
    obtain ⟨A, B, e0, hA, hB⟩ := present_decomp h.2.2.2.2.1 hx
    have hp := (@entries_present t.mem A B x hA hB v).1
    rw [← e0, hxk] at hp
    rw [hp] at hb
    refine ⟨x, ?_, hxk, hxv⟩
    rw [e1, e2, e4, hb]
    rfl

theorem C18_witness :
    2 * [map_op.emplace 2 20, map_op.emplace 1 10, map_op.emplace 2 21,
      map_op.erase 1].length + 5 ≤ 13 ∧
    [map_op.emplace 2 20, map_op.emplace 1 10, map_op.emplace 2 21,
      map_op.erase 1].length < 18446744073709551616 ∧
    ∃ rs t, map_run 13 [map_op.emplace 2 20, map_op.emplace 1 10, map_op.emplace 2 21,
        map_op.erase 1] avl_tree.init = some (rs, t) ∧
      rs = (ref_run [map_op.emplace 2 20, map_op.emplace 1 10, map_op.emplace 2 21,
        map_op.erase 1] []).1 ∧
      t.size = (ref_run [map_op.emplace 2 20, map_op.emplace 1 10, map_op.emplace 2 21,
        map_op.erase 1] []).2.length ∧
      t.to_list 13 = some (ref_run [map_op.emplace 2 20, map_op.emplace 1 10,
        map_op.emplace 2 21, map_op.erase 1] []).2 ∧
      ((ref_run [map_op.emplace 2 20, map_op.emplace 1 10, map_op.emplace 2 21,
        map_op.erase 1] []).2.map Prod.fst).Pairwise (fun a b => a < b) ∧
      ∀ k v v0, (k, v0) ∈ (ref_run [map_op.emplace 2 20, map_op.emplace 1 10,
          map_op.emplace 2 21, map_op.erase 1] []).2 →
        ∃ i, alp_utils.emplace 13 t k v = some (i, false, t) ∧
          (t.mem i).key = k ∧ (t.mem i).val = v0 :=
  ⟨by decide, by decide, C18_refines_sorted_map _ 13 (by decide) (by decide)⟩

/-- C19: on every map reached by a sequence of calls, `find(k)` returns the
iterator of the entry whose key is `k` when the map holds one, and `end()`
when it holds none; and right after `emplace(k, v)`, `find(k)` is the
iterator that `emplace` returned, which is not `end()`. -/
theorem C19_find_contract (ops : List map_op) (fuel : Nat) (k : Int)
    (hf : 2 * ops.length + 5 ≤ fuel) :
    ∃ rs t L its it, map_run fuel ops avl_tree.init = some (rs, t) ∧
      t.to_list fuel = some L ∧ t.iterators fuel = some its ∧ t.find fuel k = some it ∧
      (k ∈ L.map Prod.fst → it ∈ its ∧ it ≠ t.end_ ∧ (t.mem it).key = k ∧
        ((t.mem it).key, (t.mem it).val) ∈ L) ∧
      (k ∉ L.map Prod.fst → it = t.end_) ∧
      (∀ v, ∃ i b t', alp_utils.emplace fuel t k v = some (i, b, t') ∧
        t'.find fuel k = some i ∧ i ≠ t'.end_) := by
  obtain ⟨rs, t, T, e, h, _, _, hlen⟩ := reach_spec ops fuel (by omega)
  obtain ⟨hit, htl⟩ := traverse_spec fuel t T (by omega) h
  obtain ⟨it, hfind, habs, hpres⟩ := find_spec fuel t T k (by omega) h
  have hhT : header ∉ T.addrs := (List.nodup_cons.1 h.2.1).1
  refine ⟨rs, t, _, _, it, e, htl, hit, hfind, ?_, ?_, ?_⟩
  · intro hk
    obtain ⟨x, hx, hxk⟩ := keys_mem_entries.1 hk
    have := hpres x hx hxk
    subst this
    refine ⟨by simp [hx], fun e => hhT ((show it = header from e) ▸ hx), hxk, ?_⟩
    exact pair_mem_entries.2 ⟨it, hx, rfl, rfl⟩
  · intro hk
    apply habs
    intro a ha e
    exact hk (keys_mem_entries.2 ⟨a, ha, e⟩)
  · intro v
    obtain ⟨i, b, t', T', e1, hinv', _, _, hlen', him, hik, _, _⟩ :=
      map_emplace_spec fuel t T k v (by omega) h
    obtain ⟨it', hfind', _, hpres'⟩ := find_spec fuel t' T' k (by omega) hinv'
    have := hpres' i him hik
    subst this
    have hhT' : header ∉ T'.addrs := (List.nodup_cons.1 hinv'.2.1).1
    exact ⟨it', b, t', e1, hfind', fun e => hhT' ((show it' = header from e) ▸ him)⟩

theorem C19_witness :
    2 * [map_op.emplace 2 20, map_op.emplace 1 10, map_op.erase 2].length + 5 ≤ 11 ∧
    ∃ rs t L its it, map_run 11 [map_op.emplace 2 20, map_op.emplace 1 10, map_op.erase 2]
        avl_tree.init = some (rs, t) ∧
      t.to_list 11 = some L ∧ t.iterators 11 = some its ∧ t.find 11 1 = some it ∧
      ((1 : Int) ∈ L.map Prod.fst → it ∈ its ∧ it ≠ t.end_ ∧ (t.mem it).key = 1 ∧
        ((t.mem it).key, (t.mem it).val) ∈ L) ∧
      ((1 : Int) ∉ L.map Prod.fst → it = t.end_) ∧
      (∀ v, ∃ i b t', alp_utils.emplace 11 t 1 v = some (i, b, t') ∧
        t'.find 11 1 = some i ∧ i ≠ t'.end_) :=
  ⟨by decide, C19_find_contract _ 11 1 (by decide)⟩

/-- C20: on every map reached by a sequence of calls, `erase(k)` returns 1
and removes exactly the entry with the key `k` when the map holds one, and
returns 0 and leaves the map as it is when it holds none; when the map is
empty or holds only that entry, afterwards `size()` is 0, `height()` is 0 and
`begin()` is `end()`. -/
theorem C20_erase_contract (ops : List map_op) (fuel : Nat) (k : Int)
    (hf : 2 * ops.length + 5 ≤ fuel) :
    ∃ rs t L n t', map_run fuel ops avl_tree.init = some (rs, t) ∧
      t.to_list fuel = some L ∧ alp_utils.erase fuel t k = some (n, t') ∧
      t'.to_list fuel = some (L.filter (fun p => decide (p.1 ≠ k))) ∧
      (k ∈ L.map Prod.fst → n = 1 ∧
        (L.filter (fun p => decide (p.1 ≠ k))).length + 1 = L.length) ∧
      (k ∉ L.map Prod.fst → n = 0 ∧ t' = t) ∧
      ((L = [] ∨ ∃ v, L = [(k, v)]) → t'.size = 0 ∧ t'.height = 0 ∧ t'.begin = t'.end_) := by
  obtain ⟨rs, t, T, e, h, _, _, hlen⟩ := reach_spec ops fuel (by omega)
  obtain ⟨_, htl⟩ := traverse_spec fuel t T (by omega) h
  obtain ⟨n, t', T', e1, hinv', hent', hn, hlen', hsame⟩ := erase_spec fuel t T k (by omega) h
  obtain ⟨_, htl'⟩ := traverse_spec fuel t' T' (by omega) hinv'
  have hent2 : entries t'.mem T'.addrs = (entries t.mem T.addrs).filter
      (fun p => decide (p.1 ≠ k)) := hent'
  refine ⟨rs, t, _, n, t', e, htl, e1, by rw [← hent2]; exact htl', ?_, ?_, ?_⟩
  · intro hk
    obtain ⟨x, hx, hxk⟩ := keys_mem_entries.1 hk
    obtain ⟨A, B, e0, hA, hB⟩ := present_decomp h.2.2.2.2.1 hx
    have hp := @entries_present t.mem A B x hA hB 0
    rw [← e0, hxk] at hp
    rw [hp.1] at hn
    refine ⟨by simpa using hn, ?_⟩
    have h3 := hp.2.2
    unfold ref_erase at h3
    rw [h3, entries_length, entries_length, e0]
    simp only [List.length_append, List.length_cons]
    omega
  · intro hk
    have habs : ∀ a ∈ T.addrs, (t.mem a).key ≠ k :=
      fun a ha e => hk (keys_mem_entries.2 ⟨a, ha, e⟩)
    rw [(entries_absent habs).1] at hn
    exact ⟨by simpa using hn, hsame habs⟩
  · intro hL
    apply empty_spec t' T' hinv'
    have : entries t'.mem T'.addrs = [] := by
      rw [hent2]
      rcases hL with hL | ⟨v, hL⟩
      · rw [hL]; rfl
      · rw [hL]; simp
    have hl0 := entries_length t'.mem T'.addrs
    rw [this] at hl0
    exact List.length_eq_zero.1 hl0.symm

theorem C20_witness :
    2 * [map_op.emplace 2 20, map_op.emplace 1 10].length + 5 ≤ 9 ∧
    ∃ rs t L n t', map_run 9 [map_op.emplace 2 20, map_op.emplace 1 10] avl_tree.init
        = some (rs, t) ∧
      t.to_list 9 = some L ∧ alp_utils.erase 9 t 2 = some (n, t') ∧
      t'.to_list 9 = some (L.filter (fun p => decide (p.1 ≠ 2))) ∧
      ((2 : Int) ∈ L.map Prod.fst → n = 1 ∧
        (L.filter (fun p => decide (p.1 ≠ 2))).length + 1 = L.length) ∧
      ((2 : Int) ∉ L.map Prod.fst → n = 0 ∧ t' = t) ∧
      ((L = [] ∨ ∃ v, L = [((2 : Int), v)]) →
        t'.size = 0 ∧ t'.height = 0 ∧ t'.begin = t'.end_) :=
  ⟨by decide, C20_erase_contract _ 9 2 (by decide)⟩

/-- C21: every map reached by a sequence of calls, holding `n` entries and
having the height `h`, satisfies n ≥ Fib(h + 2) − 1 with Fib(1) = Fib(2) = 1;
the empty map has the height 0. -/
theorem C21_height_bound (ops : List map_op) (fuel : Nat)
    (hf : 2 * ops.length + 5 ≤ fuel) (hn : ops.length < 18446744073709551616) :
    ∃ rs t, map_run fuel ops avl_tree.init = some (rs, t) ∧
      Nat.fib (t.height + 2) - 1 ≤ t.size ∧
      Nat.fib 1 = 1 ∧ Nat.fib 2 = 1 ∧ avl_tree.init.height = 0 := by
  obtain ⟨rs, t, T, e, h, _, _, hlen⟩ := reach_spec ops fuel (by omega)
  obtain ⟨_, _, hfib, _⟩ := size_height_spec t T h (by omega)
  exact ⟨rs, t, e, by omega, rfl, rfl, (empty_spec avl_tree.init tr.nil init_inv rfl).2.1⟩

theorem C21_witness :
    2 * [map_op.emplace 2 20, map_op.emplace 1 10, map_op.emplace 3 30].length + 5 ≤ 11 ∧
    [map_op.emplace 2 20, map_op.emplace 1 10, map_op.emplace 3 30].length
      < 18446744073709551616 ∧
    ∃ rs t, map_run 11 [map_op.emplace 2 20, map_op.emplace 1 10, map_op.emplace 3 30]
        avl_tree.init = some (rs, t) ∧
      Nat.fib (t.height + 2) - 1 ≤ t.size ∧
      Nat.fib 1 = 1 ∧ Nat.fib 2 = 1 ∧ avl_tree.init.height = 0 :=
  ⟨by decide, by decide, C21_height_bound _ 11 (by decide) (by decide)⟩

/-- C22: on every map reached by a sequence of calls, for every valid hint
(every iterator from `begin()` to `end()`, `cbegin()` being one) and every
node handle holding `(k, v)`: when `k` is not in the map, `insert(hint, node)`
adds the pair, `find(k)` is then the iterator returned and not `end()`,
`size()` grows by one, the keys still increase strictly and `check()` still
passes; when `k` is in the map, the pairs, `size()` and every node of the map
stay as they are and the iterator returned is the one of the entry that
holds `k`. -/
theorem C22_insert_with_hint (ops : List map_op) (fuel : Nat) (k v : Int)
    (hf : 2 * ops.length + 5 ≤ fuel) (hn : ops.length + 1 < 18446744073709551616) :
    ∃ rs t L its, map_run fuel ops avl_tree.init = some (rs, t) ∧
      t.to_list fuel = some L ∧ t.iterators fuel = some its ∧ t.begin ∈ its ∧
      ∀ hint ∈ its, ∃ it t', reinsert_node_hint_unique fuel t hint k v = some (it, t') ∧
        (k ∉ L.map Prod.fst →
          t'.to_list fuel = some (ref_emplace L k v) ∧
          (t'.mem it).key = k ∧ (t'.mem it).val = v ∧
          t'.find fuel k = some it ∧ it ≠ t'.end_ ∧
          t'.size = t.size + 1 ∧
          ((ref_emplace L k v).map Prod.fst).Pairwise (fun a b => a < b) ∧
          t'.check fuel = some true) ∧
        (∀ v0, (k, v0) ∈ L →
          t'.to_list fuel = some L ∧ t'.size = t.size ∧ it ∈ its ∧
          (t'.mem it).key = k ∧ (t'.mem it).val = v0 ∧
          (∀ a ∈ its, t'.mem a = t.mem a) ∧ t'.check fuel = some true) := by
  obtain ⟨rs, t, T, e, h, _, _, hlen⟩ := reach_spec ops fuel (by omega)
  obtain ⟨hit, htl⟩ := traverse_spec fuel t T (by omega) h
  obtain ⟨hsz, _, _, hbeg⟩ := size_height_spec t T h (by omega)
  have hhT : header ∉ T.addrs := (List.nodup_cons.1 h.2.1).1
  refine ⟨rs, t, _, _, e, htl, hit, ?_, ?_⟩
  · rw [hbeg]
    by_cases hT : T.addrs = []
    · rw [hT]; simp [first_or]
    · exact List.mem_append_left _ (first_or_mem hT)
  intro hint hh
  obtain ⟨i, t', T', e1, hinv', hent', hlen', him, hik, hA, hP⟩ :=
    reinsert_spec fuel t T hint k v (by omega) h (mem_iterators hh)
  obtain ⟨_, htl'⟩ := traverse_spec fuel t' T' (by omega) hinv'
  obtain ⟨hsz', _⟩ := size_height_spec t' T' hinv' (by omega)
  have hhT' : header ∉ T'.addrs := (List.nodup_cons.1 hinv'.2.1).1
  refine ⟨i, t', e1, ?_, ?_⟩
  · intro hk
    have habs : ∀ a ∈ T.addrs, (t.mem a).key ≠ k :=
      fun a ha e => hk (keys_mem_entries.2 ⟨a, ha, e⟩)
    obtain ⟨hv, hl2⟩ := hA habs
    obtain ⟨it', hfind', _, hpres'⟩ := find_spec fuel t' T' k (by omega) hinv'
    have := hpres' i him hik
    subst this
    refine ⟨by rw [← hent']; exact htl', hik, hv, hfind',
      fun e => hhT' ((show it' = header from e) ▸ him),
      by rw [hsz', hsz, hl2], ?_, check_spec fuel t' T' (by omega) hinv'⟩
    rw [← hent']
    exact key_sorted_entries hinv'.2.2.2.2.1
  · intro v0 hin
    obtain ⟨x, hx, hxk, hxv⟩ := pair_mem_entries.1 hin
    obtain ⟨e2, e3, e4⟩ := hP x hx hxk
    obtain ⟨A, B, e0, hA', hB'⟩ := present_decomp h.2.2.2.2.1 hx
    have hp := (@entries_present t.mem A B x hA' hB' v).2.1
    rw [← e0, hxk] at hp
    obtain ⟨_, _, _, _, hz, _, hzh, hsame, _⟩ := create_node_spec t T k v h
    refine ⟨by rw [← hp, ← hent']; exact htl', by rw [hsz', hsz, e3],
      by rw [e2]; exact List.mem_append_left _ hx, hik, ?_, ?_,
      check_spec fuel t' T' (by omega) hinv'⟩
    · rw [e2, e4, hsame x (fun e => hz (e ▸ hx))]
      exact hxv
    · intro a ha
      rw [e4]
      apply hsame
      rcases mem_iterators ha with e | e
      · rw [e]; exact hzh.symm
      · exact fun e' => hz (e' ▸ e)

theorem C22_witness :
    2 * [map_op.emplace 2 20, map_op.emplace 1 10].length + 5 ≤ 9 ∧
    [map_op.emplace 2 20, map_op.emplace 1 10].length + 1 < 18446744073709551616 ∧
    ∃ rs t L its, map_run 9 [map_op.emplace 2 20, map_op.emplace 1 10] avl_tree.init
        = some (rs, t) ∧
      t.to_list 9 = some L ∧ t.iterators 9 = some its ∧ t.begin ∈ its ∧
      ∀ hint ∈ its, ∃ it t', reinsert_node_hint_unique 9 t hint 3 30 = some (it, t') ∧
        ((3 : Int) ∉ L.map Prod.fst →
          t'.to_list 9 = some (ref_emplace L 3 30) ∧
          (t'.mem it).key = 3 ∧ (t'.mem it).val = 30 ∧
          t'.find 9 3 = some it ∧ it ≠ t'.end_ ∧
          t'.size = t.size + 1 ∧
          ((ref_emplace L 3 30).map Prod.fst).Pairwise (fun a b => a < b) ∧
          t'.check 9 = some true) ∧
        (∀ v0, ((3 : Int), v0) ∈ L →
          t'.to_list 9 = some L ∧ t'.size = t.size ∧ it ∈ its ∧
          (t'.mem it).key = 3 ∧ (t'.mem it).val = v0 ∧
          (∀ a ∈ its, t'.mem a = t.mem a) ∧ t'.check 9 = some true) :=
  ⟨by decide, by decide, C22_insert_with_hint _ 9 3 30 (by decide) (by decide)⟩

/-! ## The index arithmetic and the bounds of `sink` for any arity -/

theorem builtin_ctz_le : ∀ (bits d : Nat), builtin_ctz bits d ≤ bits
  | 0, _ => le_refl _
  | bits + 1, d => by
    unfold builtin_ctz
    split
    · omega
    · have := builtin_ctz_le bits (d / 2)
      omega

theorem d_shift_le (d : Nat) : d_shift d ≤ 16 := builtin_ctz_le 16 d

theorem two_pow_d_shift_le (d : Nat) : 2 ^ d_shift d ≤ 65536 := by
  have h : (2 : Nat) ^ d_shift d ≤ 2 ^ 16 := Nat.pow_le_pow_right (by decide) (d_shift_le d)
  exact h

theorem is_power_of_two_two_pow (s : Nat) : is_power_of_two (2 ^ s) = true := by
  unfold is_power_of_two
  have h1 : 2 ^ s > 0 := Nat.two_pow_pos _
  have h2 : 2 ^ s &&& (2 ^ s - 1) = 0 := by
    rw [Nat.and_pow_two_sub_one_eq_mod, Nat.mod_self]
  simp [h1, h2]

/-- For a power of two the code computes the indices of a d-ary tree, as long
as `d * i + k + 1` fits in `size_t`. -/
theorem index_power_of_two (d i k : Nat) (hp : is_power_of_two d = true) (hd : 1 < d)
    (hk : k < d) (hlt : d * i + k + 1 < 18446744073709551616) :
    arity.child_index d i k = d * i + k + 1 ∧
    arity.parent_index d (arity.child_index d i k) = i := by
  have hc : arity.child_index d i k = d * i + k + 1 := by
    unfold arity.child_index
    rw [if_pos hp]
    exact Nat.mod_eq_of_lt hlt
  refine ⟨hc, ?_⟩
  rw [hc]
  unfold arity.parent_index
  rw [if_pos hp]
  have e : (d * i + k + 1 + 18446744073709551615) % 18446744073709551616 = d * i + k := by
    omega
  rw [e, Nat.add_comm (d * i) k, Nat.add_mul_div_left _ _ (by omega), Nat.div_eq_of_lt hk]
  omega

/-- For an arity that is not a power of two the first child of the index 1
is not at `d * 1 + 0 + 1`. -/
theorem child_index_not_power_of_two (d : Nat)
    (hp : is_power_of_two d = false) : arity.child_index d 1 0 ≠ d * 1 + 0 + 1 := by
  unfold arity.child_index
  rw [hp]
  simp only [Bool.false_eq_true, if_false, Nat.one_shiftLeft]
  have h1 := two_pow_d_shift_le d
  have h2 : 2 ^ d_shift d ≠ d := by
    intro e
    have := is_power_of_two_two_pow (d_shift d)
    rw [e, hp] at this
    exact Bool.false_ne_true this
  rw [Nat.mod_eq_of_lt (by omega)]
  omega

/-- In the branch of `sink` taken when `d` is above 8 or is not a power of
two, `sink(0)` on a vector that is not empty reads `data_[min_child]`, a
position that is not below the size of the vector. -/
theorem sink_reads_min_child {T : Type} (d : Nat) (h : nd_heap T) (hd : 1 < d)
    (hd16 : d < 65536) (hbr : (is_power_of_two d && decide (d ≤ 8)) = false)
    (hlen : 1 ≤ h.data_.length) (hsz : h.data_.length < 281474976710656) :
    arity.sink d h 0 = Except.error
        (fault.out_of_bounds (arity.child_index d h.data_.length 0) h.data_.length) ∧
      h.data_.length ≤ arity.child_index d h.data_.length 0 := by
  have hmc : h.data_.length ≤ arity.child_index d h.data_.length 0 := by
    unfold arity.child_index
    split
    · have : d * h.data_.length ≤ 65536 * h.data_.length := Nat.mul_le_mul_right _ (by omega)
      have h1 : 1 * h.data_.length ≤ d * h.data_.length := Nat.mul_le_mul_right _ (by omega)
      rw [Nat.mod_eq_of_lt (by omega)]
      omega
    · rw [Nat.shiftLeft_eq]
      have : h.data_.length * 2 ^ d_shift d ≤ h.data_.length * 65536 :=
        Nat.mul_le_mul_left _ (two_pow_d_shift_le d)
      have h1 : h.data_.length * 1 ≤ h.data_.length * 2 ^ d_shift d :=
        Nat.mul_le_mul_left _ (Nat.two_pow_pos _)
      rw [Nat.mod_eq_of_lt (by omega)]
      omega
  refine ⟨?_, hmc⟩
  have hread : ∀ D : List T, D.length = h.data_.length →
      arity.read D (arity.child_index d h.data_.length 0) = Except.error
        (fault.out_of_bounds (arity.child_index d h.data_.length 0) h.data_.length) := by
    intro D hD
    unfold arity.read
    rw [List.getElem?_eq_none (by omega), hD]
  obtain ⟨current, hcur⟩ : ∃ c, h.data_[0]? = some c :=
    ⟨h.data_[0], List.getElem?_eq_getElem (by omega)⟩
  obtain ⟨d', hd'⟩ : ∃ d', d = d' + 1 := ⟨d - 1, by omega⟩
  unfold arity.sink
  simp only [arity.read, hcur, hbr, Bool.false_eq_true, if_false]
  rw [arity.sink_loop_first, if_pos (by omega)]
  have hscan : arity.scan_children h.cmp_ h.data_ d 0 h.data_.length d 0
        (arity.child_index d h.data_.length 0)
        = Except.ok (arity.child_index d h.data_.length 0) ∨
      arity.scan_children h.cmp_ h.data_ d 0 h.data_.length d 0
        (arity.child_index d h.data_.length 0)
        = Except.error
          (fault.out_of_bounds (arity.child_index d h.data_.length 0) h.data_.length) := by
    have hu : ∀ n, arity.scan_children h.cmp_ h.data_ d 0 h.data_.length (n + 1) 0
          (arity.child_index d h.data_.length 0)
          = Except.ok (arity.child_index d h.data_.length 0) ∨
        arity.scan_children h.cmp_ h.data_ d 0 h.data_.length (n + 1) 0
          (arity.child_index d h.data_.length 0)
          = Except.error
            (fault.out_of_bounds (arity.child_index d h.data_.length 0) h.data_.length) := by
      intro n
      rw [arity.scan_children]
      by_cases hc : arity.child_index d 0 0 ≥ h.data_.length
      · left
        simp only [hc, if_true]
      · right
        simp only [hc, if_false]
        rw [hread h.data_ rfl]
    have := hu d'
    rw [← hd'] at this
    exact this
  rcases hscan with hs | hs
  · rw [hs]
    simp only
    rw [hread h.data_ rfl]
  · rw [hs]

theorem child_index_small (d i k : Nat) (hp : is_power_of_two d = true) (hd8 : d ≤ 8)
    (hi : i < 281474976710656) (hk : k < 8) : arity.child_index d i k = d * i + k + 1 := by
  unfold arity.child_index
  rw [if_pos hp]
  have : d * i ≤ 8 * i := Nat.mul_le_mul_right _ hd8
  exact Nat.mod_eq_of_lt (by omega)

theorem read_ok {T : Type} (data_ : List T) (pos : Nat) (h : pos < data_.length) :
    ∃ v, arity.read data_ pos = Except.ok v := by
  unfold arity.read
  rw [List.getElem?_eq_getElem h]
  exact ⟨_, rfl⟩

theorem write_ok {T : Type} (data_ : List T) (pos : Nat) (v : T) (h : pos < data_.length) :
    arity.write data_ pos v = Except.ok (data_.set pos v) := by
  unfold arity.write
  rw [if_pos h]

theorem find_extreme_child_in_bounds {T : Type} (cmp_ : T → T → Bool) (data_ : List T)
    (d index size : Nat) (hp : is_power_of_two d = true) (hd8 : d ≤ 8)
    (hsz : size < 281474976710656) (hlen : data_.length = size) (hi : index < size) :
    ∀ (n I e : Nat), I + n + 1 ≤ d → (e < size ∨ e = d * index + 1) → index < e →
    ∃ r, arity.find_extreme_child_impl cmp_ data_ d index size n I e = Except.ok r ∧
      (r < size ∨ r = d * index + 1) ∧ index < r
  | 0, _, e, _, he, hie => ⟨e, rfl, he, hie⟩
  | n + 1, I, e, hI, he, hie => by
    rw [arity.find_extreme_child_impl]
    rw [child_index_small d index (I + 1) hp hd8 (by omega) (by omega)]
    by_cases hc : d * index + (I + 1) + 1 < size
    · rw [if_pos hc]
      have he' : e < size := by
        rcases he with h | h
        · exact h
        · omega
      obtain ⟨a, r1⟩ := read_ok data_ e (by omega)
      obtain ⟨b, r2⟩ := read_ok data_ (d * index + (I + 1) + 1) (by omega)
      rw [r1, r2]
      simp only
      apply find_extreme_child_in_bounds cmp_ data_ d index size hp hd8 hsz hlen hi n (I + 1) _
        (by omega)
      · split
        · exact Or.inl hc
        · exact he
      · split
        · have : 1 * index ≤ d * index := Nat.mul_le_mul_right _ (by
            rcases Nat.eq_zero_or_pos d with h0 | h0
            · rw [h0] at hp; simp [is_power_of_two] at hp
            · exact h0)
          omega
        · exact hie
    · rw [if_neg hc]
      exact find_extreme_child_in_bounds cmp_ data_ d index size hp hd8 hsz hlen hi n (I + 1) e
        (by omega) he hie

theorem sink_loop_in_bounds {T : Type} (cmp_ : T → T → Bool) (current : T) (d size : Nat)
    (hp : is_power_of_two d = true) (hd : 1 < d) (hd8 : d ≤ 8)
    (hsz : size < 281474976710656) :
    ∀ (fuel : Nat) (data_ : List T) (index : Nat), data_.length = size → index < size →
    size - index < fuel →
    ∃ r, arity.sink_loop cmp_ current d size fuel data_ index = Except.ok r ∧
      r.1.length = size ∧ r.2 < size
  | 0, _, _, _, _, hf => by omega
  | fuel + 1, data_, index, hlen, hi, hf => by
    rw [arity.sink_loop]
    have hc0 := child_index_small d index 0 hp hd8 (by omega) (by omega)
    have h1 : 1 * index ≤ d * index := Nat.mul_le_mul_right _ (by omega)
    obtain ⟨e, he, hb, hie⟩ := find_extreme_child_in_bounds cmp_ data_ d index size hp hd8 hsz
      hlen hi (d - 1) 0 (arity.child_index d index 0) (by omega) (by rw [hc0]; right; omega)
      (by rw [hc0]; omega)
    rw [he]
    simp only
    by_cases hes : e ≥ size
    · rw [if_pos hes]
      exact ⟨_, rfl, hlen, hi⟩
    · rw [if_neg hes]
      obtain ⟨c, r1⟩ := read_ok data_ e (by omega)
      rw [r1]
      simp only
      split
      · exact ⟨_, rfl, hlen, hi⟩
      · rw [write_ok data_ index c (by omega)]
        simp only
        exact sink_loop_in_bounds cmp_ current d size hp hd hd8 hsz fuel _ e
          (by rw [List.length_set]; exact hlen) (by omega) (by omega)

/-- In the branch `is_power_of_two && d <= 8` (the arities 2, 4 and 8) `pop`
reads and writes inside the vector and returns. -/
theorem pop_swap_length {T : Type} (l : List T) (a b : T) :
    (((l.set 0 a).set (l.length - 1) b).dropLast).length = l.length - 1 := by
  simp

theorem pop_unfold {T : Type} (d : Nat) (h : nd_heap T) (hlen : 2 ≤ h.data_.length) :
    ∃ first back, arity.pop d h = arity.sink d
      { h with data_ := ((h.data_.set 0 back).set (h.data_.length - 1) first).dropLast } 0 := by
  unfold arity.pop
  have hne : h.data_.isEmpty = false := by
    cases hd : h.data_ with
    | nil => rw [hd] at hlen; simp at hlen
    | cons a l => rfl
  rw [hne]
  simp only [Bool.false_eq_true, if_false]
  rw [if_neg (by omega)]
  rw [List.getElem?_eq_getElem (by omega : 0 < h.data_.length),
    List.getElem?_eq_getElem (by omega : h.data_.length - 1 < h.data_.length)]
  exact ⟨_, _, rfl⟩

theorem sink_in_bounds_small {T : Type} (d : Nat) (h : nd_heap T)
    (hp : is_power_of_two d = true) (hd : 1 < d) (hd8 : d ≤ 8) (hlen : 1 ≤ h.data_.length)
    (hsz : h.data_.length < 281474976710656) :
    ∃ h', arity.sink d h 0 = Except.ok h' ∧ h'.data_.length = h.data_.length := by
  unfold arity.sink
  simp only
  obtain ⟨current, r0⟩ := read_ok h.data_ 0 (by omega)
  rw [r0]
  simp only
  rw [hp]
  simp only [Bool.true_and, decide_eq_true_eq, hd8, if_true]
  obtain ⟨⟨r1, r2⟩, hr, hl, hi⟩ := sink_loop_in_bounds h.cmp_ current d h.data_.length hp hd hd8
    hsz (h.data_.length + 1) h.data_ 0 rfl (by omega) (by omega)
  rw [hr]
  simp only at hl hi ⊢
  rw [write_ok r1 r2 current (by omega)]
  exact ⟨_, rfl, by simp [hl]⟩

/-- In the branch `is_power_of_two && d <= 8` (the arities 2, 4 and 8) `pop`
reads and writes inside the vector and returns. -/
theorem pop_in_bounds_small {T : Type} (d : Nat) (h : nd_heap T)
    (hp : is_power_of_two d = true) (hd : 1 < d) (hd8 : d ≤ 8) (hlen : 2 ≤ h.data_.length)
    (hsz : h.data_.length < 281474976710656) :
    ∃ h', arity.pop d h = Except.ok h' ∧ h'.data_.length = h.data_.length - 1 := by
  obtain ⟨first, back, e⟩ := pop_unfold d h hlen
  rw [e]
  have hD := pop_swap_length h.data_ back first
  obtain ⟨h', e1, e2⟩ := sink_in_bounds_small d
    { h with data_ := ((h.data_.set 0 back).set (h.data_.length - 1) first).dropLast } hp hd hd8
    (by simp only [hD]; omega) (by simp only [hD]; omega)
  exact ⟨h', e1, by rw [e2]; exact hD⟩

/-- C39, not as claimed: for every arity above 8 and every arity that is not
a power of two (the arities 16 to 1024 of the throughput test among them),
on every heap that holds at least two elements `pop()` reads `data_` at the
position `child_index(size, 0)`, which is not below the size of the vector:
the sink step is out of bounds. -/
theorem C39_pop_out_of_bounds_above_eight {T : Type} (d : Nat) (h : nd_heap T)
    (hd : 1 < d) (hd16 : d < 65536)
    (hbr : (is_power_of_two d && decide (d ≤ 8)) = false)
    (hlen : 2 ≤ h.data_.length) (hsz : h.data_.length < 281474976710656) :
    arity.pop d h = Except.error
        (fault.out_of_bounds (arity.child_index d (h.data_.length - 1) 0)
          (h.data_.length - 1)) ∧
      h.data_.length - 1 ≤ arity.child_index d (h.data_.length - 1) 0 := by
  obtain ⟨first, back, e⟩ := pop_unfold d h hlen
  rw [e]
  have hD := pop_swap_length h.data_ back first
  have := sink_reads_min_child d
    { h with data_ := ((h.data_.set 0 back).set (h.data_.length - 1) first).dropLast } hd hd16 hbr
    (by simp only [hD]; omega) (by simp only [hD]; omega)
  simp only [hD] at this
  exact this

theorem C39_witness :
    (1 : Nat) < 16 ∧ (16 : Nat) < 65536 ∧ (is_power_of_two 16 && decide (16 ≤ 8)) = false ∧
    2 ≤ ({ cmp_ := less_int, data_ := [2, 1] } : nd_heap Int).data_.length ∧
    ({ cmp_ := less_int, data_ := [2, 1] } : nd_heap Int).data_.length < 281474976710656 ∧
    (arity.pop 16 ({ cmp_ := less_int, data_ := [2, 1] } : nd_heap Int) = Except.error
        (fault.out_of_bounds
          (arity.child_index 16
            (({ cmp_ := less_int, data_ := [2, 1] } : nd_heap Int).data_.length - 1) 0)
          (({ cmp_ := less_int, data_ := [2, 1] } : nd_heap Int).data_.length - 1)) ∧
      ({ cmp_ := less_int, data_ := [2, 1] } : nd_heap Int).data_.length - 1
        ≤ arity.child_index 16
          (({ cmp_ := less_int, data_ := [2, 1] } : nd_heap Int).data_.length - 1) 0) :=
  ⟨by decide, by decide, by decide, by decide, by decide,
    C39_pop_out_of_bounds_above_eight 16 _ (by decide) (by decide) (by decide) (by decide)
      (by decide)⟩

/-- C40, not as claimed: the index arithmetic describes a d-ary tree when
`d` is a power of two (as long as `d * i + k + 1` fits in `size_t`); for
every `d` that is not a power of two the code shifts by the number of
trailing zero bits of `d`, so the first child of the index 1 is not at
`d * 1 + 0 + 1`; for `d = 3` the child `k = 1` of the index 1 is computed as
3, not 5, and its parent as 2, not 1. -/
theorem C40_index_arithmetic_only_for_powers_of_two :
    (∀ d i k, is_power_of_two d = true → 1 < d → k < d →
      d * i + k + 1 < 18446744073709551616 →
      arity.child_index d i k = d * i + k + 1 ∧
      arity.parent_index d (arity.child_index d i k) = i) ∧
    (∀ d, is_power_of_two d = false → arity.child_index d 1 0 ≠ d * 1 + 0 + 1) ∧
    is_power_of_two 3 = false ∧
    arity.child_index 3 1 1 = 3 ∧ 3 * 1 + 1 + 1 = 5 ∧
    arity.parent_index 3 (arity.child_index 3 1 1) = 2 ∧
    is_power_of_two 6 = false ∧
    arity.child_index 6 1 2 = 5 ∧ arity.parent_index 6 (arity.child_index 6 1 2) = 2 :=
  ⟨fun d i k hp hd hk hlt => index_power_of_two d i k hp hd hk hlt,
    fun d hp => child_index_not_power_of_two d hp,
    by decide, by decide, by decide, by decide, by decide, by decide, by decide⟩

/-! ## Stepping an iterator forth and back -/

theorem split_at_index (l : List Nat) (i a b : Nat) (ha : (l ++ [header])[i]? = some a)
    (hb : (l ++ [header])[i + 1]? = some b) :
    ∃ A B, l = A ++ a :: B ∧ first_or B = b ∧ (b ≠ header → ∃ B', B = b :: B') := by
  have hi : i < l.length := by
    by_contra hc
    have : (l ++ [header]).length ≤ i + 1 := by
      simp only [List.length_append, List.length_singleton]; omega
    rw [List.getElem?_eq_none this] at hb
    exact Option.noConfusion hb
  rw [List.getElem?_append_left hi, List.getElem?_eq_getElem hi] at ha
  injection ha with ha
  refine ⟨l.take i, l.drop (i + 1), ?_, ?_, ?_⟩
  · rw [← ha, ← List.drop_eq_getElem_cons hi, List.take_append_drop]
  · by_cases h2 : i + 1 < l.length
    · rw [List.getElem?_append_left h2, List.getElem?_eq_getElem h2] at hb
      injection hb with hb
      rw [List.drop_eq_getElem_cons h2, first_or_cons, hb]
    · rw [List.getElem?_append_right (by omega)] at hb
      have e : i + 1 - l.length = 0 := by omega
      rw [e] at hb
      simp only [List.getElem?_cons_zero, Option.some.injEq] at hb
      rw [List.drop_eq_nil_of_le (by omega), ← hb]
      rfl
  · intro hne
    by_cases h2 : i + 1 < l.length
    · rw [List.getElem?_append_left h2, List.getElem?_eq_getElem h2] at hb
      injection hb with hb
      exact ⟨l.drop (i + 1 + 1), by rw [List.drop_eq_getElem_cons h2, hb]⟩
    · exfalso
      rw [List.getElem?_append_right (by omega)] at hb
      have e : i + 1 - l.length = 0 := by omega
      rw [e] at hb
      simp only [List.getElem?_cons_zero, Option.some.injEq] at hb
      exact hne hb.symm

/-- Between two neighbours of the traversal, `++` leads from the first to the
second, and `--` leads back when the second is not `end()`. -/
theorem step_forth_and_back (ops : List map_op) (fuel : Nat)
    (hf : 2 * ops.length + 5 ≤ fuel) :
    ∃ rs t its, map_run fuel ops avl_tree.init = some (rs, t) ∧
      t.iterators fuel = some its ∧
      ∀ i a b, its[i]? = some a → its[i + 1]? = some b →
        avl_tree_increment fuel t.mem a = some b ∧
        (b ≠ t.end_ → avl_tree_decrement fuel t.mem b = some a) := by
  obtain ⟨rs, t, T, e, h, _, _, hlen⟩ := reach_spec ops fuel (by omega)
  obtain ⟨hit, _⟩ := traverse_spec fuel t T (by omega) h
  refine ⟨rs, t, _, e, hit, ?_⟩
  intro i a b ha hb
  obtain ⟨hw, hnd, _⟩ := h
  obtain ⟨A, B, e0, e1, e2⟩ := split_at_index T.addrs i a b ha hb
  refine ⟨?_, ?_⟩
  · rw [increment_at T A B a fuel (by omega) hnd hw.1 hw.2.1 e0, e1]
  · intro hne
    obtain ⟨B', e3⟩ := e2 hne
    have e4 : T.addrs = (A ++ [a]) ++ b :: B' := by rw [e0, e3]; simp
    rw [decrement_at T (A ++ [a]) B' b fuel (by omega) hnd hw.1 hw.2.1 e4 (by simp),
      last_or_append_cons]
    rfl

theorem short_of_low : ∀ (t : tr), t.ht ≤ 1 → t.addrs.length ≤ 1
  | .nil, _ => by simp [tr.addrs]
  | .node l a r, h => by
    simp only [tr.ht] at h
    have hl0 := tr_ht_nonneg l
    have hr0 := tr_ht_nonneg r
    have el : l = tr.nil := by
      cases l with
      | nil => rfl
      | node ll b lr =>
        have := tr_ht_node_pos ll b lr
        omega
    have er : r = tr.nil := by
      cases r with
      | nil => rfl
      | node rl b rr =>
        have := tr_ht_node_pos rl b rr
        omega
    subst el er
    simp [tr.addrs]

/-- What `--end()` returns on a map that is not empty: the rightmost node
below the leftmost node, which is the first or the second node of the
traversal. -/
theorem decrement_of_end (t : avl_tree) (T : tr) (fuel : Nat) (h : avl_inv t T)
    (hf : T.addrs.length + 1 < fuel) (hne : T.addrs ≠ []) :
    ∃ it P Q, avl_tree_decrement fuel t.mem header = some it ∧ T.addrs = P ++ Q ∧
      it ∈ P ∧ P.length ≤ 2 := by
  obtain ⟨hw, hnd, hl, hr, hs, hc, hb, h2⟩ := h
  have hTn : T ≠ tr.nil := fun e => hne (tr_addrs_eq_nil.2 e)
  have hhT : header ∉ T.addrs := (List.nodup_cons.1 hnd).1
  have h0T : (0 : Nat) ∉ T.addrs := own_zero_not_mem T header hw.1
  obtain ⟨B, hB⟩ := first_or_decomp hne
  have hlen1 : 1 ≤ T.addrs.length := by
    rw [hB]; simp
  obtain ⟨x, hx⟩ : ∃ x, x = first_or T.addrs := ⟨_, rfl⟩
  rw [← hx] at hB hl
  have hxm : x ∈ T.addrs := by rw [hx]; exact first_or_mem hne
  obtain ⟨c, l, r, e⟩ := exists_ctx T x hxm
  have h1 : T.addrs = (ctx_before c ++ l.addrs) ++ x :: (r.addrs ++ ctx_after c) := by
    rw [e, plug_addrs]
    simp only [tr.addrs, List.append_assoc, List.cons_append]
  have hB' : T.addrs = [] ++ x :: B := hB
  have hnd' := (List.nodup_cons.1 hnd).2
  have hd := nodup_decomp (by rw [← h1]; exact hnd') (h1.symm.trans hB')
  have hln : l = tr.nil := by
    have : l.addrs = [] := (List.append_eq_nil.1 hd.1).2
    exact tr_addrs_eq_nil.1 this
  have hcb : ctx_before c = [] := (List.append_eq_nil.1 hd.1).1
  subst hln
  have hown : own t.mem (tr.node tr.nil x r) (ctx_par c) := by
    have := (own_plug c (tr.node tr.nil x r)).1 (by rw [← e]; exact ⟨hw.1, hw.2.1⟩)
    exact this.1
  have hbal : (tr.node tr.nil x r).bal := by
    have := (bal_plug c (tr.node tr.nil x r)).1 (by rw [← e]; exact hw.2.2.2)
    exact this.1
  have hrl : r.addrs.length ≤ 1 := by
    apply short_of_low
    have := hbal.2.2.2
    simp only [tr.ht] at this
    omega
  have hmax := maximum_spec tr.nil x r (ctx_par c) fuel hown (by
    simp only [tr.addrs, List.nil_append, List.length_cons]
    omega)
  have hx0 : x ≠ 0 := fun e' => h0T (e' ▸ hxm)
  have hroot : ¬ T.root = header := by
    intro e'
    rcases root_cases T with ⟨e1, _⟩ | ⟨_, e2⟩
    · exact hTn e1
    · exact hhT (e' ▸ e2)
  refine ⟨last_or (tr.node tr.nil x r).addrs,
    (tr.node tr.nil x r).addrs, ctx_after c, ?_, ?_, last_or_mem (by simp [tr.addrs]),
    by simp only [tr.addrs, List.nil_append, List.length_cons]; omega⟩
  · unfold avl_tree_decrement
    rw [if_neg header_ne_zero, hw.2.1, if_neg hroot, hl, if_pos hx0]
    exact hmax
  · rw [h1, hcb]
    simp [tr.addrs]

/-- C38, not as claimed: on every map reached by a sequence of calls that
holds at least three entries, `--end()` returns an iterator whose key is less
than another key of the map, so it is not the entry with the greatest key;
and for the entry `last` with `++last == end()`, `--(++last)` is that
iterator and not `last`. -/
theorem C38_decrement_of_end_is_not_the_greatest (ops : List map_op) (fuel : Nat)
    (hf : 2 * ops.length + 5 ≤ fuel) :
    ∃ rs t L, map_run fuel ops avl_tree.init = some (rs, t) ∧ t.to_list fuel = some L ∧
      (3 ≤ L.length → ∃ it last, avl_tree_decrement fuel t.mem t.end_ = some it ∧
        (∃ p ∈ L, (t.mem it).key < p.1) ∧
        avl_tree_increment fuel t.mem last = some t.end_ ∧
        ((t.mem last).key, (t.mem last).val) ∈ L ∧ it ≠ last) := by
  obtain ⟨rs, t, T, e, h, _, _, hlen⟩ := reach_spec ops fuel (by omega)
  obtain ⟨_, htl⟩ := traverse_spec fuel t T (by omega) h
  refine ⟨rs, t, _, e, htl, ?_⟩
  intro h3
  rw [entries_length] at h3
  have hne : T.addrs ≠ [] := by
    intro e'
    rw [e'] at h3
    simp at h3
  obtain ⟨it, P, Q, e1, e2, e3, e4⟩ := decrement_of_end t T fuel h (by omega) hne
  obtain ⟨A, hA⟩ := last_or_decomp hne
  have hQ : Q ≠ [] := by
    intro e'
    rw [e2, e', List.append_nil] at h3
    omega
  have hlast : last_or T.addrs ∈ Q := by
    rw [e2, last_or_append_of_ne _ _ hQ]
    exact last_or_mem hQ
  have hs := h.2.2.2.2.1
  rw [e2, key_sorted_append] at hs
  have hlt := hs.2.2 it e3 _ hlast
  have hlm : last_or T.addrs ∈ T.addrs := last_or_mem hne
  refine ⟨it, last_or T.addrs, e1, ⟨_, pair_mem_entries.2 ⟨_, hlm, rfl, rfl⟩, hlt⟩, ?_,
    pair_mem_entries.2 ⟨_, hlm, rfl, rfl⟩, ?_⟩
  · rw [increment_at T A [] _ fuel (by omega) h.2.1 h.1.1 h.1.2.1 hA]
    rfl
  · intro e'
    rw [e'] at hlt
    exact lt_irrefl _ hlt

theorem C38_witness :
    2 * [map_op.emplace 1 10, map_op.emplace 2 20, map_op.emplace 3 30].length + 5 ≤ 11 ∧
    ∃ rs t L, map_run 11 [map_op.emplace 1 10, map_op.emplace 2 20, map_op.emplace 3 30]
        avl_tree.init = some (rs, t) ∧ t.to_list 11 = some L ∧
      (3 ≤ L.length → ∃ it last, avl_tree_decrement 11 t.mem t.end_ = some it ∧
        (∃ p ∈ L, (t.mem it).key < p.1) ∧
        avl_tree_increment 11 t.mem last = some t.end_ ∧
        ((t.mem last).key, (t.mem last).val) ∈ L ∧ it ≠ last) :=
  ⟨by decide, C38_decrement_of_end_is_not_the_greatest _ 11 (by decide)⟩

end alp_utils
